import Mathlib

/-!
# libcfgcli: a shallow embedding of `src/libcfgcli.c`

Conventions of the embedding.

* A byte is a `Char`; the character classes are those of the "C" locale.
* A C string handed in by the caller (a name, an option, a help text, an element of
  `argv`) is the `List Char` of its bytes before the terminating NUL; a null pointer to
  such a string is `none`.
* A buffer that the code scans and rewrites in place (the chunk of the file reader, the
  value text of a parameter) is a `List Char` that may hold NUL bytes; pointers into it
  are indices.
* Addresses (`var`, `func`, `args`) are natural numbers, `0` being the null pointer.  The
  contents of the caller's slot `*var` are kept next to the parameter in the field `slot`.
* Heap allocation is taken to succeed; the diagnostics buffer is the list of its entries.
* A call that dereferences a null pointer yields `run_t.undef`; a loop of the model that
  exhausts its step budget yields `run_t.nofuel`.
-/

namespace Cfgcli

/-! ## Results of a run -/

/-- Result of running a piece of the program. -/
inductive run_t (α : Type) where
  | ret : α → run_t α
  | undef : run_t α
  | nofuel : run_t α
  deriving DecidableEq, Repr

/-! ## Characters and strings -/

/-- The terminating byte of C strings. -/
def NUL : Char := Char.ofNat 0

def isalpha (c : Char) : Bool :=
  (65 ≤ c.toNat && c.toNat ≤ 90) || (97 ≤ c.toNat && c.toNat ≤ 122)

def isdigit (c : Char) : Bool := 48 ≤ c.toNat && c.toNat ≤ 57

def isalnum (c : Char) : Bool := isalpha c || isdigit c

def isspace (c : Char) : Bool := c.toNat == 32 || (9 ≤ c.toNat && c.toNat ≤ 13)

def isgraph (c : Char) : Bool := 33 ≤ c.toNat && c.toNat ≤ 126

def isprint (c : Char) : Bool := 32 ≤ c.toNat && c.toNat ≤ 126

/-- The byte `s[i]` of a C string given by its bytes: the terminator past the end. -/
def char_at (s : List Char) (i : Nat) : Char := s.getD i NUL

/-- The bytes of the C string that starts at index `p` of a buffer. -/
def cstr_at (buf : List Char) (p : Nat) : List Char :=
  (buf.drop p).takeWhile (fun c => c != NUL)

/-- Function `strncmp(a, b, n) == 0` on two C strings given by their bytes. -/
def strncmp0 (a b : List Char) (n : Nat) : Bool :=
  (a ++ [NUL]).take n == (b ++ [NUL]).take n

/-- Store `c` at index `i` of a buffer. -/
def poke (buf : List Char) (i : Nat) (c : Char) : List Char := buf.set i c

/-- Store the bytes `data` from index `off` of the chunk on. -/
def store (chunk : List Char) (off : Nat) (data : List Char) : List Char :=
  chunk.take off ++ data ++ chunk.drop (off + data.length)

/-! ## Constants of the source -/

def SIZE_MOD : Nat := 2 ^ 64

def CFGCLI_STR_INIT_SIZE : Nat := 1024
def CFGCLI_STR_MAX_DOUBLE_SIZE : Nat := 134217728

def CFGCLI_SRC_NULL : Int := 0
def CFGCLI_SRC_OF_OPT (x : Int) : Int := -x
def CFGCLI_SRC_VAL (x : Int) : Int := if x < 0 then -x else x

def CFGCLI_ERR_INIT : Int := -1
def CFGCLI_ERR_MEMORY : Int := -2
def CFGCLI_ERR_INPUT : Int := -3
def CFGCLI_ERR_EXIST : Int := -4
def CFGCLI_ERR_VALUE : Int := -5
def CFGCLI_ERR_PARSE : Int := -6
def CFGCLI_ERR_DTYPE : Int := -7
def CFGCLI_ERR_CMD : Int := -8
def CFGCLI_ERR_FILE : Int := -9
def CFGCLI_ERR_UNKNOWN : Int := -99

def CFGCLI_DTYPE_NULL : Int := 0
def CFGCLI_DTYPE_BOOL : Int := 1
def CFGCLI_DTYPE_CHAR : Int := 2
def CFGCLI_DTYPE_INT : Int := 3
def CFGCLI_DTYPE_LONG : Int := 4
def CFGCLI_DTYPE_FLT : Int := 5
def CFGCLI_DTYPE_DBL : Int := 6
def CFGCLI_DTYPE_STR : Int := 7
def CFGCLI_ARRAY_BOOL : Int := 8
def CFGCLI_ARRAY_CHAR : Int := 9
def CFGCLI_ARRAY_INT : Int := 10
def CFGCLI_ARRAY_LONG : Int := 11
def CFGCLI_ARRAY_FLT : Int := 12
def CFGCLI_ARRAY_DBL : Int := 13
def CFGCLI_ARRAY_STR : Int := 14

def CFGCLI_DTYPE_INVALID (x : Int) : Bool := x < CFGCLI_DTYPE_BOOL || x > CFGCLI_ARRAY_STR
def CFGCLI_DTYPE_IS_ARRAY (x : Int) : Bool := x ≥ CFGCLI_ARRAY_BOOL && x ≤ CFGCLI_ARRAY_STR

def CFGCLI_MAX_NAME_LEN : Nat := 128
def CFGCLI_MAX_LOPT_LEN : Nat := 128
def CFGCLI_MAX_HELP_LEN : Nat := 1024
def CFGCLI_MAX_FILENAME_LEN : Nat := 1024

def CFGCLI_SYM_EQUAL : Char := '='
def CFGCLI_SYM_ARRAY_START : Char := '['
def CFGCLI_SYM_ARRAY_END : Char := ']'
def CFGCLI_SYM_ARRAY_SEP : Char := ','
def CFGCLI_SYM_COMMENT : Char := '#'
def CFGCLI_SYM_NEWLINE : Char := '\\'
def CFGCLI_CMD_FLAG : Char := '-'
def CFGCLI_CMD_ASSIGN : Char := '='

/-! ## Data structures -/

/-- One scalar held by a destination slot. -/
inductive scalar_t where
  | null : scalar_t
  | bool : Bool → scalar_t
  | char : Char → scalar_t
  | int : Int → scalar_t
  | long : Int → scalar_t
  | flt : Int → scalar_t
  | dbl : Int → scalar_t
  | str : List Char → scalar_t
  deriving DecidableEq, Repr

/-- Contents of the caller's destination slot `*var`. -/
inductive slot_t where
  | untouched : slot_t
  | scalar : scalar_t → slot_t
  | array : List scalar_t → slot_t
  deriving DecidableEq, Repr

/-- Interface record `cfgcli_param_t`. -/
structure cfgcli_param_t where
  opt : Char
  lopt : Option (List Char)
  name : Option (List Char)
  dtype : Int
  var : Nat
  help : Option (List Char)
  deriving DecidableEq, Repr

/-- Interface record `cfgcli_func_t`. -/
structure cfgcli_func_t where
  opt : Char
  lopt : Option (List Char)
  func : Nat
  args : Nat
  help : Option (List Char)
  deriving DecidableEq, Repr

/-- Verified parameter `cfgcli_param_valid_t`, with the contents of `*var` in `slot`. -/
structure cfgcli_param_valid_t where
  dtype : Int
  src : Int
  opt : Char
  narr : Nat
  nlen : Nat
  llen : Nat
  vlen : Nat
  hlen : Nat
  name : Option (List Char)
  lopt : Option (List Char)
  value : Option (List Char)
  var : Nat
  help : Option (List Char)
  slot : slot_t
  deriving DecidableEq, Repr

/-- Verified function `cfgcli_func_valid_t`. -/
structure cfgcli_func_valid_t where
  called : Bool
  opt : Char
  llen : Nat
  hlen : Nat
  lopt : Option (List Char)
  func : Nat
  args : Nat
  help : Option (List Char)
  deriving DecidableEq, Repr

/-- Diagnostics `cfgcli_error_t`: the sticky code and the recorded entries, oldest first
(`num` of the source is the number of entries). -/
structure cfgcli_error_t where
  errno : Int
  msg : List (List Char)
  deriving DecidableEq, Repr

/-- Registry `cfgcli_t`.  The arrays `params` and `funcs` are the allocated arrays, of which
the first `npar` and `nfunc` entries are registered; `calls` logs the callbacks invoked so
far as pairs (function pointer, argument pointer), oldest first. -/
structure cfgcli_t where
  npar : Nat
  nfunc : Nat
  params : List cfgcli_param_valid_t
  funcs : List cfgcli_func_valid_t
  error : cfgcli_error_t
  calls : List (Nat × Nat)
  deriving DecidableEq, Repr

/-- A zeroed `cfgcli_param_valid_t` (what `memset` leaves). -/
def param_zero : cfgcli_param_valid_t :=
  { dtype := 0, src := 0, opt := NUL, narr := 0, nlen := 0, llen := 0, vlen := 0, hlen := 0,
    name := none, lopt := none, value := none, var := 0, help := none,
    slot := slot_t.untouched }

/-- A zeroed `cfgcli_func_valid_t`. -/
def func_zero : cfgcli_func_valid_t :=
  { called := false, opt := NUL, llen := 0, hlen := 0, lopt := none, func := 0, args := 0,
    help := none }

def CFGCLI_ERRNO (cfg : cfgcli_t) : Int := cfg.error.errno
def CFGCLI_IS_ERROR (cfg : cfgcli_t) : Bool := CFGCLI_ERRNO cfg != 0

/-- Function `cfgcli_msg`: append `msg` or `msg: key` to the diagnostics. -/
def cfgcli_msg (cfg : cfgcli_t) (msg : List Char) (key : Option (List Char)) : cfgcli_t :=
  if msg = [] then cfg
  else
    match key with
    | none => { cfg with error := { cfg.error with msg := cfg.error.msg ++ [msg] } }
    | some [] => { cfg with error := { cfg.error with msg := cfg.error.msg ++ [msg] } }
    | some k =>
      { cfg with error := { cfg.error with msg := cfg.error.msg ++ [msg ++ [':', ' '] ++ k] } }

/-- The statement `return CFGCLI_ERRNO(cfg) = code;`. -/
def fail_with (cfg : cfgcli_t) (code : Int) : run_t (Int × cfgcli_t) :=
  run_t.ret (code, { cfg with error := { cfg.error with errno := code } })

/-- Function `cfgcli_init`. -/
def cfgcli_init : cfgcli_t :=
  { npar := 0, nfunc := 0, params := [], funcs := [], error := { errno := 0, msg := [] },
    calls := [] }

/-! ## Registration -/

/-- The scan of the rest of a parameter name in `cfgcli_set_params` (from `j = 1`): the
final `j`, or `none` when a character is rejected or the name is too long. -/
def name_scan : List Char → Nat → Option Nat
  | [], j => some j
  | c :: cs, j =>
    if !isalnum c && c != '_' && c != '-' then none
    else if j + 1 ≥ CFGCLI_MAX_NAME_LEN then none
    else name_scan cs (j + 1)

/-- Result of the `do ... while` scan of a long option. -/
inductive lopt_scan_t where
  | ends : Nat → lopt_scan_t
  | bad : lopt_scan_t
  | toolong : lopt_scan_t
  deriving DecidableEq, Repr

/-- The `do ... while` scan of a non-empty long option, from index `j`. -/
def lopt_scan : List Char → Nat → lopt_scan_t
  | [], j => lopt_scan_t.ends j
  | c :: cs, j =>
    if !isgraph c || c == CFGCLI_CMD_ASSIGN then lopt_scan_t.bad
    else if j + 1 ≥ CFGCLI_MAX_LOPT_LEN then lopt_scan_t.toolong
    else lopt_scan cs (j + 1)

/-- The scan of a help text: `false` when it is too long. -/
def help_scan (help : List Char) : Bool := decide (help.length < CFGCLI_MAX_HELP_LEN)

/-- The string `opt` of the source: `-x` for a short option `x`, empty otherwise. -/
def opt_string (opt : Char) : List Char := if opt = NUL then [] else ['-', opt]

/-- The string `tmp` once it holds the short option. -/
def opt_tmp (opt : Char) : List Char := if opt = NUL then [] else [opt]

/-- The loop that compares a new parameter with the entries `vpar[0 .. npar + i)`.
`none`: a null name was dereferenced; `some none`: no duplicate; `some (some m)`: the
message and key of the duplicate found. -/
def param_dup_params (par : cfgcli_param_valid_t) (pname : List Char) :
    List cfgcli_param_valid_t → Option (Option (List Char × Option (List Char)))
  | [] => some none
  | v :: vs =>
    match v.name with
    | none => none
    | some vname =>
      if strncmp0 pname vname par.nlen then
        some (some ("duplicate parameter name".toList, some pname))
      else if par.opt != NUL && par.opt == v.opt then
        some (some ("duplicate short command line option".toList, some (opt_tmp par.opt)))
      else
        match par.lopt, v.lopt with
        | some pl, some vl =>
          if strncmp0 pl vl par.llen then
            some (some ("duplicate long command line option".toList, some pl))
          else param_dup_params par pname vs
        | _, _ => param_dup_params par pname vs

/-- The loop that compares a new parameter with the registered functions. -/
def param_dup_funcs (par : cfgcli_param_valid_t) :
    List cfgcli_func_valid_t → Option (List Char × Option (List Char))
  | [] => none
  | f :: fs =>
    if par.opt != NUL && par.opt == f.opt then
      some ("duplicate short command line option".toList, some (opt_tmp par.opt))
    else
      match par.lopt, f.lopt with
      | some pl, some fl =>
        if strncmp0 pl fl par.llen then
          some ("duplicate long command line option".toList, some pl)
        else param_dup_funcs par fs
      | _, _ => param_dup_funcs par fs

/-- The verification of the long option of a parameter or function: the diagnostics after
it, the accepted option with its `llen`, and whether the call returns at once. -/
def verify_lopt (cfg : cfgcli_t) (lopt : Option (List Char)) (msg : List Char)
    (key : Option (List Char)) : cfgcli_t × Option (List Char × Nat) × Bool :=
  match lopt with
  | none => (cfg, none, false)
  | some [] => (cfg, none, false)
  | some s =>
    match lopt_scan s 0 with
    | lopt_scan_t.ends j => (cfg, some (s, j + 1), false)
    | lopt_scan_t.bad => (cfgcli_msg cfg msg key, none, false)
    | lopt_scan_t.toolong => (cfgcli_msg cfg msg key, none, true)

/-- Store entry `par` at index `k` of the parameter array. -/
def put_param (cfg : cfgcli_t) (k : Nat) (par : cfgcli_param_valid_t) : cfgcli_t :=
  { cfg with params := cfg.params.set k par }

/-- One pass of the registration loop of `cfgcli_set_params` for descriptor `d` with index
`i` of the call; `cfg.params` is the reallocated array.  Code 0: the pass ran to its end. -/
def set_params_body (cfg : cfgcli_t) (i : Nat) (d : cfgcli_param_t) :
    run_t (Int × cfgcli_t) :=
  let k := cfg.npar + i
  let par0 : cfgcli_param_valid_t :=
    { (cfg.params.getD k param_zero) with
      dtype := CFGCLI_DTYPE_NULL, src := CFGCLI_SRC_NULL, help := none, name := none,
      lopt := none, value := none, var := 0 }
  let cfg := put_param cfg k par0
  let tmp := Nat.toDigits 10 i
  let badname := "invalid parameter name in the list with index".toList
  match d.name with
  | none => fail_with (cfgcli_msg cfg badname (some tmp)) CFGCLI_ERR_INPUT
  | some [] => fail_with (cfgcli_msg cfg badname (some tmp)) CFGCLI_ERR_INPUT
  | some (c :: cs) =>
    if !isalpha c && c != '_' && c != '-' then
      fail_with (cfgcli_msg cfg badname (some tmp)) CFGCLI_ERR_INPUT
    else
    match name_scan cs 1 with
    | none => fail_with (cfgcli_msg cfg badname (some tmp)) CFGCLI_ERR_INPUT
    | some j =>
      let str := c :: cs
      let par1 := { par0 with name := some str, nlen := j + 1 }
      let cfg := put_param cfg k par1
      if CFGCLI_DTYPE_INVALID d.dtype then
        fail_with (cfgcli_msg cfg "invalid data type for parameter".toList (some str))
          CFGCLI_ERR_INPUT
      else
      let par2 := { par1 with dtype := d.dtype }
      let cfg := put_param cfg k par2
      if d.var = 0 then
        fail_with (cfgcli_msg cfg "variable unset for parameter".toList (some str))
          CFGCLI_ERR_INPUT
      else
      let par3 := { par2 with var := d.var }
      let par4 := if isalpha d.opt then { par3 with opt := d.opt } else par3
      let cfg := put_param cfg k par4
      let cfg :=
        if !isalpha d.opt && d.opt != NUL then
          cfgcli_msg cfg "invalid short command line option for parameter".toList (some str)
        else cfg
      let opt := if isalpha d.opt then opt_string par4.opt else []
      match verify_lopt cfg d.lopt "invalid long command line option for parameter".toList
          (some str) with
      | (cfg, _, true) => fail_with cfg CFGCLI_ERR_INPUT
      | (cfg, lo, false) =>
        let par5 :=
          match lo with
          | some (s, llen) => { par4 with lopt := some s, llen := llen }
          | none => par4
        let cfg := put_param cfg k par5
        match d.help with
        | none => run_t.undef
        | some help =>
          if !help_scan help then
            fail_with
              (cfgcli_msg cfg "invalid help (too long) for parameter".toList
                (some (match par5.lopt with
                  | some l => l
                  | none => opt)))
              CFGCLI_ERR_INPUT
          else
          let par6 := { par5 with help := some help, hlen := help.length + 1 }
          let cfg := put_param cfg k par6
          match param_dup_params par6 str (cfg.params.take k) with
          | none => run_t.undef
          | some (some (m, key)) => fail_with (cfgcli_msg cfg m key) CFGCLI_ERR_EXIST
          | some none =>
            match param_dup_funcs par6 (cfg.funcs.take cfg.nfunc) with
            | some (m, key) => fail_with (cfgcli_msg cfg m key) CFGCLI_ERR_EXIST
            | none => run_t.ret (0, cfg)

/-- The registration loop of `cfgcli_set_params` from index `i` of the call. -/
def set_params_loop (cfg : cfgcli_t) (i : Nat) : List cfgcli_param_t → run_t (Int × cfgcli_t)
  | [] => run_t.ret (0, cfg)
  | d :: ds =>
    match set_params_body cfg i d with
    | run_t.ret (code, cfg1) =>
      if code = 0 then set_params_loop cfg1 (i + 1) ds else run_t.ret (code, cfg1)
    | run_t.undef => run_t.undef
    | run_t.nofuel => run_t.nofuel

/-- Function `cfgcli_set_params`; `param` is the array of `npar = param.length` records. -/
def cfgcli_set_params (cfg : cfgcli_t) (param : List cfgcli_param_t) :
    run_t (Int × cfgcli_t) :=
  if CFGCLI_IS_ERROR cfg then run_t.ret (CFGCLI_ERRNO cfg, cfg)
  else if param = [] then
    fail_with (cfgcli_msg cfg "the parameter list is not set".toList none) CFGCLI_ERR_INPUT
  else
    let vpar := cfg.params.take cfg.npar ++ List.replicate param.length param_zero
    match set_params_loop { cfg with params := vpar } 0 param with
    | run_t.ret (code, cfg1) =>
      if code = 0 then run_t.ret (0, { cfg1 with npar := cfg1.npar + param.length })
      else run_t.ret (code, cfg1)
    | run_t.undef => run_t.undef
    | run_t.nofuel => run_t.nofuel

/-- The loop that compares a new function with the entries `vfunc[0 .. nfunc + i)`; `idx`
is the string of the index of the new function in the call. -/
def func_dup_funcs (fn : cfgcli_func_valid_t) (idx : List Char) :
    List cfgcli_func_valid_t → Option (List Char × Option (List Char))
  | [] => none
  | v :: vs =>
    if fn.func == v.func && fn.args == v.args then
      some ("duplicate function with index".toList, some idx)
    else if fn.opt != NUL && fn.opt == v.opt then
      some ("duplicate short command line option".toList, some (opt_tmp fn.opt))
    else
      match fn.lopt, v.lopt with
      | some fl, some vl =>
        if strncmp0 fl vl fn.llen then
          some ("duplicate long command line option".toList, some fl)
        else func_dup_funcs fn idx vs
      | _, _ => func_dup_funcs fn idx vs

/-- The loop that compares a new function with the registered parameters. -/
def func_dup_params (fn : cfgcli_func_valid_t) :
    List cfgcli_param_valid_t → Option (List Char × Option (List Char))
  | [] => none
  | p :: ps =>
    if fn.opt != NUL && fn.opt == p.opt then
      some ("duplicate short command line option".toList, some (opt_tmp fn.opt))
    else
      match fn.lopt, p.lopt with
      | some fl, some pl =>
        if strncmp0 fl pl fn.llen then
          some ("duplicate long command line option".toList, some fl)
        else func_dup_params fn ps
      | _, _ => func_dup_params fn ps

/-- Store entry `fn` at index `k` of the function array. -/
def put_func (cfg : cfgcli_t) (k : Nat) (fn : cfgcli_func_valid_t) : cfgcli_t :=
  { cfg with funcs := cfg.funcs.set k fn }

/-- One pass of the registration loop of `cfgcli_set_funcs` for descriptor `d` with index
`i` of the call.  Code 0: the pass ran to its end. -/
def set_funcs_body (cfg : cfgcli_t) (i : Nat) (d : cfgcli_func_t) : run_t (Int × cfgcli_t) :=
  let k := cfg.nfunc + i
  let fun0 : cfgcli_func_valid_t :=
    { (cfg.funcs.getD k func_zero) with lopt := none, func := 0, args := 0, help := none }
  let tmp := Nat.toDigits 10 i
  let fun1 := if isalpha d.opt then { fun0 with opt := d.opt } else fun0
  let cfg := put_func cfg k fun1
  let cfg :=
    if !isalpha d.opt && d.opt != NUL then
      cfgcli_msg cfg "invalid short command line option for function index".toList (some tmp)
    else cfg
  let opt := if isalpha d.opt then opt_string fun1.opt else []
  match verify_lopt cfg d.lopt "invalid long command line option for function index".toList
      (some tmp) with
  | (cfg, _, true) => fail_with cfg CFGCLI_ERR_INPUT
  | (cfg, lo, false) =>
    let fun2 :=
      match lo with
      | some (s, llen) => { fun1 with lopt := some s, llen := llen }
      | none => fun1
    let cfg := put_func cfg k fun2
    if fun2.opt = NUL && fun2.lopt = none then
      fail_with
        (cfgcli_msg cfg "no valid command line option for function index".toList (some tmp))
        CFGCLI_ERR_INPUT
    else
    let fun3 := { fun2 with func := d.func }
    let cfg := put_func cfg k fun3
    if d.func = 0 then
      fail_with (cfgcli_msg cfg "function not set with index".toList (some tmp))
        CFGCLI_ERR_INPUT
    else
    let fun4 := { fun3 with args := d.args }
    let cfg := put_func cfg k fun4
    if (match d.help with
        | some help => !help_scan help
        | none => false) then
      fail_with
        (cfgcli_msg cfg "invalid help (too long) for function".toList
          (some (match fun4.lopt with
            | some l => l
            | none => opt)))
        CFGCLI_ERR_INPUT
    else
    let fun5 :=
      match d.help with
      | some help => { fun4 with help := some help, hlen := help.length + 1 }
      | none => fun4
    let cfg := put_func cfg k fun5
    match func_dup_funcs fun5 tmp (cfg.funcs.take k) with
    | some (m, key) => fail_with (cfgcli_msg cfg m key) CFGCLI_ERR_EXIST
    | none =>
      match func_dup_params fun5 (cfg.params.take cfg.npar) with
      | some (m, key) => fail_with (cfgcli_msg cfg m key) CFGCLI_ERR_EXIST
      | none => run_t.ret (0, cfg)

/-- The registration loop of `cfgcli_set_funcs` from index `i` of the call. -/
def set_funcs_loop (cfg : cfgcli_t) (i : Nat) : List cfgcli_func_t → run_t (Int × cfgcli_t)
  | [] => run_t.ret (0, cfg)
  | d :: ds =>
    match set_funcs_body cfg i d with
    | run_t.ret (code, cfg1) =>
      if code = 0 then set_funcs_loop cfg1 (i + 1) ds else run_t.ret (code, cfg1)
    | run_t.undef => run_t.undef
    | run_t.nofuel => run_t.nofuel

/-- Function `cfgcli_set_funcs`; `func` is the array of `nfunc = func.length` records. -/
def cfgcli_set_funcs (cfg : cfgcli_t) (func : List cfgcli_func_t) : run_t (Int × cfgcli_t) :=
  if CFGCLI_IS_ERROR cfg then run_t.ret (CFGCLI_ERRNO cfg, cfg)
  else if func = [] then
    fail_with (cfgcli_msg cfg "the function list is not set".toList none) CFGCLI_ERR_INPUT
  else
    let vfunc := cfg.funcs.take cfg.nfunc ++ List.replicate func.length func_zero
    match set_funcs_loop { cfg with funcs := vfunc } 0 func with
    | run_t.ret (code, cfg1) =>
      if code = 0 then run_t.ret (0, { cfg1 with nfunc := cfg1.nfunc + func.length })
      else run_t.ret (code, cfg1)
    | run_t.undef => run_t.undef
    | run_t.nofuel => run_t.nofuel

/-- Function `cfgcli_is_set`. -/
def cfgcli_is_set (cfg : cfgcli_t) (var : Nat) : Bool :=
  if var = 0 || cfg.npar = 0 then false
  else
    match (cfg.params.take cfg.npar).find? (fun par => par.var == var) with
    | some par => par.src != CFGCLI_SRC_NULL
    | none => false

/-- Function `cfgcli_get_size`. -/
def cfgcli_get_size (cfg : cfgcli_t) (var : Nat) : Nat :=
  if var = 0 || cfg.npar = 0 then 0
  else
    match (cfg.params.take cfg.npar).find? (fun par => par.var == var) with
    | some par => if par.src != CFGCLI_SRC_NULL then par.narr else 0
    | none => 0

/-! ## The line lexer -/

/-- String parser states. -/
inductive cfgcli_parse_state_t where
  | START | KEYWORD | EQUAL | VALUE_START | VALUE | QUOTE | QUOTE_END
  | ARRAY_START | ARRAY_VALUE | ARRAY_QUOTE | ARRAY_QUOTE_END
  | ARRAY_NEWLINE | CLEAN | ARRAY_END | ARRAY_DONE
  deriving DecidableEq, Repr

/-- Return value for the parser status. -/
inductive cfgcli_parse_return_t where
  | DONE | PASS | CONTINUE | ERROR
  deriving DecidableEq, Repr

open cfgcli_parse_state_t cfgcli_parse_return_t

/-- The variables of the scanning loop of `cfgcli_parse_line`: the buffer that holds the
line, the pointers `*key` and `*value` (indices of the buffer), the state, and the locals
`quote` and `newline`. -/
structure lex_t where
  line : List Char
  key : Option Nat
  value : Option Nat
  state : cfgcli_parse_state_t
  quote : Char
  newline : Option Nat
  deriving DecidableEq, Repr

/-- What one pass of the scanning loop does: go on (`back` when it ran `i--`), return, or
dereference a null pointer. -/
inductive lex_step_t where
  | go : lex_t → Bool → lex_step_t
  | stop : cfgcli_parse_return_t → lex_t → lex_step_t
  | crash : lex_step_t
  deriving DecidableEq, Repr

/-- The body of the scanning loop of `cfgcli_parse_line` at index `a` of the buffer
(`a = p + i` for a line that starts at `p`). -/
def lex_body (s : lex_t) (a : Nat) : lex_step_t :=
  let c := s.line.getD a NUL
  match s.state with
  | START =>
    if isalpha c || c == '_' || c == '-' then
      lex_step_t.go { s with key := some a, state := KEYWORD } false
    else if c == CFGCLI_SYM_COMMENT then lex_step_t.stop PASS s
    else if !isspace c then lex_step_t.stop ERROR s
    else lex_step_t.go s false
  | KEYWORD =>
    if c == CFGCLI_SYM_EQUAL || isspace c then
      match s.key with
      | none => lex_step_t.crash
      | some k =>
        if (a : Int) - (k : Int) ≥ (CFGCLI_MAX_NAME_LEN : Int) then lex_step_t.stop ERROR s
        else
          lex_step_t.go
            { s with line := poke s.line a NUL,
                     state := if c == CFGCLI_SYM_EQUAL then VALUE_START else EQUAL } false
    else if !isalnum c && c != '_' && c != '-' then lex_step_t.stop ERROR s
    else lex_step_t.go s false
  | EQUAL =>
    if c == CFGCLI_SYM_EQUAL then lex_step_t.go { s with state := VALUE_START } false
    else if !isspace c then lex_step_t.stop ERROR s
    else lex_step_t.go s false
  | VALUE_START =>
    if c == '"' || c == '\'' then
      lex_step_t.go { s with quote := c, value := some a, state := QUOTE } false
    else if c == CFGCLI_SYM_ARRAY_START then
      lex_step_t.go { s with value := some a, state := ARRAY_START } false
    else if c == CFGCLI_SYM_COMMENT then lex_step_t.stop PASS s
    else if isgraph c then lex_step_t.go { s with value := some a, state := VALUE } false
    else if !isspace c then lex_step_t.stop ERROR s
    else lex_step_t.go s false
  | ARRAY_START =>
    if c == CFGCLI_SYM_ARRAY_SEP || c == CFGCLI_SYM_ARRAY_END || c == CFGCLI_SYM_COMMENT then
      lex_step_t.stop ERROR s
    else if c == '"' || c == '\'' then
      lex_step_t.go { s with quote := c, state := ARRAY_QUOTE } false
    else if c == CFGCLI_SYM_NEWLINE then
      lex_step_t.go { s with newline := some a, state := ARRAY_NEWLINE } false
    else if isgraph c then lex_step_t.go { s with state := ARRAY_VALUE } false
    else if !isspace c then lex_step_t.stop ERROR s
    else lex_step_t.go s false
  | VALUE =>
    if c == CFGCLI_SYM_COMMENT then lex_step_t.stop DONE { s with line := poke s.line a NUL }
    else if !isprint c then lex_step_t.stop ERROR s
    else lex_step_t.go s false
  | ARRAY_VALUE =>
    if c == CFGCLI_SYM_ARRAY_SEP then lex_step_t.go { s with state := ARRAY_START } false
    else if c == CFGCLI_SYM_ARRAY_END then lex_step_t.go { s with state := ARRAY_END } false
    else if c == CFGCLI_SYM_COMMENT || !isprint c then lex_step_t.stop ERROR s
    else lex_step_t.go s false
  | QUOTE =>
    if c == s.quote then lex_step_t.go { s with state := QUOTE_END } false
    else lex_step_t.go s false
  | ARRAY_QUOTE =>
    if c == s.quote then lex_step_t.go { s with state := ARRAY_QUOTE_END } false
    else lex_step_t.go s false
  | QUOTE_END =>
    if c == CFGCLI_SYM_COMMENT then lex_step_t.stop DONE { s with line := poke s.line a NUL }
    else if !isspace c then lex_step_t.stop ERROR s
    else lex_step_t.go s false
  | ARRAY_END =>
    if c == CFGCLI_SYM_COMMENT then lex_step_t.stop DONE { s with line := poke s.line a NUL }
    else if !isspace c then lex_step_t.stop ERROR s
    else lex_step_t.go s false
  | ARRAY_QUOTE_END =>
    if c == CFGCLI_SYM_ARRAY_SEP then lex_step_t.go { s with state := ARRAY_START } false
    else if c == CFGCLI_SYM_ARRAY_END then lex_step_t.go { s with state := ARRAY_END } false
    else if !isspace c then lex_step_t.stop ERROR s
    else lex_step_t.go s false
  | ARRAY_NEWLINE =>
    if c == CFGCLI_SYM_COMMENT then
      match s.newline with
      | none => lex_step_t.crash
      | some nl =>
        lex_step_t.go { s with state := CLEAN, line := poke (poke s.line a ' ') nl ' ' } false
    else if !isspace c then
      lex_step_t.go { s with newline := none, state := ARRAY_VALUE } true
    else lex_step_t.go s false
  | CLEAN => lex_step_t.go { s with line := poke s.line a ' ' } false
  | ARRAY_DONE => lex_step_t.stop ERROR s

/-- The check of the final status in `cfgcli_parse_line`, after the scanning loop. -/
def lex_final (s : lex_t) : run_t (cfgcli_parse_return_t × lex_t) :=
  match s.state with
  | VALUE => run_t.ret (DONE, s)
  | QUOTE_END => run_t.ret (DONE, s)
  | ARRAY_END => run_t.ret (DONE, s)
  | START => run_t.ret (PASS, s)
  | VALUE_START => run_t.ret (PASS, s)
  | ARRAY_NEWLINE =>
    match s.newline with
    | none => run_t.undef
    | some nl => run_t.ret (CONTINUE, { s with line := poke s.line nl ' ' })
  | CLEAN => run_t.ret (CONTINUE, s)
  | _ => run_t.ret (ERROR, s)

/-- The scanning loop `for (i = 0; i < len; i++)` of `cfgcli_parse_line` for the line at
offset `p`, from index `i`, with a budget of passes.  A pass that runs `i--` is followed by
the `i++` of the loop, so the index stays where it is. -/
def parse_line_loop : Nat → lex_t → Nat → Nat → Nat → run_t (cfgcli_parse_return_t × lex_t)
  | 0, _, _, _, _ => run_t.nofuel
  | fuel + 1, s, p, len, i =>
    if i < len then
      match lex_body s (p + i) with
      | lex_step_t.go s1 back => parse_line_loop fuel s1 p len (if back then i else i + 1)
      | lex_step_t.stop r s1 => run_t.ret (r, s1)
      | lex_step_t.crash => run_t.undef
    else lex_final s

/-- Function `cfgcli_parse_line` on the line of `len` bytes at offset `p` of the buffer
`line`; it returns the status, the buffer and the pointers `*key` and `*value`. -/
def cfgcli_parse_line (line : List Char) (p len : Nat) (key value : Option Nat)
    (state : cfgcli_parse_state_t) :
    run_t (cfgcli_parse_return_t × List Char × Option Nat × Option Nat) :=
  if line.getD p NUL == NUL || len == 0 then run_t.ret (PASS, line, key, value)
  else
    match parse_line_loop (2 * len + 1)
        { line := line, key := key, value := value, state := state, quote := NUL,
          newline := none } p len 0 with
    | run_t.ret (r, s) => run_t.ret (r, s.line, s.key, s.value)
    | run_t.undef => run_t.undef
    | run_t.nofuel => run_t.nofuel

/-! ## The array splitter -/

/-- The variables of the loop of `cfgcli_parse_array`: the value text (rewritten in place),
the count `n`, the state, `quote`, and the pointers `start` and `end` as indices. -/
structure split_t where
  value : List Char
  n : Nat
  state : cfgcli_parse_state_t
  quote : Char
  start : Option Nat
  endp : Option Nat
  deriving DecidableEq, Repr

/-- What one pass of the loop of `cfgcli_parse_array` does: go on, or return `code` with
`narr` set to the given number (or left as it is). -/
inductive split_step_t where
  | go : split_t → split_step_t
  | stop : Int → Option Nat → split_step_t
  deriving DecidableEq, Repr

/-- The body of the loop of `cfgcli_parse_array` at index `i`. -/
def split_body (s : split_t) (i : Nat) : split_step_t :=
  let c := s.value.getD i NUL
  match s.state with
  | START =>
    if c == CFGCLI_SYM_ARRAY_START then
      split_step_t.go { s with state := ARRAY_START, start := some i }
    else if !isspace c then split_step_t.stop 0 (some 1)
    else split_step_t.go s
  | ARRAY_START =>
    if c == CFGCLI_SYM_ARRAY_SEP || c == CFGCLI_SYM_ARRAY_END || c == CFGCLI_SYM_COMMENT then
      split_step_t.stop CFGCLI_ERR_VALUE none
    else if c == '"' || c == '\'' then
      split_step_t.go { s with quote := c, state := ARRAY_QUOTE }
    else if isgraph c then split_step_t.go { s with state := ARRAY_VALUE }
    else if !isspace c then split_step_t.stop CFGCLI_ERR_VALUE none
    else split_step_t.go s
  | ARRAY_VALUE =>
    if c == CFGCLI_SYM_ARRAY_SEP then
      split_step_t.go { s with n := s.n + 1, state := ARRAY_START, value := poke s.value i NUL }
    else if c == CFGCLI_SYM_ARRAY_END then
      split_step_t.go { s with state := ARRAY_END, endp := some i }
    else if c == CFGCLI_SYM_COMMENT || !isprint c then split_step_t.stop CFGCLI_ERR_VALUE none
    else split_step_t.go s
  | ARRAY_QUOTE =>
    if c == s.quote then split_step_t.go { s with quote := NUL, state := ARRAY_QUOTE_END }
    else split_step_t.go s
  | ARRAY_QUOTE_END =>
    if c == CFGCLI_SYM_ARRAY_SEP then
      split_step_t.go { s with n := s.n + 1, state := ARRAY_START, value := poke s.value i NUL }
    else if c == CFGCLI_SYM_ARRAY_END then
      split_step_t.go { s with state := ARRAY_END, endp := some i }
    else if !isspace c then split_step_t.stop CFGCLI_ERR_VALUE none
    else split_step_t.go s
  | ARRAY_END =>
    if c == CFGCLI_SYM_COMMENT then
      split_step_t.go { s with state := ARRAY_DONE, value := poke s.value i NUL }
    else if isgraph c then split_step_t.stop CFGCLI_ERR_VALUE none
    else split_step_t.go s
  | _ => split_step_t.stop CFGCLI_ERR_VALUE none

/-- The loop `for (i = 0; i < par->vlen; i++)` of `cfgcli_parse_array`, with `k` passes
left from index `i`: the variables at the exit of the loop, or the early return. -/
def parse_array_loop : Nat → split_t → Nat → split_step_t
  | 0, s, _ => split_step_t.go s
  | k + 1, s, i =>
    if s.state = ARRAY_DONE then split_step_t.go s
    else
      match split_body s i with
      | split_step_t.go s1 => parse_array_loop k s1 (i + 1)
      | split_step_t.stop code narr => split_step_t.stop code narr

/-- Function `cfgcli_parse_array`: the return code and the parameter, whose `value` and
`narr` it updates. -/
def cfgcli_parse_array (par : cfgcli_param_valid_t) : Int × cfgcli_param_valid_t :=
  let par := { par with narr := 0 }
  match par.value with
  | none => (0, par)
  | some v =>
    if par.vlen = 0 then (0, par)
    else
      match parse_array_loop par.vlen
          { value := v, n := 0, state := START, quote := NUL, start := none, endp := none }
          0 with
      | split_step_t.stop code narr =>
        (code, match narr with
          | some m => { par with narr := m }
          | none => par)
      | split_step_t.go s =>
        let v1 :=
          match s.endp with
          | some e => poke s.value e NUL
          | none => s.value
        let v2 :=
          match s.start with
          | some b => v1.drop (b + 1)
          | none => v1
        (0, { par with value := some v2, narr := s.n + 1 })

/-! ## Value coercion -/

/-- The conversions of the C library that the embedding does not fix: `sscanf` with `%f`
and with `%lf`, each giving the stored number (as an opaque code) and the count of bytes
consumed, or `none` when no number is matched. -/
structure libc_t where
  scan_f : List Char → Option (Int × Nat)
  scan_lf : List Char → Option (Int × Nat)

/-- The run of decimal digits at the head of a string: its value and its length. -/
def scan_digits : List Char → Nat → Nat → Nat × Nat
  | [], acc, k => (acc, k)
  | c :: cs, acc, k =>
    if isdigit c then scan_digits cs (acc * 10 + (c.toNat - 48)) (k + 1) else (acc, k)

/-- The range of `long` (64 bits): what `strtol` clamps to. -/
def clamp_long (i : Int) : Int :=
  if i > 2 ^ 63 - 1 then 2 ^ 63 - 1 else if i < -(2 ^ 63) then -(2 ^ 63) else i

/-- Conversion of a `long` to `int` (32 bits). -/
def wrap_int (i : Int) : Int := (i + 2 ^ 31) % 2 ^ 32 - 2 ^ 31

/-- Library call `sscanf(s, "%ld%n", ...)`: the number stored and the count `n`, or `none`
when the call does not return 1.  White space is skipped, then an optional sign and a
non-empty run of decimal digits are read; the number is clamped to the range of `long`. -/
def sscanf_ld (s : List Char) : Option (Int × Nat) :=
  let ws := (s.takeWhile isspace).length
  let t := s.dropWhile isspace
  let neg := decide (t.head? = some '-')
  let sg := if t.head? = some '-' ∨ t.head? = some '+' then 1 else 0
  let r := scan_digits (t.drop sg) 0 0
  if r.2 = 0 then none
  else some (clamp_long (if neg then -(r.1 : Int) else (r.1 : Int)), ws + sg + r.2)

/-- Library call `sscanf(s, "%d%n", ...)`: as `%ld`, the number converted to `int`. -/
def sscanf_d (s : List Char) : Option (Int × Nat) :=
  match sscanf_ld s with
  | some (v, n) => some (wrap_int v, n)
  | none => none

/-- A string without its trailing white space. -/
def rtrim (s : List Char) : List Char := (s.reverse.dropWhile isspace).reverse

/-- The check of the remaining characters at the end of `cfgcli_get_value`, for a token of
which `n` bytes were consumed. -/
def rest_check (token : List Char) (n : Nat) : Int :=
  if n = 0 then 0
  else if (token.drop n).all isspace then 0 else CFGCLI_ERR_VALUE

/-- The variable assignment of `cfgcli_get_value` for the token `value`: what is stored in
the variable (`none`: nothing is stored) and the return code. -/
def assign_value (libc : libc_t) (token : List Char) (dtype : Int) : Option scalar_t × Int :=
  if dtype = CFGCLI_DTYPE_BOOL then
    if token = "1".toList ∨ token = "T".toList ∨ token = "t".toList ∨ token = "true".toList ∨
        token = "TRUE".toList ∨ token = "True".toList then
      (some (scalar_t.bool true), 0)
    else if token = "0".toList ∨ token = "F".toList ∨ token = "f".toList ∨
        token = "false".toList ∨ token = "FALSE".toList ∨ token = "False".toList then
      (some (scalar_t.bool false), 0)
    else (none, CFGCLI_ERR_PARSE)
  else if dtype = CFGCLI_DTYPE_CHAR then
    (some (scalar_t.char (char_at token 0)), rest_check token 1)
  else if dtype = CFGCLI_DTYPE_INT then
    match sscanf_d token with
    | some (v, n) => (some (scalar_t.int v), rest_check token n)
    | none => (none, CFGCLI_ERR_PARSE)
  else if dtype = CFGCLI_DTYPE_LONG then
    match sscanf_ld token with
    | some (v, n) => (some (scalar_t.long v), rest_check token n)
    | none => (none, CFGCLI_ERR_PARSE)
  else if dtype = CFGCLI_DTYPE_FLT then
    match libc.scan_f token with
    | some (v, n) => (some (scalar_t.flt v), rest_check token n)
    | none => (none, CFGCLI_ERR_PARSE)
  else if dtype = CFGCLI_DTYPE_DBL then
    match libc.scan_lf token with
    | some (v, n) => (some (scalar_t.dbl v), rest_check token n)
    | none => (none, CFGCLI_ERR_PARSE)
  else if dtype = CFGCLI_DTYPE_STR then (some (scalar_t.str token), 0)
  else (none, CFGCLI_ERR_DTYPE)

/-- Function `cfgcli_get_value` on the string `str` (its bytes before the terminating NUL;
every call of the source passes `size = strlen(str) + 1`): what is stored in the variable
(`none`: nothing is stored) and the return code. -/
def cfgcli_get_value (libc : libc_t) (str : List Char) (dtype : Int) : Option scalar_t × Int :=
  let value := str.dropWhile isspace
  match value with
  | [] => (none, CFGCLI_ERR_VALUE)
  | c :: rest =>
    if c == '"' || c == '\'' then
      let token := rest.takeWhile (fun x => x != c)
      let closed := decide (token.length < rest.length)
      if token = [] && dtype != CFGCLI_DTYPE_CHAR && dtype != CFGCLI_DTYPE_STR then
        (none, CFGCLI_ERR_VALUE)
      else if !closed then (none, CFGCLI_ERR_VALUE)
      else if !(rest.drop (token.length + 1)).all isspace then (none, CFGCLI_ERR_VALUE)
      else assign_value libc token dtype
    else assign_value libc (rtrim value) dtype

/-- The element type of an array type and the element that `calloc` leaves. -/
def array_elem (dtype : Int) : Option (Int × scalar_t) :=
  if dtype = CFGCLI_ARRAY_BOOL then some (CFGCLI_DTYPE_BOOL, scalar_t.bool false)
  else if dtype = CFGCLI_ARRAY_CHAR then some (CFGCLI_DTYPE_CHAR, scalar_t.char NUL)
  else if dtype = CFGCLI_ARRAY_INT then some (CFGCLI_DTYPE_INT, scalar_t.int 0)
  else if dtype = CFGCLI_ARRAY_LONG then some (CFGCLI_DTYPE_LONG, scalar_t.long 0)
  else if dtype = CFGCLI_ARRAY_FLT then some (CFGCLI_DTYPE_FLT, scalar_t.flt 0)
  else if dtype = CFGCLI_ARRAY_DBL then some (CFGCLI_DTYPE_DBL, scalar_t.dbl 0)
  else if dtype = CFGCLI_ARRAY_STR then some (CFGCLI_DTYPE_STR, scalar_t.null)
  else none

/-- The bytes of the string `str` as `cfgcli_get_value` leaves them: the function writes
into the string it is given.  A string of white space only is left as it is; in a quoted
string the closing quote, when there is one, is overwritten with NUL (before any further
check); in an unquoted string every byte of the trailing white space is overwritten with
NUL. -/
def get_value_text (str : List Char) : List Char :=
  match str.dropWhile isspace with
  | [] => str
  | c :: rest =>
    if c == '"' || c == '\'' then
      let token := rest.takeWhile (fun x => x != c)
      if token.length < rest.length then
        poke str ((str.takeWhile isspace).length + 1 + token.length) NUL
      else str
    else rtrim str ++ List.replicate (str.length - (rtrim str).length) NUL

/-- The loop `for (i = 0; i < par->narr; i++)` of `cfgcli_get_array` with `k` passes left:
`buf` is the split text, which `cfgcli_get_value` rewrites segment by segment, `pos` the
pointer `value` into it, `arr` the allocated array.  The result is the array, the return
code and the text. -/
def get_array_loop (libc : libc_t) (edt : Int) :
    Nat → List Char → Nat → Nat → List scalar_t → List scalar_t × Int × List Char
  | 0, buf, _, _, arr => (arr, 0, buf)
  | k + 1, buf, pos, i, arr =>
    let seg := cstr_at buf pos
    let arr := if edt = CFGCLI_DTYPE_STR then arr.set i (scalar_t.str []) else arr
    let r := cfgcli_get_value libc seg edt
    let buf := store buf pos (get_value_text seg)
    let arr :=
      match r.1 with
      | some x => arr.set i x
      | none => arr
    if r.2 ≠ 0 then (arr, r.2, buf)
    else get_array_loop libc edt k buf (pos + (seg.length + 1)) (i + 1) arr

/-- The array and the return code of `get_array_loop`, computed on the text as the splitter
left it: the writes of `cfgcli_get_value` stay inside the segment at hand, which no later
pass reads (`get_array_loop_vals` proves that the two agree). -/
def get_array_vals (libc : libc_t) (edt : Int) (buf : List Char) :
    Nat → Nat → Nat → List scalar_t → List scalar_t × Int
  | 0, _, _, arr => (arr, 0)
  | k + 1, pos, i, arr =>
    let seg := cstr_at buf pos
    let arr := if edt = CFGCLI_DTYPE_STR then arr.set i (scalar_t.str []) else arr
    let r := cfgcli_get_value libc seg edt
    let arr :=
      match r.1 with
      | some x => arr.set i x
      | none => arr
    if r.2 ≠ 0 then (arr, r.2)
    else get_array_vals libc edt buf k (pos + (seg.length + 1)) (i + 1) arr

/-- Function `cfgcli_get_array`: the return code and the parameter with its value text
(split, and rewritten by `cfgcli_get_value`; a null value stays null), `narr` and slot
updated. -/
def cfgcli_get_array (libc : libc_t) (par : cfgcli_param_valid_t) :
    Int × cfgcli_param_valid_t :=
  match cfgcli_parse_array par with
  | (err, par) =>
    if err ≠ 0 then (err, par)
    else
      match array_elem par.dtype with
      | none => (CFGCLI_ERR_DTYPE, par)
      | some (edt, zero) =>
        let r := get_array_loop libc edt par.narr (par.value.getD []) 0 0
          (List.replicate par.narr zero)
        (r.2.1, { par with value := par.value.map (fun _ => r.2.2),
                           slot := slot_t.array r.1 })

/-- Function `cfgcli_get` for the parameter `par` of the registry: the return code, the
registry (diagnostics and sticky code) and the parameter as the call leaves it (its value
text as `cfgcli_get_value` rewrote it).  The
argument `src` is handed down to `cfgcli_get_value`, which ignores it. -/
def cfgcli_get (libc : libc_t) (cfg : cfgcli_t) (par : cfgcli_param_valid_t) (_src : Int) :
    Int × cfgcli_t × cfgcli_param_valid_t :=
  if CFGCLI_IS_ERROR cfg then (CFGCLI_ERRNO cfg, cfg, par)
  else
    match par.value with
    | none => (0, cfg, par)
    | some v =>
      if char_at v 0 == NUL then (0, cfg, par)
      else
        let r : Int × cfgcli_param_valid_t :=
          if CFGCLI_DTYPE_IS_ARRAY par.dtype then cfgcli_get_array libc par
          else
            let par :=
              if par.dtype = CFGCLI_DTYPE_STR then
                { par with slot := slot_t.scalar (scalar_t.str []) }
              else par
            let g := cfgcli_get_value libc v par.dtype
            let par := { par with value := some (get_value_text v) }
            (g.2, match g.1 with
              | some x => { par with slot := slot_t.scalar x }
              | none => par)
        let err := r.1
        let par := r.2
        if err = 0 then (0, cfg, par)
        else
          let m :=
            if err = CFGCLI_ERR_MEMORY then "failed to allocate memory for parameter"
            else if err = CFGCLI_ERR_VALUE then "invalid value for parameter"
            else if err = CFGCLI_ERR_PARSE then "failed to parse the value for parameter"
            else if err = CFGCLI_ERR_DTYPE then "invalid data type for parameter"
            else "unknown error occurred for parameter"
          let cfg := cfgcli_msg cfg m.toList par.name
          (err, { cfg with error := { cfg.error with errno := err } }, par)

/-! ## Command line options -/

/-- Macro `CFGCLI_IS_OPT`. -/
def CFGCLI_IS_OPT (a : List Char) : Bool :=
  char_at a 0 == CFGCLI_CMD_FLAG && char_at a 1 != NUL &&
  ((isalpha (char_at a 1) && (char_at a 2 == NUL || char_at a 2 == CFGCLI_CMD_ASSIGN)) ||
   (char_at a 1 == CFGCLI_CMD_FLAG && (char_at a 2 == NUL ||
     (char_at a 2 != CFGCLI_CMD_ASSIGN && isgraph (char_at a 2)))))

/-- The loop `for (j = 0; j < CFGCLI_MAX_LOPT_LEN + 2; j++)` that looks for `=`: the final
`j`. -/
def assign_scan : List Char → Nat → Nat
  | [], j => j
  | c :: cs, j =>
    if j ≥ CFGCLI_MAX_LOPT_LEN + 2 then j
    else if c == CFGCLI_CMD_ASSIGN then j
    else assign_scan cs (j + 1)

/-- The index of the first element that satisfies `p`. -/
def first_index {α : Type} (p : α → Bool) : List α → Option Nat
  | [] => none
  | x :: xs => if p x then some 0 else (first_index p xs).map (fun k => k + 1)

/-- What the search of an option in the registry finds. -/
inductive opt_status_t where
  | not_found : opt_status_t
  | is_param : Nat → opt_status_t
  | is_func : Nat → opt_status_t
  | is_term : opt_status_t
  deriving DecidableEq, Repr

/-- The search of the option `arg` (cut at `=`) among the registered parameters, then among
the registered functions. -/
def find_opt (cfg : cfgcli_t) (arg : List Char) : opt_status_t :=
  let params := cfg.params.take cfg.npar
  let funcs := cfg.funcs.take cfg.nfunc
  if char_at arg 1 != CFGCLI_CMD_FLAG then
    match first_index (fun (p : cfgcli_param_valid_t) => char_at arg 1 == p.opt) params with
    | some j => opt_status_t.is_param j
    | none =>
      match first_index (fun (f : cfgcli_func_valid_t) => char_at arg 1 == f.opt) funcs with
      | some j => opt_status_t.is_func j
      | none => opt_status_t.not_found
  else if char_at arg 2 != NUL then
    match first_index (fun (p : cfgcli_param_valid_t) =>
        match p.lopt with
        | some l => strncmp0 l (arg.drop 2) p.llen
        | none => false) params with
    | some j => opt_status_t.is_param j
    | none =>
      match first_index (fun (f : cfgcli_func_valid_t) =>
          match f.lopt with
          | some l => strncmp0 l (arg.drop 2) f.llen
          | none => false) funcs with
      | some j => opt_status_t.is_func j
      | none => opt_status_t.not_found
  else opt_status_t.is_term

/-- The search `for (j = 0; j < cfg->npar; j++) if (!strncmp(key, params[j].name,
params[j].nlen)) break;` of `cfgcli_read_file`: the index found, if any.  Each registered
parameter has a name. -/
def find_param (cfg : cfgcli_t) (key : List Char) : Option Nat :=
  first_index (fun (p : cfgcli_param_valid_t) =>
    match p.name with
    | some nm => strncmp0 key nm p.nlen
    | none => false) (cfg.params.take cfg.npar)

/-- What one pass of the loop of `cfgcli_read_opts` does: go on (`ate` when the next
argument was consumed as the option argument), stop at the terminator with `*optidx` set,
or return an error. -/
inductive opt_step_t where
  | next : cfgcli_t → Bool → opt_step_t
  | term : cfgcli_t → Nat → opt_step_t
  | fail : Int → cfgcli_t → opt_step_t
  deriving DecidableEq, Repr

/-- The branch `status == is_func` of `cfgcli_read_opts` for function `j`. -/
def opts_func (cfg : cfgcli_t) (j : Nat) (arg : List Char) (optarg : Option (List Char)) :
    cfgcli_t :=
  let cfg :=
    match optarg with
    | some a => cfgcli_msg cfg "omitting command line argument".toList (some a)
    | none => cfg
  let f := cfg.funcs.getD j func_zero
  if f.called then
    cfgcli_msg cfg "the function has already been called with option".toList (some arg)
  else
    { cfg with calls := cfg.calls ++ [(f.func, f.args)],
               funcs := cfg.funcs.set j { f with called := true } }

/-- The branch `status == is_param` of `cfgcli_read_opts` for parameter `j`: the return
code (0: the loop goes on) and the registry. -/
def opts_param (libc : libc_t) (cfg : cfgcli_t) (j : Nat) (arg : List Char)
    (optarg : Option (List Char)) (prior : Int) : Int × cfgcli_t :=
  let par := cfg.params.getD j param_zero
  if CFGCLI_SRC_VAL par.src > prior then (0, cfg)
  else if CFGCLI_SRC_VAL par.src = prior then
    (0, cfgcli_msg cfg "omitting duplicate entry of parameter".toList par.name)
  else
    let missing :=
      match optarg with
      | none => true
      | some a => char_at a 0 == NUL
    if missing && par.dtype != CFGCLI_DTYPE_BOOL then
      let cfg := cfgcli_msg cfg "argument not found for option".toList (some arg)
      (CFGCLI_ERR_CMD, { cfg with error := { cfg.error with errno := CFGCLI_ERR_CMD } })
    else
      let par :=
        if missing then { par with value := some "T".toList, vlen := 2 }
        else { par with value := optarg, vlen := (optarg.getD []).length + 1 }
      match cfgcli_get libc cfg par (CFGCLI_SRC_OF_OPT prior) with
      | (err, cfg, par) =>
        if err ≠ 0 then (err, { cfg with params := cfg.params.set j par })
        else
          (0, { cfg with params := cfg.params.set j { par with src := CFGCLI_SRC_OF_OPT prior } })

/-- The body of the loop of `cfgcli_read_opts` for the argument `arg = argv[i]`, with
`nxt` the argument `argv[i + 1]` when `i + 1 < argc`. -/
def opts_body (libc : libc_t) (cfg : cfgcli_t) (prior : Int) (i : Nat) (arg : List Char)
    (nxt : Option (List Char)) : opt_step_t :=
  if !CFGCLI_IS_OPT arg then
    opt_step_t.next (cfgcli_msg cfg "unrecognised command line option".toList (some arg)) false
  else
    let j := assign_scan arg 0
    if char_at arg j != NUL && char_at arg j != CFGCLI_CMD_ASSIGN then
      let cfg := cfgcli_msg cfg "the command line option is too long".toList (some arg)
      opt_step_t.fail CFGCLI_ERR_CMD
        { cfg with error := { cfg.error with errno := CFGCLI_ERR_CMD } }
    else
      let found := char_at arg j == CFGCLI_CMD_ASSIGN
      let ate :=
        !found && (match nxt with
          | some a => !CFGCLI_IS_OPT a
          | none => false)
      let optarg : Option (List Char) :=
        if found then some (arg.drop (j + 1)) else if ate then nxt else none
      let arg := if found then arg.take j else arg
      match find_opt cfg arg with
      | opt_status_t.is_term => opt_step_t.term cfg (i + 1)
      | opt_status_t.is_func k => opt_step_t.next (opts_func cfg k arg optarg) ate
      | opt_status_t.is_param k =>
        match opts_param libc cfg k arg optarg prior with
        | (err, cfg) => if err ≠ 0 then opt_step_t.fail err cfg else opt_step_t.next cfg ate
      | opt_status_t.not_found =>
        opt_step_t.next
          (cfgcli_msg cfg "unrecognised command line option".toList (some arg)) ate

/-- The loop `for (i = 1; i < argc; i++)` of `cfgcli_read_opts` over the arguments from
index `i` on, and the statements after it: the return code, the registry and `*optidx`. -/
def read_opts_loop (libc : libc_t) (prior : Int) :
    cfgcli_t → Nat → List (List Char) → Int × cfgcli_t × Nat
  | cfg, i, [] => (0, cfg, i)
  | cfg, i, [arg] =>
    match opts_body libc cfg prior i arg none with
    | opt_step_t.next cfg1 _ => read_opts_loop libc prior cfg1 (i + 1) []
    | opt_step_t.term cfg1 k => (0, cfg1, k)
    | opt_step_t.fail code cfg1 => (code, cfg1, 0)
  | cfg, i, arg :: nxt :: rest =>
    match opts_body libc cfg prior i arg (some nxt) with
    | opt_step_t.next cfg1 ate =>
      if ate then read_opts_loop libc prior cfg1 (i + 2) rest
      else read_opts_loop libc prior cfg1 (i + 1) (nxt :: rest)
    | opt_step_t.term cfg1 k => (0, cfg1, k)
    | opt_step_t.fail code cfg1 => (code, cfg1, 0)

/-- Function `cfgcli_read_opts` with `argc = argv.length`; `optidx` is the content of
`*optidx` before the call.  It returns the code, the registry and `*optidx`. -/
def cfgcli_read_opts (libc : libc_t) (cfg : cfgcli_t) (argv : List (List Char)) (prior : Int)
    (optidx : Nat) : Int × cfgcli_t × Nat :=
  if CFGCLI_IS_ERROR cfg then (CFGCLI_ERRNO cfg, cfg, optidx)
  else if cfg.npar = 0 ∧ cfg.nfunc = 0 then
    let cfg := cfgcli_msg cfg "no parameter or function has been registered".toList none
    (CFGCLI_ERR_INIT, { cfg with error := { cfg.error with errno := CFGCLI_ERR_INIT } }, optidx)
  else if prior ≤ CFGCLI_SRC_NULL then
    let cfg := cfgcli_msg cfg "invalid priority for command line options".toList none
    (CFGCLI_ERR_INPUT, { cfg with error := { cfg.error with errno := CFGCLI_ERR_INPUT } },
      optidx)
  else
    match argv with
    | [] => (0, cfg, 0)
    | _ :: args => read_opts_loop libc prior cfg 1 args

/-! ## Configuration files -/

/-- The new length of the chunk when it grows; 0 when the size overflows. -/
def grow_len (clen : Nat) : Nat :=
  if clen ≥ CFGCLI_STR_MAX_DOUBLE_SIZE then
    if SIZE_MOD - 1 - CFGCLI_STR_MAX_DOUBLE_SIZE ≥ clen then clen + CFGCLI_STR_MAX_DOUBLE_SIZE
    else 0
  else if (SIZE_MOD - 1) / 2 ≥ clen then clen * 2
  else 0

/-- Call `memmove(chunk, chunk + src, n)`. -/
def memmove_front (chunk : List Char) (src n : Nat) : List Char :=
  (chunk.drop src).take n ++ chunk.drop n

/-- The variables of `cfgcli_read_file` while it reads: the registry, the chunk and its
length, the counters, the pointers `key` and `value` into the chunk, the lexer state, and
the part of the file that is not read yet. -/
structure reader_t where
  cfg : cfgcli_t
  chunk : List Char
  clen : Nat
  nline : Nat
  nrest : Nat
  nproc : Nat
  key : Option Nat
  value : Option Nat
  state : cfgcli_parse_state_t
  file : List Char
  deriving DecidableEq, Repr

/-- The case `CFGCLI_PARSE_DONE` of `cfgcli_read_file`: the return code (0: reading goes
on) and the variables.  The entry carries the value text as the string at the value
pointer; what `cfgcli_get` writes into that text (the splitter and `cfgcli_get_value`) is
kept with the entry, and the chunk stays as the lexer left it: the bytes concerned lie in
the line just processed, which the reader does not read again. -/
def file_done (libc : libc_t) (prior : Int) (r : reader_t) : run_t (Int × reader_t) :=
  match r.key with
  | none => run_t.undef
  | some k =>
    let key := cstr_at r.chunk k
    let cfg := r.cfg
    match find_param cfg key with
    | none =>
      run_t.ret (0, { r with
        cfg := cfgcli_msg cfg "unregistered parameter name".toList (some key),
        key := none, value := none, state := START })
    | some j =>
      let par := cfg.params.getD j param_zero
      if CFGCLI_SRC_VAL par.src < prior then
        match r.value with
        | none => run_t.undef
        | some v =>
          let val := cstr_at r.chunk v
          let par := { par with value := some val, vlen := val.length + 1 }
          match cfgcli_get libc cfg par prior with
          | (err, cfg, par) =>
            if err ≠ 0 then
              run_t.ret (err, { r with cfg := { cfg with params := cfg.params.set j par } })
            else
              run_t.ret (0, { r with
                cfg := { cfg with params := cfg.params.set j { par with src := prior } },
                key := none, value := none, state := START })
      else if CFGCLI_SRC_VAL par.src = prior then
        run_t.ret (0, { r with
          cfg := cfgcli_msg cfg "omitting duplicate entry of parameter".toList (some key),
          key := none, value := none, state := START })
      else run_t.ret (0, { r with key := none, value := none, state := START })

/-- The loop `while ((endl = memchr(p, '\n', end - p)))` of `cfgcli_read_file` from the
pointer `p`, with a budget of passes: the return code (0: the loop ran to its end), the
variables and the final `p`. -/
def file_lines (libc : libc_t) (prior : Int) (endi : Nat) :
    Nat → reader_t → Nat → run_t (Int × reader_t × Nat)
  | 0, _, _ => run_t.nofuel
  | fuel + 1, r, p =>
    match first_index (fun c => c == '\n') ((r.chunk.drop p).take (endi - p)) with
    | none => run_t.ret (0, r, p)
    | some d =>
      let endl := p + d
      let r := { r with chunk := poke r.chunk endl NUL, nline := r.nline + 1 }
      match cfgcli_parse_line r.chunk p (endl - p) r.key r.value r.state with
      | run_t.undef => run_t.undef
      | run_t.nofuel => run_t.nofuel
      | run_t.ret (status, line, key, value) =>
        let r := { r with chunk := line, key := key, value := value }
        match status with
        | DONE =>
          match file_done libc prior r with
          | run_t.undef => run_t.undef
          | run_t.nofuel => run_t.nofuel
          | run_t.ret (err, r) =>
            if err ≠ 0 then run_t.ret (err, r, p)
            else file_lines libc prior endi fuel r (endl + 1)
        | CONTINUE =>
          file_lines libc prior endi fuel
            { r with chunk := poke r.chunk endl ' ', state := ARRAY_START } (endl + 1)
        | ERROR =>
          file_lines libc prior endi fuel
            { r with
              cfg := cfgcli_msg r.cfg "invalid configuration entry at line".toList
                (some (Nat.toDigits 10 r.nline)),
              state := START } (endl + 1)
        | PASS => file_lines libc prior endi fuel { r with state := START } (endl + 1)

/-- The statement `return CFGCLI_ERRNO(cfg) = code;` of `cfgcli_read_file` after a
message. -/
def file_fail (cfg : cfgcli_t) (msg : String) (key : Option (List Char)) (code : Int) :
    run_t (Int × cfgcli_t) :=
  fail_with (cfgcli_msg cfg msg.toList key) code

/-- The loop `while ((cnt = fread(...)))` of `cfgcli_read_file`, with a budget of passes,
and the statements after it.  A read delivers the bytes asked for, or all that is left of
the file; no read fails, so the stream is at its end when the loop is left. -/
def file_chunks (libc : libc_t) (fname : List Char) (prior : Int) :
    Nat → reader_t → run_t (Int × cfgcli_t)
  | 0, _ => run_t.nofuel
  | fuel + 1, r =>
    let data := r.file.take (r.clen - r.nrest)
    let cnt := data.length
    if cnt = 0 then run_t.ret (0, r.cfg)
    else
      let r := { r with chunk := store r.chunk r.nrest data, file := r.file.drop cnt }
      let p := if r.state = ARRAY_START then r.nproc else 0
      let end0 := r.nrest + cnt
      let short := decide (cnt < r.clen - r.nrest)
      let r := if short then { r with chunk := poke r.chunk end0 '\n' } else r
      let endi := if short then end0 + 1 else end0
      match file_lines libc prior endi (endi - p + 1) r p with
      | run_t.undef => run_t.undef
      | run_t.nofuel => run_t.nofuel
      | run_t.ret (err, r, p) =>
        if err ≠ 0 then run_t.ret (err, r.cfg)
        else if p = 0 then
          let new_len := grow_len r.clen
          if new_len = 0 then
            file_fail r.cfg "failed to allocate memory for reading the file" (some fname)
              CFGCLI_ERR_MEMORY
          else
            file_chunks libc fname prior fuel
              { r with chunk := r.chunk ++ List.replicate (new_len - r.clen) NUL,
                       clen := new_len, nrest := r.nrest + cnt }
        else
          let moved : Option reader_t :=
            if r.state = ARRAY_START then
              match r.key with
              | none => none
              | some k =>
                some { r with nrest := endi - k, nproc := p - k,
                              chunk := memmove_front r.chunk k (endi - k),
                              value := r.value.map (fun v => v - k), key := some 0 }
            else some { r with nrest := endi - p, chunk := memmove_front r.chunk p (endi - p) }
          match moved with
          | none => file_fail r.cfg "unknown parser interruption" none CFGCLI_ERR_UNKNOWN
          | some r =>
            if r.nrest = r.clen then
              let new_len := grow_len r.clen
              if new_len = 0 then
                file_fail r.cfg "failed to allocate memory for reading the file" (some fname)
                  CFGCLI_ERR_MEMORY
              else
                file_chunks libc fname prior fuel
                  { r with chunk := r.chunk ++ List.replicate (new_len - r.clen) NUL,
                           clen := new_len }
            else file_chunks libc fname prior fuel r

/-- Function `cfgcli_read_file`; `file` is what `fopen(fname, "r")` gives: the bytes of the
file, or `none` when it cannot be opened. -/
def cfgcli_read_file (libc : libc_t) (cfg : cfgcli_t) (fname : Option (List Char))
    (file : Option (List Char)) (prior : Int) : run_t (Int × cfgcli_t) :=
  if CFGCLI_IS_ERROR cfg then run_t.ret (CFGCLI_ERRNO cfg, cfg)
  else if cfg.npar = 0 then
    file_fail cfg "no parameter has been registered" none CFGCLI_ERR_INIT
  else
    match fname with
    | none => file_fail cfg "the input configuration file is not set" none CFGCLI_ERR_INPUT
    | some [] => file_fail cfg "the input configuration file is not set" none CFGCLI_ERR_INPUT
    | some fn =>
      if fn.length ≥ CFGCLI_MAX_FILENAME_LEN then
        file_fail cfg "invalid filename of the configuration file" none CFGCLI_ERR_INPUT
      else if prior ≤ CFGCLI_SRC_NULL then
        file_fail cfg "invalid priority for configuration file" (some fn) CFGCLI_ERR_INPUT
      else
        match file with
        | none => file_fail cfg "cannot open the configuration file" (some fn) CFGCLI_ERR_FILE
        | some bytes =>
          file_chunks libc fn prior (bytes.length + 1)
            { cfg := cfg, chunk := List.replicate CFGCLI_STR_INIT_SIZE NUL,
              clen := CFGCLI_STR_INIT_SIZE, nline := 0, nrest := 0, nproc := 0, key := none,
              value := none, state := START, file := bytes }

/-! ## Predicates used to state the properties -/

/-- The identifier grammar of the specification: a letter, `_` or `-` first; letters,
digits, `_` or `-` after; at most 127 characters. -/
def name_grammar (s : List Char) : Bool :=
  match s with
  | [] => false
  | c :: cs =>
    (isalpha c || c == '_' || c == '-') &&
    cs.all (fun x => isalnum x || x == '_' || x == '-') &&
    decide (s.length ≤ 127)

/-- A name that is present and follows the identifier grammar. -/
def name_ok (name : Option (List Char)) : Bool :=
  match name with
  | some s => name_grammar s
  | none => false

/-- The long-option grammar of the specification: a non-empty token of graphic characters
without `=`, of at most 127 characters. -/
def lopt_grammar (s : List Char) : Bool :=
  s != [] && s.all (fun x => isgraph x && x != '=') && decide (s.length ≤ 127)

/-- A long option that is absent (null or empty) or follows the long-option grammar. -/
def lopt_ok (lopt : Option (List Char)) : Bool :=
  match lopt with
  | none => true
  | some [] => true
  | some s => lopt_grammar s

/-- The long option that registration records for a descriptor: none when it is empty. -/
def lopt_of (lopt : Option (List Char)) : Option (List Char) :=
  match lopt with
  | some [] => none
  | x => x

/-- A parameter descriptor that is valid in every field but possibly its name: valid type,
destination set, short option absent or a letter, long option absent or well formed, help
text present and of fewer than 1024 characters. -/
def param_desc_ok (d : cfgcli_param_t) : Bool :=
  !CFGCLI_DTYPE_INVALID d.dtype && d.var != 0 && (d.opt == NUL || isalpha d.opt) &&
  lopt_ok d.lopt &&
  (match d.help with
    | some h => decide (h.length < CFGCLI_MAX_HELP_LEN)
    | none => false)

/-- Two options given by letter do not clash: one is absent or they differ. -/
def opt_free (a b : Char) : Bool := a == NUL || a != b

/-- Two long options do not clash: one is absent or they differ. -/
def lopt_free (a b : Option (List Char)) : Bool :=
  match a, b with
  | some x, some y => x != y
  | _, _ => true

/-- The descriptor `d` duplicates nothing registered in `cfg`: no registered parameter has
its name, and no registered parameter or function has its short or its long option. -/
def param_fresh (cfg : cfgcli_t) (d : cfgcli_param_t) : Bool :=
  (cfg.params.take cfg.npar).all (fun v =>
    v.name != d.name && opt_free d.opt v.opt && lopt_free (lopt_of d.lopt) v.lopt) &&
  (cfg.funcs.take cfg.nfunc).all (fun f =>
    opt_free d.opt f.opt && lopt_free (lopt_of d.lopt) f.lopt)

/-- A registered parameter as registration leaves it: a name that follows the grammar with
its length, a short option that is absent or a letter, a long option that is absent or
well formed with its length. -/
def param_entry_ok (v : cfgcli_param_valid_t) : Bool :=
  (match v.name with
    | some n => name_grammar n && v.nlen == n.length + 1
    | none => false) &&
  (v.opt == NUL || isalpha v.opt) &&
  (match v.lopt with
    | some l => lopt_grammar l && v.llen == l.length + 1
    | none => true)

/-- A registered function as registration leaves it. -/
def func_entry_ok (f : cfgcli_func_valid_t) : Bool :=
  (f.opt == NUL || isalpha f.opt) &&
  (match f.lopt with
    | some l => lopt_grammar l && f.llen == l.length + 1
    | none => true)

/-- The registry holds its registered entries, each as registration leaves it. -/
def registry_ok (cfg : cfgcli_t) : Bool :=
  decide (cfg.npar ≤ cfg.params.length) && decide (cfg.nfunc ≤ cfg.funcs.length) &&
  (cfg.params.take cfg.npar).all param_entry_ok &&
  (cfg.funcs.take cfg.nfunc).all func_entry_ok

/-- The entry that `cfgcli_set_params` writes for a valid descriptor `d` over the array
element `old`. -/
def param_entry (old : cfgcli_param_valid_t) (d : cfgcli_param_t) : cfgcli_param_valid_t :=
  { old with
    dtype := d.dtype, src := CFGCLI_SRC_NULL, value := none, var := d.var,
    name := d.name, nlen := (d.name.getD []).length + 1,
    opt := if isalpha d.opt then d.opt else old.opt,
    lopt := lopt_of d.lopt,
    llen := match lopt_of d.lopt with
      | some l => l.length + 1
      | none => old.llen,
    help := d.help, hlen := (d.help.getD []).length + 1 }

/-- The registry `b` has the counts, the functions, the callback log and the first `k`
parameters of the registry `a`. -/
def same_params_upto (k : Nat) (a b : cfgcli_t) : Prop :=
  b.npar = a.npar ∧ b.nfunc = a.nfunc ∧ b.funcs = a.funcs ∧ b.calls = a.calls ∧
  b.params.take k = a.params.take k ∧ b.params.length = a.params.length

/-- The registry `b` has the counts, the parameters, the callback log and the first `k`
functions of the registry `a`. -/
def same_funcs_upto (k : Nat) (a b : cfgcli_t) : Prop :=
  b.npar = a.npar ∧ b.nfunc = a.nfunc ∧ b.params = a.params ∧ b.calls = a.calls ∧
  b.funcs.take k = a.funcs.take k ∧ b.funcs.length = a.funcs.length

/-- Two parameter descriptors share a name, or a short option letter, or a (non-empty) long
option string. -/
def params_share (d1 d2 : cfgcli_param_t) : Prop :=
  d1.name = d2.name ∨ (d1.opt = d2.opt ∧ isalpha d1.opt = true) ∨
  (∃ l, l ≠ [] ∧ d1.lopt = some l ∧ d2.lopt = some l)

/-- The decimal rendering of an integer: a minus sign for a negative number, then the
decimal digits of its magnitude. -/
def render_int (i : Int) : List Char :=
  if i < 0 then '-' :: Nat.toDigits 10 i.natAbs else Nat.toDigits 10 i.toNat

/-- The elements `t1, t2, ..., tn` of an array as they are written: separated by a comma and
a blank. -/
def join_elems : List (List Char) → List Char
  | [] => []
  | [t] => t
  | t :: u :: ts => t ++ ',' :: ' ' :: join_elems (u :: ts)

/-- The array value `[t1, t2, ..., tn]` as it is written. -/
def array_text (ts : List (List Char)) : List Char := '[' :: (join_elems ts ++ [']'])

/-- The elements of an array after the splitter has put a NUL in place of each comma. -/
def join_split : List (List Char) → List Char
  | [] => []
  | [t] => t
  | t :: u :: ts => t ++ NUL :: ' ' :: join_split (u :: ts)

/-- A character that may start a bare array element: graphic, and none of the comma, the
closing bracket, the comment sign, the quotes and the backslash. -/
def bare_head (c : Char) : Bool :=
  isgraph c && c != ',' && c != ']' && c != '#' && c != '"' && c != '\'' && c != '\\'

/-- A character that may continue a bare array element: printable, and none of the comma,
the closing bracket and the comment sign. -/
def bare_tail (c : Char) : Bool :=
  isprint c && c != ',' && c != ']' && c != '#'

/-- A bare array element: a character that may start it, then characters that may continue
it. -/
def bare_token (t : List Char) : Bool :=
  match t with
  | [] => false
  | c :: cs => bare_head c && cs.all bare_tail

/-- A quoted array element that stays on one line: a quote, bytes other than this quote,
NUL and the line feed, and the same quote. -/
def quoted_token (t : List Char) : Bool :=
  match t with
  | [] => false
  | q :: r =>
    (q == '"' || q == '\'') && r.getLast? == some q &&
    r.dropLast.all (fun x => x != q && x != NUL && x != '\n')

/-- An array element: bare or quoted. -/
def array_token (t : List Char) : Bool := bare_token t || quoted_token t

/-- The entry line `name = v` of a configuration file. -/
def entry_line (name v : List Char) : List Char := name ++ ' ' :: '=' :: ' ' :: v

/-- The line `name = v` is lexed as done, with the keyword `name` and the value `v`. -/
def entry_lexed (name v : List Char) : Bool :=
  decide (cfgcli_parse_line (entry_line name v) 0 (entry_line name v).length none none START =
    run_t.ret (DONE, name ++ NUL :: '=' :: ' ' :: v, some 0, some (name.length + 3)))

/-- The return code and the stored result of `cfgcli_get` for the value text `v` at the
type `dtype`, on a registry without error and a fresh entry. -/
def coerce (libc : libc_t) (dtype : Int) (v : List Char) : Int × slot_t :=
  let r := cfgcli_get libc cfgcli_init
    { param_zero with dtype := dtype, value := some v, vlen := v.length + 1 } 0
  (r.1, r.2.2.slot)

/-- A value text that can be presented for the keyword `name` at the type `dtype`: a
non-empty C string on one line, lexed as the value of the entry `name = v` and coerced
with code 0. -/
def value_ok (libc : libc_t) (name : List Char) (dtype : Int) (v : List Char) : Bool :=
  v != [] && !v.contains NUL && !v.contains '\n' && entry_lexed name v &&
  (coerce libc dtype v).1 == 0

/-- The two kinds of passes that present values: the command line and a file. -/
inductive source_t where
  | cli : source_t
  | file : source_t
  deriving DecidableEq, Repr

/-- The command line `prog --lopt=v`. -/
def cli_args (lopt v : List Char) : List (List Char) :=
  ["prog".toList, '-' :: '-' :: (lopt ++ '=' :: v)]

/-- The content of a file that holds the entry `name = v` and a line terminator. -/
def file_text (name v : List Char) : List Char := entry_line name v ++ ['\n']

/-- A pass of the kind `k` at the priority `prior` that presents the value `v` for the
parameter whose keyword is `name` and whose long option is `lopt`: the call of
`cfgcli_read_opts` on `prog --lopt=v`, or the call of `cfgcli_read_file` on a file that
holds `name = v`.  It gives the return code and the registry. -/
def run_pass (libc : libc_t) (cfg : cfgcli_t) (k : source_t) (name lopt v : List Char)
    (prior : Int) : run_t (Int × cfgcli_t) :=
  match k with
  | source_t.cli =>
    let r := cfgcli_read_opts libc cfg (cli_args lopt v) prior 0
    run_t.ret (r.1, r.2.1)
  | source_t.file =>
    cfgcli_read_file libc cfg (some "pass.conf".toList) (some (file_text name v)) prior

/-- Entry `j` of the registry is a registered parameter that the keyword `name`, the long
option `--lopt` and its own variable designate, and the registry has no error. -/
def designates (cfg : cfgcli_t) (j : Nat) (name lopt : List Char) : Bool :=
  !CFGCLI_IS_ERROR cfg && decide (j < cfg.npar) && decide (cfg.npar ≤ cfg.params.length) &&
  name_grammar name && lopt_grammar lopt &&
  find_param cfg name == some j &&
  find_opt cfg ('-' :: '-' :: lopt) == opt_status_t.is_param j &&
  (cfg.params.getD j param_zero).name == some name &&
  (cfg.params.getD j param_zero).var != 0 &&
  first_index (fun (p : cfgcli_param_valid_t) => p.var == (cfg.params.getD j param_zero).var)
    (cfg.params.take cfg.npar) == some j

/-- The first physical line of the entry `name = [t1, ..., tk, tk+1, ..., tn]` broken behind
the separator that follows `tk`: `name = [t1, ..., tk, ` and a backslash. -/
def broken_head (name : List Char) (ts1 : List (List Char)) : List Char :=
  entry_line name ('[' :: (join_elems ts1 ++ [',', ' ', '\\']))

/-- The first physical line of the entry `name = [t1, ..., tk, ...]` broken directly behind
the element `tk`: `name = [t1, ..., tk` and a backslash. -/
def broken_elem_head (name : List Char) (ts1 : List (List Char)) : List Char :=
  entry_line name ('[' :: (join_elems ts1 ++ ['\\']))

/-- The second physical line of the broken entry: `tk+1, ..., tn]`. -/
def broken_tail (ts2 : List (List Char)) : List Char := join_elems ts2 ++ [']']

/-- The content of a file that holds the broken entry on two lines, each with its line
terminator. -/
def broken_text (name : List Char) (ts1 ts2 : List (List Char)) : List Char :=
  broken_head name ts1 ++ '\n' :: (broken_tail ts2 ++ ['\n'])

/-- The value text of the broken entry when the second line is lexed: the two lines joined,
with a blank in place of the backslash and a blank in place of the line terminator. -/
def broken_value (ts1 ts2 : List (List Char)) : List Char :=
  '[' :: (join_elems ts1 ++ [',', ' ', ' ', ' '] ++ (join_elems ts2 ++ [']']))

/-! ## Concrete inputs used as witnesses -/

/-- The registry that a finished call leaves (the empty registry when it does not return). -/
def ret_cfg (r : run_t (Int × cfgcli_t)) : cfgcli_t :=
  match r with
  | run_t.ret (_, c) => c
  | _ => cfgcli_init

/-- A C library whose floating-point scanner matches nothing. -/
def ex_libc : libc_t := { scan_f := fun _ => none, scan_lf := fun _ => none }

/-- A string parameter `conf` with options `-c` and `--conf`. -/
def ex_conf : cfgcli_param_t :=
  { opt := 'c', lopt := some "conf".toList, name := some "conf".toList,
    dtype := CFGCLI_DTYPE_STR, var := 100, help := some "Set the configuration file.".toList }

/-- An integer-array parameter `INT_ARR` with options `-I` and `--ints`. -/
def ex_ints : cfgcli_param_t :=
  { opt := 'I', lopt := some "ints".toList, name := some "INT_ARR".toList,
    dtype := CFGCLI_ARRAY_INT, var := 200, help := some "Set the int type INT_ARR".toList }

/-- A descriptor with the name of `ex_conf` and other options. -/
def ex_conf_again : cfgcli_param_t :=
  { opt := 'x', lopt := some "other".toList, name := some "conf".toList,
    dtype := CFGCLI_DTYPE_INT, var := 300, help := some "Same name as conf.".toList }

/-- A descriptor whose name starts with a digit. -/
def ex_bad_name : cfgcli_param_t :=
  { opt := 'z', lopt := some "zed".toList, name := some "9lives".toList,
    dtype := CFGCLI_DTYPE_INT, var := 400, help := some "Bad name.".toList }

/-- A valid integer parameter `level` with options `-l` and `--level`. -/
def ex_level : cfgcli_param_t :=
  { opt := 'l', lopt := some "level".toList, name := some "level".toList,
    dtype := CFGCLI_DTYPE_INT, var := 700, help := some "Set the level.".toList }

/-- A function descriptor with the option `-v`. -/
def ex_verbose : cfgcli_func_t :=
  { opt := 'v', lopt := none, func := 800, args := 0, help := none }

/-- A function descriptor without any option. -/
def ex_no_option : cfgcli_func_t :=
  { opt := NUL, lopt := none, func := 900, args := 0, help := none }

/-- A function `help` with options `-h` and `--help`. -/
def ex_help : cfgcli_func_t :=
  { opt := 'h', lopt := some "help".toList, func := 500, args := 600,
    help := some "Print this message and exit.".toList }

/-- The registry with the parameters `conf` and `INT_ARR` and the function `help`. -/
def ex_cfg : cfgcli_t :=
  ret_cfg (cfgcli_set_funcs (ret_cfg (cfgcli_set_params cfgcli_init [ex_conf, ex_ints]))
    [ex_help])

/-- An entry line of exactly 1024 bytes, the size of the first chunk of the file reader:
`conf = ` and 1017 times `x`. -/
def ex_line_1024 : List Char := entry_line "conf".toList (List.replicate 1017 'x')

/-- A registry whose sticky error code is set: the one left by an empty registration. -/
def ex_failed : cfgcli_t := ret_cfg (cfgcli_set_params ex_cfg [])

/-! ## Predicates used to state the properties of the coercion -/

/-- The text `raw` is the non-empty token `tok` between white space, bare or in one pair
of quotes: a bare token starts with neither white space nor a quote and does not end with
white space; a quoted token does not hold its own quote character. -/
def strips_to (raw tok : List Char) : Prop :=
  (∃ sp1 sp2 c cs l d, tok = c :: cs ∧ tok = l ++ [d] ∧
    (∀ x ∈ sp1, isspace x = true) ∧ (∀ x ∈ sp2, isspace x = true) ∧
    isspace c = false ∧ c ≠ '"' ∧ c ≠ '\'' ∧ isspace d = false ∧
    raw = sp1 ++ (tok ++ sp2)) ∨
  (∃ sp1 sp2 q, tok ≠ [] ∧ (q = '"' ∨ q = '\'') ∧ q ∉ tok ∧
    (∀ x ∈ sp1, isspace x = true) ∧ (∀ x ∈ sp2, isspace x = true) ∧
    raw = sp1 ++ q :: (tok ++ q :: sp2))

/-- The literals that the coercion to `bool` reads as true. -/
def true_words : List (List Char) :=
  ["1".toList, "T".toList, "t".toList, "true".toList, "TRUE".toList, "True".toList]

/-- The literals that the coercion to `bool` reads as false. -/
def false_words : List (List Char) :=
  ["0".toList, "F".toList, "f".toList, "false".toList, "FALSE".toList, "False".toList]

/-- The value of a run of decimal digits. -/
def digits_value (ds : List Char) : Nat :=
  ds.foldl (fun acc c => acc * 10 + (c.toNat - 48)) 0

/-- The integer that a sign and a run of decimal digits denote. -/
def int_denoted (sg ds : List Char) : Int :=
  if sg = ['-'] then -(digits_value ds : Int) else (digits_value ds : Int)

/-- The text `s` is white space `sp`, an optional sign `sg`, one or more decimal digits
`ds` and white space `tr`. -/
def int_text (s sp sg ds tr : List Char) : Prop :=
  s = sp ++ (sg ++ (ds ++ tr)) ∧ (∀ x ∈ sp, isspace x = true) ∧
  (sg = [] ∨ sg = ['+'] ∨ sg = ['-']) ∧ ds ≠ [] ∧ (∀ x ∈ ds, isdigit x = true) ∧
  (∀ x ∈ tr, isspace x = true)

/-- The text `raw` is, between white space, one pair of quotes around white space `isp`,
an optional sign `sg`, one or more decimal digits `ds` and white space `tr`. -/
def int_quoted (raw isp sg ds tr : List Char) : Prop :=
  ∃ sp1 sp2 q inner, (q = '"' ∨ q = '\'') ∧ (∀ x ∈ sp1, isspace x = true) ∧
    (∀ x ∈ sp2, isspace x = true) ∧ raw = sp1 ++ q :: (inner ++ q :: sp2) ∧
    int_text inner isp sg ds tr

/-! ## Predicates used to state the properties of the command line -/

/-- The shape of a candidate option in the specification: the flag character `-`, then
either a letter followed by the end of the text or by `=`, or a second `-` followed by the
end of the text or by a graphic character other than `=`. -/
def opt_shape (t : List Char) : Bool :=
  match t with
  | a :: c :: rest =>
    a == '-' &&
    ((isalpha c && (rest.isEmpty || rest.head? == some '=')) ||
     (c == '-' && (rest.isEmpty ||
       (match rest.head? with
        | some d => d != '=' && isgraph d
        | none => false))))
  | _ => false

/-- A boolean parameter `flag` with options `-f` and `--flag`. -/
def ex_flag : cfgcli_param_t :=
  { opt := 'f', lopt := some "flag".toList, name := some "flag".toList,
    dtype := CFGCLI_DTYPE_BOOL, var := 1000, help := some "Switch the flag on.".toList }

/-- The registry with the parameters `flag`, `level` and `conf` and the functions `help`
and `-v`. -/
def ex_cli : cfgcli_t :=
  ret_cfg (cfgcli_set_funcs
    (ret_cfg (cfgcli_set_params cfgcli_init [ex_flag, ex_level, ex_conf]))
    [ex_help, ex_verbose])

/-- Token `a` matches no registered option: it is not an option, or it is an option `opt`
or `opt=v` whose part `opt` has at most `CFGCLI_MAX_LOPT_LEN + 2` characters and the
search of `opt` in the registry finds nothing. -/
def unmatched (cfg : cfgcli_t) (a : List Char) : Prop :=
  CFGCLI_IS_OPT a = false ∨
  ∃ opt : List Char, (a = opt ∨ ∃ v, a = opt ++ '=' :: v) ∧ (∀ c ∈ opt, c ≠ '=') ∧
    opt.length ≤ CFGCLI_MAX_LOPT_LEN + 2 ∧ find_opt cfg opt = opt_status_t.not_found

/-- The warning for the token `a` that matches nothing: the text of an option stops
before its `=`. -/
def opt_warning (a : List Char) : List Char :=
  let key := if CFGCLI_IS_OPT a then a.takeWhile (fun c => c != '=') else a
  if key = [] then "unrecognised command line option".toList
  else "unrecognised command line option".toList ++ [':', ' '] ++ key

/-- The option `a` takes the token `b` that follows it as its argument. -/
def takes_next (a b : List Char) : Bool :=
  CFGCLI_IS_OPT a && !decide ('=' ∈ a) && !CFGCLI_IS_OPT b

/-- One warning for each token that is not taken as the argument of the token before
it. -/
def unmatched_warnings : List (List Char) → List (List Char)
  | [] => []
  | [a] => [opt_warning a]
  | a :: b :: r =>
    if takes_next a b then opt_warning a :: unmatched_warnings r
    else opt_warning a :: unmatched_warnings (b :: r)

/-- The registry with the diagnostics `ms` added. -/
def add_msgs (cfg : cfgcli_t) (ms : List (List Char)) : cfgcli_t :=
  { cfg with error := { cfg.error with msg := cfg.error.msg ++ ms } }

/-- Successive calls of `cfgcli_read_opts` on one registry, each with its argument
vector and its priority: the registry after the last call. -/
def read_opts_seq (libc : libc_t) (cfg : cfgcli_t) :
    List (List (List Char) × Int) → cfgcli_t
  | [] => cfg
  | (argv, prior) :: rest =>
    read_opts_seq libc (cfgcli_read_opts libc cfg argv prior 0).2.1 rest

/-- What one step may do to the functions of the registry `c`: nothing, or the call of
one function that was not called yet, with its flag set. -/
def one_call (c c2 : cfgcli_t) : Prop :=
  (c2.funcs = c.funcs ∧ c2.calls = c.calls) ∨
  ∃ k, k < c.funcs.length ∧ (c.funcs.getD k func_zero).called = false ∧
    c2.calls = c.calls ++
      [((c.funcs.getD k func_zero).func, (c.funcs.getD k func_zero).args)] ∧
    c2.funcs = c.funcs.set k { c.funcs.getD k func_zero with called := true }

/-- The calls made between the registries `cfg` and `c`: those of the functions of
indices `js`, each one once and none that was called before, with the flags set. -/
def called_once (cfg c : cfgcli_t) (js : List Nat) : Prop :=
  js.Nodup ∧
  (∀ k ∈ js, k < cfg.funcs.length ∧ (cfg.funcs.getD k func_zero).called = false) ∧
  c.calls = cfg.calls ++
    js.map (fun k => ((cfg.funcs.getD k func_zero).func, (cfg.funcs.getD k func_zero).args)) ∧
  c.funcs.length = cfg.funcs.length ∧
  ∀ k, c.funcs.getD k func_zero =
    { cfg.funcs.getD k func_zero with
      called := (cfg.funcs.getD k func_zero).called || decide (k ∈ js) }

/-! ## Predicates used to state the properties of the array splitter -/

/-- A bare array element: a graphic first byte that is none of `,`, `]`, `#` and the
quotes, then printable bytes other than `,`, `]` and `#`. -/
def plain_elem (t : List Char) : Bool :=
  match t with
  | [] => false
  | c :: cs =>
    isgraph c && c != ',' && c != ']' && c != '#' && c != '"' && c != '\'' &&
    cs.all bare_tail

/-- A quoted array element: a quote, bytes other than this quote and NUL, and the same
quote. -/
def quoted_elem (t : List Char) : Prop :=
  ∃ q inner, (q = '"' ∨ q = '\'') ∧ q ∉ inner ∧ NUL ∉ inner ∧ t = q :: (inner ++ [q])

/-- The text `seg` is the array element `e` with its surrounding white space: white
space before it, and white space behind it when it is quoted. -/
def elem_seg (seg e : List Char) : Prop :=
  ∃ ws ws2, (∀ c ∈ ws, isspace c = true) ∧ (∀ c ∈ ws2, isspace c = true) ∧
    seg = ws ++ (e ++ ws2) ∧ ((plain_elem e = true ∧ ws2 = []) ∨ quoted_elem e)

/-- The texts `s1, ..., sn` with the byte `d` between them. -/
def join_by (d : Char) : List (List Char) → List Char
  | [] => []
  | [s] => s
  | s :: t :: r => s ++ d :: join_by d (t :: r)

/-- The texts `s1, ..., sn`, each followed by the byte `d`. -/
def seg_run (d : Char) : List (List Char) → List Char
  | [] => []
  | s :: r => s ++ d :: seg_run d r

/-- The first `k` NUL-terminated strings that lie one after the other in `buf`. -/
def c_strings : Nat → List Char → List (List Char)
  | 0, _ => []
  | k + 1, buf => cstr_at buf 0 :: c_strings k (buf.drop ((cstr_at buf 0).length + 1))

/-- An array of strings with the value `["a,b", c]`. -/
def ex_strings : cfgcli_param_valid_t :=
  { dtype := CFGCLI_ARRAY_STR, src := 0, opt := NUL, narr := 0, nlen := 5, llen := 0,
    vlen := 11, hlen := 0, name := some "NAMES".toList, lopt := none,
    value := some "[\"a,b\", c]".toList, var := 300, help := none,
    slot := slot_t.untouched }

/-- An array of integers with the value `[x, "abc`: the second element opens a quote that
is never closed, the first one is no integer. -/
def ex_open_quote : cfgcli_param_valid_t :=
  { dtype := CFGCLI_ARRAY_INT, src := 0, opt := NUL, narr := 0, nlen := 7, llen := 0,
    vlen := 9, hlen := 0, name := some "INT_ARR".toList, lopt := none,
    value := some "[x, \"abc".toList, var := 200, help := none,
    slot := slot_t.untouched }

/-- What may follow the closing bracket of an array: no graphic character before the
comment sign, if there is one, or before the end. -/
def tail_ok (b : List Char) : Prop :=
  ∀ c ∈ b.takeWhile (fun x => x != '#'), isgraph c = false

/-- A complete array element as the splitter passes over it, with the white space around
it: white space, then a bare element, or a quote, bytes other than this quote, the same
quote and white space. -/
def passed_seg (s : List Char) : Prop :=
  ∃ ws, (∀ c ∈ ws, isspace c = true) ∧
    ((∃ t, plain_elem t = true ∧ s = ws ++ t) ∨
     (∃ q inner ws2, (q = '"' ∨ q = '\'') ∧ q ∉ inner ∧ (∀ c ∈ ws2, isspace c = true) ∧
        s = ws ++ q :: (inner ++ q :: ws2)))

/-- A text after the opening bracket that is closed: complete elements with commas between
them, the closing bracket, and then no graphic character before the comment sign or the
end. -/
def closed_elems (body : List Char) : Prop :=
  ∃ init last b, (∀ s ∈ init ++ [last], passed_seg s) ∧ tail_ok b ∧
    body = seg_run ',' init ++ (last ++ ']' :: b)

/-- A text after the opening bracket that ends inside a quoted element: complete elements,
each followed by a comma, then white space and a quote character that opens an element and
does not occur again. -/
def ends_in_quote (body : List Char) : Prop :=
  ∃ init ws q b, (∀ s ∈ init, passed_seg s) ∧ (∀ c ∈ ws, isspace c = true) ∧
    (q = '"' ∨ q = '\'') ∧ q ∉ b ∧ body = seg_run ',' init ++ (ws ++ q :: b)

/-- A text after the opening bracket that is closed, or that ends inside a quoted
element. -/
def closed_or_quoted (body : List Char) : Prop :=
  closed_elems body ∨ ends_in_quote body

/-- What follows a complete element: the closing bracket and its tail, or a comma and a
text that is closed or ends inside a quoted element. -/
def after_elem (r : List Char) : Prop :=
  (∃ b, r = ']' :: b ∧ tail_ok b) ∨ (∃ r1, r = ',' :: r1 ∧ closed_or_quoted r1)

/-- What the rest of the value is like when the loop of the splitter, in the state `S` with
the quote character `q`, runs to its end on it without an early return. -/
def split_concl (S : cfgcli_parse_state_t) (q : Char) (rest : List Char) : Prop :=
  match S with
  | cfgcli_parse_state_t.ARRAY_START => closed_or_quoted rest
  | cfgcli_parse_state_t.ARRAY_VALUE =>
    ∃ t r0, (∀ x ∈ t, bare_tail x = true) ∧ rest = t ++ r0 ∧ after_elem r0
  | cfgcli_parse_state_t.ARRAY_QUOTE_END =>
    ∃ ws r0, (∀ x ∈ ws, isspace x = true) ∧ rest = ws ++ r0 ∧ after_elem r0
  | cfgcli_parse_state_t.ARRAY_QUOTE =>
    q ∉ rest ∨
    ∃ inner ws r0, q ∉ inner ∧ (∀ x ∈ ws, isspace x = true) ∧
      rest = inner ++ q :: (ws ++ r0) ∧ after_elem r0
  | cfgcli_parse_state_t.ARRAY_END => tail_ok rest
  | _ => True

/-! ## Predicates used to state what the lexer has recorded -/

/-- The keyword is open: the key pointer `k` lies in the line (which starts at `p`) before
the index `a`, the byte at `k` may start an identifier and the bytes between `k` and `a`
may continue it. -/
def lex_open (p : Nat) (L : List Char) (key : Option Nat) (a : Nat) : Prop :=
  ∃ k, key = some k ∧ p ≤ k ∧ k < a ∧
    (isalpha (L.getD k NUL) || L.getD k NUL == '_' || L.getD k NUL == '-') = true ∧
    ∀ m, k < m → m < a → (isalnum (L.getD m NUL) || L.getD m NUL == '_' || L.getD m NUL == '-') = true

/-- The keyword is recorded: it starts at the key pointer `k`, an identifier of fewer than
128 bytes, and is terminated by a NUL at `e`, before the index `a`. -/
def lex_key (p : Nat) (L : List Char) (key : Option Nat) (e a : Nat) : Prop :=
  ∃ k, key = some k ∧ p ≤ k ∧ k < e ∧ e < a ∧ e - k < CFGCLI_MAX_NAME_LEN ∧
    (isalpha (L.getD k NUL) || L.getD k NUL == '_' || L.getD k NUL == '-') = true ∧
    (∀ m, k < m → m < e → (isalnum (L.getD m NUL) || L.getD m NUL == '_' || L.getD m NUL == '-') = true) ∧
    L.getD e NUL = NUL

/-- The keyword and the start of the value are recorded: the value pointer `v` lies behind
the terminated keyword and before the index `a`, on a graphic byte other than `#`. -/
def lex_post (p : Nat) (L : List Char) (key value : Option Nat) (a : Nat) : Prop :=
  ∃ e v, lex_key p L key e v ∧ value = some v ∧ v < a ∧
    isgraph (L.getD v NUL) = true ∧ L.getD v NUL ≠ '#'

/-- What holds of the variables of the scanning loop before the pass at index `a`, for a
line at offset `p` that is scanned from the state `START`. -/
def lex_inv (p : Nat) (s : lex_t) (a : Nat) : Prop :=
  match s.state with
  | cfgcli_parse_state_t.START => True
  | cfgcli_parse_state_t.KEYWORD => lex_open p s.line s.key a
  | cfgcli_parse_state_t.EQUAL => ∃ e, lex_key p s.line s.key e a
  | cfgcli_parse_state_t.VALUE_START => ∃ e, lex_key p s.line s.key e a
  | cfgcli_parse_state_t.CLEAN => True
  | cfgcli_parse_state_t.ARRAY_DONE => True
  | _ => lex_post p s.line s.key s.value a

/-! ## Predicates used to compare the array rules of the lexer and of the splitter -/

/-- Every byte of the white space at the head of a text is printable. -/
def ws_run_ok (rest : List Char) : Prop :=
  ∀ ws c b, rest = ws ++ c :: b → (∀ x ∈ ws, isspace x = true) → isspace c = true →
    isprint c = true

/-- No backslash of the text is followed by white space that holds a byte which is not
printable (a tab, for one). -/
def backslash_ok (rest : List Char) : Prop :=
  ∀ a b, rest = a ++ '\\' :: b → ws_run_ok b

/-- The state of the splitter that goes with a state of the lexer inside an array: the
same state, with the same quote character inside quotes, and `ARRAY_VALUE` for the state
`ARRAY_NEWLINE` of the lexer. -/
def lex_split_rel (s : lex_t) (t : split_t) : Prop :=
  match s.state with
  | cfgcli_parse_state_t.ARRAY_START => t.state = cfgcli_parse_state_t.ARRAY_START
  | cfgcli_parse_state_t.ARRAY_VALUE => t.state = cfgcli_parse_state_t.ARRAY_VALUE
  | cfgcli_parse_state_t.ARRAY_QUOTE =>
    t.state = cfgcli_parse_state_t.ARRAY_QUOTE ∧ t.quote = s.quote
  | cfgcli_parse_state_t.ARRAY_QUOTE_END => t.state = cfgcli_parse_state_t.ARRAY_QUOTE_END
  | cfgcli_parse_state_t.ARRAY_END => t.state = cfgcli_parse_state_t.ARRAY_END
  | cfgcli_parse_state_t.ARRAY_NEWLINE => t.state = cfgcli_parse_state_t.ARRAY_VALUE
  | _ => False

/-- The states of the lexer before the value pointer is set. -/
def lex_before_value (S : cfgcli_parse_state_t) : Bool :=
  match S with
  | cfgcli_parse_state_t.START => true
  | cfgcli_parse_state_t.KEYWORD => true
  | cfgcli_parse_state_t.EQUAL => true
  | cfgcli_parse_state_t.VALUE_START => true
  | _ => false

/-- The states of the lexer inside a value from which it may still return `DONE`. -/
def lex_in_value (S : cfgcli_parse_state_t) : Bool :=
  match S with
  | cfgcli_parse_state_t.VALUE => true
  | cfgcli_parse_state_t.QUOTE => true
  | cfgcli_parse_state_t.QUOTE_END => true
  | cfgcli_parse_state_t.ARRAY_START => true
  | cfgcli_parse_state_t.ARRAY_VALUE => true
  | cfgcli_parse_state_t.ARRAY_QUOTE => true
  | cfgcli_parse_state_t.ARRAY_QUOTE_END => true
  | cfgcli_parse_state_t.ARRAY_END => true
  | cfgcli_parse_state_t.ARRAY_NEWLINE => true
  | _ => false

/-- The parameter `conf` of the examples with a null help text. -/
def ex_conf_no_help : cfgcli_param_t := { ex_conf with help := none }

/-- A short option that is set and is not a letter. -/
def opt_invalid (c : Char) : Bool := c != NUL && !isalpha c

/-- A long option with a character that is not graphic, or is `=`, among its first 128
characters. -/
def lopt_invalid_char (lopt : Option (List Char)) : Bool :=
  match lopt with
  | some s => (s.take 128).any (fun x => !isgraph x || x == '=')
  | none => false

/-- The descriptor `d` without its invalid short option and without its long option with an
invalid character. -/
def strip_opts (d : cfgcli_param_t) : cfgcli_param_t :=
  { d with opt := if opt_invalid d.opt then NUL else d.opt,
           lopt := if lopt_invalid_char d.lopt then none else d.lopt }

/-- The warnings of `cfgcli_set_params` for the invalid options of the descriptor `d`. -/
def option_warnings (d : cfgcli_param_t) : List (List Char) :=
  (if opt_invalid d.opt then
    ["invalid short command line option for parameter".toList ++ [':', ' '] ++ d.name.getD []]
   else []) ++
  (if lopt_invalid_char d.lopt then
    ["invalid long command line option for parameter".toList ++ [':', ' '] ++ d.name.getD []]
   else [])

/-- The parameter `conf` of the examples with the digit `1` as its short option. -/
def ex_conf_digit : cfgcli_param_t := { ex_conf with opt := '1' }

/-- The parameter `conf` of the examples with the long option `a=b`. -/
def ex_conf_assign : cfgcli_param_t := { ex_conf with lopt := some "a=b".toList }

/-- The names of the parameter entries `ps`. -/
def reg_names (ps : List cfgcli_param_valid_t) : List (Option (List Char)) :=
  ps.map (fun v => v.name)

/-- The short options that are set among the parameter entries `ps` and the function
entries `fs`. -/
def reg_opts (ps : List cfgcli_param_valid_t) (fs : List cfgcli_func_valid_t) : List Char :=
  (ps.map (fun v => v.opt) ++ fs.map (fun f => f.opt)).filter (fun c => c != NUL)

/-- The long options that are present among the parameter entries `ps` and the function
entries `fs`. -/
def reg_lopts (ps : List cfgcli_param_valid_t) (fs : List cfgcli_func_valid_t) :
    List (List Char) :=
  ps.filterMap (fun v => v.lopt) ++ fs.filterMap (fun f => f.lopt)

/-- Among the entries `ps` and `fs` the parameter names are pairwise distinct, the short
options that are set are pairwise distinct, and the long options that are present are
pairwise distinct. -/
def entries_unique (ps : List cfgcli_param_valid_t) (fs : List cfgcli_func_valid_t) : Prop :=
  (reg_names ps).Nodup ∧ (reg_opts ps fs).Nodup ∧ (reg_lopts ps fs).Nodup

/-- The uniqueness invariant of the registry: the registered entries are `entries_unique`. -/
def registry_unique (cfg : cfgcli_t) : Prop :=
  entries_unique (cfg.params.take cfg.npar) (cfg.funcs.take cfg.nfunc)

/-- A registration call with its array of descriptors. -/
inductive reg_call_t where
  | params (ds : List cfgcli_param_t)
  | funcs (fs : List cfgcli_func_t)

/-- Successive registration calls on one registry, whatever each call returns: the
registry after the last call. -/
def reg_calls (cfg : cfgcli_t) : List reg_call_t → run_t cfgcli_t
  | [] => run_t.ret cfg
  | reg_call_t.params ds :: rest =>
    match cfgcli_set_params cfg ds with
    | run_t.ret (_, c) => reg_calls c rest
    | run_t.undef => run_t.undef
    | run_t.nofuel => run_t.nofuel
  | reg_call_t.funcs fs :: rest =>
    match cfgcli_set_funcs cfg fs with
    | run_t.ret (_, c) => reg_calls c rest
    | run_t.undef => run_t.undef
    | run_t.nofuel => run_t.nofuel

/-- The registry of the examples after the rejected registration of a second parameter
named `conf`. -/
def ex_cfg_dup : cfgcli_t := ret_cfg (cfgcli_set_params ex_cfg [ex_conf_again])

/-! ## Diagnostics output -/

/-- The line that `fprintf(fp, "%s%s%s.\n", msg, sep, errmsg)` writes for the entry
`errmsg`; the separator is a blank unless the prefix `msg` is null or empty. -/
def diag_line (msg : Option (List Char)) (errmsg : List Char) : List Char :=
  match msg with
  | none => errmsg ++ ['.', '\n']
  | some [] => errmsg ++ ['.', '\n']
  | some m => m ++ [' '] ++ errmsg ++ ['.', '\n']

/-- The loop `for (i = 0; i < num - 1; i++) errmsg += strlen(errmsg) + 1;` of
`cfgcli_perror` over the recorded entries: the entry that `errmsg` points to. -/
def perror_skip : Nat → List (List Char) → Option (List Char)
  | 0, e :: _ => some e
  | n + 1, _ :: rest => perror_skip n rest
  | _, [] => none

/-- Function `cfgcli_perror`: the lines written to the stream; the registry is not
modified.  The number of recorded entries `err->num` is the length of the list. -/
def cfgcli_perror (cfg : cfgcli_t) (msg : Option (List Char)) : List (List Char) :=
  if !CFGCLI_IS_ERROR cfg then []
  else if cfg.error.msg.length = 0 then []
  else
    match perror_skip (cfg.error.msg.length - 1) cfg.error.msg with
    | some e => [diag_line msg e]
    | none => []

/-- The printing loop of `cfgcli_pwarn` for `num` entries: the lines written and the
entries from `errmsg` on after the loop. -/
def pwarn_loop (msg : Option (List Char)) : Nat → List (List Char) →
    List (List Char) × List (List Char)
  | 0, rest => ([], rest)
  | _ + 1, [] => ([], [])
  | n + 1, e :: rest => (diag_line msg e :: (pwarn_loop msg n rest).1, (pwarn_loop msg n rest).2)

/-- Function `cfgcli_pwarn`: the lines written to the stream and the registry after the
call. -/
def cfgcli_pwarn (cfg : cfgcli_t) (msg : Option (List Char)) : List (List Char) × cfgcli_t :=
  let num : Int :=
    if CFGCLI_IS_ERROR cfg then (cfg.error.msg.length : Int) - 1
    else (cfg.error.msg.length : Int)
  if num ≤ 0 then ([], cfg)
  else
    ((pwarn_loop msg num.toNat cfg.error.msg).1,
     { cfg with error := { cfg.error with msg := (pwarn_loop msg num.toNat cfg.error.msg).2 } })

/-- A registry whose sticky error code is set while no diagnostic is recorded, as left when
the allocation in `cfgcli_msg` fails for the first message. -/
def ex_no_entry : cfgcli_t :=
  { cfgcli_init with error := { errno := CFGCLI_ERR_MEMORY, msg := [] } }

/-- A registry with one warning and one fatal error recorded: the parameter `conf` with an
invalid short option is registered, then an empty registration fails. -/
def ex_warned_failed : cfgcli_t :=
  ret_cfg (cfgcli_set_params (ret_cfg (cfgcli_set_params cfgcli_init [ex_conf_digit])) [])

/-! ## Sources of the values -/

/-- The stored source of the parameter with index `j`. -/
def param_src (cfg : cfgcli_t) (j : Nat) : Int := (cfg.params.getD j param_zero).src

/-- Between the registries `a` and `b` every stored source is unchanged, or was below the
priority `prior` in absolute value and is now `s`. -/
def src_step (s prior : Int) (a b : cfgcli_t) : Prop :=
  ∀ j, param_src b j = param_src a j ∨
    (CFGCLI_SRC_VAL (param_src a j) < prior ∧ param_src b j = s)

/-- Modelled from the spec: the reference reader of the chunk-boundary claim, for a
registry and a priority that pass the checks of `cfgcli_read_file`.  It holds the whole
content in memory, appends a line feed if the content does not end with one, and runs the
line loop of the reader once over the whole buffer, so that every physical line is fed to
the line lexer with the carried-over state.  It returns the code of the loop and the
registry. -/
def ref_read_file (libc : libc_t) (cfg : cfgcli_t) (bytes : List Char) (prior : Int) :
    run_t (Int × cfgcli_t) :=
  let content := if bytes.getLast? = some '\n' then bytes else bytes ++ ['\n']
  match file_lines libc prior content.length (content.length + 1)
      { cfg := cfg, chunk := content, clen := content.length, nline := 0, nrest := 0,
        nproc := 0, key := none, value := none, state := START, file := [] } 0 with
  | run_t.ret (err, r, _) => run_t.ret (err, r.cfg)
  | run_t.undef => run_t.undef
  | run_t.nofuel => run_t.nofuel

theorem NUL_toNat : NUL.toNat = 0 := by decide

theorem toNat_ne_of_ne {a b : Char} (h : a ≠ b) : a.toNat ≠ b.toNat := by
  intro e
  apply h
  apply Char.ext
  apply UInt32.ext
  exact e

theorem ne_NUL_of_pos {c : Char} (h : 0 < c.toNat) : c ≠ NUL := by
  intro e
  rw [e, NUL_toNat] at h
  exact Nat.lt_irrefl 0 h

theorem isalpha_ne_NUL {c : Char} (h : isalpha c = true) : c ≠ NUL := by
  apply ne_NUL_of_pos
  simp [isalpha] at h
  omega

theorem isgraph_ne_NUL {c : Char} (h : isgraph c = true) : c ≠ NUL := by
  apply ne_NUL_of_pos
  simp [isgraph] at h
  omega

theorem name_char_ne_NUL {c : Char} (h : (isalnum c || c == '_' || c == '-') = true) :
    c ≠ NUL := by
  intro e
  subst e
  revert h
  decide

theorem name_head_ne_NUL {c : Char} (h : (isalpha c || c == '_' || c == '-') = true) :
    c ≠ NUL := by
  intro e
  subst e
  revert h
  decide

/-! ## String comparison -/

theorem take_succ_append_NUL (a : List Char) : (a ++ [NUL]).take (a.length + 1) = a ++ [NUL] := by
  apply List.take_of_length_le
  simp

theorem strncmp0_self (a : List Char) (n : Nat) : strncmp0 a a n = true := by
  simp [strncmp0]

theorem strncmp0_eq_of_true (a b : List Char) (hb : NUL ∉ b)
    (h : strncmp0 a b (a.length + 1) = true) : a = b := by
  simp only [strncmp0, beq_iff_eq] at h
  rw [take_succ_append_NUL] at h
  induction a generalizing b with
  | nil =>
    cases b with
    | nil => rfl
    | cons y ys =>
      simp at h
      exact absurd (by simp [h]) hb
  | cons x xs ih =>
    cases b with
    | nil =>
      simp at h
    | cons y ys =>
      simp only [List.cons_append, List.length_cons, List.take_succ_cons, List.cons.injEq] at h
      have hy : NUL ∉ ys := fun m => hb (List.mem_cons_of_mem _ m)
      rw [h.1, ih ys hy h.2]

theorem strncmp0_iff (a b : List Char) (hb : NUL ∉ b) :
    strncmp0 a b (a.length + 1) = true ↔ a = b := by
  constructor
  · exact strncmp0_eq_of_true a b hb
  · intro e
    rw [e]
    exact strncmp0_self b _

/-! ## Registration: the scans -/

theorem name_scan_eq (cs : List Char) (j : Nat) :
    name_scan cs j =
      if cs.all (fun x => isalnum x || x == '_' || x == '-') = true ∧
          (cs = [] ∨ j + cs.length < 128) then some (j + cs.length) else none := by
  induction cs generalizing j with
  | nil => simp [name_scan]
  | cons c cs ih =>
    simp only [name_scan, CFGCLI_MAX_NAME_LEN]
    by_cases hc : (isalnum c || c == '_' || c == '-') = true
    · have hc2 : (!isalnum c && c != '_' && c != '-') = false := by
        simp only [Bool.or_eq_true, beq_iff_eq] at hc
        simp only [Bool.and_eq_false_imp, Bool.not_eq_true', bne_eq_false_iff_eq, Bool.and_eq_true,
          bne_iff_ne, ne_eq, and_imp]
        intro h1 h2
        rcases hc with (h | h) | h
        · rw [h] at h1; cases h1
        · exact absurd h h2
        · exact h
      rw [hc2]
      simp only [Bool.false_eq_true, ↓reduceIte, ge_iff_le]
      by_cases hj : 128 ≤ j + 1
      · simp only [hj, ↓reduceIte]
        rw [if_neg]
        simp only [List.length_cons, reduceCtorEq, false_or, not_and, not_lt]
        intro _
        omega
      · simp only [hj, ↓reduceIte]
        rw [ih (j + 1)]
        simp only [List.all_cons, hc, Bool.true_and, List.length_cons, reduceCtorEq, false_or]
        by_cases ha : cs.all (fun x => isalnum x || x == '_' || x == '-') = true
        · by_cases hl : j + (cs.length + 1) < 128
          · rw [if_pos ⟨ha, Or.inr (by omega)⟩, if_pos ⟨ha, hl⟩]
            congr 1
            omega
          · rw [if_neg, if_neg]
            · exact fun h => hl h.2
            · intro h
              rcases h.2 with h2 | h2
              · subst h2
                simp at hl
                omega
              · omega
        · rw [if_neg (fun h => ha h.1), if_neg (fun h => ha h.1)]
    · have hc2 : (!isalnum c && c != '_' && c != '-') = true := by
        simp only [Bool.or_eq_true, beq_iff_eq, not_or, Bool.not_eq_true] at hc
        simp [hc.1.1, hc.1.2, hc.2]
      rw [hc2]
      simp only [↓reduceIte, List.all_cons]
      rw [if_neg]
      intro h
      apply hc
      have := h.1
      simp only [Bool.and_eq_true] at this
      exact this.1

theorem name_scan_of_grammar (c : Char) (cs : List Char) (h : name_grammar (c :: cs) = true) :
    name_scan cs 1 = some (cs.length + 1) := by
  simp only [name_grammar, Bool.and_eq_true, decide_eq_true_eq, List.length_cons] at h
  rw [name_scan_eq, if_pos ⟨h.1.2, Or.inr (by omega)⟩]
  congr 1
  omega

theorem name_head_of_grammar (c : Char) (cs : List Char) (h : name_grammar (c :: cs) = true) :
    (!isalpha c && c != '_' && c != '-') = false := by
  simp only [name_grammar, Bool.and_eq_true, decide_eq_true_eq, Bool.or_eq_true, beq_iff_eq] at h
  rcases h.1.1 with (h1 | h1) | h1
  · simp [h1]
  · simp [h1]
  · simp [h1]

theorem name_scan_of_not_grammar (c : Char) (cs : List Char)
    (hc : (!isalpha c && c != '_' && c != '-') = false)
    (h : name_grammar (c :: cs) = false) : name_scan cs 1 = none := by
  rw [name_scan_eq, if_neg]
  intro hh
  have hhead : (isalpha c || c == '_' || c == '-') = true := by
    by_cases h1 : isalpha c = true
    · simp [h1]
    · by_cases h2 : c = '_'
      · simp [h2]
      · by_cases h3 : c = '-'
        · simp [h3]
        · simp [h1, h2, h3] at hc
  have : name_grammar (c :: cs) = true := by
    simp only [name_grammar, Bool.and_eq_true, decide_eq_true_eq, List.length_cons]
    refine ⟨⟨hhead, hh.1⟩, ?_⟩
    rcases hh.2 with h2 | h2
    · subst h2
      simp
    · omega
  rw [this] at h
  cases h

theorem lopt_scan_eq (l : List Char) (j : Nat)
    (hall : l.all (fun x => isgraph x && x != '=') = true) (hlen : j + l.length < 128) :
    lopt_scan l j = lopt_scan_t.ends (j + l.length) := by
  induction l generalizing j with
  | nil => simp [lopt_scan]
  | cons c cs ih =>
    simp only [List.all_cons, Bool.and_eq_true, bne_iff_ne, ne_eq] at hall
    simp only [List.length_cons] at hlen
    simp only [lopt_scan, CFGCLI_MAX_LOPT_LEN, CFGCLI_CMD_ASSIGN]
    have h1 : (!isgraph c || c == '=') = false := by
      simp [hall.1.1, hall.1.2]
    rw [h1]
    simp only [Bool.false_eq_true, ↓reduceIte, ge_iff_le]
    rw [if_neg (by omega), ih (j + 1) hall.2 (by omega)]
    simp only [List.length_cons]
    congr 1
    omega

theorem verify_lopt_ok (cfg : cfgcli_t) (lopt : Option (List Char)) (m : List Char)
    (key : Option (List Char)) (h : lopt_ok lopt = true) :
    verify_lopt cfg lopt m key =
      (cfg, (lopt_of lopt).map (fun l => (l, l.length + 1)), false) := by
  cases lopt with
  | none => rfl
  | some l =>
    cases l with
    | nil => rfl
    | cons c cs =>
      simp only [lopt_ok, lopt_grammar, Bool.and_eq_true, decide_eq_true_eq] at h
      simp only [verify_lopt, lopt_of, Option.map_some']
      rw [lopt_scan_eq (c :: cs) 0 h.1.2 (by omega)]
      simp

/-! ## Registration: the loop body -/

theorem take_set_self {α : Type} (l : List α) (k : Nat) (a : α) : (l.set k a).take k = l.take k := by
  induction l generalizing k with
  | nil => simp
  | cons x xs ih =>
    cases k with
    | zero => simp
    | succ k => simp [ih]

theorem take_set_le {α : Type} (l : List α) (k m : Nat) (a : α) (h : m ≤ k) :
    (l.set k a).take m = l.take m := by
  induction l generalizing k m with
  | nil => simp
  | cons x xs ih =>
    cases k with
    | zero =>
      have : m = 0 := by omega
      subst this
      simp
    | succ k =>
      cases m with
      | zero => simp
      | succ m => simp [ih k m (by omega)]

@[simp] theorem put_param_put_param (cfg : cfgcli_t) (k : Nat) (a b : cfgcli_param_valid_t) :
    put_param (put_param cfg k a) k b = put_param cfg k b := by
  simp [put_param, List.set_set]

@[simp] theorem put_param_npar (cfg : cfgcli_t) (k : Nat) (a : cfgcli_param_valid_t) :
    (put_param cfg k a).npar = cfg.npar := rfl

@[simp] theorem put_param_nfunc (cfg : cfgcli_t) (k : Nat) (a : cfgcli_param_valid_t) :
    (put_param cfg k a).nfunc = cfg.nfunc := rfl

@[simp] theorem put_param_funcs (cfg : cfgcli_t) (k : Nat) (a : cfgcli_param_valid_t) :
    (put_param cfg k a).funcs = cfg.funcs := rfl

@[simp] theorem put_param_error (cfg : cfgcli_t) (k : Nat) (a : cfgcli_param_valid_t) :
    (put_param cfg k a).error = cfg.error := rfl

@[simp] theorem put_param_calls (cfg : cfgcli_t) (k : Nat) (a : cfgcli_param_valid_t) :
    (put_param cfg k a).calls = cfg.calls := rfl

@[simp] theorem put_param_params (cfg : cfgcli_t) (k : Nat) (a : cfgcli_param_valid_t) :
    (put_param cfg k a).params = cfg.params.set k a := rfl

theorem cfgcli_msg_shape (cfg : cfgcli_t) (m : List Char) (key : Option (List Char)) :
    ∃ e, cfgcli_msg cfg m key = { cfg with error := e } ∧ e.errno = cfg.error.errno := by
  unfold cfgcli_msg
  split
  · exact ⟨cfg.error, rfl, rfl⟩
  · split
    · exact ⟨_, rfl, rfl⟩
    · exact ⟨_, rfl, rfl⟩
    · exact ⟨_, rfl, rfl⟩

@[simp] theorem cfgcli_msg_npar (cfg : cfgcli_t) (m : List Char) (key : Option (List Char)) :
    (cfgcli_msg cfg m key).npar = cfg.npar := by
  obtain ⟨e, h, _⟩ := cfgcli_msg_shape cfg m key
  rw [h]

@[simp] theorem cfgcli_msg_nfunc (cfg : cfgcli_t) (m : List Char) (key : Option (List Char)) :
    (cfgcli_msg cfg m key).nfunc = cfg.nfunc := by
  obtain ⟨e, h, _⟩ := cfgcli_msg_shape cfg m key
  rw [h]

@[simp] theorem cfgcli_msg_params (cfg : cfgcli_t) (m : List Char) (key : Option (List Char)) :
    (cfgcli_msg cfg m key).params = cfg.params := by
  obtain ⟨e, h, _⟩ := cfgcli_msg_shape cfg m key
  rw [h]

@[simp] theorem cfgcli_msg_funcs (cfg : cfgcli_t) (m : List Char) (key : Option (List Char)) :
    (cfgcli_msg cfg m key).funcs = cfg.funcs := by
  obtain ⟨e, h, _⟩ := cfgcli_msg_shape cfg m key
  rw [h]

@[simp] theorem cfgcli_msg_calls (cfg : cfgcli_t) (m : List Char) (key : Option (List Char)) :
    (cfgcli_msg cfg m key).calls = cfg.calls := by
  obtain ⟨e, h, _⟩ := cfgcli_msg_shape cfg m key
  rw [h]

@[simp] theorem cfgcli_msg_errno (cfg : cfgcli_t) (m : List Char) (key : Option (List Char)) :
    (cfgcli_msg cfg m key).error.errno = cfg.error.errno := by
  obtain ⟨e, h, he⟩ := cfgcli_msg_shape cfg m key
  rw [h]
  exact he

theorem set_params_body_badname (cfg : cfgcli_t) (i : Nat) (d : cfgcli_param_t)
    (h : name_ok d.name = false) :
    ∃ cfg1, set_params_body cfg i d = run_t.ret (CFGCLI_ERR_INPUT, cfg1) := by
  unfold set_params_body
  cases hn : d.name with
  | none => exact ⟨_, rfl⟩
  | some s =>
    cases s with
    | nil => exact ⟨_, rfl⟩
    | cons c cs =>
      rw [hn] at h
      simp only [name_ok] at h
      simp only []
      by_cases hc : (!isalpha c && c != '_' && c != '-') = true
      · rw [if_pos hc]
        exact ⟨_, rfl⟩
      · rw [if_neg hc]
        simp only [Bool.not_eq_true] at hc
        rw [name_scan_of_not_grammar c cs hc h]
        exact ⟨_, rfl⟩

theorem name_grammar_no_NUL (n : List Char) (h : name_grammar n = true) : NUL ∉ n := by
  cases n with
  | nil => simp
  | cons c cs =>
    simp only [name_grammar, Bool.and_eq_true, decide_eq_true_eq] at h
    intro hm
    rcases List.mem_cons.1 hm with e | e
    · exact name_head_ne_NUL h.1.1 e.symm
    · have := List.all_eq_true.1 h.1.2 NUL e
      exact name_char_ne_NUL this rfl

theorem lopt_grammar_no_NUL (l : List Char) (h : lopt_grammar l = true) : NUL ∉ l := by
  simp only [lopt_grammar, Bool.and_eq_true, decide_eq_true_eq] at h
  intro hm
  have := List.all_eq_true.1 h.1.2 NUL hm
  simp only [Bool.and_eq_true] at this
  exact isgraph_ne_NUL this.1 rfl

theorem param_entry_ok_name (v : cfgcli_param_valid_t) (h : param_entry_ok v = true) :
    ∃ n, v.name = some n ∧ name_grammar n = true ∧ v.nlen = n.length + 1 := by
  unfold param_entry_ok at h
  cases hn : v.name with
  | none => simp [hn] at h
  | some n =>
    simp only [hn, Bool.and_eq_true, beq_iff_eq] at h
    exact ⟨n, rfl, h.1.1.1, h.1.1.2⟩

theorem param_entry_ok_lopt (v : cfgcli_param_valid_t) (h : param_entry_ok v = true)
    (l : List Char) (hl : v.lopt = some l) : lopt_grammar l = true ∧ v.llen = l.length + 1 := by
  unfold param_entry_ok at h
  simp only [hl, Bool.and_eq_true, beq_iff_eq] at h
  exact h.2

theorem func_entry_ok_lopt (f : cfgcli_func_valid_t) (h : func_entry_ok f = true)
    (l : List Char) (hl : f.lopt = some l) : lopt_grammar l = true ∧ f.llen = l.length + 1 := by
  unfold func_entry_ok at h
  simp only [hl, Bool.and_eq_true, beq_iff_eq] at h
  exact h.2

theorem opt_check_false (a b : Char) (h : opt_free a b = true) :
    (a != NUL && a == b) = false := by
  simp only [opt_free, Bool.or_eq_true, beq_iff_eq, bne_iff_ne, ne_eq] at h
  rcases h with h | h
  · simp [h]
  · simp [h]

theorem opt_check_true (a b : Char) (h : opt_free a b = false) :
    (a != NUL && a == b) = true := by
  simp only [opt_free, Bool.or_eq_false_iff, beq_eq_false_iff_ne, ne_eq, bne_eq_false_iff_eq] at h
  obtain ⟨h1, h2⟩ := h
  subst h2
  simp [h1]

theorem param_dup_params_none (par : cfgcli_param_valid_t) (pname : List Char)
    (vs : List cfgcli_param_valid_t) (hnl : par.nlen = pname.length + 1)
    (hll : ∀ pl, par.lopt = some pl → par.llen = pl.length + 1)
    (h : ∀ v ∈ vs, param_entry_ok v = true ∧ v.name ≠ some pname ∧
      opt_free par.opt v.opt = true ∧ lopt_free par.lopt v.lopt = true) :
    param_dup_params par pname vs = some none := by
  induction vs with
  | nil => rfl
  | cons v vs ih =>
    obtain ⟨hok, hname, hopt, hlopt⟩ := h v (List.mem_cons_self _ _)
    have ih1 := ih (fun w hw => h w (List.mem_cons_of_mem _ hw))
    obtain ⟨n, hn, hg, _⟩ := param_entry_ok_name v hok
    unfold param_dup_params
    simp only [hn]
    have h1 : strncmp0 pname n par.nlen = false := by
      rw [hnl]
      cases hs : strncmp0 pname n (pname.length + 1) with
      | false => rfl
      | true =>
        have := (strncmp0_iff pname n (name_grammar_no_NUL n hg)).1 hs
        rw [hn, this] at hname
        exact absurd rfl hname
    rw [h1, opt_check_false _ _ hopt]
    simp only [Bool.false_eq_true, ↓reduceIte]
    cases hpl : par.lopt with
    | none => simpa using ih1
    | some pl =>
      cases hvl : v.lopt with
      | none => simpa using ih1
      | some vl =>
        simp only []
        have h2 : strncmp0 pl vl par.llen = false := by
          rw [hll pl hpl]
          cases hs : strncmp0 pl vl (pl.length + 1) with
          | false => rfl
          | true =>
            have hg2 := (param_entry_ok_lopt v hok vl hvl).1
            have := (strncmp0_iff pl vl (lopt_grammar_no_NUL vl hg2)).1 hs
            rw [hpl, hvl, this] at hlopt
            simp [lopt_free] at hlopt
        rw [h2]
        simpa using ih1

theorem param_dup_params_some (par : cfgcli_param_valid_t) (pname : List Char)
    (vs : List cfgcli_param_valid_t) (hnl : par.nlen = pname.length + 1)
    (hll : ∀ pl, par.lopt = some pl → par.llen = pl.length + 1)
    (hok : ∀ v ∈ vs, param_entry_ok v = true)
    (hdup : ∃ v ∈ vs, v.name = some pname ∨ opt_free par.opt v.opt = false ∨
      lopt_free par.lopt v.lopt = false) :
    ∃ m, param_dup_params par pname vs = some (some m) := by
  induction vs with
  | nil =>
    obtain ⟨v, hv, _⟩ := hdup
    cases hv
  | cons v vs ih =>
    obtain ⟨n, hn, hg, _⟩ := param_entry_ok_name v (hok v (List.mem_cons_self _ _))
    unfold param_dup_params
    simp only [hn]
    by_cases h1 : strncmp0 pname n par.nlen = true
    · rw [if_pos h1]
      exact ⟨_, rfl⟩
    · rw [if_neg h1]
      by_cases h2 : (par.opt != NUL && par.opt == v.opt) = true
      · rw [if_pos h2]
        exact ⟨_, rfl⟩
      · rw [if_neg h2]
        have htail : (v.name = some pname ∨ opt_free par.opt v.opt = false ∨
            lopt_free par.lopt v.lopt = false) → lopt_free par.lopt v.lopt = false := by
          intro hv
          rcases hv with hv | hv | hv
          · rw [hn] at hv
            injection hv with hv
            rw [hv, hnl, strncmp0_self] at h1
            exact absurd rfl h1
          · exact absurd (opt_check_true _ _ hv) h2
          · exact hv
        have hrec : (lopt_free par.lopt v.lopt = true) →
            ∃ m, param_dup_params par pname vs = some (some m) := by
          intro hfree
          apply ih (fun w hw => hok w (List.mem_cons_of_mem _ hw))
          obtain ⟨w, hw, hwd⟩ := hdup
          rcases List.mem_cons.1 hw with e | e
          · subst e
            have := htail hwd
            rw [hfree] at this
            cases this
          · exact ⟨w, e, hwd⟩
        cases hpl : par.lopt with
        | none =>
          simp only []
          apply hrec
          simp [lopt_free, hpl]
        | some pl =>
          cases hvl : v.lopt with
          | none =>
            simp only []
            apply hrec
            simp [lopt_free, hpl, hvl]
          | some vl =>
            simp only []
            by_cases h3 : strncmp0 pl vl par.llen = true
            · rw [if_pos h3]
              exact ⟨_, rfl⟩
            · rw [if_neg h3]
              apply hrec
              simp only [lopt_free, hpl, hvl, bne_iff_ne, ne_eq]
              intro e
              rw [e, hll pl hpl, e, strncmp0_self] at h3
              exact h3 rfl

theorem param_dup_funcs_none (par : cfgcli_param_valid_t) (fs : List cfgcli_func_valid_t)
    (hll : ∀ pl, par.lopt = some pl → par.llen = pl.length + 1)
    (h : ∀ f ∈ fs, func_entry_ok f = true ∧ opt_free par.opt f.opt = true ∧
      lopt_free par.lopt f.lopt = true) :
    param_dup_funcs par fs = none := by
  induction fs with
  | nil => rfl
  | cons f fs ih =>
    obtain ⟨hok, hopt, hlopt⟩ := h f (List.mem_cons_self _ _)
    have ih1 := ih (fun w hw => h w (List.mem_cons_of_mem _ hw))
    unfold param_dup_funcs
    rw [opt_check_false _ _ hopt]
    simp only [Bool.false_eq_true, ↓reduceIte]
    cases hpl : par.lopt with
    | none => simpa using ih1
    | some pl =>
      cases hvl : f.lopt with
      | none => simpa using ih1
      | some vl =>
        simp only []
        have h2 : strncmp0 pl vl par.llen = false := by
          rw [hll pl hpl]
          cases hs : strncmp0 pl vl (pl.length + 1) with
          | false => rfl
          | true =>
            have hg2 := (func_entry_ok_lopt f hok vl hvl).1
            have := (strncmp0_iff pl vl (lopt_grammar_no_NUL vl hg2)).1 hs
            rw [hpl, hvl, this] at hlopt
            simp [lopt_free] at hlopt
        rw [h2]
        simpa using ih1

theorem set_params_body_valid (cfg : cfgcli_t) (i : Nat) (d : cfgcli_param_t)
    (hn : name_ok d.name = true) (hd : param_desc_ok d = true) :
    set_params_body cfg i d =
      match param_dup_params (param_entry (cfg.params.getD (cfg.npar + i) param_zero) d)
          (d.name.getD []) (cfg.params.take (cfg.npar + i)) with
      | none => run_t.undef
      | some (some (m, key)) =>
        fail_with (cfgcli_msg (put_param cfg (cfg.npar + i)
          (param_entry (cfg.params.getD (cfg.npar + i) param_zero) d)) m key) CFGCLI_ERR_EXIST
      | some none =>
        match param_dup_funcs (param_entry (cfg.params.getD (cfg.npar + i) param_zero) d)
            (cfg.funcs.take cfg.nfunc) with
        | some (m, key) =>
          fail_with (cfgcli_msg (put_param cfg (cfg.npar + i)
            (param_entry (cfg.params.getD (cfg.npar + i) param_zero) d)) m key) CFGCLI_ERR_EXIST
        | none =>
          run_t.ret (0, put_param cfg (cfg.npar + i)
            (param_entry (cfg.params.getD (cfg.npar + i) param_zero) d)) := by
  obtain ⟨opt, lopt, name, dtype, var, help⟩ := d
  simp only [param_desc_ok, Bool.and_eq_true, Bool.not_eq_true', bne_iff_ne, ne_eq,
    Bool.or_eq_true, beq_iff_eq] at hd
  obtain ⟨⟨⟨⟨hdt, hvar⟩, hopt⟩, hlopt⟩, hhelp⟩ := hd
  cases name with
  | none => simp [name_ok] at hn
  | some s =>
    cases s with
    | nil => simp [name_ok, name_grammar] at hn
    | cons c cs =>
      cases help with
      | none => simp at hhelp
      | some h =>
        simp only [name_ok] at hn
        simp only [decide_eq_true_eq] at hhelp
        have hA : isalpha NUL = false := by decide
        rcases hopt with e | e
        · subst e
          cases hl : lopt_of lopt <;>
            simp [set_params_body, name_head_of_grammar c cs hn, name_scan_of_grammar c cs hn,
              hdt, hvar, verify_lopt_ok _ _ _ _ hlopt, help_scan, hhelp, put_param_put_param,
              take_set_self, param_entry, hl, hA] <;> rfl
        · cases hl : lopt_of lopt <;>
            simp [set_params_body, name_head_of_grammar c cs hn, name_scan_of_grammar c cs hn,
              hdt, hvar, verify_lopt_ok _ _ _ _ hlopt, help_scan, hhelp, put_param_put_param,
              take_set_self, param_entry, hl, e] <;> rfl

theorem same_params_refl (k : Nat) (a : cfgcli_t) : same_params_upto k a a :=
  ⟨rfl, rfl, rfl, rfl, rfl, rfl⟩

theorem same_params_trans {k : Nat} {a b c : cfgcli_t} (h1 : same_params_upto k a b)
    (h2 : same_params_upto k b c) : same_params_upto k a c := by
  unfold same_params_upto at *
  refine ⟨?_, ?_, ?_, ?_, ?_, ?_⟩
  · rw [h2.1, h1.1]
  · rw [h2.2.1, h1.2.1]
  · rw [h2.2.2.1, h1.2.2.1]
  · rw [h2.2.2.2.1, h1.2.2.2.1]
  · rw [h2.2.2.2.2.1, h1.2.2.2.2.1]
  · rw [h2.2.2.2.2.2, h1.2.2.2.2.2]

theorem same_params_put {k : Nat} {a b : cfgcli_t} (h : same_params_upto k a b) (j : Nat)
    (hj : k ≤ j) (p : cfgcli_param_valid_t) : same_params_upto k a (put_param b j p) := by
  obtain ⟨a1, a2, a3, a4, a5, a6⟩ := h
  refine ⟨a1, a2, a3, a4, ?_, ?_⟩
  · rw [put_param_params, take_set_le _ _ _ _ hj, a5]
  · rw [put_param_params, List.length_set, a6]

theorem same_params_msg {k : Nat} {a b : cfgcli_t} (h : same_params_upto k a b)
    (m : List Char) (key : Option (List Char)) : same_params_upto k a (cfgcli_msg b m key) := by
  obtain ⟨e, he, _⟩ := cfgcli_msg_shape b m key
  rw [he]
  exact h

theorem same_params_errno {k : Nat} {a b : cfgcli_t} (h : same_params_upto k a b)
    (e : cfgcli_error_t) : same_params_upto k a { b with error := e } := h

theorem verify_lopt_fst (cfg : cfgcli_t) (lopt : Option (List Char)) (m : List Char)
    (key : Option (List Char)) :
    (verify_lopt cfg lopt m key).1 = cfg ∨ (verify_lopt cfg lopt m key).1 = cfgcli_msg cfg m key := by
  unfold verify_lopt
  split
  · exact Or.inl rfl
  · exact Or.inl rfl
  · split
    · exact Or.inl rfl
    · exact Or.inr rfl
    · exact Or.inr rfl

theorem same_params_verify {k : Nat} {a b : cfgcli_t} (h : same_params_upto k a b)
    (lopt : Option (List Char)) (m : List Char) (key : Option (List Char)) :
    same_params_upto k a (verify_lopt b lopt m key).1 := by
  rcases verify_lopt_fst b lopt m key with e | e
  · rw [e]
    exact h
  · rw [e]
    exact same_params_msg h m key

theorem same_params_verify_eq {k : Nat} {a b c : cfgcli_t} {lo : Option (List Char × Nat)}
    {fl : Bool} (lopt : Option (List Char)) (m : List Char) (key : Option (List Char))
    (heq : verify_lopt b lopt m key = (c, lo, fl)) (h : same_params_upto k a b) :
    same_params_upto k a c := by
  have := same_params_verify h lopt m key
  rw [heq] at this
  exact this

theorem same_params_ite {k : Nat} {a b c : cfgcli_t} (p : Prop) [Decidable p]
    (h1 : same_params_upto k a b) (h2 : same_params_upto k a c) :
    same_params_upto k a (if p then b else c) := by
  split
  · exact h1
  · exact h2

theorem set_params_body_frame (cfg : cfgcli_t) (i : Nat) (d : cfgcli_param_t) (code : Int)
    (cfg1 : cfgcli_t) (h : set_params_body cfg i d = run_t.ret (code, cfg1)) :
    same_params_upto (cfg.npar + i) cfg cfg1 := by
  unfold set_params_body at h
  simp only [] at h
  have R := same_params_refl (cfg.npar + i) cfg
  have P := fun (b : cfgcli_t) (hb : same_params_upto (cfg.npar + i) cfg b)
    (p : cfgcli_param_valid_t) => same_params_put hb (cfg.npar + i) (Nat.le_refl _) p
  split at h
  · simp only [fail_with, run_t.ret.injEq, Prod.mk.injEq] at h
    rw [← h.2]
    exact same_params_errno (same_params_msg (P _ R _) _ _) _
  · simp only [fail_with, run_t.ret.injEq, Prod.mk.injEq] at h
    rw [← h.2]
    exact same_params_errno (same_params_msg (P _ R _) _ _) _
  · split at h
    · simp only [fail_with, run_t.ret.injEq, Prod.mk.injEq] at h
      rw [← h.2]
      exact same_params_errno (same_params_msg (P _ R _) _ _) _
    · split at h
      · simp only [fail_with, run_t.ret.injEq, Prod.mk.injEq] at h
        rw [← h.2]
        exact same_params_errno (same_params_msg (P _ R _) _ _) _
      · split at h
        · simp only [fail_with, run_t.ret.injEq, Prod.mk.injEq] at h
          rw [← h.2]
          exact same_params_errno (same_params_msg (P _ (P _ R _) _) _ _) _
        · split at h
          · simp only [fail_with, run_t.ret.injEq, Prod.mk.injEq] at h
            rw [← h.2]
            exact same_params_errno (same_params_msg (P _ (P _ (P _ R _) _) _) _ _) _
          · split at h
            · rename_i heq
              have hv := same_params_verify_eq _ _ _ heq
                (same_params_ite _ (same_params_msg (P _ (P _ (P _ (P _ R _) _) _) _) _ _)
                  (P _ (P _ (P _ (P _ R _) _) _) _))
              simp only [fail_with, run_t.ret.injEq, Prod.mk.injEq] at h
              rw [← h.2]
              exact same_params_errno hv _
            · rename_i heq
              have hv := same_params_verify_eq _ _ _ heq
                (same_params_ite _ (same_params_msg (P _ (P _ (P _ (P _ R _) _) _) _) _ _)
                  (P _ (P _ (P _ (P _ R _) _) _) _))
              split at h
              · cases h
              · split at h
                · simp only [fail_with, run_t.ret.injEq, Prod.mk.injEq] at h
                  rw [← h.2]
                  exact same_params_errno (same_params_msg (P _ hv _) _ _) _
                · split at h
                  · cases h
                  · simp only [fail_with, run_t.ret.injEq, Prod.mk.injEq] at h
                    rw [← h.2]
                    exact same_params_errno (same_params_msg (P _ (P _ hv _) _) _ _) _
                  · split at h
                    · simp only [fail_with, run_t.ret.injEq, Prod.mk.injEq] at h
                      rw [← h.2]
                      exact same_params_errno (same_params_msg (P _ (P _ hv _) _) _ _) _
                    · simp only [run_t.ret.injEq, Prod.mk.injEq] at h
                      rw [← h.2]
                      exact P _ (P _ hv _) _

theorem same_params_mono {k m : Nat} {a b : cfgcli_t} (hm : m ≤ k)
    (h : same_params_upto k a b) : same_params_upto m a b := by
  obtain ⟨a1, a2, a3, a4, a5, a6⟩ := h
  refine ⟨a1, a2, a3, a4, ?_, a6⟩
  have := congrArg (List.take m) a5
  simpa [List.take_take, Nat.min_eq_left hm] using this

theorem set_params_loop_frame (ds : List cfgcli_param_t) (cfg : cfgcli_t) (i : Nat)
    (code : Int) (cfg1 : cfgcli_t) (h : set_params_loop cfg i ds = run_t.ret (code, cfg1)) :
    same_params_upto cfg.npar cfg cfg1 := by
  induction ds generalizing cfg i with
  | nil =>
    simp only [set_params_loop, run_t.ret.injEq, Prod.mk.injEq] at h
    rw [← h.2]
    exact same_params_refl _ _
  | cons d ds ih =>
    unfold set_params_loop at h
    split at h
    · rename_i c2 cfg2 heq
      have hb := same_params_mono (Nat.le_add_right _ i) (set_params_body_frame cfg i d c2 cfg2 heq)
      split at h
      · have := ih cfg2 (i + 1) h
        rw [hb.1] at this
        exact same_params_trans hb this
      · simp only [run_t.ret.injEq, Prod.mk.injEq] at h
        rw [← h.2]
        exact hb
    · cases h
    · cases h

theorem take_take_append {α : Type} (l r : List α) (n : Nat) (h : n ≤ l.length) :
    (l.take n ++ r).take n = l.take n := by
  have hl : (l.take n).length = n := by simp [List.length_take, Nat.min_eq_left h]
  conv => lhs; rw [← hl]
  rw [hl]
  exact List.take_left' hl

theorem set_params_frame (cfg : cfgcli_t) (ds : List cfgcli_param_t) (code : Int)
    (cfg1 : cfgcli_t) (hnp : cfg.npar ≤ cfg.params.length)
    (h : cfgcli_set_params cfg ds = run_t.ret (code, cfg1)) :
    cfg1.nfunc = cfg.nfunc ∧ cfg1.funcs = cfg.funcs ∧ cfg1.calls = cfg.calls ∧
    cfg1.params.take cfg.npar = cfg.params.take cfg.npar ∧
    (code ≠ 0 → cfg1.npar = cfg.npar) ∧ (code = 0 → cfg1.npar = cfg.npar + ds.length) := by
  unfold cfgcli_set_params at h
  split at h
  · rename_i he
    simp only [run_t.ret.injEq, Prod.mk.injEq] at h
    rw [← h.2]
    refine ⟨rfl, rfl, rfl, rfl, fun _ => rfl, ?_⟩
    intro h0
    rw [← h.1] at h0
    simp [CFGCLI_IS_ERROR] at he
    exact absurd h0 he
  · split at h
    · simp only [fail_with, run_t.ret.injEq, Prod.mk.injEq] at h
      rw [← h.2]
      refine ⟨by simp, by simp, by simp, by simp, fun _ => by simp, ?_⟩
      intro h0
      rw [← h.1] at h0
      cases h0
    · simp only [] at h
      split at h
      · rename_i c2 cfg2 heq
        have hf := set_params_loop_frame ds _ 0 c2 cfg2 heq
        obtain ⟨a1, a2, a3, a4, a5, a6⟩ := hf
        simp only [] at a1 a2 a3 a4 a5 a6
        rw [take_take_append _ _ _ hnp] at a5
        split at h
        · rename_i hc
          simp only [run_t.ret.injEq, Prod.mk.injEq] at h
          rw [← h.2]
          refine ⟨a2, a3, a4, a5, ?_, ?_⟩
          · intro hne
            exact absurd h.1.symm hne
          · intro _
            simp only [a1]
        · rename_i hc
          simp only [run_t.ret.injEq, Prod.mk.injEq] at h
          rw [← h.2]
          refine ⟨a2, a3, a4, a5, fun _ => a1, ?_⟩
          intro h0
          rw [← h.1] at h0
          exact absurd h0 hc
      · cases h
      · cases h

@[simp] theorem put_func_put_func (cfg : cfgcli_t) (k : Nat) (a b : cfgcli_func_valid_t) :
    put_func (put_func cfg k a) k b = put_func cfg k b := by
  simp [put_func, List.set_set]

@[simp] theorem put_func_npar (cfg : cfgcli_t) (k : Nat) (a : cfgcli_func_valid_t) :
    (put_func cfg k a).npar = cfg.npar := rfl

@[simp] theorem put_func_nfunc (cfg : cfgcli_t) (k : Nat) (a : cfgcli_func_valid_t) :
    (put_func cfg k a).nfunc = cfg.nfunc := rfl

@[simp] theorem put_func_params (cfg : cfgcli_t) (k : Nat) (a : cfgcli_func_valid_t) :
    (put_func cfg k a).params = cfg.params := rfl

@[simp] theorem put_func_error (cfg : cfgcli_t) (k : Nat) (a : cfgcli_func_valid_t) :
    (put_func cfg k a).error = cfg.error := rfl

@[simp] theorem put_func_calls (cfg : cfgcli_t) (k : Nat) (a : cfgcli_func_valid_t) :
    (put_func cfg k a).calls = cfg.calls := rfl

@[simp] theorem put_func_funcs (cfg : cfgcli_t) (k : Nat) (a : cfgcli_func_valid_t) :
    (put_func cfg k a).funcs = cfg.funcs.set k a := rfl

theorem same_funcs_refl (k : Nat) (a : cfgcli_t) : same_funcs_upto k a a :=
  ⟨rfl, rfl, rfl, rfl, rfl, rfl⟩

theorem same_funcs_trans {k : Nat} {a b c : cfgcli_t} (h1 : same_funcs_upto k a b)
    (h2 : same_funcs_upto k b c) : same_funcs_upto k a c := by
  unfold same_funcs_upto at *
  refine ⟨?_, ?_, ?_, ?_, ?_, ?_⟩
  · rw [h2.1, h1.1]
  · rw [h2.2.1, h1.2.1]
  · rw [h2.2.2.1, h1.2.2.1]
  · rw [h2.2.2.2.1, h1.2.2.2.1]
  · rw [h2.2.2.2.2.1, h1.2.2.2.2.1]
  · rw [h2.2.2.2.2.2, h1.2.2.2.2.2]

theorem same_funcs_put {k : Nat} {a b : cfgcli_t} (h : same_funcs_upto k a b) (j : Nat)
    (hj : k ≤ j) (p : cfgcli_func_valid_t) : same_funcs_upto k a (put_func b j p) := by
  obtain ⟨a1, a2, a3, a4, a5, a6⟩ := h
  refine ⟨a1, a2, a3, a4, ?_, ?_⟩
  · rw [put_func_funcs, take_set_le _ _ _ _ hj, a5]
  · rw [put_func_funcs, List.length_set, a6]

theorem same_funcs_msg {k : Nat} {a b : cfgcli_t} (h : same_funcs_upto k a b)
    (m : List Char) (key : Option (List Char)) : same_funcs_upto k a (cfgcli_msg b m key) := by
  obtain ⟨e, he, _⟩ := cfgcli_msg_shape b m key
  rw [he]
  exact h

theorem same_funcs_errno {k : Nat} {a b : cfgcli_t} (h : same_funcs_upto k a b)
    (e : cfgcli_error_t) : same_funcs_upto k a { b with error := e } := h

theorem same_funcs_verify_eq {k : Nat} {a b c : cfgcli_t} {lo : Option (List Char × Nat)}
    {fl : Bool} (lopt : Option (List Char)) (m : List Char) (key : Option (List Char))
    (heq : verify_lopt b lopt m key = (c, lo, fl)) (h : same_funcs_upto k a b) :
    same_funcs_upto k a c := by
  have h1 : (verify_lopt b lopt m key).1 = c := by rw [heq]
  rcases verify_lopt_fst b lopt m key with e | e
  · rw [← h1, e]
    exact h
  · rw [← h1, e]
    exact same_funcs_msg h m key

theorem same_funcs_ite {k : Nat} {a b c : cfgcli_t} (p : Prop) [Decidable p]
    (h1 : same_funcs_upto k a b) (h2 : same_funcs_upto k a c) :
    same_funcs_upto k a (if p then b else c) := by
  split
  · exact h1
  · exact h2

theorem same_funcs_mono {k m : Nat} {a b : cfgcli_t} (hm : m ≤ k)
    (h : same_funcs_upto k a b) : same_funcs_upto m a b := by
  obtain ⟨a1, a2, a3, a4, a5, a6⟩ := h
  refine ⟨a1, a2, a3, a4, ?_, a6⟩
  have := congrArg (List.take m) a5
  simpa [List.take_take, Nat.min_eq_left hm] using this

theorem set_funcs_body_frame (cfg : cfgcli_t) (i : Nat) (d : cfgcli_func_t) (code : Int)
    (cfg1 : cfgcli_t) (h : set_funcs_body cfg i d = run_t.ret (code, cfg1)) :
    same_funcs_upto (cfg.nfunc + i) cfg cfg1 := by
  unfold set_funcs_body at h
  simp only [] at h
  repeat' split at h
  all_goals first
    | (simp only [fail_with, run_t.ret.injEq, Prod.mk.injEq] at h
       rw [← h.2]
       first
         | apply same_funcs_errno
         | skip
       repeat (first
         | exact same_funcs_refl _ _
         | apply same_funcs_msg
         | apply same_funcs_put _ _ (Nat.le_refl _)
         | apply same_funcs_ite
         | apply same_funcs_verify_eq _ _ _ (by assumption)))

theorem set_funcs_loop_frame (ds : List cfgcli_func_t) (cfg : cfgcli_t) (i : Nat)
    (code : Int) (cfg1 : cfgcli_t) (h : set_funcs_loop cfg i ds = run_t.ret (code, cfg1)) :
    same_funcs_upto cfg.nfunc cfg cfg1 := by
  induction ds generalizing cfg i with
  | nil =>
    simp only [set_funcs_loop, run_t.ret.injEq, Prod.mk.injEq] at h
    rw [← h.2]
    exact same_funcs_refl _ _
  | cons d ds ih =>
    unfold set_funcs_loop at h
    split at h
    · rename_i c2 cfg2 heq
      have hb := same_funcs_mono (Nat.le_add_right _ i) (set_funcs_body_frame cfg i d c2 cfg2 heq)
      split at h
      · have := ih cfg2 (i + 1) h
        rw [hb.2.1] at this
        exact same_funcs_trans hb this
      · simp only [run_t.ret.injEq, Prod.mk.injEq] at h
        rw [← h.2]
        exact hb
    · cases h
    · cases h

theorem set_funcs_frame (cfg : cfgcli_t) (ds : List cfgcli_func_t) (code : Int)
    (cfg1 : cfgcli_t) (hnf : cfg.nfunc ≤ cfg.funcs.length)
    (h : cfgcli_set_funcs cfg ds = run_t.ret (code, cfg1)) :
    cfg1.npar = cfg.npar ∧ cfg1.params = cfg.params ∧ cfg1.calls = cfg.calls ∧
    cfg1.funcs.take cfg.nfunc = cfg.funcs.take cfg.nfunc ∧
    (code ≠ 0 → cfg1.nfunc = cfg.nfunc) ∧ (code = 0 → cfg1.nfunc = cfg.nfunc + ds.length) := by
  unfold cfgcli_set_funcs at h
  split at h
  · rename_i he
    simp only [run_t.ret.injEq, Prod.mk.injEq] at h
    rw [← h.2]
    refine ⟨rfl, rfl, rfl, rfl, fun _ => rfl, ?_⟩
    intro h0
    rw [← h.1] at h0
    simp [CFGCLI_IS_ERROR] at he
    exact absurd h0 he
  · split at h
    · simp only [fail_with, run_t.ret.injEq, Prod.mk.injEq] at h
      rw [← h.2]
      refine ⟨by simp, by simp, by simp, by simp, fun _ => by simp, ?_⟩
      intro h0
      rw [← h.1] at h0
      cases h0
    · simp only [] at h
      split at h
      · rename_i c2 cfg2 heq
        have hf := set_funcs_loop_frame ds _ 0 c2 cfg2 heq
        obtain ⟨a1, a2, a3, a4, a5, a6⟩ := hf
        simp only [] at a1 a2 a3 a4 a5 a6
        rw [take_take_append _ _ _ hnf] at a5
        split at h
        · rename_i hc
          simp only [run_t.ret.injEq, Prod.mk.injEq] at h
          rw [← h.2]
          refine ⟨a1, a3, a4, a5, ?_, ?_⟩
          · intro hne
            exact absurd h.1.symm hne
          · intro _
            simp only [a2]
        · rename_i hc
          simp only [run_t.ret.injEq, Prod.mk.injEq] at h
          rw [← h.2]
          refine ⟨a1, a3, a4, a5, fun _ => a2, ?_⟩
          intro h0
          rw [← h.1] at h0
          exact absurd h0 hc
      · cases h
      · cases h

theorem param_entry_opt (old : cfgcli_param_valid_t) (d : cfgcli_param_t)
    (hold : old.opt = NUL) (hd : param_desc_ok d = true) : (param_entry old d).opt = d.opt := by
  simp only [param_desc_ok, Bool.and_eq_true, Bool.or_eq_true, beq_iff_eq] at hd
  simp only [param_entry]
  rcases hd.1.1.2 with e | e
  · rw [e, hold]
    simp
  · simp [e]

theorem param_entry_llen (old : cfgcli_param_valid_t) (d : cfgcli_param_t) :
    ∀ pl, (param_entry old d).lopt = some pl → (param_entry old d).llen = pl.length + 1 := by
  intro pl h
  simp only [param_entry] at h ⊢
  rw [h]

theorem name_ok_some (name : Option (List Char)) (h : name_ok name = true) :
    ∃ n, name = some n ∧ name_grammar n = true := by
  cases name with
  | none => simp [name_ok] at h
  | some n => exact ⟨n, rfl, h⟩

theorem set_params_body_ok (cfg : cfgcli_t) (i : Nat) (d : cfgcli_param_t)
    (hn : name_ok d.name = true) (hd : param_desc_ok d = true)
    (hold : (cfg.params.getD (cfg.npar + i) param_zero).opt = NUL)
    (hps : ∀ v ∈ cfg.params.take (cfg.npar + i), param_entry_ok v = true ∧ v.name ≠ d.name ∧
      opt_free d.opt v.opt = true ∧ lopt_free (lopt_of d.lopt) v.lopt = true)
    (hfs : ∀ f ∈ cfg.funcs.take cfg.nfunc, func_entry_ok f = true ∧
      opt_free d.opt f.opt = true ∧ lopt_free (lopt_of d.lopt) f.lopt = true) :
    set_params_body cfg i d =
      run_t.ret (0, put_param cfg (cfg.npar + i)
        (param_entry (cfg.params.getD (cfg.npar + i) param_zero) d)) := by
  rw [set_params_body_valid cfg i d hn hd]
  obtain ⟨n, hname, hg⟩ := name_ok_some d.name hn
  have hopt := param_entry_opt _ d hold hd
  rw [param_dup_params_none _ _ _ (by simp [param_entry, hname]) (param_entry_llen _ d)]
  · simp only []
    rw [param_dup_funcs_none _ _ (param_entry_llen _ d)]
    intro f hf
    obtain ⟨h1, h2, h3⟩ := hfs f hf
    rw [hopt]
    exact ⟨h1, h2, h3⟩
  · intro v hv
    obtain ⟨h1, h2, h3, h4⟩ := hps v hv
    rw [hopt]
    refine ⟨h1, ?_, h3, h4⟩
    rw [hname] at h2 ⊢
    exact h2

theorem set_params_body_dup (cfg : cfgcli_t) (i : Nat) (d : cfgcli_param_t)
    (hn : name_ok d.name = true) (hd : param_desc_ok d = true)
    (hold : (cfg.params.getD (cfg.npar + i) param_zero).opt = NUL)
    (hok : ∀ v ∈ cfg.params.take (cfg.npar + i), param_entry_ok v = true)
    (hdup : ∃ v ∈ cfg.params.take (cfg.npar + i), v.name = d.name ∨
      opt_free d.opt v.opt = false ∨ lopt_free (lopt_of d.lopt) v.lopt = false) :
    ∃ cfg1, set_params_body cfg i d = run_t.ret (CFGCLI_ERR_EXIST, cfg1) := by
  rw [set_params_body_valid cfg i d hn hd]
  obtain ⟨n, hname, hg⟩ := name_ok_some d.name hn
  have hopt := param_entry_opt _ d hold hd
  obtain ⟨m, hm⟩ := param_dup_params_some
    (param_entry (cfg.params.getD (cfg.npar + i) param_zero) d) (d.name.getD [])
    (cfg.params.take (cfg.npar + i)) (by simp [param_entry, hname]) (param_entry_llen _ d) hok
    (by
      obtain ⟨v, hv, hvd⟩ := hdup
      refine ⟨v, hv, ?_⟩
      rw [hopt]
      rw [hname] at hvd ⊢
      exact hvd)
  rw [hm]
  exact ⟨_, rfl⟩

theorem registry_ok_unpack (cfg : cfgcli_t) (h : registry_ok cfg = true) :
    cfg.npar ≤ cfg.params.length ∧ cfg.nfunc ≤ cfg.funcs.length ∧
    (∀ v ∈ cfg.params.take cfg.npar, param_entry_ok v = true) ∧
    (∀ f ∈ cfg.funcs.take cfg.nfunc, func_entry_ok f = true) := by
  simp only [registry_ok, Bool.and_eq_true, decide_eq_true_eq, List.all_eq_true] at h
  exact ⟨h.1.1.1, h.1.1.2, h.1.2, h.2⟩

theorem param_fresh_unpack (cfg : cfgcli_t) (d : cfgcli_param_t) (h : param_fresh cfg d = true) :
    (∀ v ∈ cfg.params.take cfg.npar, v.name ≠ d.name ∧ opt_free d.opt v.opt = true ∧
      lopt_free (lopt_of d.lopt) v.lopt = true) ∧
    (∀ f ∈ cfg.funcs.take cfg.nfunc, opt_free d.opt f.opt = true ∧
      lopt_free (lopt_of d.lopt) f.lopt = true) := by
  simp only [param_fresh, Bool.and_eq_true, List.all_eq_true, bne_iff_ne, ne_eq] at h
  exact ⟨fun v hv => ⟨(h.1 v hv).1.1, (h.1 v hv).1.2, (h.1 v hv).2⟩, h.2⟩

theorem take_length_of_le {α : Type} (l : List α) (n : Nat) (h : n ≤ l.length) :
    (l.take n).length = n := by
  simp [List.length_take, Nat.min_eq_left h]

theorem getD_append_add {α : Type} (l r : List α) (i : Nat) (z : α) :
    (l ++ r).getD (l.length + i) z = r.getD i z := by
  induction l with
  | nil => simp
  | cons x xs ih =>
    have : (x :: xs).length + i = (xs.length + i) + 1 := by simp; omega
    rw [List.cons_append, this, List.getD_cons_succ, ih]

theorem take_append_add {α : Type} (l r : List α) (i : Nat) :
    (l ++ r).take (l.length + i) = l ++ r.take i := by
  induction l with
  | nil => simp
  | cons x xs ih =>
    have : (x :: xs).length + i = (xs.length + i) + 1 := by simp; omega
    rw [List.cons_append, this, List.take_succ_cons, ih, List.cons_append]

theorem set_append_add {α : Type} (l r : List α) (i : Nat) (a : α) :
    (l ++ r).set (l.length + i) a = l ++ r.set i a := by
  induction l with
  | nil => simp
  | cons x xs ih =>
    have : (x :: xs).length + i = (xs.length + i) + 1 := by simp; omega
    rw [List.cons_append, this, List.set_cons_succ, ih, List.cons_append]

theorem param_entry_ok_new (d : cfgcli_param_t) (hn : name_ok d.name = true)
    (hd : param_desc_ok d = true) : param_entry_ok (param_entry param_zero d) = true := by
  obtain ⟨n, hname, hg⟩ := name_ok_some d.name hn
  simp only [param_desc_ok, Bool.and_eq_true, Bool.or_eq_true, beq_iff_eq] at hd
  obtain ⟨⟨⟨_, hopt⟩, hlopt⟩, _⟩ := hd
  have hz : param_zero.opt = NUL := rfl
  simp only [param_entry_ok, param_entry, hname, hg, Option.getD_some, beq_self_eq_true,
    Bool.and_self, Bool.true_and, Bool.and_eq_true, Bool.or_eq_true, beq_iff_eq, hz]
  constructor
  · rcases hopt with e | e
    · left
      rw [e]
      simp
    · right
      simp [e]
  · cases hl : d.lopt with
    | none => simp [lopt_of]
    | some l =>
      cases l with
      | nil => simp [lopt_of]
      | cons c cs =>
        rw [hl] at hlopt
        simp only [lopt_ok] at hlopt
        simp [lopt_of, hlopt]

/-- The registry after the successful registration of the single descriptor `d`. -/
theorem set_params_single (cfg : cfgcli_t) (d : cfgcli_param_t) (herr : cfg.error.errno = 0)
    (hreg : registry_ok cfg = true) (hn : name_ok d.name = true)
    (hd : param_desc_ok d = true) (hfresh : param_fresh cfg d = true) :
    cfgcli_set_params cfg [d] =
      run_t.ret (0, { cfg with npar := cfg.npar + 1,
                               params := cfg.params.take cfg.npar ++ [param_entry param_zero d] }) := by
  obtain ⟨hnp, hnf, hpok, hfok⟩ := registry_ok_unpack cfg hreg
  obtain ⟨hps, hfs⟩ := param_fresh_unpack cfg d hfresh
  have hlen := take_length_of_le cfg.params cfg.npar hnp
  unfold cfgcli_set_params
  have he : CFGCLI_IS_ERROR cfg = false := by simp [CFGCLI_IS_ERROR, CFGCLI_ERRNO, herr]
  simp only [he, Bool.false_eq_true, ↓reduceIte, reduceCtorEq, List.length_singleton,
    List.replicate_one, set_params_loop]
  have hget : (cfg.params.take cfg.npar ++ [param_zero]).getD (cfg.npar + 0) param_zero
      = param_zero := by
    conv => lhs; rw [← hlen]
    rw [hlen]
    have := getD_append_add (cfg.params.take cfg.npar) [param_zero] 0 param_zero
    rw [hlen] at this
    rw [this]
    rfl
  have htake : (cfg.params.take cfg.npar ++ [param_zero]).take (cfg.npar + 0)
      = cfg.params.take cfg.npar := by
    have := take_append_add (cfg.params.take cfg.npar) [param_zero] 0
    rw [hlen] at this
    rw [this]
    simp
  have hset : ∀ e, (cfg.params.take cfg.npar ++ [param_zero]).set (cfg.npar + 0) e
      = cfg.params.take cfg.npar ++ [e] := by
    intro e
    have := set_append_add (cfg.params.take cfg.npar) [param_zero] 0 e
    rw [hlen] at this
    rw [this]
    rfl
  rw [set_params_body_ok _ 0 d hn hd]
  · simp only [↓reduceIte, put_param, hget, hset]
  · simp only [hget]
    rfl
  · intro v hv
    simp only [htake] at hv
    exact ⟨hpok v hv, hps v hv⟩
  · intro f hf
    exact ⟨hfok f hf, hfs f hf⟩

theorem share_clash (d1 d2 : cfgcli_param_t) (hd1 : param_desc_ok d1 = true)
    (h : params_share d1 d2) :
    (param_entry param_zero d1).name = d2.name ∨
    opt_free d2.opt (param_entry param_zero d1).opt = false ∨
    lopt_free (lopt_of d2.lopt) (param_entry param_zero d1).lopt = false := by
  have hopt := param_entry_opt param_zero d1 rfl hd1
  rcases h with h | ⟨h1, h2⟩ | ⟨l, hl, h1, h2⟩
  · left
    simp [param_entry, h]
  · right
    left
    rw [hopt, ← h1]
    simp only [opt_free, Bool.or_eq_false_iff, beq_eq_false_iff_ne, ne_eq, bne_eq_false_iff_eq,
      and_true]
    exact isalpha_ne_NUL h2
  · right
    right
    cases l with
    | nil => exact absurd rfl hl
    | cons c cs => simp [param_entry, h1, h2, lopt_of, lopt_free]

theorem params_share_symm (d1 d2 : cfgcli_param_t) (h : params_share d1 d2) :
    params_share d2 d1 := by
  rcases h with h | ⟨h1, h2⟩ | ⟨l, hl, h1, h2⟩
  · exact Or.inl h.symm
  · exact Or.inr (Or.inl ⟨h1.symm, h1 ▸ h2⟩)
  · exact Or.inr (Or.inr ⟨l, hl, h2, h1⟩)

/-- Registering a valid descriptor that clashes with a registered parameter fails with the
duplicate code. -/
theorem set_params_single_dup (cfg : cfgcli_t) (d : cfgcli_param_t) (herr : cfg.error.errno = 0)
    (hreg : registry_ok cfg = true) (hn : name_ok d.name = true) (hd : param_desc_ok d = true)
    (hdup : ∃ v ∈ cfg.params.take cfg.npar, v.name = d.name ∨ opt_free d.opt v.opt = false ∨
      lopt_free (lopt_of d.lopt) v.lopt = false) :
    ∃ cfg1, cfgcli_set_params cfg [d] = run_t.ret (CFGCLI_ERR_EXIST, cfg1) := by
  obtain ⟨hnp, hnf, hpok, hfok⟩ := registry_ok_unpack cfg hreg
  have hlen := take_length_of_le cfg.params cfg.npar hnp
  unfold cfgcli_set_params
  have he : CFGCLI_IS_ERROR cfg = false := by simp [CFGCLI_IS_ERROR, CFGCLI_ERRNO, herr]
  simp only [he, Bool.false_eq_true, ↓reduceIte, reduceCtorEq, List.length_singleton,
    List.replicate_one, set_params_loop]
  have hget : (cfg.params.take cfg.npar ++ [param_zero]).getD (cfg.npar + 0) param_zero
      = param_zero := by
    have := getD_append_add (cfg.params.take cfg.npar) [param_zero] 0 param_zero
    rw [hlen] at this
    rw [this]
    rfl
  have htake : (cfg.params.take cfg.npar ++ [param_zero]).take (cfg.npar + 0)
      = cfg.params.take cfg.npar := by
    have := take_append_add (cfg.params.take cfg.npar) [param_zero] 0
    rw [hlen] at this
    rw [this]
    simp
  obtain ⟨c1, hc1⟩ := set_params_body_dup
    { cfg with params := cfg.params.take cfg.npar ++ [param_zero] } 0 d hn hd
    (by simp only [hget]; rfl)
    (by
      intro v hv
      simp only [htake] at hv
      exact hpok v hv)
    (by
      obtain ⟨v, hv, hvd⟩ := hdup
      refine ⟨v, ?_, hvd⟩
      simp only [htake]
      exact hv)
  rw [hc1]
  have : (CFGCLI_ERR_EXIST = 0) = False := by
    simp [CFGCLI_ERR_EXIST]
  simp only [this, ↓reduceIte]
  exact ⟨_, rfl⟩

/-- Registering in one call two valid descriptors that clash fails at the second one with
the duplicate code. -/
theorem set_params_pair_dup (cfg : cfgcli_t) (d1 d2 : cfgcli_param_t)
    (herr : cfg.error.errno = 0) (hreg : registry_ok cfg = true)
    (hn1 : name_ok d1.name = true) (hd1 : param_desc_ok d1 = true)
    (hfresh : param_fresh cfg d1 = true)
    (hn2 : name_ok d2.name = true) (hd2 : param_desc_ok d2 = true)
    (hshare : params_share d1 d2) :
    ∃ cfg1, cfgcli_set_params cfg [d1, d2] = run_t.ret (CFGCLI_ERR_EXIST, cfg1) := by
  obtain ⟨hnp, hnf, hpok, hfok⟩ := registry_ok_unpack cfg hreg
  obtain ⟨hps, hfs⟩ := param_fresh_unpack cfg d1 hfresh
  have hlen := take_length_of_le cfg.params cfg.npar hnp
  unfold cfgcli_set_params
  have he : CFGCLI_IS_ERROR cfg = false := by simp [CFGCLI_IS_ERROR, CFGCLI_ERRNO, herr]
  have hrep : List.replicate [d1, d2].length param_zero = [param_zero, param_zero] := rfl
  simp only [he, Bool.false_eq_true, ↓reduceIte, reduceCtorEq, hrep, set_params_loop]
  have hget : ∀ i, (cfg.params.take cfg.npar ++ [param_zero, param_zero]).getD (cfg.npar + i)
      param_zero = param_zero := by
    intro i
    have := getD_append_add (cfg.params.take cfg.npar) [param_zero, param_zero] i param_zero
    rw [hlen] at this
    rw [this]
    cases i with
    | zero => rfl
    | succ i =>
      cases i with
      | zero => rfl
      | succ i => rfl
  have htake : (cfg.params.take cfg.npar ++ [param_zero, param_zero]).take (cfg.npar + 0)
      = cfg.params.take cfg.npar := by
    have := take_append_add (cfg.params.take cfg.npar) [param_zero, param_zero] 0
    rw [hlen] at this
    rw [this]
    simp
  have hset : ∀ e, (cfg.params.take cfg.npar ++ [param_zero, param_zero]).set (cfg.npar + 0) e
      = cfg.params.take cfg.npar ++ [e, param_zero] := by
    intro e
    have := set_append_add (cfg.params.take cfg.npar) [param_zero, param_zero] 0 e
    rw [hlen] at this
    rw [this]
    rfl
  rw [set_params_body_ok _ 0 d1 hn1 hd1]
  · simp only [↓reduceIte, put_param, hget, hset]
    have hget1 : (cfg.params.take cfg.npar ++ [param_entry param_zero d1, param_zero]).getD
        (cfg.npar + 1) param_zero = param_zero := by
      have := getD_append_add (cfg.params.take cfg.npar)
        [param_entry param_zero d1, param_zero] 1 param_zero
      rw [hlen] at this
      rw [this]
      rfl
    have htake1 : (cfg.params.take cfg.npar ++ [param_entry param_zero d1, param_zero]).take
        (cfg.npar + 1) = cfg.params.take cfg.npar ++ [param_entry param_zero d1] := by
      have := take_append_add (cfg.params.take cfg.npar)
        [param_entry param_zero d1, param_zero] 1
      rw [hlen] at this
      rw [this]
      rfl
    obtain ⟨c1, hc1⟩ := set_params_body_dup
      { cfg with params := cfg.params.take cfg.npar ++ [param_entry param_zero d1, param_zero] }
      1 d2 hn2 hd2
      (by simp only [hget1]; rfl)
      (by
        intro v hv
        simp only [htake1] at hv
        rcases List.mem_append.1 hv with hv | hv
        · exact hpok v hv
        · simp only [List.mem_singleton] at hv
          rw [hv]
          exact param_entry_ok_new d1 hn1 hd1)
      (by
        refine ⟨param_entry param_zero d1, ?_, share_clash d1 d2 hd1 hshare⟩
        simp only [htake1]
        simp)
    simp only [Nat.zero_add]
    rw [hc1]
    have : (CFGCLI_ERR_EXIST = 0) = False := by
      simp [CFGCLI_ERR_EXIST]
    simp only [this, ↓reduceIte]
    exact ⟨_, rfl⟩
  · simp only [hget]
    rfl
  · intro v hv
    simp only [htake] at hv
    exact ⟨hpok v hv, hps v hv⟩
  · intro f hf
    exact ⟨hfok f hf, hfs f hf⟩

theorem registry_ok_after_single (cfg : cfgcli_t) (d : cfgcli_param_t)
    (hreg : registry_ok cfg = true) (hn : name_ok d.name = true)
    (hd : param_desc_ok d = true) :
    registry_ok { cfg with npar := cfg.npar + 1,
                           params := cfg.params.take cfg.npar ++ [param_entry param_zero d] }
      = true := by
  obtain ⟨hnp, hnf, hpok, hfok⟩ := registry_ok_unpack cfg hreg
  have hlen := take_length_of_le cfg.params cfg.npar hnp
  simp only [registry_ok, Bool.and_eq_true, decide_eq_true_eq, List.all_eq_true,
    List.length_append, hlen, List.length_singleton]
  refine ⟨⟨⟨Nat.le_refl _, hnf⟩, ?_⟩, hfok⟩
  intro v hv
  have h2 : (cfg.params.take cfg.npar ++ [param_entry param_zero d]).take (cfg.npar + 1)
      = cfg.params.take cfg.npar ++ [param_entry param_zero d] := by
    apply List.take_of_length_le
    simp [hlen]
  rw [h2] at hv
  rcases List.mem_append.1 hv with hv | hv
  · exact hpok v hv
  · simp only [List.mem_singleton] at hv
    rw [hv]
    exact param_entry_ok_new d hn hd

/-- C7 (name grammar at registration): for a registry without error and a parameter
descriptor that is valid in every field but possibly its name and duplicates nothing
registered, `cfgcli_set_params` returns 0 and registers the parameter when the name follows
the identifier grammar (non-empty; a letter, `_` or `-` first; letters, digits, `_` or `-`
after; at most 127 characters), and returns the invalid-input code -3, registering
nothing, for every other name (a null name included). -/
theorem set_params_name_grammar (cfg : cfgcli_t) (d : cfgcli_param_t)
    (herr : cfg.error.errno = 0) (hreg : registry_ok cfg = true)
    (hd : param_desc_ok d = true) (hfresh : param_fresh cfg d = true) :
    ∃ cfg1, cfgcli_set_params cfg [d] =
        run_t.ret (if name_ok d.name = true then 0 else CFGCLI_ERR_INPUT, cfg1) ∧
      cfg1.npar = if name_ok d.name = true then cfg.npar + 1 else cfg.npar := by
  by_cases hn : name_ok d.name = true
  · rw [if_pos hn, if_pos hn, set_params_single cfg d herr hreg hn hd hfresh]
    exact ⟨_, rfl, rfl⟩
  · rw [if_neg hn, if_neg hn]
    simp only [Bool.not_eq_true] at hn
    obtain ⟨c1, hc1⟩ := set_params_body_badname
      { cfg with params := cfg.params.take cfg.npar ++ List.replicate [d].length param_zero } 0 d hn
    have he : CFGCLI_IS_ERROR cfg = false := by simp [CFGCLI_IS_ERROR, CFGCLI_ERRNO, herr]
    have hcall : cfgcli_set_params cfg [d] = run_t.ret (CFGCLI_ERR_INPUT, c1) := by
      unfold cfgcli_set_params
      simp only [he, Bool.false_eq_true, ↓reduceIte, reduceCtorEq, set_params_loop]
      rw [hc1]
      have : (CFGCLI_ERR_INPUT = 0) = False := by
        simp [CFGCLI_ERR_INPUT]
      simp only [this, ↓reduceIte]
    refine ⟨c1, hcall, ?_⟩
    have hnp := (registry_ok_unpack cfg hreg).1
    exact (set_params_frame cfg [d] _ c1 hnp hcall).2.2.2.2.1 (by decide)

/-- Witness of C7: on the empty registry the descriptor `conf` is registered with code 0,
and the descriptor named `9lives` is refused with code -3. -/
theorem set_params_name_grammar_witness :
    (cfgcli_init.error.errno = 0 ∧ registry_ok cfgcli_init = true ∧
      param_desc_ok ex_conf = true ∧ param_fresh cfgcli_init ex_conf = true ∧
      param_desc_ok ex_bad_name = true ∧ param_fresh cfgcli_init ex_bad_name = true) ∧
    (∃ cfg1, cfgcli_set_params cfgcli_init [ex_conf] = run_t.ret (0, cfg1) ∧ cfg1.npar = 1) ∧
    (∃ cfg1, cfgcli_set_params cfgcli_init [ex_bad_name] = run_t.ret (-3, cfg1) ∧
      cfg1.npar = 0) :=
  ⟨by decide,
   set_params_name_grammar cfgcli_init ex_conf (by decide) (by decide) (by decide) (by decide),
   set_params_name_grammar cfgcli_init ex_bad_name (by decide) (by decide) (by decide)
     (by decide)⟩

/-- C8 (duplicate registration): for a registry without error and two parameter
descriptors, each valid and duplicating nothing registered, that share a name, or a short
option letter, or a long option string, registering both fails at the second one with the
duplicate code -4: in one call in either order, and in two successive calls in either
order (the first call returns 0, the second -4). -/
theorem duplicate_registration (cfg : cfgcli_t) (d1 d2 : cfgcli_param_t)
    (herr : cfg.error.errno = 0) (hreg : registry_ok cfg = true)
    (hv1 : name_ok d1.name = true ∧ param_desc_ok d1 = true ∧ param_fresh cfg d1 = true)
    (hv2 : name_ok d2.name = true ∧ param_desc_ok d2 = true ∧ param_fresh cfg d2 = true)
    (hshare : params_share d1 d2) :
    (∃ c, cfgcli_set_params cfg [d1, d2] = run_t.ret (CFGCLI_ERR_EXIST, c)) ∧
    (∃ c, cfgcli_set_params cfg [d2, d1] = run_t.ret (CFGCLI_ERR_EXIST, c)) ∧
    (∃ c1 c2, cfgcli_set_params cfg [d1] = run_t.ret (0, c1) ∧
      cfgcli_set_params c1 [d2] = run_t.ret (CFGCLI_ERR_EXIST, c2)) ∧
    (∃ c1 c2, cfgcli_set_params cfg [d2] = run_t.ret (0, c1) ∧
      cfgcli_set_params c1 [d1] = run_t.ret (CFGCLI_ERR_EXIST, c2)) := by
  obtain ⟨hn1, hd1, hf1⟩ := hv1
  obtain ⟨hn2, hd2, hf2⟩ := hv2
  have two : ∀ (a b : cfgcli_param_t), name_ok a.name = true → param_desc_ok a = true →
      param_fresh cfg a = true → name_ok b.name = true → param_desc_ok b = true →
      params_share a b →
      ∃ c1 c2, cfgcli_set_params cfg [a] = run_t.ret (0, c1) ∧
        cfgcli_set_params c1 [b] = run_t.ret (CFGCLI_ERR_EXIST, c2) := by
    intro a b hna hda hfa hnb hdb hab
    have hnp := (registry_ok_unpack cfg hreg).1
    have hlen := take_length_of_le cfg.params cfg.npar hnp
    obtain ⟨c2, hc2⟩ := set_params_single_dup
      { cfg with npar := cfg.npar + 1,
                 params := cfg.params.take cfg.npar ++ [param_entry param_zero a] } b herr
      (registry_ok_after_single cfg a hreg hna hda) hnb hdb
      (by
        refine ⟨param_entry param_zero a, ?_, share_clash a b hda hab⟩
        have h2 : (cfg.params.take cfg.npar ++ [param_entry param_zero a]).take (cfg.npar + 1)
            = cfg.params.take cfg.npar ++ [param_entry param_zero a] := by
          apply List.take_of_length_le
          simp [hlen]
        simp only [h2]
        simp)
    exact ⟨_, c2, set_params_single cfg a herr hreg hna hda hfa, hc2⟩
  exact ⟨set_params_pair_dup cfg d1 d2 herr hreg hn1 hd1 hf1 hn2 hd2 hshare,
    set_params_pair_dup cfg d2 d1 herr hreg hn2 hd2 hf2 hn1 hd1 (params_share_symm _ _ hshare),
    two d1 d2 hn1 hd1 hf1 hn2 hd2 hshare,
    two d2 d1 hn2 hd2 hf2 hn1 hd1 (params_share_symm _ _ hshare)⟩

/-- Witness of C8: on the empty registry, `conf` and a second descriptor with the same name
cannot both be registered. -/
theorem duplicate_registration_witness :
    (cfgcli_init.error.errno = 0 ∧ registry_ok cfgcli_init = true ∧
      (name_ok ex_conf.name = true ∧ param_desc_ok ex_conf = true ∧
        param_fresh cfgcli_init ex_conf = true) ∧
      (name_ok ex_conf_again.name = true ∧ param_desc_ok ex_conf_again = true ∧
        param_fresh cfgcli_init ex_conf_again = true) ∧
      params_share ex_conf ex_conf_again) ∧
    ((∃ c, cfgcli_set_params cfgcli_init [ex_conf, ex_conf_again] = run_t.ret (-4, c)) ∧
     (∃ c, cfgcli_set_params cfgcli_init [ex_conf_again, ex_conf] = run_t.ret (-4, c)) ∧
     (∃ c1 c2, cfgcli_set_params cfgcli_init [ex_conf] = run_t.ret (0, c1) ∧
       cfgcli_set_params c1 [ex_conf_again] = run_t.ret (-4, c2)) ∧
     (∃ c1 c2, cfgcli_set_params cfgcli_init [ex_conf_again] = run_t.ret (0, c1) ∧
       cfgcli_set_params c1 [ex_conf] = run_t.ret (-4, c2))) :=
  ⟨⟨by decide, by decide, by decide, by decide, Or.inl (by decide)⟩,
   duplicate_registration cfgcli_init ex_conf ex_conf_again (by decide) (by decide)
     (by decide) (by decide) (Or.inl (by decide))⟩

/-- C9 (registration atomicity): for a registry that holds its registered entries, every
call of `cfgcli_set_params` or of `cfgcli_set_funcs` that returns a non-zero code leaves
the parameter count, the function count, the registered parameters and the registered
functions as they were before the call, whichever descriptor of the call fails. -/
theorem registration_atomic (cfg : cfgcli_t) (hnp : cfg.npar ≤ cfg.params.length)
    (hnf : cfg.nfunc ≤ cfg.funcs.length) :
    (∀ ds code cfg1, cfgcli_set_params cfg ds = run_t.ret (code, cfg1) → code ≠ 0 →
      cfg1.npar = cfg.npar ∧ cfg1.nfunc = cfg.nfunc ∧
      cfg1.params.take cfg.npar = cfg.params.take cfg.npar ∧
      cfg1.funcs.take cfg.nfunc = cfg.funcs.take cfg.nfunc) ∧
    (∀ fs code cfg1, cfgcli_set_funcs cfg fs = run_t.ret (code, cfg1) → code ≠ 0 →
      cfg1.npar = cfg.npar ∧ cfg1.nfunc = cfg.nfunc ∧
      cfg1.params.take cfg.npar = cfg.params.take cfg.npar ∧
      cfg1.funcs.take cfg.nfunc = cfg.funcs.take cfg.nfunc) := by
  constructor
  · intro ds code cfg1 h hc
    obtain ⟨a1, a2, _, a4, a5, _⟩ := set_params_frame cfg ds code cfg1 hnp h
    exact ⟨a5 hc, a1, a4, by rw [a2]⟩
  · intro fs code cfg1 h hc
    obtain ⟨a1, a2, _, a4, a5, _⟩ := set_funcs_frame cfg fs code cfg1 hnf h
    exact ⟨a1, a5 hc, by rw [a2], a4⟩

/-- Witness of C9: on the registry `ex_cfg` (two parameters, one function), a call of
`cfgcli_set_params` whose second descriptor has a bad name and a call of `cfgcli_set_funcs`
whose second descriptor has no option both fail with -3 and leave counts and registered
entries as they were. -/
theorem registration_atomic_witness :
    (ex_cfg.npar ≤ ex_cfg.params.length ∧ ex_cfg.nfunc ≤ ex_cfg.funcs.length) ∧
    (cfgcli_set_params ex_cfg [ex_level, ex_bad_name] =
        run_t.ret (-3, ret_cfg (cfgcli_set_params ex_cfg [ex_level, ex_bad_name])) ∧
      (ret_cfg (cfgcli_set_params ex_cfg [ex_level, ex_bad_name])).npar = ex_cfg.npar ∧
      (ret_cfg (cfgcli_set_params ex_cfg [ex_level, ex_bad_name])).nfunc = ex_cfg.nfunc ∧
      (ret_cfg (cfgcli_set_params ex_cfg [ex_level, ex_bad_name])).params.take ex_cfg.npar =
        ex_cfg.params.take ex_cfg.npar ∧
      (ret_cfg (cfgcli_set_params ex_cfg [ex_level, ex_bad_name])).funcs.take ex_cfg.nfunc =
        ex_cfg.funcs.take ex_cfg.nfunc) ∧
    (cfgcli_set_funcs ex_cfg [ex_verbose, ex_no_option] =
        run_t.ret (-3, ret_cfg (cfgcli_set_funcs ex_cfg [ex_verbose, ex_no_option])) ∧
      (ret_cfg (cfgcli_set_funcs ex_cfg [ex_verbose, ex_no_option])).npar = ex_cfg.npar ∧
      (ret_cfg (cfgcli_set_funcs ex_cfg [ex_verbose, ex_no_option])).nfunc = ex_cfg.nfunc ∧
      (ret_cfg (cfgcli_set_funcs ex_cfg [ex_verbose, ex_no_option])).params.take ex_cfg.npar =
        ex_cfg.params.take ex_cfg.npar ∧
      (ret_cfg (cfgcli_set_funcs ex_cfg [ex_verbose, ex_no_option])).funcs.take ex_cfg.nfunc =
        ex_cfg.funcs.take ex_cfg.nfunc) :=
  ⟨by decide,
   ⟨by decide,
    (registration_atomic ex_cfg (by decide) (by decide)).1 _ _ _
      (show cfgcli_set_params ex_cfg [ex_level, ex_bad_name] =
        run_t.ret (-3, ret_cfg (cfgcli_set_params ex_cfg [ex_level, ex_bad_name])) by decide)
      (by decide)⟩,
   ⟨by decide,
    (registration_atomic ex_cfg (by decide) (by decide)).2 _ _ _
      (show cfgcli_set_funcs ex_cfg [ex_verbose, ex_no_option] =
        run_t.ret (-3, ret_cfg (cfgcli_set_funcs ex_cfg [ex_verbose, ex_no_option])) by decide)
      (by decide)⟩⟩

/-- C10 (sticky error): once the error code of the registry is non-zero, every call of
`cfgcli_set_params`, `cfgcli_set_funcs`, `cfgcli_read_opts` and `cfgcli_read_file` returns
that code and leaves the whole registry (parameters, functions, counts, diagnostics,
callback log) and `*optidx` as they were. -/
theorem sticky_error (libc : libc_t) (cfg : cfgcli_t) (h : cfg.error.errno ≠ 0) :
    (∀ ds, cfgcli_set_params cfg ds = run_t.ret (cfg.error.errno, cfg)) ∧
    (∀ fs, cfgcli_set_funcs cfg fs = run_t.ret (cfg.error.errno, cfg)) ∧
    (∀ argv prior optidx,
      cfgcli_read_opts libc cfg argv prior optidx = (cfg.error.errno, cfg, optidx)) ∧
    (∀ fname file prior,
      cfgcli_read_file libc cfg fname file prior = run_t.ret (cfg.error.errno, cfg)) := by
  have he : CFGCLI_IS_ERROR cfg = true := by
    simp [CFGCLI_IS_ERROR, CFGCLI_ERRNO, h]
  refine ⟨?_, ?_, ?_, ?_⟩
  · intro ds
    simp [cfgcli_set_params, he, CFGCLI_ERRNO]
  · intro fs
    simp [cfgcli_set_funcs, he, CFGCLI_ERRNO]
  · intro argv prior optidx
    simp [cfgcli_read_opts, he, CFGCLI_ERRNO]
  · intro fname file prior
    simp [cfgcli_read_file, he, CFGCLI_ERRNO]

/-- Witness of C10: the registry left by an empty registration call has the code -3, and
a further registration, a command-line pass and a file pass all return -3 and change
nothing. -/
theorem sticky_error_witness :
    ex_failed.error.errno ≠ 0 ∧
    cfgcli_set_params ex_failed [ex_level] = run_t.ret (-3, ex_failed) ∧
    cfgcli_set_funcs ex_failed [ex_verbose] = run_t.ret (-3, ex_failed) ∧
    cfgcli_read_opts ex_libc ex_failed ["prog".toList, "--conf=a".toList] 5 7 =
      (-3, ex_failed, 7) ∧
    cfgcli_read_file ex_libc ex_failed (some "a.conf".toList) (some "conf = b".toList) 1 =
      run_t.ret (-3, ex_failed) :=
  ⟨by decide,
   (sticky_error ex_libc ex_failed (by decide)).1 [ex_level],
   (sticky_error ex_libc ex_failed (by decide)).2.1 [ex_verbose],
   (sticky_error ex_libc ex_failed (by decide)).2.2.1 _ 5 7,
   (sticky_error ex_libc ex_failed (by decide)).2.2.2 _ _ 1⟩

/-! ## The line lexer: running the loop -/

theorem loop_go (fuel : Nat) (s s1 : lex_t) (p len i : Nat) (hi : i < len)
    (h : lex_body s (p + i) = lex_step_t.go s1 false) :
    parse_line_loop (fuel + 1) s p len i = parse_line_loop fuel s1 p len (i + 1) := by
  simp [parse_line_loop, hi, h]

theorem loop_back (fuel : Nat) (s s1 : lex_t) (p len i : Nat) (hi : i < len)
    (h : lex_body s (p + i) = lex_step_t.go s1 true) :
    parse_line_loop (fuel + 1) s p len i = parse_line_loop fuel s1 p len i := by
  simp [parse_line_loop, hi, h]

theorem loop_stop (fuel : Nat) (s s1 : lex_t) (p len i : Nat) (r : cfgcli_parse_return_t)
    (hi : i < len) (h : lex_body s (p + i) = lex_step_t.stop r s1) :
    parse_line_loop (fuel + 1) s p len i = run_t.ret (r, s1) := by
  simp [parse_line_loop, hi, h]

theorem loop_end (fuel : Nat) (s : lex_t) (p len i : Nat) (hi : len ≤ i) :
    parse_line_loop (fuel + 1) s p len i = lex_final s := by
  have : ¬ i < len := by omega
  simp [parse_line_loop, this]

/-- A stretch of `n` characters on each of which the loop body leaves the variables as
they are. -/
theorem loop_stay (n : Nat) (fuel : Nat) (s : lex_t) (p len i : Nat) (hlen : i + n ≤ len)
    (h : ∀ k, k < n → lex_body s (p + (i + k)) = lex_step_t.go s false) :
    parse_line_loop (fuel + n) s p len i = parse_line_loop fuel s p len (i + n) := by
  induction n generalizing i with
  | zero => rfl
  | succ n ih =>
    have h0 := h 0 (Nat.succ_pos n)
    rw [Nat.add_zero] at h0
    rw [← Nat.add_assoc, loop_go (fuel + n) s s p len i (by omega) h0]
    rw [ih (i + 1) (by omega)]
    · congr 1
      omega
    · intro k hk
      have := h (k + 1) (by omega)
      rw [← this]
      congr 2
      omega

theorem loop_go0 (fuel : Nat) (s s1 : lex_t) (len i : Nat) (hi : i < len)
    (h : lex_body s i = lex_step_t.go s1 false) :
    parse_line_loop (fuel + 1) s 0 len i = parse_line_loop fuel s1 0 len (i + 1) := by
  apply loop_go _ _ _ _ _ _ hi
  rw [Nat.zero_add]
  exact h

theorem loop_stop0 (fuel : Nat) (s s1 : lex_t) (len i : Nat) (r : cfgcli_parse_return_t)
    (hi : i < len) (h : lex_body s i = lex_step_t.stop r s1) :
    parse_line_loop (fuel + 1) s 0 len i = run_t.ret (r, s1) := by
  apply loop_stop _ _ _ _ _ _ _ hi
  rw [Nat.zero_add]
  exact h

theorem loop_stay0 (n : Nat) (fuel : Nat) (s : lex_t) (len i : Nat) (hlen : i + n ≤ len)
    (h : ∀ k, k < n → lex_body s (i + k) = lex_step_t.go s false) :
    parse_line_loop (fuel + n) s 0 len i = parse_line_loop fuel s 0 len (i + n) := by
  apply loop_stay _ _ _ _ _ _ hlen
  intro k hk
  rw [Nat.zero_add]
  exact h k hk

/-! ## Characters of a buffer -/

theorem getD_append_left_lt (l r : List Char) (k : Nat) (h : k < l.length) :
    (l ++ r).getD k NUL = l.getD k NUL := by
  simp [List.getD_eq_getElem?_getD, List.getElem?_append_left h]

theorem getD_append_right_add (l r : List Char) (k : Nat) :
    (l ++ r).getD (l.length + k) NUL = r.getD k NUL :=
  getD_append_add l r k NUL

theorem getD_set_ne (l : List Char) (i k : Nat) (c : Char) (h : i ≠ k) :
    (l.set i c).getD k NUL = l.getD k NUL := by
  simp [List.getD_eq_getElem?_getD, List.getElem?_set_ne h]

theorem getD_of_mem_index (l : List Char) (k : Nat) (h : k < l.length) :
    l.getD k NUL ∈ l := by
  rw [List.getD_eq_getElem?_getD, List.getElem?_eq_getElem h]
  simp

/-! ## Facts on the characters of a keyword -/

theorem namechar_not_sep {c : Char} (h : (isalnum c || c == '_' || c == '-') = true) :
    (c == CFGCLI_SYM_EQUAL || isspace c) = false := by
  simp only [Bool.or_eq_true, beq_iff_eq] at h
  rcases h with (h | h) | h
  · have h1 : c ≠ '=' := by
      intro e
      subst e
      revert h
      decide
    have h2 : isspace c = false := by
      simp only [isalnum, isalpha, isdigit, Bool.or_eq_true, Bool.and_eq_true,
        decide_eq_true_eq] at h
      simp only [isspace, Bool.or_eq_false_iff, beq_eq_false_iff_ne, ne_eq, Bool.and_eq_false_imp,
        decide_eq_true_eq, decide_eq_false_iff_not, not_le]
      omega
    simp [CFGCLI_SYM_EQUAL, h1, h2]
  · subst h
    decide
  · subst h
    decide

theorem namechar_keeps {c : Char} (h : (isalnum c || c == '_' || c == '-') = true) :
    (!isalnum c && c != '_' && c != '-') = false := by
  simp only [Bool.or_eq_true, beq_iff_eq] at h
  rcases h with (h | h) | h
  · simp [h]
  · simp [h]
  · simp [h]

theorem lex_body_keyword_stay (s : lex_t) (a : Nat) (hs : s.state = KEYWORD)
    (hc : (isalnum (s.line.getD a NUL) || s.line.getD a NUL == '_' ||
      s.line.getD a NUL == '-') = true) :
    lex_body s a = lex_step_t.go s false := by
  unfold lex_body
  simp only [hs, namechar_not_sep hc, namechar_keeps hc, Bool.false_eq_true, ↓reduceIte]

theorem name_grammar_cons (c : Char) (cs : List Char) (h : name_grammar (c :: cs) = true) :
    (isalpha c || c == '_' || c == '-') = true ∧
    (∀ x ∈ cs, (isalnum x || x == '_' || x == '-') = true) ∧ cs.length + 1 ≤ 127 := by
  simp only [name_grammar, Bool.and_eq_true, decide_eq_true_eq, List.all_eq_true,
    List.length_cons] at h
  exact ⟨h.1.1, h.1.2, h.2⟩

/-- The lexer on the head `name = ` of an entry: it records the keyword at index 0,
terminates it, and arrives in the state `VALUE_START` at the first byte of the value. -/
theorem lex_entry_head (name rest : List Char) (hn : name_grammar name = true) (fuel : Nat)
    (key value : Option Nat) :
    parse_line_loop (fuel + (name.length + 3))
      { line := name ++ ' ' :: '=' :: ' ' :: rest, key := key, value := value, state := START,
        quote := NUL, newline := none } 0 (name.length + 3 + rest.length) 0 =
    parse_line_loop fuel
      { line := name ++ NUL :: '=' :: ' ' :: rest, key := some 0, value := value,
        state := VALUE_START, quote := NUL, newline := none } 0
      (name.length + 3 + rest.length) (name.length + 3) := by
  cases name with
  | nil => simp [name_grammar] at hn
  | cons c cs =>
    obtain ⟨hc, hcs, hlen⟩ := name_grammar_cons c cs hn
    have e1 : fuel + ((c :: cs).length + 3) = (fuel + 3 + cs.length) + 1 := by
      simp only [List.length_cons]
      omega
    rw [e1, loop_go0 _ _
      { line := (c :: cs) ++ ' ' :: '=' :: ' ' :: rest, key := some 0, value := value,
        state := KEYWORD, quote := NUL, newline := none } _ 0
      (by simp only [List.length_cons]; omega)
      (by simp only [lex_body, List.cons_append, List.getD_cons_zero, hc, ↓reduceIte])]
    rw [loop_stay0 cs.length (fuel + 3) _ _ (0 + 1) (by simp only [List.length_cons]; omega)
      (by
        intro k hk
        apply lex_body_keyword_stay _ _ rfl
        have e : 0 + 1 + k = k + 1 := by omega
        simp only [e, List.cons_append, List.getD_cons_succ]
        rw [getD_append_left_lt _ _ _ hk]
        exact hcs _ (getD_of_mem_index cs k hk))]
    have e2 : 0 + 1 + cs.length = (c :: cs).length := by
      simp only [List.length_cons]
      omega
    rw [e2]
    have hget : ∀ k, ((c :: cs) ++ ' ' :: '=' :: ' ' :: rest).getD
        ((c :: cs).length + k) NUL = (' ' :: '=' :: ' ' :: rest).getD k NUL :=
      fun k => getD_append_right_add _ _ k
    rw [show fuel + 3 = (fuel + 2) + 1 by omega, loop_go0 _ _
      { line := (c :: cs) ++ NUL :: '=' :: ' ' :: rest, key := some 0, value := value,
        state := EQUAL, quote := NUL, newline := none } _ (c :: cs).length
      (by simp only [List.length_cons]; omega)
      (by
        have h0 := hget 0
        simp only [Nat.add_zero] at h0
        unfold lex_body
        simp only [h0, List.getD_cons_zero]
        have hsp : (' ' == CFGCLI_SYM_EQUAL || isspace ' ') = true := by decide
        have hne : (' ' == CFGCLI_SYM_EQUAL) = false := by decide
        have hlt : ¬ ((((c :: cs).length : Nat) : Int) - ((0 : Nat) : Int) ≥
            ((CFGCLI_MAX_NAME_LEN : Nat) : Int)) := by
          simp only [CFGCLI_MAX_NAME_LEN, List.length_cons]
          omega
        simp only [hsp, ↓reduceIte, hlt, hne, Bool.false_eq_true, poke]
        have := set_append_add (c :: cs) (' ' :: '=' :: ' ' :: rest) 0 NUL
        simp only [Nat.add_zero] at this
        rw [this]
        rfl)]
    have hget2 : ∀ k, ((c :: cs) ++ NUL :: '=' :: ' ' :: rest).getD
        ((c :: cs).length + k) NUL = (NUL :: '=' :: ' ' :: rest).getD k NUL :=
      fun k => getD_append_right_add _ _ k
    rw [show fuel + 2 = (fuel + 1) + 1 by omega, loop_go0 _ _
      { line := (c :: cs) ++ NUL :: '=' :: ' ' :: rest, key := some 0, value := value,
        state := VALUE_START, quote := NUL, newline := none } _ ((c :: cs).length + 1)
      (by simp only [List.length_cons]; omega)
      (by
        have h1 := hget2 1
        unfold lex_body
        simp only [h1, List.getD_cons_succ, List.getD_cons_zero]
        have hsp : ('=' == CFGCLI_SYM_EQUAL) = true := by decide
        simp only [hsp, ↓reduceIte])]
    rw [loop_go0 _ _
      { line := (c :: cs) ++ NUL :: '=' :: ' ' :: rest, key := some 0, value := value,
        state := VALUE_START, quote := NUL, newline := none } _ ((c :: cs).length + 1 + 1)
      (by simp only [List.length_cons]; omega)
      (by
        have h2 := hget2 2
        unfold lex_body
        have e : (c :: cs).length + 1 + 1 = (c :: cs).length + 2 := by omega
        simp only [e, h2, List.getD_cons_succ, List.getD_cons_zero]
        have q1 : (' ' == '"' || ' ' == '\'') = false := by decide
        have q2 : (' ' == CFGCLI_SYM_ARRAY_START) = false := by decide
        have q3 : (' ' == CFGCLI_SYM_COMMENT) = false := by decide
        have q4 : isgraph ' ' = false := by decide
        have q5 : isspace ' ' = true := by decide
        simp only [q1, q2, q3, q4, q5, Bool.false_eq_true, ↓reduceIte, Bool.not_true])]

/-! ## C strings in a buffer -/

theorem takeWhile_append_of_all {α : Type} (p : α → Bool) (l r : List α)
    (h : ∀ x ∈ l, p x = true) : (l ++ r).takeWhile p = l ++ r.takeWhile p := by
  induction l with
  | nil => rfl
  | cons x xs ih =>
    have hx := h x (List.mem_cons_self _ _)
    simp only [List.cons_append, List.takeWhile_cons, hx, ↓reduceIte]
    rw [ih (fun y hy => h y (List.mem_cons_of_mem _ hy))]

theorem takeWhile_all {α : Type} (p : α → Bool) (l : List α) (h : ∀ x ∈ l, p x = true) :
    l.takeWhile p = l := by
  have := takeWhile_append_of_all p l [] h
  simpa using this

theorem cstr_at_append (pre s rest : List Char) (hs : NUL ∉ s) :
    cstr_at (pre ++ s ++ NUL :: rest) pre.length = s := by
  unfold cstr_at
  rw [List.append_assoc, List.drop_left]
  rw [takeWhile_append_of_all]
  · simp [List.takeWhile_cons]
  · intro x hx
    simp only [bne_iff_ne, ne_eq]
    intro e
    exact hs (e ▸ hx)

theorem cstr_at_end (pre s : List Char) (hs : NUL ∉ s) : cstr_at (pre ++ s) pre.length = s := by
  unfold cstr_at
  rw [List.drop_left]
  apply takeWhile_all
  intro x hx
  simp only [bne_iff_ne, ne_eq]
  intro e
  exact hs (e ▸ hx)

theorem cstr_at_zero (s rest : List Char) (hs : NUL ∉ s) : cstr_at (s ++ NUL :: rest) 0 = s := by
  have := cstr_at_append [] s rest hs
  simpa using this

/-! ## The lexer on a quoted value -/

theorem lex_body_quote_stay (s : lex_t) (a : Nat) (hs : s.state = QUOTE)
    (hc : s.line.getD a NUL ≠ s.quote) : lex_body s a = lex_step_t.go s false := by
  unfold lex_body
  have : (s.line.getD a NUL == s.quote) = false := by
    simp only [beq_eq_false_iff_ne, ne_eq]
    exact hc
  simp only [hs, this, Bool.false_eq_true, ↓reduceIte]

/-- The lexer on a quoted value `q s q` that ends the line, from the state `VALUE_START` at
the opening quote: it returns `DONE` with the value pointer on the opening quote. -/
theorem lex_quoted (pre s : List Char) (q : Char) (hq : q = '"' ∨ q = '\'') (hs : q ∉ s)
    (fuel : Nat) (key : Option Nat) (value : Option Nat) :
    parse_line_loop (fuel + (s.length + 3))
      { line := pre ++ q :: (s ++ [q]), key := key, value := value, state := VALUE_START,
        quote := NUL, newline := none } 0 (pre.length + (s.length + 2)) pre.length =
    run_t.ret (DONE,
      { line := pre ++ q :: (s ++ [q]), key := key, value := some pre.length,
        state := QUOTE_END, quote := q, newline := none }) := by
  have hget : ∀ k, (pre ++ q :: (s ++ [q])).getD (pre.length + k) NUL =
      (q :: (s ++ [q])).getD k NUL := fun k => getD_append_right_add _ _ k
  have hqq : (q == '"' || q == '\'') = true := by
    rcases hq with e | e <;> simp [e]
  rw [show fuel + (s.length + 3) = (fuel + 2 + s.length) + 1 by omega, loop_go0 _ _
    { line := pre ++ q :: (s ++ [q]), key := key, value := some pre.length, state := QUOTE,
      quote := q, newline := none } _ pre.length (by omega)
    (by
      have h0 := hget 0
      simp only [Nat.add_zero] at h0
      unfold lex_body
      simp only [h0, List.getD_cons_zero, hqq, ↓reduceIte])]
  rw [loop_stay0 s.length (fuel + 2) _ _ (pre.length + 1) (by omega)
    (by
      intro k hk
      apply lex_body_quote_stay _ _ rfl
      have e : pre.length + 1 + k = pre.length + (k + 1) := by omega
      simp only [e, hget, List.getD_cons_succ]
      rw [getD_append_left_lt _ _ _ hk]
      intro e2
      exact hs (e2 ▸ getD_of_mem_index s k hk))]
  rw [show fuel + 2 = (fuel + 1) + 1 by omega, loop_go0 _ _
    { line := pre ++ q :: (s ++ [q]), key := key, value := some pre.length, state := QUOTE_END,
      quote := q, newline := none } _ (pre.length + 1 + s.length) (by omega)
    (by
      have e : pre.length + 1 + s.length = pre.length + (s.length + 1) := by omega
      unfold lex_body
      simp only [e, hget, List.getD_cons_succ]
      have := getD_append_right_add s [q] 0
      simp only [Nat.add_zero, List.getD_cons_zero] at this
      simp only [this, beq_self_eq_true, ↓reduceIte])]
  rw [loop_end _ _ _ _ _ (by omega)]
  rfl

/-- The same with the buffer, the length and the index given up to equality. -/
theorem lex_quoted_at (pre s : List Char) (q : Char) (hq : q = '"' ∨ q = '\'') (hs : q ∉ s)
    (fuel f : Nat) (key : Option Nat) (value : Option Nat) (line : List Char) (len i : Nat)
    (hline : line = pre ++ q :: (s ++ [q])) (hlen : len = pre.length + (s.length + 2))
    (hi : i = pre.length) (hf : f = fuel + (s.length + 3)) :
    parse_line_loop f
      { line := line, key := key, value := value, state := VALUE_START,
        quote := NUL, newline := none } 0 len i =
    run_t.ret (DONE,
      { line := line, key := key, value := some i,
        state := QUOTE_END, quote := q, newline := none }) := by
  subst hline hlen hi hf
  exact lex_quoted pre s q hq hs fuel key value

theorem get_value_quoted_str (libc : libc_t) (s : List Char) (q : Char)
    (hq : q = '"' ∨ q = '\'') (hs : q ∉ s) :
    cfgcli_get_value libc (q :: (s ++ [q])) CFGCLI_DTYPE_STR = (some (scalar_t.str s), 0) := by
  have hsp : isspace q = false := by
    rcases hq with e | e <;> subst e <;> decide
  have hqq : (q == '"' || q == '\'') = true := by
    rcases hq with e | e <;> simp [e]
  have htw : (s ++ [q]).takeWhile (fun x => x != q) = s := by
    rw [takeWhile_append_of_all]
    · simp [List.takeWhile_cons]
    · intro x hx
      simp only [bne_iff_ne, ne_eq]
      intro e
      exact hs (e ▸ hx)
  unfold cfgcli_get_value
  simp only [List.dropWhile_cons, hsp, Bool.false_eq_true, ↓reduceIte, hqq, htw]
  have h1 : (s == [] && CFGCLI_DTYPE_STR != CFGCLI_DTYPE_CHAR &&
      CFGCLI_DTYPE_STR != CFGCLI_DTYPE_STR) = false := by
    simp
  have h2 : decide (s.length < (s ++ [q]).length) = true := by
    simp
  have h3 : ((s ++ [q]).drop (s.length + 1)).all isspace = true := by
    have : (s ++ [q]).drop (s.length + 1) = [] := by
      apply List.drop_of_length_le
      simp
    rw [this]
    rfl
  simp only [h1, h2, h3, Bool.false_eq_true, ↓reduceIte, Bool.not_true]
  simp [assign_value, CFGCLI_DTYPE_STR, CFGCLI_DTYPE_BOOL, CFGCLI_DTYPE_CHAR, CFGCLI_DTYPE_INT,
    CFGCLI_DTYPE_LONG, CFGCLI_DTYPE_FLT, CFGCLI_DTYPE_DBL]

/-- C4 (quote handling): for every keyword `name` that follows the identifier grammar,
every quote character `q` (double or single) and every string `s` without `q` and without
NUL (it may hold `#`), the line `name = q s q` is lexed as done with the keyword `name` and
the value `q s q`, and that value coerced for a string parameter is exactly `s`. -/
theorem quoted_value_kept (libc : libc_t) (name s : List Char) (q : Char)
    (hn : name_grammar name = true) (hq : q = '"' ∨ q = '\'') (hs : q ∉ s) (hnul : NUL ∉ s) :
    ∃ buf,
      cfgcli_parse_line (name ++ ' ' :: '=' :: ' ' :: q :: (s ++ [q])) 0
        (name ++ ' ' :: '=' :: ' ' :: q :: (s ++ [q])).length none none START =
        run_t.ret (DONE, buf, some 0, some (name.length + 3)) ∧
      cstr_at buf 0 = name ∧ cstr_at buf (name.length + 3) = q :: (s ++ [q]) ∧
      cfgcli_get_value libc (q :: (s ++ [q])) CFGCLI_DTYPE_STR = (some (scalar_t.str s), 0) := by
  refine ⟨name ++ NUL :: '=' :: ' ' :: q :: (s ++ [q]), ?_, ?_, ?_,
    get_value_quoted_str libc s q hq hs⟩
  · have hlen : (name ++ ' ' :: '=' :: ' ' :: q :: (s ++ [q])).length =
        name.length + 3 + (q :: (s ++ [q])).length := by
      simp only [List.length_append, List.length_cons, List.length_nil]
      omega
    have hne : (name ++ ' ' :: '=' :: ' ' :: q :: (s ++ [q])).getD 0 NUL ≠ NUL := by
      cases name with
      | nil => simp [name_grammar] at hn
      | cons c cs =>
        simp only [List.cons_append, List.getD_cons_zero]
        exact name_head_ne_NUL (name_grammar_cons c cs hn).1
    unfold cfgcli_parse_line
    have hcond : ((name ++ ' ' :: '=' :: ' ' :: q :: (s ++ [q])).getD 0 NUL == NUL ||
        (name ++ ' ' :: '=' :: ' ' :: q :: (s ++ [q])).length == 0) = false := by
      simp only [Bool.or_eq_false_iff, beq_eq_false_iff_ne, ne_eq]
      refine ⟨hne, ?_⟩
      rw [hlen]
      omega
    rw [hcond]
    simp only [Bool.false_eq_true, ↓reduceIte]
    rw [hlen]
    have hb : (q :: (s ++ [q])).length = s.length + 2 := by simp
    have hf : 2 * (name.length + 3 + (q :: (s ++ [q])).length) + 1 =
        ((name.length + 3 + (q :: (s ++ [q])).length) + (s.length + 3)) +
          (name.length + 3) := by
      rw [hb]
      omega
    rw [hf, lex_entry_head name (q :: (s ++ [q])) hn]
    rw [lex_quoted_at (name ++ [NUL, '=', ' ']) s q hq hs
      (name.length + 3 + (q :: (s ++ [q])).length) _ _ _ _ _ _ (by simp)
      (by simp) (by simp) rfl]
  · exact cstr_at_zero name _ (name_grammar_no_NUL name hn)
  · have hline : name ++ NUL :: '=' :: ' ' :: q :: (s ++ [q]) =
        (name ++ [NUL, '=', ' ']) ++ (q :: (s ++ [q])) := by simp
    have hpre : name.length + 3 = (name ++ [NUL, '=', ' ']).length := by simp
    rw [hline, hpre]
    apply cstr_at_end
    intro hm
    rcases List.mem_cons.1 hm with e | e
    · rcases hq with h | h <;> rw [h] at e <;> revert e <;> decide
    · rcases List.mem_append.1 e with e | e
      · exact hnul e
      · simp only [List.mem_singleton] at e
        rcases hq with h | h <;> rw [h] at e <;> revert e <;> decide

/-- Witness of C4: the line `name = "hello # not a comment"` gives the string
`hello # not a comment`. -/
theorem quoted_value_kept_witness :
    (name_grammar "name".toList = true ∧ ('"' = '"' ∨ '"' = '\'') ∧
      '"' ∉ "hello # not a comment".toList ∧ NUL ∉ "hello # not a comment".toList) ∧
    ∃ buf,
      cfgcli_parse_line
        ("name".toList ++ ' ' :: '=' :: ' ' :: '"' :: ("hello # not a comment".toList ++ ['"']))
        0
        ("name".toList ++ ' ' :: '=' :: ' ' :: '"' ::
          ("hello # not a comment".toList ++ ['"'])).length none none START =
        run_t.ret (DONE, buf, some 0, some ("name".toList.length + 3)) ∧
      cstr_at buf 0 = "name".toList ∧
      cstr_at buf ("name".toList.length + 3) =
        '"' :: ("hello # not a comment".toList ++ ['"']) ∧
      cfgcli_get_value ex_libc ('"' :: ("hello # not a comment".toList ++ ['"']))
        CFGCLI_DTYPE_STR = (some (scalar_t.str "hello # not a comment".toList), 0) :=
  ⟨⟨by decide, Or.inl rfl, by decide, by decide⟩,
   quoted_value_kept ex_libc "name".toList "hello # not a comment".toList '"' (by decide)
     (Or.inl rfl) (by decide) (by decide)⟩

/-! ## Decimal digits -/

theorem digitChar_facts : ∀ m, m < 10 →
    isdigit (Nat.digitChar m) = true ∧ (Nat.digitChar m).toNat - 48 = m := by
  decide

theorem scan_digits_append_nondigit (l rest : List Char) (a k : Nat)
    (hl : ∀ c ∈ l, isdigit c = true) :
    scan_digits (l ++ rest) a k =
      scan_digits rest (l.foldl (fun acc c => acc * 10 + (c.toNat - 48)) a) (k + l.length) := by
  induction l generalizing a k with
  | nil => rfl
  | cons c cs ih =>
    have hc := hl c (List.mem_cons_self _ _)
    simp only [List.cons_append, scan_digits, hc, ↓reduceIte, List.foldl_cons, List.length_cons,
      List.append_eq]
    rw [ih _ _ (fun x hx => hl x (List.mem_cons_of_mem _ hx))]
    have e : k + 1 + cs.length = k + (cs.length + 1) := by omega
    rw [e]

/-- The digits that `Nat.toDigitsCore` puts in front of the accumulator: they are decimal
digits, at least one, and their value is `n`. -/
theorem toDigitsCore_spec (fuel n : Nat) (ds : List Char) (h : n < fuel) :
    ∃ l, Nat.toDigitsCore 10 fuel n ds = l ++ ds ∧ l ≠ [] ∧ (∀ c ∈ l, isdigit c = true) ∧
      ∀ a, l.foldl (fun acc c => acc * 10 + (c.toNat - 48)) a = a * 10 ^ l.length + n := by
  induction fuel generalizing n ds with
  | zero => omega
  | succ fuel ih =>
    have hd := digitChar_facts (n % 10) (Nat.mod_lt _ (by decide))
    unfold Nat.toDigitsCore
    simp only []
    by_cases h0 : n / 10 = 0
    · simp only [h0, ↓reduceIte]
      refine ⟨[Nat.digitChar (n % 10)], rfl, by simp, ?_, ?_⟩
      · intro c hc
        simp only [List.mem_singleton] at hc
        rw [hc]
        exact hd.1
      · intro a
        simp only [List.foldl_cons, List.foldl_nil, hd.2, List.length_singleton, pow_one]
        have : n % 10 = n := by
          apply Nat.mod_eq_of_lt
          omega
        rw [this]
    · simp only [h0, ↓reduceIte]
      obtain ⟨l, hl, hne, hdig, hval⟩ := ih (n / 10) (Nat.digitChar (n % 10) :: ds) (by omega)
      refine ⟨l ++ [Nat.digitChar (n % 10)], ?_, by simp, ?_, ?_⟩
      · rw [hl]
        simp
      · intro c hc
        rcases List.mem_append.1 hc with hc | hc
        · exact hdig c hc
        · simp only [List.mem_singleton] at hc
          rw [hc]
          exact hd.1
      · intro a
        simp only [List.foldl_append, List.foldl_cons, List.foldl_nil, hval, hd.2,
          List.length_append, List.length_singleton]
        rw [pow_succ]
        have := Nat.div_add_mod n 10
        nlinarith [this]

theorem toDigits_spec (n : Nat) :
    ∃ l, Nat.toDigits 10 n = l ∧ l ≠ [] ∧ (∀ c ∈ l, isdigit c = true) ∧
      ∀ a, l.foldl (fun acc c => acc * 10 + (c.toNat - 48)) a = a * 10 ^ l.length + n := by
  obtain ⟨l, hl, hne, hdig, hval⟩ := toDigitsCore_spec (n + 1) n [] (by omega)
  refine ⟨l, ?_, hne, hdig, hval⟩
  simp only [Nat.toDigits, hl, List.append_nil]

theorem isdigit_not_space {c : Char} (h : isdigit c = true) : isspace c = false := by
  simp only [isdigit, Bool.and_eq_true, decide_eq_true_eq] at h
  simp only [isspace, Bool.or_eq_false_iff, beq_eq_false_iff_ne, ne_eq, Bool.and_eq_false_imp,
    decide_eq_true_eq, decide_eq_false_iff_not, not_le]
  omega

theorem scan_digits_toDigits (n : Nat) :
    scan_digits (Nat.toDigits 10 n) 0 0 = (n, (Nat.toDigits 10 n).length) := by
  obtain ⟨l, hl, _, hdig, hval⟩ := toDigits_spec n
  rw [hl]
  have := scan_digits_append_nondigit l [] 0 0 hdig
  simp only [List.append_nil, scan_digits, hval, Nat.zero_mul, Nat.zero_add] at this
  exact this

/-! ## Coercion of a rendered integer -/

/-- The rendering of an integer: an optional minus sign and a non-empty run of digits whose
value is the magnitude. -/
theorem render_int_shape (x : Int) :
    ∃ l, l ≠ [] ∧ (∀ c ∈ l, isdigit c = true) ∧
      scan_digits l 0 0 = (x.natAbs, l.length) ∧
      render_int x = if x < 0 then '-' :: l else l := by
  by_cases hx : x < 0
  · obtain ⟨l, hl, hne, hdig, _⟩ := toDigits_spec x.natAbs
    refine ⟨l, hne, hdig, ?_, ?_⟩
    · rw [← hl]
      exact scan_digits_toDigits _
    · simp only [render_int, hx, ↓reduceIte, hl]
  · obtain ⟨l, hl, hne, hdig, _⟩ := toDigits_spec x.toNat
    refine ⟨l, hne, hdig, ?_, ?_⟩
    · rw [← hl, scan_digits_toDigits]
      congr 1
      omega
    · simp only [render_int, hx, ↓reduceIte, hl]

theorem isdigit_head_facts {c : Char} (h : isdigit c = true) :
    isspace c = false ∧ c ≠ '-' ∧ c ≠ '+' ∧ c ≠ '"' ∧ c ≠ '\'' := by
  refine ⟨isdigit_not_space h, ?_, ?_, ?_, ?_⟩ <;>
  · intro e
    subst e
    revert h
    decide

theorem sscanf_ld_render (x : Int) (hlo : -(2 ^ 63) ≤ x) (hhi : x ≤ 2 ^ 63 - 1) :
    sscanf_ld (render_int x) = some (x, (render_int x).length) := by
  obtain ⟨l, hne, hdig, hscan, hr⟩ := render_int_shape x
  cases l with
  | nil => exact absurd rfl hne
  | cons d ds =>
    have hd := isdigit_head_facts (hdig d (List.mem_cons_self _ _))
    by_cases hx : x < 0
    · rw [if_pos hx] at hr
      rw [hr]
      have hm : isspace '-' = false := by decide
      simp only [sscanf_ld, List.takeWhile_cons, hm, Bool.false_eq_true, ↓reduceIte,
        List.length_nil, List.dropWhile_cons, List.head?_cons, decide_True, true_or,
        List.drop_succ_cons, List.drop_zero, hscan, List.length_cons]
      have hz : ¬ (ds.length + 1 = 0) := by omega
      simp only [hz, ↓reduceIte, Option.some.injEq, Prod.mk.injEq]
      constructor
      · have : (-(x.natAbs : Int)) = x := by omega
        rw [this]
        simp only [clamp_long]
        rw [if_neg (by omega), if_neg (by omega)]
      · omega
    · rw [if_neg hx] at hr
      rw [hr]
      have h1 : ¬ (some d = some '-') := by
        intro e
        injection e with e
        exact hd.2.1 e
      have h2 : ¬ (some d = some '+') := by
        intro e
        injection e with e
        exact hd.2.2.1 e
      simp only [sscanf_ld, List.takeWhile_cons, hd.1, Bool.false_eq_true, ↓reduceIte,
        List.length_nil, List.dropWhile_cons, List.head?_cons, h1, h2, decide_False, or_self,
        List.drop_zero, hscan, List.length_cons]
      have hz : ¬ (ds.length + 1 = 0) := by omega
      simp only [hz, ↓reduceIte, Option.some.injEq, Prod.mk.injEq]
      constructor
      · have : ((x.natAbs : Nat) : Int) = x := by omega
        rw [this]
        simp only [clamp_long]
        rw [if_neg (by omega), if_neg (by omega)]
      · omega

theorem sscanf_d_render (x : Int) (hlo : -(2 ^ 31) ≤ x) (hhi : x < 2 ^ 31) :
    sscanf_d (render_int x) = some (x, (render_int x).length) := by
  unfold sscanf_d
  rw [sscanf_ld_render x (by omega) (by omega)]
  simp only [Option.some.injEq, Prod.mk.injEq, and_true]
  unfold wrap_int
  omega

theorem rtrim_of_last (l : List Char) (c : Char) (hc : isspace c = false) :
    rtrim (l ++ [c]) = l ++ [c] := by
  simp only [rtrim, List.reverse_append, List.reverse_cons, List.reverse_nil, List.nil_append,
    List.singleton_append, List.dropWhile_cons, hc, Bool.false_eq_true, ↓reduceIte,
    List.reverse_reverse]

theorem exists_last {α : Type} (l : List α) (h : l ≠ []) : ∃ l1 c, l = l1 ++ [c] := by
  induction l with
  | nil => exact absurd rfl h
  | cons x xs ih =>
    cases xs with
    | nil => exact ⟨[], x, rfl⟩
    | cons y ys =>
      obtain ⟨l1, c, hl⟩ := ih (by simp)
      exact ⟨x :: l1, c, by rw [hl]; rfl⟩

theorem render_int_ne_nil (x : Int) : render_int x ≠ [] := by
  obtain ⟨l, hne, _, _, hr⟩ := render_int_shape x
  rw [hr]
  split
  · simp
  · exact hne

theorem render_int_chars (x : Int) : ∀ c ∈ render_int x, c = '-' ∨ isdigit c = true := by
  obtain ⟨l, _, hdig, _, hr⟩ := render_int_shape x
  rw [hr]
  intro c hc
  split at hc
  · rcases List.mem_cons.1 hc with e | e
    · exact Or.inl e
    · exact Or.inr (hdig c e)
  · exact Or.inr (hdig c hc)

theorem render_int_last (x : Int) : ∃ l1 c, render_int x = l1 ++ [c] ∧ isdigit c = true := by
  obtain ⟨l, hne, hdig, _, hr⟩ := render_int_shape x
  obtain ⟨l1, c, hl⟩ := exists_last l hne
  have hc : isdigit c = true := hdig c (by rw [hl]; simp)
  rw [hr, hl]
  split
  · exact ⟨'-' :: l1, c, rfl, hc⟩
  · exact ⟨l1, c, rfl, hc⟩

theorem render_int_head (x : Int) : ∃ c cs, render_int x = c :: cs ∧ isspace c = false ∧
    c ≠ '"' ∧ c ≠ '\'' := by
  have hne := render_int_ne_nil x
  cases h : render_int x with
  | nil => exact absurd h hne
  | cons c cs =>
    refine ⟨c, cs, rfl, ?_⟩
    have hc := render_int_chars x c (by rw [h]; simp)
    rcases hc with e | e
    · subst e
      decide
    · have := isdigit_head_facts e
      exact ⟨this.1, this.2.2.2.1, this.2.2.2.2⟩

theorem dropWhile_spaces_append (sp l : List Char) (hsp : ∀ c ∈ sp, isspace c = true) :
    (sp ++ l).dropWhile isspace = l.dropWhile isspace := by
  induction sp with
  | nil => rfl
  | cons c cs ih =>
    have hc := hsp c (List.mem_cons_self _ _)
    simp only [List.cons_append, List.dropWhile_cons, hc, ↓reduceIte]
    exact ih (fun y hy => hsp y (List.mem_cons_of_mem _ hy))

/-- Coercion to `int` of a rendered integer after any white space. -/
theorem get_value_render_int (libc : libc_t) (sp : List Char) (x : Int)
    (hsp : ∀ c ∈ sp, isspace c = true) (hlo : -(2 ^ 31) ≤ x) (hhi : x < 2 ^ 31) :
    cfgcli_get_value libc (sp ++ render_int x) CFGCLI_DTYPE_INT = (some (scalar_t.int x), 0) := by
  obtain ⟨c, cs, hr, hc1, hc2, hc3⟩ := render_int_head x
  obtain ⟨l1, d, hl, hd⟩ := render_int_last x
  unfold cfgcli_get_value
  rw [dropWhile_spaces_append sp _ hsp]
  have hdw : (render_int x).dropWhile isspace = c :: cs := by
    rw [hr]
    simp only [List.dropWhile_cons, hc1, Bool.false_eq_true, ↓reduceIte]
  rw [hdw]
  have hq : (c == '"' || c == '\'') = false := by
    simp [hc2, hc3]
  simp only [hq, Bool.false_eq_true, ↓reduceIte]
  have htrim : rtrim (c :: cs) = render_int x := by
    rw [← hr, hl]
    exact rtrim_of_last l1 d (isdigit_not_space hd)
  rw [htrim]
  have hrest : rest_check (render_int x) (render_int x).length = 0 := by
    unfold rest_check
    have hnz : ¬ ((render_int x).length = 0) := by
      rw [hr]
      simp
    simp only [hnz, ↓reduceIte, List.drop_length, List.all_nil]
  simp only [assign_value, CFGCLI_DTYPE_INT, CFGCLI_DTYPE_BOOL, CFGCLI_DTYPE_CHAR]
  have e1 : ¬ ((3 : Int) = 1) := by decide
  have e2 : ¬ ((3 : Int) = 2) := by decide
  simp only [e1, e2, ↓reduceIte, sscanf_d_render x hlo hhi, hrest]

/-! ## The lexer on an array of bare elements -/

theorem bare_head_facts {c : Char} (h : bare_head c = true) :
    isgraph c = true ∧ c ≠ ',' ∧ c ≠ ']' ∧ c ≠ '#' ∧ c ≠ '"' ∧ c ≠ '\'' ∧ c ≠ '\\' := by
  simp only [bare_head, Bool.and_eq_true, bne_iff_ne, ne_eq] at h
  exact ⟨h.1.1.1.1.1.1, h.1.1.1.1.1.2, h.1.1.1.1.2, h.1.1.1.2, h.1.1.2, h.1.2, h.2⟩

theorem bare_tail_facts {c : Char} (h : bare_tail c = true) :
    isprint c = true ∧ c ≠ ',' ∧ c ≠ ']' ∧ c ≠ '#' := by
  simp only [bare_tail, Bool.and_eq_true, bne_iff_ne, ne_eq] at h
  exact ⟨h.1.1.1, h.1.1.2, h.1.2, h.2⟩

theorem lex_body_array_head (L : List Char) (k v nl : Option Nat) (qq : Char) (a : Nat)
    (h : bare_head (L.getD a NUL) = true) :
    lex_body { line := L, key := k, value := v, state := ARRAY_START, quote := qq,
               newline := nl } a =
      lex_step_t.go { line := L, key := k, value := v, state := ARRAY_VALUE, quote := qq,
                      newline := nl } false := by
  obtain ⟨h1, h2, h3, h4, h5, h6, h7⟩ := bare_head_facts h
  unfold lex_body
  have c1 : (L.getD a NUL == CFGCLI_SYM_ARRAY_SEP || L.getD a NUL == CFGCLI_SYM_ARRAY_END ||
      L.getD a NUL == CFGCLI_SYM_COMMENT) = false := by
    simp only [CFGCLI_SYM_ARRAY_SEP, CFGCLI_SYM_ARRAY_END, CFGCLI_SYM_COMMENT,
      Bool.or_eq_false_iff, beq_eq_false_iff_ne, ne_eq]
    exact ⟨⟨h2, h3⟩, h4⟩
  have c2 : (L.getD a NUL == '"' || L.getD a NUL == '\'') = false := by
    simp only [Bool.or_eq_false_iff, beq_eq_false_iff_ne, ne_eq]
    exact ⟨h5, h6⟩
  have c3 : (L.getD a NUL == CFGCLI_SYM_NEWLINE) = false := by
    simp only [CFGCLI_SYM_NEWLINE, beq_eq_false_iff_ne, ne_eq]
    exact h7
  simp only [c1, c2, c3, h1, Bool.false_eq_true, ↓reduceIte]

theorem lex_body_array_tail (L : List Char) (k v nl : Option Nat) (qq : Char) (a : Nat)
    (h : bare_tail (L.getD a NUL) = true) :
    lex_body { line := L, key := k, value := v, state := ARRAY_VALUE, quote := qq,
               newline := nl } a =
      lex_step_t.go { line := L, key := k, value := v, state := ARRAY_VALUE, quote := qq,
                      newline := nl } false := by
  obtain ⟨h1, h2, h3, h4⟩ := bare_tail_facts h
  unfold lex_body
  have c1 : (L.getD a NUL == CFGCLI_SYM_ARRAY_SEP) = false := by
    simp only [CFGCLI_SYM_ARRAY_SEP, beq_eq_false_iff_ne, ne_eq]
    exact h2
  have c2 : (L.getD a NUL == CFGCLI_SYM_ARRAY_END) = false := by
    simp only [CFGCLI_SYM_ARRAY_END, beq_eq_false_iff_ne, ne_eq]
    exact h3
  have c3 : (L.getD a NUL == CFGCLI_SYM_COMMENT || !isprint (L.getD a NUL)) = false := by
    simp only [CFGCLI_SYM_COMMENT, Bool.or_eq_false_iff, beq_eq_false_iff_ne, ne_eq,
      Bool.not_eq_false']
    exact ⟨h4, h1⟩
  simp only [c1, c2, c3, Bool.false_eq_true, ↓reduceIte]

theorem bare_token_cons (c : Char) (cs : List Char) (h : bare_token (c :: cs) = true) :
    bare_head c = true ∧ ∀ x ∈ cs, bare_tail x = true := by
  simp only [bare_token, Bool.and_eq_true, List.all_eq_true] at h
  exact h

/-- The lexer on a bare element `t` from the state `ARRAY_START`: it arrives behind the
element in the state `ARRAY_VALUE`. -/
theorem lex_array_token (pre t post : List Char) (ht : bare_token t = true) (fuel : Nat)
    (k v nl : Option Nat) (qq : Char) (len : Nat) (hlen : pre.length + t.length ≤ len) :
    parse_line_loop (fuel + t.length)
      { line := pre ++ (t ++ post), key := k, value := v, state := ARRAY_START, quote := qq,
        newline := nl } 0 len pre.length =
    parse_line_loop fuel
      { line := pre ++ (t ++ post), key := k, value := v, state := ARRAY_VALUE, quote := qq,
        newline := nl } 0 len (pre.length + t.length) := by
  cases t with
  | nil => simp [bare_token] at ht
  | cons c cs =>
    obtain ⟨hc, hcs⟩ := bare_token_cons c cs ht
    have hget : ∀ j, (pre ++ (c :: cs ++ post)).getD (pre.length + j) NUL =
        (c :: cs ++ post).getD j NUL := fun j => getD_append_right_add _ _ j
    simp only [List.length_cons] at hlen ⊢
    rw [show fuel + (cs.length + 1) = (fuel + cs.length) + 1 by omega, loop_go0 _ _
      { line := pre ++ (c :: cs ++ post), key := k, value := v, state := ARRAY_VALUE,
        quote := qq, newline := nl } _ pre.length (by omega)
      (by
        apply lex_body_array_head
        have h0 := hget 0
        simp only [Nat.add_zero] at h0
        rw [h0]
        exact hc)]
    rw [loop_stay0 cs.length fuel _ _ (pre.length + 1) (by omega)
      (by
        intro j hj
        apply lex_body_array_tail
        have e : pre.length + 1 + j = pre.length + (j + 1) := by omega
        rw [e, hget, List.cons_append, List.getD_cons_succ, getD_append_left_lt _ _ _ hj]
        exact hcs _ (getD_of_mem_index cs j hj))]
    congr 1
    omega

/-- The lexer on the separator `, ` from the state `ARRAY_VALUE`: it arrives behind it in
the state `ARRAY_START`. -/
theorem lex_array_sep (pre post : List Char) (fuel : Nat) (k v nl : Option Nat) (qq : Char)
    (len : Nat) (hlen : pre.length + 2 ≤ len) :
    parse_line_loop (fuel + 2)
      { line := pre ++ ',' :: ' ' :: post, key := k, value := v, state := ARRAY_VALUE,
        quote := qq, newline := nl } 0 len pre.length =
    parse_line_loop fuel
      { line := pre ++ ',' :: ' ' :: post, key := k, value := v, state := ARRAY_START,
        quote := qq, newline := nl } 0 len (pre.length + 2) := by
  have hget : ∀ j, (pre ++ ',' :: ' ' :: post).getD (pre.length + j) NUL =
      (',' :: ' ' :: post).getD j NUL := fun j => getD_append_right_add _ _ j
  rw [show fuel + 2 = (fuel + 1) + 1 by omega, loop_go0 _ _
    { line := pre ++ ',' :: ' ' :: post, key := k, value := v, state := ARRAY_START,
      quote := qq, newline := nl } _ pre.length (by omega)
    (by
      have h0 := hget 0
      simp only [Nat.add_zero] at h0
      unfold lex_body
      simp only [h0, List.getD_cons_zero]
      have c1 : (',' == CFGCLI_SYM_ARRAY_SEP) = true := by decide
      simp only [c1, ↓reduceIte])]
  rw [loop_go0 _ _
    { line := pre ++ ',' :: ' ' :: post, key := k, value := v, state := ARRAY_START,
      quote := qq, newline := nl } _ (pre.length + 1) (by omega)
    (by
      have h1 := hget 1
      unfold lex_body
      simp only [h1, List.getD_cons_succ, List.getD_cons_zero]
      have c1 : (' ' == CFGCLI_SYM_ARRAY_SEP || ' ' == CFGCLI_SYM_ARRAY_END ||
          ' ' == CFGCLI_SYM_COMMENT) = false := by decide
      have c2 : (' ' == '"' || ' ' == '\'') = false := by decide
      have c3 : (' ' == CFGCLI_SYM_NEWLINE) = false := by decide
      have c4 : isgraph ' ' = false := by decide
      have c5 : isspace ' ' = true := by decide
      simp only [c1, c2, c3, c4, c5, Bool.false_eq_true, ↓reduceIte, Bool.not_true])]

/-- The lexer on the closing bracket that ends the line, from the state `ARRAY_VALUE`. -/
theorem lex_array_close (pre : List Char) (fuel : Nat) (k v nl : Option Nat) (qq : Char) :
    parse_line_loop (fuel + 2)
      { line := pre ++ [']'], key := k, value := v, state := ARRAY_VALUE, quote := qq,
        newline := nl } 0 (pre.length + 1) pre.length =
    run_t.ret (DONE,
      { line := pre ++ [']'], key := k, value := v, state := ARRAY_END, quote := qq,
        newline := nl }) := by
  have hget : (pre ++ [']']).getD pre.length NUL = ']' := by
    have := getD_append_right_add pre [']'] 0
    rw [Nat.add_zero] at this
    rw [this]
    rfl
  rw [show fuel + 2 = (fuel + 1) + 1 by omega, loop_go0 _ _
    { line := pre ++ [']'], key := k, value := v, state := ARRAY_END, quote := qq,
      newline := nl } _ pre.length (by omega)
    (by
      unfold lex_body
      simp only [hget]
      have c1 : (']' == CFGCLI_SYM_ARRAY_SEP) = false := by decide
      have c2 : (']' == CFGCLI_SYM_ARRAY_END) = true := by decide
      simp only [c1, c2, Bool.false_eq_true, ↓reduceIte])]
  rw [loop_end _ _ _ _ _ (by omega)]
  rfl

theorem lex_array_token_at (pre t post : List Char) (ht : bare_token t = true) (fuel f : Nat)
    (k v nl : Option Nat) (qq : Char) (len : Nat) (L : List Char) (i : Nat)
    (hL : L = pre ++ (t ++ post)) (hi : i = pre.length) (hf : f = fuel + t.length)
    (hlen : pre.length + t.length ≤ len) :
    parse_line_loop f
      { line := L, key := k, value := v, state := ARRAY_START, quote := qq, newline := nl }
      0 len i =
    parse_line_loop fuel
      { line := L, key := k, value := v, state := ARRAY_VALUE, quote := qq, newline := nl }
      0 len (i + t.length) := by
  subst hL hi hf
  exact lex_array_token pre t post ht fuel k v nl qq len hlen

theorem lex_array_sep_at (pre post : List Char) (fuel f : Nat) (k v nl : Option Nat)
    (qq : Char) (len : Nat) (L : List Char) (i : Nat) (hL : L = pre ++ ',' :: ' ' :: post)
    (hi : i = pre.length) (hf : f = fuel + 2) (hlen : pre.length + 2 ≤ len) :
    parse_line_loop f
      { line := L, key := k, value := v, state := ARRAY_VALUE, quote := qq, newline := nl }
      0 len i =
    parse_line_loop fuel
      { line := L, key := k, value := v, state := ARRAY_START, quote := qq, newline := nl }
      0 len (i + 2) := by
  subst hL hi hf
  exact lex_array_sep pre post fuel k v nl qq len hlen

theorem lex_array_close_at (pre : List Char) (fuel f : Nat) (k v nl : Option Nat) (qq : Char)
    (len : Nat) (L : List Char) (i : Nat) (hL : L = pre ++ [']']) (hi : i = pre.length)
    (hf : f = fuel + 2) (hlen : len = pre.length + 1) :
    parse_line_loop f
      { line := L, key := k, value := v, state := ARRAY_VALUE, quote := qq, newline := nl }
      0 len i =
    run_t.ret (DONE,
      { line := L, key := k, value := v, state := ARRAY_END, quote := qq, newline := nl }) := by
  subst hL hi hf hlen
  exact lex_array_close pre fuel k v nl qq

/-- The lexer on the elements `t1, ..., tn]` of an array of bare elements that ends the
line, from the state `ARRAY_START`: it returns `DONE`, the buffer and the pointers as they
were. -/
theorem lex_array_elems (ts : List (List Char)) (hts : ts ≠ [])
    (hb : ∀ t ∈ ts, bare_token t = true) (pre : List Char) (fuel : Nat)
    (k v nl : Option Nat) (qq : Char) :
    parse_line_loop (fuel + ((join_elems ts).length + 2))
      { line := pre ++ (join_elems ts ++ [']']), key := k, value := v, state := ARRAY_START,
        quote := qq, newline := nl } 0 (pre.length + ((join_elems ts).length + 1))
      pre.length =
    run_t.ret (DONE,
      { line := pre ++ (join_elems ts ++ [']']), key := k, value := v, state := ARRAY_END,
        quote := qq, newline := nl }) := by
  induction ts generalizing pre fuel with
  | nil => exact absurd rfl hts
  | cons t us ih =>
    have ht := hb t (List.mem_cons_self _ _)
    cases us with
    | nil =>
      simp only [join_elems]
      rw [lex_array_token_at pre t [']'] ht (fuel + 2) _ k v nl qq _ _ _ rfl rfl (by omega)
        (by omega)]
      exact lex_array_close_at (pre ++ t) fuel _ k v nl qq _ _ _ (by simp) (by simp) rfl
        (by simp; omega)
    | cons u rest =>
      have hj : join_elems (t :: u :: rest) = t ++ ',' :: ' ' :: join_elems (u :: rest) := rfl
      rw [hj]
      rw [lex_array_token_at pre t (',' :: ' ' :: join_elems (u :: rest) ++ [']']) ht
        (fuel + ((join_elems (u :: rest)).length + 2) + 2) _ k v nl qq _ _ _ (by simp) rfl
        (by simp only [List.length_append, List.length_cons]; omega)
        (by simp only [List.length_append, List.length_cons]; omega)]
      rw [lex_array_sep_at (pre ++ t) (join_elems (u :: rest) ++ [']'])
        (fuel + ((join_elems (u :: rest)).length + 2)) _ k v nl qq _ _ _ (by simp) (by simp) rfl
        (by simp only [List.length_append, List.length_cons]; omega)]
      have := ih (by simp) (fun x hx => hb x (List.mem_cons_of_mem _ hx))
        (pre ++ t ++ [',', ' ']) fuel
      have e1 : pre ++ t ++ [',', ' '] ++ (join_elems (u :: rest) ++ [']']) =
          pre ++ (t ++ ',' :: ' ' :: join_elems (u :: rest) ++ [']']) := by simp
      have e2 : (pre ++ t ++ [',', ' ']).length = pre.length + t.length + 2 := by
        simp only [List.length_append, List.length_cons, List.length_nil]
      have e3 : (pre ++ t ++ [',', ' ']).length + ((join_elems (u :: rest)).length + 1) =
          pre.length + ((t ++ ',' :: ' ' :: join_elems (u :: rest)).length + 1) := by
        simp only [List.length_append, List.length_cons, List.length_nil]
        omega
      rw [e1, e3, e2] at this
      exact this

/-! ## The array splitter on an array of bare elements -/

theorem split_go (k : Nat) (s s1 : split_t) (i : Nat) (hs : s.state ≠ ARRAY_DONE)
    (h : split_body s i = split_step_t.go s1) :
    parse_array_loop (k + 1) s i = parse_array_loop k s1 (i + 1) := by
  simp [parse_array_loop, hs, h]

theorem split_stay (n : Nat) (k : Nat) (s : split_t) (i : Nat) (hs : s.state ≠ ARRAY_DONE)
    (h : ∀ j, j < n → split_body s (i + j) = split_step_t.go s) :
    parse_array_loop (k + n) s i = parse_array_loop k s (i + n) := by
  induction n generalizing i with
  | zero => rfl
  | succ n ih =>
    have h0 := h 0 (Nat.succ_pos n)
    rw [Nat.add_zero] at h0
    rw [← Nat.add_assoc, split_go (k + n) s s i hs h0, ih (i + 1)]
    · congr 1
      omega
    · intro j hj
      have := h (j + 1) (by omega)
      rw [← this]
      congr 1
      omega

theorem split_body_head (V : List Char) (n : Nat) (qq : Char) (st e : Option Nat) (a : Nat)
    (h : bare_head (V.getD a NUL) = true) :
    split_body { value := V, n := n, state := ARRAY_START, quote := qq, start := st,
                 endp := e } a =
      split_step_t.go { value := V, n := n, state := ARRAY_VALUE, quote := qq, start := st,
                        endp := e } := by
  obtain ⟨h1, h2, h3, h4, h5, h6, _⟩ := bare_head_facts h
  unfold split_body
  have c1 : (V.getD a NUL == CFGCLI_SYM_ARRAY_SEP || V.getD a NUL == CFGCLI_SYM_ARRAY_END ||
      V.getD a NUL == CFGCLI_SYM_COMMENT) = false := by
    simp only [CFGCLI_SYM_ARRAY_SEP, CFGCLI_SYM_ARRAY_END, CFGCLI_SYM_COMMENT,
      Bool.or_eq_false_iff, beq_eq_false_iff_ne, ne_eq]
    exact ⟨⟨h2, h3⟩, h4⟩
  have c2 : (V.getD a NUL == '"' || V.getD a NUL == '\'') = false := by
    simp only [Bool.or_eq_false_iff, beq_eq_false_iff_ne, ne_eq]
    exact ⟨h5, h6⟩
  simp only [c1, c2, h1, Bool.false_eq_true, ↓reduceIte]

theorem split_body_tail (V : List Char) (n : Nat) (qq : Char) (st e : Option Nat) (a : Nat)
    (h : bare_tail (V.getD a NUL) = true) :
    split_body { value := V, n := n, state := ARRAY_VALUE, quote := qq, start := st,
                 endp := e } a =
      split_step_t.go { value := V, n := n, state := ARRAY_VALUE, quote := qq, start := st,
                        endp := e } := by
  obtain ⟨h1, h2, h3, h4⟩ := bare_tail_facts h
  unfold split_body
  have c1 : (V.getD a NUL == CFGCLI_SYM_ARRAY_SEP) = false := by
    simp only [CFGCLI_SYM_ARRAY_SEP, beq_eq_false_iff_ne, ne_eq]
    exact h2
  have c2 : (V.getD a NUL == CFGCLI_SYM_ARRAY_END) = false := by
    simp only [CFGCLI_SYM_ARRAY_END, beq_eq_false_iff_ne, ne_eq]
    exact h3
  have c3 : (V.getD a NUL == CFGCLI_SYM_COMMENT || !isprint (V.getD a NUL)) = false := by
    simp only [CFGCLI_SYM_COMMENT, Bool.or_eq_false_iff, beq_eq_false_iff_ne, ne_eq,
      Bool.not_eq_false']
    exact ⟨h4, h1⟩
  simp only [c1, c2, c3, Bool.false_eq_true, ↓reduceIte]

/-- The splitter on a bare element from the state `ARRAY_START`. -/
theorem split_token (pre t post : List Char) (ht : bare_token t = true) (k f : Nat) (n : Nat)
    (qq : Char) (st e : Option Nat) (V : List Char) (i : Nat) (hV : V = pre ++ (t ++ post))
    (hi : i = pre.length) (hf : f = k + t.length) :
    parse_array_loop f
      { value := V, n := n, state := ARRAY_START, quote := qq, start := st, endp := e } i =
    parse_array_loop k
      { value := V, n := n, state := ARRAY_VALUE, quote := qq, start := st, endp := e }
      (i + t.length) := by
  subst hV hi hf
  cases t with
  | nil => simp [bare_token] at ht
  | cons c cs =>
    obtain ⟨hc, hcs⟩ := bare_token_cons c cs ht
    have hget : ∀ j, (pre ++ (c :: cs ++ post)).getD (pre.length + j) NUL =
        (c :: cs ++ post).getD j NUL := fun j => getD_append_right_add _ _ j
    simp only [List.length_cons]
    rw [show k + (cs.length + 1) = (k + cs.length) + 1 by omega, split_go _ _
      { value := pre ++ (c :: cs ++ post), n := n, state := ARRAY_VALUE, quote := qq,
        start := st, endp := e } pre.length (by simp)
      (by
        apply split_body_head
        have h0 := hget 0
        simp only [Nat.add_zero] at h0
        rw [h0]
        exact hc)]
    rw [split_stay cs.length k _ (pre.length + 1) (by simp)
      (by
        intro j hj
        apply split_body_tail
        have e1 : pre.length + 1 + j = pre.length + (j + 1) := by omega
        rw [e1, hget, List.cons_append, List.getD_cons_succ, getD_append_left_lt _ _ _ hj]
        exact hcs _ (getD_of_mem_index cs j hj))]
    congr 1
    omega

/-- The splitter on the separator `, ` from the state `ARRAY_VALUE`: the comma becomes a
NUL and the count grows by one. -/
theorem split_sep (pre post : List Char) (k f : Nat) (n : Nat) (qq : Char)
    (st e : Option Nat) (V : List Char) (i : Nat) (hV : V = pre ++ ',' :: ' ' :: post)
    (hi : i = pre.length) (hf : f = k + 2) :
    parse_array_loop f
      { value := V, n := n, state := ARRAY_VALUE, quote := qq, start := st, endp := e } i =
    parse_array_loop k
      { value := pre ++ NUL :: ' ' :: post, n := n + 1, state := ARRAY_START, quote := qq,
        start := st, endp := e } (i + 2) := by
  subst hV hi hf
  have hget : ∀ j, (pre ++ ',' :: ' ' :: post).getD (pre.length + j) NUL =
      (',' :: ' ' :: post).getD j NUL := fun j => getD_append_right_add _ _ j
  have hget2 : ∀ j, (pre ++ NUL :: ' ' :: post).getD (pre.length + j) NUL =
      (NUL :: ' ' :: post).getD j NUL := fun j => getD_append_right_add _ _ j
  rw [show k + 2 = (k + 1) + 1 by omega, split_go _ _
    { value := pre ++ NUL :: ' ' :: post, n := n + 1, state := ARRAY_START, quote := qq,
      start := st, endp := e } pre.length (by simp)
    (by
      have h0 := hget 0
      simp only [Nat.add_zero] at h0
      unfold split_body
      simp only [h0, List.getD_cons_zero]
      have c1 : (',' == CFGCLI_SYM_ARRAY_SEP) = true := by decide
      simp only [c1, ↓reduceIte, poke]
      have := set_append_add pre (',' :: ' ' :: post) 0 NUL
      simp only [Nat.add_zero] at this
      rw [this]
      rfl)]
  rw [split_go _ _
    { value := pre ++ NUL :: ' ' :: post, n := n + 1, state := ARRAY_START, quote := qq,
      start := st, endp := e } (pre.length + 1) (by simp)
    (by
      have h1 := hget2 1
      unfold split_body
      simp only [h1, List.getD_cons_succ, List.getD_cons_zero]
      have c1 : (' ' == CFGCLI_SYM_ARRAY_SEP || ' ' == CFGCLI_SYM_ARRAY_END ||
          ' ' == CFGCLI_SYM_COMMENT) = false := by decide
      have c2 : (' ' == '"' || ' ' == '\'') = false := by decide
      have c4 : isgraph ' ' = false := by decide
      have c5 : isspace ' ' = true := by decide
      simp only [c1, c2, c4, c5, Bool.false_eq_true, ↓reduceIte, Bool.not_true])]

/-- The splitter on the closing bracket that ends the value, from the state `ARRAY_VALUE`,
and on the terminating NUL behind it. -/
theorem split_close (pre : List Char) (k f : Nat) (n : Nat) (qq : Char) (st e : Option Nat)
    (V : List Char) (i : Nat) (hV : V = pre ++ [']']) (hi : i = pre.length)
    (hf : f = k + 2) :
    parse_array_loop f
      { value := V, n := n, state := ARRAY_VALUE, quote := qq, start := st, endp := e } i =
    parse_array_loop k
      { value := V, n := n, state := ARRAY_END, quote := qq, start := st,
        endp := some pre.length } (i + 2) := by
  subst hV hi hf
  have hget : (pre ++ [']']).getD pre.length NUL = ']' := by
    have := getD_append_right_add pre [']'] 0
    rw [Nat.add_zero] at this
    rw [this]
    rfl
  have hget1 : (pre ++ [']']).getD (pre.length + 1) NUL = NUL := by
    have := getD_append_right_add pre [']'] 1
    rw [this]
    rfl
  rw [show k + 2 = (k + 1) + 1 by omega, split_go _ _
    { value := pre ++ [']'], n := n, state := ARRAY_END, quote := qq, start := st,
      endp := some pre.length } pre.length (by simp)
    (by
      unfold split_body
      simp only [hget]
      have c1 : (']' == CFGCLI_SYM_ARRAY_SEP) = false := by decide
      have c2 : (']' == CFGCLI_SYM_ARRAY_END) = true := by decide
      simp only [c1, c2, Bool.false_eq_true, ↓reduceIte])]
  rw [split_go _ _
    { value := pre ++ [']'], n := n, state := ARRAY_END, quote := qq, start := st,
      endp := some pre.length } (pre.length + 1) (by simp)
    (by
      unfold split_body
      simp only [hget1]
      have c1 : (NUL == CFGCLI_SYM_COMMENT) = false := by decide
      have c2 : isgraph NUL = false := by decide
      simp only [c1, c2, Bool.false_eq_true, ↓reduceIte])]

theorem join_split_length (ts : List (List Char)) :
    (join_split ts).length = (join_elems ts).length := by
  induction ts with
  | nil => rfl
  | cons t us ih =>
    cases us with
    | nil => rfl
    | cons u rest =>
      simp only [join_split, join_elems, List.length_append, List.length_cons] at ih ⊢
      rw [ih]

/-- The splitter on the elements `t1, ..., tn]` of an array of bare elements, from the
state `ARRAY_START`: every comma becomes a NUL, the count grows by `n - 1`, and the closing
bracket is recorded. -/
theorem split_elems (ts : List (List Char)) (hts : ts ≠ [])
    (hb : ∀ t ∈ ts, bare_token t = true) (pre : List Char) (k n : Nat) (qq : Char)
    (st e : Option Nat) :
    parse_array_loop (k + ((join_elems ts).length + 2))
      { value := pre ++ (join_elems ts ++ [']']), n := n, state := ARRAY_START, quote := qq,
        start := st, endp := e } pre.length =
    parse_array_loop k
      { value := pre ++ (join_split ts ++ [']']), n := n + (ts.length - 1), state := ARRAY_END,
        quote := qq, start := st, endp := some (pre.length + (join_elems ts).length) }
      (pre.length + ((join_elems ts).length + 2)) := by
  induction ts generalizing pre n with
  | nil => exact absurd rfl hts
  | cons t us ih =>
    have ht := hb t (List.mem_cons_self _ _)
    cases us with
    | nil =>
      simp only [join_elems, join_split, List.length_singleton, Nat.sub_self, Nat.add_zero]
      rw [split_token pre t [']'] ht (k + 2) _ n qq st e _ _ rfl rfl (by omega)]
      rw [split_close (pre ++ t) k _ n qq st e _ _ (by simp) (by simp) rfl]
      simp only [List.append_assoc, List.length_append, Nat.add_assoc]
    | cons u rest =>
      have hj : join_elems (t :: u :: rest) = t ++ ',' :: ' ' :: join_elems (u :: rest) := rfl
      have hs : join_split (t :: u :: rest) = t ++ NUL :: ' ' :: join_split (u :: rest) := rfl
      rw [hj, hs]
      rw [split_token pre t (',' :: ' ' :: join_elems (u :: rest) ++ [']']) ht
        (k + ((join_elems (u :: rest)).length + 2) + 2) _ n qq st e _ _ (by simp) rfl
        (by simp only [List.length_append, List.length_cons]; omega)]
      rw [split_sep (pre ++ t) (join_elems (u :: rest) ++ [']'])
        (k + ((join_elems (u :: rest)).length + 2)) _ n qq st e _ _ (by simp) (by simp) rfl]
      have := ih (by simp) (fun x hx => hb x (List.mem_cons_of_mem _ hx))
        (pre ++ t ++ [NUL, ' ']) (n + 1)
      have e1 : pre ++ t ++ NUL :: ' ' :: (join_elems (u :: rest) ++ [']']) =
          pre ++ t ++ [NUL, ' '] ++ (join_elems (u :: rest) ++ [']']) := by simp
      have e2 : (pre ++ t ++ [NUL, ' ']).length = pre.length + t.length + 2 := by
        simp only [List.length_append, List.length_cons, List.length_nil]
      rw [e2] at this
      rw [e1, this]
      congr 1
      · congr 1
        · simp
        · simp only [List.length_cons]
          omega
        · simp only [List.length_append, List.length_cons]
          congr 1
          omega
      · simp only [List.length_append, List.length_cons]
        omega

/-! ## The splitter and the coercion on a whole array of integers -/

/-- The splitter on the value `[t1, ..., tn]` of bare elements: `n` segments, each comma
and the closing bracket turned into a NUL, the opening bracket dropped. -/
theorem parse_array_bare (ts : List (List Char)) (hts : ts ≠ [])
    (hb : ∀ t ∈ ts, bare_token t = true) (par : cfgcli_param_valid_t)
    (hv : par.value = some (array_text ts)) (hl : par.vlen = (array_text ts).length + 1) :
    cfgcli_parse_array par =
      (0, { par with narr := ts.length, value := some (join_split ts ++ [NUL]) }) := by
  have hlen : (array_text ts).length + 1 = ((join_elems ts).length + 2) + 1 := by
    simp [array_text]
  have h1 : parse_array_loop (((join_elems ts).length + 2) + 1)
      { value := array_text ts, n := 0, state := START, quote := NUL, start := none,
        endp := none } 0 =
      parse_array_loop ((join_elems ts).length + 2)
      { value := ['['] ++ (join_elems ts ++ [']']), n := 0, state := ARRAY_START, quote := NUL,
        start := some 0, endp := none } 1 := by
    rw [split_go _ _
      { value := ['['] ++ (join_elems ts ++ [']']), n := 0, state := ARRAY_START, quote := NUL,
        start := some 0, endp := none } 0 (by simp)
      (by
        unfold split_body
        simp [array_text, CFGCLI_SYM_ARRAY_START])]
  have h2 := split_elems ts hts hb ['['] 0 0 NUL (some 0) none
  rw [Nat.zero_add] at h2
  have h3 : parse_array_loop 0
      { value := ['['] ++ (join_split ts ++ [']']), n := 0 + (ts.length - 1),
        state := ARRAY_END, quote := NUL, start := some 0,
        endp := some (['['].length + (join_elems ts).length) }
      (['['].length + ((join_elems ts).length + 2)) =
      split_step_t.go
      { value := ['['] ++ (join_split ts ++ [']']), n := 0 + (ts.length - 1),
        state := ARRAY_END, quote := NUL, start := some 0,
        endp := some (['['].length + (join_elems ts).length) } := rfl
  have hn : 0 + (ts.length - 1) + 1 = ts.length := by
    have : 0 < ts.length := List.length_pos.2 hts
    omega
  have hp : (poke (['['] ++ (join_split ts ++ [']'])) (['['].length + (join_elems ts).length)
      NUL).drop (0 + 1) = join_split ts ++ [NUL] := by
    rw [← join_split_length ts]
    have e : ['['] ++ (join_split ts ++ [']']) = (['['] ++ join_split ts) ++ [']'] := by simp
    have e2 : ['['].length + (join_split ts).length = (['['] ++ join_split ts).length + 0 := by
      simp only [List.length_append, Nat.add_zero]
    rw [e, e2, poke, set_append_add]
    simp
  unfold cfgcli_parse_array
  simp only [hv, hl, hlen]
  rw [h1]
  have e1 : ['['].length = 1 := rfl
  rw [e1] at h2 h3 hp
  rw [h2, h3]
  simp only [Nat.add_one_ne_zero, ↓reduceIte, hp, hn]

/-! ## The text that `cfgcli_get_value` leaves -/

theorem rtrim_length_le (s : List Char) : (rtrim s).length ≤ s.length := by
  unfold rtrim
  rw [List.length_reverse]
  calc (List.dropWhile isspace s.reverse).length ≤ s.reverse.length :=
        (List.dropWhile_sublist _).length_le
    _ = s.length := List.length_reverse s

/-- `cfgcli_get_value` overwrites bytes: the string keeps its length. -/
theorem get_value_text_length (s : List Char) : (get_value_text s).length = s.length := by
  unfold get_value_text
  split
  · rfl
  · split
    · dsimp only
      split
      · simp [poke]
      · rfl
    · have h := rtrim_length_le s
      simp only [List.length_append, List.length_replicate]
      omega

theorem cstr_at_length_le (buf : List Char) (pos : Nat) :
    pos + (cstr_at buf pos).length ≤ buf.length ∨ cstr_at buf pos = [] := by
  by_cases h : pos ≤ buf.length
  · left
    unfold cstr_at
    have h1 : (List.takeWhile (fun x => x != NUL) (buf.drop pos)).length ≤ (buf.drop pos).length :=
      (List.takeWhile_sublist _).length_le
    rw [List.length_drop] at h1
    omega
  · right
    unfold cstr_at
    rw [List.drop_of_length_le (by omega)]
    rfl

/-- Bytes stored at `pos` leave the text behind them as it was. -/
theorem store_drop_after (buf : List Char) (pos : Nat) (data : List Char) (n : Nat)
    (hn : data.length ≤ n) (hp : pos + data.length ≤ buf.length ∨ data = []) :
    (store buf pos data).drop (pos + n) = buf.drop (pos + n) := by
  unfold store
  rcases hp with hp | hp
  · have e1 : (buf.take pos).length = pos := by
      rw [List.length_take]
      omega
    have e2 : pos + n = (buf.take pos ++ data).length + (n - data.length) := by
      rw [List.length_append, e1]
      omega
    rw [e2, List.drop_append, List.drop_drop, List.length_append, e1]
  · subst hp
    simp only [List.append_nil, List.length_nil, Nat.add_zero, List.take_append_drop]

/-- Bytes stored over a segment of the same length replace that segment. -/
theorem store_at (pre seg data rest : List Char) (h : data.length = seg.length) :
    store (pre ++ (seg ++ rest)) pre.length data = pre ++ (data ++ rest) := by
  unfold store
  rw [List.take_left, h, ← List.length_append, ← List.append_assoc pre seg rest,
    List.drop_left, List.append_assoc]

theorem cstr_at_seg (pre seg rest : List Char) (hn : NUL ∉ seg) :
    cstr_at (pre ++ (seg ++ NUL :: rest)) pre.length = seg := by
  unfold cstr_at
  rw [List.drop_left]
  induction seg with
  | nil => simp
  | cons c cs ih =>
    have hc : c ≠ NUL := fun e => hn (e ▸ List.mem_cons_self _ _)
    have hcs : NUL ∉ cs := fun m => hn (List.mem_cons_of_mem _ m)
    simp only [List.cons_append, List.takeWhile_cons, bne_iff_ne, ne_eq, hc, not_false_eq_true,
      decide_True, ↓reduceIte, List.cons.injEq, true_and]
    exact ih hcs

theorem cstr_at_congr (buf buf1 : List Char) (pos : Nat) (h : buf1.drop pos = buf.drop pos) :
    cstr_at buf1 pos = cstr_at buf pos := by
  unfold cstr_at
  rw [h]

/-- The loop of `cfgcli_get_array` computes the array and the return code that the text of
the splitter gives: the bytes it overwrites are never read again. -/
theorem get_array_loop_vals (libc : libc_t) (edt : Int) :
    ∀ (k : Nat) (buf buf1 : List Char) (pos i : Nat) (arr : List scalar_t),
      buf1.drop pos = buf.drop pos →
      ((get_array_loop libc edt k buf1 pos i arr).1,
        (get_array_loop libc edt k buf1 pos i arr).2.1) =
        get_array_vals libc edt buf k pos i arr := by
  intro k
  induction k with
  | zero =>
    intro buf buf1 pos i arr _
    rfl
  | succ k ih =>
    intro buf buf1 pos i arr h
    have hc := cstr_at_congr buf buf1 pos h
    rw [get_array_loop, get_array_vals]
    simp only [hc]
    split
    · rfl
    · apply ih
      have hl := get_value_text_length (cstr_at buf pos)
      have hs := store_drop_after buf1 pos (get_value_text (cstr_at buf pos))
        ((cstr_at buf pos).length + 1) (by omega)
        (by
          rcases cstr_at_length_le buf1 pos with g | g
          · left
            rw [hl, ← hc]
            exact g
          · right
            rw [← hc, g]
            rfl)
      rw [hs, ← List.drop_drop, ← List.drop_drop, h, List.drop_drop, List.drop_drop]

/-- Function `cfgcli_get_array` with the array and the return code read off the text of the
splitter. -/
theorem get_array_unfold (libc : libc_t) (par : cfgcli_param_valid_t) :
    cfgcli_get_array libc par =
      (if (cfgcli_parse_array par).1 ≠ 0 then cfgcli_parse_array par
      else
        match array_elem (cfgcli_parse_array par).2.dtype with
        | none => (CFGCLI_ERR_DTYPE, (cfgcli_parse_array par).2)
        | some (edt, zero) =>
          ((get_array_vals libc edt ((cfgcli_parse_array par).2.value.getD [])
              (cfgcli_parse_array par).2.narr 0 0
              (List.replicate (cfgcli_parse_array par).2.narr zero)).2,
            { (cfgcli_parse_array par).2 with
              value := (cfgcli_parse_array par).2.value.map (fun _ =>
                (get_array_loop libc edt (cfgcli_parse_array par).2.narr
                  ((cfgcli_parse_array par).2.value.getD []) 0 0
                  (List.replicate (cfgcli_parse_array par).2.narr zero)).2.2),
              slot := slot_t.array
                (get_array_vals libc edt ((cfgcli_parse_array par).2.value.getD [])
                  (cfgcli_parse_array par).2.narr 0 0
                  (List.replicate (cfgcli_parse_array par).2.narr zero)).1 })) := by
  unfold cfgcli_get_array
  rcases hp : cfgcli_parse_array par with ⟨err, p⟩
  dsimp only
  split
  · rfl
  · cases he : array_elem p.dtype with
    | none => rfl
    | some ez =>
      rcases ez with ⟨edt, zero⟩
      have h := get_array_loop_vals libc edt p.narr (p.value.getD []) (p.value.getD []) 0 0
        (List.replicate p.narr zero) rfl
      dsimp only
      rw [← h]

theorem space_ne_nul {c : Char} (h : isspace c = true) : c ≠ NUL := by
  intro e
  subst e
  revert h
  decide

theorem render_int_no_nul (x : Int) : NUL ∉ render_int x := by
  intro h
  rcases render_int_chars x NUL h with e | e
  · revert e
    decide
  · revert e
    decide

theorem render_int_bare (x : Int) : bare_token (render_int x) = true := by
  have key : ∀ c, (c = '-' ∨ isdigit c = true) → bare_head c = true ∧ bare_tail c = true := by
    intro c hc
    rcases hc with e | e
    · subst e
      decide
    · have ne : ∀ d : Char, isdigit d = false → c ≠ d := by
        intro d hd e2
        subst e2
        rw [e] at hd
        exact Bool.noConfusion hd
      have g : isgraph c = true := by
        simp only [isdigit, Bool.and_eq_true, decide_eq_true_eq] at e
        simp only [isgraph, Bool.and_eq_true, decide_eq_true_eq]
        omega
      have p : isprint c = true := by
        simp only [isdigit, Bool.and_eq_true, decide_eq_true_eq] at e
        simp only [isprint, Bool.and_eq_true, decide_eq_true_eq]
        omega
      simp only [bare_head, bare_tail, Bool.and_eq_true, bne_iff_ne, ne_eq, g, p, true_and]
      refine ⟨⟨⟨⟨⟨⟨?_, ?_⟩, ?_⟩, ?_⟩, ?_⟩, ?_⟩, ⟨?_, ?_⟩, ?_⟩ <;>
        (apply ne
         decide)
  have hne := render_int_ne_nil x
  have hch := render_int_chars x
  cases h : render_int x with
  | nil => exact absurd h hne
  | cons c cs =>
    rw [h] at hch
    simp only [bare_token, Bool.and_eq_true, List.all_eq_true]
    exact ⟨(key c (hch c (List.mem_cons_self _ _))).1,
      fun y hy => (key y (hch y (List.mem_cons_of_mem _ hy))).2⟩

/-- One pass of the loop of `cfgcli_get_array` on a segment that is the rendering of an
integer behind white space. -/
theorem get_array_step (libc : libc_t) (x : Int) (hlo : -(2 ^ 31) ≤ x) (hhi : x < 2 ^ 31)
    (pre sp post : List Char) (hsp : ∀ c ∈ sp, isspace c = true) (k : Nat)
    (fin : List scalar_t) (z : scalar_t) (todo : List scalar_t) (buf : List Char) (pos i : Nat)
    (hbuf : buf = pre ++ (sp ++ (render_int x ++ NUL :: post))) (hpos : pos = pre.length)
    (hi : i = fin.length) :
    get_array_vals libc CFGCLI_DTYPE_INT buf (k + 1) pos i (fin ++ z :: todo) =
      get_array_vals libc CFGCLI_DTYPE_INT buf k (pos + ((sp ++ render_int x).length + 1))
        (i + 1) (fin ++ scalar_t.int x :: todo) := by
  subst hbuf hpos hi
  have hseg : cstr_at (pre ++ (sp ++ (render_int x ++ NUL :: post))) pre.length =
      sp ++ render_int x := by
    have := cstr_at_append pre (sp ++ render_int x) post (by
      intro h
      rcases List.mem_append.1 h with h | h
      · exact space_ne_nul (hsp _ h) rfl
      · exact render_int_no_nul x h)
    rw [← this]
    simp only [List.append_assoc]
  have hset : (fin ++ z :: todo).set fin.length (scalar_t.int x) =
      fin ++ scalar_t.int x :: todo := by
    have := set_append_add fin (z :: todo) 0 (scalar_t.int x)
    rw [Nat.add_zero] at this
    rw [this]
    rfl
  have hne : (CFGCLI_DTYPE_INT = CFGCLI_DTYPE_STR) = False := by
    simp only [eq_iff_iff, iff_false]
    decide
  rw [get_array_vals]
  simp only [hseg, get_value_render_int libc sp x hsp hlo hhi, hne, ↓reduceIte, hset, ne_eq,
    not_true_eq_false]

/-- The loop of `cfgcli_get_array` on the split text of an array of integers: every
element of the allocated array receives its integer, and the code is 0. -/
theorem get_array_ints (libc : libc_t) (xs : List Int) (hxs : xs ≠ [])
    (hr : ∀ x ∈ xs, -(2 ^ 31) ≤ x ∧ x < 2 ^ 31) (pre sp : List Char)
    (hsp : ∀ c ∈ sp, isspace c = true) (fin todo : List scalar_t)
    (ht : todo.length = xs.length) :
    get_array_vals libc CFGCLI_DTYPE_INT (pre ++ (sp ++ (join_split (xs.map render_int) ++ [NUL])))
      xs.length pre.length fin.length (fin ++ todo) = (fin ++ xs.map scalar_t.int, 0) := by
  induction xs generalizing pre sp fin todo with
  | nil => exact absurd rfl hxs
  | cons x ys ih =>
    obtain ⟨hlo, hhi⟩ := hr x (List.mem_cons_self _ _)
    cases todo with
    | nil => simp at ht
    | cons z todo =>
      simp only [List.length_cons, Nat.add_right_cancel_iff] at ht
      cases ys with
      | nil =>
        simp only [List.map_cons, List.map_nil, join_split, List.length_singleton]
        rw [get_array_step libc x hlo hhi pre sp [] hsp 0 fin z todo _ _ _ rfl rfl rfl]
        have : todo = [] := List.length_eq_zero.1 ht
        subst this
        rfl
      | cons y rest =>
        have hj : join_split ((x :: y :: rest).map render_int) =
            render_int x ++ NUL :: ' ' :: join_split ((y :: rest).map render_int) := rfl
        rw [hj]
        simp only [List.length_cons] at ht ⊢
        rw [get_array_step libc x hlo hhi pre sp
          (' ' :: join_split ((y :: rest).map render_int) ++ [NUL]) hsp _ fin z todo _ _ _
          (by simp) rfl rfl]
        have := ih (by simp) (fun a ha => hr a (List.mem_cons_of_mem _ ha))
          (pre ++ (sp ++ render_int x) ++ [NUL]) [' ']
          (by
            intro c hc
            rw [List.mem_singleton.1 hc]
            decide)
          (fin ++ [scalar_t.int x]) todo (by simpa using ht)
        have e1 : pre ++ (sp ++ (render_int x ++ NUL :: ' ' ::
            join_split ((y :: rest).map render_int) ++ [NUL])) =
            pre ++ (sp ++ render_int x) ++ [NUL] ++
              ([' '] ++ (join_split ((y :: rest).map render_int) ++ [NUL])) := by
          simp
        have e2 : (pre ++ (sp ++ render_int x) ++ [NUL]).length =
            pre.length + ((sp ++ render_int x).length + 1) := by
          simp only [List.length_append, List.length_singleton]
          omega
        have e3 : (fin ++ [scalar_t.int x]).length = fin.length + 1 := by simp
        have e4 : fin ++ [scalar_t.int x] ++ todo = fin ++ scalar_t.int x :: todo := by simp
        rw [e2, e3, e4] at this
        simp only [List.length_cons] at this
        rw [e1, this]
        simp

/-- The lexer on a whole entry `name = [t1, ..., tn]` of bare elements: it returns `DONE`,
the keyword at index 0 and the value at the opening bracket; the only byte it changes is
the blank behind the keyword, which becomes a NUL. -/
theorem parse_line_array (name : List Char) (ts : List (List Char))
    (hn : name_grammar name = true) (hts : ts ≠ []) (hb : ∀ t ∈ ts, bare_token t = true) :
    cfgcli_parse_line (name ++ ' ' :: '=' :: ' ' :: array_text ts) 0
      (name ++ ' ' :: '=' :: ' ' :: array_text ts).length none none START =
      run_t.ret (DONE, name ++ NUL :: '=' :: ' ' :: array_text ts, some 0,
        some (name.length + 3)) := by
  have hlen : (name ++ ' ' :: '=' :: ' ' :: array_text ts).length =
      name.length + 3 + (array_text ts).length := by
    simp only [List.length_append, List.length_cons]
    omega
  have hne : (name ++ ' ' :: '=' :: ' ' :: array_text ts).getD 0 NUL ≠ NUL := by
    cases name with
    | nil => simp [name_grammar] at hn
    | cons c cs =>
      simp only [List.cons_append, List.getD_cons_zero]
      exact name_head_ne_NUL (name_grammar_cons c cs hn).1
  unfold cfgcli_parse_line
  have hcond : ((name ++ ' ' :: '=' :: ' ' :: array_text ts).getD 0 NUL == NUL ||
      (name ++ ' ' :: '=' :: ' ' :: array_text ts).length == 0) = false := by
    simp only [Bool.or_eq_false_iff, beq_eq_false_iff_ne, ne_eq]
    refine ⟨hne, ?_⟩
    rw [hlen]
    omega
  rw [hcond]
  simp only [Bool.false_eq_true, ↓reduceIte]
  rw [hlen]
  have hal : (array_text ts).length = (join_elems ts).length + 2 := by simp [array_text]
  have hf : 2 * (name.length + 3 + (array_text ts).length) + 1 =
      (((name.length + 3 + (array_text ts).length) + ((join_elems ts).length + 2)) + 1) +
        (name.length + 3) := by
    rw [hal]
    omega
  rw [hf, lex_entry_head name (array_text ts) hn]
  have hget : (name ++ NUL :: '=' :: ' ' :: array_text ts).getD (name.length + 3) NUL = '[' := by
    have e : name ++ NUL :: '=' :: ' ' :: array_text ts =
        (name ++ [NUL, '=', ' ']) ++ array_text ts := by simp
    have e2 : name.length + 3 = (name ++ [NUL, '=', ' ']).length + 0 := by simp
    rw [e, e2, getD_append_right_add]
    rfl
  rw [loop_go0 _ _
    { line := name ++ NUL :: '=' :: ' ' :: array_text ts, key := some 0,
      value := some (name.length + 3), state := ARRAY_START, quote := NUL, newline := none }
    _ _ (by rw [hal]; omega)
    (by
      unfold lex_body
      simp only [hget]
      have c1 : ('[' == '"' || '[' == '\'') = false := by decide
      have c2 : ('[' == CFGCLI_SYM_ARRAY_START) = true := by decide
      simp only [c1, c2, Bool.false_eq_true, ↓reduceIte])]
  have h := lex_array_elems ts hts hb (name ++ [NUL, '=', ' ', '['])
    (name.length + 3 + (array_text ts).length) (some 0) (some (name.length + 3)) none NUL
  have e3 : name ++ [NUL, '=', ' ', '['] ++ (join_elems ts ++ [']']) =
      name ++ NUL :: '=' :: ' ' :: array_text ts := by simp [array_text]
  have e4 : (name ++ [NUL, '=', ' ', '[']).length = name.length + 3 + 1 := by simp
  have e5 : name.length + 3 + 1 + ((join_elems ts).length + 1) =
      name.length + 3 + (array_text ts).length := by
    rw [hal]
    omega
  rw [e3, e4, e5] at h
  rw [h]

theorem bare_token_no_nul (t : List Char) (h : bare_token t = true) : NUL ∉ t := by
  cases t with
  | nil => simp
  | cons c cs =>
    obtain ⟨hc, hcs⟩ := bare_token_cons c cs h
    intro hm
    rcases List.mem_cons.1 hm with e | e
    · rw [← e] at hc
      revert hc
      decide
    · have := hcs NUL e
      revert this
      decide

theorem join_elems_no_nul (ts : List (List Char)) (h : ∀ t ∈ ts, NUL ∉ t) :
    NUL ∉ join_elems ts := by
  induction ts with
  | nil => simp [join_elems]
  | cons t us ih =>
    cases us with
    | nil => exact h t (List.mem_cons_self _ _)
    | cons u rest =>
      have hj : join_elems (t :: u :: rest) = t ++ ',' :: ' ' :: join_elems (u :: rest) := rfl
      rw [hj]
      intro hm
      rcases List.mem_append.1 hm with e | e
      · exact h t (List.mem_cons_self _ _) e
      · rcases List.mem_cons.1 e with e | e
        · revert e
          decide
        · rcases List.mem_cons.1 e with e | e
          · revert e
            decide
          · exact ih (fun x hx => h x (List.mem_cons_of_mem _ hx)) e

/-- The call `cfgcli_get` for an integer-array parameter whose value text is
`[a1, ..., an]`: `n` segments, and the array of the `n` integers. -/
theorem get_int_array (libc : libc_t) (cfg : cfgcli_t) (par : cfgcli_param_valid_t)
    (xs : List Int) (src : Int) (hc : CFGCLI_IS_ERROR cfg = false)
    (hd : par.dtype = CFGCLI_ARRAY_INT) (hxs : xs ≠ [])
    (hr : ∀ x ∈ xs, -(2 ^ 31) ≤ x ∧ x < 2 ^ 31)
    (hv : par.value = some (array_text (xs.map render_int)))
    (hl : par.vlen = (array_text (xs.map render_int)).length + 1) :
    ∃ V, cfgcli_get libc cfg par src =
      (0, cfg, { par with narr := xs.length,
                          value := V,
                          slot := slot_t.array (xs.map scalar_t.int) }) := by
  have hts : xs.map render_int ≠ [] := by
    intro h
    exact hxs (List.map_eq_nil_iff.1 h)
  have hb : ∀ t ∈ xs.map render_int, bare_token t = true := by
    intro t ht
    obtain ⟨x, _, rfl⟩ := List.mem_map.1 ht
    exact render_int_bare x
  have hpa := parse_array_bare (xs.map render_int) hts hb par hv hl
  rw [List.length_map] at hpa
  have hloop := get_array_ints libc xs hxs hr [] [] (by simp) []
    (List.replicate xs.length (scalar_t.int 0)) (by simp)
  simp only [List.nil_append, List.length_nil] at hloop
  have hga : ∃ V, cfgcli_get_array libc par =
      (0, { par with narr := xs.length,
                     value := V,
                     slot := slot_t.array (xs.map scalar_t.int) }) := by
    rw [get_array_unfold, hpa]
    simp only [ne_eq, not_true_eq_false, ↓reduceIte, hd]
    have : array_elem CFGCLI_ARRAY_INT = some (CFGCLI_DTYPE_INT, scalar_t.int 0) := by decide
    rw [this]
    simp only [Option.getD_some, hloop]
    exact ⟨_, rfl⟩
  obtain ⟨V, hga⟩ := hga
  refine ⟨V, ?_⟩
  unfold cfgcli_get
  have h0 : (char_at (array_text (xs.map render_int)) 0 == NUL) = false := by
    simp only [array_text, char_at, List.getD_cons_zero]
    decide
  have h1 : CFGCLI_DTYPE_IS_ARRAY CFGCLI_ARRAY_INT = true := by decide
  simp only [hc, Bool.false_eq_true, ↓reduceIte, hv, h0, hd, h1, hga]

/-- C3 (integer-array round trip): for every keyword `name` of the identifier grammar and
every non-empty list `xs` of integers in the range of `int`, the line
`name = [a1, a2, ..., an]` written with the decimal renderings of `xs` is lexed as done
with the keyword `name` and the value `[a1, ..., an]`; that value, read for an
integer-array parameter of a registry without error, is split into `n` segments (code 0)
and coerced (code 0) to the array of length `n` whose elements are the integers `xs` in
their order. -/
theorem int_array_round_trip (libc : libc_t) (cfg : cfgcli_t) (par : cfgcli_param_valid_t)
    (name : List Char) (xs : List Int) (src : Int) (hn : name_grammar name = true)
    (hc : CFGCLI_IS_ERROR cfg = false) (hd : par.dtype = CFGCLI_ARRAY_INT) (hxs : xs ≠ [])
    (hr : ∀ x ∈ xs, -(2 ^ 31) ≤ x ∧ x < 2 ^ 31) :
    ∃ buf val p1,
      cfgcli_parse_line (name ++ ' ' :: '=' :: ' ' :: array_text (xs.map render_int)) 0
        (name ++ ' ' :: '=' :: ' ' :: array_text (xs.map render_int)).length none none START =
        run_t.ret (DONE, buf, some 0, some (name.length + 3)) ∧
      cstr_at buf 0 = name ∧ cstr_at buf (name.length + 3) = val ∧
      val = array_text (xs.map render_int) ∧
      (cfgcli_parse_array { par with value := some val, vlen := val.length + 1 }).1 = 0 ∧
      (cfgcli_parse_array { par with value := some val, vlen := val.length + 1 }).2.narr =
        xs.length ∧
      cfgcli_get libc cfg { par with value := some val, vlen := val.length + 1 } src =
        (0, cfg, p1) ∧
      p1.narr = xs.length ∧ p1.slot = slot_t.array (xs.map scalar_t.int) := by
  have hts : xs.map render_int ≠ [] := by
    intro h
    exact hxs (List.map_eq_nil_iff.1 h)
  have hb : ∀ t ∈ xs.map render_int, bare_token t = true := by
    intro t ht
    obtain ⟨x, _, rfl⟩ := List.mem_map.1 ht
    exact render_int_bare x
  have hval : cstr_at (name ++ NUL :: '=' :: ' ' :: array_text (xs.map render_int))
      (name.length + 3) = array_text (xs.map render_int) := by
    have hline : name ++ NUL :: '=' :: ' ' :: array_text (xs.map render_int) =
        (name ++ [NUL, '=', ' ']) ++ array_text (xs.map render_int) := by simp
    have hpre : name.length + 3 = (name ++ [NUL, '=', ' ']).length := by simp
    rw [hline, hpre]
    apply cstr_at_end
    intro hm
    simp only [array_text, List.mem_cons, List.mem_append, List.mem_singleton] at hm
    rcases hm with e | e | e
    · revert e
      decide
    · exact join_elems_no_nul _ (fun t ht => bare_token_no_nul t (hb t ht)) e
    · revert e
      decide
  have hpa := parse_array_bare (xs.map render_int) hts hb
    { par with value := some (array_text (xs.map render_int)),
               vlen := (array_text (xs.map render_int)).length + 1 } rfl rfl
  obtain ⟨V, hg⟩ := get_int_array libc cfg
    { par with value := some (array_text (xs.map render_int)),
               vlen := (array_text (xs.map render_int)).length + 1 } xs src hc hd hxs hr rfl rfl
  refine ⟨_, _, _, parse_line_array name _ hn hts hb, cstr_at_zero name _
    (name_grammar_no_NUL name hn), hval, rfl, ?_, ?_, hg, rfl, rfl⟩
  · rw [hpa]
  · rw [hpa, List.length_map]

/-- Witness of C3: the line `INT_ARR = [1, -2, 3]` read for the integer-array parameter
`INT_ARR` of the example registry. -/
theorem int_array_round_trip_witness :
    (name_grammar "INT_ARR".toList = true ∧ CFGCLI_IS_ERROR ex_cfg = false ∧
      (ex_cfg.params.getD 1 param_zero).dtype = CFGCLI_ARRAY_INT ∧
      ([1, -2, 3] : List Int) ≠ [] ∧
      ∀ x ∈ ([1, -2, 3] : List Int), -(2 ^ 31) ≤ x ∧ x < 2 ^ 31) ∧
    ∃ buf val p1,
      cfgcli_parse_line
        ("INT_ARR".toList ++ ' ' :: '=' :: ' ' :: array_text ([1, -2, 3].map render_int)) 0
        ("INT_ARR".toList ++ ' ' :: '=' :: ' ' ::
          array_text ([1, -2, 3].map render_int)).length none none START =
        run_t.ret (DONE, buf, some 0, some ("INT_ARR".toList.length + 3)) ∧
      cstr_at buf 0 = "INT_ARR".toList ∧ cstr_at buf ("INT_ARR".toList.length + 3) = val ∧
      val = array_text ([1, -2, 3].map render_int) ∧
      (cfgcli_parse_array { ex_cfg.params.getD 1 param_zero with
        value := some val, vlen := val.length + 1 }).1 = 0 ∧
      (cfgcli_parse_array { ex_cfg.params.getD 1 param_zero with
        value := some val, vlen := val.length + 1 }).2.narr = [1, -2, 3].length ∧
      cfgcli_get ex_libc ex_cfg { ex_cfg.params.getD 1 param_zero with
        value := some val, vlen := val.length + 1 } 1 = (0, ex_cfg, p1) ∧
      p1.narr = [1, -2, 3].length ∧
      p1.slot = slot_t.array ([1, -2, 3].map scalar_t.int) :=
  ⟨⟨by decide, by decide, by decide, by decide, by decide⟩,
   int_array_round_trip ex_libc ex_cfg (ex_cfg.params.getD 1 param_zero) "INT_ARR".toList
     [1, -2, 3] 1 (by decide) (by decide) (by decide) (by decide) (by decide)⟩

/-! ## The lexer only touches its line

The scanning loop reads and writes the buffer at indices below the end of the line, so
whatever stands in the buffer behind the line is kept as it is and does not change the
result. -/

/-- One pass of the scanning loop at an index inside the buffer `L`, when the buffer is
longer: same step, and the bytes behind `L` stay. -/
theorem lex_body_frame (L R : List Char) (k v nl : Option Nat) (st : cfgcli_parse_state_t)
    (q : Char) (a : Nat) (ha : a < L.length) (hnl : ∀ x, nl = some x → x < L.length) :
    (∀ s1 b, lex_body { line := L, key := k, value := v, state := st, quote := q,
                        newline := nl } a = lex_step_t.go s1 b →
      lex_body { line := L ++ R, key := k, value := v, state := st, quote := q,
                 newline := nl } a = lex_step_t.go { s1 with line := s1.line ++ R } b ∧
      s1.line.length = L.length ∧ (∀ x, s1.newline = some x → x < L.length)) ∧
    (∀ r s1, lex_body { line := L, key := k, value := v, state := st, quote := q,
                        newline := nl } a = lex_step_t.stop r s1 →
      lex_body { line := L ++ R, key := k, value := v, state := st, quote := q,
                 newline := nl } a = lex_step_t.stop r { s1 with line := s1.line ++ R } ∧
      s1.line.length = L.length) := by
  have hget : (L ++ R).getD a NUL = L.getD a NUL := List.getD_append L R NUL a ha
  have hset : ∀ c, (L ++ R).set a c = L.set a c ++ R := fun c => List.set_append_left a c ha
  constructor
  · intro s1 b h
    cases st <;> simp only [lex_body, hget] at h ⊢ <;>
      (repeat' split at h) <;>
      first
        | (exact lex_step_t.noConfusion h)
        | (obtain ⟨rfl, rfl⟩ := lex_step_t.go.inj h
           simp_all [poke, List.length_set, List.set_append_left]
           try assumption)
  · intro r s1 h
    cases st <;> simp only [lex_body, hget] at h ⊢ <;>
      (repeat' split at h) <;>
      first
        | (exact lex_step_t.noConfusion h)
        | (obtain ⟨rfl, rfl⟩ := lex_step_t.stop.inj h
           simp_all [poke, List.length_set, List.set_append_left]
           try assumption)

/-- The check of the final status, when the buffer is longer. -/
theorem lex_final_frame (L R : List Char) (k v nl : Option Nat) (st : cfgcli_parse_state_t)
    (q : Char) (hnl : ∀ x, nl = some x → x < L.length) (r : cfgcli_parse_return_t)
    (s1 : lex_t)
    (h : lex_final { line := L, key := k, value := v, state := st, quote := q,
                     newline := nl } = run_t.ret (r, s1)) :
    lex_final { line := L ++ R, key := k, value := v, state := st, quote := q,
                newline := nl } = run_t.ret (r, { s1 with line := s1.line ++ R }) ∧
    s1.line.length = L.length := by
  cases st <;> simp only [lex_final] at h ⊢ <;>
    (repeat' split at h) <;>
    first
      | (exact run_t.noConfusion h)
      | (obtain ⟨rfl, rfl⟩ := Prod.mk.inj (run_t.ret.inj h)
         simp_all [poke, List.length_set, List.set_append_left]
         try assumption)

/-- The scanning loop on a line that lies inside the buffer `L`, when the buffer is longer:
same result, and the bytes behind `L` stay. -/
theorem loop_frame (R : List Char) (p len : Nat) :
    ∀ (fuel : Nat) (L : List Char) (k v nl : Option Nat) (st : cfgcli_parse_state_t)
      (q : Char) (i : Nat), p + len ≤ L.length → (∀ x, nl = some x → x < L.length) →
      ∀ (r : cfgcli_parse_return_t) (s1 : lex_t),
        parse_line_loop fuel { line := L, key := k, value := v, state := st, quote := q,
                               newline := nl } p len i = run_t.ret (r, s1) →
        parse_line_loop fuel { line := L ++ R, key := k, value := v, state := st, quote := q,
                               newline := nl } p len i =
          run_t.ret (r, { s1 with line := s1.line ++ R }) ∧
        s1.line.length = L.length := by
  intro fuel
  induction fuel with
  | zero =>
    intro L k v nl st q i _ _ r s1 h
    exact run_t.noConfusion h
  | succ fuel ih =>
    intro L k v nl st q i hlen hnl r s1 h
    unfold parse_line_loop at h ⊢
    by_cases hi : i < len
    · simp only [hi, ↓reduceIte] at h ⊢
      have hf := lex_body_frame L R k v nl st q (p + i) (by omega) hnl
      cases hb : lex_body { line := L, key := k, value := v, state := st, quote := q,
                            newline := nl } (p + i) with
      | go s2 b =>
        obtain ⟨h1, h2, h3⟩ := hf.1 s2 b hb
        rw [hb] at h
        rw [h1]
        simp only at h ⊢
        obtain ⟨L2, k2, v2, st2, q2, nl2⟩ := s2
        simp only at h2 h3
        have := ih L2 k2 v2 nl2 st2 q2 (if b = true then i else i + 1) (by omega)
          (fun x hx => by rw [h2]; exact h3 x hx) r s1 h
        exact ⟨this.1, this.2.trans h2⟩
      | stop r2 s2 =>
        obtain ⟨h1, h2⟩ := hf.2 r2 s2 hb
        rw [hb] at h
        rw [h1]
        simp only at h ⊢
        obtain ⟨rfl, rfl⟩ := Prod.mk.inj (run_t.ret.inj h)
        exact ⟨rfl, h2⟩
      | crash =>
        rw [hb] at h
        exact run_t.noConfusion h
    · simp only [hi, ↓reduceIte] at h ⊢
      exact lex_final_frame L R k v nl st q hnl r s1 h

/-- Function `cfgcli_parse_line` on a line that lies inside the buffer `L`, when the
buffer is longer: same status and pointers, and the bytes behind `L` stay. -/
theorem parse_line_frame (L R : List Char) (p len : Nat) (k v : Option Nat)
    (st : cfgcli_parse_state_t) (hlen : p + len ≤ L.length) (r : cfgcli_parse_return_t)
    (L1 : List Char) (k1 v1 : Option Nat)
    (h : cfgcli_parse_line L p len k v st = run_t.ret (r, L1, k1, v1)) :
    cfgcli_parse_line (L ++ R) p len k v st = run_t.ret (r, L1 ++ R, k1, v1) ∧
    L1.length = L.length := by
  unfold cfgcli_parse_line at h ⊢
  by_cases h0 : len = 0
  · subst h0
    simp only [beq_self_eq_true, Bool.or_true, ↓reduceIte] at h ⊢
    simp only [run_t.ret.injEq, Prod.mk.injEq] at h ⊢
    obtain ⟨h1, h2, h3, h4⟩ := h
    subst h1 h2 h3 h4
    exact ⟨⟨rfl, rfl, rfl, rfl⟩, rfl⟩
  · have hp : p < L.length := by omega
    have hget : (L ++ R).getD p NUL = L.getD p NUL := List.getD_append L R NUL p hp
    rw [hget]
    have hl : (len == 0) = false := by simp [h0]
    rw [hl] at h ⊢
    by_cases hc : (L.getD p NUL == NUL) = true
    · simp only [hc, Bool.or_false, ↓reduceIte] at h ⊢
      simp only [run_t.ret.injEq, Prod.mk.injEq] at h ⊢
      obtain ⟨h1, h2, h3, h4⟩ := h
      subst h1 h2 h3 h4
      exact ⟨⟨rfl, rfl, rfl, rfl⟩, rfl⟩
    · simp only [hc, Bool.or_false, Bool.false_eq_true, ↓reduceIte] at h ⊢
      cases hr : parse_line_loop (2 * len + 1)
          { line := L, key := k, value := v, state := st, quote := NUL, newline := none }
          p len 0 with
      | ret x =>
        obtain ⟨r2, s2⟩ := x
        have := loop_frame R p len (2 * len + 1) L k v none st NUL 0 hlen
          (fun x hx => Option.noConfusion hx) r2 s2 hr
        rw [hr] at h
        rw [this.1]
        simp only [run_t.ret.injEq, Prod.mk.injEq] at h ⊢
        obtain ⟨h1, h2, h3, h4⟩ := h
        subst h1 h2 h3 h4
        exact ⟨⟨rfl, rfl, rfl, rfl⟩, this.2⟩
      | undef =>
        rw [hr] at h
        exact run_t.noConfusion h
      | nofuel =>
        rw [hr] at h
        exact run_t.noConfusion h

/-! ## What `cfgcli_get` stores depends on the type and the value text only -/

theorem assign_value_none (libc : libc_t) (t : List Char) (d : Int)
    (h : (assign_value libc t d).1 = none) : (assign_value libc t d).2 ≠ 0 := by
  have key : ∀ r, r = assign_value libc t d → r.1 = none → r.2 ≠ 0 := by
    intro r hr
    unfold assign_value at hr
    repeat' split at hr
    all_goals
      subst hr
      first
        | (intro h1
           exact Option.noConfusion h1)
        | (intro _
           decide)
  exact key _ rfl h

theorem get_value_none (libc : libc_t) (s : List Char) (d : Int)
    (h : (cfgcli_get_value libc s d).1 = none) : (cfgcli_get_value libc s d).2 ≠ 0 := by
  have key : ∀ r, r = cfgcli_get_value libc s d → r.1 = none → r.2 ≠ 0 := by
    intro r hr
    unfold cfgcli_get_value at hr
    dsimp only at hr
    repeat' split at hr
    all_goals
      subst hr
      first
        | (intro _
           decide)
        | exact assign_value_none libc _ d
  exact key _ rfl h

/-- The splitter reads the value text and its length only, and writes `narr` and the value
text only. -/
theorem parse_array_congr (par : cfgcli_param_valid_t) :
    cfgcli_parse_array par =
      ((cfgcli_parse_array { param_zero with value := par.value, vlen := par.vlen }).1,
       { par with
         narr := (cfgcli_parse_array
           { param_zero with value := par.value, vlen := par.vlen }).2.narr,
         value := (cfgcli_parse_array
           { param_zero with value := par.value, vlen := par.vlen }).2.value }) := by
  unfold cfgcli_parse_array
  cases hv : par.value with
  | none => rfl
  | some v =>
    by_cases h0 : par.vlen = 0
    · simp only [h0, ↓reduceIte]
    · simp only [h0, ↓reduceIte]
      cases parse_array_loop par.vlen
          { value := v, n := 0, state := START, quote := NUL, start := none, endp := none }
          0 with
      | go s => rfl
      | stop code narr =>
        cases narr with
        | none => rfl
        | some m => rfl

/-- The array reader stores the same result whatever the other fields of the entry are. -/
theorem get_array_congr (libc : libc_t) (par : cfgcli_param_valid_t)
    (h : (cfgcli_get_array libc
      { param_zero with dtype := par.dtype, value := par.value, vlen := par.vlen }).1 = 0) :
    cfgcli_get_array libc par =
      (0, { par with
        narr := (cfgcli_get_array libc
          { param_zero with dtype := par.dtype, value := par.value, vlen := par.vlen }).2.narr,
        value := (cfgcli_get_array libc
          { param_zero with dtype := par.dtype, value := par.value, vlen := par.vlen }).2.value,
        slot := (cfgcli_get_array libc
          { param_zero with dtype := par.dtype, value := par.value, vlen := par.vlen }).2.slot
        }) := by
  have e1 := parse_array_congr par
  have e2 := parse_array_congr
    { param_zero with dtype := par.dtype, value := par.value, vlen := par.vlen }
  simp only at e2
  generalize cfgcli_parse_array { param_zero with value := par.value, vlen := par.vlen } = X
    at e1 e2
  obtain ⟨c, q⟩ := X
  simp only at e1 e2
  unfold cfgcli_get_array at h ⊢
  rw [e2] at h ⊢
  rw [e1]
  simp only at h ⊢
  by_cases hc : c = 0
  · subst hc
    simp only [ne_eq, not_true_eq_false, ↓reduceIte] at h ⊢
    cases he : array_elem par.dtype with
    | none =>
      rw [he] at h
      simp only at h
      exact absurd h (by decide)
    | some ez =>
      obtain ⟨edt, zero⟩ := ez
      rw [he] at h
      simp only [Option.getD] at h ⊢
      simp only [h]
  · simp only [ne_eq, hc, not_false_eq_true, ↓reduceIte] at h

theorem head_not_nul (v : List Char) (hv : v ≠ []) (hnul : NUL ∉ v) :
    (char_at v 0 == NUL) = false := by
  cases v with
  | nil => exact absurd rfl hv
  | cons c cs =>
    simp only [char_at, List.getD_cons_zero, beq_eq_false_iff_ne, ne_eq]
    intro e
    exact hnul (e ▸ List.mem_cons_self _ _)

/-- The call `cfgcli_get` for an array type: its code is that of `cfgcli_get_array`, and
when the code is 0 the registry is as it was. -/
theorem get_array_case (libc : libc_t) (cfg : cfgcli_t) (par : cfgcli_param_valid_t)
    (v : List Char) (src : Int) (hc : CFGCLI_IS_ERROR cfg = false) (hv : par.value = some v)
    (h0 : (char_at v 0 == NUL) = false) (ha : CFGCLI_DTYPE_IS_ARRAY par.dtype = true) :
    (cfgcli_get libc cfg par src).1 = (cfgcli_get_array libc par).1 ∧
    ((cfgcli_get_array libc par).1 = 0 →
      cfgcli_get libc cfg par src = (0, cfg, (cfgcli_get_array libc par).2)) := by
  unfold cfgcli_get
  simp only [hc, Bool.false_eq_true, ↓reduceIte, hv, h0, ha]
  generalize cfgcli_get_array libc par = R
  obtain ⟨e, q⟩ := R
  by_cases he : e = 0
  · simp only [he, ↓reduceIte, true_and, implies_true]
  · simp only [he, ↓reduceIte, true_and, false_implies]

/-- The call `cfgcli_get` for a scalar type: its code is that of `cfgcli_get_value`, and
when the code is 0 the registry is as it was and the value is stored. -/
theorem get_scalar_case (libc : libc_t) (cfg : cfgcli_t) (par : cfgcli_param_valid_t)
    (v : List Char) (src : Int) (hc : CFGCLI_IS_ERROR cfg = false) (hv : par.value = some v)
    (h0 : (char_at v 0 == NUL) = false) (ha : CFGCLI_DTYPE_IS_ARRAY par.dtype = false) :
    (cfgcli_get libc cfg par src).1 = (cfgcli_get_value libc v par.dtype).2 ∧
    ((cfgcli_get_value libc v par.dtype).2 = 0 →
      ∃ x, (cfgcli_get_value libc v par.dtype).1 = some x ∧
        cfgcli_get libc cfg par src =
          (0, cfg, { par with value := some (get_value_text v), slot := slot_t.scalar x })) := by
  have hn := get_value_none libc v par.dtype
  unfold cfgcli_get
  simp only [hc, Bool.false_eq_true, ↓reduceIte, hv, h0, ha]
  by_cases hs : par.dtype = CFGCLI_DTYPE_STR
  · simp only [hs, ↓reduceIte] at hn ⊢
    generalize cfgcli_get_value libc v CFGCLI_DTYPE_STR = G at hn
    obtain ⟨o, e⟩ := G
    simp only at hn ⊢
    by_cases he : e = 0
    · subst he
      cases o with
      | none => exact absurd rfl (hn rfl)
      | some x =>
        simp only [↓reduceIte, true_and, forall_const]
        exact ⟨x, rfl, rfl⟩
    · simp only [he, ↓reduceIte, true_and, false_implies]
  · simp only [hs, ↓reduceIte] at hn ⊢
    generalize cfgcli_get_value libc v par.dtype = G at hn
    obtain ⟨o, e⟩ := G
    simp only at hn ⊢
    by_cases he : e = 0
    · subst he
      cases o with
      | none => exact absurd rfl (hn rfl)
      | some x =>
        simp only [↓reduceIte, true_and, forall_const]
        exact ⟨x, rfl, rfl⟩
    · simp only [he, ↓reduceIte, true_and, false_implies]

/-- The call `cfgcli_get` for a non-empty value text `v` that is coerced with code 0, on a
registry without error: the code is 0, the registry is as it was, and the entry changes in
`narr`, in the value text and in what is stored, which is the coercion of `v`. -/
theorem get_ok (libc : libc_t) (cfg : cfgcli_t) (par : cfgcli_param_valid_t) (v : List Char)
    (src : Int) (hc : CFGCLI_IS_ERROR cfg = false) (hv : v ≠ [])
    (hnul : NUL ∉ v) (hk : (coerce libc par.dtype v).1 = 0) :
    ∃ N V, cfgcli_get libc cfg { par with value := some v, vlen := v.length + 1 } src =
      (0, cfg, { par with narr := N, value := V, vlen := v.length + 1,
                          slot := (coerce libc par.dtype v).2 }) := by
  have h0 := head_not_nul v hv hnul
  have hi : CFGCLI_IS_ERROR cfgcli_init = false := by decide
  unfold coerce at hk ⊢
  simp only at hk ⊢
  by_cases ha : CFGCLI_DTYPE_IS_ARRAY par.dtype = true
  · have a0 := get_array_case libc cfgcli_init
      { param_zero with dtype := par.dtype, value := some v, vlen := v.length + 1 } v 0 hi rfl
      h0 ha
    have a1 := get_array_case libc cfg { par with value := some v, vlen := v.length + 1 } v
      src hc rfl h0 ha
    rw [a0.1] at hk
    have c1 := get_array_congr libc { par with value := some v, vlen := v.length + 1 } hk
    rw [a0.2 hk]
    rw [a1.2 (by rw [c1])]
    rw [c1]
    exact ⟨_, _, rfl⟩
  · have ha2 : CFGCLI_DTYPE_IS_ARRAY par.dtype = false := by simpa using ha
    have a0 := get_scalar_case libc cfgcli_init
      { param_zero with dtype := par.dtype, value := some v, vlen := v.length + 1 } v 0 hi rfl
      h0 ha2
    have a1 := get_scalar_case libc cfg { par with value := some v, vlen := v.length + 1 } v
      src hc rfl h0 ha2
    rw [a0.1] at hk
    obtain ⟨x, hx, e0⟩ := a0.2 hk
    obtain ⟨y, hy, e1⟩ := a1.2 hk
    simp only at hx hy
    rw [hx] at hy
    obtain rfl := Option.some.inj hy
    rw [e0, e1]
    exact ⟨_, _, rfl⟩

/-! ## Looking entries up in a registry whose entry `j` was written by a pass -/

theorem first_index_map {α : Type} (p q : α → Bool) (l m : List α)
    (h : l.map p = m.map q) : first_index p l = first_index q m := by
  induction l generalizing m with
  | nil =>
    cases m with
    | nil => rfl
    | cons y ys => simp at h
  | cons x xs ih =>
    cases m with
    | nil => simp at h
    | cons y ys =>
      simp only [List.map_cons, List.cons.injEq] at h
      simp only [first_index, h.1, ih ys h.2]

theorem map_take_set {α : Type} (p : α → Bool) (l : List α) (j n : Nat) (x d : α)
    (h : p x = p (l.getD j d)) : ((l.set j x).take n).map p = (l.take n).map p := by
  induction l generalizing j n with
  | nil => rfl
  | cons y ys ih =>
    cases n with
    | zero => rfl
    | succ n =>
      cases j with
      | zero =>
        simp only [List.set_cons_zero, List.take_succ_cons, List.map_cons, List.cons.injEq,
          and_true]
        simpa using h
      | succ j =>
        simp only [List.set_cons_succ, List.take_succ_cons, List.map_cons, List.cons.injEq,
          true_and]
        exact ih j n (by simpa using h)

theorem first_index_take_set {α : Type} (p : α → Bool) (l : List α) (j n : Nat) (x d : α)
    (h : p x = p (l.getD j d)) :
    first_index p ((l.set j x).take n) = first_index p (l.take n) :=
  first_index_map p p _ _ (map_take_set p l j n x d h)

theorem first_index_lt {α : Type} (p : α → Bool) (l : List α) (j : Nat)
    (h : first_index p l = some j) : j < l.length := by
  induction l generalizing j with
  | nil => simp [first_index] at h
  | cons x xs ih =>
    simp only [first_index] at h
    split at h
    · obtain rfl := Option.some.inj h
      simp
    · cases hx : first_index p xs with
      | none => simp [hx] at h
      | some k =>
        simp only [hx, Option.map_some', Option.some.injEq] at h
        subst h
        simp only [List.length_cons, Nat.add_lt_add_iff_right]
        exact ih k hx

theorem find_of_first_index {α : Type} (p : α → Bool) (l : List α) (j : Nat) (d : α)
    (h : first_index p l = some j) : l.find? p = some (l.getD j d) := by
  induction l generalizing j with
  | nil => simp [first_index] at h
  | cons x xs ih =>
    simp only [first_index] at h
    by_cases hx : p x = true
    · simp only [hx, ↓reduceIte, Option.some.injEq] at h
      subst h
      simp [List.find?, hx]
    · simp only [hx, Bool.false_eq_true, ↓reduceIte] at h
      cases hk : first_index p xs with
      | none => simp [hk] at h
      | some k =>
        simp only [hk, Option.map_some', Option.some.injEq] at h
        subst h
        have hx2 : p x = false := by simpa using hx
        simp only [List.find?, hx2, List.getD_cons_succ]
        exact ih k hk

theorem getD_take_of_lt {α : Type} (l : List α) (j n : Nat) (d : α) (h : j < n) :
    (l.take n).getD j d = l.getD j d := by
  simp [List.getD_eq_getElem?_getD, List.getElem?_take, h]

theorem getD_set_self {α : Type} (l : List α) (j : Nat) (x d : α) (h : j < l.length) :
    (l.set j x).getD j d = x := by
  simp [List.getD_eq_getElem?_getD, List.getElem?_set_self, h]

/-- The facts that `designates` packs. -/
theorem designates_unpack (cfg : cfgcli_t) (j : Nat) (name lopt : List Char)
    (h : designates cfg j name lopt = true) :
    CFGCLI_IS_ERROR cfg = false ∧ j < cfg.npar ∧ cfg.npar ≤ cfg.params.length ∧
    name_grammar name = true ∧ lopt_grammar lopt = true ∧
    find_param cfg name = some j ∧
    find_opt cfg ('-' :: '-' :: lopt) = opt_status_t.is_param j ∧
    (cfg.params.getD j param_zero).name = some name ∧
    (cfg.params.getD j param_zero).var ≠ 0 ∧
    first_index (fun (p : cfgcli_param_valid_t) =>
      p.var == (cfg.params.getD j param_zero).var) (cfg.params.take cfg.npar) = some j := by
  simp only [designates, Bool.and_eq_true, Bool.not_eq_true', decide_eq_true_eq, beq_iff_eq,
    bne_iff_ne, ne_eq] at h
  obtain ⟨⟨⟨⟨⟨⟨⟨⟨⟨h1, h2⟩, h3⟩, h4⟩, h5⟩, h6⟩, h7⟩, h8⟩, h9⟩, h10⟩ := h
  exact ⟨h1, h2, h3, h4, h5, h6, h7, h8, h9, h10⟩

theorem find_opt_update (cfg : cfgcli_t) (j : Nat) (x : cfgcli_param_valid_t)
    (arg : List Char) (h1 : x.opt = (cfg.params.getD j param_zero).opt)
    (h2 : x.lopt = (cfg.params.getD j param_zero).lopt)
    (h3 : x.llen = (cfg.params.getD j param_zero).llen) :
    find_opt { cfg with params := cfg.params.set j x } arg = find_opt cfg arg := by
  unfold find_opt
  simp only
  rw [first_index_take_set (fun (p : cfgcli_param_valid_t) => char_at arg 1 == p.opt)
        cfg.params j cfg.npar x param_zero (by simp only [h1])]
  rw [first_index_take_set _ cfg.params j cfg.npar x param_zero]
  simp only [h2, h3]

theorem find_param_update (cfg : cfgcli_t) (j : Nat) (x : cfgcli_param_valid_t)
    (key : List Char) (h1 : x.name = (cfg.params.getD j param_zero).name)
    (h2 : x.nlen = (cfg.params.getD j param_zero).nlen) :
    find_param { cfg with params := cfg.params.set j x } key = find_param cfg key := by
  unfold find_param
  exact first_index_take_set _ cfg.params j cfg.npar x param_zero (by simp only [h1, h2])

/-- A pass that writes entry `j` leaves it designated by the same keyword, option and
variable: it changes `narr`, the value text and its length, what is stored, and `src`. -/
theorem designates_update (cfg : cfgcli_t) (j : Nat) (name lopt : List Char) (N L : Nat)
    (V : Option (List Char)) (S : slot_t) (s : Int)
    (h : designates cfg j name lopt = true) :
    designates
      { cfg with
        params := cfg.params.set j
                    { cfg.params.getD j param_zero with
                      narr := N, value := V, vlen := L, slot := S, src := s } }
      j name lopt = true := by
  obtain ⟨h1, h2, h3, h4, h5, h6, h7, h8, h9, h10⟩ := designates_unpack cfg j name lopt h
  have hj : j < cfg.params.length := by omega
  simp only [designates, Bool.and_eq_true, Bool.not_eq_true', decide_eq_true_eq, beq_iff_eq,
    bne_iff_ne, ne_eq, List.length_set, getD_set_self _ _ _ _ hj]
  refine ⟨⟨⟨⟨⟨⟨⟨⟨⟨h1, h2⟩, h3⟩, h4⟩, h5⟩, ?_⟩, ?_⟩, h8⟩, h9⟩, ?_⟩
  · rw [← h6]
    exact find_param_update cfg j _ name rfl rfl
  · rw [← h7]
    exact find_opt_update cfg j _ _ rfl rfl rfl
  · rw [← h10]
    exact first_index_take_set _ cfg.params j cfg.npar _ param_zero rfl

/-! ## A command line with one long option -/

theorem assign_scan_spec (pre rest : List Char) (j : Nat) (h : ∀ c ∈ pre, c ≠ '=')
    (hj : j + pre.length < CFGCLI_MAX_LOPT_LEN + 2) :
    assign_scan (pre ++ '=' :: rest) j = j + pre.length := by
  induction pre generalizing j with
  | nil =>
    have : ¬ j ≥ CFGCLI_MAX_LOPT_LEN + 2 := by
      simp only [List.length_nil, Nat.add_zero] at hj
      omega
    simp [assign_scan, this, CFGCLI_CMD_ASSIGN]
  | cons c cs ih =>
    have hc : (c == CFGCLI_CMD_ASSIGN) = false := by
      simp only [CFGCLI_CMD_ASSIGN, beq_eq_false_iff_ne, ne_eq]
      exact h c (List.mem_cons_self _ _)
    simp only [List.length_cons] at hj
    have hge : ¬ j ≥ CFGCLI_MAX_LOPT_LEN + 2 := by omega
    simp only [List.cons_append, assign_scan, hge, ↓reduceIte, hc, Bool.false_eq_true,
      List.append_eq]
    rw [ih (j + 1) (fun x hx => h x (List.mem_cons_of_mem _ hx)) (by omega)]
    simp only [List.length_cons]
    omega

theorem lopt_grammar_facts (lopt : List Char) (h : lopt_grammar lopt = true) :
    lopt ≠ [] ∧ (∀ c ∈ lopt, isgraph c = true ∧ c ≠ '=') ∧ lopt.length ≤ 127 := by
  simp only [lopt_grammar, Bool.and_eq_true, bne_iff_ne, ne_eq, List.all_eq_true,
    decide_eq_true_eq] at h
  exact ⟨h.1.1, h.1.2, h.2⟩

/-- The argument `--lopt=v` is an option. -/
theorem is_opt_long (lopt v : List Char) (h : lopt_grammar lopt = true) :
    CFGCLI_IS_OPT ('-' :: '-' :: (lopt ++ '=' :: v)) = true := by
  obtain ⟨hne, hall, _⟩ := lopt_grammar_facts lopt h
  cases lopt with
  | nil => exact absurd rfl hne
  | cons c cs =>
    obtain ⟨hg, he⟩ := hall c (List.mem_cons_self _ _)
    have hn : c ≠ NUL := by
      intro e
      subst e
      revert hg
      decide
    simp only [CFGCLI_IS_OPT, char_at, List.cons_append, List.getD_cons_zero,
      List.getD_cons_succ, CFGCLI_CMD_FLAG, CFGCLI_CMD_ASSIGN, beq_self_eq_true, Bool.true_and,
      hg, Bool.and_true, Bool.and_eq_true, bne_iff_ne, ne_eq, Bool.or_eq_true, beq_iff_eq]
    refine ⟨by decide, Or.inr (Or.inr he)⟩

/-- One pass of the loop of `cfgcli_read_opts` on the argument `--lopt=v`: the option is
cut at `=`, found as parameter `j`, and handed with the argument `v` to the branch
`is_param`. -/
theorem opts_body_long (libc : libc_t) (cfg : cfgcli_t) (j : Nat) (lopt v : List Char)
    (prior : Int) (i : Nat) (nxt : Option (List Char)) (hl : lopt_grammar lopt = true)
    (hf : find_opt cfg ('-' :: '-' :: lopt) = opt_status_t.is_param j) :
    opts_body libc cfg prior i ('-' :: '-' :: (lopt ++ '=' :: v)) nxt =
      if (opts_param libc cfg j ('-' :: '-' :: lopt) (some v) prior).1 ≠ 0 then
        opt_step_t.fail (opts_param libc cfg j ('-' :: '-' :: lopt) (some v) prior).1
          (opts_param libc cfg j ('-' :: '-' :: lopt) (some v) prior).2
      else
        opt_step_t.next (opts_param libc cfg j ('-' :: '-' :: lopt) (some v) prior).2 false := by
  obtain ⟨hne, hall, hlen⟩ := lopt_grammar_facts lopt hl
  have hscan : assign_scan ('-' :: '-' :: (lopt ++ '=' :: v)) 0 = lopt.length + 2 := by
    have := assign_scan_spec ('-' :: '-' :: lopt) v 0
      (by
        intro c hc
        rcases List.mem_cons.1 hc with e | hc
        · rw [e]
          decide
        · rcases List.mem_cons.1 hc with e | hc
          · rw [e]
            decide
          · exact (hall c hc).2)
      (by
        simp only [List.length_cons, CFGCLI_MAX_LOPT_LEN]
        omega)
    simp only [List.cons_append, List.length_cons, Nat.zero_add] at this
    exact this
  have hat : char_at ('-' :: '-' :: (lopt ++ '=' :: v)) (lopt.length + 2) = '=' := by
    simp only [char_at, List.getD_cons_succ]
    have := getD_append_right_add lopt ('=' :: v) 0
    rw [Nat.add_zero] at this
    rw [this]
    rfl
  have hdrop : ('-' :: '-' :: (lopt ++ '=' :: v)).drop (lopt.length + 2 + 1) = v := by
    simp only [List.drop_succ_cons]
    rw [List.drop_append_eq_append_drop]
    simp
  have htake : ('-' :: '-' :: (lopt ++ '=' :: v)).take (lopt.length + 2) =
      '-' :: '-' :: lopt := by
    simp only [List.take_succ_cons]
    rw [List.take_append_eq_append_take]
    simp
  unfold opts_body
  simp only [is_opt_long lopt v hl, Bool.not_true, Bool.false_eq_true, ↓reduceIte, hscan, hat,
    CFGCLI_CMD_ASSIGN, bne_self_eq_false, Bool.and_false, beq_self_eq_true, Bool.true_and,
    hdrop, htake, hf]
  generalize opts_param libc cfg j ('-' :: '-' :: lopt) (some v) prior = R
  obtain ⟨e, c⟩ := R
  simp

/-- A command-line pass that presents `v` by `prog --lopt=v` does what the branch
`is_param` of `cfgcli_read_opts` does for parameter `j` with the argument `v`. -/
theorem cli_pass (libc : libc_t) (cfg : cfgcli_t) (j : Nat) (name lopt v : List Char)
    (prior : Int) (hd : designates cfg j name lopt = true) (hp : 0 < prior) :
    run_pass libc cfg source_t.cli name lopt v prior =
      run_t.ret (opts_param libc cfg j ('-' :: '-' :: lopt) (some v) prior) := by
  obtain ⟨h1, h2, h3, h4, h5, h6, h7, h8, h9, h10⟩ := designates_unpack cfg j name lopt hd
  have hn : ¬ (cfg.npar = 0 ∧ cfg.nfunc = 0) := by
    intro h
    omega
  have hq : ¬ prior ≤ CFGCLI_SRC_NULL := by
    simp only [CFGCLI_SRC_NULL]
    omega
  unfold run_pass cfgcli_read_opts cli_args
  simp only [h1, Bool.false_eq_true, ↓reduceIte, hn, hq, read_opts_loop]
  rw [opts_body_long libc cfg j lopt v prior 1 none h5 h7]
  generalize opts_param libc cfg j ('-' :: '-' :: lopt) (some v) prior = R
  obtain ⟨e, c⟩ := R
  by_cases he : e = 0
  · simp [he, read_opts_loop]
  · simp [he]

/-- The branch `is_param` for a parameter whose stored priority is higher: nothing
changes. -/
theorem opts_param_skip (libc : libc_t) (cfg : cfgcli_t) (j : Nat) (arg : List Char)
    (optarg : Option (List Char)) (prior : Int)
    (h : prior < CFGCLI_SRC_VAL (cfg.params.getD j param_zero).src) :
    opts_param libc cfg j arg optarg prior = (0, cfg) := by
  unfold opts_param
  simp only [gt_iff_lt, h, ↓reduceIte]

/-- The branch `is_param` for a parameter whose stored priority is the same: one warning,
nothing else. -/
theorem opts_param_dup (libc : libc_t) (cfg : cfgcli_t) (j : Nat) (arg : List Char)
    (optarg : Option (List Char)) (prior : Int)
    (h : CFGCLI_SRC_VAL (cfg.params.getD j param_zero).src = prior) :
    opts_param libc cfg j arg optarg prior =
      (0, cfgcli_msg cfg "omitting duplicate entry of parameter".toList
        (cfg.params.getD j param_zero).name) := by
  unfold opts_param
  simp only [gt_iff_lt, h, lt_self_iff_false, ↓reduceIte]

/-- The branch `is_param` for a parameter whose stored priority is lower, with an argument
that is coerced with code 0: the entry receives the coercion and the source `-prior`. -/
theorem opts_param_set (libc : libc_t) (cfg : cfgcli_t) (j : Nat) (arg v : List Char)
    (prior : Int) (hc : CFGCLI_IS_ERROR cfg = false) (hv : v ≠ []) (hnul : NUL ∉ v)
    (hk : (coerce libc (cfg.params.getD j param_zero).dtype v).1 = 0)
    (h : CFGCLI_SRC_VAL (cfg.params.getD j param_zero).src < prior) :
    ∃ N V, opts_param libc cfg j arg (some v) prior =
      (0, { cfg with
            params := cfg.params.set j
                        { cfg.params.getD j param_zero with
                          narr := N, value := V, vlen := v.length + 1,
                          slot := (coerce libc (cfg.params.getD j param_zero).dtype v).2,
                          src := CFGCLI_SRC_OF_OPT prior } }) := by
  obtain ⟨N, V, hg⟩ := get_ok libc cfg (cfg.params.getD j param_zero) v
    (CFGCLI_SRC_OF_OPT prior) hc hv hnul hk
  refine ⟨N, V, ?_⟩
  have h0 := head_not_nul v hv hnul
  unfold opts_param
  have h1 : ¬ CFGCLI_SRC_VAL (cfg.params.getD j param_zero).src > prior := by omega
  have h2 : ¬ CFGCLI_SRC_VAL (cfg.params.getD j param_zero).src = prior := by omega
  simp only [h1, h2, ↓reduceIte, h0, Bool.false_and, Bool.false_eq_true, Option.getD_some, hg,
    ne_eq, not_true_eq_false]

/-! ## Reading a file that holds one entry -/

theorem first_index_none_of_all {α : Type} (p : α → Bool) (l : List α)
    (h : ∀ x ∈ l, p x = false) : first_index p l = none := by
  induction l with
  | nil => rfl
  | cons x xs ih =>
    simp only [first_index, h x (List.mem_cons_self _ _), Bool.false_eq_true, ↓reduceIte,
      ih (fun y hy => h y (List.mem_cons_of_mem _ hy)), Option.map_none']

theorem first_index_append {α : Type} (p : α → Bool) (l r : List α) (x : α)
    (h : ∀ y ∈ l, p y = false) (hx : p x = true) :
    first_index p (l ++ x :: r) = some l.length := by
  induction l with
  | nil => simp [first_index, hx]
  | cons y ys ih =>
    have := ih (fun z hz => h z (List.mem_cons_of_mem _ hz))
    simp only [List.cons_append, first_index, h y (List.mem_cons_self _ _), Bool.false_eq_true,
      ↓reduceIte, List.append_eq, this, Option.map_some', List.length_cons]

/-- The search of the line terminator from the start of a line that lies in the chunk. -/
theorem find_newline (A line B : List Char) (m : Nat) (h : '\n' ∉ line)
    (hm : line.length + 1 ≤ m) :
    first_index (fun c => c == '\n') (((A ++ (line ++ '\n' :: B)).drop A.length).take m) =
      some line.length := by
  rw [List.drop_left]
  have e : (line ++ '\n' :: B).take m = line ++ '\n' :: (B.take (m - (line.length + 1))) := by
    rw [List.take_append_eq_append_take]
    have h1 : line.take m = line := List.take_of_length_le (by omega)
    have h2 : m - line.length = (m - (line.length + 1)) + 1 := by omega
    rw [h1, h2, List.take_succ_cons]
  rw [e]
  apply first_index_append
  · intro y hy
    simp only [beq_eq_false_iff_ne, ne_eq]
    intro e2
    exact h (e2 ▸ hy)
  · rfl

/-- The chunk after the first read of a file that holds `line` and a line terminator, and
is shorter than the chunk: the file, one more line terminator, and the bytes that `calloc`
left. -/
theorem chunk_init (line : List Char) (h : line.length + 2 ≤ CFGCLI_STR_INIT_SIZE) :
    poke (store (List.replicate CFGCLI_STR_INIT_SIZE NUL) 0 (line ++ ['\n']))
      (line.length + 1) '\n' =
    line ++ '\n' :: '\n' :: List.replicate (CFGCLI_STR_INIT_SIZE - (line.length + 2)) NUL := by
  have e0 : CFGCLI_STR_INIT_SIZE - (line.length + 1) =
      (CFGCLI_STR_INIT_SIZE - (line.length + 2)) + 1 := by omega
  have e1 : store (List.replicate CFGCLI_STR_INIT_SIZE NUL) 0 (line ++ ['\n']) =
      (line ++ ['\n']) ++ NUL :: List.replicate (CFGCLI_STR_INIT_SIZE - (line.length + 2)) NUL := by
    simp only [store, List.take_zero, List.nil_append, Nat.zero_add, List.length_append,
      List.length_singleton, List.drop_replicate, e0, List.replicate_succ]
  rw [e1]
  have e2 : line.length + 1 = (line ++ ['\n']).length + 0 := by simp
  rw [e2, poke, set_append_add]
  simp

theorem entry_lexed_unpack (name v : List Char) (h : entry_lexed name v = true) :
    cfgcli_parse_line (entry_line name v) 0 (entry_line name v).length none none START =
      run_t.ret (DONE, name ++ NUL :: '=' :: ' ' :: v, some 0, some (name.length + 3)) := by
  simpa [entry_lexed] using h

/-- The loop over the lines of the chunk for a file that holds one entry: the entry is
lexed as done and handed to the case `CFGCLI_PARSE_DONE`; the empty line behind it is
passed over. -/
theorem file_lines_entry (libc : libc_t) (cfg cfg1 : cfgcli_t) (name v Z : List Char)
    (prior : Int) (C nr : Nat) (fuel : Nat) (hlex : entry_lexed name v = true)
    (hnl : '\n' ∉ entry_line name v)
    (hfd : file_done libc prior
      { cfg := cfg, chunk := (name ++ NUL :: '=' :: ' ' :: v) ++ NUL :: '\n' :: Z, clen := C,
        nline := 1, nrest := nr, nproc := 0, key := some 0, value := some (name.length + 3),
        state := START, file := [] } =
      run_t.ret (0,
        { cfg := cfg1, chunk := (name ++ NUL :: '=' :: ' ' :: v) ++ NUL :: '\n' :: Z, clen := C,
          nline := 1, nrest := nr, nproc := 0, key := none, value := none,
          state := START, file := [] })) :
    file_lines libc prior ((entry_line name v).length + 2) (fuel + 3)
      { cfg := cfg, chunk := entry_line name v ++ '\n' :: '\n' :: Z, clen := C, nline := 0,
        nrest := nr, nproc := 0, key := none, value := none, state := START, file := [] } 0 =
    run_t.ret (0,
      { cfg := cfg1, chunk := (name ++ NUL :: '=' :: ' ' :: v) ++ NUL :: NUL :: Z, clen := C,
        nline := 2, nrest := nr, nproc := 0, key := none, value := none, state := START,
        file := [] }, (entry_line name v).length + 2) := by
  have hlx := entry_lexed_unpack name v hlex
  have hfr := parse_line_frame (entry_line name v) (NUL :: '\n' :: Z) 0
    (entry_line name v).length none none START (by omega) _ _ _ _ hlx
  have hL : (name ++ NUL :: '=' :: ' ' :: v).length = (entry_line name v).length := hfr.2
  -- first line
  have f1 := find_newline [] (entry_line name v) ('\n' :: Z) ((entry_line name v).length + 2)
    hnl (by omega)
  simp only [List.nil_append, List.length_nil, List.drop_zero] at f1
  have p1 : poke (entry_line name v ++ '\n' :: '\n' :: Z) (entry_line name v).length NUL =
      entry_line name v ++ NUL :: '\n' :: Z := by
    have := set_append_add (entry_line name v) ('\n' :: '\n' :: Z) 0 NUL
    rw [Nat.add_zero] at this
    rw [poke, this]
    rfl
  rw [file_lines]
  simp only [List.drop_zero, Nat.sub_zero, f1, Nat.zero_add, p1, hfr.1, hfd, ne_eq,
    not_true_eq_false, ↓reduceIte]
  -- the empty line
  have f2 := find_newline ((name ++ NUL :: '=' :: ' ' :: v) ++ [NUL]) [] Z 1
    (by simp) (by simp)
  have e2 : (name ++ NUL :: '=' :: ' ' :: v) ++ [NUL] ++ ([] ++ '\n' :: Z) =
      (name ++ NUL :: '=' :: ' ' :: v) ++ NUL :: '\n' :: Z := by simp
  have e3 : ((name ++ NUL :: '=' :: ' ' :: v) ++ [NUL]).length =
      (entry_line name v).length + 1 := by
    rw [List.length_append, hL]
    rfl
  rw [e2, e3] at f2
  have e4 : (entry_line name v).length + 2 - ((entry_line name v).length + 1) = 1 := by omega
  have p2 : poke ((name ++ NUL :: '=' :: ' ' :: v) ++ NUL :: '\n' :: Z)
      ((entry_line name v).length + 1) NUL =
      (name ++ NUL :: '=' :: ' ' :: v) ++ NUL :: NUL :: Z := by
    have := set_append_add ((name ++ NUL :: '=' :: ' ' :: v) ++ [NUL]) ('\n' :: Z) 0 NUL
    rw [Nat.add_zero, e3] at this
    rw [poke]
    have e5 : (name ++ NUL :: '=' :: ' ' :: v) ++ NUL :: '\n' :: Z =
        (name ++ NUL :: '=' :: ' ' :: v) ++ [NUL] ++ '\n' :: Z := by simp
    rw [e5, this]
    simp
  rw [file_lines]
  simp only [e4, f2, List.length_nil, Nat.add_zero, p2]
  have hpass : cfgcli_parse_line ((name ++ NUL :: '=' :: ' ' :: v) ++ NUL :: NUL :: Z)
      ((entry_line name v).length + 1)
      ((entry_line name v).length + 1 - ((entry_line name v).length + 1)) none none START =
      run_t.ret (PASS, (name ++ NUL :: '=' :: ' ' :: v) ++ NUL :: NUL :: Z, none, none) := by
    unfold cfgcli_parse_line
    simp
  rw [hpass]
  simp only
  -- the end of the chunk
  rw [file_lines]
  simp only [Nat.sub_self, List.take_zero, first_index]

/-- Function `cfgcli_read_file` on a file that holds one entry `name = v` and is shorter
than the chunk: when the case `CFGCLI_PARSE_DONE` goes on with the registry `cfg1`, the
call returns 0 and `cfg1`. -/
theorem read_file_entry (libc : libc_t) (cfg cfg1 : cfgcli_t) (fname name v : List Char)
    (prior : Int) (hc : CFGCLI_IS_ERROR cfg = false) (hnp : cfg.npar ≠ 0) (hfn : fname ≠ [])
    (hfl : fname.length < CFGCLI_MAX_FILENAME_LEN) (hp : 0 < prior)
    (hlex : entry_lexed name v = true) (hnl : '\n' ∉ entry_line name v)
    (hlen : (entry_line name v).length + 2 ≤ CFGCLI_STR_INIT_SIZE)
    (hfd : file_done libc prior
      { cfg := cfg,
        chunk := (name ++ NUL :: '=' :: ' ' :: v) ++ NUL :: '\n' ::
          List.replicate (CFGCLI_STR_INIT_SIZE - ((entry_line name v).length + 2)) NUL,
        clen := CFGCLI_STR_INIT_SIZE,
        nline := 1, nrest := 0, nproc := 0, key := some 0, value := some (name.length + 3),
        state := START, file := [] } =
      run_t.ret (0,
        { cfg := cfg1,
          chunk := (name ++ NUL :: '=' :: ' ' :: v) ++ NUL :: '\n' ::
            List.replicate (CFGCLI_STR_INIT_SIZE - ((entry_line name v).length + 2)) NUL,
          clen := CFGCLI_STR_INIT_SIZE,
          nline := 1, nrest := 0, nproc := 0, key := none, value := none,
          state := START, file := [] })) :
    cfgcli_read_file libc cfg (some fname) (some (file_text name v)) prior =
      run_t.ret (0, cfg1) := by
  have hq : ¬ prior ≤ CFGCLI_SRC_NULL := by
    simp only [CFGCLI_SRC_NULL]
    omega
  have hfl2 : ¬ fname.length ≥ CFGCLI_MAX_FILENAME_LEN := by omega
  have hlines := file_lines_entry libc cfg cfg1 name v
    (List.replicate (CFGCLI_STR_INIT_SIZE - ((entry_line name v).length + 2)) NUL) prior
    CFGCLI_STR_INIT_SIZE 0 (entry_line name v).length hlex hnl hfd
  have hft : (entry_line name v ++ ['\n']).length = (entry_line name v).length + 1 := by
    simp
  have htk : (entry_line name v ++ ['\n']).take (CFGCLI_STR_INIT_SIZE - 0) =
      entry_line name v ++ ['\n'] :=
    List.take_of_length_le (by omega)
  have hdr : (entry_line name v ++ ['\n']).drop ((entry_line name v).length + 1) = [] :=
    List.drop_of_length_le (by omega)
  have hsh : (entry_line name v).length + 1 < CFGCLI_STR_INIT_SIZE - 0 := by omega
  have hch := chunk_init (entry_line name v) hlen
  unfold cfgcli_read_file
  cases fname with
  | nil => exact absurd rfl hfn
  | cons f fs =>
    simp only [hc, Bool.false_eq_true, ↓reduceIte, hnp, hfl2, hq, file_text, hft]
    rw [file_chunks]
    simp only [htk, hft, Nat.add_one_ne_zero, ↓reduceIte, hdr, Nat.zero_add, hsh, decide_True,
      hch]
    have e1 : (entry_line name v).length + 1 + 1 - 0 + 1 = (entry_line name v).length + 3 := by
      omega
    have e2 : (entry_line name v).length + 1 + 1 = (entry_line name v).length + 2 := rfl
    have e3 : ¬ ((START : cfgcli_parse_state_t) = ARRAY_START) := by decide
    simp only [e3, ↓reduceIte, e1, e2, hlines, ne_eq, not_true_eq_false, Nat.add_one_ne_zero,
      Nat.sub_self]
    have e4 : ¬ (0 = CFGCLI_STR_INIT_SIZE) := by decide
    simp only [e4, ↓reduceIte]
    rw [file_chunks]
    simp only [List.take_nil, List.length_nil, ↓reduceIte]

/-! ## What a pass does to the parameter it presents a value for -/

theorem value_ok_unpack (libc : libc_t) (name : List Char) (dtype : Int) (v : List Char)
    (h : value_ok libc name dtype v = true) :
    v ≠ [] ∧ NUL ∉ v ∧ '\n' ∉ v ∧ entry_lexed name v = true ∧ (coerce libc dtype v).1 = 0 := by
  simp only [value_ok, Bool.and_eq_true, bne_iff_ne, ne_eq, Bool.not_eq_true',
    List.contains_eq_any_beq, List.any_eq_false, beq_iff_eq] at h
  obtain ⟨⟨⟨⟨h1, h2⟩, h3⟩, h4⟩, h5⟩ := h
  refine ⟨h1, ?_, ?_, h4, h5⟩
  · intro hm
    exact h2 NUL hm (by simp)
  · intro hm
    exact h3 '\n' hm (by simp)

theorem name_no_newline (name : List Char) (h : name_grammar name = true) : '\n' ∉ name := by
  intro hm
  cases name with
  | nil => simp at hm
  | cons c cs =>
    obtain ⟨hc, hcs, _⟩ := name_grammar_cons c cs h
    rcases List.mem_cons.1 hm with e | e
    · rw [← e] at hc
      revert hc
      decide
    · have := hcs _ e
      revert this
      decide

theorem entry_no_newline (name v : List Char) (hn : name_grammar name = true)
    (hv : '\n' ∉ v) : '\n' ∉ entry_line name v := by
  intro hm
  simp only [entry_line, List.mem_append, List.mem_cons] at hm
  rcases hm with e | e | e | e | e
  · exact name_no_newline name hn e
  · revert e
    decide
  · revert e
    decide
  · revert e
    decide
  · exact hv e

/-- The keyword that the case `CFGCLI_PARSE_DONE` reads in the chunk after the entry
`name = v` was lexed. -/
theorem chunk_key (name v rest : List Char) (hn : name_grammar name = true) :
    cstr_at ((name ++ NUL :: '=' :: ' ' :: v) ++ NUL :: rest) 0 = name := by
  have e : (name ++ NUL :: '=' :: ' ' :: v) ++ NUL :: rest =
      name ++ NUL :: ('=' :: ' ' :: v ++ NUL :: rest) := by simp
  rw [e]
  exact cstr_at_zero name _ (name_grammar_no_NUL name hn)

/-- The value text that the case `CFGCLI_PARSE_DONE` reads in the chunk after the entry
`name = v` was lexed. -/
theorem chunk_value (name v rest : List Char) (hv : NUL ∉ v) :
    cstr_at ((name ++ NUL :: '=' :: ' ' :: v) ++ NUL :: rest) (name.length + 3) = v := by
  have e : (name ++ NUL :: '=' :: ' ' :: v) ++ NUL :: rest =
      name ++ [NUL, '=', ' '] ++ v ++ NUL :: rest := by simp
  have e2 : name.length + 3 = (name ++ [NUL, '=', ' ']).length := by simp
  rw [e, e2]
  exact cstr_at_append _ v rest hv

/-- A file pass for a parameter whose stored priority is higher: nothing changes. -/
theorem file_pass_skip (libc : libc_t) (cfg : cfgcli_t) (j : Nat) (name lopt v : List Char)
    (prior : Int) (hd : designates cfg j name lopt = true) (hp : 0 < prior)
    (hlex : entry_lexed name v = true) (hnl : '\n' ∉ v)
    (hfit : (entry_line name v).length + 2 ≤ CFGCLI_STR_INIT_SIZE)
    (h : prior < CFGCLI_SRC_VAL (cfg.params.getD j param_zero).src) :
    run_pass libc cfg source_t.file name lopt v prior = run_t.ret (0, cfg) := by
  obtain ⟨h1, h2, h3, h4, h5, h6, h7, h8, h9, h10⟩ := designates_unpack cfg j name lopt hd
  have t1 := chunk_key name v
    ('\n' :: List.replicate (CFGCLI_STR_INIT_SIZE - ((entry_line name v).length + 2)) NUL) h4
  unfold run_pass
  apply read_file_entry libc cfg cfg _ name v prior h1 (by omega) (by decide) (by decide) hp
    hlex (entry_no_newline name v h4 hnl) hfit
  unfold file_done
  have n1 : ¬ CFGCLI_SRC_VAL (cfg.params.getD j param_zero).src < prior := by omega
  have n2 : ¬ CFGCLI_SRC_VAL (cfg.params.getD j param_zero).src = prior := by omega
  simp only [t1, h6, n1, n2, ↓reduceIte]

/-- A file pass for a parameter whose stored priority is the same: one warning, nothing
else. -/
theorem file_pass_dup (libc : libc_t) (cfg : cfgcli_t) (j : Nat) (name lopt v : List Char)
    (prior : Int) (hd : designates cfg j name lopt = true) (hp : 0 < prior)
    (hlex : entry_lexed name v = true) (hnl : '\n' ∉ v)
    (hfit : (entry_line name v).length + 2 ≤ CFGCLI_STR_INIT_SIZE)
    (h : CFGCLI_SRC_VAL (cfg.params.getD j param_zero).src = prior) :
    run_pass libc cfg source_t.file name lopt v prior =
      run_t.ret (0, cfgcli_msg cfg "omitting duplicate entry of parameter".toList
        (some name)) := by
  obtain ⟨h1, h2, h3, h4, h5, h6, h7, h8, h9, h10⟩ := designates_unpack cfg j name lopt hd
  have t1 := chunk_key name v
    ('\n' :: List.replicate (CFGCLI_STR_INIT_SIZE - ((entry_line name v).length + 2)) NUL) h4
  unfold run_pass
  apply read_file_entry libc cfg _ _ name v prior h1 (by omega) (by decide) (by decide) hp
    hlex (entry_no_newline name v h4 hnl) hfit
  unfold file_done
  simp only [t1, h6, h, lt_self_iff_false, ↓reduceIte]

/-- A file pass for a parameter whose stored priority is lower, with a value that is
coerced with code 0: the entry receives the coercion and the source `prior`. -/
theorem file_pass_set (libc : libc_t) (cfg : cfgcli_t) (j : Nat) (name lopt v : List Char)
    (prior : Int) (hd : designates cfg j name lopt = true) (hp : 0 < prior)
    (hv : value_ok libc name (cfg.params.getD j param_zero).dtype v = true)
    (hfit : (entry_line name v).length + 2 ≤ CFGCLI_STR_INIT_SIZE)
    (h : CFGCLI_SRC_VAL (cfg.params.getD j param_zero).src < prior) :
    ∃ N V, run_pass libc cfg source_t.file name lopt v prior =
      run_t.ret (0,
        { cfg with
          params := cfg.params.set j
                      { cfg.params.getD j param_zero with
                        narr := N, value := V, vlen := v.length + 1,
                        slot := (coerce libc (cfg.params.getD j param_zero).dtype v).2,
                        src := prior } }) := by
  obtain ⟨h1, h2, h3, h4, h5, h6, h7, h8, h9, h10⟩ := designates_unpack cfg j name lopt hd
  obtain ⟨v1, v2, v3, v4, v5⟩ := value_ok_unpack libc name _ v hv
  have t1 := chunk_key name v
    ('\n' :: List.replicate (CFGCLI_STR_INIT_SIZE - ((entry_line name v).length + 2)) NUL) h4
  have t2 := chunk_value name v
    ('\n' :: List.replicate (CFGCLI_STR_INIT_SIZE - ((entry_line name v).length + 2)) NUL) v2
  obtain ⟨N, V, hg⟩ := get_ok libc cfg (cfg.params.getD j param_zero) v prior h1 v1 v2 v5
  refine ⟨N, V, ?_⟩
  unfold run_pass
  apply read_file_entry libc cfg _ _ name v prior h1 (by omega) (by decide) (by decide) hp v4
    (entry_no_newline name v h4 v3) hfit
  unfold file_done
  simp only [t1, t2, h6, h, ↓reduceIte, hg, ne_eq, not_true_eq_false]

/-- A file pass for a parameter whose stored priority is lower, when `cfgcli_get` returns 0
for the value: the entry that `cfgcli_get` leaves is stored with the source `prior`. -/
theorem file_pass_get (libc : libc_t) (cfg : cfgcli_t) (j : Nat) (name lopt v : List Char)
    (prior : Int) (p1 : cfgcli_param_valid_t) (hd : designates cfg j name lopt = true)
    (hp : 0 < prior) (hlex : entry_lexed name v = true) (hnul : NUL ∉ v) (hnl : '\n' ∉ v)
    (hfit : (entry_line name v).length + 2 ≤ CFGCLI_STR_INIT_SIZE)
    (h : CFGCLI_SRC_VAL (cfg.params.getD j param_zero).src < prior)
    (hg : cfgcli_get libc cfg
      { cfg.params.getD j param_zero with value := some v, vlen := v.length + 1 } prior =
      (0, cfg, p1)) :
    run_pass libc cfg source_t.file name lopt v prior =
      run_t.ret (0, { cfg with params := cfg.params.set j { p1 with src := prior } }) := by
  obtain ⟨h1, h2, h3, h4, h5, h6, h7, h8, h9, h10⟩ := designates_unpack cfg j name lopt hd
  have t1 := chunk_key name v
    ('\n' :: List.replicate (CFGCLI_STR_INIT_SIZE - ((entry_line name v).length + 2)) NUL) h4
  have t2 := chunk_value name v
    ('\n' :: List.replicate (CFGCLI_STR_INIT_SIZE - ((entry_line name v).length + 2)) NUL) hnul
  unfold run_pass
  apply read_file_entry libc cfg _ _ name v prior h1 (by omega) (by decide) (by decide) hp hlex
    (entry_no_newline name v h4 hnl) hfit
  unfold file_done
  simp only [t1, t2, h6, h, ↓reduceIte, hg, ne_eq, not_true_eq_false]

/-! ## A pass of either kind -/

/-- A pass for a parameter whose stored priority is higher: nothing changes. -/
theorem pass_skip (libc : libc_t) (cfg : cfgcli_t) (k : source_t) (j : Nat)
    (name lopt v : List Char) (prior : Int) (hd : designates cfg j name lopt = true)
    (hp : 0 < prior)
    (hv : k = source_t.file → entry_lexed name v = true ∧ '\n' ∉ v ∧
      (entry_line name v).length + 2 ≤ CFGCLI_STR_INIT_SIZE)
    (h : prior < CFGCLI_SRC_VAL (cfg.params.getD j param_zero).src) :
    run_pass libc cfg k name lopt v prior = run_t.ret (0, cfg) := by
  cases k with
  | cli => rw [cli_pass libc cfg j name lopt v prior hd hp, opts_param_skip libc cfg j _ _ _ h]
  | file =>
    obtain ⟨a, b, c⟩ := hv rfl
    exact file_pass_skip libc cfg j name lopt v prior hd hp a b c h

/-- A pass for a parameter whose stored priority is the same: one warning, nothing else. -/
theorem pass_dup (libc : libc_t) (cfg : cfgcli_t) (k : source_t) (j : Nat)
    (name lopt v : List Char) (prior : Int) (hd : designates cfg j name lopt = true)
    (hp : 0 < prior)
    (hv : k = source_t.file → entry_lexed name v = true ∧ '\n' ∉ v ∧
      (entry_line name v).length + 2 ≤ CFGCLI_STR_INIT_SIZE)
    (h : CFGCLI_SRC_VAL (cfg.params.getD j param_zero).src = prior) :
    run_pass libc cfg k name lopt v prior =
      run_t.ret (0, cfgcli_msg cfg "omitting duplicate entry of parameter".toList
        (some name)) := by
  cases k with
  | cli =>
    rw [cli_pass libc cfg j name lopt v prior hd hp, opts_param_dup libc cfg j _ _ _ h,
      (designates_unpack cfg j name lopt hd).2.2.2.2.2.2.2.1]
  | file =>
    obtain ⟨a, b, c⟩ := hv rfl
    exact file_pass_dup libc cfg j name lopt v prior hd hp a b c h

/-- A pass for a parameter whose stored priority is lower: the entry receives the coercion
of the value and a source whose magnitude is the priority of the pass. -/
theorem pass_set (libc : libc_t) (cfg : cfgcli_t) (k : source_t) (j : Nat)
    (name lopt v : List Char) (prior : Int) (hd : designates cfg j name lopt = true)
    (hp : 0 < prior) (hv : value_ok libc name (cfg.params.getD j param_zero).dtype v = true)
    (hfit : (entry_line name v).length + 2 ≤ CFGCLI_STR_INIT_SIZE)
    (h : CFGCLI_SRC_VAL (cfg.params.getD j param_zero).src < prior) :
    ∃ N V s, CFGCLI_SRC_VAL s = prior ∧
      run_pass libc cfg k name lopt v prior =
        run_t.ret (0,
          { cfg with
            params := cfg.params.set j
                        { cfg.params.getD j param_zero with
                          narr := N, value := V, vlen := v.length + 1,
                          slot := (coerce libc (cfg.params.getD j param_zero).dtype v).2,
                          src := s } }) := by
  obtain ⟨v1, v2, v3, v4, v5⟩ := value_ok_unpack libc name _ v hv
  cases k with
  | cli =>
    obtain ⟨N, V, hs⟩ := opts_param_set libc cfg j ('-' :: '-' :: lopt) v prior
      (designates_unpack cfg j name lopt hd).1 v1 v2 v5 h
    refine ⟨N, V, CFGCLI_SRC_OF_OPT prior, ?_, ?_⟩
    · simp only [CFGCLI_SRC_VAL, CFGCLI_SRC_OF_OPT]
      split <;> omega
    · rw [cli_pass libc cfg j name lopt v prior hd hp, hs]
  | file =>
    obtain ⟨N, V, hs⟩ := file_pass_set libc cfg j name lopt v prior hd hp hv hfit h
    refine ⟨N, V, prior, ?_, hs⟩
    simp only [CFGCLI_SRC_VAL]
    split <;> omega

/-- A designated parameter whose source is set is reported as set. -/
theorem is_set_of_designates (cfg : cfgcli_t) (j : Nat) (name lopt : List Char)
    (hd : designates cfg j name lopt = true)
    (hs : (cfg.params.getD j param_zero).src ≠ 0) :
    cfgcli_is_set cfg (cfg.params.getD j param_zero).var = true := by
  obtain ⟨h1, h2, h3, h4, h5, h6, h7, h8, h9, h10⟩ := designates_unpack cfg j name lopt hd
  have hf := find_of_first_index _ _ j param_zero h10
  rw [getD_take_of_lt _ _ _ _ h2] at hf
  have hn : cfg.npar ≠ 0 := by omega
  unfold cfgcli_is_set
  simp only [h9, hn, decide_False, Bool.or_self, Bool.false_eq_true, ↓reduceIte, hf,
    CFGCLI_SRC_NULL, bne_iff_ne, ne_eq]
  exact hs

/-- The registry after a pass has written entry `j`. -/
theorem after_set (cfg : cfgcli_t) (j : Nat) (name lopt : List Char) (N L : Nat)
    (V : Option (List Char)) (S : slot_t) (s : Int)
    (hd : designates cfg j name lopt = true) :
    designates
      { cfg with
        params := cfg.params.set j
                    { cfg.params.getD j param_zero with
                      narr := N, value := V, vlen := L, slot := S, src := s } }
      j name lopt = true ∧
    (cfg.params.set j
      { cfg.params.getD j param_zero with
        narr := N, value := V, vlen := L, slot := S, src := s }).getD j param_zero =
      { cfg.params.getD j param_zero with
        narr := N, value := V, vlen := L, slot := S, src := s } := by
  obtain ⟨h1, h2, h3, _⟩ := designates_unpack cfg j name lopt hd
  exact ⟨designates_update cfg j name lopt N L V S s hd,
    getD_set_self _ _ _ _ (by omega)⟩

/-- A pass for a parameter whose stored priority is lower, by what it leaves: a registry
with the same diagnostics, in which the entry is still designated, has its type and its
variable, holds the coercion of the value, and has a source whose magnitude is the
priority of the pass. -/
theorem pass_writes (libc : libc_t) (cfg : cfgcli_t) (k : source_t) (j : Nat)
    (name lopt v : List Char) (prior : Int) (hd : designates cfg j name lopt = true)
    (hp : 0 < prior) (hv : value_ok libc name (cfg.params.getD j param_zero).dtype v = true)
    (hfit : (entry_line name v).length + 2 ≤ CFGCLI_STR_INIT_SIZE)
    (h : CFGCLI_SRC_VAL (cfg.params.getD j param_zero).src < prior) :
    ∃ c1, run_pass libc cfg k name lopt v prior = run_t.ret (0, c1) ∧
      designates c1 j name lopt = true ∧
      (c1.params.getD j param_zero).dtype = (cfg.params.getD j param_zero).dtype ∧
      (c1.params.getD j param_zero).var = (cfg.params.getD j param_zero).var ∧
      (c1.params.getD j param_zero).slot =
        (coerce libc (cfg.params.getD j param_zero).dtype v).2 ∧
      CFGCLI_SRC_VAL (c1.params.getD j param_zero).src = prior ∧
      c1.error = cfg.error := by
  obtain ⟨N, V, s, hs, hr⟩ := pass_set libc cfg k j name lopt v prior hd hp hv hfit h
  obtain ⟨hd1, hg1⟩ := after_set cfg j name lopt N (v.length + 1) V
    (coerce libc (cfg.params.getD j param_zero).dtype v).2 s hd
  refine ⟨_, hr, hd1, ?_, ?_, ?_, ?_, rfl⟩
  · simp only [hg1]
  · simp only [hg1]
  · simp only [hg1]
  · simp only [hg1]
    exact hs

theorem msg_with_key (cfg : cfgcli_t) (msg key : List Char) (hm : msg ≠ []) (hk : key ≠ []) :
    cfgcli_msg cfg msg (some key) =
      { cfg with error := { cfg.error with msg := cfg.error.msg ++ [msg ++ [':', ' '] ++ key] } } := by
  cases key with
  | nil => exact absurd rfl hk
  | cons c cs =>
    unfold cfgcli_msg
    simp only [hm, ↓reduceIte]

theorem src_val_pos (s P : Int) (h : CFGCLI_SRC_VAL s = P) (hp : 0 < P) : s ≠ 0 := by
  intro e
  rw [e] at h
  simp only [CFGCLI_SRC_VAL] at h
  omega

/-- Two passes in a row for the same parameter at different priorities, the first one above
the stored priority: both return 0, and the entry ends with the coercion of the value
presented at the higher priority, a source of that magnitude, and the diagnostics it had. -/
theorem two_passes (libc : libc_t) (cfg : cfgcli_t) (j : Nat) (name lopt va vb : List Char)
    (ka kb : source_t) (Pa Pb : Int) (hd : designates cfg j name lopt = true)
    (ha0 : 0 < Pa) (hb0 : 0 < Pb) (hne : Pa ≠ Pb)
    (hsrc : CFGCLI_SRC_VAL (cfg.params.getD j param_zero).src < Pa)
    (hva : value_ok libc name (cfg.params.getD j param_zero).dtype va = true)
    (hvb : value_ok libc name (cfg.params.getD j param_zero).dtype vb = true)
    (hfa : (entry_line name va).length + 2 ≤ CFGCLI_STR_INIT_SIZE)
    (hfb : (entry_line name vb).length + 2 ≤ CFGCLI_STR_INIT_SIZE) :
    ∃ c1 c2, run_pass libc cfg ka name lopt va Pa = run_t.ret (0, c1) ∧
      run_pass libc c1 kb name lopt vb Pb = run_t.ret (0, c2) ∧
      (c2.params.getD j param_zero).slot =
        (coerce libc (cfg.params.getD j param_zero).dtype (if Pa < Pb then vb else va)).2 ∧
      CFGCLI_SRC_VAL (c2.params.getD j param_zero).src = max Pa Pb ∧
      cfgcli_is_set c2 (cfg.params.getD j param_zero).var = true ∧
      c2.error = cfg.error := by
  obtain ⟨c1, hr1, hd1, ht1, hvar1, hsl1, hs1, he1⟩ :=
    pass_writes libc cfg ka j name lopt va Pa hd ha0 hva hfa hsrc
  by_cases hlt : Pa < Pb
  · obtain ⟨c2, hr2, hd2, ht2, hvar2, hsl2, hs2, he2⟩ :=
      pass_writes libc c1 kb j name lopt vb Pb hd1 hb0 (by rw [ht1]; exact hvb) hfb
        (by rw [hs1]; exact hlt)
    refine ⟨c1, c2, hr1, hr2, ?_, ?_, ?_, he2.trans he1⟩
    · rw [hsl2, ht1]
      simp only [hlt, ↓reduceIte]
    · rw [hs2]
      omega
    · have := is_set_of_designates c2 j name lopt hd2 (src_val_pos _ _ hs2 hb0)
      rw [hvar2, hvar1] at this
      exact this
  · have hgt : Pb < Pa := by omega
    obtain ⟨_, _, w3, w4, _⟩ := value_ok_unpack libc name _ vb hvb
    have hr2 := pass_skip libc c1 kb j name lopt vb Pb hd1 hb0 (fun _ => ⟨w4, w3, hfb⟩)
      (by rw [hs1]; exact hgt)
    refine ⟨c1, c1, hr1, hr2, ?_, ?_, ?_, he1⟩
    · rw [hsl1]
      simp only [hlt, ↓reduceIte]
    · rw [hs1]
      omega
    · have := is_set_of_designates c1 j name lopt hd1 (src_val_pos _ _ hs1 ha0)
      rw [hvar1] at this
      exact this

/-- C1 (priority law, different priorities): let entry `j` of a registry without error be
the parameter designated by the keyword `name` and the long option `--lopt`, with a stored
priority below `P1`, and let `v1`, `v2` be two values that are well formed for it (each
lexed as the value of the entry `name = v` and coerced with code 0 at the type of the
parameter, the entry line fitting the first chunk of the file reader).  Present `v1` at
priority `P1` by a pass of kind `k1` and `v2` at priority `P2 > P1` by a pass of kind `k2`
(each kind the command line `prog --lopt=v` or a file holding `name = v`), in either call
order.  Both passes return 0, and after them the parameter holds the coercion of `v2`, its
stored priority magnitude is `P2`, it is reported as set, and the diagnostics are as they
were: no duplicate-entry warning. -/
theorem priority_law_different (libc : libc_t) (cfg : cfgcli_t) (j : Nat)
    (name lopt v1 v2 : List Char) (k1 k2 : source_t) (P1 P2 : Int)
    (hd : designates cfg j name lopt = true) (h0 : 0 < P1) (hP : P1 < P2)
    (hsrc : CFGCLI_SRC_VAL (cfg.params.getD j param_zero).src < P1)
    (hv1 : value_ok libc name (cfg.params.getD j param_zero).dtype v1 = true)
    (hv2 : value_ok libc name (cfg.params.getD j param_zero).dtype v2 = true)
    (hf1 : (entry_line name v1).length + 2 ≤ CFGCLI_STR_INIT_SIZE)
    (hf2 : (entry_line name v2).length + 2 ≤ CFGCLI_STR_INIT_SIZE) :
    (∃ c1 c2, run_pass libc cfg k1 name lopt v1 P1 = run_t.ret (0, c1) ∧
      run_pass libc c1 k2 name lopt v2 P2 = run_t.ret (0, c2) ∧
      (c2.params.getD j param_zero).slot =
        (coerce libc (cfg.params.getD j param_zero).dtype v2).2 ∧
      CFGCLI_SRC_VAL (c2.params.getD j param_zero).src = P2 ∧
      cfgcli_is_set c2 (cfg.params.getD j param_zero).var = true ∧
      c2.error = cfg.error) ∧
    (∃ c1 c2, run_pass libc cfg k2 name lopt v2 P2 = run_t.ret (0, c1) ∧
      run_pass libc c1 k1 name lopt v1 P1 = run_t.ret (0, c2) ∧
      (c2.params.getD j param_zero).slot =
        (coerce libc (cfg.params.getD j param_zero).dtype v2).2 ∧
      CFGCLI_SRC_VAL (c2.params.getD j param_zero).src = P2 ∧
      cfgcli_is_set c2 (cfg.params.getD j param_zero).var = true ∧
      c2.error = cfg.error) := by
  constructor
  · obtain ⟨c1, c2, r1, r2, a, b, c, d⟩ := two_passes libc cfg j name lopt v1 v2 k1 k2 P1 P2 hd
      h0 (by omega) (by omega) hsrc hv1 hv2 hf1 hf2
    refine ⟨c1, c2, r1, r2, ?_, ?_, c, d⟩
    · rw [a]
      simp only [hP, ↓reduceIte]
    · rw [b]
      omega
  · obtain ⟨c1, c2, r1, r2, a, b, c, d⟩ := two_passes libc cfg j name lopt v2 v1 k2 k1 P2 P1 hd
      (by omega) h0 (by omega) (by omega) hv2 hv1 hf2 hf1
    refine ⟨c1, c2, r1, r2, ?_, ?_, c, d⟩
    · rw [a]
      have : ¬ P2 < P1 := by omega
      simp only [this, ↓reduceIte]
    · rw [b]
      omega

/-- Witness of C1: on the example registry, the string parameter `conf` receives
`base.cfg` from a file at priority 1 and `site.cfg` from the command line at priority 5;
in either call order it ends with `site.cfg`. -/
theorem priority_law_different_witness :
    (designates ex_cfg 0 "conf".toList "conf".toList = true ∧ (0 : Int) < 1 ∧ (1 : Int) < 5 ∧
      CFGCLI_SRC_VAL (ex_cfg.params.getD 0 param_zero).src < 1 ∧
      value_ok ex_libc "conf".toList (ex_cfg.params.getD 0 param_zero).dtype
        "base.cfg".toList = true ∧
      value_ok ex_libc "conf".toList (ex_cfg.params.getD 0 param_zero).dtype
        "site.cfg".toList = true ∧
      (entry_line "conf".toList "base.cfg".toList).length + 2 ≤ CFGCLI_STR_INIT_SIZE ∧
      (entry_line "conf".toList "site.cfg".toList).length + 2 ≤ CFGCLI_STR_INIT_SIZE ∧
      (coerce ex_libc (ex_cfg.params.getD 0 param_zero).dtype "site.cfg".toList).2 =
        slot_t.scalar (scalar_t.str "site.cfg".toList)) ∧
    ((∃ c1 c2,
      run_pass ex_libc ex_cfg source_t.file "conf".toList "conf".toList "base.cfg".toList 1 =
        run_t.ret (0, c1) ∧
      run_pass ex_libc c1 source_t.cli "conf".toList "conf".toList "site.cfg".toList 5 =
        run_t.ret (0, c2) ∧
      (c2.params.getD 0 param_zero).slot =
        (coerce ex_libc (ex_cfg.params.getD 0 param_zero).dtype "site.cfg".toList).2 ∧
      CFGCLI_SRC_VAL (c2.params.getD 0 param_zero).src = 5 ∧
      cfgcli_is_set c2 (ex_cfg.params.getD 0 param_zero).var = true ∧
      c2.error = ex_cfg.error) ∧
    (∃ c1 c2,
      run_pass ex_libc ex_cfg source_t.cli "conf".toList "conf".toList "site.cfg".toList 5 =
        run_t.ret (0, c1) ∧
      run_pass ex_libc c1 source_t.file "conf".toList "conf".toList "base.cfg".toList 1 =
        run_t.ret (0, c2) ∧
      (c2.params.getD 0 param_zero).slot =
        (coerce ex_libc (ex_cfg.params.getD 0 param_zero).dtype "site.cfg".toList).2 ∧
      CFGCLI_SRC_VAL (c2.params.getD 0 param_zero).src = 5 ∧
      cfgcli_is_set c2 (ex_cfg.params.getD 0 param_zero).var = true ∧
      c2.error = ex_cfg.error)) :=
  ⟨⟨by decide, by decide, by decide, by decide, by decide, by decide, by decide, by decide,
    by decide⟩,
   priority_law_different ex_libc ex_cfg 0 "conf".toList "conf".toList "base.cfg".toList
     "site.cfg".toList source_t.file source_t.cli 1 5 (by decide) (by decide) (by decide)
     (by decide) (by decide) (by decide) (by decide) (by decide)⟩

/-- C2 (priority law, equal priority): let entry `j` of a registry without error be the
parameter designated by the keyword `name` and the long option `--lopt`, already set at
priority `P` (its source is `P`, set by a file, or `-P`, set by the command line).  A pass
of either kind at the same priority `P` that presents a further value `v` for it (the
command line `prog --lopt=v` with any `v`, or a file holding the entry `name = v` that is
lexed as done and fits the first chunk of the file reader) returns 0 and discards the
value: the registered entries, with the stored value and source, and the sticky code are
as they were, and exactly one message, the duplicate-entry warning for `name`, is appended
to the diagnostics. -/
theorem priority_law_equal (libc : libc_t) (cfg : cfgcli_t) (k : source_t) (j : Nat)
    (name lopt v : List Char) (P : Int) (hd : designates cfg j name lopt = true)
    (h0 : 0 < P)
    (hsrc : (cfg.params.getD j param_zero).src = P ∨ (cfg.params.getD j param_zero).src = -P)
    (hv : k = source_t.file → entry_lexed name v = true ∧ '\n' ∉ v ∧
      (entry_line name v).length + 2 ≤ CFGCLI_STR_INIT_SIZE) :
    ∃ c1, run_pass libc cfg k name lopt v P = run_t.ret (0, c1) ∧
      c1.params = cfg.params ∧ c1.npar = cfg.npar ∧ c1.error.errno = cfg.error.errno ∧
      c1.error.msg = cfg.error.msg ++
        ["omitting duplicate entry of parameter".toList ++ [':', ' '] ++ name] := by
  have hs : CFGCLI_SRC_VAL (cfg.params.getD j param_zero).src = P := by
    simp only [CFGCLI_SRC_VAL]
    rcases hsrc with e | e <;> rw [e] <;> split <;> omega
  have hn : name ≠ [] := by
    intro e
    have := (designates_unpack cfg j name lopt hd).2.2.2.1
    rw [e] at this
    exact Bool.noConfusion this
  refine ⟨_, pass_dup libc cfg k j name lopt v P hd h0 hv hs, ?_⟩
  rw [msg_with_key cfg _ name (by decide) hn]
  exact ⟨rfl, rfl, rfl, rfl⟩

/-- Witness of C2: on the example registry, `conf` is set to `base.cfg` by a file at
priority 1; the command line `prog --conf=site.cfg` at priority 1 is then discarded with
one warning. -/
theorem priority_law_equal_witness :
    (designates
        (ret_cfg (run_pass ex_libc ex_cfg source_t.file "conf".toList "conf".toList
          "base.cfg".toList 1)) 0 "conf".toList "conf".toList = true ∧
      (0 : Int) < 1 ∧
      (((ret_cfg (run_pass ex_libc ex_cfg source_t.file "conf".toList "conf".toList
          "base.cfg".toList 1)).params.getD 0 param_zero).src = 1 ∨
       ((ret_cfg (run_pass ex_libc ex_cfg source_t.file "conf".toList "conf".toList
          "base.cfg".toList 1)).params.getD 0 param_zero).src = -1)) ∧
    ∃ c1,
      run_pass ex_libc
        (ret_cfg (run_pass ex_libc ex_cfg source_t.file "conf".toList "conf".toList
          "base.cfg".toList 1))
        source_t.cli "conf".toList "conf".toList "site.cfg".toList 1 = run_t.ret (0, c1) ∧
      c1.params =
        (ret_cfg (run_pass ex_libc ex_cfg source_t.file "conf".toList "conf".toList
          "base.cfg".toList 1)).params ∧
      c1.npar =
        (ret_cfg (run_pass ex_libc ex_cfg source_t.file "conf".toList "conf".toList
          "base.cfg".toList 1)).npar ∧
      c1.error.errno =
        (ret_cfg (run_pass ex_libc ex_cfg source_t.file "conf".toList "conf".toList
          "base.cfg".toList 1)).error.errno ∧
      c1.error.msg =
        (ret_cfg (run_pass ex_libc ex_cfg source_t.file "conf".toList "conf".toList
          "base.cfg".toList 1)).error.msg ++
        ["omitting duplicate entry of parameter".toList ++ [':', ' '] ++ "conf".toList] :=
  ⟨⟨by decide, by decide, Or.inl (by decide)⟩,
   priority_law_equal ex_libc _ source_t.cli 0 "conf".toList "conf".toList "site.cfg".toList 1
     (by decide) (by decide) (Or.inl (by decide)) (fun h => source_t.noConfusion h)⟩

/-! ## The lexer on an array of bare and quoted elements -/

/-- A quoted element: its quote and what it encloses. -/
theorem quoted_token_cases (t : List Char) (h : quoted_token t = true) :
    ∃ q inner, (q = '"' ∨ q = '\'') ∧ q ∉ inner ∧ NUL ∉ inner ∧ '\n' ∉ inner ∧
      t = q :: (inner ++ [q]) := by
  cases t with
  | nil => simp [quoted_token] at h
  | cons q r =>
    simp only [quoted_token, Bool.and_eq_true, Bool.or_eq_true, beq_iff_eq, List.all_eq_true,
      bne_iff_ne, ne_eq] at h
    obtain ⟨⟨hq, hl⟩, ha⟩ := h
    have hr : r.dropLast ++ [q] = r := List.dropLast_append_getLast? q hl
    refine ⟨q, r.dropLast, hq, ?_, ?_, ?_, by rw [hr]⟩
    · intro hm
      exact (ha q hm).1.1 rfl
    · intro hm
      exact (ha NUL hm).1.2 rfl
    · intro hm
      exact (ha '\n' hm).2 rfl

theorem array_token_cases (t : List Char) (h : array_token t = true) :
    bare_token t = true ∨ quoted_token t = true := by
  simpa only [array_token, Bool.or_eq_true] using h

theorem lex_body_quote_open (L : List Char) (k v nl : Option Nat) (qq : Char) (a : Nat)
    (h : L.getD a NUL = '"' ∨ L.getD a NUL = '\'') :
    lex_body { line := L, key := k, value := v, state := ARRAY_START, quote := qq,
               newline := nl } a =
      lex_step_t.go { line := L, key := k, value := v, state := ARRAY_QUOTE,
                      quote := L.getD a NUL, newline := nl } false := by
  unfold lex_body
  have c1 : (L.getD a NUL == CFGCLI_SYM_ARRAY_SEP || L.getD a NUL == CFGCLI_SYM_ARRAY_END ||
      L.getD a NUL == CFGCLI_SYM_COMMENT) = false := by
    rcases h with h | h <;> rw [h] <;> decide
  have c2 : (L.getD a NUL == '"' || L.getD a NUL == '\'') = true := by
    rcases h with h | h <;> rw [h] <;> decide
  simp only [c1, c2, Bool.false_eq_true, ↓reduceIte]

theorem lex_body_quote_in (L : List Char) (k v nl : Option Nat) (qq : Char) (a : Nat)
    (h : L.getD a NUL ≠ qq) :
    lex_body { line := L, key := k, value := v, state := ARRAY_QUOTE, quote := qq,
               newline := nl } a =
      lex_step_t.go { line := L, key := k, value := v, state := ARRAY_QUOTE, quote := qq,
                      newline := nl } false := by
  unfold lex_body
  have c1 : (L.getD a NUL == qq) = false := by
    simp only [beq_eq_false_iff_ne, ne_eq]
    exact h
  simp only [c1, Bool.false_eq_true, ↓reduceIte]

theorem lex_body_quote_close (L : List Char) (k v nl : Option Nat) (qq : Char) (a : Nat)
    (h : L.getD a NUL = qq) :
    lex_body { line := L, key := k, value := v, state := ARRAY_QUOTE, quote := qq,
               newline := nl } a =
      lex_step_t.go { line := L, key := k, value := v, state := ARRAY_QUOTE_END, quote := qq,
                      newline := nl } false := by
  unfold lex_body
  have c1 : (L.getD a NUL == qq) = true := by
    simp only [beq_iff_eq]
    exact h
  simp only [c1, ↓reduceIte]

theorem lex_body_sep (L : List Char) (k v nl : Option Nat) (qq : Char) (a : Nat)
    (S : cfgcli_parse_state_t) (hS : S = ARRAY_VALUE ∨ S = ARRAY_QUOTE_END)
    (h : L.getD a NUL = ',') :
    lex_body { line := L, key := k, value := v, state := S, quote := qq, newline := nl } a =
      lex_step_t.go { line := L, key := k, value := v, state := ARRAY_START, quote := qq,
                      newline := nl } false := by
  have c1 : (',' == CFGCLI_SYM_ARRAY_SEP) = true := by decide
  rcases hS with rfl | rfl
  · unfold lex_body
    simp only [h, c1, ↓reduceIte]
  · unfold lex_body
    simp only [h, c1, ↓reduceIte]

theorem lex_body_close (L : List Char) (k v nl : Option Nat) (qq : Char) (a : Nat)
    (S : cfgcli_parse_state_t) (hS : S = ARRAY_VALUE ∨ S = ARRAY_QUOTE_END)
    (h : L.getD a NUL = ']') :
    lex_body { line := L, key := k, value := v, state := S, quote := qq, newline := nl } a =
      lex_step_t.go { line := L, key := k, value := v, state := ARRAY_END, quote := qq,
                      newline := nl } false := by
  have c1 : (']' == CFGCLI_SYM_ARRAY_SEP) = false := by decide
  have c2 : (']' == CFGCLI_SYM_ARRAY_END) = true := by decide
  rcases hS with rfl | rfl
  · unfold lex_body
    simp only [h, c1, c2, Bool.false_eq_true, ↓reduceIte]
  · unfold lex_body
    simp only [h, c1, c2, Bool.false_eq_true, ↓reduceIte]

theorem lex_body_start_blank (L : List Char) (k v nl : Option Nat) (qq : Char) (a : Nat)
    (h : L.getD a NUL = ' ') :
    lex_body { line := L, key := k, value := v, state := ARRAY_START, quote := qq,
               newline := nl } a =
      lex_step_t.go { line := L, key := k, value := v, state := ARRAY_START, quote := qq,
                      newline := nl } false := by
  unfold lex_body
  have c1 : (' ' == CFGCLI_SYM_ARRAY_SEP || ' ' == CFGCLI_SYM_ARRAY_END ||
      ' ' == CFGCLI_SYM_COMMENT) = false := by decide
  have c2 : (' ' == '"' || ' ' == '\'') = false := by decide
  have c3 : (' ' == CFGCLI_SYM_NEWLINE) = false := by decide
  have c4 : isgraph ' ' = false := by decide
  have c5 : isspace ' ' = true := by decide
  simp only [h, c1, c2, c3, c4, c5, Bool.false_eq_true, ↓reduceIte, Bool.not_true]

theorem lex_body_qend_bslash (L : List Char) (k v nl : Option Nat) (qq : Char) (a : Nat)
    (h : L.getD a NUL = '\\') :
    lex_body { line := L, key := k, value := v, state := ARRAY_QUOTE_END, quote := qq,
               newline := nl } a =
      lex_step_t.stop ERROR { line := L, key := k, value := v, state := ARRAY_QUOTE_END,
                              quote := qq, newline := nl } := by
  unfold lex_body
  have c1 : ('\\' == CFGCLI_SYM_ARRAY_SEP) = false := by decide
  have c2 : ('\\' == CFGCLI_SYM_ARRAY_END) = false := by decide
  have c3 : isspace '\\' = false := by decide
  simp only [h, c1, c2, c3, Bool.false_eq_true, ↓reduceIte, Bool.not_false]

/-- The lexer on a quoted element from the state `ARRAY_START`: it arrives behind the
closing quote in the state `ARRAY_QUOTE_END`. -/
theorem lex_array_quoted (pre : List Char) (q : Char) (inner post : List Char)
    (hq : q = '"' ∨ q = '\'') (hqi : q ∉ inner) (fuel : Nat) (k v nl : Option Nat) (qq : Char)
    (len : Nat) (hlen : pre.length + (inner.length + 2) ≤ len) :
    parse_line_loop (fuel + (inner.length + 2))
      { line := pre ++ (q :: (inner ++ [q]) ++ post), key := k, value := v,
        state := ARRAY_START, quote := qq, newline := nl } 0 len pre.length =
    parse_line_loop fuel
      { line := pre ++ (q :: (inner ++ [q]) ++ post), key := k, value := v,
        state := ARRAY_QUOTE_END, quote := q, newline := nl } 0 len
      (pre.length + (inner.length + 2)) := by
  have hget : ∀ j, (pre ++ (q :: (inner ++ [q]) ++ post)).getD (pre.length + j) NUL =
      (q :: (inner ++ [q]) ++ post).getD j NUL := fun j => getD_append_right_add _ _ j
  have h0 : (pre ++ (q :: (inner ++ [q]) ++ post)).getD pre.length NUL = q := by
    have := hget 0
    simpa only [Nat.add_zero, List.cons_append, List.getD_cons_zero] using this
  have hopen := lex_body_quote_open (pre ++ (q :: (inner ++ [q]) ++ post)) k v nl qq
    pre.length (by rw [h0]; exact hq)
  rw [h0] at hopen
  rw [show fuel + (inner.length + 2) = ((fuel + 1) + inner.length) + 1 by omega,
    loop_go0 _ _ _ _ pre.length (by omega) hopen]
  rw [loop_stay0 inner.length (fuel + 1) _ _ (pre.length + 1) (by omega)
    (by
      intro j hj
      apply lex_body_quote_in
      have e : pre.length + 1 + j = pre.length + (j + 1) := by omega
      rw [e, hget, List.cons_append, List.getD_cons_succ, List.append_assoc,
        getD_append_left_lt _ _ _ hj]
      intro e2
      exact hqi (e2 ▸ getD_of_mem_index inner j hj))]
  rw [loop_go0 _ _
    { line := pre ++ (q :: (inner ++ [q]) ++ post), key := k, value := v,
      state := ARRAY_QUOTE_END, quote := q, newline := nl } _ (pre.length + 1 + inner.length)
    (by omega)
    (by
      apply lex_body_quote_close
      have e : pre.length + 1 + inner.length = pre.length + (inner.length + 1) := by omega
      rw [e, hget, List.cons_append, List.getD_cons_succ, List.append_assoc]
      have := getD_append_right_add inner ([q] ++ post) 0
      rw [Nat.add_zero] at this
      rw [this]
      rfl)]
  congr 1
  omega

/-- The lexer on an element from the state `ARRAY_START`: it arrives behind the element in
the state `ARRAY_VALUE` (a bare element) or `ARRAY_QUOTE_END` (a quoted one). -/
theorem lex_elem (t : List Char) (ht : array_token t = true) (qq : Char) :
    ∃ S q2, ((S = ARRAY_VALUE ∧ bare_token t = true) ∨ S = ARRAY_QUOTE_END) ∧
      ∀ (pre post : List Char) (fuel : Nat) (k v nl : Option Nat) (len : Nat),
        pre.length + t.length ≤ len →
        parse_line_loop (fuel + t.length)
          { line := pre ++ (t ++ post), key := k, value := v, state := ARRAY_START,
            quote := qq, newline := nl } 0 len pre.length =
        parse_line_loop fuel
          { line := pre ++ (t ++ post), key := k, value := v, state := S, quote := q2,
            newline := nl } 0 len (pre.length + t.length) := by
  rcases array_token_cases t ht with hb | hqt
  · exact ⟨ARRAY_VALUE, qq, Or.inl ⟨rfl, hb⟩, fun pre post fuel k v nl len hlen =>
      lex_array_token pre t post hb fuel k v nl qq len hlen⟩
  · obtain ⟨q, inner, hq, hqi, _, _, e⟩ := quoted_token_cases t hqt
    subst e
    refine ⟨ARRAY_QUOTE_END, q, Or.inr rfl, ?_⟩
    intro pre post fuel k v nl len hlen
    have hl : (q :: (inner ++ [q])).length = inner.length + 2 := by simp
    rw [hl] at hlen ⊢
    exact lex_array_quoted pre q inner post hq hqi fuel k v nl qq len hlen

/-- The lexer on the separator `, ` behind an element: it arrives behind it in the state
`ARRAY_START`. -/
theorem lex_sep (S : cfgcli_parse_state_t) (hS : S = ARRAY_VALUE ∨ S = ARRAY_QUOTE_END)
    (pre post : List Char) (fuel f : Nat) (k v nl : Option Nat) (qq : Char) (len : Nat)
    (L : List Char) (i : Nat) (hL : L = pre ++ ',' :: ' ' :: post) (hi : i = pre.length)
    (hf : f = fuel + 2) (hlen : pre.length + 2 ≤ len) :
    parse_line_loop f
      { line := L, key := k, value := v, state := S, quote := qq, newline := nl } 0 len i =
    parse_line_loop fuel
      { line := L, key := k, value := v, state := ARRAY_START, quote := qq, newline := nl }
      0 len (i + 2) := by
  subst hL hi hf
  have hget : ∀ j, (pre ++ ',' :: ' ' :: post).getD (pre.length + j) NUL =
      (',' :: ' ' :: post).getD j NUL := fun j => getD_append_right_add _ _ j
  rw [show fuel + 2 = (fuel + 1) + 1 by omega, loop_go0 _ _
    { line := pre ++ ',' :: ' ' :: post, key := k, value := v, state := ARRAY_START,
      quote := qq, newline := nl } _ pre.length (by omega)
    (by
      apply lex_body_sep _ _ _ _ _ _ _ hS
      have h0 := hget 0
      simpa only [Nat.add_zero, List.getD_cons_zero] using h0)]
  rw [loop_go0 _ _
    { line := pre ++ ',' :: ' ' :: post, key := k, value := v, state := ARRAY_START,
      quote := qq, newline := nl } _ (pre.length + 1) (by omega)
    (by
      apply lex_body_start_blank
      have h1 := hget 1
      simpa only [List.getD_cons_succ, List.getD_cons_zero] using h1)]

/-- The lexer on the closing bracket that ends the line, behind an element. -/
theorem lex_close (S : cfgcli_parse_state_t) (hS : S = ARRAY_VALUE ∨ S = ARRAY_QUOTE_END)
    (pre : List Char) (fuel f : Nat) (k v nl : Option Nat) (qq : Char) (len : Nat)
    (L : List Char) (i : Nat) (hL : L = pre ++ [']']) (hi : i = pre.length)
    (hf : f = fuel + 2) (hlen : len = pre.length + 1) :
    parse_line_loop f
      { line := L, key := k, value := v, state := S, quote := qq, newline := nl } 0 len i =
    run_t.ret (DONE,
      { line := L, key := k, value := v, state := ARRAY_END, quote := qq, newline := nl }) := by
  subst hL hi hf hlen
  have hget : (pre ++ [']']).getD pre.length NUL = ']' := by
    have := getD_append_right_add pre [']'] 0
    rw [Nat.add_zero] at this
    rw [this]
    rfl
  rw [show fuel + 2 = (fuel + 1) + 1 by omega, loop_go0 _ _
    { line := pre ++ [']'], key := k, value := v, state := ARRAY_END, quote := qq,
      newline := nl } _ pre.length (by omega) (lex_body_close _ _ _ _ _ _ _ hS hget)]
  rw [loop_end _ _ _ _ _ (by omega)]
  rfl

/-- The lexer on a backslash that ends the line, directly behind an element: `ERROR`, the
buffer and the pointers as they were. -/
theorem lex_bslash (S : cfgcli_parse_state_t) (hS : S = ARRAY_VALUE ∨ S = ARRAY_QUOTE_END)
    (pre : List Char) (fuel f : Nat) (k v nl : Option Nat) (qq : Char) (len : Nat)
    (L : List Char) (i : Nat) (hL : L = pre ++ ['\\']) (hi : i = pre.length)
    (hf : f = fuel + 2) (hlen : len = pre.length + 1) :
    parse_line_loop f
      { line := L, key := k, value := v, state := S, quote := qq, newline := nl } 0 len i =
    run_t.ret (ERROR,
      { line := L, key := k, value := v, state := S, quote := qq, newline := nl }) := by
  subst hL hi hf hlen
  have hget : (pre ++ ['\\']).getD pre.length NUL = '\\' := by
    have := getD_append_right_add pre ['\\'] 0
    rw [Nat.add_zero] at this
    rw [this]
    rfl
  rcases hS with rfl | rfl
  · rw [show fuel + 2 = (fuel + 1) + 1 by omega, loop_go0 _ _
      { line := pre ++ ['\\'], key := k, value := v, state := ARRAY_VALUE, quote := qq,
        newline := nl } _ pre.length (by omega)
      (by
        apply lex_body_array_tail
        rw [hget]
        decide)]
    rw [loop_end _ _ _ _ _ (by omega)]
    rfl
  · rw [show fuel + 2 = (fuel + 1) + 1 by omega]
    exact loop_stop0 _ _ _ _ pre.length ERROR (by omega)
      (lex_body_qend_bslash _ _ _ _ _ _ hget)

/-- The lexer on the elements `t1, ..., tn, ` of an array, each followed by a separator,
from the state `ARRAY_START`: it arrives behind the last separator in the state
`ARRAY_START`. -/
theorem lex_elems_sep (ts : List (List Char)) (hts : ts ≠ [])
    (hb : ∀ t ∈ ts, array_token t = true) :
    ∀ (qq : Char), ∃ q2, ∀ (pre post : List Char) (fuel : Nat) (k v nl : Option Nat)
      (len : Nat), pre.length + ((join_elems ts).length + 2) ≤ len →
      parse_line_loop (fuel + ((join_elems ts).length + 2))
        { line := pre ++ (join_elems ts ++ ',' :: ' ' :: post), key := k, value := v,
          state := ARRAY_START, quote := qq, newline := nl } 0 len pre.length =
      parse_line_loop fuel
        { line := pre ++ (join_elems ts ++ ',' :: ' ' :: post), key := k, value := v,
          state := ARRAY_START, quote := q2, newline := nl } 0 len
        (pre.length + ((join_elems ts).length + 2)) := by
  induction ts with
  | nil => exact absurd rfl hts
  | cons t us ih =>
    intro qq
    have ht := hb t (List.mem_cons_self _ _)
    obtain ⟨S, q1, hS, hrun⟩ := lex_elem t ht qq
    have hS2 : S = ARRAY_VALUE ∨ S = ARRAY_QUOTE_END := by
      rcases hS with h | h
      · exact Or.inl h.1
      · exact Or.inr h
    cases us with
    | nil =>
      refine ⟨q1, ?_⟩
      intro pre post fuel k v nl len hlen
      simp only [join_elems] at hlen ⊢
      rw [show fuel + (t.length + 2) = (fuel + 2) + t.length by omega,
        hrun pre (',' :: ' ' :: post) (fuel + 2) k v nl len (by omega)]
      rw [lex_sep S hS2 (pre ++ t) post fuel _ k v nl q1 len _ _ (by simp) (by simp) rfl
        (by simp only [List.length_append]; omega)]
      rw [Nat.add_assoc]
    | cons u rest =>
      obtain ⟨q2, hrest⟩ := ih (by simp) (fun x hx => hb x (List.mem_cons_of_mem _ hx)) q1
      refine ⟨q2, ?_⟩
      intro pre post fuel k v nl len hlen
      have hj : join_elems (t :: u :: rest) = t ++ ',' :: ' ' :: join_elems (u :: rest) := rfl
      rw [hj] at hlen ⊢
      simp only [List.length_append, List.length_cons] at hlen
      have e0 : pre ++ (t ++ ',' :: ' ' :: join_elems (u :: rest) ++ ',' :: ' ' :: post) =
          pre ++ (t ++ (',' :: ' ' :: (join_elems (u :: rest) ++ ',' :: ' ' :: post))) := by
        simp
      rw [e0]
      rw [show fuel + ((t ++ ',' :: ' ' :: join_elems (u :: rest)).length + 2) =
          (fuel + ((join_elems (u :: rest)).length + 2) + 2) + t.length by
        simp only [List.length_append, List.length_cons]
        omega,
        hrun pre (',' :: ' ' :: (join_elems (u :: rest) ++ ',' :: ' ' :: post))
          (fuel + ((join_elems (u :: rest)).length + 2) + 2) k v nl len (by omega)]
      rw [lex_sep S hS2 (pre ++ t) (join_elems (u :: rest) ++ ',' :: ' ' :: post)
        (fuel + ((join_elems (u :: rest)).length + 2)) _ k v nl q1 len _ _ (by simp) (by simp)
        rfl (by simp only [List.length_append]; omega)]
      have := hrest (pre ++ t ++ [',', ' ']) post fuel k v nl len
        (by simp only [List.length_append, List.length_cons, List.length_nil]; omega)
      have e1 : pre ++ (t ++ (',' :: ' ' :: (join_elems (u :: rest) ++ ',' :: ' ' :: post))) =
          pre ++ t ++ [',', ' '] ++ (join_elems (u :: rest) ++ ',' :: ' ' :: post) := by simp
      have e2 : (pre ++ t ++ [',', ' ']).length = pre.length + t.length + 2 := by
        simp only [List.length_append, List.length_cons, List.length_nil]
      rw [e2] at this
      rw [e1, this]
      congr 1
      simp only [List.length_append, List.length_cons]
      omega

/-- The lexer on the elements `t1, ..., tn]` of an array that ends the line, from the state
`ARRAY_START`: it returns `DONE`, the buffer and the pointers as they were. -/
theorem lex_elems_close (ts : List (List Char)) (hts : ts ≠ [])
    (hb : ∀ t ∈ ts, array_token t = true) :
    ∀ (qq : Char), ∃ q2, ∀ (pre : List Char) (fuel : Nat) (k v nl : Option Nat),
      parse_line_loop (fuel + ((join_elems ts).length + 2))
        { line := pre ++ (join_elems ts ++ [']']), key := k, value := v,
          state := ARRAY_START, quote := qq, newline := nl } 0
        (pre.length + ((join_elems ts).length + 1)) pre.length =
      run_t.ret (DONE,
        { line := pre ++ (join_elems ts ++ [']']), key := k, value := v, state := ARRAY_END,
          quote := q2, newline := nl }) := by
  induction ts with
  | nil => exact absurd rfl hts
  | cons t us ih =>
    intro qq
    have ht := hb t (List.mem_cons_self _ _)
    obtain ⟨S, q1, hS, hrun⟩ := lex_elem t ht qq
    have hS2 : S = ARRAY_VALUE ∨ S = ARRAY_QUOTE_END := by
      rcases hS with h | h
      · exact Or.inl h.1
      · exact Or.inr h
    cases us with
    | nil =>
      refine ⟨q1, ?_⟩
      intro pre fuel k v nl
      simp only [join_elems]
      rw [show fuel + (t.length + 2) = (fuel + 2) + t.length by omega,
        hrun pre [']'] (fuel + 2) k v nl _ (by omega)]
      exact lex_close S hS2 (pre ++ t) fuel _ k v nl q1 _ _ _ (by simp) (by simp) rfl
        (by simp; omega)
    | cons u rest =>
      obtain ⟨q2, hrest⟩ := ih (by simp) (fun x hx => hb x (List.mem_cons_of_mem _ hx)) q1
      refine ⟨q2, ?_⟩
      intro pre fuel k v nl
      have hj : join_elems (t :: u :: rest) = t ++ ',' :: ' ' :: join_elems (u :: rest) := rfl
      rw [hj]
      have e0 : pre ++ (t ++ ',' :: ' ' :: join_elems (u :: rest) ++ [']']) =
          pre ++ (t ++ (',' :: ' ' :: (join_elems (u :: rest) ++ [']']))) := by simp
      rw [e0]
      rw [show fuel + ((t ++ ',' :: ' ' :: join_elems (u :: rest)).length + 2) =
          (fuel + ((join_elems (u :: rest)).length + 2) + 2) + t.length by
        simp only [List.length_append, List.length_cons]
        omega,
        hrun pre (',' :: ' ' :: (join_elems (u :: rest) ++ [']']))
          (fuel + ((join_elems (u :: rest)).length + 2) + 2) k v nl _
          (by simp only [List.length_append, List.length_cons]; omega)]
      rw [lex_sep S hS2 (pre ++ t) (join_elems (u :: rest) ++ [']'])
        (fuel + ((join_elems (u :: rest)).length + 2)) _ k v nl q1 _ _ _ (by simp) (by simp)
        rfl (by simp only [List.length_append, List.length_cons]; omega)]
      have := hrest (pre ++ t ++ [',', ' ']) fuel k v nl
      have e1 : pre ++ t ++ [',', ' '] ++ (join_elems (u :: rest) ++ [']']) =
          pre ++ (t ++ (',' :: ' ' :: (join_elems (u :: rest) ++ [']']))) := by simp
      have e2 : (pre ++ t ++ [',', ' ']).length = pre.length + t.length + 2 := by
        simp only [List.length_append, List.length_cons, List.length_nil]
      have e3 : (pre ++ t ++ [',', ' ']).length + ((join_elems (u :: rest)).length + 1) =
          pre.length + ((t ++ ',' :: ' ' :: join_elems (u :: rest)).length + 1) := by
        simp only [List.length_append, List.length_cons, List.length_nil]
        omega
      rw [e1, e3, e2] at this
      exact this

/-- The lexer on the elements `t1, ..., tn` of an array followed by a backslash that ends
the line, from the state `ARRAY_START`: it returns `ERROR`, the buffer and the pointers
as they were. -/
theorem lex_elems_bslash (ts : List (List Char)) (hts : ts ≠ [])
    (hb : ∀ t ∈ ts, array_token t = true) :
    ∀ (qq : Char), ∃ S q2, ∀ (pre : List Char) (fuel : Nat) (k v nl : Option Nat),
      parse_line_loop (fuel + ((join_elems ts).length + 2))
        { line := pre ++ (join_elems ts ++ ['\\']), key := k, value := v,
          state := ARRAY_START, quote := qq, newline := nl } 0
        (pre.length + ((join_elems ts).length + 1)) pre.length =
      run_t.ret (ERROR,
        { line := pre ++ (join_elems ts ++ ['\\']), key := k, value := v, state := S,
          quote := q2, newline := nl }) := by
  induction ts with
  | nil => exact absurd rfl hts
  | cons t us ih =>
    intro qq
    have ht := hb t (List.mem_cons_self _ _)
    obtain ⟨S, q1, hS, hrun⟩ := lex_elem t ht qq
    have hS2 : S = ARRAY_VALUE ∨ S = ARRAY_QUOTE_END := by
      rcases hS with h | h
      · exact Or.inl h.1
      · exact Or.inr h
    cases us with
    | nil =>
      refine ⟨S, q1, ?_⟩
      intro pre fuel k v nl
      simp only [join_elems]
      rw [show fuel + (t.length + 2) = (fuel + 2) + t.length by omega,
        hrun pre ['\\'] (fuel + 2) k v nl _ (by omega)]
      exact lex_bslash S hS2 (pre ++ t) fuel _ k v nl q1 _ _ _ (by simp) (by simp) rfl
        (by simp; omega)
    | cons u rest =>
      obtain ⟨S2, q2, hrest⟩ := ih (by simp) (fun x hx => hb x (List.mem_cons_of_mem _ hx)) q1
      refine ⟨S2, q2, ?_⟩
      intro pre fuel k v nl
      have hj : join_elems (t :: u :: rest) = t ++ ',' :: ' ' :: join_elems (u :: rest) := rfl
      rw [hj]
      have e0 : pre ++ (t ++ ',' :: ' ' :: join_elems (u :: rest) ++ ['\\']) =
          pre ++ (t ++ (',' :: ' ' :: (join_elems (u :: rest) ++ ['\\']))) := by simp
      rw [e0]
      rw [show fuel + ((t ++ ',' :: ' ' :: join_elems (u :: rest)).length + 2) =
          (fuel + ((join_elems (u :: rest)).length + 2) + 2) + t.length by
        simp only [List.length_append, List.length_cons]
        omega,
        hrun pre (',' :: ' ' :: (join_elems (u :: rest) ++ ['\\']))
          (fuel + ((join_elems (u :: rest)).length + 2) + 2) k v nl _
          (by simp only [List.length_append, List.length_cons]; omega)]
      rw [lex_sep S hS2 (pre ++ t) (join_elems (u :: rest) ++ ['\\'])
        (fuel + ((join_elems (u :: rest)).length + 2)) _ k v nl q1 _ _ _ (by simp) (by simp)
        rfl (by simp only [List.length_append, List.length_cons]; omega)]
      have := hrest (pre ++ t ++ [',', ' ']) fuel k v nl
      have e1 : pre ++ t ++ [',', ' '] ++ (join_elems (u :: rest) ++ ['\\']) =
          pre ++ (t ++ (',' :: ' ' :: (join_elems (u :: rest) ++ ['\\']))) := by simp
      have e2 : (pre ++ t ++ [',', ' ']).length = pre.length + t.length + 2 := by
        simp only [List.length_append, List.length_cons, List.length_nil]
      have e3 : (pre ++ t ++ [',', ' ']).length + ((join_elems (u :: rest)).length + 1) =
          pre.length + ((t ++ ',' :: ' ' :: join_elems (u :: rest)).length + 1) := by
        simp only [List.length_append, List.length_cons, List.length_nil]
        omega
      rw [e1, e3, e2] at this
      exact this

/-- The first line of a broken entry is lexed as `CONTINUE`: the keyword and the value are
recorded, and the backslash becomes a blank. -/
theorem parse_line_broken_head (name : List Char) (ts : List (List Char))
    (hn : name_grammar name = true) (hts : ts ≠ []) (hb : ∀ t ∈ ts, array_token t = true) :
    cfgcli_parse_line (broken_head name ts) 0 (broken_head name ts).length none none START =
      run_t.ret (CONTINUE,
        name ++ NUL :: '=' :: ' ' :: '[' :: (join_elems ts ++ [',', ' ', ' ']), some 0,
        some (name.length + 3)) := by
  have hbh : broken_head name ts =
      name ++ ' ' :: '=' :: ' ' :: ('[' :: (join_elems ts ++ [',', ' ', '\\'])) := rfl
  have hlen : (broken_head name ts).length =
      name.length + 3 + ('[' :: (join_elems ts ++ [',', ' ', '\\'])).length := by
    rw [hbh]
    simp only [List.length_append, List.length_cons]
    omega
  have hal : ('[' :: (join_elems ts ++ [',', ' ', '\\'])).length =
      (join_elems ts).length + 4 := by simp
  have hne : (broken_head name ts).getD 0 NUL ≠ NUL := by
    rw [hbh]
    cases name with
    | nil => simp [name_grammar] at hn
    | cons c cs =>
      simp only [List.cons_append, List.getD_cons_zero]
      exact name_head_ne_NUL (name_grammar_cons c cs hn).1
  unfold cfgcli_parse_line
  have hcond : ((broken_head name ts).getD 0 NUL == NUL ||
      (broken_head name ts).length == 0) = false := by
    simp only [Bool.or_eq_false_iff, beq_eq_false_iff_ne, ne_eq]
    refine ⟨hne, ?_⟩
    rw [hlen]
    omega
  rw [hcond]
  simp only [Bool.false_eq_true, ↓reduceIte]
  rw [hlen, hbh]
  have hf : 2 * (name.length + 3 + ('[' :: (join_elems ts ++ [',', ' ', '\\'])).length) + 1 =
      ((((name.length + (join_elems ts).length + 7) + 1) + 1) +
        ((join_elems ts).length + 2) + 1) + (name.length + 3) := by
    rw [hal]
    omega
  rw [hf, lex_entry_head name _ hn]
  -- the opening bracket
  have hget : (name ++ NUL :: '=' :: ' ' :: '[' :: (join_elems ts ++ [',', ' ', '\\'])).getD
      (name.length + 3) NUL = '[' := by
    have e : name ++ NUL :: '=' :: ' ' :: '[' :: (join_elems ts ++ [',', ' ', '\\']) =
        (name ++ [NUL, '=', ' ']) ++ '[' :: (join_elems ts ++ [',', ' ', '\\']) := by simp
    have e2 : name.length + 3 = (name ++ [NUL, '=', ' ']).length + 0 := by simp
    rw [e, e2, getD_append_right_add]
    rfl
  rw [loop_go0 _ _
    { line := name ++ NUL :: '=' :: ' ' :: '[' :: (join_elems ts ++ [',', ' ', '\\']),
      key := some 0, value := some (name.length + 3), state := ARRAY_START, quote := NUL,
      newline := none }
    _ _ (by rw [hal]; omega)
    (by
      unfold lex_body
      simp only [hget]
      have c1 : ('[' == '"' || '[' == '\'') = false := by decide
      have c2 : ('[' == CFGCLI_SYM_ARRAY_START) = true := by decide
      simp only [c1, c2, Bool.false_eq_true, ↓reduceIte])]
  -- the elements and their separators
  obtain ⟨q2, hp0⟩ := lex_elems_sep ts hts hb NUL
  have hp := hp0 (name ++ [NUL, '=', ' ', '[']) ['\\']
    (((name.length + (join_elems ts).length + 7) + 1) + 1)
    (some 0) (some (name.length + 3)) none
    (name.length + 3 + ('[' :: (join_elems ts ++ [',', ' ', '\\'])).length)
    (by
      rw [hal]
      simp only [List.length_append, List.length_cons, List.length_nil]
      omega)
  have e3 : name ++ [NUL, '=', ' ', '['] ++ (join_elems ts ++ [',', ' ', '\\']) =
      name ++ NUL :: '=' :: ' ' :: '[' :: (join_elems ts ++ [',', ' ', '\\']) := by simp
  have e4 : (name ++ [NUL, '=', ' ', '[']).length = name.length + 3 + 1 := by simp
  rw [e3, e4] at hp
  rw [hp]
  -- the backslash
  have hget2 : (name ++ NUL :: '=' :: ' ' :: '[' :: (join_elems ts ++ [',', ' ', '\\'])).getD
      (name.length + 3 + 1 + ((join_elems ts).length + 2)) NUL = '\\' := by
    have e : name ++ NUL :: '=' :: ' ' :: '[' :: (join_elems ts ++ [',', ' ', '\\']) =
        (name ++ [NUL, '=', ' ', '['] ++ join_elems ts ++ [',', ' ']) ++ ['\\'] := by simp
    have e2 : name.length + 3 + 1 + ((join_elems ts).length + 2) =
        (name ++ [NUL, '=', ' ', '['] ++ join_elems ts ++ [',', ' ']).length + 0 := by
      simp only [List.length_append, List.length_cons, List.length_nil]
      omega
    rw [e, e2, getD_append_right_add]
    rfl
  rw [loop_go0 _ _
    { line := name ++ NUL :: '=' :: ' ' :: '[' :: (join_elems ts ++ [',', ' ', '\\']),
      key := some 0, value := some (name.length + 3), state := ARRAY_NEWLINE, quote := q2,
      newline := some (name.length + 3 + 1 + ((join_elems ts).length + 2)) }
    _ _ (by rw [hal]; omega)
    (by
      unfold lex_body
      simp only [hget2]
      have c1 : ('\\' == CFGCLI_SYM_ARRAY_SEP || '\\' == CFGCLI_SYM_ARRAY_END ||
          '\\' == CFGCLI_SYM_COMMENT) = false := by decide
      have c2 : ('\\' == '"' || '\\' == '\'') = false := by decide
      have c3 : ('\\' == CFGCLI_SYM_NEWLINE) = true := by decide
      simp only [c1, c2, c3, Bool.false_eq_true, ↓reduceIte])]
  -- the end of the line
  rw [loop_end _ _ _ _ _ (by rw [hal]; omega)]
  simp only [lex_final, poke]
  have e5 : name ++ NUL :: '=' :: ' ' :: '[' :: (join_elems ts ++ [',', ' ', '\\']) =
      (name ++ [NUL, '=', ' ', '['] ++ join_elems ts ++ [',', ' ']) ++ ['\\'] := by simp
  have e6 : name.length + 3 + 1 + ((join_elems ts).length + 2) =
      (name ++ [NUL, '=', ' ', '['] ++ join_elems ts ++ [',', ' ']).length + 0 := by
    simp only [List.length_append, List.length_cons, List.length_nil]
    omega
  rw [e5, e6, set_append_add]
  simp

/-- The scanning loop for a line at offset `p` is the scanning loop for the buffer from
index 0 on, started at index `p`. -/
theorem loop_shift (p len : Nat) :
    ∀ (fuel : Nat) (s : lex_t) (i : Nat),
      parse_line_loop fuel s p len i = parse_line_loop fuel s 0 (p + len) (p + i) := by
  intro fuel
  induction fuel with
  | zero =>
    intro s i
    rfl
  | succ fuel ih =>
    intro s i
    unfold parse_line_loop
    by_cases hi : i < len
    · have hi2 : p + i < p + len := by omega
      simp only [hi, hi2, ↓reduceIte, Nat.zero_add]
      cases lex_body s (p + i) with
      | go s1 b =>
        simp only
        rw [ih]
        cases b with
        | true => rfl
        | false => rfl
      | stop r s1 => rfl
      | crash => rfl
    · have hi2 : ¬ p + i < p + len := by omega
      simp only [hi, hi2, ↓reduceIte]

theorem array_token_head (t : List Char) (h : array_token t = true) :
    ∃ c cs, t = c :: cs ∧ c ≠ NUL := by
  rcases array_token_cases t h with hb | hq
  · cases t with
    | nil => simp [bare_token] at hb
    | cons c cs =>
      obtain ⟨hc, _⟩ := bare_token_cons c cs hb
      refine ⟨c, cs, rfl, ?_⟩
      intro e
      rw [e] at hc
      revert hc
      decide
  · obtain ⟨q, inner, hq1, _, _, _, e⟩ := quoted_token_cases t hq
    refine ⟨q, inner ++ [q], e, ?_⟩
    rcases hq1 with rfl | rfl <;> decide

theorem join_elems_head (ts : List (List Char)) (hts : ts ≠ [])
    (hb : ∀ t ∈ ts, array_token t = true) :
    ∃ c cs, join_elems ts = c :: cs ∧ c ≠ NUL := by
  cases ts with
  | nil => exact absurd rfl hts
  | cons t us =>
    obtain ⟨c, cs, e, hc⟩ := array_token_head t (hb t (List.mem_cons_self _ _))
    subst e
    cases us with
    | nil => exact ⟨c, cs, rfl, hc⟩
    | cons u rest => exact ⟨c, _, rfl, hc⟩

/-- The second line of a broken entry, lexed in the chunk from the state `ARRAY_START`
with the pointers that the first line left: `DONE`, and nothing changes. -/
theorem parse_line_broken_tail (PRE R : List Char) (ts : List (List Char)) (hts : ts ≠ [])
    (hb : ∀ t ∈ ts, array_token t = true) (k v : Option Nat) :
    cfgcli_parse_line (PRE ++ broken_tail ts ++ R) PRE.length (broken_tail ts).length k v
      ARRAY_START =
      run_t.ret (DONE, PRE ++ broken_tail ts ++ R, k, v) := by
  obtain ⟨c, cs, hj, hcn⟩ := join_elems_head ts hts hb
  have hlen : (broken_tail ts).length = (join_elems ts).length + 1 := by simp [broken_tail]
  have hget : (PRE ++ broken_tail ts ++ R).getD PRE.length NUL = c := by
    have := getD_append_right_add PRE (broken_tail ts ++ R) 0
    rw [Nat.add_zero] at this
    rw [List.append_assoc, this, broken_tail, hj]
    rfl
  unfold cfgcli_parse_line
  have hcond : ((PRE ++ broken_tail ts ++ R).getD PRE.length NUL == NUL ||
      (broken_tail ts).length == 0) = false := by
    simp only [hget, Bool.or_eq_false_iff, beq_eq_false_iff_ne, ne_eq]
    exact ⟨hcn, by omega⟩
  rw [hcond]
  simp only [Bool.false_eq_true, ↓reduceIte]
  rw [loop_shift]
  obtain ⟨q2, hrun0⟩ := lex_elems_close ts hts hb NUL
  have hrun := hrun0 PRE ((join_elems ts).length + 1) k v none
  have hfr := loop_frame R 0 (PRE.length + ((join_elems ts).length + 1))
    ((join_elems ts).length + 1 + ((join_elems ts).length + 2))
    (PRE ++ (join_elems ts ++ [']'])) k v none ARRAY_START NUL PRE.length
    (by simp only [List.length_append, List.length_singleton]; omega)
    (fun x hx => Option.noConfusion hx) _ _ hrun
  have e1 : 2 * (broken_tail ts).length + 1 =
      (join_elems ts).length + 1 + ((join_elems ts).length + 2) := by
    rw [hlen]
    omega
  rw [e1, hlen]
  have e2 : PRE ++ broken_tail ts ++ R = PRE ++ (join_elems ts ++ [']']) ++ R := by
    rw [broken_tail]
  rw [e2]
  simp only [Nat.add_zero]
  rw [hfr.1]

/-! ## The lexer on whole entries of bare and quoted elements -/

/-- The lexer on a whole entry `name = [t1, ..., tn]` of bare and quoted elements: it
returns `DONE`, the keyword at index 0 and the value at the opening bracket; the only byte
it changes is the blank behind the keyword, which becomes a NUL. -/
theorem parse_line_elems (name : List Char) (ts : List (List Char))
    (hn : name_grammar name = true) (hts : ts ≠ []) (hb : ∀ t ∈ ts, array_token t = true) :
    cfgcli_parse_line (name ++ ' ' :: '=' :: ' ' :: array_text ts) 0
      (name ++ ' ' :: '=' :: ' ' :: array_text ts).length none none START =
      run_t.ret (DONE, name ++ NUL :: '=' :: ' ' :: array_text ts, some 0,
        some (name.length + 3)) := by
  have hlen : (name ++ ' ' :: '=' :: ' ' :: array_text ts).length =
      name.length + 3 + (array_text ts).length := by
    simp only [List.length_append, List.length_cons]
    omega
  have hne : (name ++ ' ' :: '=' :: ' ' :: array_text ts).getD 0 NUL ≠ NUL := by
    cases name with
    | nil => simp [name_grammar] at hn
    | cons c cs =>
      simp only [List.cons_append, List.getD_cons_zero]
      exact name_head_ne_NUL (name_grammar_cons c cs hn).1
  unfold cfgcli_parse_line
  have hcond : ((name ++ ' ' :: '=' :: ' ' :: array_text ts).getD 0 NUL == NUL ||
      (name ++ ' ' :: '=' :: ' ' :: array_text ts).length == 0) = false := by
    simp only [Bool.or_eq_false_iff, beq_eq_false_iff_ne, ne_eq]
    refine ⟨hne, ?_⟩
    rw [hlen]
    omega
  rw [hcond]
  simp only [Bool.false_eq_true, ↓reduceIte]
  rw [hlen]
  have hal : (array_text ts).length = (join_elems ts).length + 2 := by simp [array_text]
  have hf : 2 * (name.length + 3 + (array_text ts).length) + 1 =
      (((name.length + 3 + (array_text ts).length) + ((join_elems ts).length + 2)) + 1) +
        (name.length + 3) := by
    rw [hal]
    omega
  rw [hf, lex_entry_head name (array_text ts) hn]
  have hget : (name ++ NUL :: '=' :: ' ' :: array_text ts).getD (name.length + 3) NUL = '[' := by
    have e : name ++ NUL :: '=' :: ' ' :: array_text ts =
        (name ++ [NUL, '=', ' ']) ++ array_text ts := by simp
    have e2 : name.length + 3 = (name ++ [NUL, '=', ' ']).length + 0 := by simp
    rw [e, e2, getD_append_right_add]
    rfl
  rw [loop_go0 _ _
    { line := name ++ NUL :: '=' :: ' ' :: array_text ts, key := some 0,
      value := some (name.length + 3), state := ARRAY_START, quote := NUL, newline := none }
    _ _ (by rw [hal]; omega)
    (by
      unfold lex_body
      simp only [hget]
      have c1 : ('[' == '"' || '[' == '\'') = false := by decide
      have c2 : ('[' == CFGCLI_SYM_ARRAY_START) = true := by decide
      simp only [c1, c2, Bool.false_eq_true, ↓reduceIte])]
  obtain ⟨q2, h0⟩ := lex_elems_close ts hts hb NUL
  have h := h0 (name ++ [NUL, '=', ' ', '['])
    (name.length + 3 + (array_text ts).length) (some 0) (some (name.length + 3)) none
  have e3 : name ++ [NUL, '=', ' ', '['] ++ (join_elems ts ++ [']']) =
      name ++ NUL :: '=' :: ' ' :: array_text ts := by simp [array_text]
  have e4 : (name ++ [NUL, '=', ' ', '[']).length = name.length + 3 + 1 := by simp
  have e5 : name.length + 3 + 1 + ((join_elems ts).length + 1) =
      name.length + 3 + (array_text ts).length := by
    rw [hal]
    omega
  rw [e3, e4, e5] at h
  rw [h]

/-- The lexer on the first line of an entry broken directly behind an element,
`name = [t1, ..., tk` and a backslash: it returns `ERROR`. -/
theorem parse_line_elem_bslash (name : List Char) (ts : List (List Char))
    (hn : name_grammar name = true) (hts : ts ≠ []) (hb : ∀ t ∈ ts, array_token t = true) :
    cfgcli_parse_line (name ++ ' ' :: '=' :: ' ' :: ('[' :: (join_elems ts ++ ['\\']))) 0
      (name ++ ' ' :: '=' :: ' ' :: ('[' :: (join_elems ts ++ ['\\']))).length none none START =
      run_t.ret (ERROR, name ++ NUL :: '=' :: ' ' :: ('[' :: (join_elems ts ++ ['\\'])), some 0,
        some (name.length + 3)) := by
  have hlen : (name ++ ' ' :: '=' :: ' ' :: ('[' :: (join_elems ts ++ ['\\']))).length =
      name.length + 3 + (('[' :: (join_elems ts ++ ['\\']))).length := by
    simp only [List.length_append, List.length_cons]
    omega
  have hne : (name ++ ' ' :: '=' :: ' ' :: ('[' :: (join_elems ts ++ ['\\']))).getD 0 NUL ≠ NUL := by
    cases name with
    | nil => simp [name_grammar] at hn
    | cons c cs =>
      simp only [List.cons_append, List.getD_cons_zero]
      exact name_head_ne_NUL (name_grammar_cons c cs hn).1
  unfold cfgcli_parse_line
  have hcond : ((name ++ ' ' :: '=' :: ' ' :: ('[' :: (join_elems ts ++ ['\\']))).getD 0 NUL == NUL ||
      (name ++ ' ' :: '=' :: ' ' :: ('[' :: (join_elems ts ++ ['\\']))).length == 0) = false := by
    simp only [Bool.or_eq_false_iff, beq_eq_false_iff_ne, ne_eq]
    refine ⟨hne, ?_⟩
    rw [hlen]
    omega
  rw [hcond]
  simp only [Bool.false_eq_true, ↓reduceIte]
  rw [hlen]
  have hal : (('[' :: (join_elems ts ++ ['\\']))).length = (join_elems ts).length + 2 := by simp
  have hf : 2 * (name.length + 3 + (('[' :: (join_elems ts ++ ['\\']))).length) + 1 =
      (((name.length + 3 + (('[' :: (join_elems ts ++ ['\\']))).length) + ((join_elems ts).length + 2)) + 1) +
        (name.length + 3) := by
    rw [hal]
    omega
  rw [hf, lex_entry_head name (('[' :: (join_elems ts ++ ['\\']))) hn]
  have hget : (name ++ NUL :: '=' :: ' ' :: ('[' :: (join_elems ts ++ ['\\']))).getD (name.length + 3) NUL = '[' := by
    have e : name ++ NUL :: '=' :: ' ' :: ('[' :: (join_elems ts ++ ['\\'])) =
        (name ++ [NUL, '=', ' ']) ++ ('[' :: (join_elems ts ++ ['\\'])) := by simp
    have e2 : name.length + 3 = (name ++ [NUL, '=', ' ']).length + 0 := by simp
    rw [e, e2, getD_append_right_add]
    rfl
  rw [loop_go0 _ _
    { line := name ++ NUL :: '=' :: ' ' :: ('[' :: (join_elems ts ++ ['\\'])), key := some 0,
      value := some (name.length + 3), state := ARRAY_START, quote := NUL, newline := none }
    _ _ (by rw [hal]; omega)
    (by
      unfold lex_body
      simp only [hget]
      have c1 : ('[' == '"' || '[' == '\'') = false := by decide
      have c2 : ('[' == CFGCLI_SYM_ARRAY_START) = true := by decide
      simp only [c1, c2, Bool.false_eq_true, ↓reduceIte])]
  obtain ⟨S2, q2, h0⟩ := lex_elems_bslash ts hts hb NUL
  have h := h0 (name ++ [NUL, '=', ' ', '['])
    (name.length + 3 + (('[' :: (join_elems ts ++ ['\\']))).length) (some 0) (some (name.length + 3)) none
  have e3 : name ++ [NUL, '=', ' ', '['] ++ (join_elems ts ++ ['\\']) =
      name ++ NUL :: '=' :: ' ' :: ('[' :: (join_elems ts ++ ['\\'])) := by simp
  have e4 : (name ++ [NUL, '=', ' ', '[']).length = name.length + 3 + 1 := by simp
  have e5 : name.length + 3 + 1 + ((join_elems ts).length + 1) =
      name.length + 3 + (('[' :: (join_elems ts ++ ['\\']))).length := by
    rw [hal]
    omega
  rw [e3, e4, e5] at h
  rw [h]

/-! ## Line continuation: the file reader on an entry broken over two lines -/

theorem bare_token_printable (t : List Char) (h : bare_token t = true) :
    ∀ c ∈ t, isprint c = true := by
  cases t with
  | nil => simp
  | cons a as =>
    obtain ⟨ha, has⟩ := bare_token_cons a as h
    intro c hc
    rcases List.mem_cons.1 hc with e | e
    · rw [e]
      have hg := (bare_head_facts ha).1
      simp only [isgraph, Bool.and_eq_true, decide_eq_true_eq] at hg
      simp only [isprint, Bool.and_eq_true, decide_eq_true_eq]
      omega
    · exact (bare_tail_facts (has c e)).1

theorem join_elems_printable (ts : List (List Char)) (hb : ∀ t ∈ ts, bare_token t = true) :
    ∀ c ∈ join_elems ts, isprint c = true := by
  induction ts with
  | nil => simp [join_elems]
  | cons t us ih =>
    cases us with
    | nil => exact bare_token_printable t (hb t (List.mem_cons_self _ _))
    | cons u rest =>
      have hj : join_elems (t :: u :: rest) = t ++ ',' :: ' ' :: join_elems (u :: rest) := rfl
      rw [hj]
      intro c hc
      rcases List.mem_append.1 hc with e | e
      · exact bare_token_printable t (hb t (List.mem_cons_self _ _)) c e
      · rcases List.mem_cons.1 e with e | e
        · rw [e]
          decide
        · rcases List.mem_cons.1 e with e | e
          · rw [e]
            decide
          · exact ih (fun x hx => hb x (List.mem_cons_of_mem _ hx)) c e

theorem not_printable_newline {c : Char} (h : isprint c = true) : c ≠ '\n' := by
  intro e
  rw [e] at h
  revert h
  decide

/-- An element holds neither NUL nor a line feed. -/
theorem array_token_clean (t : List Char) (h : array_token t = true) :
    NUL ∉ t ∧ '\n' ∉ t := by
  rcases array_token_cases t h with hb | hq
  · exact ⟨bare_token_no_nul t hb,
      fun hm => not_printable_newline (bare_token_printable t hb _ hm) rfl⟩
  · obtain ⟨q, inner, hq1, _, h1, h2, e⟩ := quoted_token_cases t hq
    subst e
    have hqn : q ≠ NUL ∧ q ≠ '\n' := by
      rcases hq1 with rfl | rfl <;> exact ⟨by decide, by decide⟩
    constructor
    · intro hm
      simp only [List.mem_cons, List.mem_append, List.mem_singleton, List.not_mem_nil,
        or_false] at hm
      rcases hm with e | e | e
      · exact hqn.1 e.symm
      · exact h1 e
      · exact hqn.1 e.symm
    · intro hm
      simp only [List.mem_cons, List.mem_append, List.mem_singleton, List.not_mem_nil,
        or_false] at hm
      rcases hm with e | e | e
      · exact hqn.2 e.symm
      · exact h2 e
      · exact hqn.2 e.symm

theorem join_elems_no_newline (ts : List (List Char)) (h : ∀ t ∈ ts, '\n' ∉ t) :
    '\n' ∉ join_elems ts := by
  induction ts with
  | nil => simp [join_elems]
  | cons t us ih =>
    cases us with
    | nil => exact h t (List.mem_cons_self _ _)
    | cons u rest =>
      have hj : join_elems (t :: u :: rest) = t ++ ',' :: ' ' :: join_elems (u :: rest) := rfl
      rw [hj]
      intro hm
      rcases List.mem_append.1 hm with e | e
      · exact h t (List.mem_cons_self _ _) e
      · rcases List.mem_cons.1 e with e | e
        · revert e
          decide
        · rcases List.mem_cons.1 e with e | e
          · revert e
            decide
          · exact ih (fun x hx => h x (List.mem_cons_of_mem _ hx)) e

theorem broken_head_no_newline (name : List Char) (ts : List (List Char))
    (hn : name_grammar name = true) (hb : ∀ t ∈ ts, array_token t = true) :
    '\n' ∉ broken_head name ts := by
  apply entry_no_newline name _ hn
  intro hm
  simp only [List.mem_cons, List.mem_append, List.mem_singleton, List.not_mem_nil,
    or_false] at hm
  rcases hm with e | e | e | e | e
  · revert e
    decide
  · exact join_elems_no_newline ts (fun t ht => (array_token_clean t (hb t ht)).2) e
  · revert e
    decide
  · revert e
    decide
  · revert e
    decide

theorem broken_tail_no_newline (ts : List (List Char)) (hb : ∀ t ∈ ts, array_token t = true) :
    '\n' ∉ broken_tail ts := by
  intro hm
  simp only [broken_tail, List.mem_append, List.mem_singleton] at hm
  rcases hm with e | e
  · exact join_elems_no_newline ts (fun t ht => (array_token_clean t (hb t ht)).2) e
  · revert e
    decide

/-- The chunk when the second line of the broken entry has been lexed. -/
theorem broken_chunk (name : List Char) (ts1 ts2 : List (List Char)) :
    (name ++ NUL :: '=' :: ' ' :: '[' :: (join_elems ts1 ++ [',', ' ', ' '])) ++ [' '] ++
      broken_tail ts2 = name ++ NUL :: '=' :: ' ' :: broken_value ts1 ts2 := by
  simp [broken_value, broken_tail]

theorem broken_head_length (name : List Char) (ts1 : List (List Char)) :
    (name ++ NUL :: '=' :: ' ' :: '[' :: (join_elems ts1 ++ [',', ' ', ' '])).length =
      (broken_head name ts1).length := by
  simp [broken_head, entry_line]

/-- The loop over the lines of the chunk for a file that holds an entry broken over two
lines: the first line is lexed as `CONTINUE`, the second as `DONE` and handed to the case
`CFGCLI_PARSE_DONE`; the empty line behind it is passed over. -/
theorem file_lines_broken (libc : libc_t) (cfg cfg1 : cfgcli_t) (name Z : List Char)
    (ts1 ts2 : List (List Char)) (prior : Int) (C : Nat) (fuel : Nat)
    (hn : name_grammar name = true) (hts1 : ts1 ≠ []) (hb1 : ∀ t ∈ ts1, array_token t = true)
    (hts2 : ts2 ≠ []) (hb2 : ∀ t ∈ ts2, array_token t = true)
    (hfd : file_done libc prior
      { cfg := cfg, chunk := (name ++ NUL :: '=' :: ' ' :: broken_value ts1 ts2) ++
          NUL :: '\n' :: Z,
        clen := C, nline := 2, nrest := 0, nproc := 0, key := some 0,
        value := some (name.length + 3), state := ARRAY_START, file := [] } =
      run_t.ret (0,
        { cfg := cfg1, chunk := (name ++ NUL :: '=' :: ' ' :: broken_value ts1 ts2) ++
            NUL :: '\n' :: Z,
          clen := C, nline := 2, nrest := 0, nproc := 0, key := none, value := none,
          state := START, file := [] })) :
    file_lines libc prior ((broken_head name ts1).length + (broken_tail ts2).length + 3)
      (fuel + 4)
      { cfg := cfg, chunk := broken_head name ts1 ++ '\n' :: (broken_tail ts2 ++ '\n' :: '\n' :: Z),
        clen := C, nline := 0, nrest := 0, nproc := 0, key := none, value := none,
        state := START, file := [] } 0 =
    run_t.ret (0,
      { cfg := cfg1, chunk := (name ++ NUL :: '=' :: ' ' :: broken_value ts1 ts2) ++
          NUL :: NUL :: Z,
        clen := C, nline := 3, nrest := 0, nproc := 0, key := none, value := none,
        state := START, file := [] },
      (broken_head name ts1).length + (broken_tail ts2).length + 3) := by
  have hH := parse_line_broken_head name ts1 hn hts1 hb1
  have hfr := parse_line_frame (broken_head name ts1)
    (NUL :: (broken_tail ts2 ++ '\n' :: '\n' :: Z)) 0 (broken_head name ts1).length none none
    START (by omega) _ _ _ _ hH
  have hL := broken_head_length name ts1
  -- the first line
  have f1 := find_newline [] (broken_head name ts1) (broken_tail ts2 ++ '\n' :: '\n' :: Z)
    ((broken_head name ts1).length + (broken_tail ts2).length + 3)
    (broken_head_no_newline name ts1 hn hb1) (by omega)
  simp only [List.nil_append, List.length_nil, List.drop_zero] at f1
  have p1 : poke (broken_head name ts1 ++ '\n' :: (broken_tail ts2 ++ '\n' :: '\n' :: Z))
      (broken_head name ts1).length NUL =
      broken_head name ts1 ++ NUL :: (broken_tail ts2 ++ '\n' :: '\n' :: Z) := by
    have := set_append_add (broken_head name ts1)
      ('\n' :: (broken_tail ts2 ++ '\n' :: '\n' :: Z)) 0 NUL
    rw [Nat.add_zero] at this
    rw [poke, this]
    rfl
  have p1b : poke ((name ++ NUL :: '=' :: ' ' :: '[' :: (join_elems ts1 ++ [',', ' ', ' '])) ++
      NUL :: (broken_tail ts2 ++ '\n' :: '\n' :: Z)) (broken_head name ts1).length ' ' =
      ((name ++ NUL :: '=' :: ' ' :: '[' :: (join_elems ts1 ++ [',', ' ', ' '])) ++ [' ']) ++
        (broken_tail ts2 ++ '\n' :: '\n' :: Z) := by
    have := set_append_add
      (name ++ NUL :: '=' :: ' ' :: '[' :: (join_elems ts1 ++ [',', ' ', ' ']))
      (NUL :: (broken_tail ts2 ++ '\n' :: '\n' :: Z)) 0 ' '
    rw [Nat.add_zero, hL] at this
    rw [poke, this]
    simp
  rw [file_lines]
  simp only [List.drop_zero, Nat.sub_zero, f1, Nat.zero_add, p1, hfr.1, p1b]
  -- the second line
  have hP : ((name ++ NUL :: '=' :: ' ' :: '[' :: (join_elems ts1 ++ [',', ' ', ' '])) ++
      [' ']).length = (broken_head name ts1).length + 1 := by
    rw [List.length_append, hL]
    rfl
  have f2 := find_newline
    ((name ++ NUL :: '=' :: ' ' :: '[' :: (join_elems ts1 ++ [',', ' ', ' '])) ++ [' '])
    (broken_tail ts2) ('\n' :: Z) ((broken_tail ts2).length + 2)
    (broken_tail_no_newline ts2 hb2) (by omega)
  rw [hP] at f2
  have e1 : (broken_head name ts1).length + (broken_tail ts2).length + 3 -
      ((broken_head name ts1).length + 1) = (broken_tail ts2).length + 2 := by omega
  have p2 : poke (((name ++ NUL :: '=' :: ' ' :: '[' :: (join_elems ts1 ++ [',', ' ', ' '])) ++
      [' ']) ++ (broken_tail ts2 ++ '\n' :: '\n' :: Z))
      ((broken_head name ts1).length + 1 + (broken_tail ts2).length) NUL =
      ((name ++ NUL :: '=' :: ' ' :: '[' :: (join_elems ts1 ++ [',', ' ', ' '])) ++ [' ']) ++
        broken_tail ts2 ++ NUL :: '\n' :: Z := by
    have := set_append_add
      (((name ++ NUL :: '=' :: ' ' :: '[' :: (join_elems ts1 ++ [',', ' ', ' '])) ++ [' ']) ++
        broken_tail ts2) ('\n' :: '\n' :: Z) 0 NUL
    rw [Nat.add_zero, List.length_append, hP] at this
    rw [poke]
    rw [← List.append_assoc, this]
    rfl
  have hT := parse_line_broken_tail
    ((name ++ NUL :: '=' :: ' ' :: '[' :: (join_elems ts1 ++ [',', ' ', ' '])) ++ [' '])
    (NUL :: '\n' :: Z) ts2 hts2 hb2 (some 0) (some (name.length + 3))
  rw [hP, broken_chunk] at hT
  have e2 : (broken_head name ts1).length + 1 + (broken_tail ts2).length -
      ((broken_head name ts1).length + 1) = (broken_tail ts2).length := by omega
  rw [file_lines]
  simp only [e1, f2, p2, e2, broken_chunk, hT, Nat.reduceAdd, hfd, ne_eq, not_true_eq_false,
    ↓reduceIte]
  -- the empty line
  have hW : (name ++ NUL :: '=' :: ' ' :: broken_value ts1 ts2).length =
      (broken_head name ts1).length + 1 + (broken_tail ts2).length := by
    rw [← broken_chunk, List.length_append, hP]
  have f3 := find_newline ((name ++ NUL :: '=' :: ' ' :: broken_value ts1 ts2) ++ [NUL]) [] Z 1
    (by simp) (by simp)
  have e3 : (name ++ NUL :: '=' :: ' ' :: broken_value ts1 ts2) ++ [NUL] ++ ([] ++ '\n' :: Z) =
      (name ++ NUL :: '=' :: ' ' :: broken_value ts1 ts2) ++ NUL :: '\n' :: Z := by simp
  have e4 : ((name ++ NUL :: '=' :: ' ' :: broken_value ts1 ts2) ++ [NUL]).length =
      (broken_head name ts1).length + 1 + (broken_tail ts2).length + 1 := by
    rw [List.length_append, hW]
    rfl
  rw [e3, e4] at f3
  have e5 : (broken_head name ts1).length + (broken_tail ts2).length + 3 -
      ((broken_head name ts1).length + 1 + (broken_tail ts2).length + 1) = 1 := by omega
  have p3 : poke ((name ++ NUL :: '=' :: ' ' :: broken_value ts1 ts2) ++ NUL :: '\n' :: Z)
      ((broken_head name ts1).length + 1 + (broken_tail ts2).length + 1) NUL =
      (name ++ NUL :: '=' :: ' ' :: broken_value ts1 ts2) ++ NUL :: NUL :: Z := by
    have := set_append_add ((name ++ NUL :: '=' :: ' ' :: broken_value ts1 ts2) ++ [NUL])
      ('\n' :: Z) 0 NUL
    rw [Nat.add_zero, e4] at this
    rw [poke]
    have e6 : (name ++ NUL :: '=' :: ' ' :: broken_value ts1 ts2) ++ NUL :: '\n' :: Z =
        (name ++ NUL :: '=' :: ' ' :: broken_value ts1 ts2) ++ [NUL] ++ '\n' :: Z := by simp
    rw [e6, this]
    simp
  rw [file_lines]
  simp only [e5, f3, List.length_nil, Nat.add_zero, p3]
  have hpass : cfgcli_parse_line
      ((name ++ NUL :: '=' :: ' ' :: broken_value ts1 ts2) ++ NUL :: NUL :: Z)
      ((broken_head name ts1).length + 1 + (broken_tail ts2).length + 1)
      ((broken_head name ts1).length + 1 + (broken_tail ts2).length + 1 -
        ((broken_head name ts1).length + 1 + (broken_tail ts2).length + 1)) none none START =
      run_t.ret (PASS, (name ++ NUL :: '=' :: ' ' :: broken_value ts1 ts2) ++ NUL :: NUL :: Z,
        none, none) := by
    unfold cfgcli_parse_line
    simp
  rw [hpass]
  simp only
  -- the end of the chunk
  have e7 : (broken_head name ts1).length + 1 + (broken_tail ts2).length + 1 + 1 =
      (broken_head name ts1).length + (broken_tail ts2).length + 3 := by omega
  rw [file_lines]
  simp only [e7, Nat.sub_self, List.take_zero, first_index]

/-- Function `cfgcli_read_file` on a file that ends with a line terminator and is shorter
than the chunk: when the loop over the lines of the chunk runs to the end of the chunk
with code 0 and leaves the state `START`, the call returns 0 and the registry that the
loop leaves. -/
theorem read_file_short (libc : libc_t) (cfg cfg1 : cfgcli_t) (fname body chunk1 : List Char)
    (prior : Int) (n1 : Nat) (hc : CFGCLI_IS_ERROR cfg = false) (hnp : cfg.npar ≠ 0)
    (hfn : fname ≠ []) (hfl : fname.length < CFGCLI_MAX_FILENAME_LEN) (hp : 0 < prior)
    (hlen : body.length + 2 ≤ CFGCLI_STR_INIT_SIZE)
    (hlines : file_lines libc prior (body.length + 2) (body.length + 3)
      { cfg := cfg,
        chunk := body ++ '\n' :: '\n' ::
          List.replicate (CFGCLI_STR_INIT_SIZE - (body.length + 2)) NUL,
        clen := CFGCLI_STR_INIT_SIZE, nline := 0, nrest := 0, nproc := 0, key := none,
        value := none, state := START, file := [] } 0 =
      run_t.ret (0,
        { cfg := cfg1, chunk := chunk1, clen := CFGCLI_STR_INIT_SIZE, nline := n1, nrest := 0,
          nproc := 0, key := none, value := none, state := START, file := [] },
        body.length + 2)) :
    cfgcli_read_file libc cfg (some fname) (some (body ++ ['\n'])) prior =
      run_t.ret (0, cfg1) := by
  have hq : ¬ prior ≤ CFGCLI_SRC_NULL := by
    simp only [CFGCLI_SRC_NULL]
    omega
  have hfl2 : ¬ fname.length ≥ CFGCLI_MAX_FILENAME_LEN := by omega
  have hft : (body ++ ['\n']).length = body.length + 1 := by simp
  have htk : (body ++ ['\n']).take (CFGCLI_STR_INIT_SIZE - 0) = body ++ ['\n'] :=
    List.take_of_length_le (by omega)
  have hdr : (body ++ ['\n']).drop (body.length + 1) = [] :=
    List.drop_of_length_le (by omega)
  have hsh : body.length + 1 < CFGCLI_STR_INIT_SIZE - 0 := by omega
  have hch := chunk_init body hlen
  unfold cfgcli_read_file
  cases fname with
  | nil => exact absurd rfl hfn
  | cons f fs =>
    simp only [hc, Bool.false_eq_true, ↓reduceIte, hnp, hfl2, hq, hft]
    rw [file_chunks]
    simp only [htk, hft, Nat.add_one_ne_zero, ↓reduceIte, hdr, Nat.zero_add, hsh, decide_True,
      hch]
    have e1 : body.length + 1 + 1 - 0 + 1 = body.length + 3 := by omega
    have e2 : body.length + 1 + 1 = body.length + 2 := rfl
    have e3 : ¬ ((START : cfgcli_parse_state_t) = ARRAY_START) := by decide
    simp only [e3, ↓reduceIte, e1, e2, hlines, ne_eq, not_true_eq_false, Nat.add_one_ne_zero,
      Nat.sub_self]
    have e4 : ¬ (0 = CFGCLI_STR_INIT_SIZE) := by decide
    simp only [e4, ↓reduceIte]
    rw [file_chunks]
    simp only [List.take_nil, List.length_nil, ↓reduceIte]

/-- Function `cfgcli_read_file` on a file that holds an entry broken over two lines and
is shorter than the chunk: when the case `CFGCLI_PARSE_DONE` goes on with the registry
`cfg1`, the call returns 0 and `cfg1`. -/
theorem read_file_broken (libc : libc_t) (cfg cfg1 : cfgcli_t) (fname name : List Char)
    (ts1 ts2 : List (List Char)) (prior : Int) (hc : CFGCLI_IS_ERROR cfg = false)
    (hnp : cfg.npar ≠ 0) (hfn : fname ≠ []) (hfl : fname.length < CFGCLI_MAX_FILENAME_LEN)
    (hp : 0 < prior) (hn : name_grammar name = true) (hts1 : ts1 ≠ [])
    (hb1 : ∀ t ∈ ts1, array_token t = true) (hts2 : ts2 ≠ [])
    (hb2 : ∀ t ∈ ts2, array_token t = true)
    (hlen : (broken_text name ts1 ts2).length + 1 ≤ CFGCLI_STR_INIT_SIZE)
    (hfd : file_done libc prior
      { cfg := cfg,
        chunk := (name ++ NUL :: '=' :: ' ' :: broken_value ts1 ts2) ++ NUL :: '\n' ::
          List.replicate (CFGCLI_STR_INIT_SIZE - ((broken_text name ts1 ts2).length + 1)) NUL,
        clen := CFGCLI_STR_INIT_SIZE,
        nline := 2, nrest := 0, nproc := 0, key := some 0, value := some (name.length + 3),
        state := ARRAY_START, file := [] } =
      run_t.ret (0,
        { cfg := cfg1,
          chunk := (name ++ NUL :: '=' :: ' ' :: broken_value ts1 ts2) ++ NUL :: '\n' ::
            List.replicate (CFGCLI_STR_INIT_SIZE - ((broken_text name ts1 ts2).length + 1)) NUL,
          clen := CFGCLI_STR_INIT_SIZE,
          nline := 2, nrest := 0, nproc := 0, key := none, value := none,
          state := START, file := [] })) :
    cfgcli_read_file libc cfg (some fname) (some (broken_text name ts1 ts2)) prior =
      run_t.ret (0, cfg1) := by
  have hbt : broken_text name ts1 ts2 =
      (broken_head name ts1 ++ '\n' :: broken_tail ts2) ++ ['\n'] := by
    simp [broken_text]
  have hbl : (broken_text name ts1 ts2).length + 1 =
      (broken_head name ts1 ++ '\n' :: broken_tail ts2).length + 2 := by
    rw [hbt]
    simp only [List.length_append, List.length_cons, List.length_nil]
  have hbl2 : (broken_head name ts1 ++ '\n' :: broken_tail ts2).length =
      (broken_head name ts1).length + (broken_tail ts2).length + 1 := by
    simp only [List.length_append, List.length_cons]
    omega
  rw [hbl] at hfd hlen
  have hl := file_lines_broken libc cfg cfg1 name
    (List.replicate (CFGCLI_STR_INIT_SIZE -
      ((broken_head name ts1 ++ '\n' :: broken_tail ts2).length + 2)) NUL)
    ts1 ts2 prior CFGCLI_STR_INIT_SIZE ((broken_head name ts1).length + (broken_tail ts2).length)
    hn hts1 hb1 hts2 hb2 hfd
  rw [hbt]
  apply read_file_short libc cfg cfg1 fname _ _ prior 3 hc hnp hfn hfl hp hlen
  have e1 : (broken_head name ts1 ++ '\n' :: broken_tail ts2) ++ '\n' :: '\n' ::
      List.replicate (CFGCLI_STR_INIT_SIZE -
        ((broken_head name ts1 ++ '\n' :: broken_tail ts2).length + 2)) NUL =
      broken_head name ts1 ++ '\n' :: (broken_tail ts2 ++ '\n' :: '\n' ::
        List.replicate (CFGCLI_STR_INIT_SIZE -
          ((broken_head name ts1 ++ '\n' :: broken_tail ts2).length + 2)) NUL) := by
    simp
  have e2 : (broken_head name ts1 ++ '\n' :: broken_tail ts2).length + 2 =
      (broken_head name ts1).length + (broken_tail ts2).length + 3 := by omega
  have e3 : (broken_head name ts1 ++ '\n' :: broken_tail ts2).length + 3 =
      (broken_head name ts1).length + (broken_tail ts2).length + 4 := by omega
  rw [e1]
  rw [e2, e3]
  rw [e2] at hl
  exact hl

/-! ## Line continuation: the value of a broken entry -/

theorem join_elems_append (ts1 ts2 : List (List Char)) (h1 : ts1 ≠ []) (h2 : ts2 ≠ []) :
    join_elems (ts1 ++ ts2) = join_elems ts1 ++ ',' :: ' ' :: join_elems ts2 := by
  induction ts1 with
  | nil => exact absurd rfl h1
  | cons t us ih =>
    cases us with
    | nil =>
      cases ts2 with
      | nil => exact absurd rfl h2
      | cons u rest => rfl
    | cons u rest =>
      have hj : join_elems (t :: u :: rest ++ ts2) =
          t ++ ',' :: ' ' :: join_elems (u :: rest ++ ts2) := rfl
      have hj2 : join_elems (t :: u :: rest) = t ++ ',' :: ' ' :: join_elems (u :: rest) := rfl
      rw [hj, hj2, ih (by simp)]
      simp

/-! ## The loop of `cfgcli_get_array` on texts that differ in white space -/

theorem cstr_at_drop (buf : List Char) (pos : Nat) :
    cstr_at (buf.drop pos) 0 = cstr_at buf pos := by
  simp [cstr_at]

/-- The loop of `cfgcli_get_array` reads the split text from the pointer on. -/
theorem get_array_vals_drop (libc : libc_t) (edt : Int) :
    ∀ (k : Nat) (buf : List Char) (pos i : Nat) (arr : List scalar_t),
      get_array_vals libc edt buf k pos i arr =
        get_array_vals libc edt (buf.drop pos) k 0 i arr := by
  intro k
  induction k with
  | zero =>
    intro buf pos i arr
    rfl
  | succ k ih =>
    intro buf pos i arr
    rw [get_array_vals, get_array_vals]
    simp only [cstr_at_drop]
    split
    · rfl
    · rw [ih buf (pos + ((cstr_at buf pos).length + 1)),
        ih (buf.drop pos) (0 + ((cstr_at buf pos).length + 1))]
      rw [List.drop_drop]
      congr 2
      omega

/-- One pass of the loop of `cfgcli_get_array` on two split texts whose first segments are
coerced alike and whose further segments are read alike. -/
theorem get_array_vals_congr (libc : libc_t) (edt : Int) (seg seg1 rest rest1 : List Char)
    (k i : Nat) (arr : List scalar_t) (hs : NUL ∉ seg) (hs1 : NUL ∉ seg1)
    (hv : cfgcli_get_value libc seg edt = cfgcli_get_value libc seg1 edt)
    (hr : ∀ (i : Nat) (arr : List scalar_t),
      get_array_vals libc edt rest k 0 i arr = get_array_vals libc edt rest1 k 0 i arr) :
    get_array_vals libc edt (seg ++ NUL :: rest) (k + 1) 0 i arr =
      get_array_vals libc edt (seg1 ++ NUL :: rest1) (k + 1) 0 i arr := by
  rw [get_array_vals, get_array_vals]
  simp only [cstr_at_zero seg rest hs, cstr_at_zero seg1 rest1 hs1, hv]
  split
  · rfl
  · rw [get_array_vals_drop libc edt k (seg ++ NUL :: rest),
      get_array_vals_drop libc edt k (seg1 ++ NUL :: rest1)]
    have d1 : (seg ++ NUL :: rest).drop (0 + (seg.length + 1)) = rest := by
      rw [Nat.zero_add, List.drop_append_eq_append_drop]
      simp
    have d2 : (seg1 ++ NUL :: rest1).drop (0 + (seg1.length + 1)) = rest1 := by
      rw [Nat.zero_add, List.drop_append_eq_append_drop]
      simp
    rw [d1, d2]
    exact hr _ _

theorem get_value_blanks (libc : libc_t) (edt : Int) (sp sp1 t : List Char)
    (h : ∀ c ∈ sp, isspace c = true) (h1 : ∀ c ∈ sp1, isspace c = true) :
    cfgcli_get_value libc (sp ++ t) edt = cfgcli_get_value libc (sp1 ++ t) edt := by
  unfold cfgcli_get_value
  rw [dropWhile_spaces_append sp t h, dropWhile_spaces_append sp1 t h1]

theorem blanks_no_nul (sp : List Char) (h : ∀ c ∈ sp, isspace c = true) : NUL ∉ sp := by
  intro hm
  exact space_ne_nul (h _ hm) rfl

/-! ## A file that fills the first chunk exactly -/

/-- The first chunk after a read that fills it. -/
theorem store_full (file : List Char) (h : file.length = CFGCLI_STR_INIT_SIZE) :
    store (List.replicate CFGCLI_STR_INIT_SIZE NUL) 0 file = file := by
  simp only [store, List.take_zero, List.nil_append, Nat.zero_add, h, List.drop_replicate,
    Nat.sub_self, List.replicate_zero, List.append_nil]

/-- No line terminator is found in a text that has none. -/
theorem no_newline_found (l : List Char) (n : Nat) (h : '\n' ∉ l) :
    first_index (fun c => c == '\n') (l.take n) = none := by
  apply first_index_none_of_all
  intro x hx
  simp only [beq_eq_false_iff_ne, ne_eq]
  intro e
  exact h (e ▸ List.mem_of_mem_take hx)

/-- A read at the end of the file ends the loop of `cfgcli_read_file`. -/
theorem file_chunks_eof (libc : libc_t) (fname : List Char) (prior : Int) (fuel : Nat)
    (r : reader_t) (h : r.file = []) (hf : fuel ≠ 0) :
    file_chunks libc fname prior fuel r = run_t.ret (0, r.cfg) := by
  cases fuel with
  | zero => exact absurd rfl hf
  | succ k =>
    rw [file_chunks]
    simp only [h, List.take_nil, List.length_nil, ↓reduceIte]

/-- Function `cfgcli_read_file` on a file of exactly `CFGCLI_STR_INIT_SIZE` bytes with no
line terminator: the first read fills the chunk, so no terminator is appended and no line
is found; the chunk grows, the second read gives nothing, and the call returns 0 with the
registry as it was. -/
theorem read_file_full_bare (libc : libc_t) (cfg : cfgcli_t) (fname file : List Char)
    (prior : Int) (hc : CFGCLI_IS_ERROR cfg = false) (hnp : cfg.npar ≠ 0) (hfn : fname ≠ [])
    (hfl : fname.length < CFGCLI_MAX_FILENAME_LEN) (hp : 0 < prior)
    (hlen : file.length = CFGCLI_STR_INIT_SIZE) (hnl : '\n' ∉ file) :
    cfgcli_read_file libc cfg (some fname) (some file) prior = run_t.ret (0, cfg) := by
  have hq : ¬ prior ≤ CFGCLI_SRC_NULL := by
    simp only [CFGCLI_SRC_NULL]
    omega
  have hfl2 : ¬ fname.length ≥ CFGCLI_MAX_FILENAME_LEN := by omega
  have htk : file.take (CFGCLI_STR_INIT_SIZE - 0) = file :=
    List.take_of_length_le (by omega)
  have hdr : file.drop CFGCLI_STR_INIT_SIZE = [] := List.drop_of_length_le (by omega)
  have hnz : ¬ (CFGCLI_STR_INIT_SIZE = 0) := by decide
  have hsh : ¬ (CFGCLI_STR_INIT_SIZE < CFGCLI_STR_INIT_SIZE - 0) := by decide
  have e3 : ¬ ((START : cfgcli_parse_state_t) = ARRAY_START) := by decide
  have hg : grow_len CFGCLI_STR_INIT_SIZE = 2048 := by decide
  have hnf := no_newline_found file (CFGCLI_STR_INIT_SIZE - 0) hnl
  unfold cfgcli_read_file
  cases fname with
  | nil => exact absurd rfl hfn
  | cons f fs =>
    simp only [hc, Bool.false_eq_true, ↓reduceIte, hnp, hfl2, hq, hlen]
    rw [file_chunks]
    simp only [htk, hlen, hnz, ↓reduceIte, hdr, hsh, decide_False, Bool.false_eq_true,
      store_full file hlen, e3, Nat.zero_add]
    rw [file_lines]
    simp only [List.drop_zero, hnf, ne_eq, not_true_eq_false, ↓reduceIte, hg]
    rw [file_chunks_eof _ _ _ _ _ rfl hnz]
    simp only [OfNat.ofNat_ne_zero, ↓reduceIte]

/-! ## The lexer on a plain scalar value -/

theorem lex_body_value_stay (s : lex_t) (a : Nat) (hs : s.state = VALUE)
    (hc : isprint (s.line.getD a NUL) = true) (hh : s.line.getD a NUL ≠ '#') :
    lex_body s a = lex_step_t.go s false := by
  have h1 : (s.line.getD a NUL == CFGCLI_SYM_COMMENT) = false := by
    simp only [CFGCLI_SYM_COMMENT, beq_eq_false_iff_ne, ne_eq]
    exact hh
  unfold lex_body
  simp only [hs, h1, hc, Bool.false_eq_true, ↓reduceIte, Bool.not_true]

/-- The lexer on a plain value `c :: cs` that ends the line, from the state `VALUE_START`
at its first byte: a graphic first byte that opens neither a quote nor an array nor a
comment, then printable bytes other than `#`.  It returns `DONE` with the value pointer on
the first byte and leaves the buffer as it is. -/
theorem lex_plain (pre : List Char) (c : Char) (cs : List Char) (hg : isgraph c = true)
    (hq : c ≠ '"' ∧ c ≠ '\'' ∧ c ≠ '[' ∧ c ≠ '#')
    (hcs : ∀ x ∈ cs, isprint x = true ∧ x ≠ '#') (fuel : Nat) (key value : Option Nat) :
    parse_line_loop (fuel + (cs.length + 2))
      { line := pre ++ c :: cs, key := key, value := value, state := VALUE_START,
        quote := NUL, newline := none } 0 (pre.length + (cs.length + 1)) pre.length =
    run_t.ret (DONE,
      { line := pre ++ c :: cs, key := key, value := some pre.length,
        state := VALUE, quote := NUL, newline := none }) := by
  have hget : ∀ k, (pre ++ c :: cs).getD (pre.length + k) NUL = (c :: cs).getD k NUL :=
    fun k => getD_append_right_add _ _ k
  obtain ⟨q1, q2, q3, q4⟩ := hq
  have b1 : (c == '"' || c == '\'') = false := by
    simp only [Bool.or_eq_false_iff, beq_eq_false_iff_ne, ne_eq]
    exact ⟨q1, q2⟩
  have b2 : (c == CFGCLI_SYM_ARRAY_START) = false := by
    simp only [CFGCLI_SYM_ARRAY_START, beq_eq_false_iff_ne, ne_eq]
    exact q3
  have b3 : (c == CFGCLI_SYM_COMMENT) = false := by
    simp only [CFGCLI_SYM_COMMENT, beq_eq_false_iff_ne, ne_eq]
    exact q4
  rw [show fuel + (cs.length + 2) = (fuel + 1 + cs.length) + 1 by omega, loop_go0 _ _
    { line := pre ++ c :: cs, key := key, value := some pre.length, state := VALUE,
      quote := NUL, newline := none } _ pre.length (by omega)
    (by
      have h0 := hget 0
      simp only [Nat.add_zero] at h0
      unfold lex_body
      simp only [h0, List.getD_cons_zero, b1, b2, b3, hg, Bool.false_eq_true, ↓reduceIte])]
  rw [loop_stay0 cs.length (fuel + 1) _ _ (pre.length + 1) (by omega)
    (by
      intro k hk
      have e : pre.length + 1 + k = pre.length + (k + 1) := by omega
      have hm := hcs _ (getD_of_mem_index cs k hk)
      apply lex_body_value_stay _ _ rfl
      · simp only [e, hget, List.getD_cons_succ]
        exact hm.1
      · simp only [e, hget, List.getD_cons_succ]
        exact hm.2)]
  rw [loop_end _ _ _ _ _ (by omega)]
  rfl

/-- The entry `name = c...` with a plain value is lexed as done. -/
theorem entry_lexed_plain (name : List Char) (c : Char) (cs : List Char)
    (hn : name_grammar name = true) (hg : isgraph c = true)
    (hq : c ≠ '"' ∧ c ≠ '\'' ∧ c ≠ '[' ∧ c ≠ '#')
    (hcs : ∀ x ∈ cs, isprint x = true ∧ x ≠ '#') :
    entry_lexed name (c :: cs) = true := by
  simp only [entry_lexed, entry_line, decide_eq_true_eq]
  have hlen : (name ++ ' ' :: '=' :: ' ' :: c :: cs).length =
      name.length + 3 + (c :: cs).length := by
    simp only [List.length_append, List.length_cons]
    omega
  have hne : (name ++ ' ' :: '=' :: ' ' :: c :: cs).getD 0 NUL ≠ NUL := by
    cases name with
    | nil => simp [name_grammar] at hn
    | cons d ds =>
      simp only [List.cons_append, List.getD_cons_zero]
      exact name_head_ne_NUL (name_grammar_cons d ds hn).1
  unfold cfgcli_parse_line
  have hcond : ((name ++ ' ' :: '=' :: ' ' :: c :: cs).getD 0 NUL == NUL ||
      (name ++ ' ' :: '=' :: ' ' :: c :: cs).length == 0) = false := by
    simp only [Bool.or_eq_false_iff, beq_eq_false_iff_ne, ne_eq]
    refine ⟨hne, ?_⟩
    rw [hlen]
    omega
  rw [hcond]
  simp only [Bool.false_eq_true, ↓reduceIte]
  rw [hlen]
  have hf : 2 * (name.length + 3 + (c :: cs).length) + 1 =
      ((name.length + 3 + cs.length + 1) + (cs.length + 2)) + (name.length + 3) := by
    simp only [List.length_cons]
    omega
  rw [hf, lex_entry_head name (c :: cs) hn]
  have h := lex_plain (name ++ [NUL, '=', ' ']) c cs hg hq hcs
    (name.length + 3 + cs.length + 1) (some 0) none
  have e3 : name ++ [NUL, '=', ' '] ++ c :: cs = name ++ NUL :: '=' :: ' ' :: c :: cs := by simp
  have e4 : (name ++ [NUL, '=', ' ']).length = name.length + 3 := by simp
  have e5 : name.length + 3 + (cs.length + 1) = name.length + 3 + (c :: cs).length := by
    simp only [List.length_cons]
  rw [e3, e4, e5] at h
  rw [h]

/-! ## Coercion of a plain text to a string -/

/-- Function `cfgcli_get_value` at the type string on a text without white space that
does not start with a quote: the text itself is stored. -/
theorem get_value_str_plain (libc : libc_t) (c : Char) (cs : List Char)
    (hq : c ≠ '"' ∧ c ≠ '\'') (hsp : ∀ x ∈ c :: cs, isspace x = false) :
    cfgcli_get_value libc (c :: cs) CFGCLI_DTYPE_STR =
      (some (scalar_t.str (c :: cs)), 0) := by
  have h0 : isspace c = false := hsp c (List.mem_cons_self _ _)
  have b1 : (c == '"' || c == '\'') = false := by
    simp only [Bool.or_eq_false_iff, beq_eq_false_iff_ne, ne_eq]
    exact hq
  have hr : rtrim (c :: cs) = c :: cs := by
    obtain ⟨l1, d, e⟩ := exists_last (c :: cs) (List.cons_ne_nil _ _)
    rw [e]
    apply rtrim_of_last
    apply hsp
    rw [e]
    simp
  unfold cfgcli_get_value
  simp only [List.dropWhile_cons, h0, Bool.false_eq_true, ↓reduceIte, b1, hr]
  unfold assign_value
  have d1 : ¬ (CFGCLI_DTYPE_STR = CFGCLI_DTYPE_BOOL) := by decide
  have d2 : ¬ (CFGCLI_DTYPE_STR = CFGCLI_DTYPE_CHAR) := by decide
  have d3 : ¬ (CFGCLI_DTYPE_STR = CFGCLI_DTYPE_INT) := by decide
  have d4 : ¬ (CFGCLI_DTYPE_STR = CFGCLI_DTYPE_LONG) := by decide
  have d5 : ¬ (CFGCLI_DTYPE_STR = CFGCLI_DTYPE_FLT) := by decide
  have d6 : ¬ (CFGCLI_DTYPE_STR = CFGCLI_DTYPE_DBL) := by decide
  simp only [d1, d2, d3, d4, d5, d6, ↓reduceIte]

/-- Function `cfgcli_get_value` leaves a text without white space that does not start with
a quote as it is. -/
theorem get_value_text_plain (c : Char) (cs : List Char)
    (hq : c ≠ '"' ∧ c ≠ '\'') (hsp : ∀ x ∈ c :: cs, isspace x = false) :
    get_value_text (c :: cs) = c :: cs := by
  have h0 : isspace c = false := hsp c (List.mem_cons_self _ _)
  have b1 : (c == '"' || c == '\'') = false := by
    simp only [Bool.or_eq_false_iff, beq_eq_false_iff_ne, ne_eq]
    exact hq
  have hr : rtrim (c :: cs) = c :: cs := by
    obtain ⟨l1, d, e⟩ := exists_last (c :: cs) (List.cons_ne_nil _ _)
    rw [e]
    apply rtrim_of_last
    apply hsp
    rw [e]
    simp
  unfold get_value_text
  simp only [List.dropWhile_cons, h0, Bool.false_eq_true, ↓reduceIte, b1, hr, Nat.sub_self,
    List.replicate_zero, List.append_nil]

/-- Function `cfgcli_get` for a string parameter and a plain text: code 0, the registry as
it was, the text stored. -/
theorem get_str_plain (libc : libc_t) (cfg : cfgcli_t) (par : cfgcli_param_valid_t)
    (c : Char) (cs : List Char) (src : Int) (hc : CFGCLI_IS_ERROR cfg = false)
    (hd : par.dtype = CFGCLI_DTYPE_STR) (hq : c ≠ '"' ∧ c ≠ '\'')
    (hsp : ∀ x ∈ c :: cs, isspace x = false) (hnul : c ≠ NUL) :
    cfgcli_get libc cfg { par with value := some (c :: cs), vlen := (c :: cs).length + 1 } src =
      (0, cfg, { par with value := some (c :: cs), vlen := (c :: cs).length + 1,
                          slot := slot_t.scalar (scalar_t.str (c :: cs)) }) := by
  have h0 : (char_at (c :: cs) 0 == NUL) = false := by
    simp only [char_at, List.getD_cons_zero, beq_eq_false_iff_ne, ne_eq]
    exact hnul
  have ha : CFGCLI_DTYPE_IS_ARRAY
      ({ par with value := some (c :: cs), vlen := (c :: cs).length + 1 }).dtype = false := by
    simp only [hd]
    decide
  have g := get_scalar_case libc cfg
    { par with value := some (c :: cs), vlen := (c :: cs).length + 1 } (c :: cs) src hc rfl h0 ha
  simp only [hd, get_value_str_plain libc c cs hq hsp, forall_const, Option.some.injEq,
    exists_eq_left', get_value_text_plain c cs hq hsp] at g
  rw [hd]
  exact g.2

/-! ## A file whose entry line fills the first chunk, with a line terminator behind it -/

/-- The chunk after it grew and the second read stored the line terminator behind the
line that filled it, and after the reader added a second terminator. -/
theorem chunk_second (line : List Char) (h : line.length = 1024) :
    poke (store (line ++ List.replicate 1024 NUL) 1024 ['\n']) 1025 '\n' =
      line ++ '\n' :: '\n' :: List.replicate 1022 NUL := by
  have e1 : store (line ++ List.replicate 1024 NUL) 1024 ['\n'] =
      (line ++ ['\n']) ++ NUL :: List.replicate 1022 NUL := by
    have t : (line ++ List.replicate 1024 NUL).take 1024 = line := by
      rw [← h, List.take_left]
    have d : (line ++ List.replicate 1024 NUL).drop (1024 + 1) =
        List.replicate 1023 NUL := by
      have : 1024 + 1 = line.length + 1 := by omega
      rw [this, List.drop_append, List.drop_replicate]
    simp only [store, t, List.length_singleton, d]
    rfl
  rw [e1]
  have e2 : 1025 = (line ++ ['\n']).length + 0 := by simp [h]
  rw [e2, poke, set_append_add]
  simp only [List.set_cons_zero, List.append_assoc, List.singleton_append]

/-- Function `cfgcli_read_file` on a file that holds one entry `name = v` of exactly 1024
bytes and a line terminator: the first read fills the chunk and finds no line, the chunk
grows, and the second read brings the terminator; when the case `CFGCLI_PARSE_DONE` goes
on with the registry `cfg1`, the call returns 0 and `cfg1`. -/
theorem read_file_full_entry (libc : libc_t) (cfg cfg1 : cfgcli_t) (fname name v : List Char)
    (prior : Int) (hc : CFGCLI_IS_ERROR cfg = false) (hnp : cfg.npar ≠ 0) (hfn : fname ≠ [])
    (hfl : fname.length < CFGCLI_MAX_FILENAME_LEN) (hp : 0 < prior)
    (hlex : entry_lexed name v = true) (hnl : '\n' ∉ entry_line name v)
    (hlen : (entry_line name v).length = 1024)
    (hfd : file_done libc prior
      { cfg := cfg,
        chunk := (name ++ NUL :: '=' :: ' ' :: v) ++ NUL :: '\n' :: List.replicate 1022 NUL,
        clen := 2048,
        nline := 1, nrest := 1024, nproc := 0, key := some 0, value := some (name.length + 3),
        state := START, file := [] } =
      run_t.ret (0,
        { cfg := cfg1,
          chunk := (name ++ NUL :: '=' :: ' ' :: v) ++ NUL :: '\n' :: List.replicate 1022 NUL,
          clen := 2048,
          nline := 1, nrest := 1024, nproc := 0, key := none, value := none,
          state := START, file := [] })) :
    cfgcli_read_file libc cfg (some fname) (some (file_text name v)) prior =
      run_t.ret (0, cfg1) := by
  have hq : ¬ prior ≤ CFGCLI_SRC_NULL := by
    simp only [CFGCLI_SRC_NULL]
    omega
  have hfl2 : ¬ fname.length ≥ CFGCLI_MAX_FILENAME_LEN := by omega
  have hlines := file_lines_entry libc cfg cfg1 name v (List.replicate 1022 NUL) prior
    2048 1024 1024 hlex hnl hfd
  have hft : (entry_line name v ++ ['\n']).length = 1025 := by
    simp [hlen]
  have htk : (entry_line name v ++ ['\n']).take 1024 = entry_line name v := by
    rw [← hlen, List.take_left]
  have hdr : (entry_line name v ++ ['\n']).drop 1024 = ['\n'] := by
    rw [← hlen, List.drop_left]
  have hst : store (List.replicate 1024 NUL) 0 (entry_line name v) = entry_line name v :=
    store_full _ hlen
  have hnf := no_newline_found (entry_line name v) 1024 hnl
  have hg : grow_len 1024 = 2048 := by decide
  have hch := chunk_second (entry_line name v) hlen
  have e3 : ¬ ((START : cfgcli_parse_state_t) = ARRAY_START) := by decide
  unfold cfgcli_read_file
  cases fname with
  | nil => exact absurd rfl hfn
  | cons f fs =>
    simp only [hc, Bool.false_eq_true, ↓reduceIte, hnp, hfl2, hq, file_text, hft,
      CFGCLI_STR_INIT_SIZE]
    rw [file_chunks]
    simp only [Nat.sub_zero, htk, hlen, OfNat.ofNat_ne_zero, ↓reduceIte, hdr, hst, e3,
      lt_self_iff_false, decide_False, Bool.false_eq_true, Nat.zero_add, Nat.reduceAdd]
    rw [file_lines]
    simp only [List.drop_zero, Nat.sub_zero, hnf, ne_eq, not_true_eq_false, ↓reduceIte, hg,
      OfNat.ofNat_ne_zero, Nat.reduceSub]
    rw [file_chunks]
    have htk2 : List.take (2048 - 1024) ['\n'] = ['\n'] := rfl
    have hdr2 : List.drop 1 ['\n'] = [] := rfl
    have hsh2 : (1 : Nat) < 2048 - 1024 := by decide
    rw [hlen] at hlines
    simp only [Nat.reduceAdd] at hlines
    simp only [Nat.zero_add, htk2, hdr2, List.length_singleton, one_ne_zero, ↓reduceIte, e3,
      hsh2, decide_True, Nat.reduceAdd, hch, Nat.sub_zero, hlines, ne_eq, not_true_eq_false,
      OfNat.ofNat_ne_zero, Nat.sub_self, OfNat.zero_ne_ofNat]
    rw [file_chunks_eof _ _ _ _ _ rfl (by decide)]

/-- The same read for a designated parameter whose stored priority is lower, when
`cfgcli_get` returns 0 for the value: the entry that `cfgcli_get` leaves is stored with the
source `prior`. -/
theorem full_read_get (libc : libc_t) (cfg : cfgcli_t) (j : Nat)
    (fname name lopt v : List Char) (prior : Int) (p1 : cfgcli_param_valid_t)
    (hd : designates cfg j name lopt = true) (hfn : fname ≠ [])
    (hfl : fname.length < CFGCLI_MAX_FILENAME_LEN)
    (hp : 0 < prior) (hlex : entry_lexed name v = true) (hnul : NUL ∉ v) (hnl : '\n' ∉ v)
    (hlen : (entry_line name v).length = 1024)
    (h : CFGCLI_SRC_VAL (cfg.params.getD j param_zero).src < prior)
    (hg : cfgcli_get libc cfg
      { cfg.params.getD j param_zero with value := some v, vlen := v.length + 1 } prior =
      (0, cfg, p1)) :
    cfgcli_read_file libc cfg (some fname) (some (file_text name v)) prior =
      run_t.ret (0, { cfg with params := cfg.params.set j { p1 with src := prior } }) := by
  obtain ⟨h1, h2, h3, h4, h5, h6, h7, h8, h9, h10⟩ := designates_unpack cfg j name lopt hd
  have t1 := chunk_key name v ('\n' :: List.replicate 1022 NUL) h4
  have t2 := chunk_value name v ('\n' :: List.replicate 1022 NUL) hnul
  apply read_file_full_entry libc cfg _ _ name v prior h1 (by omega) hfn hfl hp hlex
    (entry_no_newline name v h4 hnl) hlen
  unfold file_done
  simp only [t1, t2, h6, h, ↓reduceIte, hg, ne_eq, not_true_eq_false]

/-- The example line fills the first chunk of the reader exactly. -/
theorem ex_line_1024_length : ex_line_1024.length = 1024 := by
  unfold ex_line_1024 entry_line
  rw [List.length_append]
  simp only [List.length_cons, List.length_replicate]
  decide

/-- The value of the example line: the letter `x` and 1016 more. -/
theorem ex_value_cons : List.replicate 1017 'x' = 'x' :: List.replicate 1016 'x' :=
  List.replicate_succ 'x' 1016

/-- Each byte of a run of the letter `x` is that letter. -/
theorem ex_value_chars (n : Nat) (P : Char → Prop) (h : P 'x') :
    ∀ y ∈ List.replicate n 'x', P y := by
  intro y hy
  rw [List.eq_of_mem_replicate hy]
  exact h

/-- The example line alone is a complete entry for the lexer. -/
theorem ex_line_1024_lexed :
    entry_lexed "conf".toList (List.replicate 1017 'x') = true := by
  rw [ex_value_cons]
  exact entry_lexed_plain _ 'x' _ (by decide) (by decide) (by decide)
    (ex_value_chars _ _ (by decide))

/-- Reading the example line followed by a line terminator stores its value in the entry
of `conf` with the source 1. -/
theorem read_full_chunk_newline :
    cfgcli_read_file ex_libc ex_cfg (some "a.conf".toList)
      (some (ex_line_1024 ++ ['\n'])) 1 =
    run_t.ret (0,
      { ex_cfg with
        params := ex_cfg.params.set 0
                    { ex_cfg.params.getD 0 param_zero with
                      narr := (ex_cfg.params.getD 0 param_zero).narr,
                      value := some (List.replicate 1017 'x'), vlen := 1018,
                      slot := slot_t.scalar (scalar_t.str (List.replicate 1017 'x')),
                      src := 1 } }) := by
  have hx : ∀ y ∈ 'x' :: List.replicate 1016 'x', y = 'x' := by
    intro y hy
    rcases List.mem_cons.1 hy with e | e
    · exact e
    · exact List.eq_of_mem_replicate e
  have hg := get_str_plain ex_libc ex_cfg (ex_cfg.params.getD 0 param_zero) 'x'
    (List.replicate 1016 'x') 1 (by decide) (by decide) (by decide)
    (fun y hy => by rw [hx y hy]; decide) (by decide)
  have hl : ('x' :: List.replicate 1016 'x').length + 1 = 1018 := by
    simp only [List.length_cons, List.length_replicate]
  rw [hl] at hg
  have hr := full_read_get ex_libc ex_cfg 0 "a.conf".toList "conf".toList "conf".toList
    ('x' :: List.replicate 1016 'x') 1 _ (by decide) (by decide) (by decide) (by decide)
    (by rw [← ex_value_cons]; exact ex_line_1024_lexed)
    (fun hm => absurd (hx _ hm) (by decide)) (fun hm => absurd (hx _ hm) (by decide))
    (by rw [← ex_value_cons]; exact ex_line_1024_length) (by decide)
    (by rw [hl]; exact hg)
  rw [← ex_value_cons] at hr
  exact hr

/-- C6, failing input: a file made of the single entry line `conf = xxx...x` of exactly
1024 bytes, a complete entry for the lexer, with no line feed behind it.
`cfgcli_read_file` returns 0 and leaves the registry as it was, so the variable of `conf`
is not set; the same bytes followed by a line feed set `conf` to the 1017 letters. -/
theorem missing_newline_full_chunk :
    ex_line_1024.length = 1024 ∧
    entry_lexed "conf".toList (List.replicate 1017 'x') = true ∧
    cfgcli_read_file ex_libc ex_cfg (some "a.conf".toList) (some ex_line_1024) 1 =
      run_t.ret (0, ex_cfg) ∧
    cfgcli_is_set ex_cfg 100 = false ∧
    cfgcli_is_set (ret_cfg (cfgcli_read_file ex_libc ex_cfg (some "a.conf".toList)
      (some (ex_line_1024 ++ ['\n'])) 1)) 100 = true ∧
    ((ret_cfg (cfgcli_read_file ex_libc ex_cfg (some "a.conf".toList)
      (some (ex_line_1024 ++ ['\n'])) 1)).params.getD 0 param_zero).slot =
      slot_t.scalar (scalar_t.str (List.replicate 1017 'x')) := by
  have hd : designates ex_cfg 0 "conf".toList "conf".toList = true := by decide
  have ha := after_set ex_cfg 0 "conf".toList "conf".toList
    (ex_cfg.params.getD 0 param_zero).narr 1018 (some (List.replicate 1017 'x'))
    (slot_t.scalar (scalar_t.str (List.replicate 1017 'x'))) 1 hd
  have hs := is_set_of_designates _ 0 _ _ ha.1 (by rw [ha.2]; decide)
  rw [ha.2] at hs
  refine ⟨ex_line_1024_length, ex_line_1024_lexed, ?_, by decide, ?_, ?_⟩
  · exact read_file_full_bare ex_libc ex_cfg _ _ 1 (by decide) (by decide) (by decide)
      (by decide) (by decide) ex_line_1024_length
      (entry_no_newline _ _ (by decide)
        (fun hm => absurd (List.eq_of_mem_replicate hm) (by decide)))
  · rw [read_full_chunk_newline]
    exact hs
  · rw [read_full_chunk_newline]
    exact congrArg cfgcli_param_valid_t.slot ha.2

/-! ## Coercion: what is left of the text when the token is assigned -/

theorem rtrim_append_spaces (l sp : List Char) (hsp : ∀ c ∈ sp, isspace c = true) :
    rtrim (l ++ sp) = rtrim l := by
  unfold rtrim
  rw [List.reverse_append, dropWhile_spaces_append sp.reverse l.reverse
    (fun c hc => hsp c (List.mem_reverse.1 hc))]

theorem takeWhile_until (tok rest : List Char) (q : Char) (hq : q ∉ tok) :
    (tok ++ q :: rest).takeWhile (fun x => x != q) = tok := by
  induction tok with
  | nil => simp
  | cons c cs ih =>
    have hc : c ≠ q := fun e => hq (e ▸ List.mem_cons_self _ _)
    have hcs : q ∉ cs := fun h => hq (List.mem_cons_of_mem _ h)
    simp only [List.cons_append, List.takeWhile_cons, bne_iff_ne, ne_eq, hc, not_false_eq_true,
      decide_True, ↓reduceIte, ih hcs]

theorem all_of_forall (sp : List Char) (hsp : ∀ c ∈ sp, isspace c = true) :
    sp.all isspace = true := by
  simp only [List.all_eq_true]
  exact hsp

/-- Function `cfgcli_get_value` on a text that is a token between white space, bare or in
quotes: the token goes to the variable assignment. -/
theorem get_value_strips (libc : libc_t) (raw tok : List Char) (dtype : Int)
    (h : strips_to raw tok) :
    cfgcli_get_value libc raw dtype = assign_value libc tok dtype := by
  rcases h with ⟨sp1, sp2, c, cs, l, d, e1, e2, h1, h2, hc, hq1, hq2, hd, hr⟩ |
    ⟨sp1, sp2, q, hne, hq, hnq, h1, h2, hr⟩
  · have hdw : (sp1 ++ (tok ++ sp2)).dropWhile isspace = c :: (cs ++ sp2) := by
      rw [dropWhile_spaces_append sp1 _ h1, e1]
      simp only [List.cons_append, List.dropWhile_cons, hc, Bool.false_eq_true, ↓reduceIte]
    have hb : (c == '"' || c == '\'') = false := by
      simp only [Bool.or_eq_false_iff, beq_eq_false_iff_ne, ne_eq]
      exact ⟨hq1, hq2⟩
    have ht : rtrim (c :: (cs ++ sp2)) = tok := by
      have : c :: (cs ++ sp2) = tok ++ sp2 := by rw [e1]; rfl
      rw [this, rtrim_append_spaces _ _ h2, e2]
      exact rtrim_of_last l d hd
    unfold cfgcli_get_value
    rw [hr]
    simp only [hdw, hb, Bool.false_eq_true, ↓reduceIte, ht]
  · have hdw : (sp1 ++ q :: (tok ++ q :: sp2)).dropWhile isspace = q :: (tok ++ q :: sp2) := by
      rw [dropWhile_spaces_append sp1 _ h1]
      have : isspace q = false := by
        rcases hq with e | e <;> subst e <;> decide
      simp only [List.dropWhile_cons, this, Bool.false_eq_true, ↓reduceIte]
    have hb : (q == '"' || q == '\'') = true := by
      rcases hq with e | e <;> subst e <;> decide
    have htw := takeWhile_until tok sp2 q hnq
    have hcl : tok.length < (tok ++ q :: sp2).length := by
      simp only [List.length_append, List.length_cons]
      omega
    have hdr : (tok ++ q :: sp2).drop (tok.length + 1) = sp2 := by
      have : tok ++ q :: sp2 = (tok ++ [q]) ++ sp2 := by simp
      rw [this]
      have e : tok.length + 1 = (tok ++ [q]).length := by simp
      rw [e, List.drop_left]
    have hte : (tok = []) = False := by simpa using hne
    unfold cfgcli_get_value
    rw [hr]
    simp only [hdw, hb, ↓reduceIte, htw, hcl, decide_True, hdr, all_of_forall sp2 h2,
      Bool.not_true, Bool.false_eq_true, hte, decide_False, Bool.false_and]

theorem takeWhile_no_quote (rest : List Char) (q : Char) (hq : q ∉ rest) :
    rest.takeWhile (fun x => x != q) = rest := by
  induction rest with
  | nil => rfl
  | cons c cs ih =>
    have hc : c ≠ q := fun e => hq (e ▸ List.mem_cons_self _ _)
    have hcs : q ∉ cs := fun h => hq (List.mem_cons_of_mem _ h)
    simp only [List.takeWhile_cons, bne_iff_ne, ne_eq, hc, not_false_eq_true, decide_True,
      ↓reduceIte, ih hcs]

/-- Function `cfgcli_get_value` on a text whose first character after white space is a
quote, by the checks of the source in their order. -/
theorem get_value_quoted (libc : libc_t) (sp rest : List Char) (q : Char) (dtype : Int)
    (hsp : ∀ x ∈ sp, isspace x = true) (hq : q = '"' ∨ q = '\'') :
    cfgcli_get_value libc (sp ++ q :: rest) dtype =
      if rest.takeWhile (fun x => x != q) = [] && dtype != CFGCLI_DTYPE_CHAR &&
          dtype != CFGCLI_DTYPE_STR then (none, CFGCLI_ERR_VALUE)
      else if !decide ((rest.takeWhile (fun x => x != q)).length < rest.length) then
        (none, CFGCLI_ERR_VALUE)
      else if !(rest.drop ((rest.takeWhile (fun x => x != q)).length + 1)).all isspace then
        (none, CFGCLI_ERR_VALUE)
      else assign_value libc (rest.takeWhile (fun x => x != q)) dtype := by
  have hdw : (sp ++ q :: rest).dropWhile isspace = q :: rest := by
    rw [dropWhile_spaces_append sp _ hsp]
    have : isspace q = false := by
      rcases hq with e | e <;> subst e <;> decide
    simp only [List.dropWhile_cons, this, Bool.false_eq_true, ↓reduceIte]
  have hb : (q == '"' || q == '\'') = true := by
    rcases hq with e | e <;> subst e <;> decide
  unfold cfgcli_get_value
  simp only [hdw, hb, ↓reduceIte]

/-! ## Coercion to an integer -/

theorem scan_digits_spec (l : List Char) (a k : Nat) :
    scan_digits l a k =
      ((l.takeWhile isdigit).foldl (fun acc c => acc * 10 + (c.toNat - 48)) a,
        k + (l.takeWhile isdigit).length) := by
  induction l generalizing a k with
  | nil => rfl
  | cons c cs ih =>
    by_cases hc : isdigit c = true
    · simp only [scan_digits, hc, ↓reduceIte, List.takeWhile_cons, List.foldl_cons,
        List.length_cons, ih]
      congr 1
      omega
    · simp only [scan_digits, hc, Bool.false_eq_true, ↓reduceIte, List.takeWhile_cons,
        List.foldl_nil, List.length_nil, Nat.add_zero]

theorem takeWhile_all_mem (p : Char → Bool) (l : List Char) :
    ∀ x ∈ l.takeWhile p, p x = true := by
  intro x hx
  exact (List.mem_takeWhile_imp hx)

/-- What a successful `sscanf` with `%ld%n` has read: white space, an optional sign and
one or more decimal digits, `n` bytes in all. -/
theorem sscanf_ld_some (tok : List Char) (v : Int) (n : Nat)
    (h : sscanf_ld tok = some (v, n)) :
    ∃ isp sg ds, tok = isp ++ (sg ++ (ds ++ tok.drop n)) ∧
      n = isp.length + (sg.length + ds.length) ∧
      (∀ x ∈ isp, isspace x = true) ∧ (sg = [] ∨ sg = ['+'] ∨ sg = ['-']) ∧ ds ≠ [] ∧
      (∀ x ∈ ds, isdigit x = true) ∧ v = clamp_long (int_denoted sg ds) := by
  have hsplit : tok = tok.takeWhile isspace ++ tok.dropWhile isspace :=
    (List.takeWhile_append_dropWhile _ _).symm
  generalize hT : tok.dropWhile isspace = t at hsplit
  generalize hW : tok.takeWhile isspace = w at hsplit
  have hw : ∀ x ∈ w, isspace x = true := by
    rw [← hW]
    exact takeWhile_all_mem _ _
  unfold sscanf_ld at h
  simp only [hT, hW, scan_digits_spec, Nat.zero_add] at h
  have finish : ∀ (sg : List Char) (u : List Char), t = sg ++ u →
      (sg = [] ∨ sg = ['+'] ∨ sg = ['-']) →
      (u.takeWhile isdigit).length ≠ 0 →
      n = w.length + sg.length + (u.takeWhile isdigit).length →
      v = clamp_long (int_denoted sg (u.takeWhile isdigit)) →
      ∃ isp sg ds, tok = isp ++ (sg ++ (ds ++ tok.drop n)) ∧
        n = isp.length + (sg.length + ds.length) ∧
        (∀ x ∈ isp, isspace x = true) ∧ (sg = [] ∨ sg = ['+'] ∨ sg = ['-']) ∧ ds ≠ [] ∧
        (∀ x ∈ ds, isdigit x = true) ∧ v = clamp_long (int_denoted sg ds) := by
    intro sg u ht hsg hlen hn hv
    have hu : u = u.takeWhile isdigit ++ u.dropWhile isdigit :=
      (List.takeWhile_append_dropWhile _ _).symm
    have htok : tok = (w ++ sg ++ u.takeWhile isdigit) ++ u.dropWhile isdigit := by
      rw [hsplit, ht]
      conv_lhs => rw [hu]
      simp only [List.append_assoc]
    have hdrop : tok.drop n = u.dropWhile isdigit := by
      have e : n = (w ++ sg ++ u.takeWhile isdigit).length := by
        simp only [List.length_append]
        omega
      rw [e]
      conv_lhs => rw [htok]
      exact List.drop_left _ _
    refine ⟨w, sg, u.takeWhile isdigit, ?_, by omega, hw, hsg, ?_, takeWhile_all_mem _ _, hv⟩
    · rw [hdrop]
      conv_lhs => rw [htok]
      simp only [List.append_assoc]
    · intro e
      rw [e] at hlen
      exact hlen rfl
  cases t with
  | nil =>
    simp at h
  | cons c cs =>
    by_cases hm : c = '-'
    · subst hm
      simp only [List.head?_cons, true_or, ↓reduceIte, List.drop_succ_cons, List.drop_zero,
        decide_True] at h
      split at h
      · exact absurd h (by simp)
      · rename_i hz
        simp only [Option.some.injEq, Prod.mk.injEq] at h
        exact finish ['-'] cs rfl (Or.inr (Or.inr rfl)) hz
          (by simp only [List.length_singleton]; omega)
          (by rw [← h.1]; simp [int_denoted, digits_value])
    · by_cases hp : c = '+'
      · subst hp
        have e1 : ¬ (some '+' = some '-') := by decide
        simp only [List.head?_cons, e1, or_true, ↓reduceIte, List.drop_succ_cons,
          List.drop_zero, decide_False, false_or, Bool.false_eq_true] at h
        split at h
        · exact absurd h (by simp)
        · rename_i hz
          simp only [Option.some.injEq, Prod.mk.injEq] at h
          exact finish ['+'] cs rfl (Or.inr (Or.inl rfl)) hz
            (by simp only [List.length_singleton]; omega)
            (by rw [← h.1]; simp [int_denoted, digits_value])
      · have e1 : ¬ (some c = some '-') := by simpa using hm
        have e2 : ¬ (some c = some '+') := by simpa using hp
        simp only [List.head?_cons, e1, e2, or_self, ↓reduceIte, List.drop_zero,
          decide_False, Bool.false_eq_true, Nat.add_zero] at h
        split at h
        · exact absurd h (by simp)
        · rename_i hz
          simp only [Option.some.injEq, Prod.mk.injEq] at h
          exact finish [] (c :: cs) rfl (Or.inl rfl) hz
            (by simp only [List.length_nil]; omega)
            (by rw [← h.1]; simp [int_denoted, digits_value])

theorem space_not_digit {c : Char} (h : isspace c = true) : isdigit c = false := by
  cases hd : isdigit c with
  | false => rfl
  | true =>
    have := isdigit_not_space hd
    rw [h] at this
    exact Bool.noConfusion this

/-- The digits of a run followed by white space are what the scan of digits reads. -/
theorem takeWhile_digits (ds tr : List Char) (hds : ∀ x ∈ ds, isdigit x = true)
    (htr : ∀ x ∈ tr, isspace x = true) : (ds ++ tr).takeWhile isdigit = ds := by
  rw [takeWhile_append_of_all isdigit ds tr hds]
  cases tr with
  | nil => simp
  | cons c cs =>
    have := space_not_digit (htr c (List.mem_cons_self _ _))
    simp only [List.takeWhile_cons, this, Bool.false_eq_true, ↓reduceIte, List.append_nil]

/-- Library call `sscanf` with `%ld%n` on white space, an optional sign, digits and white
space: the integer denoted, clamped to the range of `long`, and the count of the bytes up
to the last digit. -/
theorem sscanf_ld_text (tok isp sg ds tr : List Char) (h : int_text tok isp sg ds tr) :
    sscanf_ld tok =
      some (clamp_long (int_denoted sg ds), isp.length + (sg.length + ds.length)) := by
  obtain ⟨ht, hsp, hsg, hne, hds, htr⟩ := h
  cases ds with
  | nil => exact absurd rfl hne
  | cons d ds1 =>
    have hd := isdigit_head_facts (hds d (List.mem_cons_self _ _))
    have htd := takeWhile_digits (d :: ds1) tr hds htr
    have hlen : ¬ ((d :: ds1).length = 0) := by simp
    have hh : ∀ (c : Char) (l : List Char), (c :: l).head? = some c := fun _ _ => rfl
    have hz : ∀ (acc : Nat), List.foldl (fun acc c => acc * 10 + (c.toNat - 48)) acc
        (d :: ds1) = List.foldl (fun acc c => acc * 10 + (c.toNat - 48))
          (acc * 10 + (d.toNat - 48)) ds1 := fun _ => rfl
    rcases hsg with e | e | e
    · subst e
      have htw : tok.takeWhile isspace = isp := by
        rw [ht, takeWhile_append_of_all isspace isp _ hsp]
        simp [hd.1]
      have hdw : tok.dropWhile isspace = (d :: ds1) ++ tr := by
        rw [ht, dropWhile_spaces_append isp _ hsp]
        simp [hd.1]
      have hh1 : ((d :: ds1) ++ tr).head? = some d := rfl
      have e1 : ¬ (some d = some '-') := by simpa using hd.2.1
      have e2 : ¬ (some d = some '+') := by simpa using hd.2.2.1
      unfold sscanf_ld
      simp only [htw, hdw, hh1, e1, e2, or_self, ↓reduceIte, List.drop_zero,
        decide_False, Bool.false_eq_true, scan_digits_spec, htd, hlen, Nat.zero_add,
        List.length_nil, Nat.add_zero, int_denoted, digits_value, List.nil_eq,
        List.cons_ne_nil, reduceCtorEq]
    · subst e
      have hp : isspace '+' = false := by decide
      have htw : tok.takeWhile isspace = isp := by
        rw [ht, takeWhile_append_of_all isspace isp _ hsp]
        simp [hp]
      have hdw : tok.dropWhile isspace = '+' :: ((d :: ds1) ++ tr) := by
        rw [ht, dropWhile_spaces_append isp _ hsp]
        simp [hp]
      have e1 : ¬ (some '+' = some '-') := by decide
      have e4 : ¬ (['+'] = ['-']) := by decide
      unfold sscanf_ld
      simp only [htw, hdw, hh, e1, or_true, ↓reduceIte, List.drop_succ_cons,
        List.drop_zero, decide_False, Bool.false_eq_true, scan_digits_spec, htd, hlen,
        Nat.zero_add, List.length_singleton, int_denoted, digits_value, e4, Nat.add_assoc]
    · subst e
      have hp : isspace '-' = false := by decide
      have htw : tok.takeWhile isspace = isp := by
        rw [ht, takeWhile_append_of_all isspace isp _ hsp]
        simp [hp]
      have hdw : tok.dropWhile isspace = '-' :: ((d :: ds1) ++ tr) := by
        rw [ht, dropWhile_spaces_append isp _ hsp]
        simp [hp]
      unfold sscanf_ld
      simp only [htw, hdw, hh, true_or, ↓reduceIte, List.drop_succ_cons,
        List.drop_zero, decide_True, scan_digits_spec, htd, hlen,
        Nat.zero_add, List.length_singleton, int_denoted, digits_value, Nat.add_assoc]

/-- The variable assignment at the types `int` and `long` on white space, an optional
sign, digits and white space: the integer denoted is stored and the code is 0. -/
theorem assign_int_text (libc : libc_t) (tok isp sg ds tr : List Char)
    (h : int_text tok isp sg ds tr) :
    assign_value libc tok CFGCLI_DTYPE_INT =
      (some (scalar_t.int (wrap_int (clamp_long (int_denoted sg ds)))), 0) ∧
    assign_value libc tok CFGCLI_DTYPE_LONG =
      (some (scalar_t.long (clamp_long (int_denoted sg ds))), 0) := by
  have hs := sscanf_ld_text tok isp sg ds tr h
  obtain ⟨ht, hsp, hsg, hne, hds, htr⟩ := h
  have hn : ¬ (isp.length + (sg.length + ds.length) = 0) := by
    cases ds with
    | nil => exact absurd rfl hne
    | cons d ds1 =>
      simp only [List.length_cons]
      omega
  have hdrop : tok.drop (isp.length + (sg.length + ds.length)) = tr := by
    have e : tok = (isp ++ sg ++ ds) ++ tr := by
      rw [ht]
      simp only [List.append_assoc]
    have e2 : isp.length + (sg.length + ds.length) = (isp ++ sg ++ ds).length := by
      simp only [List.length_append]
      omega
    rw [e2]
    conv_lhs => rw [e]
    exact List.drop_left _ _
  have hr : rest_check tok (isp.length + (sg.length + ds.length)) = 0 := by
    unfold rest_check
    simp only [hn, ↓reduceIte, hdrop, all_of_forall tr htr]
  have d1 : ¬ (CFGCLI_DTYPE_INT = CFGCLI_DTYPE_BOOL) := by decide
  have d2 : ¬ (CFGCLI_DTYPE_INT = CFGCLI_DTYPE_CHAR) := by decide
  have d3 : ¬ (CFGCLI_DTYPE_LONG = CFGCLI_DTYPE_BOOL) := by decide
  have d4 : ¬ (CFGCLI_DTYPE_LONG = CFGCLI_DTYPE_CHAR) := by decide
  have d5 : ¬ (CFGCLI_DTYPE_LONG = CFGCLI_DTYPE_INT) := by decide
  constructor
  · unfold assign_value sscanf_d
    simp only [d1, d2, ↓reduceIte, hs, hr]
  · unfold assign_value
    simp only [d3, d4, d5, ↓reduceIte, hs, hr]

/-- The variable assignment at the types `int` and `long` returns 0 only on white space,
an optional sign, digits and white space. -/
theorem assign_int_ok (libc : libc_t) (tok : List Char) (dtype : Int)
    (hd : dtype = CFGCLI_DTYPE_INT ∨ dtype = CFGCLI_DTYPE_LONG)
    (h : (assign_value libc tok dtype).2 = 0) :
    ∃ isp sg ds tr, int_text tok isp sg ds tr := by
  have d1 : ¬ (CFGCLI_DTYPE_INT = CFGCLI_DTYPE_BOOL) := by decide
  have d2 : ¬ (CFGCLI_DTYPE_INT = CFGCLI_DTYPE_CHAR) := by decide
  have d3 : ¬ (CFGCLI_DTYPE_LONG = CFGCLI_DTYPE_BOOL) := by decide
  have d4 : ¬ (CFGCLI_DTYPE_LONG = CFGCLI_DTYPE_CHAR) := by decide
  have d5 : ¬ (CFGCLI_DTYPE_LONG = CFGCLI_DTYPE_INT) := by decide
  have hp : ¬ (CFGCLI_ERR_PARSE = 0) := by decide
  have key : ∀ v n, sscanf_ld tok = some (v, n) → rest_check tok n = 0 →
      ∃ isp sg ds tr, int_text tok isp sg ds tr := by
    intro v n hs hr
    obtain ⟨isp, sg, ds, e, hn, h1, h2, h3, h4, _⟩ := sscanf_ld_some tok v n hs
    refine ⟨isp, sg, ds, tok.drop n, e, h1, h2, h3, h4, ?_⟩
    have hnz : ¬ (n = 0) := by
      cases ds with
      | nil => exact absurd rfl h3
      | cons d ds1 =>
        simp only [List.length_cons] at hn
        omega
    unfold rest_check at hr
    simp only [hnz, ↓reduceIte] at hr
    by_cases ha : (tok.drop n).all isspace = true
    · simpa using ha
    · simp only [ha, Bool.false_eq_true, ↓reduceIte] at hr
      exact absurd hr (by decide)
  rcases hd with e | e
  · subst e
    unfold assign_value sscanf_d at h
    simp only [d1, d2, ↓reduceIte] at h
    cases hs : sscanf_ld tok with
    | none =>
      simp only [hs] at h
      exact absurd h hp
    | some r =>
      obtain ⟨v, n⟩ := r
      simp only [hs] at h
      exact key v n hs h
  · subst e
    unfold assign_value at h
    simp only [d3, d4, d5, ↓reduceIte] at h
    cases hs : sscanf_ld tok with
    | none =>
      simp only [hs] at h
      exact absurd h hp
    | some r =>
      obtain ⟨v, n⟩ := r
      simp only [hs] at h
      exact key v n hs h

/-! ## Coercion to an integer: the texts that are accepted -/

theorem rtrim_split (l : List Char) :
    ∃ tr, l = rtrim l ++ tr ∧ ∀ x ∈ tr, isspace x = true := by
  refine ⟨(l.reverse.takeWhile isspace).reverse, ?_, ?_⟩
  · unfold rtrim
    rw [← List.reverse_append, List.takeWhile_append_dropWhile, List.reverse_reverse]
  · intro x hx
    exact takeWhile_all_mem _ _ x (List.mem_reverse.1 hx)

theorem takeWhile_closed (rest : List Char) (q : Char)
    (h : (rest.takeWhile (fun x => x != q)).length < rest.length) :
    rest = rest.takeWhile (fun x => x != q) ++
      q :: rest.drop ((rest.takeWhile (fun x => x != q)).length + 1) := by
  induction rest with
  | nil => simp at h
  | cons c cs ih =>
    by_cases hc : c = q
    · subst hc
      simp
    · have hb : (c != q) = true := by simpa using hc
      simp only [List.takeWhile_cons, hb, ↓reduceIte, List.length_cons, List.cons_append,
        List.drop_succ_cons, List.cons.injEq, true_and] at h ⊢
      exact ih (by omega)

theorem takeWhile_not_mem (rest : List Char) (q : Char) :
    q ∉ rest.takeWhile (fun x => x != q) := by
  intro hm
  have := List.mem_takeWhile_imp hm
  simp at this

theorem space_not_quote {c : Char} (h : isspace c = true) : c ≠ '"' ∧ c ≠ '\'' := by
  constructor <;>
  · intro e
    subst e
    revert h
    decide

/-- No quote stands in white space, a sign, digits and white space. -/
theorem int_text_no_quote (s sp sg ds tr : List Char) (h : int_text s sp sg ds tr) (q : Char)
    (hq : q = '"' ∨ q = '\'') : q ∉ s := by
  obtain ⟨ht, hsp, hsg, hne, hds, htr⟩ := h
  intro hm
  rw [ht] at hm
  simp only [List.mem_append] at hm
  rcases hm with e | e | e | e
  · have := space_not_quote (hsp q e)
    rcases hq with r | r
    · exact this.1 r
    · exact this.2 r
  · rcases hsg with r | r | r <;> rw [r] at e
    · simp at e
    · rcases hq with r2 | r2 <;> rw [r2] at e <;> revert e <;> decide
    · rcases hq with r2 | r2 <;> rw [r2] at e <;> revert e <;> decide
  · have := isdigit_head_facts (hds q e)
    rcases hq with r | r
    · exact this.2.2.2.1 r
    · exact this.2.2.2.2 r
  · have := space_not_quote (htr q e)
    rcases hq with r | r
    · exact this.1 r
    · exact this.2 r

/-- A bare integer text is its sign and digits between white space. -/
theorem int_text_strips (raw sp sg ds tr : List Char) (h : int_text raw sp sg ds tr) :
    strips_to raw (sg ++ ds) ∧ int_text (sg ++ ds) [] sg ds [] := by
  obtain ⟨ht, hsp, hsg, hne, hds, htr⟩ := h
  obtain ⟨l, d, hl⟩ := exists_last ds hne
  have hd := isdigit_head_facts (hds d (by rw [hl]; simp))
  constructor
  · cases ds with
    | nil => exact absurd rfl hne
    | cons e es =>
      have he := isdigit_head_facts (hds e (List.mem_cons_self _ _))
      left
      rcases hsg with r | r | r
      · subst r
        exact ⟨sp, tr, e, es, l, d, rfl, by simpa using hl, hsp, htr, he.1, he.2.2.2.1,
          he.2.2.2.2, hd.1, by rw [ht]; simp⟩
      · subst r
        exact ⟨sp, tr, '+', e :: es, '+' :: l, d, rfl, by rw [hl]; rfl, hsp, htr, by decide,
          by decide, by decide, hd.1, by rw [ht]; simp⟩
      · subst r
        exact ⟨sp, tr, '-', e :: es, '-' :: l, d, rfl, by rw [hl]; rfl, hsp, htr, by decide,
          by decide, by decide, hd.1, by rw [ht]; simp⟩
  · exact ⟨by simp, by simp, hsg, hne, hds, by simp⟩

/-- Function `cfgcli_get_value` at the types `int` and `long` on an integer text, bare or
in quotes: the integer denoted is stored and the code is 0. -/
theorem get_value_int_shape (libc : libc_t) (raw sp sg ds tr : List Char)
    (h : int_text raw sp sg ds tr ∨ int_quoted raw sp sg ds tr) :
    cfgcli_get_value libc raw CFGCLI_DTYPE_INT =
      (some (scalar_t.int (wrap_int (clamp_long (int_denoted sg ds)))), 0) ∧
    cfgcli_get_value libc raw CFGCLI_DTYPE_LONG =
      (some (scalar_t.long (clamp_long (int_denoted sg ds))), 0) := by
  rcases h with h | ⟨sp1, sp2, q, inner, hq, h1, h2, hr, hin⟩
  · obtain ⟨hs, hi⟩ := int_text_strips raw sp sg ds tr h
    rw [get_value_strips libc raw _ _ hs, get_value_strips libc raw _ _ hs]
    exact assign_int_text libc _ _ _ _ _ hi
  · have hne : inner ≠ [] := by
      obtain ⟨ht, _, _, hne, _, _⟩ := hin
      intro e
      rw [e] at ht
      have : ds = [] := by
        have := congrArg List.length ht
        simp only [List.length_nil, List.length_append] at this
        exact List.length_eq_zero.1 (by omega)
      exact hne this
    have hs : strips_to raw inner :=
      Or.inr ⟨sp1, sp2, q, hne, hq, int_text_no_quote _ _ _ _ _ hin q hq, h1, h2, hr⟩
    rw [get_value_strips libc raw _ _ hs, get_value_strips libc raw _ _ hs]
    exact assign_int_text libc _ _ _ _ _ hin

/-- C17: for a text that is a non-empty token between white space, bare or in one pair of
quotes, the coercion to `bool` stores true with code 0 exactly when the token is one of
`1`, `T`, `t`, `true`, `TRUE`, `True`, stores false with code 0 exactly when it is one of
`0`, `F`, `f`, `false`, `FALSE`, `False`, and for every other token stores nothing and
returns the parse-failure code -6. -/
theorem bool_coercion (libc : libc_t) (raw tok : List Char) (h : strips_to raw tok) :
    (cfgcli_get_value libc raw CFGCLI_DTYPE_BOOL = (some (scalar_t.bool true), 0) ↔
      tok ∈ true_words) ∧
    (cfgcli_get_value libc raw CFGCLI_DTYPE_BOOL = (some (scalar_t.bool false), 0) ↔
      tok ∈ false_words) ∧
    (tok ∉ true_words → tok ∉ false_words →
      cfgcli_get_value libc raw CFGCLI_DTYPE_BOOL = (none, CFGCLI_ERR_PARSE)) ∧
    CFGCLI_ERR_PARSE = -6 := by
  rw [get_value_strips libc raw tok _ h]
  have ht : tok ∈ true_words ↔ (tok = "1".toList ∨ tok = "T".toList ∨ tok = "t".toList ∨
      tok = "true".toList ∨ tok = "TRUE".toList ∨ tok = "True".toList) := by
    simp [true_words]
  have hf : tok ∈ false_words ↔ (tok = "0".toList ∨ tok = "F".toList ∨ tok = "f".toList ∨
      tok = "false".toList ∨ tok = "FALSE".toList ∨ tok = "False".toList) := by
    simp [false_words]
  have hdis : tok ∈ true_words → tok ∉ false_words := by
    intro h1 h2
    rw [ht] at h1
    rw [hf] at h2
    rcases h1 with e | e | e | e | e | e <;> subst e <;> revert h2 <;> decide
  rw [ht, hf] at *
  unfold assign_value
  simp only [↓reduceIte]
  by_cases h1 : (tok = "1".toList ∨ tok = "T".toList ∨ tok = "t".toList ∨
      tok = "true".toList ∨ tok = "TRUE".toList ∨ tok = "True".toList)
  · have h2 := hdis h1
    simp only [h1, ↓reduceIte, true_iff, iff_true, not_true_eq_false, false_implies, true_and,
      Prod.mk.injEq, Option.some.injEq, scalar_t.bool.injEq, Bool.true_eq_false, and_true,
      false_iff, and_self]
    exact ⟨h2, rfl⟩
  · by_cases h2 : (tok = "0".toList ∨ tok = "F".toList ∨ tok = "f".toList ∨
        tok = "false".toList ∨ tok = "FALSE".toList ∨ tok = "False".toList)
    · simp only [h1, h2, ↓reduceIte, Prod.mk.injEq, Option.some.injEq, scalar_t.bool.injEq,
        Bool.false_eq_true, and_true, iff_false, not_false_eq_true, iff_true, and_self,
        not_true_eq_false, false_implies, implies_true, true_and]
      rfl
    · simp only [h1, h2, ↓reduceIte, Prod.mk.injEq, false_and, iff_false, not_false_eq_true,
        forall_const, and_self, true_and]
      exact ⟨fun h3 => Option.noConfusion h3.1, fun h3 => Option.noConfusion h3.1, rfl⟩

/-- The text `  'True' ` coerces to true; the bare text `yes` is a parse failure. -/
theorem bool_coercion_witness :
    strips_to "  'True' ".toList "True".toList ∧
    cfgcli_get_value ex_libc "  'True' ".toList CFGCLI_DTYPE_BOOL =
      (some (scalar_t.bool true), 0) ∧
    strips_to "yes".toList "yes".toList ∧
    cfgcli_get_value ex_libc "yes".toList CFGCLI_DTYPE_BOOL = (none, CFGCLI_ERR_PARSE) :=
  have hs : strips_to "  'True' ".toList "True".toList :=
    Or.inr ⟨"  ".toList, " ".toList, '\'', by decide, Or.inr rfl, by decide, by decide,
      by decide, rfl⟩
  have hy : strips_to "yes".toList "yes".toList :=
    Or.inl ⟨[], [], 'y', "es".toList, "ye".toList, 's', rfl, rfl, by decide, by decide,
      by decide, by decide, by decide, by decide, rfl⟩
  ⟨hs, (bool_coercion ex_libc _ _ hs).1.2 (by decide), hy,
    (bool_coercion ex_libc _ _ hy).2.2.1 (by decide) (by decide)⟩

/-- Function `cfgcli_get_value` at the types `int` and `long` returns 0 only on an integer
text, bare or in quotes. -/
theorem get_value_int_ok (libc : libc_t) (raw : List Char) (dtype : Int)
    (hd : dtype = CFGCLI_DTYPE_INT ∨ dtype = CFGCLI_DTYPE_LONG)
    (h : (cfgcli_get_value libc raw dtype).2 = 0) :
    (∃ sp sg ds tr, int_text raw sp sg ds tr) ∨
    (∃ isp sg ds tr, int_quoted raw isp sg ds tr) := by
  have hsplit : raw = raw.takeWhile isspace ++ raw.dropWhile isspace :=
    (List.takeWhile_append_dropWhile _ _).symm
  have hw : ∀ x ∈ raw.takeWhile isspace, isspace x = true := takeWhile_all_mem _ _
  have hv5 : ¬ (CFGCLI_ERR_VALUE = 0) := by decide
  cases hv : raw.dropWhile isspace with
  | nil =>
    unfold cfgcli_get_value at h
    simp only [hv] at h
    exact absurd h hv5
  | cons c rest =>
    rw [hv] at hsplit
    by_cases hq : c = '"' ∨ c = '\''
    · right
      have g := get_value_quoted libc (raw.takeWhile isspace) rest c dtype hw hq
      rw [← hsplit] at g
      rw [g] at h
      split at h
      · exact absurd h hv5
      · split at h
        · exact absurd h hv5
        · rename_i hcl
          split at h
          · exact absurd h hv5
          · rename_i hall
            obtain ⟨isp, sg, ds, tr, hin⟩ := assign_int_ok libc _ dtype hd h
            have hcl2 : (rest.takeWhile (fun x => x != c)).length < rest.length := by
              simpa using hcl
            have hall2 : ∀ x ∈ rest.drop ((rest.takeWhile (fun x => x != c)).length + 1),
                isspace x = true := by
              simpa using hall
            refine ⟨isp, sg, ds, tr, raw.takeWhile isspace,
              rest.drop ((rest.takeWhile (fun x => x != c)).length + 1), c,
              rest.takeWhile (fun x => x != c), hq, hw, hall2, ?_, hin⟩
            rw [← takeWhile_closed rest c hcl2]
            exact hsplit
    · left
      have hb : (c == '"' || c == '\'') = false := by
        simp only [Bool.or_eq_false_iff, beq_eq_false_iff_ne, ne_eq]
        exact ⟨fun e => hq (Or.inl e), fun e => hq (Or.inr e)⟩
      unfold cfgcli_get_value at h
      simp only [hv, hb, Bool.false_eq_true, ↓reduceIte] at h
      obtain ⟨isp, sg, ds, tr, ht, h1, h2, h3, h4, h5⟩ := assign_int_ok libc _ dtype hd h
      obtain ⟨tr2, e2, htr2⟩ := rtrim_split (c :: rest)
      refine ⟨raw.takeWhile isspace ++ isp, sg, ds, tr ++ tr2, ?_, ?_, h2, h3, h4, ?_⟩
      · conv_lhs => rw [hsplit, e2, ht]
        simp only [List.append_assoc]
      · intro x hx
        rcases List.mem_append.1 hx with e | e
        · exact hw x e
        · exact h1 x e
      · intro x hx
        rcases List.mem_append.1 hx with e | e
        · exact h5 x e
        · exact htr2 x e

/-- An integer text without leading white space starts with a sign or a digit. -/
theorem int_text_head (s sg ds tr : List Char) (h : int_text s [] sg ds tr) :
    ∃ c cs, s = c :: cs ∧ isspace c = false := by
  obtain ⟨ht, _, hsg, hne, hds, _⟩ := h
  cases ds with
  | nil => exact absurd rfl hne
  | cons d ds1 =>
    have hd := isdigit_head_facts (hds d (List.mem_cons_self _ _))
    rcases hsg with r | r | r <;> subst r
    · exact ⟨d, ds1 ++ tr, by rw [ht]; rfl, hd.1⟩
    · exact ⟨'+', (d :: ds1) ++ tr, by rw [ht]; rfl, by decide⟩
    · exact ⟨'-', (d :: ds1) ++ tr, by rw [ht]; rfl, by decide⟩

/-- C18, counterexample: the text `" 12"`, in which a blank follows the opening quote, is
coerced to the `int` 12 with code 0, although it is neither an optional sign, digits and
white space, nor such a text in one pair of quotes. -/
theorem int_space_after_quote :
    cfgcli_get_value ex_libc "\" 12\"".toList CFGCLI_DTYPE_INT = (some (scalar_t.int 12), 0) ∧
    ¬ ((∃ sp sg ds tr, int_text "\" 12\"".toList sp sg ds tr) ∨
       (∃ sg ds tr, int_quoted "\" 12\"".toList [] sg ds tr)) := by
  refine ⟨by decide, ?_⟩
  rintro (⟨sp, sg, ds, tr, h⟩ | ⟨sg, ds, tr, sp1, sp2, q, inner, hq, h1, h2, hr, hin⟩)
  · exact int_text_no_quote _ _ _ _ _ h '"' (Or.inl rfl) (by decide)
  · obtain ⟨c, cs, hc, hcs⟩ := int_text_head inner sg ds tr hin
    cases sp1 with
    | nil =>
      rw [hc] at hr
      have e : "\" 12\"".toList = '"' :: ' ' :: '1' :: '2' :: ['"'] := rfl
      rw [e] at hr
      simp only [List.nil_append, List.cons_append, List.cons.injEq] at hr
      have : c = ' ' := hr.2.1.symm
      rw [this] at hcs
      revert hcs
      decide
    | cons x xs =>
      have e : "\" 12\"".toList = '"' :: ' ' :: '1' :: '2' :: ['"'] := rfl
      rw [e] at hr
      simp only [List.cons_append, List.cons.injEq] at hr
      have hx := h1 x (List.mem_cons_self _ _)
      rw [← hr.1] at hx
      revert hx
      decide

/-- C18, amended: the coercion to `int` and to `long` returns 0 exactly on the texts that
are white space, an optional sign, one or more decimal digits and white space, either bare
or in one pair of quotes with white space allowed on both sides of the quotes and between
the opening quote and the sign; the integer denoted is then stored when it is in the range
of the type.  Every other text, such as one with another character behind the digits or
one without a digit after the optional sign, gives a non-zero code. -/
theorem int_coercion (libc : libc_t) (raw : List Char) (dtype : Int)
    (hd : dtype = CFGCLI_DTYPE_INT ∨ dtype = CFGCLI_DTYPE_LONG) :
    ((cfgcli_get_value libc raw dtype).2 = 0 ↔
      ((∃ sp sg ds tr, int_text raw sp sg ds tr) ∨
       (∃ isp sg ds tr, int_quoted raw isp sg ds tr))) ∧
    (∀ sp sg ds tr, int_text raw sp sg ds tr ∨ int_quoted raw sp sg ds tr →
      (-(2 ^ 31) ≤ int_denoted sg ds → int_denoted sg ds < 2 ^ 31 →
        cfgcli_get_value libc raw CFGCLI_DTYPE_INT =
          (some (scalar_t.int (int_denoted sg ds)), 0)) ∧
      (-(2 ^ 63) ≤ int_denoted sg ds → int_denoted sg ds ≤ 2 ^ 63 - 1 →
        cfgcli_get_value libc raw CFGCLI_DTYPE_LONG =
          (some (scalar_t.long (int_denoted sg ds)), 0))) := by
  refine ⟨⟨get_value_int_ok libc raw dtype hd, ?_⟩, ?_⟩
  · rintro (⟨sp, sg, ds, tr, h⟩ | ⟨sp, sg, ds, tr, h⟩)
    · have g := get_value_int_shape libc raw sp sg ds tr (Or.inl h)
      rcases hd with e | e <;> subst e
      · rw [g.1]
      · rw [g.2]
    · have g := get_value_int_shape libc raw sp sg ds tr (Or.inr h)
      rcases hd with e | e <;> subst e
      · rw [g.1]
      · rw [g.2]
  · intro sp sg ds tr h
    have g := get_value_int_shape libc raw sp sg ds tr h
    constructor
    · intro hlo hhi
      rw [g.1]
      have c1 : clamp_long (int_denoted sg ds) = int_denoted sg ds := by
        unfold clamp_long
        rw [if_neg (by omega), if_neg (by omega)]
      have c2 : wrap_int (int_denoted sg ds) = int_denoted sg ds := by
        unfold wrap_int
        omega
      rw [c1, c2]
    · intro hlo hhi
      rw [g.2]
      have c1 : clamp_long (int_denoted sg ds) = int_denoted sg ds := by
        unfold clamp_long
        rw [if_neg (by omega), if_neg (by omega)]
      rw [c1]

/-- The text ` -42 ` is coerced to the `int` -42, and the quoted text `'7'` to the `long`
7. -/
theorem int_coercion_witness :
    int_text " -42 ".toList " ".toList "-".toList "42".toList " ".toList ∧
    cfgcli_get_value ex_libc " -42 ".toList CFGCLI_DTYPE_INT = (some (scalar_t.int (-42)), 0) ∧
    (cfgcli_get_value ex_libc "'7'".toList CFGCLI_DTYPE_LONG).2 = 0 :=
  have ht : int_text " -42 ".toList " ".toList "-".toList "42".toList " ".toList :=
    ⟨rfl, by decide, Or.inr (Or.inr rfl), by decide, by decide, by decide⟩
  have hq : int_quoted "'7'".toList [] [] "7".toList [] :=
    ⟨[], [], '\'', "7".toList, Or.inr rfl, by decide, by decide, rfl,
      ⟨rfl, by decide, Or.inl rfl, by decide, by decide, by decide⟩⟩
  ⟨ht,
    ((int_coercion ex_libc " -42 ".toList CFGCLI_DTYPE_INT (Or.inl rfl)).2 _ _ _ _
      (Or.inl ht)).1 (by decide) (by decide),
    (int_coercion ex_libc "'7'".toList CFGCLI_DTYPE_LONG (Or.inr rfl)).1.2
      (Or.inr ⟨[], [], "7".toList, [], hq⟩)⟩

/-- C19: for a text whose first character after white space is a quote `q`, the coercion
fails with the invalid-value code -5 when no further `q` follows, when a character other
than white space follows the closing `q`, and when the text between the quotes is empty
and the type is neither `char` nor `string`; otherwise the text between the opening quote
and the next `q` is what is assigned: a string parameter receives exactly that text, and
an empty quoted text gives the NUL byte for `char` and the empty string for `string`. -/
theorem quoted_coercion (libc : libc_t) (sp rest : List Char) (q : Char) (dtype : Int)
    (hsp : ∀ x ∈ sp, isspace x = true) (hq : q = '"' ∨ q = '\'') :
    (q ∉ rest → cfgcli_get_value libc (sp ++ q :: rest) dtype = (none, CFGCLI_ERR_VALUE)) ∧
    (∀ tok after, rest = tok ++ q :: after → q ∉ tok →
      ((∃ x ∈ after, isspace x = false) →
        cfgcli_get_value libc (sp ++ q :: rest) dtype = (none, CFGCLI_ERR_VALUE)) ∧
      (tok = [] → dtype ≠ CFGCLI_DTYPE_CHAR → dtype ≠ CFGCLI_DTYPE_STR →
        cfgcli_get_value libc (sp ++ q :: rest) dtype = (none, CFGCLI_ERR_VALUE)) ∧
      ((∀ x ∈ after, isspace x = true) →
        (tok ≠ [] ∨ dtype = CFGCLI_DTYPE_CHAR ∨ dtype = CFGCLI_DTYPE_STR) →
        cfgcli_get_value libc (sp ++ q :: rest) dtype = assign_value libc tok dtype ∧
        (dtype = CFGCLI_DTYPE_STR →
          cfgcli_get_value libc (sp ++ q :: rest) dtype = (some (scalar_t.str tok), 0)) ∧
        (dtype = CFGCLI_DTYPE_CHAR → tok = [] →
          cfgcli_get_value libc (sp ++ q :: rest) dtype = (some (scalar_t.char NUL), 0)))) ∧
    CFGCLI_ERR_VALUE = -5 := by
  have hg := get_value_quoted libc sp rest q dtype hsp hq
  refine ⟨?_, ?_, rfl⟩
  · intro hn
    rw [hg, takeWhile_no_quote rest q hn]
    simp only [lt_self_iff_false, decide_False, Bool.not_false, ↓reduceIte, ite_self]
  · intro tok after hr hnq
    have htw : rest.takeWhile (fun x => x != q) = tok := by
      rw [hr]
      exact takeWhile_until tok after q hnq
    have hcl : tok.length < rest.length := by
      rw [hr]
      simp only [List.length_append, List.length_cons]
      omega
    have hdr : rest.drop (tok.length + 1) = after := by
      have : tok ++ q :: after = (tok ++ [q]) ++ after := by simp
      rw [hr, this]
      have e : tok.length + 1 = (tok ++ [q]).length := by simp
      rw [e, List.drop_left]
    rw [htw] at hg
    simp only [hcl, decide_True, Bool.not_true, Bool.false_eq_true, ↓reduceIte, hdr] at hg
    refine ⟨?_, ?_, ?_⟩
    · intro ⟨x, hx, hxs⟩
      have ha : after.all isspace = false := by
        simp only [List.all_eq_false]
        exact ⟨x, hx, by simp [hxs]⟩
      rw [hg, ha]
      simp only [Bool.not_false, ↓reduceIte, ite_self]
    · intro ht hc hs
      rw [hg]
      simp only [ht, decide_True, Bool.true_and, Bool.and_eq_true, bne_iff_ne, ne_eq, hc,
        not_false_eq_true, hs, and_self, ↓reduceIte]
    · intro ha hor
      have hcond : (decide (tok = []) && dtype != CFGCLI_DTYPE_CHAR &&
          dtype != CFGCLI_DTYPE_STR) = false := by
        rcases hor with h1 | h1 | h1
        · simp [h1]
        · simp [h1]
        · simp [h1]
      have hval : cfgcli_get_value libc (sp ++ q :: rest) dtype = assign_value libc tok dtype := by
        rw [hg, hcond, all_of_forall after ha]
        simp only [Bool.false_eq_true, ↓reduceIte, Bool.not_true]
      refine ⟨hval, ?_, ?_⟩
      · intro hd
        rw [hval, hd]
        unfold assign_value
        have d1 : ¬ (CFGCLI_DTYPE_STR = CFGCLI_DTYPE_BOOL) := by decide
        have d2 : ¬ (CFGCLI_DTYPE_STR = CFGCLI_DTYPE_CHAR) := by decide
        have d3 : ¬ (CFGCLI_DTYPE_STR = CFGCLI_DTYPE_INT) := by decide
        have d4 : ¬ (CFGCLI_DTYPE_STR = CFGCLI_DTYPE_LONG) := by decide
        have d5 : ¬ (CFGCLI_DTYPE_STR = CFGCLI_DTYPE_FLT) := by decide
        have d6 : ¬ (CFGCLI_DTYPE_STR = CFGCLI_DTYPE_DBL) := by decide
        simp only [d1, d2, d3, d4, d5, d6, ↓reduceIte]
      · intro hd ht
        rw [hval, hd, ht]
        rfl

/-- An open quote is rejected, the text between two quotes is stored in a string, and two
quotes with nothing between them are rejected for an integer. -/
theorem quoted_coercion_witness :
    cfgcli_get_value ex_libc " \"abc".toList CFGCLI_DTYPE_STR = (none, CFGCLI_ERR_VALUE) ∧
    cfgcli_get_value ex_libc " \"abc\" ".toList CFGCLI_DTYPE_STR =
      (some (scalar_t.str "abc".toList), 0) ∧
    cfgcli_get_value ex_libc " \"\"".toList CFGCLI_DTYPE_INT = (none, CFGCLI_ERR_VALUE) :=
  ⟨(quoted_coercion ex_libc " ".toList "abc".toList '"' CFGCLI_DTYPE_STR (by decide)
      (Or.inl rfl)).1 (by decide),
    (((quoted_coercion ex_libc " ".toList "abc\" ".toList '"' CFGCLI_DTYPE_STR (by decide)
      (Or.inl rfl)).2.1 "abc".toList " ".toList rfl (by decide)).2.2 (by decide)
      (Or.inl (by decide))).2.1 rfl,
    ((quoted_coercion ex_libc " ".toList "\"".toList '"' CFGCLI_DTYPE_INT (by decide)
      (Or.inl rfl)).2.1 [] [] rfl (by decide)).2.1 rfl (by decide) (by decide)⟩

/-- C20: for a text that is a non-empty token `c :: rest` between white space, bare or in
one pair of quotes, the coercion to `char` stores the first byte `c` of the token; the
code is 0 when only white space follows that byte in the token, and the invalid-value
code -5 when some other character follows it. -/
theorem char_coercion (libc : libc_t) (raw : List Char) (c : Char) (rest : List Char)
    (h : strips_to raw (c :: rest)) :
    (cfgcli_get_value libc raw CFGCLI_DTYPE_CHAR).1 = some (scalar_t.char c) ∧
    ((∀ x ∈ rest, isspace x = true) →
      cfgcli_get_value libc raw CFGCLI_DTYPE_CHAR = (some (scalar_t.char c), 0)) ∧
    ((∃ x ∈ rest, isspace x = false) →
      cfgcli_get_value libc raw CFGCLI_DTYPE_CHAR =
        (some (scalar_t.char c), CFGCLI_ERR_VALUE)) ∧
    CFGCLI_ERR_VALUE = -5 := by
  rw [get_value_strips libc raw _ _ h]
  have hb : ¬ (CFGCLI_DTYPE_CHAR = CFGCLI_DTYPE_BOOL) := by decide
  have e : assign_value libc (c :: rest) CFGCLI_DTYPE_CHAR =
      (some (scalar_t.char c), if rest.all isspace then 0 else CFGCLI_ERR_VALUE) := by
    unfold assign_value rest_check
    simp only [hb, ↓reduceIte, char_at, List.getD_cons_zero, one_ne_zero, List.drop_succ_cons,
      List.drop_zero]
  rw [e]
  refine ⟨rfl, ?_, ?_, rfl⟩
  · intro hs
    rw [all_of_forall rest hs]
    rfl
  · intro ⟨x, hx, hxs⟩
    have : rest.all isspace = false := by
      simp only [List.all_eq_false]
      exact ⟨x, hx, by simp [hxs]⟩
    rw [this]
    rfl

/-- The quoted text `"a "` coerces to the byte `a`; the bare text `ab` stores `a` and is
rejected. -/
theorem char_coercion_witness :
    strips_to "\"a \"".toList "a ".toList ∧
    cfgcli_get_value ex_libc "\"a \"".toList CFGCLI_DTYPE_CHAR = (some (scalar_t.char 'a'), 0) ∧
    strips_to "ab".toList "ab".toList ∧
    cfgcli_get_value ex_libc "ab".toList CFGCLI_DTYPE_CHAR =
      (some (scalar_t.char 'a'), CFGCLI_ERR_VALUE) :=
  have hs : strips_to "\"a \"".toList ('a' :: " ".toList) :=
    Or.inr ⟨[], [], '"', by decide, Or.inl rfl, by decide, by decide, by decide, rfl⟩
  have hy : strips_to "ab".toList ('a' :: "b".toList) :=
    Or.inl ⟨[], [], 'a', "b".toList, "a".toList, 'b', rfl, rfl, by decide, by decide,
      by decide, by decide, by decide, by decide, rfl⟩
  ⟨hs, (char_coercion ex_libc _ _ _ hs).2.1 (by decide), hy,
    (char_coercion ex_libc _ _ _ hy).2.2.1 ⟨'b', by decide, by decide⟩⟩

/-- C14: for every argument (a C string, so without NUL), the macro `CFGCLI_IS_OPT` holds
exactly when the argument is `-`, then a letter followed by the end of the argument or by
`=`, or `--` followed by the end of the argument or by a graphic character other than
`=`. -/
theorem is_opt_shape (t : List Char) (h : NUL ∉ t) : CFGCLI_IS_OPT t = opt_shape t := by
  cases t with
  | nil => rfl
  | cons a t1 =>
    cases t1 with
    | nil =>
      simp [CFGCLI_IS_OPT, opt_shape, char_at]
    | cons c rest =>
      have hc : c ≠ NUL := fun e => h (by rw [← e]; simp)
      have hc2 : (c != NUL) = true := by simpa using hc
      cases rest with
      | nil =>
        simp [CFGCLI_IS_OPT, opt_shape, char_at, hc2, CFGCLI_CMD_FLAG, CFGCLI_CMD_ASSIGN]
      | cons d r =>
        have hd : d ≠ NUL := fun e => h (by rw [← e]; simp)
        have hd2 : (d == NUL) = false := by simpa using hd
        simp [CFGCLI_IS_OPT, opt_shape, char_at, hc2, hd2, CFGCLI_CMD_FLAG, CFGCLI_CMD_ASSIGN]

/-- The arguments `-x`, `-x=1`, `--` and `--name` are candidate options; `-5`, `-ab`,
`--=v` and `x` are not. -/
theorem is_opt_shape_witness :
    (CFGCLI_IS_OPT "-x".toList = true ∧ opt_shape "-x".toList = true) ∧
    (CFGCLI_IS_OPT "-x=1".toList = true ∧ opt_shape "-x=1".toList = true) ∧
    (CFGCLI_IS_OPT "--".toList = true ∧ opt_shape "--".toList = true) ∧
    (CFGCLI_IS_OPT "--name".toList = true ∧ opt_shape "--name".toList = true) ∧
    (CFGCLI_IS_OPT "-5".toList = false ∧ opt_shape "-5".toList = false) ∧
    (CFGCLI_IS_OPT "-ab".toList = false ∧ opt_shape "-ab".toList = false) ∧
    (CFGCLI_IS_OPT "--=v".toList = false ∧ opt_shape "--=v".toList = false) ∧
    (CFGCLI_IS_OPT "x".toList = false ∧ opt_shape "x".toList = false) :=
  ⟨⟨(is_opt_shape "-x".toList (by decide)).trans (by decide), by decide⟩,
    ⟨(is_opt_shape "-x=1".toList (by decide)).trans (by decide), by decide⟩,
    ⟨(is_opt_shape "--".toList (by decide)).trans (by decide), by decide⟩,
    ⟨(is_opt_shape "--name".toList (by decide)).trans (by decide), by decide⟩,
    ⟨(is_opt_shape "-5".toList (by decide)).trans (by decide), by decide⟩,
    ⟨(is_opt_shape "-ab".toList (by decide)).trans (by decide), by decide⟩,
    ⟨(is_opt_shape "--=v".toList (by decide)).trans (by decide), by decide⟩,
    ⟨(is_opt_shape "x".toList (by decide)).trans (by decide), by decide⟩⟩

/-! ## One pass of the loop of `cfgcli_read_opts` on an option -/

theorem assign_scan_end (l : List Char) (j : Nat) (h : ∀ c ∈ l, c ≠ '=')
    (hj : j + l.length < CFGCLI_MAX_LOPT_LEN + 2) : assign_scan l j = j + l.length := by
  induction l generalizing j with
  | nil => rfl
  | cons c cs ih =>
    have hc : (c == CFGCLI_CMD_ASSIGN) = false := by
      simp only [CFGCLI_CMD_ASSIGN, beq_eq_false_iff_ne, ne_eq]
      exact h c (List.mem_cons_self _ _)
    simp only [List.length_cons] at hj
    have hge : ¬ j ≥ CFGCLI_MAX_LOPT_LEN + 2 := by omega
    simp only [assign_scan, hge, ↓reduceIte, hc, Bool.false_eq_true]
    rw [ih (j + 1) (fun x hx => h x (List.mem_cons_of_mem _ hx)) (by omega)]
    simp only [List.length_cons]
    omega

theorem char_at_length (l : List Char) : char_at l l.length = NUL := by
  unfold char_at
  rw [List.getD_eq_default _ _ (Nat.le_refl _)]

/-- An option that the search does not read as the terminator is still an option with an
argument attached by `=`. -/
theorem is_opt_assign (opt v : List Char) (h : CFGCLI_IS_OPT opt = true) (hnul : NUL ∉ opt)
    (ht : char_at opt 1 ≠ CFGCLI_CMD_FLAG ∨ char_at opt 2 ≠ NUL) :
    CFGCLI_IS_OPT (opt ++ '=' :: v) = true := by
  cases opt with
  | nil => simp [CFGCLI_IS_OPT, char_at, CFGCLI_CMD_FLAG] at h
  | cons a t1 =>
    cases t1 with
    | nil => simp [CFGCLI_IS_OPT, char_at] at h
    | cons c rest =>
      cases rest with
      | nil =>
        simp only [char_at, List.getD_cons_succ, List.getD_cons_zero, List.getD_nil, ne_eq,
          not_true_eq_false, or_false] at ht
        have hb : (c == CFGCLI_CMD_FLAG) = false := by simpa using ht
        simp only [CFGCLI_IS_OPT, char_at, List.getD_cons_zero, List.getD_cons_succ,
          List.getD_nil, beq_self_eq_true, Bool.true_or, Bool.and_true, hb, Bool.false_and,
          Bool.or_false, Bool.and_eq_true, bne_iff_ne, ne_eq, List.cons_append,
          List.nil_append, CFGCLI_CMD_ASSIGN, Bool.or_true] at h ⊢
        exact h
      | cons d r =>
        simp only [CFGCLI_IS_OPT, char_at, List.getD_cons_zero, List.getD_cons_succ,
          List.cons_append] at h ⊢
        exact h

/-- One pass of the loop on the argument `opt=v` for an option `opt` that the search finds
as parameter `j`: the option is cut at `=` and handed with the argument `v` to the branch
`is_param`; the next argument is not consumed. -/
theorem opts_body_assign (libc : libc_t) (cfg : cfgcli_t) (j : Nat) (opt v : List Char)
    (prior : Int) (i : Nat) (nxt : Option (List Char)) (ho : CFGCLI_IS_OPT opt = true)
    (hne : ∀ c ∈ opt, c ≠ '=') (hnul : NUL ∉ opt)
    (hlen : opt.length < CFGCLI_MAX_LOPT_LEN + 2)
    (hf : find_opt cfg opt = opt_status_t.is_param j) :
    opts_body libc cfg prior i (opt ++ '=' :: v) nxt =
      if (opts_param libc cfg j opt (some v) prior).1 ≠ 0 then
        opt_step_t.fail (opts_param libc cfg j opt (some v) prior).1
          (opts_param libc cfg j opt (some v) prior).2
      else opt_step_t.next (opts_param libc cfg j opt (some v) prior).2 false := by
  have ht : char_at opt 1 ≠ CFGCLI_CMD_FLAG ∨ char_at opt 2 ≠ NUL := by
    by_cases h1 : char_at opt 1 = CFGCLI_CMD_FLAG
    · by_cases h2 : char_at opt 2 = NUL
      · unfold find_opt at hf
        simp [h1, h2] at hf
      · exact Or.inr h2
    · exact Or.inl h1
  have hscan : assign_scan (opt ++ '=' :: v) 0 = opt.length := by
    have := assign_scan_spec opt v 0 hne (by omega)
    rw [Nat.zero_add] at this
    exact this
  have hat : char_at (opt ++ '=' :: v) opt.length = '=' := by
    have := getD_append_right_add opt ('=' :: v) 0
    rw [Nat.add_zero] at this
    simp only [char_at, this, List.getD_cons_zero]
  have hdrop : (opt ++ '=' :: v).drop (opt.length + 1) = v := by
    have e : opt ++ '=' :: v = (opt ++ ['=']) ++ v := by simp
    have e2 : opt.length + 1 = (opt ++ ['=']).length := by simp
    rw [e, e2, List.drop_left]
  have htake : (opt ++ '=' :: v).take opt.length = opt := List.take_left _ _
  unfold opts_body
  simp only [is_opt_assign opt v ho hnul ht, Bool.not_true, Bool.false_eq_true, ↓reduceIte,
    hscan, hat, CFGCLI_CMD_ASSIGN, bne_self_eq_false, Bool.and_false, beq_self_eq_true,
    Bool.true_and, hdrop, htake, hf]
  generalize opts_param libc cfg j opt (some v) prior = R
  obtain ⟨e, c⟩ := R
  simp

/-- One pass of the loop on an option `opt` without `=` that the search finds as parameter
`j`, when no argument follows that can be consumed: the branch `is_param` runs without an
argument. -/
theorem opts_body_bare (libc : libc_t) (cfg : cfgcli_t) (j : Nat) (opt : List Char)
    (prior : Int) (i : Nat) (nxt : Option (List Char)) (ho : CFGCLI_IS_OPT opt = true)
    (hne : ∀ c ∈ opt, c ≠ '=') (hlen : opt.length < CFGCLI_MAX_LOPT_LEN + 2)
    (hn : nxt = none ∨ ∃ a, nxt = some a ∧ CFGCLI_IS_OPT a = true)
    (hf : find_opt cfg opt = opt_status_t.is_param j) :
    opts_body libc cfg prior i opt nxt =
      if (opts_param libc cfg j opt none prior).1 ≠ 0 then
        opt_step_t.fail (opts_param libc cfg j opt none prior).1
          (opts_param libc cfg j opt none prior).2
      else opt_step_t.next (opts_param libc cfg j opt none prior).2 false := by
  have hscan : assign_scan opt 0 = opt.length := by
    have := assign_scan_end opt 0 hne (by omega)
    rw [Nat.zero_add] at this
    exact this
  have hat := char_at_length opt
  have h1 : (NUL != NUL) = false := by decide
  have h2 : (NUL == CFGCLI_CMD_ASSIGN) = false := by decide
  rcases hn with e | ⟨a, e, ha⟩
  · subst e
    unfold opts_body
    simp only [ho, Bool.not_true, Bool.false_eq_true, ↓reduceIte, hscan, hat, h1, h2,
      Bool.false_and, Bool.not_false, Bool.true_and, Bool.and_false, hf]
  · subst e
    unfold opts_body
    simp only [ho, Bool.not_true, Bool.false_eq_true, ↓reduceIte, hscan, hat, h1, h2,
      Bool.false_and, Bool.not_false, Bool.true_and, Bool.and_false, ha, hf]

/-! ## The branch `is_param` without an argument -/

theorem src_val_nonneg (s : Int) : 0 ≤ CFGCLI_SRC_VAL s := by
  unfold CFGCLI_SRC_VAL
  split <;> omega

/-- An option that the search finds as a parameter: some parameter is registered. -/
theorem find_opt_param_npar (cfg : cfgcli_t) (arg : List Char) (j : Nat)
    (h : find_opt cfg arg = opt_status_t.is_param j) : cfg.npar ≠ 0 := by
  intro h0
  unfold find_opt at h
  simp only [h0, List.take_zero, first_index] at h
  repeat' split at h
  all_goals exact opt_status_t.noConfusion h

/-- The guards of `cfgcli_read_opts` passed: the call is the loop from index 1. -/
theorem read_opts_enter (libc : libc_t) (cfg : cfgcli_t) (a0 : List Char)
    (args : List (List Char)) (prior : Int) (oi : Nat) (hc : CFGCLI_IS_ERROR cfg = false)
    (hn : cfg.npar ≠ 0 ∨ cfg.nfunc ≠ 0) (hp : 0 < prior) :
    cfgcli_read_opts libc cfg (a0 :: args) prior oi = read_opts_loop libc prior cfg 1 args := by
  have h1 : ¬ (cfg.npar = 0 ∧ cfg.nfunc = 0) := by
    intro h
    rcases hn with e | e
    · exact e h.1
    · exact e h.2
  have h2 : ¬ prior ≤ CFGCLI_SRC_NULL := by
    simp only [CFGCLI_SRC_NULL]
    omega
  unfold cfgcli_read_opts
  simp only [hc, Bool.false_eq_true, ↓reduceIte, h1, h2]

/-- The branch `is_param` without an argument, for a parameter that is not boolean and
whose stored priority is lower: the command-syntax error. -/
theorem opts_param_missing_other (libc : libc_t) (cfg : cfgcli_t) (j : Nat) (arg : List Char)
    (optarg : Option (List Char)) (prior : Int)
    (hpr : CFGCLI_SRC_VAL (cfg.params.getD j param_zero).src < prior)
    (hm : optarg = none ∨ optarg = some [])
    (hd : (cfg.params.getD j param_zero).dtype ≠ CFGCLI_DTYPE_BOOL) :
    opts_param libc cfg j arg optarg prior =
      (CFGCLI_ERR_CMD,
        { cfgcli_msg cfg "argument not found for option".toList (some arg) with
          error := { (cfgcli_msg cfg "argument not found for option".toList (some arg)).error
                     with errno := CFGCLI_ERR_CMD } }) := by
  have n1 : ¬ CFGCLI_SRC_VAL (cfg.params.getD j param_zero).src > prior := by omega
  have n2 : ¬ CFGCLI_SRC_VAL (cfg.params.getD j param_zero).src = prior := by omega
  have hb : ((cfg.params.getD j param_zero).dtype != CFGCLI_DTYPE_BOOL) = true := by
    simpa using hd
  rcases hm with e | e <;> subst e <;> unfold opts_param <;>
    simp only [n1, n2, ↓reduceIte, hb, Bool.and_self, char_at, List.getD_nil,
      beq_self_eq_true]

/-- Function `cfgcli_get` for a boolean parameter and the text `T`: true is stored. -/
theorem get_bool_T (libc : libc_t) (cfg : cfgcli_t) (par : cfgcli_param_valid_t) (src : Int)
    (hc : CFGCLI_IS_ERROR cfg = false) (hd : par.dtype = CFGCLI_DTYPE_BOOL) :
    cfgcli_get libc cfg { par with value := some "T".toList, vlen := 2 } src =
      (0, cfg, { par with value := some "T".toList, vlen := 2,
                          slot := slot_t.scalar (scalar_t.bool true) }) := by
  have hs : strips_to "T".toList "T".toList :=
    Or.inl ⟨[], [], 'T', [], [], 'T', rfl, rfl, by decide, by decide, by decide, by decide,
      by decide, by decide, rfl⟩
  have hv : cfgcli_get_value libc "T".toList CFGCLI_DTYPE_BOOL =
      (some (scalar_t.bool true), 0) := by
    rw [get_value_strips libc _ _ _ hs]
    unfold assign_value
    simp only [↓reduceIte]
    decide
  have h0 : (char_at "T".toList 0 == NUL) = false := by decide
  have ha : CFGCLI_DTYPE_IS_ARRAY
      ({ par with value := some "T".toList, vlen := 2 }).dtype = false := by
    simp only [hd]
    decide
  have g := get_scalar_case libc cfg { par with value := some "T".toList, vlen := 2 }
    "T".toList src hc rfl h0 ha
  simp only [hd, hv, forall_const, Option.some.injEq, exists_eq_left'] at g
  rw [hd]
  exact g.2

/-- The branch `is_param` without an argument, for a boolean parameter whose stored
priority is lower: the text `T` is coerced, so true is stored, and the source becomes the
priority tagged as coming from the command line. -/
theorem opts_param_missing_bool (libc : libc_t) (cfg : cfgcli_t) (j : Nat) (arg : List Char)
    (optarg : Option (List Char)) (prior : Int) (hc : CFGCLI_IS_ERROR cfg = false)
    (hpr : CFGCLI_SRC_VAL (cfg.params.getD j param_zero).src < prior)
    (hm : optarg = none ∨ optarg = some [])
    (hd : (cfg.params.getD j param_zero).dtype = CFGCLI_DTYPE_BOOL) :
    opts_param libc cfg j arg optarg prior =
      (0, { cfg with
            params := cfg.params.set j
                        { cfg.params.getD j param_zero with
                          value := some "T".toList, vlen := 2,
                          slot := slot_t.scalar (scalar_t.bool true),
                          src := CFGCLI_SRC_OF_OPT prior } }) := by
  have n1 : ¬ CFGCLI_SRC_VAL (cfg.params.getD j param_zero).src > prior := by omega
  have n2 : ¬ CFGCLI_SRC_VAL (cfg.params.getD j param_zero).src = prior := by omega
  have hb : ((cfg.params.getD j param_zero).dtype != CFGCLI_DTYPE_BOOL) = false := by
    rw [hd]
    decide
  have hg := get_bool_T libc cfg (cfg.params.getD j param_zero) (CFGCLI_SRC_OF_OPT prior) hc hd
  rcases hm with e | e <;> subst e <;> unfold opts_param <;>
    simp only [n1, n2, ↓reduceIte, hb, Bool.and_false, Bool.false_eq_true, char_at,
      List.getD_nil, beq_self_eq_true, hg, ne_eq, not_true_eq_false]

/-! ## One pass of the loop and the loop -/

/-- The argument that follows, as the loop hands it to its body. -/
theorem loop_step_next (libc : libc_t) (prior : Int) (cfg cfg1 : cfgcli_t) (i : Nat)
    (tok : List Char) (rest : List (List Char))
    (h : opts_body libc cfg prior i tok rest.head? = opt_step_t.next cfg1 false) :
    read_opts_loop libc prior cfg i (tok :: rest) = read_opts_loop libc prior cfg1 (i + 1) rest := by
  cases rest with
  | nil =>
    simp only [List.head?_nil] at h
    simp only [read_opts_loop, h]
  | cons a r =>
    simp only [List.head?_cons] at h
    simp only [read_opts_loop, h, Bool.false_eq_true, ↓reduceIte]

theorem loop_step_fail (libc : libc_t) (prior : Int) (cfg cfg1 : cfgcli_t) (i : Nat)
    (tok : List Char) (rest : List (List Char)) (code : Int)
    (h : opts_body libc cfg prior i tok rest.head? = opt_step_t.fail code cfg1) :
    read_opts_loop libc prior cfg i (tok :: rest) = (code, cfg1, 0) := by
  cases rest with
  | nil =>
    simp only [List.head?_nil] at h
    simp only [read_opts_loop, h]
  | cons a r =>
    simp only [List.head?_cons] at h
    simp only [read_opts_loop, h]

theorem loop_step_term (libc : libc_t) (prior : Int) (cfg cfg1 : cfgcli_t) (i k : Nat)
    (tok : List Char) (rest : List (List Char))
    (h : opts_body libc cfg prior i tok rest.head? = opt_step_t.term cfg1 k) :
    read_opts_loop libc prior cfg i (tok :: rest) = (0, cfg1, k) := by
  cases rest with
  | nil =>
    simp only [List.head?_nil] at h
    simp only [read_opts_loop, h]
  | cons a r =>
    simp only [List.head?_cons] at h
    simp only [read_opts_loop, h]

/-- One pass of the loop on a parameter option whose argument is missing: the option
alone with no argument to consume behind it, or the option and `=` with nothing behind. -/
theorem opts_body_missing (libc : libc_t) (cfg : cfgcli_t) (j : Nat) (opt tok : List Char)
    (rest : List (List Char)) (prior : Int) (i : Nat)
    (ho : CFGCLI_IS_OPT opt = true) (hne : ∀ c ∈ opt, c ≠ '=') (hnul : NUL ∉ opt)
    (hlen : opt.length < CFGCLI_MAX_LOPT_LEN + 2)
    (hf : find_opt cfg opt = opt_status_t.is_param j)
    (hm : (tok = opt ∧ (rest = [] ∨ ∃ a r, rest = a :: r ∧ CFGCLI_IS_OPT a = true)) ∨
      tok = opt ++ ['=']) :
    ∃ optarg, (optarg = none ∨ optarg = some []) ∧
      opts_body libc cfg prior i tok rest.head? =
        if (opts_param libc cfg j opt optarg prior).1 ≠ 0 then
          opt_step_t.fail (opts_param libc cfg j opt optarg prior).1
            (opts_param libc cfg j opt optarg prior).2
        else opt_step_t.next (opts_param libc cfg j opt optarg prior).2 false := by
  rcases hm with ⟨e, hr⟩ | e
  · subst e
    refine ⟨none, Or.inl rfl, ?_⟩
    apply opts_body_bare libc cfg j tok prior i _ ho hne hlen _ hf
    rcases hr with e | ⟨a, r, e, ha⟩
    · left
      rw [e]
      rfl
    · right
      exact ⟨a, by rw [e]; rfl, ha⟩
  · subst e
    exact ⟨some [], Or.inr rfl, opts_body_assign libc cfg j opt [] prior i _ ho hne hnul hlen hf⟩

/-- C12: let `opt` be an option that the search of `cfgcli_read_opts` finds as parameter
`j`, whose stored priority is below the priority of the call, and let its argument be
missing: the argument is `opt` and no argument that can be consumed follows, or the
argument is `opt=`.  For a boolean parameter the loop stores true with the source of the
command line and goes on with the next argument; for a parameter of any other type it
returns the command-syntax code -8 with that code as the sticky error.  The same holds
for the call `cfgcli_read_opts` with the option as its first argument. -/
theorem missing_argument (libc : libc_t) (cfg : cfgcli_t) (j : Nat) (opt tok : List Char)
    (rest : List (List Char)) (prior : Int)
    (hc : CFGCLI_IS_ERROR cfg = false)
    (ho : CFGCLI_IS_OPT opt = true) (hne : ∀ c ∈ opt, c ≠ '=') (hnul : NUL ∉ opt)
    (hlen : opt.length < CFGCLI_MAX_LOPT_LEN + 2)
    (hf : find_opt cfg opt = opt_status_t.is_param j)
    (hpr : CFGCLI_SRC_VAL (cfg.params.getD j param_zero).src < prior)
    (hm : (tok = opt ∧ (rest = [] ∨ ∃ a r, rest = a :: r ∧ CFGCLI_IS_OPT a = true)) ∨
      tok = opt ++ ['=']) :
    ((cfg.params.getD j param_zero).dtype = CFGCLI_DTYPE_BOOL →
      ∀ (i : Nat) (a0 : List Char) (oi : Nat),
        read_opts_loop libc prior cfg i (tok :: rest) =
          read_opts_loop libc prior
            { cfg with
              params := cfg.params.set j
                          { cfg.params.getD j param_zero with
                            value := some "T".toList, vlen := 2,
                            slot := slot_t.scalar (scalar_t.bool true),
                            src := CFGCLI_SRC_OF_OPT prior } } (i + 1) rest ∧
        cfgcli_read_opts libc cfg (a0 :: tok :: rest) prior oi =
          read_opts_loop libc prior
            { cfg with
              params := cfg.params.set j
                          { cfg.params.getD j param_zero with
                            value := some "T".toList, vlen := 2,
                            slot := slot_t.scalar (scalar_t.bool true),
                            src := CFGCLI_SRC_OF_OPT prior } } 2 rest) ∧
    ((cfg.params.getD j param_zero).dtype ≠ CFGCLI_DTYPE_BOOL →
      ∀ (i : Nat) (a0 : List Char) (oi : Nat),
        read_opts_loop libc prior cfg i (tok :: rest) =
          (CFGCLI_ERR_CMD,
            { cfgcli_msg cfg "argument not found for option".toList (some opt) with
              error := { (cfgcli_msg cfg "argument not found for option".toList
                           (some opt)).error with errno := CFGCLI_ERR_CMD } }, 0) ∧
        cfgcli_read_opts libc cfg (a0 :: tok :: rest) prior oi =
          (CFGCLI_ERR_CMD,
            { cfgcli_msg cfg "argument not found for option".toList (some opt) with
              error := { (cfgcli_msg cfg "argument not found for option".toList
                           (some opt)).error with errno := CFGCLI_ERR_CMD } }, 0)) ∧
    CFGCLI_ERR_CMD = -8 := by
  obtain ⟨optarg, hoa, hb⟩ := opts_body_missing libc cfg j opt tok rest prior 0 ho hne hnul
    hlen hf hm
  have hp : 0 < prior := by
    have := src_val_nonneg (cfg.params.getD j param_zero).src
    omega
  have hn := find_opt_param_npar cfg opt j hf
  have hbody : ∀ i, opts_body libc cfg prior i tok rest.head? =
      if (opts_param libc cfg j opt optarg prior).1 ≠ 0 then
        opt_step_t.fail (opts_param libc cfg j opt optarg prior).1
          (opts_param libc cfg j opt optarg prior).2
      else opt_step_t.next (opts_param libc cfg j opt optarg prior).2 false := by
    intro i
    obtain ⟨oa, h1, h2⟩ := opts_body_missing libc cfg j opt tok rest prior i ho hne hnul
      hlen hf hm
    have e : opts_param libc cfg j opt oa prior = opts_param libc cfg j opt optarg prior := by
      by_cases hd : (cfg.params.getD j param_zero).dtype = CFGCLI_DTYPE_BOOL
      · rw [opts_param_missing_bool libc cfg j opt oa prior hc hpr h1 hd,
          opts_param_missing_bool libc cfg j opt optarg prior hc hpr hoa hd]
      · rw [opts_param_missing_other libc cfg j opt oa prior hpr h1 hd,
          opts_param_missing_other libc cfg j opt optarg prior hpr hoa hd]
    rw [h2, e]
  refine ⟨?_, ?_, rfl⟩
  · intro hd i a0 oi
    have hstep := hbody i
    rw [opts_param_missing_bool libc cfg j opt optarg prior hc hpr hoa hd] at hstep
    simp only [ne_eq, not_true_eq_false, ↓reduceIte] at hstep
    have h2 := hbody 1
    rw [opts_param_missing_bool libc cfg j opt optarg prior hc hpr hoa hd] at h2
    simp only [ne_eq, not_true_eq_false, ↓reduceIte] at h2
    exact ⟨loop_step_next libc prior cfg _ i tok rest hstep, by
      rw [read_opts_enter libc cfg a0 _ prior oi hc (Or.inl hn) hp]
      exact loop_step_next libc prior cfg _ 1 tok rest h2⟩
  · intro hd i a0 oi
    have hne8 : CFGCLI_ERR_CMD ≠ 0 := by decide
    have hstep := hbody i
    rw [opts_param_missing_other libc cfg j opt optarg prior hpr hoa hd] at hstep
    simp only [ne_eq, hne8, not_false_eq_true, ↓reduceIte] at hstep
    have h2 := hbody 1
    rw [opts_param_missing_other libc cfg j opt optarg prior hpr hoa hd] at h2
    simp only [ne_eq, hne8, not_false_eq_true, ↓reduceIte] at h2
    exact ⟨loop_step_fail libc prior cfg _ i tok rest _ hstep, by
      rw [read_opts_enter libc cfg a0 _ prior oi hc (Or.inl hn) hp]
      exact loop_step_fail libc prior cfg _ 1 tok rest _ h2⟩

/-- On the registry with the boolean `flag` and the integer `level`: `prog --flag -v` sets
`flag` to true and goes on to call `-v`; `prog --level=` fails with -8. -/
theorem missing_argument_witness :
    ((cfgcli_read_opts ex_libc ex_cli ["prog".toList, "--flag".toList, "-v".toList] 1 0).1 = 0 ∧
     ((cfgcli_read_opts ex_libc ex_cli ["prog".toList, "--flag".toList, "-v".toList]
        1 0).2.1.params.getD 0 param_zero).slot = slot_t.scalar (scalar_t.bool true) ∧
     cfgcli_is_set (cfgcli_read_opts ex_libc ex_cli
        ["prog".toList, "--flag".toList, "-v".toList] 1 0).2.1 1000 = true) ∧
    ((cfgcli_read_opts ex_libc ex_cli ["prog".toList, "--level=".toList] 1 0).1 = -8 ∧
     CFGCLI_ERRNO (cfgcli_read_opts ex_libc ex_cli
        ["prog".toList, "--level=".toList] 1 0).2.1 = -8) :=
  have h1 := ((missing_argument ex_libc ex_cli 0 "--flag".toList "--flag".toList
    ["-v".toList] 1 (by decide) (by decide) (by decide) (by decide) (by decide) (by decide)
    (by decide) (Or.inl ⟨rfl, Or.inr ⟨_, _, rfl, by decide⟩⟩)).1 (by decide) 1
    "prog".toList 0).2
  have h2 := ((missing_argument ex_libc ex_cli 1 "--level".toList "--level=".toList
    [] 1 (by decide) (by decide) (by decide) (by decide) (by decide) (by decide)
    (by decide) (Or.inr rfl)).2.1 (by decide) 1 "prog".toList 0).2
  ⟨by rw [h1]; decide, by rw [h2]; decide⟩

/-! ## What `cfgcli_get` leaves when the coercion fails -/

/-- The array reader: its code depends on the type, the value text and its length only,
and it writes `narr`, the value text and what is stored only. -/
theorem get_array_frame (libc : libc_t) (par : cfgcli_param_valid_t) :
    ∃ N V S, cfgcli_get_array libc par =
      ((cfgcli_get_array libc
          { param_zero with dtype := par.dtype, value := par.value, vlen := par.vlen }).1,
        { par with narr := N, value := V, slot := S }) := by
  have e1 := parse_array_congr par
  have e2 := parse_array_congr
    { param_zero with dtype := par.dtype, value := par.value, vlen := par.vlen }
  simp only at e2
  generalize cfgcli_parse_array { param_zero with value := par.value, vlen := par.vlen } = X
    at e1 e2
  obtain ⟨c, q⟩ := X
  simp only at e1 e2
  unfold cfgcli_get_array
  rw [e2, e1]
  simp only
  by_cases hc : c = 0
  · subst hc
    simp only [ne_eq, not_true_eq_false, ↓reduceIte]
    cases he : array_elem par.dtype with
    | none => exact ⟨q.narr, q.value, par.slot, rfl⟩
    | some ez =>
      obtain ⟨edt, zero⟩ := ez
      exact ⟨_, _, _, rfl⟩
  · simp only [ne_eq, hc, not_false_eq_true, ↓reduceIte]
    exact ⟨q.narr, q.value, par.slot, rfl⟩

/-- The messages of `cfgcli_get` are not empty. -/
theorem get_msg_ne (err : Int) :
    (if err = CFGCLI_ERR_MEMORY then "failed to allocate memory for parameter"
      else if err = CFGCLI_ERR_VALUE then "invalid value for parameter"
      else if err = CFGCLI_ERR_PARSE then "failed to parse the value for parameter"
      else if err = CFGCLI_ERR_DTYPE then "invalid data type for parameter"
      else "unknown error occurred for parameter").toList ≠ [] := by
  repeat' split
  all_goals decide

/-- Function `cfgcli_get` on a registry without error and a non-empty value text: the code
depends on the type and the value text only; the entry changes in `narr`, in the value
text and in what is stored only; and when the code is not 0 the registry receives one
message with the name of the parameter and the code as its sticky error. -/
theorem get_any (libc : libc_t) (cfg : cfgcli_t) (par : cfgcli_param_valid_t) (v : List Char)
    (src : Int) (hc : CFGCLI_IS_ERROR cfg = false) (hv : par.value = some v)
    (h0 : (char_at v 0 == NUL) = false) :
    (cfgcli_get libc cfg par src).1 =
      (cfgcli_get libc cfgcli_init
        { param_zero with dtype := par.dtype, value := par.value, vlen := par.vlen } 0).1 ∧
    (∃ N V S, (cfgcli_get libc cfg par src).2.2 =
      { par with narr := N, value := V, slot := S }) ∧
    ((cfgcli_get libc cfg par src).1 = 0 → (cfgcli_get libc cfg par src).2.1 = cfg) ∧
    ((cfgcli_get libc cfg par src).1 ≠ 0 → ∃ m, m ≠ [] ∧
      (cfgcli_get libc cfg par src).2.1 =
        { cfgcli_msg cfg m par.name with
          error := { (cfgcli_msg cfg m par.name).error with
                     errno := (cfgcli_get libc cfg par src).1 } }) := by
  have hi : CFGCLI_IS_ERROR cfgcli_init = false := by decide
  by_cases ha : CFGCLI_DTYPE_IS_ARRAY par.dtype = true
  · obtain ⟨N, V, S, hg⟩ := get_array_frame libc par
    obtain ⟨N0, V0, S0, hg0⟩ := get_array_frame libc
      { param_zero with dtype := par.dtype, value := par.value, vlen := par.vlen }
    simp only at hg0
    generalize (cfgcli_get_array libc
      { param_zero with dtype := par.dtype, value := par.value, vlen := par.vlen }).1 = e
      at hg hg0
    unfold cfgcli_get
    simp only [hc, hi, Bool.false_eq_true, ↓reduceIte, hv, h0, ha, hg]
    rw [← hv, hg0]
    by_cases he : e = 0
    · subst he
      simp only [↓reduceIte, ne_eq, not_true_eq_false, false_implies, and_true, true_and,
        implies_true]
      exact ⟨N, V, S, rfl⟩
    · simp only [he, ↓reduceIte, ne_eq, not_false_eq_true, false_implies, true_and,
        forall_const]
      exact ⟨⟨N, V, S, rfl⟩, _, get_msg_ne e, rfl⟩
  · have ha2 : CFGCLI_DTYPE_IS_ARRAY par.dtype = false := by simpa using ha
    unfold cfgcli_get
    simp only [hc, hi, Bool.false_eq_true, ↓reduceIte, hv, h0, ha2]
    by_cases hs : par.dtype = CFGCLI_DTYPE_STR
    · simp only [hs, ↓reduceIte]
      generalize cfgcli_get_value libc v CFGCLI_DTYPE_STR = G
      obtain ⟨o, e⟩ := G
      simp only
      by_cases he : e = 0
      · subst he
        simp only [↓reduceIte, ne_eq, not_true_eq_false, false_implies, and_true, true_and,
          implies_true]
        cases o with
        | none => exact ⟨par.narr, _, _, rfl⟩
        | some x => exact ⟨par.narr, _, _, rfl⟩
      · simp only [he, ↓reduceIte, ne_eq, not_false_eq_true, false_implies, true_and,
          forall_const]
        refine ⟨?_, _, get_msg_ne e, ?_⟩
        · cases o with
          | none => exact ⟨par.narr, _, _, rfl⟩
          | some x => exact ⟨par.narr, _, _, rfl⟩
        · cases o <;> rfl
    · simp only [hs, ↓reduceIte]
      generalize cfgcli_get_value libc v par.dtype = G
      obtain ⟨o, e⟩ := G
      simp only
      by_cases he : e = 0
      · subst he
        simp only [↓reduceIte, ne_eq, not_true_eq_false, false_implies, and_true, true_and,
          implies_true]
        cases o with
        | none => exact ⟨par.narr, _, par.slot, rfl⟩
        | some x => exact ⟨par.narr, _, _, rfl⟩
      · simp only [he, ↓reduceIte, ne_eq, not_false_eq_true, false_implies, true_and,
          forall_const]
        refine ⟨?_, _, get_msg_ne e, ?_⟩
        · cases o with
          | none => exact ⟨par.narr, _, par.slot, rfl⟩
          | some x => exact ⟨par.narr, _, _, rfl⟩
        · cases o <;> rfl

/-! ## The codes of the coercion are not positive -/

theorem neg_codes : CFGCLI_ERR_VALUE ≤ 0 ∧ CFGCLI_ERR_PARSE ≤ 0 ∧ CFGCLI_ERR_DTYPE ≤ 0 := by
  decide

theorem rest_check_code (t : List Char) (n : Nat) : rest_check t n ≤ 0 := by
  unfold rest_check
  repeat' split
  all_goals first | exact Int.le_refl 0 | exact neg_codes.1

theorem assign_value_code (libc : libc_t) (t : List Char) (d : Int) :
    (assign_value libc t d).2 ≤ 0 := by
  have key : ∀ r, r = assign_value libc t d → r.2 ≤ 0 := by
    intro r hr
    unfold assign_value at hr
    repeat' split at hr
    all_goals
      subst hr
      try dsimp only
      first
        | exact rest_check_code _ _
        | exact Int.le_refl 0
        | exact neg_codes.2.1
        | exact neg_codes.2.2
  exact key _ rfl

theorem get_value_code (libc : libc_t) (s : List Char) (d : Int) :
    (cfgcli_get_value libc s d).2 ≤ 0 := by
  have key : ∀ r, r = cfgcli_get_value libc s d → r.2 ≤ 0 := by
    intro r hr
    unfold cfgcli_get_value at hr
    dsimp only at hr
    repeat' split at hr
    all_goals
      subst hr
      try dsimp only
      first
        | exact assign_value_code libc _ d
        | exact neg_codes.1
  exact key _ rfl

theorem split_body_code (s : split_t) (i : Nat) (code : Int) (narr : Option Nat)
    (h : split_body s i = split_step_t.stop code narr) : code ≤ 0 := by
  unfold split_body at h
  dsimp only at h
  repeat' split at h
  all_goals
    first
      | exact split_step_t.noConfusion h
      | (obtain ⟨rfl, _⟩ := split_step_t.stop.inj h
         first | exact Int.le_refl 0 | exact neg_codes.1)

theorem parse_array_loop_code (k : Nat) (s : split_t) (i : Nat) (code : Int)
    (narr : Option Nat) (h : parse_array_loop k s i = split_step_t.stop code narr) :
    code ≤ 0 := by
  induction k generalizing s i with
  | zero => exact split_step_t.noConfusion h
  | succ k ih =>
    unfold parse_array_loop at h
    split at h
    · exact split_step_t.noConfusion h
    · split at h
      · exact ih _ _ h
      · rename_i c n hb
        obtain ⟨rfl, _⟩ := split_step_t.stop.inj h
        exact split_body_code _ _ _ _ hb

theorem parse_array_code (par : cfgcli_param_valid_t) : (cfgcli_parse_array par).1 ≤ 0 := by
  have key : ∀ r, r = cfgcli_parse_array par → r.1 ≤ 0 := by
    intro r hr
    unfold cfgcli_parse_array at hr
    dsimp only at hr
    split at hr
    · subst hr
      exact Int.le_refl 0
    · split at hr
      · subst hr
        exact Int.le_refl 0
      · split at hr
        · rename_i code narr hl
          subst hr
          exact parse_array_loop_code _ _ _ _ _ hl
        · subst hr
          exact Int.le_refl 0
  exact key _ rfl

theorem get_array_vals_code (libc : libc_t) (edt : Int) (buf : List Char) (k pos i : Nat)
    (arr : List scalar_t) : (get_array_vals libc edt buf k pos i arr).2 ≤ 0 := by
  induction k generalizing pos i arr with
  | zero => exact Int.le_refl 0
  | succ k ih =>
    unfold get_array_vals
    dsimp only
    split
    · exact get_value_code libc _ _
    · exact ih _ _ _

theorem get_array_code (libc : libc_t) (par : cfgcli_param_valid_t) :
    (cfgcli_get_array libc par).1 ≤ 0 := by
  have hp := parse_array_code par
  rw [get_array_unfold]
  generalize cfgcli_parse_array par = X at hp
  obtain ⟨c, q⟩ := X
  simp only at hp ⊢
  split
  · exact hp
  · split
    · exact neg_codes.2.2
    · exact get_array_vals_code libc _ _ _ _ _ _

/-- The code of `cfgcli_get` on a registry without error is 0 or negative. -/
theorem get_code (libc : libc_t) (cfg : cfgcli_t) (par : cfgcli_param_valid_t) (src : Int)
    (hc : CFGCLI_IS_ERROR cfg = false) : (cfgcli_get libc cfg par src).1 ≤ 0 := by
  have h1 := get_array_code libc par
  have h2 : ∀ p : cfgcli_param_valid_t, ∀ v, (cfgcli_get_value libc v p.dtype).2 ≤ 0 :=
    fun p v => get_value_code libc v _
  have key : ∀ r, r = cfgcli_get libc cfg par src → r.1 ≤ 0 := by
    intro r hr
    unfold cfgcli_get at hr
    simp only [hc, Bool.false_eq_true, ↓reduceIte] at hr
    repeat' split at hr
    all_goals
      subst hr
      try dsimp only
      first
        | exact Int.le_refl 0
        | exact h1
        | exact get_value_code libc _ _
  exact key _ rfl

/-! ## A pass whose value fails the coercion -/

/-- Function `cfgcli_get` for a non-empty value text whose coercion gives the code `e`
other than 0: the code is negative, the registry receives one message with the name of the
parameter and `e` as its sticky error, and the entry keeps everything but `narr`, the
value text and what is stored. -/
theorem get_fail (libc : libc_t) (cfg : cfgcli_t) (par : cfgcli_param_valid_t) (v : List Char)
    (src e : Int) (hc : CFGCLI_IS_ERROR cfg = false) (hv : v ≠ []) (hnul : NUL ∉ v)
    (hk : (coerce libc par.dtype v).1 = e) (he : e ≠ 0) :
    e < 0 ∧ ∃ m N V S, m ≠ [] ∧
      cfgcli_get libc cfg { par with value := some v, vlen := v.length + 1 } src =
        (e, { cfgcli_msg cfg m par.name with
              error := { (cfgcli_msg cfg m par.name).error with errno := e } },
          { par with narr := N, value := V, vlen := v.length + 1, slot := S }) := by
  have h0 := head_not_nul v hv hnul
  obtain ⟨g1, ⟨N, V, S, g2⟩, _, g4⟩ := get_any libc cfg
    { par with value := some v, vlen := v.length + 1 } v src hc rfl h0
  have hcode : (cfgcli_get libc cfg { par with value := some v, vlen := v.length + 1 } src).1
      = e := by
    rw [g1, ← hk]
    rfl
  have hneg := get_code libc cfg { par with value := some v, vlen := v.length + 1 } src hc
  rw [hcode] at hneg g4
  obtain ⟨m, hm, g5⟩ := g4 he
  refine ⟨by omega, m, N, V, S, hm, ?_⟩
  apply Prod.ext
  · exact hcode
  · apply Prod.ext
    · exact g5
    · exact g2

/-- The branch `is_param` for a parameter whose stored priority is lower, with an argument
whose coercion fails with the code `e`. -/
theorem opts_param_fail (libc : libc_t) (cfg : cfgcli_t) (j : Nat) (arg v : List Char)
    (prior e : Int) (hc : CFGCLI_IS_ERROR cfg = false) (hv : v ≠ []) (hnul : NUL ∉ v)
    (hk : (coerce libc (cfg.params.getD j param_zero).dtype v).1 = e) (he : e ≠ 0)
    (h : CFGCLI_SRC_VAL (cfg.params.getD j param_zero).src < prior) :
    e < 0 ∧ ∃ m N V S, m ≠ [] ∧ opts_param libc cfg j arg (some v) prior =
      (e, { cfgcli_msg cfg m (cfg.params.getD j param_zero).name with
            error := { (cfgcli_msg cfg m (cfg.params.getD j param_zero).name).error with
                       errno := e },
            params := (cfgcli_msg cfg m (cfg.params.getD j param_zero).name).params.set j
                        { cfg.params.getD j param_zero with
                          narr := N, value := V, vlen := v.length + 1, slot := S } }) := by
  obtain ⟨hneg, m, N, V, S, hm, hg⟩ := get_fail libc cfg (cfg.params.getD j param_zero) v
    (CFGCLI_SRC_OF_OPT prior) e hc hv hnul hk he
  refine ⟨hneg, m, N, V, S, hm, ?_⟩
  have h0 := head_not_nul v hv hnul
  unfold opts_param
  have h1 : ¬ CFGCLI_SRC_VAL (cfg.params.getD j param_zero).src > prior := by omega
  have h2 : ¬ CFGCLI_SRC_VAL (cfg.params.getD j param_zero).src = prior := by omega
  simp only [h1, h2, ↓reduceIte, h0, Bool.false_and, Bool.false_eq_true, Option.getD_some, hg,
    ne_eq, he, not_false_eq_true]

/-- The loop over the lines of the chunk for a file that holds one entry, when the case
`CFGCLI_PARSE_DONE` returns a code other than 0: the loop returns at once. -/
theorem file_lines_entry_fail (libc : libc_t) (cfg : cfgcli_t) (name v Z : List Char)
    (prior : Int) (C nr : Nat) (fuel : Nat) (e : Int) (R : reader_t)
    (hlex : entry_lexed name v = true)
    (hnl : '\n' ∉ entry_line name v) (he : e ≠ 0)
    (hfd : file_done libc prior
      { cfg := cfg, chunk := (name ++ NUL :: '=' :: ' ' :: v) ++ NUL :: '\n' :: Z, clen := C,
        nline := 1, nrest := nr, nproc := 0, key := some 0, value := some (name.length + 3),
        state := START, file := [] } = run_t.ret (e, R)) :
    file_lines libc prior ((entry_line name v).length + 2) (fuel + 1)
      { cfg := cfg, chunk := entry_line name v ++ '\n' :: '\n' :: Z, clen := C, nline := 0,
        nrest := nr, nproc := 0, key := none, value := none, state := START, file := [] } 0 =
    run_t.ret (e, R, 0) := by
  have hlx := entry_lexed_unpack name v hlex
  have hfr := parse_line_frame (entry_line name v) (NUL :: '\n' :: Z) 0
    (entry_line name v).length none none START (by omega) _ _ _ _ hlx
  have f1 := find_newline [] (entry_line name v) ('\n' :: Z) ((entry_line name v).length + 2)
    hnl (by omega)
  simp only [List.nil_append, List.length_nil, List.drop_zero] at f1
  have p1 : poke (entry_line name v ++ '\n' :: '\n' :: Z) (entry_line name v).length NUL =
      entry_line name v ++ NUL :: '\n' :: Z := by
    have := set_append_add (entry_line name v) ('\n' :: '\n' :: Z) 0 NUL
    rw [Nat.add_zero] at this
    rw [poke, this]
    rfl
  rw [file_lines]
  simp only [List.drop_zero, Nat.sub_zero, f1, Nat.zero_add, p1, hfr.1, hfd, ne_eq, he,
    not_false_eq_true, ↓reduceIte]

/-- Function `cfgcli_read_file` on a file that holds one entry `name = v` and is shorter
than the chunk, when the case `CFGCLI_PARSE_DONE` returns a code other than 0: the call
returns that code and the registry as that case leaves it. -/
theorem read_file_entry_fail (libc : libc_t) (cfg : cfgcli_t) (fname name v : List Char)
    (prior e : Int) (R : reader_t) (hc : CFGCLI_IS_ERROR cfg = false) (hnp : cfg.npar ≠ 0)
    (hfn : fname ≠ []) (hfl : fname.length < CFGCLI_MAX_FILENAME_LEN) (hp : 0 < prior)
    (hlex : entry_lexed name v = true) (hnl : '\n' ∉ entry_line name v)
    (hlen : (entry_line name v).length + 2 ≤ CFGCLI_STR_INIT_SIZE) (he : e ≠ 0)
    (hfd : file_done libc prior
      { cfg := cfg,
        chunk := (name ++ NUL :: '=' :: ' ' :: v) ++ NUL :: '\n' ::
          List.replicate (CFGCLI_STR_INIT_SIZE - ((entry_line name v).length + 2)) NUL,
        clen := CFGCLI_STR_INIT_SIZE,
        nline := 1, nrest := 0, nproc := 0, key := some 0, value := some (name.length + 3),
        state := START, file := [] } = run_t.ret (e, R)) :
    cfgcli_read_file libc cfg (some fname) (some (file_text name v)) prior =
      run_t.ret (e, R.cfg) := by
  have hq : ¬ prior ≤ CFGCLI_SRC_NULL := by
    simp only [CFGCLI_SRC_NULL]
    omega
  have hfl2 : ¬ fname.length ≥ CFGCLI_MAX_FILENAME_LEN := by omega
  have hlines := file_lines_entry_fail libc cfg name v
    (List.replicate (CFGCLI_STR_INIT_SIZE - ((entry_line name v).length + 2)) NUL) prior
    CFGCLI_STR_INIT_SIZE 0 ((entry_line name v).length + 2) e R hlex hnl he hfd
  have hft : (entry_line name v ++ ['\n']).length = (entry_line name v).length + 1 := by
    simp
  have htk : (entry_line name v ++ ['\n']).take (CFGCLI_STR_INIT_SIZE - 0) =
      entry_line name v ++ ['\n'] :=
    List.take_of_length_le (by omega)
  have hdr : (entry_line name v ++ ['\n']).drop ((entry_line name v).length + 1) = [] :=
    List.drop_of_length_le (by omega)
  have hsh : (entry_line name v).length + 1 < CFGCLI_STR_INIT_SIZE - 0 := by omega
  have hch := chunk_init (entry_line name v) hlen
  unfold cfgcli_read_file
  cases fname with
  | nil => exact absurd rfl hfn
  | cons f fs =>
    simp only [hc, Bool.false_eq_true, ↓reduceIte, hnp, hfl2, hq, file_text, hft]
    rw [file_chunks]
    simp only [htk, hft, Nat.add_one_ne_zero, ↓reduceIte, hdr, Nat.zero_add, hsh, decide_True,
      hch]
    have e1 : (entry_line name v).length + 1 + 1 - 0 + 1 = (entry_line name v).length + 2 + 1 := by
      omega
    have e2 : (entry_line name v).length + 1 + 1 = (entry_line name v).length + 2 := rfl
    have e3 : ¬ ((START : cfgcli_parse_state_t) = ARRAY_START) := by decide
    simp only [e3, ↓reduceIte, e1, e2, hlines, ne_eq, he, not_false_eq_true]

/-- A pass of either kind that presents, for a parameter whose stored priority is lower, a
value whose coercion fails with the code `e`: what it returns. -/
theorem pass_fail (libc : libc_t) (cfg : cfgcli_t) (k : source_t) (j : Nat)
    (name lopt v : List Char) (prior e : Int) (hd : designates cfg j name lopt = true)
    (hpr : CFGCLI_SRC_VAL (cfg.params.getD j param_zero).src < prior)
    (hv : v ≠ []) (hnul : NUL ∉ v)
    (hfile : k = source_t.file → entry_lexed name v = true ∧ '\n' ∉ v ∧
      (entry_line name v).length + 2 ≤ CFGCLI_STR_INIT_SIZE)
    (hk : (coerce libc (cfg.params.getD j param_zero).dtype v).1 = e) (he : e ≠ 0) :
    e < 0 ∧ ∃ m N V S, m ≠ [] ∧ run_pass libc cfg k name lopt v prior =
      run_t.ret (e,
        { cfg with
          error := { errno := e, msg := cfg.error.msg ++ [m ++ [':', ' '] ++ name] },
          params := cfg.params.set j
                      { cfg.params.getD j param_zero with
                        narr := N, value := V, vlen := v.length + 1, slot := S } }) := by
  obtain ⟨h1, h2, h3, h4, h5, h6, h7, h8, h9, h10⟩ := designates_unpack cfg j name lopt hd
  have hp : 0 < prior := by
    have := src_val_nonneg (cfg.params.getD j param_zero).src
    omega
  have hname : name ≠ [] := by
    intro e0
    rw [e0] at h4
    simp [name_grammar] at h4
  cases k with
  | cli =>
    obtain ⟨hneg, m, N, V, S, hm, ho⟩ := opts_param_fail libc cfg j ('-' :: '-' :: lopt) v
      prior e h1 hv hnul hk he hpr
    refine ⟨hneg, m, N, V, S, hm, ?_⟩
    rw [cli_pass libc cfg j name lopt v prior hd hp, ho, h8, msg_with_key cfg m name hm hname]
  | file =>
    obtain ⟨hlex, hnl, hfit⟩ := hfile rfl
    obtain ⟨hneg, m, N, V, S, hm, hg⟩ := get_fail libc cfg (cfg.params.getD j param_zero) v
      prior e h1 hv hnul hk he
    refine ⟨hneg, m, N, V, S, hm, ?_⟩
    have t1 := chunk_key name v
      ('\n' :: List.replicate (CFGCLI_STR_INIT_SIZE - ((entry_line name v).length + 2)) NUL) h4
    have t2 := chunk_value name v
      ('\n' :: List.replicate (CFGCLI_STR_INIT_SIZE - ((entry_line name v).length + 2)) NUL)
      hnul
    unfold run_pass
    simp only
    have := read_file_entry_fail libc cfg "pass.conf".toList name v prior e _ h1 (by omega)
      (by decide) (by decide) hp hlex (entry_no_newline name v h4 hnl) hfit he
      (by
        unfold file_done
        simp only [t1, t2, h6, hpr, ↓reduceIte, hg, ne_eq, he, not_false_eq_true]
        rfl)
    rw [this, h8, msg_with_key cfg m name hm hname]

/-- A designated parameter is reported as set exactly when its source is not 0, also after
its entry was written with the same variable. -/
theorem is_set_after_write (cfg : cfgcli_t) (j : Nat) (name lopt : List Char)
    (x : cfgcli_param_valid_t) (E : cfgcli_error_t)
    (hd : designates cfg j name lopt = true)
    (hx : x.var = (cfg.params.getD j param_zero).var) :
    cfgcli_is_set { cfg with error := E, params := cfg.params.set j x }
      (cfg.params.getD j param_zero).var = (x.src != CFGCLI_SRC_NULL) := by
  obtain ⟨h1, h2, h3, h4, h5, h6, h7, h8, h9, h10⟩ := designates_unpack cfg j name lopt hd
  have hfi : first_index (fun (p : cfgcli_param_valid_t) =>
      p.var == (cfg.params.getD j param_zero).var) ((cfg.params.set j x).take cfg.npar) =
      some j := by
    rw [first_index_take_set _ cfg.params j cfg.npar x param_zero (by simp only [hx])]
    exact h10
  have hf := find_of_first_index _ _ j param_zero hfi
  rw [getD_take_of_lt _ _ _ _ h2, getD_set_self _ _ _ _ (by omega)] at hf
  have hn : cfg.npar ≠ 0 := by omega
  unfold cfgcli_is_set
  simp only [h9, hn, decide_False, Bool.or_self, Bool.false_eq_true, ↓reduceIte, hf]

theorem getD_set_other {α : Type} (l : List α) (i j : Nat) (x d : α) (h : i ≠ j) :
    (l.set j x).getD i d = l.getD i d := by
  simp [List.getD_eq_getElem?_getD, List.getElem?_set_ne (Ne.symm h)]

/-- C11: let entry `j` of a registry without error be the parameter designated by `name`
and `--lopt`, with a stored priority below `prior`, and let the coercion of the non-empty
value text `v` at its type fail with the code `e`.  A pass at priority `prior` that
presents `v` for it (the command line `prog --lopt=v`, or a file holding the entry
`name = v` that is lexed as done and fits the first chunk) returns `e`, which is negative,
with `e` as the sticky error and exactly one message, ending in the name of the parameter,
appended to the diagnostics.  The source of the parameter is as before, so it is reported
as set exactly if it was; the other entries, the functions and the calls are untouched. -/
theorem malformed_value_fatal (libc : libc_t) (cfg : cfgcli_t) (k : source_t) (j : Nat)
    (name lopt v : List Char) (prior e : Int) (hd : designates cfg j name lopt = true)
    (hpr : CFGCLI_SRC_VAL (cfg.params.getD j param_zero).src < prior)
    (hv : v ≠ []) (hnul : NUL ∉ v)
    (hfile : k = source_t.file → entry_lexed name v = true ∧ '\n' ∉ v ∧
      (entry_line name v).length + 2 ≤ CFGCLI_STR_INIT_SIZE)
    (hk : (coerce libc (cfg.params.getD j param_zero).dtype v).1 = e) (he : e ≠ 0) :
    e < 0 ∧ ∃ c1 m, m ≠ [] ∧
      run_pass libc cfg k name lopt v prior = run_t.ret (e, c1) ∧
      CFGCLI_ERRNO c1 = e ∧
      c1.error.msg = cfg.error.msg ++ [m ++ [':', ' '] ++ name] ∧
      (c1.params.getD j param_zero).src = (cfg.params.getD j param_zero).src ∧
      cfgcli_is_set c1 (cfg.params.getD j param_zero).var =
        cfgcli_is_set cfg (cfg.params.getD j param_zero).var ∧
      c1.npar = cfg.npar ∧ c1.nfunc = cfg.nfunc ∧ c1.funcs = cfg.funcs ∧
      c1.calls = cfg.calls ∧
      (∀ i, i ≠ j → c1.params.getD i param_zero = cfg.params.getD i param_zero) := by
  obtain ⟨hneg, m, N, V, S, hm, hrun⟩ := pass_fail libc cfg k j name lopt v prior e hd hpr hv
    hnul hfile hk he
  obtain ⟨h1, h2, h3, h4, h5, h6, h7, h8, h9, h10⟩ := designates_unpack cfg j name lopt hd
  refine ⟨hneg, _, m, hm, hrun, rfl, rfl, ?_, ?_, rfl, rfl, rfl, rfl, ?_⟩
  · simp only
    rw [getD_set_self _ _ _ _ (by omega)]
  · rw [is_set_after_write cfg j name lopt
      { cfg.params.getD j param_zero with
        narr := N, value := V, vlen := v.length + 1, slot := S }
      { errno := e, msg := cfg.error.msg ++ [m ++ [':', ' '] ++ name] } hd rfl]
    have h0 := is_set_after_write cfg j name lopt (cfg.params.getD j param_zero) cfg.error hd rfl
    have e0 : cfg.params.set j (cfg.params.getD j param_zero) = cfg.params := by
      apply List.ext_getElem?
      intro i
      by_cases hi : i = j
      · subst hi
        rw [List.getElem?_set_self (by omega)]
        simp [List.getD_eq_getElem?_getD, List.getElem?_eq_getElem (show i < cfg.params.length by omega)]
      · rw [List.getElem?_set_ne (Ne.symm hi)]
    rw [e0] at h0
    exact h0.symm
  · intro i hi
    exact getD_set_other _ _ _ _ _ hi

/-- On the registry with the integer parameter `level`: the file entry `level = x` and
the command line `prog --level=x` both return the parse-failure code -6, leave it as the
sticky error, and leave `level` unset. -/
theorem malformed_value_fatal_witness :
    designates ex_cli 1 "level".toList "level".toList = true ∧
    (∃ c1, run_pass ex_libc ex_cli source_t.file "level".toList "level".toList "x".toList 1 =
        run_t.ret (-6, c1) ∧ CFGCLI_ERRNO c1 = -6 ∧ cfgcli_is_set c1 700 = false) ∧
    (∃ c1, run_pass ex_libc ex_cli source_t.cli "level".toList "level".toList "x".toList 1 =
        run_t.ret (-6, c1) ∧ CFGCLI_ERRNO c1 = -6 ∧ cfgcli_is_set c1 700 = false) :=
  ⟨by decide,
    match (malformed_value_fatal ex_libc ex_cli source_t.file 1 "level".toList "level".toList
      "x".toList 1 (-6) (by decide) (by decide) (by decide) (by decide)
      (fun _ => ⟨by decide, by decide, by decide⟩) (by decide) (by decide)).2 with
    | ⟨c1, _, _, hrun, herr, _, _, hset, _⟩ => ⟨c1, hrun, herr, hset.trans (by decide)⟩,
    match (malformed_value_fatal ex_libc ex_cli source_t.cli 1 "level".toList "level".toList
      "x".toList 1 (-6) (by decide) (by decide) (by decide) (by decide)
      (fun h => source_t.noConfusion h) (by decide) (by decide)).2 with
    | ⟨c1, _, _, hrun, herr, _, _, hset, _⟩ => ⟨c1, hrun, herr, hset.trans (by decide)⟩⟩

/-! ## What one pass of the loop of `cfgcli_read_opts` can return -/

theorem assign_scan_ge (l : List Char) (j : Nat) : j ≤ assign_scan l j := by
  induction l generalizing j with
  | nil => exact Nat.le_refl _
  | cons c cs ih =>
    unfold assign_scan
    split
    · exact Nat.le_refl _
    · split
      · exact Nat.le_refl _
      · exact Nat.le_trans (Nat.le_succ j) (ih (j + 1))

/-- The search reads an option as the terminator only if its second character is the flag
character and it has no third character. -/
theorem find_opt_term (cfg : cfgcli_t) (arg : List Char)
    (h : find_opt cfg arg = opt_status_t.is_term) :
    char_at arg 1 = CFGCLI_CMD_FLAG ∧ char_at arg 2 = NUL := by
  unfold find_opt at h
  dsimp only at h
  split at h
  · repeat' split at h
    all_goals exact opt_status_t.noConfusion h
  · rename_i h1
    split at h
    · repeat' split at h
      all_goals exact opt_status_t.noConfusion h
    · rename_i h2
      constructor
      · simpa using h1
      · simpa using h2

/-- The terminator `--` ends the scan at once, whatever follows it. -/
theorem opts_body_dashes (libc : libc_t) (cfg : cfgcli_t) (prior : Int) (i : Nat)
    (nxt : Option (List Char)) :
    opts_body libc cfg prior i ['-', '-'] nxt = opt_step_t.term cfg (i + 1) := by
  have h1 : CFGCLI_IS_OPT ['-', '-'] = true := by decide
  have h2 : assign_scan ['-', '-'] 0 = 2 := by decide
  have h3 : char_at ['-', '-'] 2 = NUL := by decide
  have h4 : find_opt cfg ['-', '-'] = opt_status_t.is_term := by
    unfold find_opt
    have a1 : (char_at ['-', '-'] 1 != CFGCLI_CMD_FLAG) = false := by decide
    have a2 : (char_at ['-', '-'] 2 != NUL) = false := by decide
    simp only [a1, a2, Bool.false_eq_true, ↓reduceIte]
  have h5 : (NUL != NUL) = false := by decide
  have h6 : (NUL == CFGCLI_CMD_ASSIGN) = false := by decide
  unfold opts_body
  simp only [h1, Bool.not_true, Bool.false_eq_true, ↓reduceIte, h2, h3, h5, h6,
    Bool.false_and, h4]

/-- A pass that returns an error returns a code other than 0. -/
theorem opts_body_fail_ne (libc : libc_t) (cfg c : cfgcli_t) (prior : Int) (i : Nat)
    (a : List Char) (nxt : Option (List Char)) (code : Int)
    (h : opts_body libc cfg prior i a nxt = opt_step_t.fail code c) : code ≠ 0 := by
  unfold opts_body at h
  dsimp only at h
  repeat' split at h
  all_goals
    first
      | exact opt_step_t.noConfusion h
      | (obtain ⟨rfl, _⟩ := opt_step_t.fail.inj h
         first
           | assumption
           | decide)

/-- A pass consumes the next argument only if there is one and it is no option. -/
theorem opts_body_ate (libc : libc_t) (cfg c : cfgcli_t) (prior : Int) (i : Nat)
    (a : List Char) (nxt : Option (List Char))
    (h : opts_body libc cfg prior i a nxt = opt_step_t.next c true) :
    ∃ b, nxt = some b ∧ CFGCLI_IS_OPT b = false := by
  cases nxt with
  | none =>
    unfold opts_body at h
    dsimp only at h
    repeat' split at h
    all_goals
      first
        | exact opt_step_t.noConfusion h
        | (obtain ⟨_, hb⟩ := opt_step_t.next.inj h
           simp at hb)
  | some b =>
    refine ⟨b, rfl, ?_⟩
    unfold opts_body at h
    dsimp only at h
    repeat' split at h
    all_goals
      first
        | exact opt_step_t.noConfusion h
        | (obtain ⟨_, hb⟩ := opt_step_t.next.inj h
           simp at hb <;> exact hb.2)

/-- A pass that stops at the terminator: the argument is `--`, the registry is as it was
and the index reported is that of the next argument. -/
theorem opts_body_term_inv (libc : libc_t) (cfg c : cfgcli_t) (prior : Int) (i k : Nat)
    (a : List Char) (nxt : Option (List Char)) (hnul : NUL ∉ a)
    (h : opts_body libc cfg prior i a nxt = opt_step_t.term c k) :
    a = ['-', '-'] ∧ c = cfg ∧ k = i + 1 := by
  by_cases ho : CFGCLI_IS_OPT a = true
  · unfold opts_body at h
    simp only [ho, Bool.not_true, Bool.false_eq_true, ↓reduceIte] at h
    split at h
    · exact opt_step_t.noConfusion h
    · cases hfo : find_opt cfg (if (char_at a (assign_scan a 0) == CFGCLI_CMD_ASSIGN) = true
          then a.take (assign_scan a 0) else a) with
      | not_found =>
        rw [hfo] at h
        exact opt_step_t.noConfusion h
      | is_func j =>
        rw [hfo] at h
        exact opt_step_t.noConfusion h
      | is_param j =>
        rw [hfo] at h
        simp only at h
        repeat' split at h
        all_goals exact opt_step_t.noConfusion h
      | is_term =>
        rw [hfo] at h
        obtain ⟨rfl, rfl⟩ := opt_step_t.term.inj h
        refine ⟨?_, rfl, rfl⟩
        obtain ⟨t1, t2⟩ := find_opt_term cfg _ hfo
        cases a with
        | nil => simp [CFGCLI_IS_OPT, char_at, CFGCLI_CMD_FLAG] at ho
        | cons x r1 =>
          cases r1 with
          | nil => simp [CFGCLI_IS_OPT, char_at] at ho
          | cons y r2 =>
            have hx : x = '-' := by
              simp only [CFGCLI_IS_OPT, char_at, List.getD_cons_zero, CFGCLI_CMD_FLAG,
                Bool.and_eq_true, beq_iff_eq] at ho
              exact ho.1.1
            subst hx
            have hxe : ('-' == CFGCLI_CMD_ASSIGN) = false := by decide
            have hge : ¬ (0 ≥ CFGCLI_MAX_LOPT_LEN + 2) := by decide
            have hs1 : assign_scan ('-' :: y :: r2) 0 = assign_scan (y :: r2) 1 := by
              simp only [assign_scan, hge, ↓reduceIte, hxe, Bool.false_eq_true, Nat.zero_add]
            have hj1 := assign_scan_ge (y :: r2) 1
            rw [← hs1] at hj1
            by_cases hf : (char_at ('-' :: y :: r2) (assign_scan ('-' :: y :: r2) 0) ==
                CFGCLI_CMD_ASSIGN) = true
            · exfalso
              simp only [hf, ↓reduceIte] at t1 t2
              have hy : y = '-' := by
                by_cases h2 : assign_scan ('-' :: y :: r2) 0 = 1
                · rw [h2] at t1
                  simp [char_at, CFGCLI_CMD_FLAG] at t1
                  exact absurd t1 (by decide)
                · have : assign_scan ('-' :: y :: r2) 0 = (assign_scan ('-' :: y :: r2) 0 - 2) + 2 := by
                    omega
                  rw [this] at t1
                  simpa [char_at, CFGCLI_CMD_FLAG] using t1
              subst hy
              have hge1 : ¬ (1 ≥ CFGCLI_MAX_LOPT_LEN + 2) := by decide
              cases r2 with
              | nil =>
                have : assign_scan ['-', '-'] 0 = 2 := by decide
                rw [this] at hf
                revert hf
                decide
              | cons z r3 =>
                have hz : z ≠ NUL := fun e => hnul (by rw [← e]; simp)
                have hz2 : (z == CFGCLI_CMD_ASSIGN) = false := by
                  simp only [CFGCLI_IS_OPT, char_at, List.getD_cons_zero, List.getD_cons_succ,
                    CFGCLI_CMD_FLAG, CFGCLI_CMD_ASSIGN, Bool.and_eq_true, beq_iff_eq,
                    Bool.or_eq_true, bne_iff_ne, ne_eq] at ho
                  rcases ho.2 with e | e
                  · exact absurd e.1 (by decide)
                  · rcases e.2 with e2 | e2
                    · exact absurd e2 hz
                    · simp only [CFGCLI_CMD_ASSIGN, beq_eq_false_iff_ne, ne_eq]
                      exact e2.1
                have hge2 : ¬ (2 ≥ CFGCLI_MAX_LOPT_LEN + 2) := by decide
                have hs3 : assign_scan ('-' :: '-' :: z :: r3) 0 = assign_scan r3 3 := by
                  simp only [assign_scan, hge, hge1, hge2, ↓reduceIte, hxe, hz2,
                    Bool.false_eq_true, Nat.zero_add, Nat.reduceAdd]
                have hj3 := assign_scan_ge r3 3
                rw [← hs3] at hj3
                have : assign_scan ('-' :: '-' :: z :: r3) 0 =
                    (assign_scan ('-' :: '-' :: z :: r3) 0 - 3) + 3 := by omega
                rw [this] at t2
                simp only [char_at, List.take_succ_cons, List.getD_cons_succ,
                  List.getD_cons_zero] at t2
                exact hz t2
            · simp only [hf, Bool.false_eq_true, ↓reduceIte] at t1 t2
              cases r2 with
              | nil =>
                simp only [char_at, List.getD_cons_succ, List.getD_cons_zero,
                  CFGCLI_CMD_FLAG] at t1
                rw [t1]
              | cons z r3 =>
                simp only [char_at, List.getD_cons_succ, List.getD_cons_zero] at t2
                exact absurd t2 (fun e => hnul (by rw [← e]; simp))
  · unfold opts_body at h
    simp only [ho, Bool.not_false, ↓reduceIte] at h
    exact opt_step_t.noConfusion h

/-- The arguments after a `--` play no part in the loop of `cfgcli_read_opts`. -/
theorem loop_after_dashes (libc : libc_t) (prior : Int) (post : List (List Char)) :
    ∀ (n : Nat) (pre : List (List Char)), pre.length ≤ n → ∀ (cfg : cfgcli_t) (i : Nat),
      read_opts_loop libc prior cfg i (pre ++ ['-', '-'] :: post) =
        read_opts_loop libc prior cfg i (pre ++ [['-', '-']]) := by
  intro n
  induction n with
  | zero =>
    intro pre hp cfg i
    have : pre = [] := List.eq_nil_of_length_eq_zero (Nat.le_zero.mp hp)
    subst this
    cases post with
    | nil => rfl
    | cons p ps =>
      simp only [List.nil_append, read_opts_loop, opts_body_dashes]
  | succ n ih =>
    intro pre hp cfg i
    cases pre with
    | nil => exact ih [] (Nat.zero_le _) cfg i
    | cons a r =>
      cases r with
      | nil =>
        simp only [List.cons_append, List.nil_append, read_opts_loop]
        cases hb : opts_body libc cfg prior i a (some ['-', '-']) with
        | term c k => rfl
        | fail e c => rfl
        | next c ate =>
          cases ate with
          | true =>
            obtain ⟨b, hb1, hb2⟩ := opts_body_ate libc cfg c prior i a _ hb
            obtain rfl := Option.some.inj hb1
            exact absurd hb2 (by decide)
          | false =>
            simp only [Bool.false_eq_true, ↓reduceIte]
            exact ih [] (Nat.zero_le _) c (i + 1)
      | cons b r2 =>
        simp only [List.cons_append, read_opts_loop]
        cases hb : opts_body libc cfg prior i a (some b) with
        | term c k => rfl
        | fail e c => rfl
        | next c ate =>
          simp only [List.length_cons] at hp
          cases ate with
          | true =>
            simp only [↓reduceIte]
            exact ih r2 (by omega) c (i + 2)
          | false =>
            simp only [Bool.false_eq_true, ↓reduceIte]
            exact ih (b :: r2) (by simp only [List.length_cons]; omega) c (i + 1)

/-- A successful loop of `cfgcli_read_opts` over arguments without `--` ends at the index
after the last one. -/
theorem loop_index_end (libc : libc_t) (prior : Int) :
    ∀ (n : Nat) (args : List (List Char)), args.length ≤ n →
      (∀ a ∈ args, NUL ∉ a ∧ a ≠ ['-', '-']) → ∀ (cfg : cfgcli_t) (i : Nat),
      (read_opts_loop libc prior cfg i args).1 = 0 →
      (read_opts_loop libc prior cfg i args).2.2 = i + args.length := by
  intro n
  induction n with
  | zero =>
    intro args hp _ cfg i _
    have : args = [] := List.eq_nil_of_length_eq_zero (Nat.le_zero.mp hp)
    subst this
    rfl
  | succ n ih =>
    intro args hp hall cfg i h0
    cases args with
    | nil => rfl
    | cons a r =>
      have ha := hall a (List.mem_cons_self _ _)
      cases r with
      | nil =>
        simp only [read_opts_loop] at h0 ⊢
        cases hb : opts_body libc cfg prior i a none with
        | term c k => exact absurd (opts_body_term_inv libc cfg c prior i k a _ ha.1 hb).1 ha.2
        | fail e c =>
          rw [hb] at h0
          exact absurd h0 (opts_body_fail_ne libc cfg c prior i a _ e hb)
        | next c ate => rfl
      | cons b r2 =>
        simp only [read_opts_loop] at h0 ⊢
        cases hb : opts_body libc cfg prior i a (some b) with
        | term c k => exact absurd (opts_body_term_inv libc cfg c prior i k a _ ha.1 hb).1 ha.2
        | fail e c =>
          rw [hb] at h0
          exact absurd h0 (opts_body_fail_ne libc cfg c prior i a _ e hb)
        | next c ate =>
          rw [hb] at h0
          simp only [List.length_cons] at hp ⊢
          cases ate with
          | true =>
            simp only [↓reduceIte] at h0 ⊢
            rw [ih r2 (by omega) (fun x hx => hall x (by simp [hx])) c (i + 2) h0]
            omega
          | false =>
            simp only [Bool.false_eq_true, ↓reduceIte] at h0 ⊢
            rw [ih (b :: r2) (by simp only [List.length_cons]; omega)
              (fun x hx => hall x (List.mem_cons_of_mem _ hx)) c (i + 1) h0]
            simp only [List.length_cons]
            omega

/-- A successful loop of `cfgcli_read_opts` whose first `--` comes after the arguments
`pre` ends at the index after that `--`. -/
theorem loop_index_dashes (libc : libc_t) (prior : Int) :
    ∀ (n : Nat) (pre : List (List Char)), pre.length ≤ n →
      (∀ a ∈ pre, NUL ∉ a ∧ a ≠ ['-', '-']) → ∀ (cfg : cfgcli_t) (i : Nat),
      (read_opts_loop libc prior cfg i (pre ++ [['-', '-']])).1 = 0 →
      (read_opts_loop libc prior cfg i (pre ++ [['-', '-']])).2.2 = i + pre.length + 1 := by
  intro n
  induction n with
  | zero =>
    intro pre hp _ cfg i _
    have : pre = [] := List.eq_nil_of_length_eq_zero (Nat.le_zero.mp hp)
    subst this
    simp only [List.nil_append, read_opts_loop, opts_body_dashes, List.length_nil, Nat.add_zero]
  | succ n ih =>
    intro pre hp hall cfg i h0
    cases pre with
    | nil => exact ih [] (Nat.zero_le _) hall cfg i h0
    | cons a r =>
      have ha := hall a (List.mem_cons_self _ _)
      cases r with
      | nil =>
        simp only [List.cons_append, List.nil_append, read_opts_loop] at h0 ⊢
        cases hb : opts_body libc cfg prior i a (some ['-', '-']) with
        | term c k => exact absurd (opts_body_term_inv libc cfg c prior i k a _ ha.1 hb).1 ha.2
        | fail e c =>
          rw [hb] at h0
          exact absurd h0 (opts_body_fail_ne libc cfg c prior i a _ e hb)
        | next c ate =>
          cases ate with
          | true =>
            obtain ⟨b, hb1, hb2⟩ := opts_body_ate libc cfg c prior i a _ hb
            obtain rfl := Option.some.inj hb1
            exact absurd hb2 (by decide)
          | false =>
            simp only [Bool.false_eq_true, ↓reduceIte, opts_body_dashes, List.length_cons,
              List.length_nil]
      | cons b r2 =>
        simp only [List.cons_append, read_opts_loop] at h0 ⊢
        cases hb : opts_body libc cfg prior i a (some b) with
        | term c k => exact absurd (opts_body_term_inv libc cfg c prior i k a _ ha.1 hb).1 ha.2
        | fail e c =>
          rw [hb] at h0
          exact absurd h0 (opts_body_fail_ne libc cfg c prior i a _ e hb)
        | next c ate =>
          rw [hb] at h0
          simp only [List.length_cons] at hp ⊢
          cases ate with
          | true =>
            simp only [↓reduceIte] at h0 ⊢
            have e := ih r2 (by omega) (fun x hx => hall x (by simp [hx])) c (i + 2) h0
            exact e.trans (by omega)
          | false =>
            simp only [Bool.false_eq_true, ↓reduceIte] at h0 ⊢
            have e := ih (b :: r2) (by simp only [List.length_cons]; omega)
              (fun x hx => hall x (List.mem_cons_of_mem _ hx)) c (i + 1) h0
            exact e.trans (by simp only [List.length_cons]; omega)

/-- The guards of `cfgcli_read_opts` return a non-zero code when they fail. -/
theorem read_opts_ok_loop (libc : libc_t) (cfg : cfgcli_t) (a0 : List Char)
    (args : List (List Char)) (prior : Int) (oi : Nat)
    (h : (cfgcli_read_opts libc cfg (a0 :: args) prior oi).1 = 0) :
    cfgcli_read_opts libc cfg (a0 :: args) prior oi = read_opts_loop libc prior cfg 1 args := by
  unfold cfgcli_read_opts at h ⊢
  by_cases h1 : CFGCLI_IS_ERROR cfg = true
  · simp only [h1, ↓reduceIte] at h
    simp only [CFGCLI_IS_ERROR, decide_eq_true_eq] at h1
    rw [h] at h1
    exact absurd h1 (by decide)
  · simp only [h1, Bool.false_eq_true, ↓reduceIte] at h ⊢
    by_cases h2 : cfg.npar = 0 ∧ cfg.nfunc = 0
    · simp only [h2, and_self, ↓reduceIte] at h
      exact absurd h (by decide)
    · simp only [h2, ↓reduceIte] at h ⊢
      by_cases h3 : prior ≤ CFGCLI_SRC_NULL
      · simp only [h3, ↓reduceIte] at h
        exact absurd h (by decide)
      · simp only [h3, ↓reduceIte]

/-- The arguments after a `--` play no part in `cfgcli_read_opts`. -/
theorem read_opts_after_dashes (libc : libc_t) (cfg : cfgcli_t) (a0 : List Char)
    (pre post : List (List Char)) (prior : Int) (oi : Nat) :
    cfgcli_read_opts libc cfg (a0 :: (pre ++ ['-', '-'] :: post)) prior oi =
      cfgcli_read_opts libc cfg (a0 :: (pre ++ [['-', '-']])) prior oi := by
  unfold cfgcli_read_opts
  simp only [loop_after_dashes libc prior post pre.length pre (Nat.le_refl _)]

/-- C15: a successful call of `cfgcli_read_opts` on `argv = a0 :: args` (so `argc` is
`args.length + 1`) reports `argc` when no argument is `--`; when the first `--` is the
argument of index `k = pre.length + 1`, it reports `k + 1`, and the arguments after it
play no part: with any other arguments there the call returns the same code, the same
registry and the same index. -/
theorem first_unconsumed_index (libc : libc_t) (cfg : cfgcli_t) (a0 : List Char)
    (args : List (List Char)) (prior : Int) (oi : Nat)
    (hnul : ∀ a ∈ args, NUL ∉ a)
    (hok : (cfgcli_read_opts libc cfg (a0 :: args) prior oi).1 = 0) :
    (['-', '-'] ∉ args →
      (cfgcli_read_opts libc cfg (a0 :: args) prior oi).2.2 = args.length + 1) ∧
    (∀ pre post : List (List Char), args = pre ++ ['-', '-'] :: post → ['-', '-'] ∉ pre →
      (cfgcli_read_opts libc cfg (a0 :: args) prior oi).2.2 = pre.length + 2 ∧
      ∀ post2 : List (List Char),
        cfgcli_read_opts libc cfg (a0 :: (pre ++ ['-', '-'] :: post2)) prior oi =
          cfgcli_read_opts libc cfg (a0 :: args) prior oi) := by
  have hl := read_opts_ok_loop libc cfg a0 args prior oi hok
  constructor
  · intro hd
    have h0 : (read_opts_loop libc prior cfg 1 args).1 = 0 := by rw [← hl]; exact hok
    rw [hl, loop_index_end libc prior args.length args (Nat.le_refl _)
      (fun a ha => ⟨hnul a ha, fun e => hd (e ▸ ha)⟩) cfg 1 h0]
    omega
  · intro pre post hargs hd
    subst hargs
    constructor
    · have h0 : (read_opts_loop libc prior cfg 1 (pre ++ [['-', '-']])).1 = 0 := by
        rw [← loop_after_dashes libc prior post pre.length pre (Nat.le_refl _), ← hl]
        exact hok
      rw [hl, loop_after_dashes libc prior post pre.length pre (Nat.le_refl _),
        loop_index_dashes libc prior pre.length pre (Nat.le_refl _)
          (fun a ha => ⟨hnul a (List.mem_append_left _ ha), fun e => hd (e ▸ ha)⟩) cfg 1 h0]
      omega
    · intro post2
      rw [read_opts_after_dashes, read_opts_after_dashes libc cfg a0 pre post]

theorem first_unconsumed_index_witness :
    (cfgcli_read_opts ex_libc ex_cli
      ["prog".toList, "zzz".toList, "-q".toList, "--".toList, "-l".toList] 1 0).2.2 = 4 ∧
    cfgcli_read_opts ex_libc ex_cli
      ["prog".toList, "zzz".toList, "-q".toList, "--".toList, "--level=3".toList, "-h".toList]
      1 0 =
      cfgcli_read_opts ex_libc ex_cli
        ["prog".toList, "zzz".toList, "-q".toList, "--".toList, "-l".toList] 1 0 ∧
    (cfgcli_read_opts ex_libc ex_cli ["prog".toList, "-v".toList, "x".toList] 1 0).2.2 = 3 :=
  have h := (first_unconsumed_index ex_libc ex_cli "prog".toList
    ["zzz".toList, "-q".toList, "--".toList, "-l".toList] 1 0 (by decide) (by decide)).2
    ["zzz".toList, "-q".toList] ["-l".toList] rfl (by decide)
  ⟨h.1, h.2 ["--level=3".toList, "-h".toList],
    (first_unconsumed_index ex_libc ex_cli "prog".toList ["-v".toList, "x".toList] 1 0
      (by decide) (by decide)).1 (by decide)⟩

/-- The scan for `=` over characters that are not `=` goes to their end, while the limit
is not passed. -/
theorem assign_scan_upto (l : List Char) (j : Nat) (h : ∀ c ∈ l, c ≠ '=')
    (hj : j + l.length ≤ CFGCLI_MAX_LOPT_LEN + 2) : assign_scan l j = j + l.length := by
  induction l generalizing j with
  | nil => rfl
  | cons c cs ih =>
    have hc : (c == CFGCLI_CMD_ASSIGN) = false := by
      simp only [CFGCLI_CMD_ASSIGN, beq_eq_false_iff_ne, ne_eq]
      exact h c (List.mem_cons_self _ _)
    simp only [List.length_cons] at hj
    have hge : ¬ j ≥ CFGCLI_MAX_LOPT_LEN + 2 := by omega
    simp only [assign_scan, hge, ↓reduceIte, hc, Bool.false_eq_true]
    rw [ih (j + 1) (fun x hx => h x (List.mem_cons_of_mem _ hx)) (by omega)]
    simp only [List.length_cons]
    omega

/-- The scan for `=` stops at the first `=`, while the limit is not passed. -/
theorem assign_scan_eq_upto (opt v : List Char) (j : Nat) (h : ∀ c ∈ opt, c ≠ '=')
    (hj : j + opt.length ≤ CFGCLI_MAX_LOPT_LEN + 2) :
    assign_scan (opt ++ '=' :: v) j = j + opt.length := by
  induction opt generalizing j with
  | nil =>
    simp only [List.nil_append, assign_scan, CFGCLI_CMD_ASSIGN, beq_self_eq_true, ↓reduceIte,
      ite_self, List.length_nil, Nat.add_zero]
  | cons c cs ih =>
    have hc : (c == CFGCLI_CMD_ASSIGN) = false := by
      simp only [CFGCLI_CMD_ASSIGN, beq_eq_false_iff_ne, ne_eq]
      exact h c (List.mem_cons_self _ _)
    simp only [List.length_cons] at hj
    have hge : ¬ j ≥ CFGCLI_MAX_LOPT_LEN + 2 := by omega
    simp only [List.cons_append, assign_scan, hge, ↓reduceIte, hc, Bool.false_eq_true,
      List.append_eq]
    rw [ih (j + 1) (fun x hx => h x (List.mem_cons_of_mem _ hx)) (by omega)]
    simp only [List.length_cons]
    omega

/-- The search of an option does not read the diagnostics. -/
theorem find_opt_add_msgs (cfg : cfgcli_t) (ms : List (List Char)) (arg : List Char) :
    find_opt (add_msgs cfg ms) arg = find_opt cfg arg := rfl

/-- The warning for an unrecognised option added to the diagnostics. -/
theorem msg_unrecognised (cfg : cfgcli_t) (ms : List (List Char)) (k : List Char) :
    cfgcli_msg (add_msgs cfg ms) "unrecognised command line option".toList (some k) =
      add_msgs cfg (ms ++ [if k = [] then "unrecognised command line option".toList
        else "unrecognised command line option".toList ++ [':', ' '] ++ k]) := by
  have hm : ¬ ("unrecognised command line option".toList = []) := by decide
  cases k with
  | nil =>
    unfold cfgcli_msg add_msgs
    simp only [hm, ↓reduceIte, List.append_assoc]
  | cons c cs =>
    have hk : ¬ (c :: cs = []) := List.cons_ne_nil _ _
    unfold cfgcli_msg add_msgs
    simp only [hm, hk, ↓reduceIte, List.append_assoc]

/-- The text kept of an option without `=`. -/
theorem takeWhile_no_assign (opt : List Char) (h : ∀ c ∈ opt, c ≠ '=') :
    opt.takeWhile (fun c => c != '=') = opt := by
  rw [List.takeWhile_eq_self_iff]
  intro c hc
  simp only [bne_iff_ne, ne_eq]
  exact h c hc

/-- One pass of the loop of `cfgcli_read_opts` on a token that matches nothing: a warning
is added, and the token takes the next one as its argument when it is an option without
`=` and the next one is not an option. -/
theorem opts_body_unmatched (libc : libc_t) (cfg : cfgcli_t) (ms : List (List Char))
    (prior : Int) (i : Nat) (a : List Char) (hnul : NUL ∉ a) (h : unmatched cfg a) :
    opts_body libc (add_msgs cfg ms) prior i a none =
      opt_step_t.next (add_msgs cfg (ms ++ [opt_warning a])) false ∧
    ∀ b, opts_body libc (add_msgs cfg ms) prior i a (some b) =
      opt_step_t.next (add_msgs cfg (ms ++ [opt_warning a])) (takes_next a b) := by
  by_cases ho : CFGCLI_IS_OPT a = true
  · rcases h with h | ⟨opt, hshape, hne, hlen, hf⟩
    · rw [ho] at h
      exact Bool.noConfusion h
    · have h1 : (NUL != NUL) = false := by decide
      have h2 : (NUL == CFGCLI_CMD_ASSIGN) = false := by decide
      rcases hshape with e | ⟨v, e⟩
      · subst e
        have hscan : assign_scan a 0 = a.length := by
          have := assign_scan_upto a 0 hne (by omega)
          rw [Nat.zero_add] at this
          exact this
        have hat := char_at_length a
        have hw : opt_warning a = "unrecognised command line option".toList ++ [':', ' '] ++ a := by
          have hne2 : ¬ (a = []) := by
            intro e
            subst e
            exact absurd ho (by decide)
          unfold opt_warning
          simp only [ho, ↓reduceIte, takeWhile_no_assign a hne, hne2]
        have hk : ¬ (a = []) := by
          intro e
          subst e
          exact absurd ho (by decide)
        have hin : decide ('=' ∈ a) = false := by
          simp only [decide_eq_false_iff_not]
          exact fun hx => hne _ hx rfl
        constructor
        · unfold opts_body
          simp only [ho, Bool.not_true, Bool.false_eq_true, ↓reduceIte, hscan, hat, h1, h2,
            Bool.false_and, Bool.not_false, Bool.true_and, Bool.and_false,
            find_opt_add_msgs, hf, msg_unrecognised, hk, hw]
        · intro b
          unfold opts_body
          simp only [ho, Bool.not_true, Bool.false_eq_true, ↓reduceIte, hscan, hat, h1, h2,
            Bool.false_and, Bool.not_false, Bool.true_and, Bool.and_false,
            find_opt_add_msgs, hf, msg_unrecognised, hk, hw, takes_next, hin]
      · subst e
        have hscan : assign_scan (opt ++ '=' :: v) 0 = opt.length := by
          have := assign_scan_eq_upto opt v 0 hne (by omega)
          rw [Nat.zero_add] at this
          exact this
        have hat : char_at (opt ++ '=' :: v) opt.length = '=' := by
          have := getD_append_right_add opt ('=' :: v) 0
          rw [Nat.add_zero] at this
          simp only [char_at, this, List.getD_cons_zero]
        have htake : (opt ++ '=' :: v).take opt.length = opt := List.take_left _ _
        have hk : ¬ (opt = []) := by
          intro e
          subst e
          exact absurd ho (by simp [CFGCLI_IS_OPT, char_at, CFGCLI_CMD_FLAG])
        have hw : opt_warning (opt ++ '=' :: v) =
            "unrecognised command line option".toList ++ [':', ' '] ++ opt := by
          unfold opt_warning
          simp only [ho, ↓reduceIte,
            takeWhile_until opt v '=' (fun hx => hne _ hx rfl), hk]
        have hin : decide ('=' ∈ opt ++ '=' :: v) = true := by simp
        constructor
        · unfold opts_body
          simp only [ho, Bool.not_true, Bool.false_eq_true, ↓reduceIte, hscan, hat,
            CFGCLI_CMD_ASSIGN, bne_self_eq_false, Bool.and_false, beq_self_eq_true,
            Bool.true_and, Bool.false_and, Bool.not_true, htake, find_opt_add_msgs, hf,
            msg_unrecognised, hk, hw]
        · intro b
          unfold opts_body
          simp only [ho, Bool.not_true, Bool.false_eq_true, ↓reduceIte, hscan, hat,
            CFGCLI_CMD_ASSIGN, bne_self_eq_false, Bool.and_false, beq_self_eq_true,
            Bool.true_and, Bool.false_and, Bool.not_true, htake, find_opt_add_msgs, hf,
            msg_unrecognised, hk, hw, takes_next, hin]
  · have ho2 : CFGCLI_IS_OPT a = false := by simpa using ho
    have hw : opt_warning a = if a = [] then "unrecognised command line option".toList
        else "unrecognised command line option".toList ++ [':', ' '] ++ a := by
      unfold opt_warning
      simp only [ho2, Bool.false_eq_true, ↓reduceIte]
    constructor
    · unfold opts_body
      simp only [ho2, Bool.not_false, ↓reduceIte, msg_unrecognised, hw]
    · intro b
      unfold opts_body
      simp only [ho2, Bool.not_false, ↓reduceIte, msg_unrecognised, hw, takes_next,
        Bool.false_and]

/-- The loop of `cfgcli_read_opts` over tokens that match nothing, up to the end of the
arguments or to a `--`: one warning for each token that is scanned, nothing else. -/
theorem loop_unmatched (libc : libc_t) (prior : Int) (cfg : cfgcli_t)
    (tail : List (List Char)) (ht : tail = [] ∨ tail = [['-', '-']]) :
    ∀ (n : Nat) (pre : List (List Char)), pre.length ≤ n →
      (∀ a ∈ pre, NUL ∉ a ∧ unmatched cfg a) → ∀ (ms : List (List Char)) (i : Nat),
      read_opts_loop libc prior (add_msgs cfg ms) i (pre ++ tail) =
        (0, add_msgs cfg (ms ++ unmatched_warnings pre), i + pre.length + tail.length) := by
  intro n
  induction n with
  | zero =>
    intro pre hp _ ms i
    have : pre = [] := List.eq_nil_of_length_eq_zero (Nat.le_zero.mp hp)
    subst this
    rcases ht with e | e
    · subst e
      simp only [List.append_nil, read_opts_loop, unmatched_warnings, List.length_nil,
        Nat.add_zero]
    · subst e
      simp only [List.nil_append, read_opts_loop, opts_body_dashes, unmatched_warnings,
        List.append_nil, List.length_nil, Nat.add_zero, List.length_cons]
  | succ n ih =>
    intro pre hp hall ms i
    cases pre with
    | nil => exact ih [] (Nat.zero_le _) hall ms i
    | cons a r =>
      have ha := hall a (List.mem_cons_self _ _)
      have hb := opts_body_unmatched libc cfg ms prior i a ha.1 ha.2
      cases r with
      | nil =>
        have e0 := ih [] (Nat.zero_le _) (fun x hx => absurd hx (List.not_mem_nil x))
          (ms ++ [opt_warning a]) (i + 1)
        simp only [List.nil_append, unmatched_warnings, List.append_nil, List.length_nil,
          Nat.add_zero] at e0
        rcases ht with e | e
        · subst e
          rw [List.append_nil, loop_step_next libc prior _ _ i a [] hb.1, e0]
          simp only [unmatched_warnings, List.length_cons, List.length_nil, Nat.add_zero]
        · subst e
          have hd : takes_next a ['-', '-'] = false := by
            unfold takes_next
            simp only [Bool.and_eq_false_imp, Bool.and_eq_true, Bool.not_eq_eq_eq_not,
              Bool.not_true, decide_eq_false_iff_not, and_imp]
            intro _ _
            decide
          have h2 := hb.2 ['-', '-']
          rw [hd] at h2
          have e1 : [a] ++ [['-', '-']] = a :: [['-', '-']] := rfl
          rw [e1, loop_step_next libc prior _ _ i a [['-', '-']] h2, e0]
          simp only [unmatched_warnings, List.length_cons, List.length_nil, Nat.add_zero,
            Nat.zero_add, Nat.add_assoc]
      | cons b r2 =>
        simp only [List.length_cons] at hp
        have h2 := hb.2 b
        have e1 : a :: b :: r2 ++ tail = a :: b :: (r2 ++ tail) := rfl
        rw [e1]
        simp only [read_opts_loop, h2]
        by_cases htk : takes_next a b = true
        · simp only [htk, ↓reduceIte, unmatched_warnings]
          rw [ih r2 (by omega) (fun x hx => hall x (by simp [hx])) (ms ++ [opt_warning a])
            (i + 2)]
          simp only [List.append_assoc, List.singleton_append, List.length_cons,
            Prod.mk.injEq, true_and]
          omega
        · simp only [htk, Bool.false_eq_true, ↓reduceIte, unmatched_warnings]
          have e2 := ih (b :: r2) (by simp only [List.length_cons]; omega)
            (fun x hx => hall x (List.mem_cons_of_mem _ hx)) (ms ++ [opt_warning a]) (i + 1)
          have e3 : b :: r2 ++ tail = b :: (r2 ++ tail) := rfl
          rw [e3] at e2
          rw [e2]
          simp only [List.append_assoc, List.singleton_append, List.length_cons,
            Prod.mk.injEq, true_and]
          omega

/-- A token has its warning among those of `unmatched_warnings` when it is the first one
or the token before it does not take it as its argument. -/
theorem warning_of_scanned (b : List Char) (r : List (List Char)) :
    ∀ (n : Nat) (l : List (List Char)), l.length ≤ n →
      (l = [] ∨ ∃ l2 x, l = l2 ++ [x] ∧ takes_next x b = false) →
      opt_warning b ∈ unmatched_warnings (l ++ b :: r) := by
  have h0 : opt_warning b ∈ unmatched_warnings (b :: r) := by
    cases r with
    | nil => simp only [unmatched_warnings, List.mem_singleton]
    | cons c r2 =>
      simp only [unmatched_warnings]
      split <;> exact List.mem_cons_self _ _
  intro n
  induction n with
  | zero =>
    intro l hp _
    have : l = [] := List.eq_nil_of_length_eq_zero (Nat.le_zero.mp hp)
    subst this
    exact h0
  | succ n ih =>
    intro l hp hl
    cases l with
    | nil => exact h0
    | cons x t =>
      cases t with
      | nil =>
        rcases hl with e | ⟨l2, y, e, hy⟩
        · exact absurd e (List.cons_ne_nil _ _)
        · have : y = x := by
            cases l2 with
            | nil =>
              simp only [List.nil_append, List.cons.injEq, and_true] at e
              exact e.symm
            | cons z l3 =>
              have := congrArg List.length e
              simp at this
          subst this
          have e1 : [y] ++ b :: r = y :: b :: r := rfl
          rw [e1]
          simp only [unmatched_warnings, hy, Bool.false_eq_true, ↓reduceIte]
          exact List.mem_cons_of_mem _ h0
      | cons y t2 =>
        simp only [List.length_cons] at hp
        have hlast : ∃ l2 z, y :: t2 = l2 ++ [z] ∧ takes_next z b = false := by
          rcases hl with e | ⟨l2, z, e, hz⟩
          · exact absurd e (List.cons_ne_nil _ _)
          · cases l2 with
            | nil =>
              have := congrArg List.length e
              simp at this
            | cons w l3 =>
              simp only [List.cons_append, List.cons.injEq] at e
              exact ⟨l3, z, e.2, hz⟩
        have e1 : x :: y :: t2 ++ b :: r = x :: y :: (t2 ++ b :: r) := rfl
        rw [e1]
        simp only [unmatched_warnings]
        split
        · apply List.mem_cons_of_mem
          apply ih t2 (by omega)
          cases t2 with
          | nil => exact Or.inl rfl
          | cons w t3 =>
            right
            obtain ⟨l2, z, e, hz⟩ := hlast
            cases l2 with
            | nil =>
              have := congrArg List.length e
              simp at this
            | cons u l3 =>
              simp only [List.cons_append, List.cons.injEq] at e
              exact ⟨l3, z, e.2, hz⟩
        · apply List.mem_cons_of_mem
          have := ih (y :: t2) (by simp only [List.length_cons]; omega) (Or.inr hlast)
          exact this

/-- The registry with no diagnostics added is the registry. -/
theorem add_msgs_nil (cfg : cfgcli_t) : add_msgs cfg [] = cfg := by
  unfold add_msgs
  simp only [List.append_nil]

/-- C16, against the claim as written: on the registry `ex_cli` the option `--aaa...` of
131 characters matches nothing that is registered, and the call fails with
`CFGCLI_ERR_CMD` and sets the sticky error code; and neither token of `-- -z` matches a
registered option, and the call records no warning for them. -/
theorem unmatched_fatal_or_silent :
    (find_opt ex_cli ('-' :: '-' :: List.replicate 129 'a') = opt_status_t.not_found ∧
     (cfgcli_read_opts ex_libc ex_cli
        ["prog".toList, '-' :: '-' :: List.replicate 129 'a'] 1 0).1 = CFGCLI_ERR_CMD ∧
     CFGCLI_ERRNO (cfgcli_read_opts ex_libc ex_cli
        ["prog".toList, '-' :: '-' :: List.replicate 129 'a'] 1 0).2.1 = CFGCLI_ERR_CMD ∧
     CFGCLI_ERR_CMD ≠ 0) ∧
    (find_opt ex_cli "--".toList = opt_status_t.is_term ∧
     find_opt ex_cli "-z".toList = opt_status_t.not_found ∧
     cfgcli_read_opts ex_libc ex_cli ["prog".toList, "--".toList, "-z".toList] 1 0 =
       (0, ex_cli, 2)) := by
  decide

/-- C16, amended: for a call of `cfgcli_read_opts` on a usable registry with a positive
priority, when every token before the first `--` (every token, when there is none)
matches no registered option, and none of them is an option with more than
`CFGCLI_MAX_LOPT_LEN + 2` characters before its `=`, the call returns 0, leaves the
sticky error code clear, leaves the parameters, the functions and the calls as they
were, and adds one warning for each of these tokens that is not taken as the argument of
the token before it. -/
theorem unmatched_not_fatal (libc : libc_t) (cfg : cfgcli_t) (a0 : List Char)
    (pre tail : List (List Char)) (prior : Int) (oi : Nat)
    (hc : CFGCLI_IS_ERROR cfg = false) (hn : cfg.npar ≠ 0 ∨ cfg.nfunc ≠ 0) (hp : 0 < prior)
    (ht : tail = [] ∨ ∃ post, tail = ['-', '-'] :: post)
    (hall : ∀ a ∈ pre, NUL ∉ a ∧ unmatched cfg a) :
    cfgcli_read_opts libc cfg (a0 :: (pre ++ tail)) prior oi =
      (0, add_msgs cfg (unmatched_warnings pre),
        pre.length + 1 + (if tail = [] then 0 else 1)) ∧
    CFGCLI_ERRNO (cfgcli_read_opts libc cfg (a0 :: (pre ++ tail)) prior oi).2.1 = 0 ∧
    (cfgcli_read_opts libc cfg (a0 :: (pre ++ tail)) prior oi).2.1.params = cfg.params ∧
    (cfgcli_read_opts libc cfg (a0 :: (pre ++ tail)) prior oi).2.1.funcs = cfg.funcs ∧
    (cfgcli_read_opts libc cfg (a0 :: (pre ++ tail)) prior oi).2.1.calls = cfg.calls ∧
    (cfgcli_read_opts libc cfg (a0 :: (pre ++ tail)) prior oi).2.1.error.msg =
      cfg.error.msg ++ unmatched_warnings pre ∧
    ∀ (l : List (List Char)) (b : List Char) (r : List (List Char)), pre = l ++ b :: r →
      (l = [] ∨ ∃ l2 x, l = l2 ++ [x] ∧ takes_next x b = false) →
      opt_warning b ∈
        (cfgcli_read_opts libc cfg (a0 :: (pre ++ tail)) prior oi).2.1.error.msg := by
  have key : cfgcli_read_opts libc cfg (a0 :: (pre ++ tail)) prior oi =
      (0, add_msgs cfg (unmatched_warnings pre),
        pre.length + 1 + (if tail = [] then 0 else 1)) := by
    rw [read_opts_enter libc cfg a0 _ prior oi hc hn hp]
    rcases ht with e | ⟨post, e⟩
    · subst e
      have := loop_unmatched libc prior cfg [] (Or.inl rfl) pre.length pre (Nat.le_refl _)
        hall [] 1
      rw [add_msgs_nil] at this
      rw [this]
      simp only [List.nil_append, List.length_nil, Nat.add_zero, ↓reduceIte,
        Prod.mk.injEq, true_and]
      omega
    · subst e
      have := loop_unmatched libc prior cfg [['-', '-']] (Or.inr rfl) pre.length pre
        (Nat.le_refl _) hall [] 1
      rw [add_msgs_nil] at this
      rw [loop_after_dashes libc prior post pre.length pre (Nat.le_refl _), this]
      simp only [List.nil_append, List.length_cons, List.length_nil, Nat.zero_add,
        List.cons_ne_nil, ↓reduceIte, Prod.mk.injEq, true_and]
      omega
  have he : cfg.error.errno = 0 := by
    simpa [CFGCLI_IS_ERROR, CFGCLI_ERRNO] using hc
  refine ⟨key, ?_, ?_, ?_, ?_, ?_, ?_⟩
  · rw [key]
    exact he
  · rw [key]
    rfl
  · rw [key]
    rfl
  · rw [key]
    rfl
  · rw [key]
    rfl
  · intro l b r hpre hl
    rw [key, hpre]
    exact List.mem_append_right _ (warning_of_scanned b r l.length l (Nat.le_refl _) hl)

theorem unmatched_not_fatal_witness :
    cfgcli_read_opts ex_libc ex_cli
      ["prog".toList, "zzz".toList, "-q".toList, "val".toList, "--nope=3".toList,
        "--".toList, "-l".toList] 1 0 =
      (0, add_msgs ex_cli ["unrecognised command line option: zzz".toList,
        "unrecognised command line option: -q".toList,
        "unrecognised command line option: --nope".toList], 6) :=
  (unmatched_not_fatal ex_libc ex_cli "prog".toList
    ["zzz".toList, "-q".toList, "val".toList, "--nope=3".toList]
    ["--".toList, "-l".toList] 1 0 (by decide) (by decide) (by decide)
    (Or.inr ⟨["-l".toList], rfl⟩)
    (by
      intro a ha
      simp only [List.mem_cons, List.mem_singleton, List.not_mem_nil, or_false] at ha
      rcases ha with rfl | rfl | rfl | rfl
      · exact ⟨by decide, Or.inl (by decide)⟩
      · exact ⟨by decide, Or.inr ⟨"-q".toList, Or.inl rfl, by decide, by decide, by decide⟩⟩
      · exact ⟨by decide, Or.inl (by decide)⟩
      · exact ⟨by decide, Or.inr ⟨"--nope".toList, Or.inr ⟨"3".toList, rfl⟩, by decide,
          by decide, by decide⟩⟩)).1

/-- No call is made from a registry to itself. -/
theorem called_once_refl (cfg : cfgcli_t) : called_once cfg cfg [] := by
  refine ⟨List.nodup_nil, fun k hk => absurd hk (List.not_mem_nil k), ?_, rfl, ?_⟩
  · simp only [List.map_nil, List.append_nil]
  · intro k
    simp only [List.not_mem_nil, decide_False, Bool.or_false]

/-- One more step after calls made once each: calls made once each. -/
theorem called_once_step (cfg c c2 : cfgcli_t) (js : List Nat) (h : called_once cfg c js)
    (hs : one_call c c2) : ∃ js2, called_once cfg c2 js2 := by
  obtain ⟨hnd, hjs, hcalls, hlen, hf⟩ := h
  rcases hs with ⟨e1, e2⟩ | ⟨k, hk, hck, e2, e1⟩
  · refine ⟨js, hnd, hjs, ?_, ?_, ?_⟩
    · rw [e2, hcalls]
    · rw [e1, hlen]
    · rw [e1]
      exact hf
  · have hfk := hf k
    rw [hfk] at hck
    simp only [Bool.or_eq_false_iff, decide_eq_false_iff_not] at hck
    refine ⟨js ++ [k], ?_, ?_, ?_, ?_, ?_⟩
    · rw [List.nodup_append]
      refine ⟨hnd, List.nodup_singleton k, ?_⟩
      intro x hx hx2
      rw [List.mem_singleton] at hx2
      subst hx2
      exact hck.2 hx
    · intro x hx
      rcases List.mem_append.mp hx with h1 | h1
      · exact hjs x h1
      · rw [List.mem_singleton] at h1
        subst h1
        exact ⟨hlen ▸ hk, hck.1⟩
    · rw [e2, hcalls, hfk]
      simp only [List.map_append, List.map_cons, List.map_nil, List.append_assoc]
    · rw [e1, List.length_set, hlen]
    · intro x
      rw [e1]
      by_cases hx : x = k
      · subst hx
        rw [List.getD_eq_getElem?_getD, List.getElem?_set_self hk]
        simp only [Option.getD_some, List.mem_append, List.mem_singleton, or_true,
          decide_True, Bool.or_true]
        rw [hfk]
      · rw [List.getD_eq_getElem?_getD, List.getElem?_set_ne (fun e => hx e.symm),
          ← List.getD_eq_getElem?_getD, hf x]
        have : decide (x ∈ js ++ [k]) = decide (x ∈ js) := by
          simp only [List.mem_append, List.mem_singleton, hx, or_false]
        rw [this]

/-- Function `cfgcli_msg` leaves the functions and the calls as they are. -/
theorem msg_funcs (cfg : cfgcli_t) (m : List Char) (k : Option (List Char)) :
    (cfgcli_msg cfg m k).funcs = cfg.funcs ∧ (cfgcli_msg cfg m k).calls = cfg.calls := by
  unfold cfgcli_msg
  split
  · exact ⟨rfl, rfl⟩
  · split <;> exact ⟨rfl, rfl⟩

/-- Function `cfgcli_get` leaves the functions and the calls as they are. -/
theorem get_funcs (libc : libc_t) (cfg : cfgcli_t) (par : cfgcli_param_valid_t) (src : Int) :
    (cfgcli_get libc cfg par src).2.1.funcs = cfg.funcs ∧
    (cfgcli_get libc cfg par src).2.1.calls = cfg.calls := by
  unfold cfgcli_get
  by_cases hc : CFGCLI_IS_ERROR cfg = true
  · simp only [hc, ↓reduceIte, and_self]
  · simp only [hc, Bool.false_eq_true, ↓reduceIte]
    cases hv : par.value with
    | none => exact ⟨rfl, rfl⟩
    | some v =>
      by_cases h0 : (char_at v 0 == NUL) = true
      · simp only [h0, ↓reduceIte, and_self]
      · simp only [h0, Bool.false_eq_true, ↓reduceIte]
        generalize (if CFGCLI_DTYPE_IS_ARRAY par.dtype = true then cfgcli_get_array libc par
          else _) = R
        by_cases he : R.1 = 0
        · simp only [he, ↓reduceIte, and_self]
        · simp only [he, ↓reduceIte]
          exact msg_funcs _ _ _

/-- The branch `is_param` leaves the functions and the calls as they are. -/
theorem opts_param_funcs (libc : libc_t) (cfg : cfgcli_t) (j : Nat) (arg : List Char)
    (optarg : Option (List Char)) (prior : Int) :
    (opts_param libc cfg j arg optarg prior).2.funcs = cfg.funcs ∧
    (opts_param libc cfg j arg optarg prior).2.calls = cfg.calls := by
  have key : ∀ r, r = opts_param libc cfg j arg optarg prior →
      r.2.funcs = cfg.funcs ∧ r.2.calls = cfg.calls := by
    intro r hr
    unfold opts_param at hr
    dsimp only at hr
    repeat' split at hr
    all_goals subst hr
    all_goals try dsimp only
    all_goals first
      | exact ⟨rfl, rfl⟩
      | exact msg_funcs _ _ _
      | exact get_funcs _ _ _ _
  exact key _ rfl

/-- An option that the search finds as a function: its index is in the table. -/
theorem find_opt_func_lt (cfg : cfgcli_t) (arg : List Char) (k : Nat)
    (h : find_opt cfg arg = opt_status_t.is_func k) : k < cfg.funcs.length := by
  unfold find_opt at h
  dsimp only at h
  repeat' split at h
  all_goals first
    | exact opt_status_t.noConfusion h
    | (obtain rfl := opt_status_t.is_func.inj h
       rename_i hfi
       have := first_index_lt _ _ _ hfi
       rw [List.length_take] at this
       omega)

/-- The branch `is_func` calls one function that was not called, or none. -/
theorem opts_func_one (cfg : cfgcli_t) (k : Nat) (arg : List Char)
    (optarg : Option (List Char)) (hk : k < cfg.funcs.length) :
    one_call cfg (opts_func cfg k arg optarg) := by
  unfold opts_func
  cases optarg with
  | none =>
    dsimp only
    split
    · exact Or.inl (msg_funcs _ _ _)
    · rename_i hc
      exact Or.inr ⟨k, hk, by simpa using hc, rfl, rfl⟩
  | some a =>
    dsimp only
    have m := msg_funcs cfg "omitting command line argument".toList (some a)
    split
    · have m2 := msg_funcs (cfgcli_msg cfg "omitting command line argument".toList (some a))
        "the function has already been called with option".toList (some arg)
      exact Or.inl ⟨m2.1.trans m.1, m2.2.trans m.2⟩
    · rename_i hc
      rw [m.1] at hc
      refine Or.inr ⟨k, hk, by simpa using hc, ?_, ?_⟩
      · simp only [m.1, m.2]
      · simp only [m.1]

/-- One pass of the loop of `cfgcli_read_opts` calls one function that was not called, or
none, whatever way it ends. -/
theorem opts_body_one (libc : libc_t) (c c2 : cfgcli_t) (prior : Int) (i : Nat)
    (a : List Char) (nxt : Option (List Char))
    (h : (∃ ate, opts_body libc c prior i a nxt = opt_step_t.next c2 ate) ∨
      (∃ k, opts_body libc c prior i a nxt = opt_step_t.term c2 k) ∨
      (∃ e, opts_body libc c prior i a nxt = opt_step_t.fail e c2)) : one_call c c2 := by
  rcases h with ⟨ate, h⟩ | ⟨k, h⟩ | ⟨e, h⟩
  · unfold opts_body at h
    dsimp only at h
    repeat' split at h
    all_goals first
      | exact opt_step_t.noConfusion h
      | (obtain ⟨rfl, _⟩ := opt_step_t.next.inj h
         first
           | exact Or.inl (msg_funcs _ _ _)
           | (apply opts_func_one
              apply find_opt_func_lt
              assumption)
           | exact Or.inl (opts_param_funcs _ _ _ _ _ _))
  · unfold opts_body at h
    dsimp only at h
    repeat' split at h
    all_goals first
      | exact opt_step_t.noConfusion h
      | (obtain ⟨rfl, _⟩ := opt_step_t.term.inj h
         exact Or.inl ⟨rfl, rfl⟩)
  · unfold opts_body at h
    dsimp only at h
    repeat' split at h
    all_goals first
      | exact opt_step_t.noConfusion h
      | (obtain ⟨_, rfl⟩ := opt_step_t.fail.inj h
         first
           | exact Or.inl (msg_funcs _ _ _)
           | exact Or.inl (opts_param_funcs _ _ _ _ _ _))

/-- The loop of `cfgcli_read_opts` calls each function at most once. -/
theorem loop_once (libc : libc_t) (prior : Int) (cfg : cfgcli_t) :
    ∀ (n : Nat) (args : List (List Char)), args.length ≤ n →
      ∀ (c : cfgcli_t) (i : Nat) (js : List Nat), called_once cfg c js →
      ∃ js2, called_once cfg (read_opts_loop libc prior c i args).2.1 js2 := by
  intro n
  induction n with
  | zero =>
    intro args hp c i js h
    have : args = [] := List.eq_nil_of_length_eq_zero (Nat.le_zero.mp hp)
    subst this
    exact ⟨js, h⟩
  | succ n ih =>
    intro args hp c i js h
    cases args with
    | nil => exact ⟨js, h⟩
    | cons a r =>
      cases r with
      | nil =>
        simp only [read_opts_loop]
        cases hb : opts_body libc c prior i a none with
        | term c2 k =>
          exact called_once_step cfg c c2 js h
            (opts_body_one libc c c2 prior i a none (Or.inr (Or.inl ⟨k, hb⟩)))
        | fail e c2 =>
          exact called_once_step cfg c c2 js h
            (opts_body_one libc c c2 prior i a none (Or.inr (Or.inr ⟨e, hb⟩)))
        | next c2 ate =>
          exact called_once_step cfg c c2 js h
            (opts_body_one libc c c2 prior i a none (Or.inl ⟨ate, hb⟩))
      | cons b r2 =>
        simp only [read_opts_loop]
        simp only [List.length_cons] at hp
        cases hb : opts_body libc c prior i a (some b) with
        | term c2 k =>
          exact called_once_step cfg c c2 js h
            (opts_body_one libc c c2 prior i a _ (Or.inr (Or.inl ⟨k, hb⟩)))
        | fail e c2 =>
          exact called_once_step cfg c c2 js h
            (opts_body_one libc c c2 prior i a _ (Or.inr (Or.inr ⟨e, hb⟩)))
        | next c2 ate =>
          obtain ⟨js2, h2⟩ := called_once_step cfg c c2 js h
            (opts_body_one libc c c2 prior i a _ (Or.inl ⟨ate, hb⟩))
          cases ate with
          | true =>
            simp only [↓reduceIte]
            exact ih r2 (by omega) c2 (i + 2) js2 h2
          | false =>
            simp only [Bool.false_eq_true, ↓reduceIte]
            exact ih (b :: r2) (by simp only [List.length_cons]; omega) c2 (i + 1) js2 h2

/-- A call of `cfgcli_read_opts` calls each function at most once. -/
theorem read_opts_once (libc : libc_t) (cfg c : cfgcli_t) (argv : List (List Char))
    (prior : Int) (oi : Nat) (js : List Nat) (h : called_once cfg c js) :
    ∃ js2, called_once cfg (cfgcli_read_opts libc c argv prior oi).2.1 js2 := by
  unfold cfgcli_read_opts
  split
  · exact ⟨js, h⟩
  · split
    · exact called_once_step cfg c _ js h (Or.inl (msg_funcs _ _ _))
    · split
      · exact called_once_step cfg c _ js h (Or.inl (msg_funcs _ _ _))
      · cases argv with
        | nil => exact ⟨js, h⟩
        | cons a0 args => exact loop_once libc prior cfg args.length args (Nat.le_refl _) c 1 js h

/-- Successive calls of `cfgcli_read_opts` call each function at most once. -/
theorem seq_once (libc : libc_t) (cfg : cfgcli_t) (passes : List (List (List Char) × Int)) :
    ∀ (c : cfgcli_t) (js : List Nat), called_once cfg c js →
      ∃ js2, called_once cfg (read_opts_seq libc c passes) js2 := by
  induction passes with
  | nil =>
    intro c js h
    exact ⟨js, h⟩
  | cons p rest ih =>
    intro c js h
    obtain ⟨argv, prior⟩ := p
    obtain ⟨js2, h2⟩ := read_opts_once libc cfg c argv prior 0 js h
    exact ih _ js2 h2

/-- One pass of the loop of `cfgcli_read_opts` on an option that the search finds as
function `k`: the branch `is_func` runs and the loop goes on. -/
theorem opts_body_func (libc : libc_t) (c : cfgcli_t) (prior : Int) (i : Nat)
    (a opt : List Char) (nxt : Option (List Char)) (k : Nat)
    (ho : CFGCLI_IS_OPT a = true) (hshape : a = opt ∨ ∃ v, a = opt ++ '=' :: v)
    (hne : ∀ x ∈ opt, x ≠ '=') (hlen : opt.length ≤ CFGCLI_MAX_LOPT_LEN + 2)
    (hf : find_opt c opt = opt_status_t.is_func k) :
    ∃ optarg ate, opts_body libc c prior i a nxt =
      opt_step_t.next (opts_func c k opt optarg) ate := by
  have h1 : (NUL != NUL) = false := by decide
  have h2 : (NUL == CFGCLI_CMD_ASSIGN) = false := by decide
  rcases hshape with e | ⟨v, e⟩
  · subst e
    have hscan : assign_scan a 0 = a.length := by
      have := assign_scan_upto a 0 hne (by omega)
      rw [Nat.zero_add] at this
      exact this
    have hat := char_at_length a
    unfold opts_body
    simp only [ho, Bool.not_true, Bool.false_eq_true, ↓reduceIte, hscan, hat, h1, h2,
      Bool.false_and, Bool.not_false, Bool.true_and, Bool.and_false, hf]
    exact ⟨_, _, rfl⟩
  · subst e
    have hscan : assign_scan (opt ++ '=' :: v) 0 = opt.length := by
      have := assign_scan_eq_upto opt v 0 hne (by omega)
      rw [Nat.zero_add] at this
      exact this
    have hat : char_at (opt ++ '=' :: v) opt.length = '=' := by
      have := getD_append_right_add opt ('=' :: v) 0
      rw [Nat.add_zero] at this
      simp only [char_at, this, List.getD_cons_zero]
    have htake : (opt ++ '=' :: v).take opt.length = opt := List.take_left _ _
    unfold opts_body
    simp only [ho, Bool.not_true, Bool.false_eq_true, ↓reduceIte, hscan, hat,
      CFGCLI_CMD_ASSIGN, bne_self_eq_false, Bool.and_false, beq_self_eq_true,
      Bool.true_and, Bool.false_and, Bool.not_true, htake, hf]
    exact ⟨_, _, rfl⟩

/-- The branch `is_func` for a function that was called: a warning and no call. -/
theorem opts_func_again (c : cfgcli_t) (k : Nat) (opt : List Char)
    (optarg : Option (List Char)) (hopt : opt ≠ [])
    (hc : (c.funcs.getD k func_zero).called = true) :
    (opts_func c k opt optarg).calls = c.calls ∧ (opts_func c k opt optarg).funcs = c.funcs ∧
    (opts_func c k opt optarg).error.msg.getLast? =
      some ("the function has already been called with option".toList ++ [':', ' '] ++ opt) := by
  have hm : "the function has already been called with option".toList ≠ [] := by decide
  unfold opts_func
  cases optarg with
  | none =>
    simp only [hc, ↓reduceIte]
    rw [msg_with_key _ _ _ hm hopt]
    exact ⟨rfl, rfl, List.getLast?_concat _⟩
  | some b =>
    have m := msg_funcs c "omitting command line argument".toList (some b)
    simp only [m.1, hc, ↓reduceIte]
    rw [msg_with_key _ _ _ hm hopt]
    exact ⟨m.2, m.1, List.getLast?_concat _⟩

/-- The branch `is_func` for a function that was not called: one call, and the flag. -/
theorem opts_func_first (c : cfgcli_t) (k : Nat) (opt : List Char)
    (optarg : Option (List Char)) (hk : k < c.funcs.length)
    (hc : (c.funcs.getD k func_zero).called = false) :
    (opts_func c k opt optarg).calls = c.calls ++
      [((c.funcs.getD k func_zero).func, (c.funcs.getD k func_zero).args)] ∧
    ((opts_func c k opt optarg).funcs.getD k func_zero).called = true := by
  unfold opts_func
  cases optarg with
  | none =>
    simp only [hc, Bool.false_eq_true, ↓reduceIte, true_and]
    rw [List.getD_eq_getElem?_getD, List.getElem?_set_self hk]
    rfl
  | some b =>
    have m := msg_funcs c "omitting command line argument".toList (some b)
    simp only [m.1, m.2, hc, Bool.false_eq_true, ↓reduceIte, true_and]
    rw [List.getD_eq_getElem?_getD, List.getElem?_set_self hk]
    rfl

/-- C13: over successive calls of `cfgcli_read_opts` on a registry, the functions that
are called are those of a list `js` of indices without repetition, none of which was
called before: each registered function is called at most once, and its flag records
it.  In a pass of the loop on an option `opt` or `opt=v` that the search finds as
function `k`, whichever spelling `opt` is, the function is called when its flag is not
set, and the flag is set; when its flag is set, the function is not called and the
warning `the function has already been called with option: opt` is recorded. -/
theorem function_called_once (libc : libc_t) (cfg : cfgcli_t) :
    (∀ passes : List (List (List Char) × Int), ∃ js : List Nat,
      js.Nodup ∧
      (∀ k ∈ js, k < cfg.funcs.length ∧ (cfg.funcs.getD k func_zero).called = false) ∧
      (read_opts_seq libc cfg passes).calls = cfg.calls ++
        js.map (fun k =>
          ((cfg.funcs.getD k func_zero).func, (cfg.funcs.getD k func_zero).args)) ∧
      (read_opts_seq libc cfg passes).funcs.length = cfg.funcs.length ∧
      ∀ k, (read_opts_seq libc cfg passes).funcs.getD k func_zero =
        { cfg.funcs.getD k func_zero with
          called := (cfg.funcs.getD k func_zero).called || decide (k ∈ js) }) ∧
    (∀ (prior : Int) (i : Nat) (a opt : List Char) (nxt : Option (List Char)) (k : Nat),
      CFGCLI_IS_OPT a = true → (a = opt ∨ ∃ v, a = opt ++ '=' :: v) →
      (∀ x ∈ opt, x ≠ '=') → opt.length ≤ CFGCLI_MAX_LOPT_LEN + 2 →
      find_opt cfg opt = opt_status_t.is_func k →
      ∃ c1 ate, opts_body libc cfg prior i a nxt = opt_step_t.next c1 ate ∧
        ((cfg.funcs.getD k func_zero).called = false →
          c1.calls = cfg.calls ++
            [((cfg.funcs.getD k func_zero).func, (cfg.funcs.getD k func_zero).args)] ∧
          (c1.funcs.getD k func_zero).called = true) ∧
        ((cfg.funcs.getD k func_zero).called = true →
          c1.calls = cfg.calls ∧ c1.funcs = cfg.funcs ∧
          c1.error.msg.getLast? = some
            ("the function has already been called with option".toList ++ [':', ' '] ++
              opt))) := by
  constructor
  · intro passes
    obtain ⟨js, h⟩ := seq_once libc cfg passes cfg [] (called_once_refl cfg)
    exact ⟨js, h⟩
  · intro prior i a opt nxt k ho hshape hne hlen hf
    obtain ⟨optarg, ate, hb⟩ := opts_body_func libc cfg prior i a opt nxt k ho hshape hne hlen hf
    have hopt : opt ≠ [] := by
      intro e
      subst e
      rcases hshape with e | ⟨v, e⟩
      · subst e
        exact absurd ho (by decide)
      · subst e
        exact absurd ho (by simp [CFGCLI_IS_OPT, char_at, CFGCLI_CMD_FLAG])
    exact ⟨_, ate, hb,
      fun hc => opts_func_first cfg k opt optarg (find_opt_func_lt cfg opt k hf) hc,
      fun hc => opts_func_again cfg k opt optarg hopt hc⟩

theorem function_called_once_witness :
    (CFGCLI_IS_OPT "--help".toList = true ∧
     find_opt ex_cli "--help".toList = opt_status_t.is_func 0 ∧
     find_opt (cfgcli_read_opts ex_libc ex_cli ["prog".toList, "-h".toList] 1 0).2.1
       "--help".toList = opt_status_t.is_func 0) ∧
    (∃ c1 ate, opts_body ex_libc ex_cli 1 1 "--help".toList none = opt_step_t.next c1 ate ∧
      c1.calls = ex_cli.calls ++ [(500, 600)]) ∧
    (∃ c1 ate,
      opts_body ex_libc (cfgcli_read_opts ex_libc ex_cli ["prog".toList, "-h".toList] 1 0).2.1
        1 1 "--help=x".toList none = opt_step_t.next c1 ate ∧
      c1.calls = [(500, 600)] ∧
      c1.error.msg.getLast? =
        some "the function has already been called with option: --help".toList) ∧
    (read_opts_seq ex_libc ex_cli
      [(["prog".toList, "-h".toList, "--help".toList], 1),
       (["prog".toList, "--help".toList, "-h".toList], 2)]).calls = [(500, 600)] :=
  ⟨by decide,
    ((function_called_once ex_libc ex_cli).2 1 1 "--help".toList "--help".toList none 0
      (by decide) (Or.inl rfl) (by decide) (by decide) (by decide)).elim
      (fun c1 h1 => h1.elim (fun ate h2 => ⟨c1, ate, h2.1, (h2.2.1 (by decide)).1⟩)),
    ((function_called_once ex_libc
      (cfgcli_read_opts ex_libc ex_cli ["prog".toList, "-h".toList] 1 0).2.1).2 1 1
      "--help=x".toList "--help".toList none 0
      (by decide) (Or.inr ⟨"x".toList, rfl⟩) (by decide) (by decide) (by decide)).elim
      (fun c1 h1 => h1.elim (fun ate h2 =>
        ⟨c1, ate, h2.1, (h2.2.2 (by decide)).1, (h2.2.2 (by decide)).2.2⟩)),
    by decide⟩

/-! ## The lexer on lines without an entry -/

/-- A white-space character is no letter and is not graphic. -/
theorem space_classes {c : Char} (h : isspace c = true) :
    isalpha c = false ∧ isgraph c = false ∧ isalnum c = false := by
  simp only [isspace, Bool.or_eq_true, beq_iff_eq, Bool.and_eq_true, decide_eq_true_eq] at h
  simp only [isalpha, isgraph, isalnum, isdigit, Bool.or_eq_false_iff, Bool.and_eq_false_iff,
    decide_eq_false_iff_not]
  omega

/-- A white-space character is none of the characters that the grammar reads. -/
theorem space_not_sym {c : Char} (h : isspace c = true) (d : Char) (hd : isspace d = false) :
    c ≠ d := by
  intro e
  subst e
  rw [h] at hd
  exact Bool.noConfusion hd

/-- The lexer in the state `START` on white space: it goes on. -/
theorem lex_body_start_space (s : lex_t) (a : Nat) (hs : s.state = START)
    (hc : isspace (s.line.getD a NUL) = true) : lex_body s a = lex_step_t.go s false := by
  obtain ⟨h1, _, _⟩ := space_classes hc
  have h2 : (s.line.getD a NUL == '_') = false := by
    simp only [beq_eq_false_iff_ne, ne_eq]
    exact space_not_sym hc '_' (by decide)
  have h3 : (s.line.getD a NUL == '-') = false := by
    simp only [beq_eq_false_iff_ne, ne_eq]
    exact space_not_sym hc '-' (by decide)
  have h4 : (s.line.getD a NUL == CFGCLI_SYM_COMMENT) = false := by
    simp only [CFGCLI_SYM_COMMENT, beq_eq_false_iff_ne, ne_eq]
    exact space_not_sym hc '#' (by decide)
  unfold lex_body
  simp only [hs, h1, h2, h3, h4, hc, Bool.or_self, Bool.false_eq_true, ↓reduceIte,
    Bool.not_true]

/-- A character of the middle part of a buffer. -/
theorem getD_mid (pre line post : List Char) (k : Nat) (hk : k < line.length) :
    (pre ++ (line ++ post)).getD (pre.length + k) NUL = line.getD k NUL := by
  rw [getD_append_right_add, getD_append_left_lt _ _ _ hk]

/-- The scanning loop from the state `START` over white space at the head of a line. -/
theorem lex_start_spaces (pre ws rest post : List Char) (hws : ∀ c ∈ ws, isspace c = true)
    (fuel : Nat) (key value : Option Nat) (q : Char) (nl : Option Nat) :
    parse_line_loop (fuel + ws.length)
      { line := pre ++ ((ws ++ rest) ++ post), key := key, value := value, state := START,
        quote := q, newline := nl } pre.length (ws ++ rest).length 0 =
    parse_line_loop fuel
      { line := pre ++ ((ws ++ rest) ++ post), key := key, value := value, state := START,
        quote := q, newline := nl } pre.length (ws ++ rest).length ws.length := by
  have := loop_stay ws.length fuel
    { line := pre ++ ((ws ++ rest) ++ post), key := key, value := value, state := START,
      quote := q, newline := nl } pre.length (ws ++ rest).length 0
    (by simp only [List.length_append]; omega)
    (by
      intro k hk
      apply lex_body_start_space _ _ rfl
      simp only [Nat.zero_add]
      rw [getD_mid pre (ws ++ rest) post k (by simp only [List.length_append]; omega),
        getD_append_left_lt _ _ _ hk]
      exact hws _ (List.mem_iff_get.mpr ⟨⟨k, hk⟩, by
        simp [List.getD_eq_getElem?_getD, List.getElem?_eq_getElem hk]⟩))
  rw [Nat.zero_add] at this
  exact this

/-- C28: for a line that lies anywhere in the buffer and is empty, or white space only,
or white space followed by `#` and any text, the lexer started in the state `START`
returns `PASS`; the buffer and the pointers `*key` and `*value` are as they were. -/
theorem blank_line_pass (pre post ws text : List Char) (key value : Option Nat)
    (hws : ∀ c ∈ ws, isspace c = true) :
    cfgcli_parse_line (pre ++ (ws ++ post)) pre.length ws.length key value START =
      run_t.ret (PASS, pre ++ (ws ++ post), key, value) ∧
    cfgcli_parse_line (pre ++ ((ws ++ '#' :: text) ++ post)) pre.length
        (ws ++ '#' :: text).length key value START =
      run_t.ret (PASS, pre ++ ((ws ++ '#' :: text) ++ post), key, value) := by
  constructor
  · unfold cfgcli_parse_line
    split
    · rfl
    · have e : 2 * ws.length + 1 = (ws.length + 1) + ws.length := by omega
      have h := lex_start_spaces pre ws [] post hws (ws.length + 1) key value NUL none
      simp only [List.append_nil] at h
      rw [e, h, loop_end _ _ _ _ _ (Nat.le_refl _)]
      rfl
  · unfold cfgcli_parse_line
    split
    · rfl
    · have e : 2 * (ws ++ '#' :: text).length + 1 =
          (ws.length + 2 * text.length + 2 + 1) + ws.length := by
        simp only [List.length_append, List.length_cons]
        omega
      rw [e, lex_start_spaces pre ws ('#' :: text) post hws _ key value NUL none]
      rw [loop_stop _ _
        { line := pre ++ ((ws ++ '#' :: text) ++ post), key := key, value := value,
          state := START, quote := NUL, newline := none } _ _ _ PASS
        (by simp only [List.length_append, List.length_cons]; omega)
        (by
          have hg : (pre ++ ((ws ++ '#' :: text) ++ post)).getD (pre.length + ws.length) NUL =
              '#' := by
            rw [getD_mid pre (ws ++ '#' :: text) post ws.length
              (by simp only [List.length_append, List.length_cons]; omega)]
            have := getD_append_right_add ws ('#' :: text) 0
            rw [Nat.add_zero] at this
            rw [this]
            rfl
          unfold lex_body
          simp only [hg]
          rfl)]

theorem blank_line_pass_witness :
    cfgcli_parse_line "conf = 1\n \t \nx".toList 9 3 (some 0) (some 7) START =
      run_t.ret (PASS, "conf = 1\n \t \nx".toList, some 0, some 7) ∧
    cfgcli_parse_line "  # conf = 1\nx".toList 0 12 none none START =
      run_t.ret (PASS, "  # conf = 1\nx".toList, none, none) :=
  ⟨(blank_line_pass "conf = 1\n".toList "\nx".toList " \t ".toList [] (some 0) (some 7)
      (by decide)).1,
   (blank_line_pass [] "\nx".toList "  ".toList " conf = 1".toList none none
      (by decide)).2⟩

/-! ## The lexer on a keyword and what follows it -/

/-- A stretch of white space on which the loop body leaves the variables as they are. -/
theorem lex_spaces_stay (s : lex_t) (pre ws rest : List Char)
    (hline : s.line = pre ++ (ws ++ rest)) (hws : ∀ c ∈ ws, isspace c = true)
    (hstay : ∀ a, isspace (s.line.getD a NUL) = true → lex_body s a = lex_step_t.go s false)
    (fuel len : Nat) (hlen : pre.length + ws.length ≤ len) :
    parse_line_loop (fuel + ws.length) s 0 len pre.length =
      parse_line_loop fuel s 0 len (pre.length + ws.length) := by
  apply loop_stay0 ws.length fuel s len pre.length hlen
  intro k hk
  apply hstay
  rw [hline, getD_append_right_add, getD_append_left_lt _ _ _ hk]
  exact hws _ (List.mem_iff_get.mpr ⟨⟨k, hk⟩, by
    simp [List.getD_eq_getElem?_getD, List.getElem?_eq_getElem hk]⟩)

/-- The lexer in the state `EQUAL` on white space: it goes on. -/
theorem lex_body_equal_space (s : lex_t) (a : Nat) (hs : s.state = EQUAL)
    (hc : isspace (s.line.getD a NUL) = true) : lex_body s a = lex_step_t.go s false := by
  have h1 : (s.line.getD a NUL == CFGCLI_SYM_EQUAL) = false := by
    simp only [CFGCLI_SYM_EQUAL, beq_eq_false_iff_ne, ne_eq]
    exact space_not_sym hc '=' (by decide)
  unfold lex_body
  simp only [hs, h1, hc, Bool.false_eq_true, ↓reduceIte, Bool.not_true]

/-- The lexer in the state `VALUE_START` on white space: it goes on. -/
theorem lex_body_vstart_space (s : lex_t) (a : Nat) (hs : s.state = VALUE_START)
    (hc : isspace (s.line.getD a NUL) = true) : lex_body s a = lex_step_t.go s false := by
  obtain ⟨_, hg, _⟩ := space_classes hc
  have h1 : (s.line.getD a NUL == '"' || s.line.getD a NUL == '\'') = false := by
    simp only [Bool.or_eq_false_iff, beq_eq_false_iff_ne, ne_eq]
    exact ⟨space_not_sym hc '"' (by decide), space_not_sym hc '\'' (by decide)⟩
  have h2 : (s.line.getD a NUL == CFGCLI_SYM_ARRAY_START) = false := by
    simp only [CFGCLI_SYM_ARRAY_START, beq_eq_false_iff_ne, ne_eq]
    exact space_not_sym hc '[' (by decide)
  have h3 : (s.line.getD a NUL == CFGCLI_SYM_COMMENT) = false := by
    simp only [CFGCLI_SYM_COMMENT, beq_eq_false_iff_ne, ne_eq]
    exact space_not_sym hc '#' (by decide)
  unfold lex_body
  simp only [hs, h1, h2, h3, hg, hc, Bool.false_eq_true, ↓reduceIte, Bool.not_true]

/-- The lexer on a keyword, from the state `START` at its first byte: it records the
keyword and arrives in the state `KEYWORD` behind it. -/
theorem lex_name (name rest : List Char) (hn : name_grammar name = true) (fuel len : Nat)
    (key value : Option Nat) (hlen : name.length ≤ len) :
    parse_line_loop (fuel + name.length)
      { line := name ++ rest, key := key, value := value, state := START, quote := NUL,
        newline := none } 0 len 0 =
    parse_line_loop fuel
      { line := name ++ rest, key := some 0, value := value, state := KEYWORD, quote := NUL,
        newline := none } 0 len name.length := by
  cases name with
  | nil => simp [name_grammar] at hn
  | cons c cs =>
    obtain ⟨hc, hcs, _⟩ := name_grammar_cons c cs hn
    simp only [List.length_cons] at hlen
    have e1 : fuel + (c :: cs).length = (fuel + cs.length) + 1 := by
      simp only [List.length_cons]
      omega
    rw [e1, loop_go0 _ _
      { line := (c :: cs) ++ rest, key := some 0, value := value,
        state := KEYWORD, quote := NUL, newline := none } _ 0 (by omega)
      (by simp only [lex_body, List.cons_append, List.getD_cons_zero, hc, ↓reduceIte])]
    rw [loop_stay0 cs.length fuel _ _ (0 + 1) (by omega)
      (by
        intro k hk
        apply lex_body_keyword_stay _ _ rfl
        have e : 0 + 1 + k = k + 1 := by omega
        simp only [e, List.cons_append, List.getD_cons_succ]
        rw [getD_append_left_lt _ _ _ hk]
        exact hcs _ (getD_of_mem_index cs k hk))]
    have e2 : 0 + 1 + cs.length = (c :: cs).length := by
      simp only [List.length_cons]
      omega
    rw [e2]

/-- The lexer in the state `KEYWORD` on the `=` or the white space that ends a keyword
at index 0: the byte becomes a NUL. -/
theorem lex_body_keyword_end (name rest : List Char) (d : Char)
    (hn : name_grammar name = true) (hd : d = '=' ∨ isspace d = true)
    (value : Option Nat) :
    lex_body { line := name ++ d :: rest, key := some 0, value := value, state := KEYWORD,
               quote := NUL, newline := none } name.length =
      lex_step_t.go { line := name ++ NUL :: rest, key := some 0, value := value,
                      state := if d = '=' then VALUE_START else EQUAL, quote := NUL,
                      newline := none } false := by
  have hlen : name.length ≤ 127 := by
    cases name with
    | nil => simp [name_grammar] at hn
    | cons c cs => exact (name_grammar_cons c cs hn).2.2
  have h0 : (name ++ d :: rest).getD name.length NUL = d := by
    have := getD_append_right_add name (d :: rest) 0
    rw [Nat.add_zero] at this
    rw [this]
    rfl
  have hsp : (d == '=' || isspace d) = true := by
    rcases hd with e | e
    · subst e
      decide
    · simp only [e, Bool.or_true]
  have hlt : ¬ (((name.length : Nat) : Int) - ((0 : Nat) : Int) ≥
      ((CFGCLI_MAX_NAME_LEN : Nat) : Int)) := by
    simp only [CFGCLI_MAX_NAME_LEN]
    omega
  have hp : poke (name ++ d :: rest) name.length NUL = name ++ NUL :: rest := by
    have := set_append_add name (d :: rest) 0 NUL
    simp only [Nat.add_zero] at this
    unfold poke
    rw [this]
    rfl
  unfold lex_body
  simp only [h0, hsp, ↓reduceIte, hlt, hp, CFGCLI_SYM_EQUAL, beq_iff_eq]

/-! ## The lexer on an entry without a value -/

/-- Function `cfgcli_parse_line` on a line that starts with a keyword is its scanning
loop from the state `START`. -/
theorem parse_line_of_loop (name rest : List Char) (hn : name_grammar name = true)
    (key value : Option Nat) (r : cfgcli_parse_return_t) (s : lex_t)
    (h : parse_line_loop (2 * (name ++ rest).length + 1)
      { line := name ++ rest, key := key, value := value, state := START, quote := NUL,
        newline := none } 0 (name ++ rest).length 0 = run_t.ret (r, s)) :
    cfgcli_parse_line (name ++ rest) 0 (name ++ rest).length key value START =
      run_t.ret (r, s.line, s.key, s.value) := by
  cases name with
  | nil => simp [name_grammar] at hn
  | cons c cs =>
    have hc := (name_grammar_cons c cs hn).1
    have hne : ((c :: cs ++ rest).getD 0 NUL == NUL) = false := by
      simp only [List.cons_append, List.getD_cons_zero, beq_eq_false_iff_ne, ne_eq]
      exact name_head_ne_NUL hc
    have hl : ((c :: cs ++ rest).length == 0) = false := by
      simp only [List.cons_append, List.length_cons, beq_eq_false_iff_ne, ne_eq]
      omega
    unfold cfgcli_parse_line
    simp only [hne, hl, Bool.or_self, Bool.false_eq_true, ↓reduceIte, h]

/-- The buffer with a NUL put behind the keyword. -/
theorem poke_name (name : List Char) (d : Char) (rest : List Char) :
    poke (name ++ d :: rest) name.length NUL = name ++ NUL :: rest := by
  have := set_append_add name (d :: rest) 0 NUL
  simp only [Nat.add_zero] at this
  unfold poke
  rw [this]
  rfl

/-- The lexer on a keyword, white space and `=`, from the state `START`: it records the
keyword, terminates it, and arrives in the state `VALUE_START` behind the `=`. -/
theorem lex_key_equal (name ws1 rest : List Char) (hn : name_grammar name = true)
    (hw1 : ∀ c ∈ ws1, isspace c = true) (fuel len : Nat) (key value : Option Nat)
    (hlen : name.length + ws1.length + 1 ≤ len) :
    parse_line_loop (fuel + (name.length + ws1.length + 1))
      { line := name ++ (ws1 ++ '=' :: rest), key := key, value := value, state := START,
        quote := NUL, newline := none } 0 len 0 =
    parse_line_loop fuel
      { line := poke (name ++ (ws1 ++ '=' :: rest)) name.length NUL, key := some 0,
        value := value, state := VALUE_START, quote := NUL, newline := none } 0 len
      (name.length + ws1.length + 1) := by
  cases ws1 with
  | nil =>
    simp only [List.nil_append, List.length_nil, Nat.add_zero] at hlen ⊢
    rw [show fuel + (name.length + 1) = (fuel + 1) + name.length by omega,
      lex_name name _ hn _ len key value (by omega),
      loop_go0 _ _ _ _ _ (by omega) (lex_body_keyword_end name rest '=' hn (Or.inl rfl) value),
      poke_name]
    rfl
  | cons w r =>
    have hw : isspace w = true := hw1 w (List.mem_cons_self _ _)
    have hwe : ¬ (w = '=') := space_not_sym hw '=' (by decide)
    simp only [List.cons_append, List.length_cons] at hlen ⊢
    rw [show fuel + (name.length + (r.length + 1) + 1) = (fuel + 1 + r.length + 1) + name.length
        by omega,
      lex_name name _ hn _ len key value (by omega),
      loop_go0 _ _ _ _ _ (by omega)
        (lex_body_keyword_end name (r ++ '=' :: rest) w hn (Or.inr hw) value),
      poke_name]
    simp only [hwe, ↓reduceIte]
    have hg : ∀ k, (name ++ NUL :: (r ++ '=' :: rest)).getD (name.length + 1 + k) NUL =
        (r ++ '=' :: rest).getD k NUL := by
      intro k
      rw [show name.length + 1 + k = name.length + (k + 1) by omega, getD_append_right_add]
      rfl
    rw [loop_stay0 r.length (fuel + 1) _ _ (name.length + 1) (by omega)
      (by
        intro k hk
        apply lex_body_equal_space _ _ rfl
        simp only [hg, getD_append_left_lt _ _ _ hk]
        exact hw1 _ (List.mem_cons_of_mem _ (List.mem_iff_get.mpr ⟨⟨k, hk⟩, by
          simp [List.getD_eq_getElem?_getD, List.getElem?_eq_getElem hk]⟩)))]
    rw [loop_go0 _ _
      { line := name ++ NUL :: (r ++ '=' :: rest), key := some 0, value := value,
        state := VALUE_START, quote := NUL, newline := none } _ _ (by omega)
      (by
        have h0 : (name ++ NUL :: (r ++ '=' :: rest)).getD (name.length + 1 + r.length) NUL =
            '=' := by
          rw [hg]
          have := getD_append_right_add r ('=' :: rest) 0
          rw [Nat.add_zero] at this
          rw [this]
          rfl
        unfold lex_body
        simp only [h0]
        rfl)]
    congr 1
    omega

/-- A byte behind the `=` of an entry, in the buffer with the keyword terminated. -/
theorem getD_behind_equal (name ws1 rest : List Char) (k : Nat) :
    (poke (name ++ (ws1 ++ '=' :: rest)) name.length NUL).getD
      (name.length + ws1.length + 1 + k) NUL = rest.getD k NUL := by
  unfold poke
  rw [getD_set_ne _ _ _ _ (by omega),
    show name.length + ws1.length + 1 + k = name.length + (ws1.length + (k + 1)) by omega,
    getD_append_right_add, getD_append_right_add]
  rfl

/-- The lexer on a keyword and white space behind it, from the state `START`: it
records the keyword, terminates it, and arrives in the state `EQUAL` behind the white
space. -/
theorem lex_key_spaces (name : List Char) (w : Char) (r rest : List Char)
    (hn : name_grammar name = true) (hw : ∀ c ∈ w :: r, isspace c = true) (fuel len : Nat)
    (key value : Option Nat) (hlen : name.length + r.length + 1 ≤ len) :
    parse_line_loop (fuel + (name.length + r.length + 1))
      { line := name ++ (w :: r ++ rest), key := key, value := value, state := START,
        quote := NUL, newline := none } 0 len 0 =
    parse_line_loop fuel
      { line := name ++ NUL :: (r ++ rest), key := some 0, value := value, state := EQUAL,
        quote := NUL, newline := none } 0 len (name.length + r.length + 1) := by
  have hw0 : isspace w = true := hw w (List.mem_cons_self _ _)
  have hwe : ¬ (w = '=') := space_not_sym hw0 '=' (by decide)
  simp only [List.cons_append]
  rw [show fuel + (name.length + r.length + 1) = (fuel + r.length + 1) + name.length by omega,
    lex_name name _ hn _ len key value (by omega),
    loop_go0 _ _ _ _ _ (by omega)
      (lex_body_keyword_end name (r ++ rest) w hn (Or.inr hw0) value)]
  simp only [hwe, ↓reduceIte]
  have hg : ∀ k, (name ++ NUL :: (r ++ rest)).getD (name.length + 1 + k) NUL =
      (r ++ rest).getD k NUL := by
    intro k
    rw [show name.length + 1 + k = name.length + (k + 1) by omega, getD_append_right_add]
    rfl
  rw [loop_stay0 r.length fuel _ _ (name.length + 1) (by omega)
    (by
      intro k hk
      apply lex_body_equal_space _ _ rfl
      simp only [hg, getD_append_left_lt _ _ _ hk]
      exact hw _ (List.mem_cons_of_mem _ (List.mem_iff_get.mpr ⟨⟨k, hk⟩, by
        simp [List.getD_eq_getElem?_getD, List.getElem?_eq_getElem hk]⟩)))]
  congr 1
  omega

/-- A keyword followed by white space only (or by nothing) is an error. -/
theorem parse_key_only (name ws : List Char) (hn : name_grammar name = true)
    (hw : ∀ c ∈ ws, isspace c = true) (key value : Option Nat) :
    cfgcli_parse_line (name ++ ws) 0 (name ++ ws).length key value START =
      run_t.ret (ERROR, poke (name ++ ws) name.length NUL, some 0, value) := by
  cases ws with
  | nil =>
    have hp : poke (name ++ []) name.length NUL = name ++ [] := by
      unfold poke
      rw [List.append_nil]
      exact List.set_eq_of_length_le (Nat.le_refl _)
    rw [hp]
    apply parse_line_of_loop name [] hn key value ERROR
      { line := name ++ [], key := some 0, value := value, state := KEYWORD, quote := NUL,
        newline := none }
    simp only [List.append_nil]
    rw [show 2 * name.length + 1 = (name.length + 1) + name.length by omega]
    have := lex_name name [] hn (name.length + 1) name.length key value (Nat.le_refl _)
    simp only [List.append_nil] at this
    rw [this, loop_end _ _ _ _ _ (Nat.le_refl _)]
    rfl
  | cons w r =>
    rw [poke_name]
    apply parse_line_of_loop name (w :: r) hn key value ERROR
      { line := name ++ NUL :: r, key := some 0, value := value, state := EQUAL, quote := NUL,
        newline := none }
    have h := lex_key_spaces name w r [] hn hw (name.length + r.length + 1 + 1)
      (name ++ w :: r).length key value
      (by simp only [List.length_append, List.length_cons]; omega)
    simp only [List.append_nil] at h
    rw [show 2 * (name ++ w :: r).length + 1 =
        (name.length + r.length + 1 + 1) + (name.length + r.length + 1) by
      simp only [List.length_append, List.length_cons]
      omega, h,
      loop_end _ _ _ _ _ (by simp only [List.length_append, List.length_cons]; omega)]
    rfl

/-- A keyword and white space followed by a byte that is neither `=` nor white space is
an error. -/
theorem parse_key_space_bad (name : List Char) (w : Char) (r : List Char) (x : Char)
    (rest : List Char) (hn : name_grammar name = true) (hw : ∀ c ∈ w :: r, isspace c = true)
    (hx : x ≠ '=') (hxs : isspace x = false) (key value : Option Nat) :
    cfgcli_parse_line (name ++ (w :: r ++ x :: rest)) 0 (name ++ (w :: r ++ x :: rest)).length
        key value START =
      run_t.ret (ERROR, name ++ NUL :: (r ++ x :: rest), some 0, value) := by
  apply parse_line_of_loop name (w :: r ++ x :: rest) hn key value ERROR
    { line := name ++ NUL :: (r ++ x :: rest), key := some 0, value := value, state := EQUAL,
      quote := NUL, newline := none }
  have hL : (name ++ (w :: r ++ x :: rest)).length =
      name.length + r.length + rest.length + 2 := by
    simp only [List.length_append, List.length_cons]
    omega
  rw [hL, show 2 * (name.length + r.length + rest.length + 2) + 1 =
      (name.length + r.length + 2 * rest.length + 3 + 1) + (name.length + r.length + 1) by omega,
    lex_key_spaces name w r (x :: rest) hn hw _ _ key value (by omega)]
  apply loop_stop0 _ _ _ _ _ _ (by omega)
  have h0 : (name ++ NUL :: (r ++ x :: rest)).getD (name.length + r.length + 1) NUL = x := by
    rw [show name.length + r.length + 1 = name.length + (r.length + 1) by omega,
      getD_append_right_add]
    simp only [List.getD_cons_succ]
    have := getD_append_right_add r (x :: rest) 0
    rw [Nat.add_zero] at this
    rw [this]
    rfl
  have h1 : (x == CFGCLI_SYM_EQUAL) = false := by
    simp only [CFGCLI_SYM_EQUAL, beq_eq_false_iff_ne, ne_eq]
    exact hx
  unfold lex_body
  simp only [h0, h1, hxs, Bool.false_eq_true, ↓reduceIte, Bool.not_false]

/-- A keyword followed at once by `#` is an error. -/
theorem parse_key_comment (name text : List Char) (hn : name_grammar name = true)
    (key value : Option Nat) :
    cfgcli_parse_line (name ++ '#' :: text) 0 (name ++ '#' :: text).length key value START =
      run_t.ret (ERROR, name ++ '#' :: text, some 0, value) := by
  apply parse_line_of_loop name ('#' :: text) hn key value ERROR
    { line := name ++ '#' :: text, key := some 0, value := value, state := KEYWORD,
      quote := NUL, newline := none }
  have hL : (name ++ '#' :: text).length = name.length + text.length + 1 := by
    simp only [List.length_append, List.length_cons]
    omega
  rw [hL, show 2 * (name.length + text.length + 1) + 1 =
      (name.length + 2 * text.length + 2 + 1) + name.length by omega,
    lex_name name _ hn _ _ key value (by omega)]
  apply loop_stop0 _ _ _ _ _ _ (by omega)
  have h0 : (name ++ '#' :: text).getD name.length NUL = '#' := by
    have := getD_append_right_add name ('#' :: text) 0
    rw [Nat.add_zero] at this
    rw [this]
    rfl
  unfold lex_body
  simp only [h0]
  rfl

/-- The lexer from the state `VALUE_START` behind the `=` of an entry, over white space
that ends the line or is followed by `#`: it returns `PASS`. -/
theorem lex_no_value (name ws1 ws2 tail : List Char) (hw2 : ∀ c ∈ ws2, isspace c = true)
    (ht : tail = [] ∨ ∃ text, tail = '#' :: text) (fuel : Nat) (value : Option Nat) :
    parse_line_loop (fuel + ws2.length + 1)
      { line := poke (name ++ (ws1 ++ '=' :: (ws2 ++ tail))) name.length NUL, key := some 0,
        value := value, state := VALUE_START, quote := NUL, newline := none } 0
      (name ++ (ws1 ++ '=' :: (ws2 ++ tail))).length (name.length + ws1.length + 1) =
    run_t.ret (PASS,
      { line := poke (name ++ (ws1 ++ '=' :: (ws2 ++ tail))) name.length NUL, key := some 0,
        value := value, state := VALUE_START, quote := NUL, newline := none }) := by
  have hL : (name ++ (ws1 ++ '=' :: (ws2 ++ tail))).length =
      name.length + ws1.length + 1 + ws2.length + tail.length := by
    simp only [List.length_append, List.length_cons]
    omega
  rw [show fuel + ws2.length + 1 = (fuel + 1) + ws2.length by omega,
    loop_stay0 ws2.length (fuel + 1) _ _ _ (by omega)
    (by
      intro k hk
      apply lex_body_vstart_space _ _ rfl
      simp only [getD_behind_equal, getD_append_left_lt _ _ _ hk]
      exact hw2 _ (List.mem_iff_get.mpr ⟨⟨k, hk⟩, by
        simp [List.getD_eq_getElem?_getD, List.getElem?_eq_getElem hk]⟩))]
  rcases ht with e | ⟨text, e⟩
  · subst e
    rw [loop_end _ _ _ _ _ (by rw [hL]; simp only [List.length_nil]; omega)]
    rfl
  · subst e
    apply loop_stop0 _ _ _ _ _ _ (by rw [hL]; simp only [List.length_cons]; omega)
    have h0 : (poke (name ++ (ws1 ++ '=' :: (ws2 ++ '#' :: text))) name.length NUL).getD
        (name.length + ws1.length + 1 + ws2.length) NUL = '#' := by
      rw [getD_behind_equal]
      have := getD_append_right_add ws2 ('#' :: text) 0
      rw [Nat.add_zero] at this
      rw [this]
      rfl
    unfold lex_body
    simp only [h0]
    rfl

/-- A keyword, white space, `=`, white space, and then nothing or a comment: `PASS`. -/
theorem parse_key_equal (name ws1 ws2 tail : List Char) (hn : name_grammar name = true)
    (hw1 : ∀ c ∈ ws1, isspace c = true) (hw2 : ∀ c ∈ ws2, isspace c = true)
    (ht : tail = [] ∨ ∃ text, tail = '#' :: text) (key value : Option Nat) :
    cfgcli_parse_line (name ++ (ws1 ++ '=' :: (ws2 ++ tail))) 0
        (name ++ (ws1 ++ '=' :: (ws2 ++ tail))).length key value START =
      run_t.ret (PASS, poke (name ++ (ws1 ++ '=' :: (ws2 ++ tail))) name.length NUL, some 0,
        value) := by
  apply parse_line_of_loop name (ws1 ++ '=' :: (ws2 ++ tail)) hn key value PASS
    { line := poke (name ++ (ws1 ++ '=' :: (ws2 ++ tail))) name.length NUL, key := some 0,
      value := value, state := VALUE_START, quote := NUL, newline := none }
  have hL : (name ++ (ws1 ++ '=' :: (ws2 ++ tail))).length =
      name.length + ws1.length + 1 + ws2.length + tail.length := by
    simp only [List.length_append, List.length_cons]
    omega
  rw [show 2 * (name ++ (ws1 ++ '=' :: (ws2 ++ tail))).length + 1 =
      ((name.length + ws1.length + 1 + ws2.length + 2 * tail.length) + ws2.length + 1) +
        (name.length + ws1.length + 1) by
    rw [hL]
    omega,
    lex_key_equal name ws1 (ws2 ++ tail) hn hw1 _ _ key value (by rw [hL]; omega)]
  exact lex_no_value name ws1 ws2 tail hw2 ht _ value

/-- C27, counterexample: the keyword alone, the keyword followed by white space, and
either of them followed by a comment are lexed as `ERROR`, not as `PASS`. -/
theorem keyword_alone_error :
    cfgcli_parse_line "conf".toList 0 4 none none START =
      run_t.ret (ERROR, "conf".toList, some 0, none) ∧
    cfgcli_parse_line "conf ".toList 0 5 none none START =
      run_t.ret (ERROR, "conf".toList ++ [NUL], some 0, none) ∧
    cfgcli_parse_line "conf# c".toList 0 7 none none START =
      run_t.ret (ERROR, "conf# c".toList, some 0, none) ∧
    cfgcli_parse_line "conf # c".toList 0 8 none none START =
      run_t.ret (ERROR, "conf".toList ++ NUL :: "# c".toList, some 0, none) := by
  refine ⟨?_, ?_, ?_, ?_⟩ <;> decide

/-- C27, amended: for a line that is a valid keyword `name`, white space `ws1`, the
sign `=` and white space `ws2`, alone or followed by a comment `# text`, the lexer
started in the state `START` returns `PASS`; it has recorded the keyword and put a NUL
behind it.  Without the `=`, the keyword alone or with white space behind it, and either
of them followed by a comment, is lexed as `ERROR`. -/
theorem keyword_without_value (name ws1 ws2 text : List Char) (key value : Option Nat)
    (hn : name_grammar name = true) (hw1 : ∀ c ∈ ws1, isspace c = true)
    (hw2 : ∀ c ∈ ws2, isspace c = true) :
    cfgcli_parse_line (name ++ (ws1 ++ '=' :: ws2)) 0 (name ++ (ws1 ++ '=' :: ws2)).length
        key value START =
      run_t.ret (PASS, poke (name ++ (ws1 ++ '=' :: ws2)) name.length NUL, some 0, value) ∧
    cfgcli_parse_line (name ++ (ws1 ++ '=' :: (ws2 ++ '#' :: text))) 0
        (name ++ (ws1 ++ '=' :: (ws2 ++ '#' :: text))).length key value START =
      run_t.ret (PASS, poke (name ++ (ws1 ++ '=' :: (ws2 ++ '#' :: text))) name.length NUL,
        some 0, value) ∧
    cfgcli_parse_line (name ++ ws1) 0 (name ++ ws1).length key value START =
      run_t.ret (ERROR, poke (name ++ ws1) name.length NUL, some 0, value) ∧
    ∃ L, cfgcli_parse_line (name ++ (ws1 ++ '#' :: text)) 0
        (name ++ (ws1 ++ '#' :: text)).length key value START =
      run_t.ret (ERROR, L, some 0, value) := by
  refine ⟨?_, ?_, parse_key_only name ws1 hn hw1 key value, ?_⟩
  · have := parse_key_equal name ws1 ws2 [] hn hw1 hw2 (Or.inl rfl) key value
    simp only [List.append_nil] at this
    exact this
  · exact parse_key_equal name ws1 ws2 ('#' :: text) hn hw1 hw2 (Or.inr ⟨text, rfl⟩) key value
  · cases ws1 with
    | nil => exact ⟨_, parse_key_comment name text hn key value⟩
    | cons w r =>
      exact ⟨_, parse_key_space_bad name w r '#' text hn hw1 (by decide) (by decide) key value⟩

theorem keyword_without_value_witness :
    cfgcli_parse_line ("conf".toList ++ (" \t".toList ++ '=' :: " ".toList)) 0
        ("conf".toList ++ (" \t".toList ++ '=' :: " ".toList)).length none none START =
      run_t.ret (PASS,
        poke ("conf".toList ++ (" \t".toList ++ '=' :: " ".toList)) "conf".toList.length NUL,
        some 0, none) ∧
    cfgcli_parse_line ("conf".toList ++ ([] ++ '=' :: ([] ++ '#' :: "x".toList))) 0
        ("conf".toList ++ ([] ++ '=' :: ([] ++ '#' :: "x".toList))).length none none START =
      run_t.ret (PASS,
        poke ("conf".toList ++ ([] ++ '=' :: ([] ++ '#' :: "x".toList))) "conf".toList.length
          NUL,
        some 0, none) :=
  ⟨(keyword_without_value "conf".toList " \t".toList " ".toList [] none none
      (by decide) (by decide) (by decide)).1,
   (keyword_without_value "conf".toList [] [] "x".toList none none
      (by decide) (by decide) (by decide)).2.1⟩

/-- C26, counterexample: the line `conf 1` (keyword, white space, value, no `=`) is
lexed as `ERROR`, not as `DONE`; the value pointer is not set. -/
theorem entry_without_equal :
    cfgcli_parse_line "conf 1".toList 0 6 none none START =
      run_t.ret (ERROR, "conf".toList ++ NUL :: "1".toList, some 0, none) := by
  decide

/-- C26, amended: for a valid keyword `name` and a bare value token `c :: cs` (a graphic
first byte that opens neither a quote nor an array nor a comment, then printable bytes
other than `#`), the lexer started in the state `START` returns `DONE` on the line
`name = c...`, with the key pointer on the keyword `name` and the value pointer on the
value `c...`; on the line `name c...` without `=` it returns `ERROR`. -/
theorem entry_forms (name : List Char) (c : Char) (cs : List Char)
    (hn : name_grammar name = true) (hg : isgraph c = true)
    (hq : c ≠ '"' ∧ c ≠ '\'' ∧ c ≠ '[' ∧ c ≠ '#') (he : c ≠ '=')
    (hcs : ∀ x ∈ cs, isprint x = true ∧ x ≠ '#') :
    cfgcli_parse_line (entry_line name (c :: cs)) 0 (entry_line name (c :: cs)).length
        none none START =
      run_t.ret (DONE, name ++ NUL :: '=' :: ' ' :: c :: cs, some 0, some (name.length + 3)) ∧
    cstr_at (name ++ NUL :: '=' :: ' ' :: c :: cs) 0 = name ∧
    cstr_at (name ++ NUL :: '=' :: ' ' :: c :: cs) (name.length + 3) = c :: cs ∧
    cfgcli_parse_line (name ++ ' ' :: c :: cs) 0 (name ++ ' ' :: c :: cs).length
        none none START =
      run_t.ret (ERROR, name ++ NUL :: c :: cs, some 0, none) := by
  have hl := entry_lexed_plain name c cs hn hg hq hcs
  simp only [entry_lexed, decide_eq_true_eq] at hl
  have hnul : NUL ∉ c :: cs := by
    intro hm
    rcases List.mem_cons.mp hm with e | e
    · rw [← e] at hg
      exact absurd hg (by decide)
    · have := (hcs NUL e).1
      exact absurd this (by decide)
  have hcsp : isspace c = false := by
    cases hs : isspace c with
    | false => rfl
    | true =>
      rw [(space_classes hs).2.1] at hg
      exact Bool.noConfusion hg
  refine ⟨hl, cstr_at_zero name _ (name_grammar_no_NUL name hn), ?_, ?_⟩
  · have e : name ++ NUL :: '=' :: ' ' :: c :: cs = (name ++ [NUL, '=', ' ']) ++ (c :: cs) := by
      simp
    have e2 : name.length + 3 = (name ++ [NUL, '=', ' ']).length := by simp
    rw [e, e2]
    exact cstr_at_end _ _ hnul
  · have := parse_key_space_bad name ' ' [] c cs hn (by decide) he hcsp none none
    simpa using this

theorem entry_forms_witness :
    cfgcli_parse_line (entry_line "level".toList "12".toList) 0 10 none none START =
      run_t.ret (DONE, "level".toList ++ NUL :: "= 12".toList, some 0, some 8) ∧
    cfgcli_parse_line "level 12".toList 0 8 none none START =
      run_t.ret (ERROR, "level".toList ++ NUL :: "12".toList, some 0, none) :=
  have h := entry_forms "level".toList '1' ['2'] (by decide) (by decide) (by decide)
    (by decide) (by decide)
  ⟨h.1, h.2.2.2⟩

/-! ## The array length of a scalar parameter -/

/-- Function `cfgcli_get` does not write the array length of a scalar parameter. -/
theorem get_scalar_narr (libc : libc_t) (cfg : cfgcli_t) (par : cfgcli_param_valid_t)
    (src : Int) (ha : CFGCLI_DTYPE_IS_ARRAY par.dtype = false) :
    (cfgcli_get libc cfg par src).2.2.narr = par.narr := by
  unfold cfgcli_get
  by_cases hc : CFGCLI_IS_ERROR cfg = true
  · simp only [hc, ↓reduceIte]
  · simp only [hc, Bool.false_eq_true, ↓reduceIte]
    cases hv : par.value with
    | none => rfl
    | some v =>
      by_cases h0 : (char_at v 0 == NUL) = true
      · simp only [h0, ↓reduceIte]
      · simp only [h0, Bool.false_eq_true, ↓reduceIte, ha]
        repeat' split
        all_goals rfl

/-- The element count that `cfgcli_get_size` reports for a designated parameter. -/
theorem get_size_of_designates (cfg : cfgcli_t) (j : Nat) (name lopt : List Char)
    (hd : designates cfg j name lopt = true) :
    cfgcli_get_size cfg (cfg.params.getD j param_zero).var =
      if (cfg.params.getD j param_zero).src ≠ 0 then (cfg.params.getD j param_zero).narr
      else 0 := by
  obtain ⟨h1, h2, h3, h4, h5, h6, h7, h8, h9, h10⟩ := designates_unpack cfg j name lopt hd
  have hf := find_of_first_index _ _ j param_zero h10
  rw [getD_take_of_lt _ _ _ _ h2] at hf
  have hn : cfg.npar ≠ 0 := by omega
  unfold cfgcli_get_size
  simp only [h9, hn, decide_False, Bool.or_self, Bool.false_eq_true, ↓reduceIte, hf,
    CFGCLI_SRC_NULL, bne_iff_ne, ne_eq, ite_not]

/-- A pass that sets a scalar parameter leaves its array length as it was. -/
theorem pass_set_scalar (libc : libc_t) (cfg : cfgcli_t) (k : source_t) (j : Nat)
    (name lopt v : List Char) (prior : Int) (hd : designates cfg j name lopt = true)
    (ha : CFGCLI_DTYPE_IS_ARRAY (cfg.params.getD j param_zero).dtype = false)
    (hp : 0 < prior) (hv : value_ok libc name (cfg.params.getD j param_zero).dtype v = true)
    (hfit : (entry_line name v).length + 2 ≤ CFGCLI_STR_INIT_SIZE)
    (h : CFGCLI_SRC_VAL (cfg.params.getD j param_zero).src < prior) :
    ∃ V s, CFGCLI_SRC_VAL s = prior ∧
      run_pass libc cfg k name lopt v prior =
        run_t.ret (0,
          { cfg with
            params := cfg.params.set j
                        { cfg.params.getD j param_zero with
                          value := V, vlen := v.length + 1,
                          slot := (coerce libc (cfg.params.getD j param_zero).dtype v).2,
                          src := s } }) := by
  obtain ⟨h1, h2, h3, h4, h5, h6, h7, h8, h9, h10⟩ := designates_unpack cfg j name lopt hd
  obtain ⟨v1, v2, v3, v4, v5⟩ := value_ok_unpack libc name _ v hv
  obtain ⟨N, V, hg⟩ := get_ok libc cfg (cfg.params.getD j param_zero) v prior h1 v1 v2 v5
  have hN : N = (cfg.params.getD j param_zero).narr := by
    have := get_scalar_narr libc cfg
      { cfg.params.getD j param_zero with value := some v, vlen := v.length + 1 } prior ha
    rw [hg] at this
    exact this
  subst hN
  obtain ⟨N2, V2, s, hs, hr⟩ := pass_set libc cfg k j name lopt v prior hd hp hv hfit h
  refine ⟨V2, s, hs, ?_⟩
  rw [hr]
  have hN2 : N2 = (cfg.params.getD j param_zero).narr := by
    cases k with
    | cli =>
      obtain ⟨N3, V3, hg3⟩ := get_ok libc cfg (cfg.params.getD j param_zero) v
        (CFGCLI_SRC_OF_OPT prior) h1 v1 v2 v5
      have hN3 : N3 = (cfg.params.getD j param_zero).narr := by
        have := get_scalar_narr libc cfg
          { cfg.params.getD j param_zero with value := some v, vlen := v.length + 1 }
          (CFGCLI_SRC_OF_OPT prior) ha
        rw [hg3] at this
        exact this
      subst hN3
      have h0 := head_not_nul v v1 v2
      have g1 : ¬ CFGCLI_SRC_VAL (cfg.params.getD j param_zero).src > prior := by omega
      have g2 : ¬ CFGCLI_SRC_VAL (cfg.params.getD j param_zero).src = prior := by omega
      have hop : opts_param libc cfg j ('-' :: '-' :: lopt) (some v) prior =
          (0, { cfg with
            params := cfg.params.set j
              { cfg.params.getD j param_zero with
                narr := (cfg.params.getD j param_zero).narr, value := V3,
                vlen := v.length + 1,
                slot := (coerce libc (cfg.params.getD j param_zero).dtype v).2,
                src := CFGCLI_SRC_OF_OPT prior } }) := by
        unfold opts_param
        simp only [g1, g2, ↓reduceIte, h0, Bool.false_and, Bool.false_eq_true,
          Option.getD_some, hg3, ne_eq, not_true_eq_false]
      rw [cli_pass libc cfg j name lopt v prior hd hp, hop] at hr
      have e := congrArg (fun r => ((ret_cfg r).params.getD j param_zero).narr) hr
      simp only [ret_cfg, getD_set_self _ _ _ _ (show j < cfg.params.length by omega)] at e
      exact e.symm
    | file =>
      have hr2 := file_pass_get libc cfg j name lopt v prior _ hd hp v4 v2 v3 hfit h hg
      rw [hr2] at hr
      have e := congrArg (fun r => ((ret_cfg r).params.getD j param_zero).narr) hr
      simp only [ret_cfg, getD_set_self _ _ _ _ (show j < cfg.params.length by omega)] at e
      exact e.symm
  subst hN2
  rfl

/-- C25, counterexample: after the integer parameter `level` of the registry `ex_cli`
has been set to 3 from the command line, or from a file, it is reported as set, and its
element count is 0, not 1. -/
theorem scalar_size_not_one :
    (cfgcli_is_set (cfgcli_read_opts ex_libc ex_cli
        ["prog".toList, "--level=3".toList] 1 0).2.1 700 = true ∧
     ((cfgcli_read_opts ex_libc ex_cli ["prog".toList, "--level=3".toList] 1 0).2.1.params.getD
        1 param_zero).slot = slot_t.scalar (scalar_t.int 3) ∧
     cfgcli_get_size (cfgcli_read_opts ex_libc ex_cli
        ["prog".toList, "--level=3".toList] 1 0).2.1 700 = 0) ∧
    (cfgcli_is_set (ret_cfg (cfgcli_read_file ex_libc ex_cli (some "f".toList)
        (some "level = 3\n".toList) 1)) 700 = true ∧
     cfgcli_get_size (ret_cfg (cfgcli_read_file ex_libc ex_cli (some "f".toList)
        (some "level = 3\n".toList) 1)) 700 = 0) := by
  refine ⟨⟨?_, ?_, ?_⟩, ?_, ?_⟩ <;> decide

/-- C25, amended: let entry `j` of a registry without error be a scalar parameter whose
array length is 0, as registration leaves it.  Its element count is reported as 0; and
after a pass of either kind has parsed a value for it with code 0, the parameter is
reported as set, holds the coercion of the value, and its array length and the element
count that `cfgcli_get_size` reports are still 0. -/
theorem scalar_size (libc : libc_t) (cfg : cfgcli_t) (k : source_t) (j : Nat)
    (name lopt v : List Char) (prior : Int) (hd : designates cfg j name lopt = true)
    (ha : CFGCLI_DTYPE_IS_ARRAY (cfg.params.getD j param_zero).dtype = false)
    (hn0 : (cfg.params.getD j param_zero).narr = 0)
    (hp : 0 < prior) (hv : value_ok libc name (cfg.params.getD j param_zero).dtype v = true)
    (hfit : (entry_line name v).length + 2 ≤ CFGCLI_STR_INIT_SIZE)
    (h : CFGCLI_SRC_VAL (cfg.params.getD j param_zero).src < prior) :
    cfgcli_get_size cfg (cfg.params.getD j param_zero).var = 0 ∧
    ∃ c1, run_pass libc cfg k name lopt v prior = run_t.ret (0, c1) ∧
      cfgcli_is_set c1 (cfg.params.getD j param_zero).var = true ∧
      (c1.params.getD j param_zero).slot =
        (coerce libc (cfg.params.getD j param_zero).dtype v).2 ∧
      (c1.params.getD j param_zero).narr = 0 ∧
      cfgcli_get_size c1 (cfg.params.getD j param_zero).var = 0 := by
  constructor
  · rw [get_size_of_designates cfg j name lopt hd, hn0]
    simp only [ite_self]
  · obtain ⟨V, s, hs, hr⟩ := pass_set_scalar libc cfg k j name lopt v prior hd ha hp hv hfit h
    obtain ⟨hd1, hg1⟩ := after_set cfg j name lopt (cfg.params.getD j param_zero).narr
      (v.length + 1) V (coerce libc (cfg.params.getD j param_zero).dtype v).2 s hd
    have hs0 : s ≠ 0 := by
      intro e
      subst e
      simp only [CFGCLI_SRC_VAL] at hs
      omega
    refine ⟨_, hr, ?_, ?_, ?_, ?_⟩
    · have := is_set_of_designates _ j name lopt hd1 (by rw [hg1]; exact hs0)
      rw [hg1] at this
      exact this
    · exact congrArg (fun p => p.slot) hg1
    · exact (congrArg (fun p => p.narr) hg1).trans hn0
    · have g := get_size_of_designates _ j name lopt hd1
      rw [hg1] at g
      refine g.trans ?_
      show (if s ≠ 0 then (cfg.params.getD j param_zero).narr else 0) = 0
      rw [hn0]
      simp only [ite_self]

theorem scalar_size_witness :
    cfgcli_get_size ex_cli 700 = 0 ∧
    ∃ c1, run_pass ex_libc ex_cli source_t.file "level".toList "level".toList "3".toList 1 =
        run_t.ret (0, c1) ∧
      cfgcli_is_set c1 700 = true ∧
      (c1.params.getD 1 param_zero).slot = (coerce ex_libc CFGCLI_DTYPE_INT "3".toList).2 ∧
      (c1.params.getD 1 param_zero).narr = 0 ∧
      cfgcli_get_size c1 700 = 0 :=
  scalar_size ex_libc ex_cli source_t.file 1 "level".toList "level".toList "3".toList 1
    (by decide) (by decide) (by decide) (by decide) (by decide) (by decide) (by decide)

/-- A line whose first byte can start neither a keyword nor a comment and is no white
space is lexed as `ERROR`. -/
theorem parse_bad_head (c : Char) (rest : List Char) (key value : Option Nat)
    (hc : (isalpha c || c == '_' || c == '-') = false) (hh : c ≠ '#')
    (hs : isspace c = false) (hn : c ≠ NUL) :
    cfgcli_parse_line (c :: rest) 0 (c :: rest).length key value START =
      run_t.ret (ERROR, c :: rest, key, value) := by
  have h1 : ((c :: rest).getD 0 NUL == NUL) = false := by
    simp only [List.getD_cons_zero, beq_eq_false_iff_ne, ne_eq]
    exact hn
  have h2 : ((c :: rest).length == 0) = false := by
    simp only [List.length_cons, beq_eq_false_iff_ne, ne_eq]
    omega
  have h3 : (c == CFGCLI_SYM_COMMENT) = false := by
    simp only [CFGCLI_SYM_COMMENT, beq_eq_false_iff_ne, ne_eq]
    exact hh
  unfold cfgcli_parse_line
  simp only [h1, h2, Bool.or_self, Bool.false_eq_true, ↓reduceIte]
  rw [loop_stop0 (2 * (c :: rest).length) _
    { line := c :: rest, key := key, value := value, state := START, quote := NUL,
      newline := none } _ 0 ERROR (by simp only [List.length_cons]; omega)
    (by
      unfold lex_body
      simp only [List.getD_cons_zero, hc, h3, hs, Bool.false_eq_true, ↓reduceIte,
        Bool.not_false])]

/-- C29, failing input: a file of exactly `CFGCLI_STR_INIT_SIZE` (1024) bytes that holds
one line, not ended by a line feed, whose first byte is neither a letter, `_`, `-`, `#`
nor white space.  The lexer returns `ERROR` for this line, but `cfgcli_read_file` never
hands the line to the lexer: it returns 0 and leaves the registry as it was, without the
warning that carries the line number 1.  The same malformed line in a short file is
reported: for the file `!` the registry receives the entry
`invalid configuration entry at line: 1`. -/
theorem malformed_line_unreported (libc : libc_t) (cfg : cfgcli_t) (fname : List Char)
    (c : Char) (rest : List Char) (prior : Int) (hce : CFGCLI_IS_ERROR cfg = false)
    (hnp : cfg.npar ≠ 0) (hfn : fname ≠ []) (hfl : fname.length < CFGCLI_MAX_FILENAME_LEN)
    (hp : 0 < prior) (hlen : (c :: rest).length = CFGCLI_STR_INIT_SIZE)
    (hnl : '\n' ∉ c :: rest)
    (hc : (isalpha c || c == '_' || c == '-') = false) (hh : c ≠ '#')
    (hs : isspace c = false) (hn : c ≠ NUL) :
    cfgcli_parse_line (c :: rest) 0 (c :: rest).length none none START =
      run_t.ret (ERROR, c :: rest, none, none) ∧
    cfgcli_read_file libc cfg (some fname) (some (c :: rest)) prior = run_t.ret (0, cfg) ∧
    cfgcli_read_file ex_libc ex_cfg (some "f".toList) (some ['!']) 1 =
      run_t.ret (0, cfgcli_msg ex_cfg "invalid configuration entry at line".toList
        (some "1".toList)) :=
  ⟨parse_bad_head c rest none none hc hh hs hn,
    read_file_full_bare libc cfg fname (c :: rest) prior hce hnp hfn hfl hp hlen hnl,
    by decide⟩

theorem malformed_line_unreported_witness :
    cfgcli_read_file ex_libc ex_cfg (some "f".toList) (some ('!' :: List.replicate 1023 '!')) 1 =
      run_t.ret (0, ex_cfg) :=
  (malformed_line_unreported ex_libc ex_cfg "f".toList '!' (List.replicate 1023 '!') 1
    (by decide) (by decide) (by decide) (by decide) (by decide)
    ((List.length_cons '!' (List.replicate 1023 '!')).trans
      (congrArg (fun n => n + 1) (List.length_replicate 1023 '!')))
    (by simp only [List.mem_cons, List.mem_replicate]; decide)
    (by decide) (by decide) (by decide) (by decide)).2.1

/-- C30, failing input: a file that ends with the line `INT_ARR = [1, \`, with or
without a line feed behind it.  The lexer returns `CONTINUE` for this last line, so the
array is still open when the stream ends; `cfgcli_read_file` returns 0, not
`CFGCLI_ERR_FILE` (-9), and leaves the registry as it was: no diagnostic is recorded and
`INT_ARR` is not set.  The same holds behind an entry that is applied. -/
theorem open_array_at_end :
    cfgcli_parse_line "INT_ARR = [1, \\".toList 0 15 none none START =
      run_t.ret (CONTINUE, "INT_ARR".toList ++ NUL :: "= [1,  ".toList, some 0, some 10) ∧
    cfgcli_read_file ex_libc ex_cfg (some "a.conf".toList)
      (some "INT_ARR = [1, \\".toList) 1 = run_t.ret (0, ex_cfg) ∧
    cfgcli_read_file ex_libc ex_cfg (some "a.conf".toList)
      (some "INT_ARR = [1, \\\n".toList) 1 = run_t.ret (0, ex_cfg) ∧
    cfgcli_read_file ex_libc ex_cfg (some "a.conf".toList)
      (some "conf = x\nINT_ARR = [1, \\".toList) 1 =
      run_t.ret (0, ret_cfg (cfgcli_read_file ex_libc ex_cfg (some "a.conf".toList)
        (some "conf = x\n".toList) 1)) ∧
    cfgcli_is_set (ret_cfg (cfgcli_read_file ex_libc ex_cfg (some "a.conf".toList)
      (some "conf = x\nINT_ARR = [1, \\".toList) 1)) 100 = true ∧
    cfgcli_is_set (ret_cfg (cfgcli_read_file ex_libc ex_cfg (some "a.conf".toList)
      (some "conf = x\nINT_ARR = [1, \\".toList) 1)) 200 = false ∧
    cfgcli_is_set ex_cfg 200 = false ∧ ex_cfg.error.msg = [] ∧ CFGCLI_ERR_FILE = -9 := by
  refine ⟨?_, ?_, ?_, ?_, ?_, ?_, ?_, ?_, ?_⟩ <;> decide

/-! ## The array splitter: one pass of the loop -/

/-- The splitter in the state `ARRAY_START` on white space: it goes on. -/
theorem sb_start_space (V : List Char) (n : Nat) (qq : Char) (st e : Option Nat) (a : Nat)
    (h : isspace (V.getD a NUL) = true) :
    split_body { value := V, n := n, state := ARRAY_START, quote := qq, start := st,
                 endp := e } a =
      split_step_t.go { value := V, n := n, state := ARRAY_START, quote := qq, start := st,
                        endp := e } := by
  obtain ⟨_, hg, _⟩ := space_classes h
  have c1 : (V.getD a NUL == CFGCLI_SYM_ARRAY_SEP || V.getD a NUL == CFGCLI_SYM_ARRAY_END ||
      V.getD a NUL == CFGCLI_SYM_COMMENT) = false := by
    simp only [CFGCLI_SYM_ARRAY_SEP, CFGCLI_SYM_ARRAY_END, CFGCLI_SYM_COMMENT,
      Bool.or_eq_false_iff, beq_eq_false_iff_ne, ne_eq]
    exact ⟨⟨space_not_sym h ',' (by decide), space_not_sym h ']' (by decide)⟩,
      space_not_sym h '#' (by decide)⟩
  have c2 : (V.getD a NUL == '"' || V.getD a NUL == '\'') = false := by
    simp only [Bool.or_eq_false_iff, beq_eq_false_iff_ne, ne_eq]
    exact ⟨space_not_sym h '"' (by decide), space_not_sym h '\'' (by decide)⟩
  unfold split_body
  simp only [c1, c2, hg, h, Bool.false_eq_true, ↓reduceIte, Bool.not_true]

/-- The splitter in the state `ARRAY_START` on the first byte of a bare element. -/
theorem sb_start_plain (V : List Char) (n : Nat) (qq : Char) (st e : Option Nat) (a : Nat)
    (hg : isgraph (V.getD a NUL) = true)
    (hx : V.getD a NUL ≠ ',' ∧ V.getD a NUL ≠ ']' ∧ V.getD a NUL ≠ '#' ∧
      V.getD a NUL ≠ '"' ∧ V.getD a NUL ≠ '\'') :
    split_body { value := V, n := n, state := ARRAY_START, quote := qq, start := st,
                 endp := e } a =
      split_step_t.go { value := V, n := n, state := ARRAY_VALUE, quote := qq, start := st,
                        endp := e } := by
  have c1 : (V.getD a NUL == CFGCLI_SYM_ARRAY_SEP || V.getD a NUL == CFGCLI_SYM_ARRAY_END ||
      V.getD a NUL == CFGCLI_SYM_COMMENT) = false := by
    simp only [CFGCLI_SYM_ARRAY_SEP, CFGCLI_SYM_ARRAY_END, CFGCLI_SYM_COMMENT,
      Bool.or_eq_false_iff, beq_eq_false_iff_ne, ne_eq]
    exact ⟨⟨hx.1, hx.2.1⟩, hx.2.2.1⟩
  have c2 : (V.getD a NUL == '"' || V.getD a NUL == '\'') = false := by
    simp only [Bool.or_eq_false_iff, beq_eq_false_iff_ne, ne_eq]
    exact ⟨hx.2.2.2.1, hx.2.2.2.2⟩
  unfold split_body
  simp only [c1, c2, hg, Bool.false_eq_true, ↓reduceIte]

/-- The splitter in the state `ARRAY_START` on a quote. -/
theorem sb_start_quote (V : List Char) (n : Nat) (qq : Char) (st e : Option Nat) (a : Nat)
    (hq : V.getD a NUL = '"' ∨ V.getD a NUL = '\'') :
    split_body { value := V, n := n, state := ARRAY_START, quote := qq, start := st,
                 endp := e } a =
      split_step_t.go { value := V, n := n, state := ARRAY_QUOTE, quote := V.getD a NUL,
                        start := st, endp := e } := by
  have c1 : (V.getD a NUL == CFGCLI_SYM_ARRAY_SEP || V.getD a NUL == CFGCLI_SYM_ARRAY_END ||
      V.getD a NUL == CFGCLI_SYM_COMMENT) = false := by
    rcases hq with h | h <;> rw [h] <;> decide
  have c2 : (V.getD a NUL == '"' || V.getD a NUL == '\'') = true := by
    rcases hq with h | h <;> rw [h] <;> decide
  unfold split_body
  simp only [c1, c2, Bool.false_eq_true, ↓reduceIte]

/-- The splitter in the state `ARRAY_QUOTE` on a byte that is not the quote. -/
theorem sb_quote_in (V : List Char) (n : Nat) (qq : Char) (st e : Option Nat) (a : Nat)
    (h : V.getD a NUL ≠ qq) :
    split_body { value := V, n := n, state := ARRAY_QUOTE, quote := qq, start := st,
                 endp := e } a =
      split_step_t.go { value := V, n := n, state := ARRAY_QUOTE, quote := qq, start := st,
                        endp := e } := by
  have c1 : (V.getD a NUL == qq) = false := by
    simp only [beq_eq_false_iff_ne, ne_eq]
    exact h
  unfold split_body
  simp only [c1, Bool.false_eq_true, ↓reduceIte]

/-- The splitter in the state `ARRAY_QUOTE` on the closing quote. -/
theorem sb_quote_close (V : List Char) (n : Nat) (qq : Char) (st e : Option Nat) (a : Nat)
    (h : V.getD a NUL = qq) :
    split_body { value := V, n := n, state := ARRAY_QUOTE, quote := qq, start := st,
                 endp := e } a =
      split_step_t.go { value := V, n := n, state := ARRAY_QUOTE_END, quote := NUL,
                        start := st, endp := e } := by
  have c1 : (V.getD a NUL == qq) = true := by
    simp only [beq_iff_eq]
    exact h
  unfold split_body
  simp only [c1, ↓reduceIte]

/-- The splitter in the state `ARRAY_QUOTE_END` on white space: it goes on. -/
theorem sb_qend_space (V : List Char) (n : Nat) (qq : Char) (st e : Option Nat) (a : Nat)
    (h : isspace (V.getD a NUL) = true) :
    split_body { value := V, n := n, state := ARRAY_QUOTE_END, quote := qq, start := st,
                 endp := e } a =
      split_step_t.go { value := V, n := n, state := ARRAY_QUOTE_END, quote := qq,
                        start := st, endp := e } := by
  have c1 : (V.getD a NUL == CFGCLI_SYM_ARRAY_SEP) = false := by
    simp only [CFGCLI_SYM_ARRAY_SEP, beq_eq_false_iff_ne, ne_eq]
    exact space_not_sym h ',' (by decide)
  have c2 : (V.getD a NUL == CFGCLI_SYM_ARRAY_END) = false := by
    simp only [CFGCLI_SYM_ARRAY_END, beq_eq_false_iff_ne, ne_eq]
    exact space_not_sym h ']' (by decide)
  unfold split_body
  simp only [c1, c2, h, Bool.false_eq_true, ↓reduceIte, Bool.not_true]

/-- The splitter behind an element, on a comma: the comma becomes a NUL and the count
grows by one. -/
theorem sb_comma (V : List Char) (n : Nat) (S : cfgcli_parse_state_t) (qq : Char)
    (st e : Option Nat) (a : Nat) (hS : S = ARRAY_VALUE ∨ S = ARRAY_QUOTE_END)
    (h : V.getD a NUL = ',') :
    split_body { value := V, n := n, state := S, quote := qq, start := st, endp := e } a =
      split_step_t.go { value := poke V a NUL, n := n + 1, state := ARRAY_START, quote := qq,
                        start := st, endp := e } := by
  have c1 : (V.getD a NUL == CFGCLI_SYM_ARRAY_SEP) = true := by
    rw [h]
    decide
  rcases hS with rfl | rfl
  · unfold split_body
    simp only [c1, ↓reduceIte]
  · unfold split_body
    simp only [c1, ↓reduceIte]

/-- The splitter behind an element, on the closing bracket: its place is recorded. -/
theorem sb_close (V : List Char) (n : Nat) (S : cfgcli_parse_state_t) (qq : Char)
    (st e : Option Nat) (a : Nat) (hS : S = ARRAY_VALUE ∨ S = ARRAY_QUOTE_END)
    (h : V.getD a NUL = ']') :
    split_body { value := V, n := n, state := S, quote := qq, start := st, endp := e } a =
      split_step_t.go { value := V, n := n, state := ARRAY_END, quote := qq, start := st,
                        endp := some a } := by
  have c1 : (V.getD a NUL == CFGCLI_SYM_ARRAY_SEP) = false := by
    rw [h]
    decide
  have c2 : (V.getD a NUL == CFGCLI_SYM_ARRAY_END) = true := by
    rw [h]
    decide
  rcases hS with rfl | rfl
  · unfold split_body
    simp only [c1, c2, Bool.false_eq_true, ↓reduceIte]
  · unfold split_body
    simp only [c1, c2, Bool.false_eq_true, ↓reduceIte]

/-- The splitter in the state `ARRAY_END` on a byte that is not graphic: it goes on. -/
theorem sb_end_blank (V : List Char) (n : Nat) (qq : Char) (st e : Option Nat) (a : Nat)
    (h : isgraph (V.getD a NUL) = false) :
    split_body { value := V, n := n, state := ARRAY_END, quote := qq, start := st,
                 endp := e } a =
      split_step_t.go { value := V, n := n, state := ARRAY_END, quote := qq, start := st,
                        endp := e } := by
  have c1 : (V.getD a NUL == CFGCLI_SYM_COMMENT) = false := by
    simp only [CFGCLI_SYM_COMMENT, beq_eq_false_iff_ne, ne_eq]
    intro e
    rw [e] at h
    exact absurd h (by decide)
  unfold split_body
  simp only [c1, h, Bool.false_eq_true, ↓reduceIte]

/-- A stretch of bytes on each of which the loop body leaves the variables as they are. -/
theorem split_stretch (s : split_t) (pre xs post : List Char)
    (hv : s.value = pre ++ (xs ++ post)) (hs : s.state ≠ ARRAY_DONE)
    (hstay : ∀ c ∈ xs, ∀ a, s.value.getD a NUL = c → split_body s a = split_step_t.go s)
    (k : Nat) :
    parse_array_loop (k + xs.length) s pre.length =
      parse_array_loop k s (pre.length + xs.length) := by
  apply split_stay xs.length k s pre.length hs
  intro j hj
  have hg : s.value.getD (pre.length + j) NUL = xs.getD j NUL := by
    rw [hv, getD_append_right_add, getD_append_left_lt _ _ _ hj]
  exact hstay _ (getD_of_mem_index xs j hj) _ hg

/-! ## The array splitter on an element with its white space -/

/-- A stretch of bytes of the value on each of which the loop body leaves the variables
as they are. -/
theorem split_run (V A xs B : List Char) (n : Nat) (S : cfgcli_parse_state_t) (qq : Char)
    (st e : Option Nat) (hV : V = A ++ (xs ++ B)) (hS : S ≠ ARRAY_DONE)
    (hstay : ∀ c ∈ xs, ∀ a, V.getD a NUL = c →
      split_body { value := V, n := n, state := S, quote := qq, start := st, endp := e } a =
        split_step_t.go
          { value := V, n := n, state := S, quote := qq, start := st, endp := e })
    (k f i j : Nat) (hi : i = A.length) (hf : f = k + xs.length) (hj : j = i + xs.length) :
    parse_array_loop f
      { value := V, n := n, state := S, quote := qq, start := st, endp := e } i =
    parse_array_loop k
      { value := V, n := n, state := S, quote := qq, start := st, endp := e } j := by
  subst hi hf hj
  exact split_stretch _ A xs B hV hS hstay k

/-- One pass of the loop on the byte `c` of the value. -/
theorem split_one (A : List Char) (c : Char) (B : List Char) (s s1 : split_t)
    (hV : s.value = A ++ c :: B) (hS : s.state ≠ ARRAY_DONE)
    (hb : s.value.getD A.length NUL = c → split_body s A.length = split_step_t.go s1)
    (k f i : Nat) (hi : i = A.length) (hf : f = k + 1) :
    parse_array_loop f s i = parse_array_loop k s1 (i + 1) := by
  subst hi hf
  apply split_go k s s1 A.length hS
  apply hb
  rw [hV]
  have := getD_append_right_add A (c :: B) 0
  rw [Nat.add_zero] at this
  rw [this]
  rfl

/-- White space holds no NUL, a bare element holds no NUL, a quoted element holds no
NUL. -/
theorem elem_seg_no_nul (seg e : List Char) (h : elem_seg seg e) : NUL ∉ seg ∧ NUL ∉ e := by
  obtain ⟨ws, ws2, hws, hws2, rfl, hc⟩ := h
  have he : NUL ∉ e := by
    rcases hc with ⟨hp, _⟩ | ⟨q, inner, hq, hqi, hni, rfl⟩
    · cases e with
      | nil => simp [plain_elem] at hp
      | cons c cs =>
        simp only [plain_elem, Bool.and_eq_true, List.all_eq_true] at hp
        intro hm
        rcases List.mem_cons.mp hm with e1 | e1
        · have := hp.1.1.1.1.1.1
          rw [← e1] at this
          exact absurd this (by decide)
        · have := (bare_tail_facts (hp.2 NUL e1)).1
          exact absurd this (by decide)
    · intro hm
      rcases List.mem_cons.mp hm with e1 | e1
      · rcases hq with h | h <;> rw [h] at e1 <;> exact absurd e1 (by decide)
      · rcases List.mem_append.mp e1 with e2 | e2
        · exact hni e2
        · rw [List.mem_singleton] at e2
          rcases hq with h | h <;> rw [h] at e2 <;> exact absurd e2 (by decide)
  refine ⟨?_, he⟩
  intro hm
  rcases List.mem_append.mp hm with e1 | e1
  · exact space_ne_nul (hws NUL e1) rfl
  · rcases List.mem_append.mp e1 with e2 | e2
    · exact he e2
    · exact space_ne_nul (hws2 NUL e2) rfl

/-- The splitter on an element with its white space, from the state `ARRAY_START`: it
arrives behind the element in the state `ARRAY_VALUE` or `ARRAY_QUOTE_END`, and the value
text, the count and the pointers are as they were. -/
theorem split_seg (seg e : List Char) (h : elem_seg seg e) (pre post : List Char)
    (k n : Nat) (qq : Char) (st ep : Option Nat) :
    ∃ qq2 S, (S = ARRAY_VALUE ∨ S = ARRAY_QUOTE_END) ∧
      parse_array_loop (k + seg.length)
        { value := pre ++ (seg ++ post), n := n, state := ARRAY_START, quote := qq,
          start := st, endp := ep } pre.length =
      parse_array_loop k
        { value := pre ++ (seg ++ post), n := n, state := S, quote := qq2, start := st,
          endp := ep } (pre.length + seg.length) := by
  obtain ⟨ws, ws2, hws, hws2, rfl, hc⟩ := h
  generalize hVd : pre ++ ((ws ++ (e ++ ws2)) ++ post) = V
  have hV1 : V = pre ++ (ws ++ (e ++ (ws2 ++ post))) := by
    rw [← hVd]
    simp only [List.append_assoc]
  have hlen : (ws ++ (e ++ ws2)).length = ws.length + e.length + ws2.length := by
    simp only [List.length_append]
    omega
  rw [hlen]
  -- the white space before the element
  have s1 := split_run V pre ws (e ++ (ws2 ++ post)) n ARRAY_START qq st ep hV1 (by decide)
    (fun c hc a ha => sb_start_space V n qq st ep a (by rw [ha]; exact hws c hc))
    (k + e.length + ws2.length) (k + (ws.length + e.length + ws2.length)) pre.length
    (pre.length + ws.length) rfl (by omega) rfl
  rw [s1]
  rcases hc with ⟨hp, hw0⟩ | ⟨q, inner, hq, hqi, hni, rfl⟩
  · subst hw0
    cases e with
    | nil => simp [plain_elem] at hp
    | cons c cs =>
      simp only [plain_elem, Bool.and_eq_true, List.all_eq_true, bne_iff_ne, ne_eq] at hp
      obtain ⟨⟨⟨⟨⟨⟨g1, g2⟩, g3⟩, g4⟩, g5⟩, g6⟩, g7⟩ := hp
      refine ⟨qq, ARRAY_VALUE, Or.inl rfl, ?_⟩
      have hV2 : V = (pre ++ ws) ++ c :: (cs ++ post) := by
        rw [hV1]
        simp only [List.append_assoc, List.cons_append, List.nil_append]
      have hV3 : V = (pre ++ ws ++ [c]) ++ (cs ++ post) := by
        rw [hV2]
        simp only [List.append_assoc, List.singleton_append]
      rw [split_one (pre ++ ws) c (cs ++ post)
        { value := V, n := n, state := ARRAY_START, quote := qq, start := st, endp := ep }
        { value := V, n := n, state := ARRAY_VALUE, quote := qq, start := st, endp := ep }
        hV2 (by simp)
        (fun hg => sb_start_plain V n qq st ep _ (by rw [hg]; exact g1)
          (by rw [hg]; exact ⟨g2, g3, g4, g5, g6⟩))
        (k + cs.length) _ _ (by simp only [List.length_append]) (by
          simp only [List.length_cons, List.length_nil]
          omega)]
      exact split_run V (pre ++ ws ++ [c]) cs post n ARRAY_VALUE qq st ep hV3 (by decide)
        (fun x hx a ha => split_body_tail V n qq st ep a (by rw [ha]; exact g7 x hx))
        k _ _ _ (by simp only [List.length_append, List.length_singleton]) (by omega) (by
          simp only [List.length_cons, List.length_nil]
          omega)
  · refine ⟨NUL, ARRAY_QUOTE_END, Or.inr rfl, ?_⟩
    have hV2 : V = (pre ++ ws) ++ q :: (inner ++ (q :: (ws2 ++ post))) := by
      rw [hV1]
      simp only [List.append_assoc, List.cons_append, List.nil_append]
    have hV3 : V = (pre ++ ws ++ [q]) ++ (inner ++ (q :: (ws2 ++ post))) := by
      rw [hV2]
      simp only [List.append_assoc, List.singleton_append]
    have hV4 : V = (pre ++ ws ++ [q] ++ inner) ++ q :: (ws2 ++ post) := by
      rw [hV3]
      simp only [List.append_assoc]
    have hV5 : V = (pre ++ ws ++ [q] ++ inner ++ [q]) ++ (ws2 ++ post) := by
      rw [hV4]
      simp only [List.append_assoc, List.singleton_append]
    have hel : (q :: (inner ++ [q])).length = inner.length + 2 := by
      simp only [List.length_cons, List.length_append, List.length_nil]
    rw [hel]
    rw [split_one (pre ++ ws) q (inner ++ (q :: (ws2 ++ post)))
      { value := V, n := n, state := ARRAY_START, quote := qq, start := st, endp := ep }
      { value := V, n := n, state := ARRAY_QUOTE, quote := q, start := st, endp := ep }
      hV2 (by simp)
      (fun hg => by
        have := sb_start_quote V n qq st ep (pre ++ ws).length (by rw [hg]; exact hq)
        rw [hg] at this
        exact this)
      (k + ws2.length + 1 + inner.length) _ _ (by simp only [List.length_append]) (by omega)]
    rw [split_run V (pre ++ ws ++ [q]) inner (q :: (ws2 ++ post)) n ARRAY_QUOTE q st ep hV3
      (by decide)
      (fun x hx a ha => sb_quote_in V n q st ep a (by
        rw [ha]
        intro e1
        exact hqi (e1 ▸ hx)))
      (k + ws2.length + 1) _ _ (pre.length + ws.length + 1 + inner.length)
      (by simp only [List.length_append, List.length_singleton]) (by omega) (by omega)]
    rw [split_one (pre ++ ws ++ [q] ++ inner) q (ws2 ++ post)
      { value := V, n := n, state := ARRAY_QUOTE, quote := q, start := st, endp := ep }
      { value := V, n := n, state := ARRAY_QUOTE_END, quote := NUL, start := st, endp := ep }
      hV4 (by simp)
      (fun hg => sb_quote_close V n q st ep _ hg)
      (k + ws2.length) _ _ (by simp only [List.length_append, List.length_singleton]) (by omega)]
    exact split_run V (pre ++ ws ++ [q] ++ inner ++ [q]) ws2 post n ARRAY_QUOTE_END NUL st ep
      hV5 (by decide)
      (fun x hx a ha => sb_qend_space V n NUL st ep a (by rw [ha]; exact hws2 x hx))
      k _ _ _ (by simp only [List.length_append, List.length_singleton]) (by omega) (by omega)

/-! ## The array splitter on a run of elements -/

theorem seg_run_length (d d2 : Char) (segs : List (List Char)) :
    (seg_run d segs).length = (seg_run d2 segs).length := by
  induction segs with
  | nil => rfl
  | cons s r ih => simp only [seg_run, List.length_append, List.length_cons, ih]

/-- The texts joined by `d`, when the last one is set apart. -/
theorem join_by_concat (d : Char) (init : List (List Char)) (last : List Char) :
    join_by d (init ++ [last]) = seg_run d init ++ last := by
  induction init with
  | nil => rfl
  | cons s r ih =>
    cases r with
    | nil => simp only [List.cons_append, List.nil_append, join_by, seg_run, List.append_assoc,
        List.singleton_append]
    | cons t r2 =>
      simp only [List.cons_append, join_by, seg_run, List.append_assoc, List.append_eq] at ih ⊢
      rw [ih]

theorem seg_run_concat (d : Char) (init : List (List Char)) (last : List Char) :
    seg_run d (init ++ [last]) = seg_run d init ++ (last ++ [d]) := by
  induction init with
  | nil => rfl
  | cons s r ih => simp only [List.cons_append, seg_run, List.append_eq, ih, List.append_assoc]

/-- The splitter on elements that are each followed by a comma, from the state
`ARRAY_START`: every comma becomes a NUL and is counted. -/
theorem split_seg_run (segs : List (List Char)) (hs : ∀ s ∈ segs, ∃ e, elem_seg s e) :
    ∀ (pre post : List Char) (k n : Nat) (qq : Char) (st ep : Option Nat),
    ∃ qq2,
      parse_array_loop (k + (seg_run ',' segs).length)
        { value := pre ++ (seg_run ',' segs ++ post), n := n, state := ARRAY_START,
          quote := qq, start := st, endp := ep } pre.length =
      parse_array_loop k
        { value := pre ++ (seg_run NUL segs ++ post), n := n + segs.length,
          state := ARRAY_START, quote := qq2, start := st, endp := ep }
        (pre.length + (seg_run ',' segs).length) := by
  induction segs with
  | nil =>
    intro pre post k n qq st ep
    exact ⟨qq, rfl⟩
  | cons s r ih =>
    intro pre post k n qq st ep
    obtain ⟨e, he⟩ := hs s (List.mem_cons_self _ _)
    obtain ⟨q1, S, hS, h1⟩ := split_seg s e he pre (',' :: (seg_run ',' r ++ post))
      (k + (seg_run ',' r).length + 1) n qq st ep
    obtain ⟨q2, h2⟩ := ih (fun x hx => hs x (List.mem_cons_of_mem _ hx)) (pre ++ s ++ [NUL])
      post k (n + 1) q1 st ep
    refine ⟨q2, ?_⟩
    have hV : pre ++ (seg_run ',' (s :: r) ++ post) =
        pre ++ (s ++ ',' :: (seg_run ',' r ++ post)) := by
      simp only [seg_run, List.append_assoc, List.cons_append]
    have hV2 : pre ++ (s ++ ',' :: (seg_run ',' r ++ post)) =
        (pre ++ s) ++ ',' :: (seg_run ',' r ++ post) := by
      simp only [List.append_assoc]
    have hp : poke (pre ++ (s ++ ',' :: (seg_run ',' r ++ post))) (pre ++ s).length NUL =
        (pre ++ s ++ [NUL]) ++ (seg_run ',' r ++ post) := by
      rw [hV2]
      have := set_append_add (pre ++ s) (',' :: (seg_run ',' r ++ post)) 0 NUL
      simp only [Nat.add_zero] at this
      unfold poke
      rw [this]
      simp only [List.set_cons_zero, List.append_assoc, List.singleton_append]
    have hL : (seg_run ',' (s :: r)).length = s.length + (seg_run ',' r).length + 1 := by
      simp only [seg_run, List.length_append, List.length_cons]
      omega
    rw [hV, hL, show k + (s.length + (seg_run ',' r).length + 1) =
      (k + (seg_run ',' r).length + 1) + s.length by omega, h1]
    rw [split_one (pre ++ s) ',' (seg_run ',' r ++ post)
      { value := pre ++ (s ++ ',' :: (seg_run ',' r ++ post)), n := n, state := S,
        quote := q1, start := st, endp := ep }
      { value := poke (pre ++ (s ++ ',' :: (seg_run ',' r ++ post))) (pre ++ s).length NUL,
        n := n + 1, state := ARRAY_START, quote := q1, start := st, endp := ep }
      hV2 (by rcases hS with h | h <;> simp [h])
      (fun hg => sb_comma _ n S q1 st ep _ hS hg)
      (k + (seg_run ',' r).length) _ _ (by simp only [List.length_append]) (by omega)]
    rw [hp]
    have hi : pre.length + s.length + 1 = (pre ++ s ++ [NUL]).length := by
      simp only [List.length_append, List.length_singleton]
    rw [hi, h2]
    have hV3 : pre ++ (seg_run NUL (s :: r) ++ post) =
        pre ++ s ++ [NUL] ++ (seg_run NUL r ++ post) := by
      simp only [seg_run, List.append_assoc, List.cons_append, List.singleton_append,
        List.nil_append]
    rw [hV3]
    congr 1
    · simp only [List.length_cons]
      congr 1
      omega
    · simp only [List.length_append, List.length_singleton]
      omega

/-- The splitter on the last element, the closing bracket and the terminating NUL, from
the state `ARRAY_START`: the place of the bracket is recorded. -/
theorem split_last (last e : List Char) (h : elem_seg last e) (pre : List Char) (n : Nat)
    (qq : Char) (st ep : Option Nat) :
    ∃ qq2,
      parse_array_loop (last.length + 2)
        { value := pre ++ (last ++ [']']), n := n, state := ARRAY_START, quote := qq,
          start := st, endp := ep } pre.length =
      split_step_t.go
        { value := pre ++ (last ++ [']']), n := n, state := ARRAY_END, quote := qq2,
          start := st, endp := some (pre.length + last.length) } := by
  obtain ⟨q1, S, hS, h1⟩ := split_seg last e h pre [']'] 2 n qq st ep
  refine ⟨q1, ?_⟩
  have hV2 : pre ++ (last ++ [']']) = (pre ++ last) ++ ']' :: [] := by
    simp only [List.append_assoc]
  rw [show last.length + 2 = 2 + last.length by omega, h1]
  rw [split_one (pre ++ last) ']' []
    { value := pre ++ (last ++ [']']), n := n, state := S, quote := q1, start := st,
      endp := ep }
    { value := pre ++ (last ++ [']']), n := n, state := ARRAY_END, quote := q1, start := st,
      endp := some (pre ++ last).length }
    hV2 (by rcases hS with h | h <;> simp [h])
    (fun hg => sb_close _ n S q1 st ep _ hS hg)
    1 _ _ (by simp only [List.length_append]) rfl]
  rw [split_go 0 _
    { value := pre ++ (last ++ [']']), n := n, state := ARRAY_END, quote := q1, start := st,
      endp := some (pre ++ last).length } _ (by simp)
    (sb_end_blank _ n q1 st _ _ (by
      rw [List.getD_eq_default _ _ (by simp only [List.length_append, List.length_singleton]; omega)]
      decide))]
  simp only [parse_array_loop, List.length_append]

/-! ## The coercion of the segments of a split array -/

/-- A variable assignment that returns zero has stored a value. -/
theorem assign_value_some (libc : libc_t) (t : List Char) (d : Int)
    (h : (assign_value libc t d).2 = 0) : ∃ x, assign_value libc t d = (some x, 0) := by
  revert h
  unfold assign_value
  repeat' split
  all_goals intro h
  all_goals first
    | exact absurd h (by decide)
    | exact ⟨_, Prod.ext rfl h⟩

/-- A coercion that returns zero has stored a value. -/
theorem get_value_some (libc : libc_t) (s : List Char) (d : Int)
    (h : (cfgcli_get_value libc s d).2 = 0) : ∃ x, cfgcli_get_value libc s d = (some x, 0) := by
  revert h
  unfold cfgcli_get_value
  dsimp only
  cases s.dropWhile isspace with
  | nil =>
    intro h
    exact absurd h (show ¬ ((none, CFGCLI_ERR_VALUE) : Option scalar_t × Int).2 = 0 by decide)
  | cons c rest =>
    dsimp only
    repeat' split
    all_goals intro h
    all_goals first
      | exact absurd h (by decide)
      | exact assign_value_some libc _ d h

/-- An element with white space around it is coerced as the element alone. -/
theorem get_value_seg (libc : libc_t) (seg e : List Char) (d : Int) (h : elem_seg seg e) :
    cfgcli_get_value libc seg d = cfgcli_get_value libc e d := by
  obtain ⟨ws, ws2, hws, hws2, rfl, hc⟩ := h
  rcases hc with ⟨_, rfl⟩ | ⟨q, inner, hq, hqi, _, rfl⟩
  · have := get_value_blanks libc d ws [] (e ++ []) hws (by simp)
    simpa using this
  · have e1 := get_value_quoted libc ws (inner ++ q :: ws2) q d hws hq
    have e2 := get_value_quoted libc [] (inner ++ q :: []) q d (by simp) hq
    have a1 : ws ++ (q :: (inner ++ [q]) ++ ws2) = ws ++ q :: (inner ++ q :: ws2) := by simp
    have a2 : q :: (inner ++ [q]) = [] ++ q :: (inner ++ q :: []) := by simp
    rw [a1, a2, e1, e2]
    simp only [takeWhile_until inner _ q hqi, List.length_append, List.length_cons,
      List.drop_left, List.length_nil]
    have d1 : (inner ++ q :: ws2).drop (inner.length + 1) = ws2 := by
      rw [List.drop_append_eq_append_drop]
      simp
    have d2 : (inner ++ [q]).drop (inner.length + 1) = [] := by
      rw [List.drop_append_eq_append_drop]
      simp
    rw [d1, d2, all_of_forall ws2 hws2]
    simp

theorem seg_run_no_nul_split (s : List Char) (r : List (List Char)) (pre rest : List Char)
    (hs : NUL ∉ s) :
    cstr_at (pre ++ (seg_run NUL (s :: r) ++ rest)) pre.length = s := by
  have : pre ++ (seg_run NUL (s :: r) ++ rest) = pre ++ s ++ NUL :: (seg_run NUL r ++ rest) := by
    simp only [seg_run, List.append_assoc, List.cons_append]
  rw [this]
  exact cstr_at_append pre s _ hs

/-- The loop of `cfgcli_get_array` on a run of segments that all coerce: the values are
stored in the order of the segments. -/
theorem get_array_vals_segs (libc : libc_t) (edt : Int) (segs : List (List Char)) :
    ∀ (xs : List scalar_t), List.Forall₂ (fun s x => cfgcli_get_value libc s edt = (some x, 0))
      segs xs → (∀ s ∈ segs, NUL ∉ s) →
    ∀ (pre rest : List Char) (A B : List scalar_t), B.length = segs.length →
      get_array_vals libc edt (pre ++ (seg_run NUL segs ++ rest)) segs.length pre.length
        A.length (A ++ B) = (A ++ xs, 0) := by
  induction segs with
  | nil =>
    intro xs h _ pre rest A B hB
    cases h
    have : B = [] := List.length_eq_zero.1 hB
    subst this
    rfl
  | cons s r ih =>
    intro xs h hn pre rest A B hB
    cases h with
    | cons hx hr =>
      rename_i x xr
      cases B with
      | nil => simp at hB
      | cons b B2 =>
        rw [List.length_cons, get_array_vals]
        simp only [seg_run_no_nul_split s r pre rest (hn s (List.mem_cons_self _ _)), hx]
        have hset : ∀ b y, (A ++ b :: B2).set A.length y = (A ++ [y]) ++ B2 := by
          intro b y
          have := set_append_add A (b :: B2) 0 y
          simp only [Nat.add_zero] at this
          rw [this]
          simp
        have harr : ((if edt = CFGCLI_DTYPE_STR then (A ++ b :: B2).set A.length (scalar_t.str [])
            else A ++ b :: B2).set A.length x) = (A ++ [x]) ++ B2 := by
          split
          · rw [hset, List.append_assoc, List.singleton_append, hset]
          · rw [hset]
        simp only [ne_eq, not_true_eq_false, ↓reduceIte]
        rw [harr]
        have hb : pre ++ (seg_run NUL (s :: r) ++ rest) =
            (pre ++ s ++ [NUL]) ++ (seg_run NUL r ++ rest) := by
          simp only [seg_run, List.append_assoc, List.cons_append, List.singleton_append,
            List.nil_append]
        have hp : pre.length + (s.length + 1) = (pre ++ s ++ [NUL]).length := by
          simp only [List.length_append, List.length_singleton]
          omega
        have hi : A.length + 1 = (A ++ [x]).length := by
          simp only [List.length_append, List.length_singleton]
        rw [hb, hp, hi, ih xr hr (fun t ht => hn t (List.mem_cons_of_mem _ ht))
          (pre ++ s ++ [NUL]) rest (A ++ [x]) B2 (by simpa using hB)]
        simp

/-- The loop of `cfgcli_get_array` on a run of segments that coerce, followed by a
string that fails: the code of that string is returned. -/
theorem get_array_vals_fail (libc : libc_t) (edt : Int) (l1 : List (List Char))
    (tail : List Char) (code : Int) (hc : code ≠ 0)
    (hs : (cfgcli_get_value libc (cstr_at tail 0) edt).2 = code)
    (hok : ∀ t ∈ l1, (cfgcli_get_value libc t edt).2 = 0)
    (hn : ∀ t ∈ l1, NUL ∉ t) :
    ∀ (pre : List Char) (k i : Nat) (arr : List scalar_t),
      (get_array_vals libc edt (pre ++ (seg_run NUL l1 ++ tail))
        (k + l1.length + 1) pre.length i arr).2 = code := by
  induction l1 with
  | nil =>
    intro pre k i arr
    have hcs : cstr_at (pre ++ (seg_run NUL [] ++ tail)) pre.length = cstr_at tail 0 := by
      rw [← cstr_at_drop]
      simp only [seg_run, List.nil_append, List.drop_left]
    rw [List.length_nil, Nat.add_zero, get_array_vals]
    simp only [hcs, hs, ne_eq, hc, not_false_eq_true, ↓reduceIte]
  | cons t r ih =>
    intro pre k i arr
    have e : k + (t :: r).length + 1 = (k + r.length + 1) + 1 := by
      simp only [List.length_cons]
      omega
    rw [e, get_array_vals]
    simp only [seg_run_no_nul_split t _ pre tail (hn t (List.mem_cons_self _ _)),
      hok t (List.mem_cons_self _ _), ne_eq, not_true_eq_false, ↓reduceIte]
    have hb : pre ++ (seg_run NUL (t :: r) ++ tail) =
        (pre ++ t ++ [NUL]) ++ (seg_run NUL r ++ tail) := by
      simp only [seg_run, List.append_assoc, List.cons_append, List.singleton_append,
        List.nil_append]
    have hp : pre.length + (t.length + 1) = (pre ++ t ++ [NUL]).length := by
      simp only [List.length_append, List.length_singleton]
      omega
    rw [hb, hp]
    exact ih (fun u hu => hok u (List.mem_cons_of_mem _ hu))
      (fun u hu => hn u (List.mem_cons_of_mem _ hu)) _ _ _ _

/-! ## The array splitter on a whole bracketed value -/

/-- The splitter from the first byte of a value that opens with a bracket, over elements
that are each followed by a comma. -/
theorem split_open (init : List (List Char)) (hs : ∀ s ∈ init, ∃ e, elem_seg s e)
    (tail : List Char) (k : Nat) :
    ∃ qq2,
      parse_array_loop (k + (seg_run ',' init).length + 1)
        { value := '[' :: (seg_run ',' init ++ tail), n := 0, state := START, quote := NUL,
          start := none, endp := none } 0 =
      parse_array_loop k
        { value := '[' :: (seg_run NUL init ++ tail), n := init.length, state := ARRAY_START,
          quote := qq2, start := some 0, endp := none } ((seg_run ',' init).length + 1) := by
  obtain ⟨q, h⟩ := split_seg_run init hs ['['] tail k 0 NUL (some 0) none
  refine ⟨q, ?_⟩
  rw [split_go _ _
    { value := ['['] ++ (seg_run ',' init ++ tail), n := 0, state := ARRAY_START, quote := NUL,
      start := some 0, endp := none } 0 (by simp)
    (by
      unfold split_body
      simp [CFGCLI_SYM_ARRAY_START])]
  have e1 : ['['].length = 1 := rfl
  rw [e1] at h
  rw [Nat.zero_add, h, Nat.zero_add, Nat.add_comm 1]
  rfl

/-- The splitter on the value `[s1,...,sn]` of well-formed elements: `n` segments, each
comma and the closing bracket turned into a NUL, the opening bracket dropped. -/
theorem parse_array_segs (init : List (List Char)) (last : List Char)
    (hs : ∀ s ∈ init ++ [last], ∃ e, elem_seg s e) (par : cfgcli_param_valid_t)
    (hv : par.value = some ('[' :: (seg_run ',' init ++ (last ++ [']']))))
    (hl : par.vlen = (seg_run ',' init).length + last.length + 3) :
    cfgcli_parse_array par =
      (0, { par with narr := init.length + 1,
                     value := some (seg_run NUL init ++ (last ++ [NUL])) }) := by
  obtain ⟨q1, h1⟩ := split_open init (fun s h => hs s (List.mem_append_left _ h))
    (last ++ [']']) (last.length + 2)
  obtain ⟨e, he⟩ := hs last (by simp)
  obtain ⟨q2, h2⟩ := split_last last e he ('[' :: seg_run NUL init) init.length q1 (some 0) none
  have hp : (poke ('[' :: seg_run NUL init ++ (last ++ [']']))
      (('[' :: seg_run NUL init).length + last.length) NUL).drop (0 + 1) =
      seg_run NUL init ++ (last ++ [NUL]) := by
    have a : '[' :: seg_run NUL init ++ (last ++ [']']) =
        ('[' :: seg_run NUL init ++ last) ++ [']'] := by simp
    have b : ('[' :: seg_run NUL init).length + last.length =
        ('[' :: seg_run NUL init ++ last).length + 0 := by
      simp only [List.length_append, Nat.add_zero]
    rw [a, b, poke, set_append_add]
    simp
  unfold cfgcli_parse_array
  simp only [hv, hl]
  rw [show (seg_run ',' init).length + last.length + 3 =
    (last.length + 2) + (seg_run ',' init).length + 1 by omega, h1]
  have hi : (seg_run ',' init).length + 1 = ('[' :: seg_run NUL init).length := by
    rw [List.length_cons, seg_run_length ',' NUL]
  rw [hi]
  have hc : '[' :: (seg_run NUL init ++ (last ++ [']'])) =
      '[' :: seg_run NUL init ++ (last ++ [']']) := rfl
  rw [hc, h2]
  simp only [Nat.add_one_ne_zero, ↓reduceIte, hp]

/-- The strings read back from a run of NUL-terminated segments are the segments. -/
theorem c_strings_seg_run (segs : List (List Char)) (hn : ∀ s ∈ segs, NUL ∉ s) :
    ∀ rest, c_strings segs.length (seg_run NUL segs ++ rest) = segs := by
  induction segs with
  | nil =>
    intro rest
    rfl
  | cons s r ih =>
    intro rest
    have a : seg_run NUL (s :: r) ++ rest = s ++ NUL :: (seg_run NUL r ++ rest) := by
      simp only [seg_run, List.append_assoc, List.cons_append]
    rw [List.length_cons, c_strings, a, cstr_at_zero s _ (hn s (List.mem_cons_self _ _))]
    have d : (s ++ NUL :: (seg_run NUL r ++ rest)).drop (s.length + 1) =
        seg_run NUL r ++ rest := by
      rw [List.drop_append_eq_append_drop]
      simp
    rw [d, ih (fun t ht => hn t (List.mem_cons_of_mem _ ht))]

/-- The text after the loop of `cfgcli_get_array` has run over segments that are all
accepted: each segment as `cfgcli_get_value` leaves it. -/
theorem get_array_loop_text (libc : libc_t) (edt : Int) (segs : List (List Char))
    (hn : ∀ s ∈ segs, NUL ∉ s) (hok : ∀ s ∈ segs, (cfgcli_get_value libc s edt).2 = 0) :
    ∀ (pre rest : List Char) (i : Nat) (arr : List scalar_t),
      (get_array_loop libc edt segs.length (pre ++ (seg_run NUL segs ++ rest)) pre.length i
        arr).2.2 = pre ++ (seg_run NUL (segs.map get_value_text) ++ rest) := by
  induction segs with
  | nil =>
    intro pre rest i arr
    rfl
  | cons s r ih =>
    intro pre rest i arr
    have hs : NUL ∉ s := hn s (List.mem_cons_self _ _)
    have hc : cstr_at (pre ++ (s ++ NUL :: (seg_run NUL r ++ rest))) pre.length = s :=
      cstr_at_seg pre s _ hs
    have h0 := hok s (List.mem_cons_self _ _)
    rw [List.length_cons, get_array_loop]
    simp only [seg_run, List.append_assoc, List.cons_append, hc, h0, ne_eq, not_true_eq_false,
      ↓reduceIte, List.map_cons]
    rw [store_at pre s (get_value_text s) _ (get_value_text_length s)]
    have e : pre.length + (s.length + 1) = (pre ++ (get_value_text s ++ [NUL])).length := by
      simp only [List.length_append, get_value_text_length, List.length_singleton]
    have e2 : pre ++ (get_value_text s ++ NUL :: (seg_run NUL r ++ rest)) =
        (pre ++ (get_value_text s ++ [NUL])) ++ (seg_run NUL r ++ rest) := by
      simp only [List.append_assoc, List.singleton_append]
    rw [e, e2, ih (fun t ht => hn t (List.mem_cons_of_mem _ ht))
      (fun t ht => hok t (List.mem_cons_of_mem _ ht))]
    simp only [List.append_assoc, List.singleton_append]

theorem elem_seg_all (segs es : List (List Char)) (h : List.Forall₂ elem_seg segs es) :
    ∀ s ∈ segs, ∃ e, elem_seg s e := by
  induction h with
  | nil =>
    intro s hs
    cases hs
  | cons h1 _ ih =>
    intro s hs
    rcases List.mem_cons.1 hs with rfl | h2
    · exact ⟨_, h1⟩
    · exact ih s h2

theorem seg_values (libc : libc_t) (edt : Int) (segs es : List (List Char))
    (h : List.Forall₂ elem_seg segs es) :
    ∀ xs, List.Forall₂ (fun e x => cfgcli_get_value libc e edt = (some x, 0)) es xs →
      List.Forall₂ (fun s x => cfgcli_get_value libc s edt = (some x, 0)) segs xs := by
  induction h with
  | nil =>
    intro xs hx
    cases hx
    exact List.Forall₂.nil
  | cons h1 _ ih =>
    intro xs hx
    cases hx with
    | cons hx1 hx2 =>
      exact List.Forall₂.cons ((get_value_seg libc _ _ edt h1).trans hx1) (ih _ hx2)

/-- The array assignment on a split value whose segments all coerce. -/
theorem get_array_of_split (libc : libc_t) (par p1 : cfgcli_param_valid_t)
    (segs : List (List Char)) (xs : List scalar_t) (edt : Int) (zero : scalar_t)
    (hp : cfgcli_parse_array par = (0, p1)) (hd : array_elem p1.dtype = some (edt, zero))
    (hv : p1.value = some (seg_run NUL segs)) (hn : p1.narr = segs.length)
    (hnul : ∀ s ∈ segs, NUL ∉ s)
    (hx : List.Forall₂ (fun s x => cfgcli_get_value libc s edt = (some x, 0)) segs xs) :
    cfgcli_get_array libc par =
      (0, { p1 with value := some (seg_run NUL (segs.map get_value_text)),
                    slot := slot_t.array xs }) := by
  have hlen : xs.length = segs.length := (List.Forall₂.length_eq hx).symm
  have g := get_array_vals_segs libc edt segs xs hx hnul [] [] []
    (List.replicate segs.length zero) (by simp)
  simp only [List.nil_append, List.append_nil, List.length_nil] at g
  have hok : ∀ s ∈ segs, (cfgcli_get_value libc s edt).2 = 0 := by
    clear g hlen hn hv
    induction hx with
    | nil =>
      intro s hs
      cases hs
    | cons h1 _ ih =>
      intro s hs
      rcases List.mem_cons.1 hs with rfl | h2
      · rw [h1]
      · exact ih (fun t ht => hnul t (List.mem_cons_of_mem _ ht)) s h2
  have t := get_array_loop_text libc edt segs hnul hok [] [] 0
    (List.replicate segs.length zero)
  simp only [List.nil_append, List.append_nil, List.length_nil] at t
  rw [get_array_unfold, hp]
  simp only [ne_eq, not_true_eq_false, ↓reduceIte, hd, hv, hn, Option.getD_some, g,
    Option.map_some', t]

/-- C21: the splitter on `[s1,...,sn]`, where each `si` is an element `ei` (a string in
quotes, or a bare token: a graphic character other than `,`, `]`, `#` and the quotes, then
printable characters other than `,`, `]`, `#`) with white space around it, returns 0 with
`narr = n` and leaves the `n` segments `s1`, ..., `sn`, each terminated by a NUL; the
strings read back from the split text are these segments; and when the elements coerce to
`x1`, ..., `xn`, the array assignment returns 0 and stores exactly `x1`, ..., `xn` in this
order, and it leaves each segment as `cfgcli_get_value` rewrites it in place (the closing
quote of a quoted element and the trailing white space of a bare one overwritten with
NUL). -/
theorem array_split_order (libc : libc_t) (segs es : List (List Char)) (hne : segs ≠ [])
    (h : List.Forall₂ elem_seg segs es) (par : cfgcli_param_valid_t)
    (hv : par.value = some ('[' :: (join_by ',' segs ++ [']'])))
    (hl : par.vlen = (join_by ',' segs).length + 3) :
    cfgcli_parse_array par =
      (0, { par with narr := segs.length, value := some (seg_run NUL segs) }) ∧
    c_strings segs.length (seg_run NUL segs) = segs ∧
    ∀ (edt : Int) (zero : scalar_t) (xs : List scalar_t),
      array_elem par.dtype = some (edt, zero) →
      List.Forall₂ (fun e x => cfgcli_get_value libc e edt = (some x, 0)) es xs →
      cfgcli_get_array libc par =
        (0, { par with narr := segs.length,
                       value := some (seg_run NUL (segs.map get_value_text)),
                       slot := slot_t.array xs }) := by
  have hall := elem_seg_all segs es h
  have hnul : ∀ s ∈ segs, NUL ∉ s := by
    intro s hs
    obtain ⟨e, he⟩ := hall s hs
    exact (elem_seg_no_nul s e he).1
  have hsplit : cfgcli_parse_array par =
      (0, { par with narr := segs.length, value := some (seg_run NUL segs) }) := by
    rcases List.eq_nil_or_concat segs with h0 | ⟨init, last, hseg⟩
    · exact absurd h0 hne
    · rw [List.concat_eq_append] at hseg
      subst hseg
      rw [join_by_concat] at hv hl
      have := parse_array_segs init last hall par
        (by rw [hv, List.append_assoc]) (by rw [hl, List.length_append])
      rw [this, seg_run_concat, List.length_append, List.length_singleton]
  refine ⟨hsplit, ?_, ?_⟩
  · have := c_strings_seg_run segs hnul []
    rwa [List.append_nil] at this
  · intro edt zero xs hd hx
    exact get_array_of_split libc par _ segs xs edt zero hsplit hd rfl rfl hnul
      (seg_values libc edt segs es h xs hx)

/-- The value `["a,b", c]` for an array of strings: two segments, the comma inside the
quotes is kept, and the strings `a,b` and `c` are stored in this order; the assignment
leaves NUL in place of the closing quote of the first segment. -/
theorem array_split_order_witness :
    cfgcli_parse_array ex_strings =
      (0, { ex_strings with narr := 2, value := some "\"a,b\"\x00 c\x00".toList }) ∧
    c_strings 2 "\"a,b\"\x00 c\x00".toList = ["\"a,b\"".toList, " c".toList] ∧
    cfgcli_get_array ex_libc ex_strings =
      (0, { ex_strings with
              narr := 2, value := some "\"a,b\x00\x00 c\x00".toList,
              slot := slot_t.array [scalar_t.str "a,b".toList, scalar_t.str "c".toList] }) :=
  have h := array_split_order ex_libc ["\"a,b\"".toList, " c".toList]
    ["\"a,b\"".toList, "c".toList] (by decide)
    (List.Forall₂.cons
      ⟨[], [], by simp, by simp, rfl,
        Or.inr ⟨'"', "a,b".toList, Or.inl rfl, by decide, by decide, rfl⟩⟩
      (List.Forall₂.cons ⟨[' '], [], by decide, by simp, rfl, Or.inl ⟨by decide, rfl⟩⟩
        List.Forall₂.nil))
    ex_strings (by decide) (by decide)
  ⟨h.1, h.2.1, h.2.2 CFGCLI_DTYPE_STR scalar_t.null _ (by decide)
    (List.Forall₂.cons (by decide) (List.Forall₂.cons (by decide) List.Forall₂.nil))⟩

/-! ## The array splitter: the passes that return -/

theorem split_stop (k : Nat) (s : split_t) (i : Nat) (code : Int) (narr : Option Nat)
    (hs : s.state ≠ ARRAY_DONE) (hb : split_body s i = split_step_t.stop code narr) :
    parse_array_loop (k + 1) s i = split_step_t.stop code narr := by
  rw [parse_array_loop]
  simp only [hs, ↓reduceIte, hb]

/-- One pass of the loop on the byte `c` of the value, when the pass returns. -/
theorem split_one_stop (A : List Char) (c : Char) (B : List Char) (s : split_t) (code : Int)
    (narr : Option Nat) (hV : s.value = A ++ c :: B) (hS : s.state ≠ ARRAY_DONE)
    (hb : s.value.getD A.length NUL = c → split_body s A.length = split_step_t.stop code narr)
    (k f i : Nat) (hi : i = A.length) (hf : f = k + 1) :
    parse_array_loop f s i = split_step_t.stop code narr := by
  subst hi hf
  apply split_stop k s A.length code narr hS
  apply hb
  rw [hV]
  have := getD_append_right_add A (c :: B) 0
  rw [Nat.add_zero] at this
  rw [this]
  rfl

/-- The splitter in the state `START` on white space: it goes on. -/
theorem sb_first_space (V : List Char) (n : Nat) (qq : Char) (st e : Option Nat) (a : Nat)
    (h : isspace (V.getD a NUL) = true) :
    split_body { value := V, n := n, state := START, quote := qq, start := st, endp := e } a =
      split_step_t.go { value := V, n := n, state := START, quote := qq, start := st,
                        endp := e } := by
  have c1 : (V.getD a NUL == CFGCLI_SYM_ARRAY_START) = false := by
    simp only [CFGCLI_SYM_ARRAY_START, beq_eq_false_iff_ne, ne_eq]
    exact space_not_sym h '[' (by decide)
  unfold split_body
  simp only [c1, h, Bool.false_eq_true, ↓reduceIte, Bool.not_true]

/-- The splitter in the state `START` on a byte that is neither white space nor the
opening bracket: it returns 0 with the count 1. -/
theorem sb_first_other (V : List Char) (n : Nat) (qq : Char) (st e : Option Nat) (a : Nat)
    (h : isspace (V.getD a NUL) = false) (hb : V.getD a NUL ≠ '[') :
    split_body { value := V, n := n, state := START, quote := qq, start := st, endp := e } a =
      split_step_t.stop 0 (some 1) := by
  have c1 : (V.getD a NUL == CFGCLI_SYM_ARRAY_START) = false := by
    simp only [CFGCLI_SYM_ARRAY_START, beq_eq_false_iff_ne, ne_eq]
    exact hb
  unfold split_body
  simp only [c1, h, Bool.false_eq_true, ↓reduceIte, Bool.not_false]

/-- The splitter in the state `ARRAY_START` on a comma, a closing bracket or a comment
sign: no value is found. -/
theorem sb_start_bad (V : List Char) (n : Nat) (qq : Char) (st e : Option Nat) (a : Nat)
    (h : V.getD a NUL = ',' ∨ V.getD a NUL = ']' ∨ V.getD a NUL = '#') :
    split_body { value := V, n := n, state := ARRAY_START, quote := qq, start := st,
                 endp := e } a = split_step_t.stop CFGCLI_ERR_VALUE none := by
  have c1 : (V.getD a NUL == CFGCLI_SYM_ARRAY_SEP || V.getD a NUL == CFGCLI_SYM_ARRAY_END ||
      V.getD a NUL == CFGCLI_SYM_COMMENT) = true := by
    rcases h with h | h | h <;> rw [h] <;> decide
  unfold split_body
  simp only [c1, ↓reduceIte]

/-- The splitter in the state `ARRAY_START` on a byte that is neither graphic nor white
space, such as the terminating NUL. -/
theorem sb_start_ctrl (V : List Char) (n : Nat) (qq : Char) (st e : Option Nat) (a : Nat)
    (hg : isgraph (V.getD a NUL) = false) (hs : isspace (V.getD a NUL) = false) :
    split_body { value := V, n := n, state := ARRAY_START, quote := qq, start := st,
                 endp := e } a = split_step_t.stop CFGCLI_ERR_VALUE none := by
  have g : ∀ d : Char, isgraph d = true → V.getD a NUL ≠ d := by
    intro d hd e
    rw [e, hd] at hg
    exact absurd hg (by decide)
  have c1 : (V.getD a NUL == CFGCLI_SYM_ARRAY_SEP || V.getD a NUL == CFGCLI_SYM_ARRAY_END ||
      V.getD a NUL == CFGCLI_SYM_COMMENT) = false := by
    simp only [CFGCLI_SYM_ARRAY_SEP, CFGCLI_SYM_ARRAY_END, CFGCLI_SYM_COMMENT,
      Bool.or_eq_false_iff, beq_eq_false_iff_ne, ne_eq]
    exact ⟨⟨g ',' (by decide), g ']' (by decide)⟩, g '#' (by decide)⟩
  have c2 : (V.getD a NUL == '"' || V.getD a NUL == '\'') = false := by
    simp only [Bool.or_eq_false_iff, beq_eq_false_iff_ne, ne_eq]
    exact ⟨g '"' (by decide), g '\'' (by decide)⟩
  unfold split_body
  simp only [c1, c2, hg, hs, Bool.false_eq_true, ↓reduceIte, Bool.not_false]

/-- The splitter in the state `ARRAY_VALUE` on a comment sign or a byte that is not
printable, such as the terminating NUL. -/
theorem sb_value_bad (V : List Char) (n : Nat) (qq : Char) (st e : Option Nat) (a : Nat)
    (h : V.getD a NUL = '#' ∨ isprint (V.getD a NUL) = false) :
    split_body { value := V, n := n, state := ARRAY_VALUE, quote := qq, start := st,
                 endp := e } a = split_step_t.stop CFGCLI_ERR_VALUE none := by
  have g : ∀ d : Char, d ≠ '#' → isprint d = true → V.getD a NUL ≠ d := by
    intro d hd hp e
    rcases h with h | h
    · exact hd (e.symm.trans h)
    · rw [e, hp] at h
      exact absurd h (by decide)
  have c1 : (V.getD a NUL == CFGCLI_SYM_ARRAY_SEP) = false := by
    simp only [CFGCLI_SYM_ARRAY_SEP, beq_eq_false_iff_ne, ne_eq]
    exact g ',' (by decide) (by decide)
  have c2 : (V.getD a NUL == CFGCLI_SYM_ARRAY_END) = false := by
    simp only [CFGCLI_SYM_ARRAY_END, beq_eq_false_iff_ne, ne_eq]
    exact g ']' (by decide) (by decide)
  have c3 : (V.getD a NUL == CFGCLI_SYM_COMMENT || !isprint (V.getD a NUL)) = true := by
    rcases h with h | h
    · rw [h]
      decide
    · rw [h]
      simp
  unfold split_body
  simp only [c1, c2, c3, Bool.false_eq_true, ↓reduceIte]

/-- The splitter in the state `ARRAY_QUOTE_END` on a byte that is not white space, a comma
or a closing bracket. -/
theorem sb_qend_bad (V : List Char) (n : Nat) (qq : Char) (st e : Option Nat) (a : Nat)
    (hs : isspace (V.getD a NUL) = false) (h1 : V.getD a NUL ≠ ',') (h2 : V.getD a NUL ≠ ']') :
    split_body { value := V, n := n, state := ARRAY_QUOTE_END, quote := qq, start := st,
                 endp := e } a = split_step_t.stop CFGCLI_ERR_VALUE none := by
  have c1 : (V.getD a NUL == CFGCLI_SYM_ARRAY_SEP) = false := by
    simp only [CFGCLI_SYM_ARRAY_SEP, beq_eq_false_iff_ne, ne_eq]
    exact h1
  have c2 : (V.getD a NUL == CFGCLI_SYM_ARRAY_END) = false := by
    simp only [CFGCLI_SYM_ARRAY_END, beq_eq_false_iff_ne, ne_eq]
    exact h2
  unfold split_body
  simp only [c1, c2, hs, Bool.false_eq_true, ↓reduceIte, Bool.not_false]

/-- The splitter in the state `ARRAY_END` on a graphic byte other than the comment sign. -/
theorem sb_end_graph (V : List Char) (n : Nat) (qq : Char) (st e : Option Nat) (a : Nat)
    (hg : isgraph (V.getD a NUL) = true) (h : V.getD a NUL ≠ '#') :
    split_body { value := V, n := n, state := ARRAY_END, quote := qq, start := st,
                 endp := e } a = split_step_t.stop CFGCLI_ERR_VALUE none := by
  have c1 : (V.getD a NUL == CFGCLI_SYM_COMMENT) = false := by
    simp only [CFGCLI_SYM_COMMENT, beq_eq_false_iff_ne, ne_eq]
    exact h
  unfold split_body
  simp only [c1, hg, Bool.false_eq_true, ↓reduceIte]

/-- The splitter in the state `ARRAY_END` on the comment sign: the text ends there. -/
theorem sb_end_comment (V : List Char) (n : Nat) (qq : Char) (st e : Option Nat) (a : Nat)
    (h : V.getD a NUL = '#') :
    split_body { value := V, n := n, state := ARRAY_END, quote := qq, start := st,
                 endp := e } a =
      split_step_t.go { value := poke V a NUL, n := n, state := ARRAY_DONE, quote := qq,
                        start := st, endp := e } := by
  have c1 : (V.getD a NUL == CFGCLI_SYM_COMMENT) = true := by
    rw [h]
    decide
  unfold split_body
  simp only [c1, ↓reduceIte]

/-- C22: on a value whose first byte after white space is not the opening bracket, the
splitter returns 0 with `narr = 1` and leaves the value text as it is; and when that text
coerces to `x` at the element type, the array assignment returns 0 and stores the array
of the one element `x`, the value text being then as `cfgcli_get_value` rewrites it in
place (the closing quote, or the trailing white space, overwritten with NUL). -/
theorem non_bracketed_scalar (libc : libc_t) (ws : List Char) (c : Char) (rest : List Char)
    (hws : ∀ x ∈ ws, isspace x = true) (hs : isspace c = false) (hb : c ≠ '[')
    (hn : NUL ∉ c :: rest) (par : cfgcli_param_valid_t)
    (hv : par.value = some (ws ++ c :: rest)) (hl : par.vlen = (ws ++ c :: rest).length + 1) :
    cfgcli_parse_array par = (0, { par with narr := 1 }) ∧
    ∀ (edt : Int) (zero x : scalar_t), array_elem par.dtype = some (edt, zero) →
      cfgcli_get_value libc (ws ++ c :: rest) edt = (some x, 0) →
      cfgcli_get_array libc par =
        (0, { par with narr := 1, value := some (get_value_text (ws ++ c :: rest)),
                       slot := slot_t.array [x] }) := by
  have hsplit : cfgcli_parse_array par = (0, { par with narr := 1 }) := by
    have h1 := split_run (ws ++ c :: rest) [] ws (c :: rest) 0 START NUL none none rfl
      (by decide)
      (fun d hd a ha => sb_first_space _ 0 NUL none none a (by rw [ha]; exact hws d hd))
      (rest.length + 2) ((ws ++ c :: rest).length + 1) 0 ws.length rfl
      (by simp only [List.length_append, List.length_cons]; omega) (by simp)
    have h2 := split_one_stop ws c rest
      { value := ws ++ c :: rest, n := 0, state := START, quote := NUL, start := none,
        endp := none } 0 (some 1) rfl (by simp)
      (fun ha => sb_first_other _ 0 NUL none none _ (by rw [ha]; exact hs) (by rw [ha]; exact hb))
      (rest.length + 1) (rest.length + 2) ws.length rfl rfl
    unfold cfgcli_parse_array
    simp only [hv, hl, Nat.add_one_ne_zero, ↓reduceIte, h1, h2]
  refine ⟨hsplit, ?_⟩
  intro edt zero x hd hx
  have hnv : NUL ∉ ws ++ c :: rest := by
    intro hm
    rcases List.mem_append.1 hm with h | h
    · exact space_ne_nul (hws _ h) rfl
    · exact hn h
  have hc : cstr_at (ws ++ c :: rest) 0 = ws ++ c :: rest := cstr_at_end [] _ hnv
  have ht : store (ws ++ c :: rest) 0 (get_value_text (ws ++ c :: rest)) =
      get_value_text (ws ++ c :: rest) := by
    have := store_at [] (ws ++ c :: rest) (get_value_text (ws ++ c :: rest)) []
      (get_value_text_length _)
    simpa using this
  rw [get_array_unfold, hsplit]
  simp only [ne_eq, not_true_eq_false, ↓reduceIte, hd, hv, Option.getD_some, get_array_vals,
    get_array_loop, hc, hx, List.replicate, Option.map_some', ht]
  split <;> rfl

/-- The value `12 ` (with a trailing blank) for an array of integers: one segment, and the
array of the one integer 12; the assignment leaves NUL in place of the trailing blank. -/
theorem non_bracketed_scalar_witness :
    cfgcli_parse_array { ex_open_quote with value := some "12 ".toList, vlen := 4 } =
      (0, { ex_open_quote with value := some "12 ".toList, vlen := 4, narr := 1 }) ∧
    cfgcli_get_array ex_libc { ex_open_quote with value := some "12 ".toList, vlen := 4 } =
      (0, { ex_open_quote with value := some "12\x00".toList, vlen := 4, narr := 1,
                               slot := slot_t.array [scalar_t.int 12] }) :=
  have h := non_bracketed_scalar ex_libc [] '1' ['2', ' '] (by simp) (by decide) (by decide)
    (by decide) { ex_open_quote with value := some "12 ".toList, vlen := 4 } rfl rfl
  ⟨h.1, h.2 CFGCLI_DTYPE_INT (scalar_t.int 0) _ (by decide) (by decide)⟩

/-! ## Bracketed values that the splitter or the coercion rejects -/

/-- An early return of the loop of the splitter that sets no count. -/
theorem parse_array_of_stop (par : cfgcli_param_valid_t) (v : List Char) (code : Int)
    (hv : par.value = some v) (hl : par.vlen = v.length + 1)
    (h : parse_array_loop (v.length + 1)
      { value := v, n := 0, state := START, quote := NUL, start := none, endp := none } 0 =
      split_step_t.stop code none) :
    cfgcli_parse_array par = (code, { par with narr := 0 }) := by
  unfold cfgcli_parse_array
  simp only [hv, hl, Nat.add_one_ne_zero, ↓reduceIte, h]

/-- The array assignment returns the code of a splitter that fails. -/
theorem get_array_of_stop (libc : libc_t) (par p1 : cfgcli_param_valid_t) (code : Int)
    (hc : code ≠ 0) (h : cfgcli_parse_array par = (code, p1)) :
    cfgcli_get_array libc par = (code, p1) := by
  rw [get_array_unfold]
  rw [h]
  simp only [ne_eq, hc, not_false_eq_true, ↓reduceIte]

/-- The splitter where an element is expected and a comma, a closing bracket or a
comment sign stands. -/
theorem parse_array_empty_elem (init : List (List Char)) (hs : ∀ s ∈ init, ∃ e, elem_seg s e)
    (ws : List Char) (hws : ∀ x ∈ ws, isspace x = true) (c : Char) (rest : List Char)
    (hc : c = ',' ∨ c = ']' ∨ c = '#') (par : cfgcli_param_valid_t)
    (hv : par.value = some ('[' :: (seg_run ',' init ++ (ws ++ c :: rest))))
    (hl : par.vlen = ('[' :: (seg_run ',' init ++ (ws ++ c :: rest))).length + 1) :
    cfgcli_parse_array par = (CFGCLI_ERR_VALUE, { par with narr := 0 }) := by
  apply parse_array_of_stop par _ _ hv hl
  obtain ⟨q, h1⟩ := split_open init hs (ws ++ c :: rest) (ws.length + rest.length + 2)
  have e0 : ('[' :: (seg_run ',' init ++ (ws ++ c :: rest))).length + 1 =
      (ws.length + rest.length + 2) + (seg_run ',' init).length + 1 := by
    simp only [List.length_cons, List.length_append]
    omega
  rw [e0, h1]
  have hA : ('[' :: seg_run NUL init).length = (seg_run ',' init).length + 1 := by
    rw [List.length_cons, seg_run_length ',' NUL]
  rw [split_run ('[' :: (seg_run NUL init ++ (ws ++ c :: rest))) ('[' :: seg_run NUL init) ws
    (c :: rest) init.length ARRAY_START q (some 0) none (by simp) (by decide)
    (fun d hd a ha => sb_start_space _ _ q _ _ a (by rw [ha]; exact hws d hd))
    (rest.length + 2) _ _ ((seg_run ',' init).length + 1 + ws.length) hA.symm (by omega) rfl]
  exact split_one_stop ('[' :: seg_run NUL init ++ ws) c rest _ _ _ (by simp) (by simp)
    (fun ha => sb_start_bad _ _ q _ _ _ (by rw [ha]; exact hc))
    (rest.length + 1) _ _ (by simp only [List.length_append, hA]) rfl

/-- The splitter on a comment sign that follows an element. -/
theorem parse_array_comment (init : List (List Char)) (hs : ∀ s ∈ init, ∃ e, elem_seg s e)
    (seg e rest : List Char) (he : elem_seg seg e) (par : cfgcli_param_valid_t)
    (hv : par.value = some ('[' :: (seg_run ',' init ++ (seg ++ '#' :: rest))))
    (hl : par.vlen = ('[' :: (seg_run ',' init ++ (seg ++ '#' :: rest))).length + 1) :
    cfgcli_parse_array par = (CFGCLI_ERR_VALUE, { par with narr := 0 }) := by
  apply parse_array_of_stop par _ _ hv hl
  obtain ⟨q, h1⟩ := split_open init hs (seg ++ '#' :: rest) (seg.length + rest.length + 2)
  have e0 : ('[' :: (seg_run ',' init ++ (seg ++ '#' :: rest))).length + 1 =
      (seg.length + rest.length + 2) + (seg_run ',' init).length + 1 := by
    simp only [List.length_cons, List.length_append]
    omega
  rw [e0, h1]
  have hA : ('[' :: seg_run NUL init).length = (seg_run ',' init).length + 1 := by
    rw [List.length_cons, seg_run_length ',' NUL]
  obtain ⟨q2, S, hS, h2⟩ := split_seg seg e he ('[' :: seg_run NUL init) ('#' :: rest)
    (rest.length + 2) init.length q (some 0) none
  rw [hA] at h2
  rw [show seg.length + rest.length + 2 = rest.length + 2 + seg.length by omega]
  have hc : '[' :: (seg_run NUL init ++ (seg ++ '#' :: rest)) =
      '[' :: seg_run NUL init ++ (seg ++ '#' :: rest) := rfl
  rw [hc, h2]
  refine split_one_stop ('[' :: seg_run NUL init ++ seg) '#' rest _ _ _ (by simp) ?_ ?_
    (rest.length + 1) _ _ (by simp only [List.length_append, hA]) rfl
  · rcases hS with h | h <;> simp [h]
  · intro ha
    rcases hS with h | h
    · subst h
      exact sb_value_bad _ _ q2 _ _ _ (Or.inl ha)
    · subst h
      exact sb_qend_bad _ _ q2 _ _ _ (by rw [ha]; decide) (by rw [ha]; decide)
        (by rw [ha]; decide)

/-- The splitter on a last element that opens a quote which is never closed: it returns
0 and counts the element. -/
theorem parse_array_open_quote (init : List (List Char))
    (hs : ∀ s ∈ init, ∃ e, elem_seg s e) (ws : List Char) (hws : ∀ x ∈ ws, isspace x = true)
    (q : Char) (inner : List Char) (hq : q = '"' ∨ q = '\'') (hqi : q ∉ inner)
    (par : cfgcli_param_valid_t)
    (hv : par.value = some ('[' :: (seg_run ',' init ++ (ws ++ q :: inner))))
    (hl : par.vlen = ('[' :: (seg_run ',' init ++ (ws ++ q :: inner))).length + 1) :
    cfgcli_parse_array par =
      (0, { par with narr := init.length + 1,
                     value := some (seg_run NUL init ++ (ws ++ q :: inner)) }) := by
  obtain ⟨q1, h1⟩ := split_open init hs (ws ++ q :: inner) (ws.length + inner.length + 2)
  have e0 : ('[' :: (seg_run ',' init ++ (ws ++ q :: inner))).length + 1 =
      (ws.length + inner.length + 2) + (seg_run ',' init).length + 1 := by
    simp only [List.length_cons, List.length_append]
    omega
  have hA : ('[' :: seg_run NUL init).length = (seg_run ',' init).length + 1 := by
    rw [List.length_cons, seg_run_length ',' NUL]
  have hqn : q ≠ NUL := by
    rcases hq with h | h <;> rw [h] <;> decide
  have h2 := split_run ('[' :: (seg_run NUL init ++ (ws ++ q :: inner)))
    ('[' :: seg_run NUL init) ws (q :: inner) init.length ARRAY_START q1 (some 0) none
    (by simp) (by decide)
    (fun d hd a ha => sb_start_space _ _ q1 _ _ a (by rw [ha]; exact hws d hd))
    (inner.length + 2) (ws.length + inner.length + 2) _
    ((seg_run ',' init).length + 1 + ws.length) hA.symm (by omega) rfl
  have h3 := split_one ('[' :: seg_run NUL init ++ ws) q inner
    { value := '[' :: (seg_run NUL init ++ (ws ++ q :: inner)), n := init.length,
      state := ARRAY_START, quote := q1, start := some 0, endp := none }
    { value := '[' :: (seg_run NUL init ++ (ws ++ q :: inner)), n := init.length,
      state := ARRAY_QUOTE, quote := q, start := some 0, endp := none }
    (by simp) (by simp)
    (fun ha => by
      have := sb_start_quote ('[' :: (seg_run NUL init ++ (ws ++ q :: inner))) init.length q1
        (some 0) none ('[' :: seg_run NUL init ++ ws).length (by rw [ha]; exact hq)
      rw [ha] at this
      exact this)
    (inner.length + 1) (inner.length + 2) ((seg_run ',' init).length + 1 + ws.length)
    (by simp only [List.length_append, hA]) rfl
  have h4 := split_run ('[' :: (seg_run NUL init ++ (ws ++ q :: inner)))
    ('[' :: seg_run NUL init ++ ws ++ [q]) inner [] init.length ARRAY_QUOTE q (some 0) none
    (by simp) (by decide)
    (fun d hd a ha => sb_quote_in _ _ q _ _ a (by
      rw [ha]
      intro e
      exact hqi (e ▸ hd)))
    1 (inner.length + 1) ((seg_run ',' init).length + 1 + ws.length + 1)
    ((seg_run ',' init).length + 1 + ws.length + 1 + inner.length)
    (by simp only [List.length_append, hA, List.length_singleton]) (by omega) rfl
  have h5 := split_go 0
    { value := '[' :: (seg_run NUL init ++ (ws ++ q :: inner)), n := init.length,
      state := ARRAY_QUOTE, quote := q, start := some 0, endp := none }
    { value := '[' :: (seg_run NUL init ++ (ws ++ q :: inner)), n := init.length,
      state := ARRAY_QUOTE, quote := q, start := some 0, endp := none }
    ((seg_run ',' init).length + 1 + ws.length + 1 + inner.length) (by simp)
    (sb_quote_in _ _ q _ _ _ (by
      rw [List.getD_eq_default _ _ (by
        simp only [List.length_cons, List.length_append, seg_run_length NUL ',']
        omega)]
      exact fun e => hqn e.symm))
  unfold cfgcli_parse_array
  simp only [hv, hl]
  rw [e0, h1, h2, h3, h4, h5]
  simp only [Nat.add_one_ne_zero, ↓reduceIte, parse_array_loop, Nat.zero_add, List.drop_succ_cons,
    List.drop_zero]

/-- The array assignment on a last element that opens a quote which is never closed, after
elements that coerce: the code for an invalid value. -/
theorem get_array_open_quote (libc : libc_t) (init : List (List Char))
    (hs : ∀ s ∈ init, ∃ e, elem_seg s e) (ws : List Char) (hws : ∀ x ∈ ws, isspace x = true)
    (q : Char) (inner : List Char) (hq : q = '"' ∨ q = '\'') (hqi : q ∉ inner)
    (hni : NUL ∉ inner) (par : cfgcli_param_valid_t)
    (hv : par.value = some ('[' :: (seg_run ',' init ++ (ws ++ q :: inner))))
    (hl : par.vlen = ('[' :: (seg_run ',' init ++ (ws ++ q :: inner))).length + 1)
    (edt : Int) (zero : scalar_t) (hd : array_elem par.dtype = some (edt, zero))
    (hok : ∀ s ∈ init, (cfgcli_get_value libc s edt).2 = 0) :
    (cfgcli_get_array libc par).1 = CFGCLI_ERR_VALUE := by
  have hqn : q ≠ NUL := by
    rcases hq with h | h <;> rw [h] <;> decide
  have hnt : NUL ∉ ws ++ q :: inner := by
    intro hm
    rcases List.mem_append.1 hm with h | h
    · exact space_ne_nul (hws _ h) rfl
    · rcases List.mem_cons.1 h with h | h
      · exact hqn h.symm
      · exact hni h
  have hcs : cstr_at (ws ++ q :: inner) 0 = ws ++ q :: inner := cstr_at_end [] _ hnt
  have hval : (cfgcli_get_value libc (cstr_at (ws ++ q :: inner) 0) edt).2 =
      CFGCLI_ERR_VALUE := by
    rw [hcs, get_value_quoted libc ws inner q edt hws hq, takeWhile_no_quote inner q hqi]
    split
    · rfl
    · simp
  have g := get_array_vals_fail libc edt init (ws ++ q :: inner) CFGCLI_ERR_VALUE (by decide)
    hval hok (fun t ht => by
      obtain ⟨e, he⟩ := hs t ht
      exact (elem_seg_no_nul t e he).1) [] 0 0 (List.replicate (init.length + 1) zero)
  rw [get_array_unfold]
  rw [parse_array_open_quote init hs ws hws q inner hq hqi par hv hl]
  simp only [ne_eq, not_true_eq_false, ↓reduceIte, hd, Option.getD_some]
  simp only [List.nil_append, List.length_nil, Nat.zero_add] at g
  exact g

/-! ## An unclosed quote after an element that does not coerce -/

theorem seg_run_append (d : Char) (l1 l2 : List (List Char)) :
    seg_run d (l1 ++ l2) = seg_run d l1 ++ seg_run d l2 := by
  induction l1 with
  | nil => rfl
  | cons s r ih => simp only [List.cons_append, seg_run, List.append_eq, ih, List.append_assoc]

/-- Either every string of a list coerces, or there is a first one that does not. -/
theorem first_failure (libc : libc_t) (edt : Int) (l : List (List Char)) :
    (∀ s ∈ l, (cfgcli_get_value libc s edt).2 = 0) ∨
    ∃ l1 s l2, l = l1 ++ s :: l2 ∧ (∀ t ∈ l1, (cfgcli_get_value libc t edt).2 = 0) ∧
      (cfgcli_get_value libc s edt).2 ≠ 0 := by
  induction l with
  | nil => exact Or.inl (fun s hs => absurd hs (List.not_mem_nil s))
  | cons a r ih =>
    by_cases ha : (cfgcli_get_value libc a edt).2 = 0
    · rcases ih with h | ⟨l1, s, l2, e, h1, h2⟩
      · left
        intro s hs
        rcases List.mem_cons.1 hs with rfl | h3
        · exact ha
        · exact h s h3
      · right
        refine ⟨a :: l1, s, l2, by rw [e]; rfl, ?_, h2⟩
        intro t ht
        rcases List.mem_cons.1 ht with rfl | h3
        · exact ha
        · exact h1 t h3
    · exact Or.inr ⟨[], a, r, rfl, fun t ht => absurd ht (List.not_mem_nil t), ha⟩

/-- The array assignment on a last element that opens a quote which is never closed
fails, whatever the elements before it are. -/
theorem get_array_open_quote_fails (libc : libc_t) (init : List (List Char))
    (hs : ∀ s ∈ init, ∃ e, elem_seg s e) (ws : List Char) (hws : ∀ x ∈ ws, isspace x = true)
    (q : Char) (inner : List Char) (hq : q = '"' ∨ q = '\'') (hqi : q ∉ inner)
    (hni : NUL ∉ inner) (par : cfgcli_param_valid_t)
    (hv : par.value = some ('[' :: (seg_run ',' init ++ (ws ++ q :: inner))))
    (hl : par.vlen = ('[' :: (seg_run ',' init ++ (ws ++ q :: inner))).length + 1) :
    (cfgcli_get_array libc par).1 ≠ 0 := by
  have hp := parse_array_open_quote init hs ws hws q inner hq hqi par hv hl
  cases hd : array_elem par.dtype with
  | none =>
    rw [get_array_unfold]
    rw [hp]
    simp only [ne_eq, not_true_eq_false, ↓reduceIte, hd]
    decide
  | some ez =>
    obtain ⟨edt, zero⟩ := ez
    rcases first_failure libc edt init with h | ⟨l1, s, l2, e, h1, h2⟩
    · rw [get_array_open_quote libc init hs ws hws q inner hq hqi hni par hv hl edt zero hd h]
      decide
    · have hsn : NUL ∉ s := by
        obtain ⟨e1, he1⟩ := hs s (by rw [e]; simp)
        exact (elem_seg_no_nul s e1 he1).1
      have g := fun arr => get_array_vals_fail libc edt l1
        (s ++ NUL :: (seg_run NUL l2 ++ (ws ++ q :: inner))) _ h2
        (by rw [cstr_at_zero s _ hsn]) h1
        (fun t ht => by
          obtain ⟨e1, he1⟩ := hs t (by rw [e]; exact List.mem_append_left _ ht)
          exact (elem_seg_no_nul t e1 he1).1) [] (l2.length + 1) 0 arr
      have hb : seg_run NUL init ++ (ws ++ q :: inner) =
          [] ++ (seg_run NUL l1 ++ (s ++ NUL :: (seg_run NUL l2 ++ (ws ++ q :: inner)))) := by
        rw [e, seg_run_append]
        simp only [seg_run, List.append_assoc, List.cons_append, List.nil_append]
      have hn : init.length + 1 = l2.length + 1 + l1.length + 1 := by
        rw [e]
        simp only [List.length_append, List.length_cons]
        omega
      rw [get_array_unfold]
      rw [hp]
      simp only [ne_eq, not_true_eq_false, ↓reduceIte, hd, Option.getD_some]
      rw [hb, hn]
      rw [List.length_nil] at g
      rw [g]
      exact h2

/-- C23, counterexample: the value `[x, "abc` of an array of integers has an element that
opens a quote which is never closed, and the array assignment returns the code for a
parsing failure (-6), that of the element `x`, not the code for an invalid value (-5). -/
theorem open_quote_other_code :
    ex_open_quote.value = some "[x, \"abc".toList ∧
    ex_open_quote.vlen = "[x, \"abc".toList.length + 1 ∧
    (cfgcli_get_array ex_libc ex_open_quote).1 = -6 := by
  refine ⟨?_, ?_, ?_⟩ <;> decide

/-- C23, amended: for a bracketed value that consists of well-formed elements, each
followed by a comma, and then (1) after white space a comma, a closing bracket or a
comment sign where an element is expected (an empty element, as in `[]`, `[,1]`,
`[1,,2]`, `[1,]`), or (2) an element followed by a comment sign, the splitter and so the
array assignment fail with the code for an invalid value (-5); and (3) when after white
space a quote opens that is never closed, the splitter returns 0, the array assignment
fails, and it fails with the code for an invalid value when every element before
coerces. -/
theorem array_element_errors (libc : libc_t) (init : List (List Char))
    (hs : ∀ s ∈ init, ∃ e, elem_seg s e) (tail : List Char) (par : cfgcli_param_valid_t)
    (hv : par.value = some ('[' :: (seg_run ',' init ++ tail)))
    (hl : par.vlen = ('[' :: (seg_run ',' init ++ tail)).length + 1) :
    ((∃ ws c rest, (∀ x ∈ ws, isspace x = true) ∧ (c = ',' ∨ c = ']' ∨ c = '#') ∧
        tail = ws ++ c :: rest) →
      (cfgcli_parse_array par).1 = CFGCLI_ERR_VALUE ∧
      (cfgcli_get_array libc par).1 = CFGCLI_ERR_VALUE) ∧
    ((∃ seg e rest, elem_seg seg e ∧ tail = seg ++ '#' :: rest) →
      (cfgcli_parse_array par).1 = CFGCLI_ERR_VALUE ∧
      (cfgcli_get_array libc par).1 = CFGCLI_ERR_VALUE) ∧
    ((∃ ws q inner, (∀ x ∈ ws, isspace x = true) ∧ (q = '"' ∨ q = '\'') ∧ q ∉ inner ∧
        NUL ∉ inner ∧ tail = ws ++ q :: inner) →
      (cfgcli_parse_array par).1 = 0 ∧
      (cfgcli_get_array libc par).1 ≠ 0 ∧
      ∀ (edt : Int) (zero : scalar_t), array_elem par.dtype = some (edt, zero) →
        (∀ s ∈ init, (cfgcli_get_value libc s edt).2 = 0) →
        (cfgcli_get_array libc par).1 = CFGCLI_ERR_VALUE) ∧
    CFGCLI_ERR_VALUE = -5 := by
  refine ⟨?_, ?_, ?_, rfl⟩
  · rintro ⟨ws, c, rest, hws, hc, rfl⟩
    have h := parse_array_empty_elem init hs ws hws c rest hc par hv hl
    exact ⟨by rw [h], by rw [get_array_of_stop libc par _ _ (by decide) h]⟩
  · rintro ⟨seg, e, rest, he, rfl⟩
    have h := parse_array_comment init hs seg e rest he par hv hl
    exact ⟨by rw [h], by rw [get_array_of_stop libc par _ _ (by decide) h]⟩
  · rintro ⟨ws, q, inner, hws, hq, hqi, hni, rfl⟩
    refine ⟨by rw [parse_array_open_quote init hs ws hws q inner hq hqi par hv hl], ?_, ?_⟩
    · exact get_array_open_quote_fails libc init hs ws hws q inner hq hqi hni par hv hl
    · intro edt zero hd hok
      exact get_array_open_quote libc init hs ws hws q inner hq hqi hni par hv hl edt zero
        hd hok

/-- The value `[x, "abc` of an array of integers: the splitter returns 0 and the array
assignment fails. -/
theorem array_element_errors_witness :
    (cfgcli_parse_array ex_open_quote).1 = 0 ∧ (cfgcli_get_array ex_libc ex_open_quote).1 ≠ 0 :=
  have h := (array_element_errors ex_libc ["x".toList] (fun s hs =>
      ⟨s, [], [], by simp, by simp, by simp, Or.inl ⟨by
        rw [List.mem_singleton.1 hs]
        decide, rfl⟩⟩)
    " \"abc".toList ex_open_quote (by decide) (by decide)).2.2.1
      ⟨[' '], '"', "abc".toList, by decide, Or.inl rfl, by decide, by decide, by decide⟩
  ⟨h.1, h.2.1⟩

/-! ## Line continuation: the segments of the value of a broken entry -/

/-- An element behind white space is a segment that holds this element. -/
theorem array_token_seg (t ws : List Char) (h : array_token t = true)
    (hws : ∀ c ∈ ws, isspace c = true) : elem_seg (ws ++ t) t := by
  refine ⟨ws, [], hws, by simp, by simp, ?_⟩
  rcases array_token_cases t h with hb | hq
  · left
    refine ⟨?_, rfl⟩
    cases t with
    | nil => simp [bare_token] at hb
    | cons c cs =>
      obtain ⟨hc, hcs⟩ := bare_token_cons c cs hb
      obtain ⟨h1, h2, h3, h4, h5, h6, _⟩ := bare_head_facts hc
      simp only [plain_elem, Bool.and_eq_true, bne_iff_ne, ne_eq, List.all_eq_true]
      exact ⟨⟨⟨⟨⟨⟨h1, h2⟩, h3⟩, h4⟩, h5⟩, h6⟩, hcs⟩
  · right
    obtain ⟨q, inner, hq1, hq2, hq3, _, e⟩ := quoted_token_cases t hq
    exact ⟨q, inner, hq1, hq2, hq3, e⟩

theorem join_by_append (d : Char) (X Y : List (List Char)) (hX : X ≠ []) (hY : Y ≠ []) :
    join_by d (X ++ Y) = join_by d X ++ d :: join_by d Y := by
  induction X with
  | nil => exact absurd rfl hX
  | cons x xs ih =>
    cases xs with
    | nil =>
      cases Y with
      | nil => exact absurd rfl hY
      | cons y ys => rfl
    | cons x2 xs2 =>
      have hj : join_by d (x :: x2 :: xs2 ++ Y) = x ++ d :: join_by d (x2 :: xs2 ++ Y) := rfl
      have hj2 : join_by d (x :: x2 :: xs2) = x ++ d :: join_by d (x2 :: xs2) := rfl
      rw [hj, hj2, ih (by simp)]
      simp

/-- The elements `t1, ..., tn` as they are written, behind the white space `w`, are the
segments `w t1`, ` t2`, ..., ` tn` with commas between them. -/
theorem join_elems_segs (r : List (List Char)) :
    ∀ (t w : List Char),
      w ++ join_elems (t :: r) = join_by ',' ((w ++ t) :: r.map (fun x => ' ' :: x)) := by
  induction r with
  | nil =>
    intro t w
    rfl
  | cons u r ih =>
    intro t w
    have hj : join_elems (t :: u :: r) = t ++ ',' :: ' ' :: join_elems (u :: r) := rfl
    have hj2 : join_by ',' ((w ++ t) :: (u :: r).map (fun x => ' ' :: x)) =
        (w ++ t) ++ ',' :: join_by ',' ((' ' :: u) :: r.map (fun x => ' ' :: x)) := rfl
    have := ih u [' ']
    simp only [List.singleton_append] at this
    rw [hj, hj2, ← this]
    simp

/-- The segments of the elements `t1, ..., tn` written behind the white space `w`. -/
theorem segs_elem (r : List (List Char)) (t w : List Char)
    (hb : ∀ x ∈ t :: r, array_token x = true) (hw : ∀ c ∈ w, isspace c = true) :
    ∀ s ∈ (w ++ t) :: r.map (fun x => ' ' :: x), ∃ e, elem_seg s e := by
  intro s hs
  rcases List.mem_cons.1 hs with rfl | hs
  · exact ⟨t, array_token_seg t w (hb t (List.mem_cons_self _ _)) hw⟩
  · obtain ⟨x, hx, rfl⟩ := List.mem_map.1 hs
    exact ⟨x, array_token_seg x [' '] (hb x (List.mem_cons_of_mem _ hx)) (by decide)⟩

/-- The splitter on `[s1,...,sn]` where each `si` is an element with white space around
it. -/
theorem parse_array_join (segs : List (List Char)) (hne : segs ≠ [])
    (hall : ∀ s ∈ segs, ∃ e, elem_seg s e) (par : cfgcli_param_valid_t)
    (hv : par.value = some ('[' :: (join_by ',' segs ++ [']'])))
    (hl : par.vlen = (join_by ',' segs).length + 3) :
    cfgcli_parse_array par =
      (0, { par with narr := segs.length, value := some (seg_run NUL segs) }) := by
  rcases List.eq_nil_or_concat segs with h0 | ⟨init, last, hseg⟩
  · exact absurd h0 hne
  · rw [List.concat_eq_append] at hseg
    subst hseg
    rw [join_by_concat] at hv hl
    have := parse_array_segs init last hall par
      (by rw [hv, List.append_assoc]) (by rw [hl, List.length_append])
    rw [this, seg_run_concat, List.length_append, List.length_singleton]

/-- The loop of `cfgcli_get_array` on two split texts whose segments are coerced alike. -/
theorem get_array_vals_rel (libc : libc_t) (edt : Int) (segs segs1 : List (List Char))
    (h : List.Forall₂ (fun s s1 => NUL ∉ s ∧ NUL ∉ s1 ∧
      cfgcli_get_value libc s edt = cfgcli_get_value libc s1 edt) segs segs1) :
    ∀ (pre pre1 rest rest1 : List Char) (i : Nat) (arr : List scalar_t),
      get_array_vals libc edt (pre ++ (seg_run NUL segs ++ rest)) segs.length pre.length i arr =
      get_array_vals libc edt (pre1 ++ (seg_run NUL segs1 ++ rest1)) segs1.length pre1.length
        i arr := by
  induction h with
  | nil =>
    intro pre pre1 rest rest1 i arr
    rfl
  | @cons s s1 r r1 h1 _ ih =>
    intro pre pre1 rest rest1 i arr
    rw [List.length_cons, List.length_cons, get_array_vals, get_array_vals]
    simp only [seg_run_no_nul_split s r pre rest h1.1,
      seg_run_no_nul_split s1 r1 pre1 rest1 h1.2.1, h1.2.2]
    split
    · rfl
    · have e1 : pre ++ (seg_run NUL (s :: r) ++ rest) =
          (pre ++ s ++ [NUL]) ++ (seg_run NUL r ++ rest) := by simp [seg_run]
      have e2 : pre1 ++ (seg_run NUL (s1 :: r1) ++ rest1) =
          (pre1 ++ s1 ++ [NUL]) ++ (seg_run NUL r1 ++ rest1) := by simp [seg_run]
      have l1 : pre.length + (s.length + 1) = (pre ++ s ++ [NUL]).length := by
        simp only [List.length_append, List.length_singleton]
        omega
      have l2 : pre1.length + (s1.length + 1) = (pre1 ++ s1 ++ [NUL]).length := by
        simp only [List.length_append, List.length_singleton]
        omega
      rw [e1, e2, l1, l2]
      exact ih _ _ _ _ _ _

theorem seg_pairs_rel (libc : libc_t) (edt : Int) (segs segs1 : List (List Char))
    (h : List.Forall₂ (fun s s1 => ∃ e, elem_seg s e ∧ elem_seg s1 e) segs segs1) :
    List.Forall₂ (fun s s1 => NUL ∉ s ∧ NUL ∉ s1 ∧
      cfgcli_get_value libc s edt = cfgcli_get_value libc s1 edt) segs segs1 := by
  induction h with
  | nil => exact List.Forall₂.nil
  | cons h1 _ ih =>
    obtain ⟨e, he, he1⟩ := h1
    exact List.Forall₂.cons ⟨(elem_seg_no_nul _ e he).1, (elem_seg_no_nul _ e he1).1,
      (get_value_seg libc _ e edt he).trans (get_value_seg libc _ e edt he1).symm⟩ ih

theorem seg_pairs_left (segs segs1 : List (List Char))
    (h : List.Forall₂ (fun s s1 => ∃ e, elem_seg s e ∧ elem_seg s1 e) segs segs1) :
    (∀ s ∈ segs, ∃ e, elem_seg s e) ∧ (∀ s ∈ segs1, ∃ e, elem_seg s e) := by
  induction h with
  | nil => exact ⟨fun s hs => absurd hs (List.not_mem_nil _),
      fun s hs => absurd hs (List.not_mem_nil _)⟩
  | cons h1 _ ih =>
    obtain ⟨e, he, he1⟩ := h1
    constructor
    · intro s hs
      rcases List.mem_cons.1 hs with rfl | hs
      · exact ⟨e, he⟩
      · exact ih.1 s hs
    · intro s hs
      rcases List.mem_cons.1 hs with rfl | hs
      · exact ⟨e, he1⟩
      · exact ih.2 s hs

/-- Function `cfgcli_get_array` on two values `[s1,...,sn]` whose segments hold the same
elements with different white space around them: the same code, and the same entry but for
the value text. -/
theorem get_array_segs_congr (libc : libc_t) (par : cfgcli_param_valid_t)
    (segs segs1 : List (List Char)) (hne : segs ≠ [])
    (h : List.Forall₂ (fun s s1 => ∃ e, elem_seg s e ∧ elem_seg s1 e) segs segs1) :
    ∃ V, cfgcli_get_array libc
      { par with value := some ('[' :: (join_by ',' segs1 ++ [']'])),
                 vlen := ('[' :: (join_by ',' segs1 ++ [']'])).length + 1 } =
    ((cfgcli_get_array libc
        { par with value := some ('[' :: (join_by ',' segs ++ [']'])),
                   vlen := ('[' :: (join_by ',' segs ++ [']'])).length + 1 }).1,
     { (cfgcli_get_array libc
        { par with value := some ('[' :: (join_by ',' segs ++ [']'])),
                   vlen := ('[' :: (join_by ',' segs ++ [']'])).length + 1 }).2 with
       value := V,
       vlen := ('[' :: (join_by ',' segs1 ++ [']'])).length + 1 }) := by
  have hlen := List.Forall₂.length_eq h
  have hne1 : segs1 ≠ [] := by
    intro e
    rw [e] at hlen
    exact hne (List.length_eq_zero.1 hlen)
  obtain ⟨ha, ha1⟩ := seg_pairs_left segs segs1 h
  have p := parse_array_join segs hne ha
    { par with value := some ('[' :: (join_by ',' segs ++ [']'])),
               vlen := ('[' :: (join_by ',' segs ++ [']'])).length + 1 } rfl
    (by simp only [List.length_cons, List.length_append, List.length_nil])
  have p1 := parse_array_join segs1 hne1 ha1
    { par with value := some ('[' :: (join_by ',' segs1 ++ [']'])),
               vlen := ('[' :: (join_by ',' segs1 ++ [']'])).length + 1 } rfl
    (by simp only [List.length_cons, List.length_append, List.length_nil])
  rw [get_array_unfold, get_array_unfold, p, p1]
  simp only [ne_eq, not_true_eq_false, ↓reduceIte, Option.getD_some, ← hlen]
  cases array_elem par.dtype with
  | none => exact ⟨_, rfl⟩
  | some ez =>
    obtain ⟨edt, zero⟩ := ez
    simp only
    have e := get_array_vals_rel libc edt segs segs1 (seg_pairs_rel libc edt segs segs1 h)
      [] [] [] [] 0 (List.replicate segs.length zero)
    simp only [List.nil_append, List.append_nil, List.length_nil, ← hlen] at e
    rw [e]
    exact ⟨_, rfl⟩

/-- The value of an entry on one line and the value of the entry broken behind a separator:
their segments hold the same elements. -/
theorem broken_value_segs (ts1 ts2 : List (List Char)) (h1 : ts1 ≠ []) (h2 : ts2 ≠ [])
    (hb1 : ∀ t ∈ ts1, array_token t = true) (hb2 : ∀ t ∈ ts2, array_token t = true) :
    ∃ segs segs1, segs ≠ [] ∧
      List.Forall₂ (fun s s1 => ∃ e, elem_seg s e ∧ elem_seg s1 e) segs segs1 ∧
      array_text (ts1 ++ ts2) = '[' :: (join_by ',' segs ++ [']']) ∧
      broken_value ts1 ts2 = '[' :: (join_by ',' segs1 ++ [']']) := by
  cases ts1 with
  | nil => exact absurd rfl h1
  | cons a A =>
    cases ts2 with
    | nil => exact absurd rfl h2
    | cons b B =>
      have same : ∀ (l : List (List Char)), (∀ s ∈ l, ∃ e, elem_seg s e) →
          List.Forall₂ (fun s s1 => ∃ e, elem_seg s e ∧ elem_seg s1 e) l l := by
        intro l
        induction l with
        | nil =>
          intro _
          exact List.Forall₂.nil
        | cons x xs ih =>
          intro hl
          obtain ⟨e, he⟩ := hl x (List.mem_cons_self _ _)
          exact List.Forall₂.cons ⟨e, he, he⟩ (ih (fun s hs => hl s (List.mem_cons_of_mem _ hs)))
      have sA := segs_elem A a [] hb1 (by simp)
      have sB := fun s hs => segs_elem B b [' '] hb2 (by decide) s (List.mem_cons_of_mem _ hs)
      have hb := hb2 b (List.mem_cons_self _ _)
      refine ⟨(([] ++ a) :: A.map (fun x => ' ' :: x)) ++
          ((([' '] ++ b) :: B.map (fun x => ' ' :: x))),
        (([] ++ a) :: A.map (fun x => ' ' :: x)) ++
          ((([' ', ' ', ' '] ++ b) :: B.map (fun x => ' ' :: x))), by simp, ?_, ?_, ?_⟩
      · apply List.rel_append (same _ sA)
        exact List.Forall₂.cons
          ⟨b, array_token_seg b [' '] hb (by decide),
            array_token_seg b [' ', ' ', ' '] hb (by decide)⟩
          (same _ sB)
      · rw [join_by_append _ _ _ (by simp) (by simp), ← join_elems_segs A a [],
          ← join_elems_segs B b [' '], array_text,
          join_elems_append (a :: A) (b :: B) (by simp) (by simp)]
        simp
      · rw [join_by_append _ _ _ (by simp) (by simp), ← join_elems_segs A a [],
          ← join_elems_segs B b [' ', ' ', ' '], broken_value]
        simp

/-- Function `cfgcli_get_array` on the value of a broken entry: the code and the entry that
it gives for the entry on one line, but for the value text. -/
theorem get_array_broken (libc : libc_t) (par : cfgcli_param_valid_t)
    (ts1 ts2 : List (List Char)) (h1 : ts1 ≠ []) (h2 : ts2 ≠ [])
    (hb1 : ∀ t ∈ ts1, array_token t = true) (hb2 : ∀ t ∈ ts2, array_token t = true) :
    ∃ V, cfgcli_get_array libc
      { par with value := some (broken_value ts1 ts2),
                 vlen := (broken_value ts1 ts2).length + 1 } =
    ((cfgcli_get_array libc
        { par with value := some (array_text (ts1 ++ ts2)),
                   vlen := (array_text (ts1 ++ ts2)).length + 1 }).1,
     { (cfgcli_get_array libc
        { par with value := some (array_text (ts1 ++ ts2)),
                   vlen := (array_text (ts1 ++ ts2)).length + 1 }).2 with
       value := V,
       vlen := (broken_value ts1 ts2).length + 1 }) := by
  obtain ⟨segs, segs1, hne, hrel, e1, e2⟩ := broken_value_segs ts1 ts2 h1 h2 hb1 hb2
  rw [e1, e2]
  exact get_array_segs_congr libc par segs segs1 hne hrel

/-- An array of elements as it is written holds neither NUL nor a line feed. -/
theorem array_text_clean (ts : List (List Char)) (hb : ∀ t ∈ ts, array_token t = true) :
    NUL ∉ array_text ts ∧ '\n' ∉ array_text ts := by
  constructor
  · intro hm
    simp only [array_text, List.mem_cons, List.mem_append, List.mem_singleton] at hm
    rcases hm with e | e | e
    · revert e
      decide
    · exact join_elems_no_nul _ (fun t ht => (array_token_clean t (hb t ht)).1) e
    · revert e
      decide
  · intro hm
    simp only [array_text, List.mem_cons, List.mem_append, List.mem_singleton] at hm
    rcases hm with e | e | e
    · revert e
      decide
    · exact join_elems_no_newline _ (fun t ht => (array_token_clean t (hb t ht)).2) e
    · revert e
      decide

/-- The call `cfgcli_get` on the value of a broken entry, for an array type, when the value
of the entry on one line is coerced with code 0: code 0 too, and the entry receives the same
count of elements and the same elements. -/
theorem get_broken_ok (libc : libc_t) (cfg : cfgcli_t) (par : cfgcli_param_valid_t)
    (ts1 ts2 : List (List Char)) (src : Int) (hc : CFGCLI_IS_ERROR cfg = false)
    (ha : CFGCLI_DTYPE_IS_ARRAY par.dtype = true) (h1 : ts1 ≠ []) (h2 : ts2 ≠ [])
    (hb1 : ∀ t ∈ ts1, array_token t = true) (hb2 : ∀ t ∈ ts2, array_token t = true)
    (hk : (coerce libc par.dtype (array_text (ts1 ++ ts2))).1 = 0) :
    ∃ N V V1,
      cfgcli_get libc cfg
        { par with value := some (array_text (ts1 ++ ts2)),
                   vlen := (array_text (ts1 ++ ts2)).length + 1 } src =
        (0, cfg, { par with narr := N, value := V,
                            vlen := (array_text (ts1 ++ ts2)).length + 1,
                            slot := (coerce libc par.dtype (array_text (ts1 ++ ts2))).2 }) ∧
      cfgcli_get libc cfg
        { par with value := some (broken_value ts1 ts2),
                   vlen := (broken_value ts1 ts2).length + 1 } src =
        (0, cfg, { par with narr := N, value := V1,
                            vlen := (broken_value ts1 ts2).length + 1,
                            slot := (coerce libc par.dtype (array_text (ts1 ++ ts2))).2 }) := by
  have hv1 : array_text (ts1 ++ ts2) ≠ [] := by simp [array_text]
  have hne : ts1 ++ ts2 ≠ [] := by
    intro h
    exact h1 (List.append_eq_nil.1 h).1
  have hb : ∀ t ∈ ts1 ++ ts2, array_token t = true := by
    intro t ht
    rcases List.mem_append.1 ht with e | e
    · exact hb1 t e
    · exact hb2 t e
  have hn1 : NUL ∉ array_text (ts1 ++ ts2) := (array_text_clean (ts1 ++ ts2) hb).1
  obtain ⟨N, V, hg⟩ := get_ok libc cfg par (array_text (ts1 ++ ts2)) src hc hv1 hn1 hk
  have c1 := get_array_case libc cfg
    { par with value := some (array_text (ts1 ++ ts2)),
               vlen := (array_text (ts1 ++ ts2)).length + 1 }
    (array_text (ts1 ++ ts2)) src hc rfl (head_not_nul _ hv1 hn1) ha
  have hz : (cfgcli_get_array libc
      { par with value := some (array_text (ts1 ++ ts2)),
                 vlen := (array_text (ts1 ++ ts2)).length + 1 }).1 = 0 := by
    rw [← c1.1, hg]
  have hr := c1.2 hz
  rw [hg] at hr
  have hpar := (Prod.mk.inj (Prod.mk.inj hr).2).2
  have hbv0 : (char_at (broken_value ts1 ts2) 0 == NUL) = false := by
    simp only [broken_value, char_at, List.getD_cons_zero]
    decide
  have c2 := get_array_case libc cfg
    { par with value := some (broken_value ts1 ts2),
               vlen := (broken_value ts1 ts2).length + 1 }
    (broken_value ts1 ts2) src hc rfl hbv0 ha
  obtain ⟨V1, gb⟩ := get_array_broken libc par ts1 ts2 h1 h2 hb1 hb2
  rw [hz, ← hpar] at gb
  refine ⟨N, V, V1, hg, ?_⟩
  rw [c2.2 (by rw [gb]), gb]

theorem broken_value_no_nul (ts1 ts2 : List (List Char))
    (hb1 : ∀ t ∈ ts1, array_token t = true) (hb2 : ∀ t ∈ ts2, array_token t = true) :
    NUL ∉ broken_value ts1 ts2 := by
  intro hm
  simp only [broken_value, List.mem_cons, List.mem_append, List.mem_singleton,
    List.not_mem_nil, or_false] at hm
  have n1 := join_elems_no_nul ts1 (fun t ht => (array_token_clean t (hb1 t ht)).1)
  have n2 := join_elems_no_nul ts2 (fun t ht => (array_token_clean t (hb2 t ht)).1)
  rcases hm with e | (e | e | e | e | e) | e | e
  · revert e
    decide
  · exact n1 e
  · revert e
    decide
  · revert e
    decide
  · revert e
    decide
  · revert e
    decide
  · exact n2 e
  · revert e
    decide

/-- Function `cfgcli_read_file` on a file that holds an entry broken over two lines, for a
parameter whose stored priority is lower, when `cfgcli_get` returns 0 for the joined value:
the entry that `cfgcli_get` leaves is stored with the source `prior`. -/
theorem read_broken_get (libc : libc_t) (cfg : cfgcli_t) (j : Nat) (name lopt : List Char)
    (ts1 ts2 : List (List Char)) (prior : Int) (p2 : cfgcli_param_valid_t)
    (hd : designates cfg j name lopt = true) (hp : 0 < prior) (h1 : ts1 ≠ []) (h2 : ts2 ≠ [])
    (hb1 : ∀ t ∈ ts1, array_token t = true) (hb2 : ∀ t ∈ ts2, array_token t = true)
    (hfit : (broken_text name ts1 ts2).length + 1 ≤ CFGCLI_STR_INIT_SIZE)
    (h : CFGCLI_SRC_VAL (cfg.params.getD j param_zero).src < prior)
    (hg : cfgcli_get libc cfg
      { cfg.params.getD j param_zero with
        value := some (broken_value ts1 ts2), vlen := (broken_value ts1 ts2).length + 1 }
      prior = (0, cfg, p2)) :
    cfgcli_read_file libc cfg (some "pass.conf".toList) (some (broken_text name ts1 ts2))
      prior =
      run_t.ret (0, { cfg with params := cfg.params.set j { p2 with src := prior } }) := by
  obtain ⟨d1, d2, d3, d4, d5, d6, d7, d8, d9, d10⟩ := designates_unpack cfg j name lopt hd
  have t1 := chunk_key name (broken_value ts1 ts2)
    ('\n' :: List.replicate (CFGCLI_STR_INIT_SIZE - ((broken_text name ts1 ts2).length + 1)) NUL)
    d4
  have t2 := chunk_value name (broken_value ts1 ts2)
    ('\n' :: List.replicate (CFGCLI_STR_INIT_SIZE - ((broken_text name ts1 ts2).length + 1)) NUL)
    (broken_value_no_nul ts1 ts2 hb1 hb2)
  apply read_file_broken libc cfg _ _ name ts1 ts2 prior d1 (by omega) (by decide) (by decide)
    hp d4 h1 hb1 h2 hb2 hfit
  unfold file_done
  simp only [t1, t2, d6, h, ↓reduceIte, hg, ne_eq, not_true_eq_false]

theorem entry_lexed_array (name : List Char) (ts : List (List Char))
    (hn : name_grammar name = true) (hts : ts ≠ []) (hb : ∀ t ∈ ts, array_token t = true) :
    entry_lexed name (array_text ts) = true := by
  simp only [entry_lexed, entry_line, decide_eq_true_eq]
  exact parse_line_elems name ts hn hts hb

/-- C5, counterexample (a break after an element): the entry `INT_ARR = [1, 2, 3]` read on
one line for the integer-array parameter `INT_ARR` gives the array `[1, 2, 3]`; broken
right after the element `1` by a backslash before the line break, its first line is lexed
as `ERROR`, not as `CONTINUE`, and the read leaves the parameter unset with two messages
`invalid configuration entry at line`. -/
theorem continuation_after_element :
    ((ret_cfg (cfgcli_read_file ex_libc ex_cfg (some "a.conf".toList)
        (some "INT_ARR = [1, 2, 3]\n".toList) 1)).params.getD 1 param_zero).slot =
      slot_t.array [scalar_t.int 1, scalar_t.int 2, scalar_t.int 3] ∧
    cfgcli_is_set (ret_cfg (cfgcli_read_file ex_libc ex_cfg (some "a.conf".toList)
        (some "INT_ARR = [1, 2, 3]\n".toList) 1)) 200 = true ∧
    cfgcli_parse_line "INT_ARR = [1\\".toList 0 13 none none START =
      run_t.ret (ERROR, "INT_ARR".toList ++ NUL :: "= [1\\".toList, some 0, some 10) ∧
    cfgcli_read_file ex_libc ex_cfg (some "a.conf".toList)
        (some "INT_ARR = [1\\\n, 2, 3]\n".toList) 1 =
      run_t.ret (0, ret_cfg (cfgcli_read_file ex_libc ex_cfg (some "a.conf".toList)
        (some "INT_ARR = [1\\\n, 2, 3]\n".toList) 1)) ∧
    ((ret_cfg (cfgcli_read_file ex_libc ex_cfg (some "a.conf".toList)
        (some "INT_ARR = [1\\\n, 2, 3]\n".toList) 1)).params.getD 1 param_zero).slot =
      slot_t.untouched ∧
    cfgcli_is_set (ret_cfg (cfgcli_read_file ex_libc ex_cfg (some "a.conf".toList)
        (some "INT_ARR = [1\\\n, 2, 3]\n".toList) 1)) 200 = false ∧
    (ret_cfg (cfgcli_read_file ex_libc ex_cfg (some "a.conf".toList)
        (some "INT_ARR = [1\\\n, 2, 3]\n".toList) 1)).error.msg =
      ["invalid configuration entry at line: 1".toList,
       "invalid configuration entry at line: 2".toList] := by
  refine ⟨by decide, by decide, by decide, by decide, by decide, by decide, by decide⟩

/-- C5, amended (a break after a separator): let entry `j` of a registry without error be a
parameter of an array type designated by the keyword `name`, with a stored priority below
`prior`, and let `t1, ..., tk` and `tk+1, ..., tn` be non-empty lists of elements, each a
bare element or a quoted one, such that the value `[t1, ..., tn]` is coerced with code 0.
Write the entry `name = [t1, ..., tn]` on one line, or break it behind the separator that
follows `tk` by a backslash right before the line break (the file fitting the first chunk
of the reader).  Then the first line of the broken form is lexed as `CONTINUE` and the
second, from the state `ARRAY_START`, as `DONE` with the keyword `name`; both files are
read with code 0, and they leave the same registry but for the value text of entry `j`:
the same count of elements, the same elements in the same order, the same source and
diagnostics.  With the backslash placed directly behind an element (behind `tk`, or behind
`tn`) the first line is lexed as `ERROR`. -/
theorem continuation_after_separator (libc : libc_t) (cfg : cfgcli_t) (j : Nat)
    (name lopt : List Char) (ts1 ts2 : List (List Char)) (prior : Int)
    (hd : designates cfg j name lopt = true)
    (ha : CFGCLI_DTYPE_IS_ARRAY (cfg.params.getD j param_zero).dtype = true)
    (hp : 0 < prior) (hsrc : CFGCLI_SRC_VAL (cfg.params.getD j param_zero).src < prior)
    (h1 : ts1 ≠ []) (h2 : ts2 ≠ []) (hb1 : ∀ t ∈ ts1, array_token t = true)
    (hb2 : ∀ t ∈ ts2, array_token t = true)
    (hk : (coerce libc (cfg.params.getD j param_zero).dtype (array_text (ts1 ++ ts2))).1 = 0)
    (hfit : (broken_text name ts1 ts2).length + 1 ≤ CFGCLI_STR_INIT_SIZE) :
    (∃ b1 c1 c2,
      cfgcli_parse_line (broken_head name ts1) 0 (broken_head name ts1).length none none START =
        run_t.ret (CONTINUE, b1, some 0, some (name.length + 3)) ∧
      cfgcli_parse_line (b1 ++ [' '] ++ broken_tail ts2) (b1 ++ [' ']).length
        (broken_tail ts2).length (some 0) (some (name.length + 3)) ARRAY_START =
        run_t.ret (DONE, b1 ++ [' '] ++ broken_tail ts2, some 0, some (name.length + 3)) ∧
      cstr_at (b1 ++ [' '] ++ broken_tail ts2) 0 = name ∧
      cfgcli_read_file libc cfg (some "pass.conf".toList)
        (some (file_text name (array_text (ts1 ++ ts2)))) prior = run_t.ret (0, c1) ∧
      cfgcli_read_file libc cfg (some "pass.conf".toList)
        (some (broken_text name ts1 ts2)) prior = run_t.ret (0, c2) ∧
      (c2.params.getD j param_zero).narr = (c1.params.getD j param_zero).narr ∧
      (c2.params.getD j param_zero).slot = (c1.params.getD j param_zero).slot ∧
      (c1.params.getD j param_zero).slot =
        (coerce libc (cfg.params.getD j param_zero).dtype (array_text (ts1 ++ ts2))).2 ∧
      (c2.params.getD j param_zero).src = (c1.params.getD j param_zero).src ∧
      c2.error = c1.error ∧
      ∃ V L, c2 =
        { c1 with
          params := c1.params.set j { c1.params.getD j param_zero with value := V, vlen := L } })
    ∧
    (∃ L k v, cfgcli_parse_line (broken_elem_head name ts1) 0
        (broken_elem_head name ts1).length none none START = run_t.ret (ERROR, L, k, v)) ∧
    (∃ L k v, cfgcli_parse_line (broken_elem_head name (ts1 ++ ts2)) 0
        (broken_elem_head name (ts1 ++ ts2)).length none none START =
        run_t.ret (ERROR, L, k, v))
    := by
  obtain ⟨d1, d2, d3, d4, d5, d6, d7, d8, d9, d10⟩ := designates_unpack cfg j name lopt hd
  have hj : j < cfg.params.length := by omega
  have hne : ts1 ++ ts2 ≠ [] := by
    intro h
    exact h1 (List.append_eq_nil.1 h).1
  have hb : ∀ t ∈ ts1 ++ ts2, array_token t = true := by
    intro t ht
    rcases List.mem_append.1 ht with e | e
    · exact hb1 t e
    · exact hb2 t e
  obtain ⟨N, V, V1, g1, g2⟩ := get_broken_ok libc cfg (cfg.params.getD j param_zero) ts1 ts2
    prior d1 ha h1 h2 hb1 hb2 hk
  have hfit1 : (entry_line name (array_text (ts1 ++ ts2))).length + 2 ≤
      CFGCLI_STR_INIT_SIZE := by
    have e1 : (broken_text name ts1 ts2).length =
        name.length + (join_elems ts1).length + (join_elems ts2).length + 10 := by
      simp only [broken_text, broken_head, broken_tail, entry_line, List.length_append,
        List.length_cons, List.length_nil]
      omega
    have e2 : (entry_line name (array_text (ts1 ++ ts2))).length =
        name.length + (join_elems ts1).length + (join_elems ts2).length + 7 := by
      simp only [entry_line, array_text, join_elems_append ts1 ts2 h1 h2, List.length_append,
        List.length_cons, List.length_nil]
      omega
    omega
  obtain ⟨n1, n2⟩ := array_text_clean (ts1 ++ ts2) hb
  have r1 := file_pass_get libc cfg j name lopt (array_text (ts1 ++ ts2)) prior _ hd hp
    (entry_lexed_array name _ d4 hne hb) n1 n2 hfit1 hsrc g1
  have r2 := read_broken_get libc cfg j name lopt ts1 ts2 prior _ hd hp h1 h2 hb1 hb2 hfit hsrc
    g2
  have hT := parse_line_broken_tail
    ((name ++ NUL :: '=' :: ' ' :: '[' :: (join_elems ts1 ++ [',', ' ', ' '])) ++ [' ']) []
    ts2 h2 hb2 (some 0) (some (name.length + 3))
  simp only [List.append_nil] at hT
  refine ⟨⟨_, _, _, parse_line_broken_head name ts1 d4 h1 hb1, hT, ?_, r1, r2, ?_, ?_, ?_, ?_,
    rfl, ?_⟩, ⟨_, _, _, parse_line_elem_bslash name ts1 d4 h1 hb1⟩,
    ⟨_, _, _, parse_line_elem_bslash name (ts1 ++ ts2) d4 hne hb⟩⟩
  · have e : (name ++ NUL :: '=' :: ' ' :: '[' :: (join_elems ts1 ++ [',', ' ', ' '])) ++
        [' '] ++ broken_tail ts2 =
        name ++ NUL :: ('=' :: ' ' :: '[' :: (join_elems ts1 ++ [',', ' ', ' ']) ++ [' '] ++
          broken_tail ts2) := by simp
    rw [e]
    exact cstr_at_zero name _ (name_grammar_no_NUL name d4)
  · simp only [getD_set_self _ _ _ _ hj]
  · simp only [getD_set_self _ _ _ _ hj]
  · simp only [getD_set_self _ _ _ _ hj]
  · simp only [getD_set_self _ _ _ _ hj]
  · refine ⟨V1, (broken_value ts1 ts2).length + 1, ?_⟩
    simp only [getD_set_self _ _ _ _ hj, List.set_set]

/-- Witness of C5, amended: the entry `INT_ARR = [1, "2", 3]` of the example registry,
whose second element is quoted, broken behind the separator that follows `1`. -/
theorem continuation_after_separator_witness :
    (designates ex_cfg 1 "INT_ARR".toList "ints".toList = true ∧
      CFGCLI_DTYPE_IS_ARRAY (ex_cfg.params.getD 1 param_zero).dtype = true ∧ (0 : Int) < 1 ∧
      CFGCLI_SRC_VAL (ex_cfg.params.getD 1 param_zero).src < 1 ∧
      ["1".toList] ≠ [] ∧ ["\"2\"".toList, "3".toList] ≠ [] ∧
      (∀ t ∈ ["1".toList], array_token t = true) ∧
      (∀ t ∈ ["\"2\"".toList, "3".toList], array_token t = true) ∧
      (coerce ex_libc (ex_cfg.params.getD 1 param_zero).dtype
        (array_text (["1".toList] ++ ["\"2\"".toList, "3".toList]))).1 = 0 ∧
      (broken_text "INT_ARR".toList ["1".toList] ["\"2\"".toList, "3".toList]).length + 1 ≤
        CFGCLI_STR_INIT_SIZE ∧
      broken_text "INT_ARR".toList ["1".toList] ["\"2\"".toList, "3".toList] =
        "INT_ARR = [1, \\\n\"2\", 3]\n".toList ∧
      broken_elem_head "INT_ARR".toList ["1".toList] = "INT_ARR = [1\\".toList) ∧
    ((∃ b1 c1 c2,
      cfgcli_parse_line (broken_head "INT_ARR".toList ["1".toList]) 0
        (broken_head "INT_ARR".toList ["1".toList]).length none none START =
        run_t.ret (CONTINUE, b1, some 0, some ("INT_ARR".toList.length + 3)) ∧
      cfgcli_parse_line (b1 ++ [' '] ++ broken_tail ["\"2\"".toList, "3".toList])
        (b1 ++ [' ']).length (broken_tail ["\"2\"".toList, "3".toList]).length (some 0)
        (some ("INT_ARR".toList.length + 3)) ARRAY_START =
        run_t.ret (DONE, b1 ++ [' '] ++ broken_tail ["\"2\"".toList, "3".toList], some 0,
          some ("INT_ARR".toList.length + 3)) ∧
      cstr_at (b1 ++ [' '] ++ broken_tail ["\"2\"".toList, "3".toList]) 0 =
        "INT_ARR".toList ∧
      cfgcli_read_file ex_libc ex_cfg (some "pass.conf".toList)
        (some (file_text "INT_ARR".toList
          (array_text (["1".toList] ++ ["\"2\"".toList, "3".toList])))) 1 =
        run_t.ret (0, c1) ∧
      cfgcli_read_file ex_libc ex_cfg (some "pass.conf".toList)
        (some (broken_text "INT_ARR".toList ["1".toList] ["\"2\"".toList, "3".toList])) 1 =
        run_t.ret (0, c2) ∧
      (c2.params.getD 1 param_zero).narr = (c1.params.getD 1 param_zero).narr ∧
      (c2.params.getD 1 param_zero).slot = (c1.params.getD 1 param_zero).slot ∧
      (c1.params.getD 1 param_zero).slot =
        (coerce ex_libc (ex_cfg.params.getD 1 param_zero).dtype
          (array_text (["1".toList] ++ ["\"2\"".toList, "3".toList]))).2 ∧
      (c2.params.getD 1 param_zero).src = (c1.params.getD 1 param_zero).src ∧
      c2.error = c1.error ∧
      ∃ V L, c2 =
        { c1 with
          params := c1.params.set 1 { c1.params.getD 1 param_zero with value := V, vlen := L } })
    ∧
    (∃ L k v, cfgcli_parse_line (broken_elem_head "INT_ARR".toList ["1".toList]) 0
        (broken_elem_head "INT_ARR".toList ["1".toList]).length none none START =
        run_t.ret (ERROR, L, k, v)) ∧
    (∃ L k v, cfgcli_parse_line
        (broken_elem_head "INT_ARR".toList (["1".toList] ++ ["\"2\"".toList, "3".toList])) 0
        (broken_elem_head "INT_ARR".toList
          (["1".toList] ++ ["\"2\"".toList, "3".toList])).length none none START =
        run_t.ret (ERROR, L, k, v))) :=
  ⟨⟨by decide, by decide, by decide, by decide, by decide, by decide, by decide, by decide,
    by decide, by decide, by decide, by decide⟩,
   continuation_after_separator ex_libc ex_cfg 1 "INT_ARR".toList "ints".toList ["1".toList]
     ["\"2\"".toList, "3".toList] 1 (by decide) (by decide) (by decide) (by decide) (by decide)
     (by decide) (by decide) (by decide) (by decide) (by decide)⟩

/-! ## A graphic character after the closing bracket -/

/-- The splitter on a well-formed array whose closing bracket is followed, after bytes
that are not graphic, by a graphic byte other than the comment sign. -/
theorem parse_array_after_close (init : List (List Char)) (last : List Char)
    (hs : ∀ s ∈ init ++ [last], ∃ e, elem_seg s e) (b1 : List Char)
    (hb1 : ∀ x ∈ b1, isgraph x = false) (c : Char) (hg : isgraph c = true) (hc : c ≠ '#')
    (b2 : List Char) (par : cfgcli_param_valid_t)
    (hv : par.value = some ('[' :: (seg_run ',' init ++ (last ++ ']' :: (b1 ++ c :: b2)))))
    (hl : par.vlen =
      ('[' :: (seg_run ',' init ++ (last ++ ']' :: (b1 ++ c :: b2)))).length + 1) :
    cfgcli_parse_array par = (CFGCLI_ERR_VALUE, { par with narr := 0 }) := by
  apply parse_array_of_stop par _ _ hv hl
  obtain ⟨q, h1⟩ := split_open init (fun s h => hs s (List.mem_append_left _ h))
    (last ++ ']' :: (b1 ++ c :: b2)) (last.length + b1.length + b2.length + 3)
  have e0 : ('[' :: (seg_run ',' init ++ (last ++ ']' :: (b1 ++ c :: b2)))).length + 1 =
      (last.length + b1.length + b2.length + 3) + (seg_run ',' init).length + 1 := by
    simp only [List.length_cons, List.length_append]
    omega
  rw [e0, h1]
  have hA : ('[' :: seg_run NUL init).length = (seg_run ',' init).length + 1 := by
    rw [List.length_cons, seg_run_length ',' NUL]
  obtain ⟨e, he⟩ := hs last (by simp)
  obtain ⟨q2, S, hS, h2⟩ := split_seg last e he ('[' :: seg_run NUL init)
    (']' :: (b1 ++ c :: b2)) (b1.length + b2.length + 3) init.length q (some 0) none
  rw [hA] at h2
  rw [show last.length + b1.length + b2.length + 3 = b1.length + b2.length + 3 + last.length
    by omega]
  have hcv : '[' :: (seg_run NUL init ++ (last ++ ']' :: (b1 ++ c :: b2))) =
      '[' :: seg_run NUL init ++ (last ++ ']' :: (b1 ++ c :: b2)) := rfl
  rw [hcv, h2]
  have h3 := split_one ('[' :: seg_run NUL init ++ last) ']' (b1 ++ c :: b2)
    { value := '[' :: seg_run NUL init ++ (last ++ ']' :: (b1 ++ c :: b2)), n := init.length,
      state := S, quote := q2, start := some 0, endp := none }
    { value := '[' :: seg_run NUL init ++ (last ++ ']' :: (b1 ++ c :: b2)), n := init.length,
      state := ARRAY_END, quote := q2, start := some 0,
      endp := some ('[' :: seg_run NUL init ++ last).length }
    (by simp) (by rcases hS with h | h <;> simp [h])
    (fun ha => sb_close _ _ S q2 _ _ _ hS ha)
    (b1.length + b2.length + 2) (b1.length + b2.length + 3)
    ((seg_run ',' init).length + 1 + last.length)
    (by simp only [List.length_append, hA]) rfl
  rw [h3]
  have h4 := split_run ('[' :: seg_run NUL init ++ (last ++ ']' :: (b1 ++ c :: b2)))
    ('[' :: seg_run NUL init ++ last ++ [']']) b1 (c :: b2) init.length ARRAY_END q2 (some 0)
    (some ('[' :: seg_run NUL init ++ last).length) (by simp) (by decide)
    (fun d hd a ha => sb_end_blank _ _ q2 _ _ a (by rw [ha]; exact hb1 d hd))
    (b2.length + 2) (b1.length + b2.length + 2)
    ((seg_run ',' init).length + 1 + last.length + 1)
    ((seg_run ',' init).length + 1 + last.length + 1 + b1.length)
    (by simp only [List.length_append, hA, List.length_singleton]) (by omega) rfl
  rw [h4]
  exact split_one_stop ('[' :: seg_run NUL init ++ last ++ [']'] ++ b1) c b2 _ _ _ (by simp)
    (by simp)
    (fun ha => sb_end_graph _ _ q2 _ _ _ (by rw [ha]; exact hg) (by rw [ha]; exact hc))
    (b2.length + 1) _ _ (by simp only [List.length_append, hA, List.length_singleton]) rfl

/-! ## What the splitter accepts after the opening bracket -/

theorem tail_ok_nil : tail_ok [] := by
  intro c hc
  cases hc

theorem tail_ok_comment (r : List Char) : tail_ok ('#' :: r) := by
  intro c hc
  simp [List.takeWhile] at hc

theorem tail_ok_cons (c : Char) (r : List Char) (hg : isgraph c = false) (h : tail_ok r) :
    tail_ok (c :: r) := by
  intro d hd
  have hc : c ≠ '#' := by
    intro e
    rw [e] at hg
    exact absurd hg (by decide)
  simp only [List.takeWhile_cons, bne_iff_ne, ne_eq, hc, not_false_eq_true, decide_True,
    ↓reduceIte, List.mem_cons] at hd
  rcases hd with rfl | hd
  · exact hg
  · exact h d hd

theorem passed_seg_space (c : Char) (s : List Char) (hc : isspace c = true)
    (h : passed_seg s) : passed_seg (c :: s) := by
  obtain ⟨ws, hws, h⟩ := h
  refine ⟨c :: ws, ?_, ?_⟩
  · intro x hx
    rcases List.mem_cons.1 hx with rfl | hx
    · exact hc
    · exact hws x hx
  · rcases h with ⟨t, ht, e⟩ | ⟨q, inner, ws2, hq, hqi, hws2, e⟩
    · exact Or.inl ⟨t, ht, by rw [e]; rfl⟩
    · exact Or.inr ⟨q, inner, ws2, hq, hqi, hws2, by rw [e]; rfl⟩

/-- White space before a text that is closed or ends inside a quoted element. -/
theorem coq_space (c : Char) (r : List Char) (hc : isspace c = true)
    (h : closed_or_quoted r) : closed_or_quoted (c :: r) := by
  rcases h with ⟨init, last, b, hs, hb, e⟩ | ⟨init, ws, q, b, hs, hws, hq, hqb, e⟩
  · left
    cases init with
    | nil =>
      refine ⟨[], c :: last, b, ?_, hb, by rw [e]; rfl⟩
      intro s hs1
      simp only [List.nil_append, List.mem_singleton] at hs1
      subst hs1
      exact passed_seg_space c last hc (hs last (by simp))
    | cons s0 init0 =>
      refine ⟨(c :: s0) :: init0, last, b, ?_, hb, by rw [e]; rfl⟩
      intro s hs1
      simp only [List.cons_append, List.mem_cons] at hs1
      rcases hs1 with rfl | hs1
      · exact passed_seg_space c s0 hc (hs s0 (by simp))
      · exact hs s (by simp only [List.cons_append, List.mem_cons]; exact Or.inr hs1)
  · right
    cases init with
    | nil =>
      refine ⟨[], c :: ws, q, b, hs, ?_, hq, hqb, by rw [e]; rfl⟩
      intro x hx
      rcases List.mem_cons.1 hx with rfl | hx
      · exact hc
      · exact hws x hx
    | cons s0 init0 =>
      refine ⟨(c :: s0) :: init0, ws, q, b, ?_, hws, hq, hqb, by rw [e]; rfl⟩
      intro s hs1
      rcases List.mem_cons.1 hs1 with rfl | hs1
      · exact passed_seg_space c s0 hc (hs s0 (List.mem_cons_self _ _))
      · exact hs s (List.mem_cons_of_mem _ hs1)

/-- A complete element before what may follow an element. -/
theorem coq_elem (s r0 : List Char) (hs : passed_seg s) (h : after_elem r0) :
    closed_or_quoted (s ++ r0) := by
  rcases h with ⟨b, e, hb⟩ | ⟨r1, e, h1⟩
  · left
    refine ⟨[], s, b, ?_, hb, by rw [e]; rfl⟩
    intro t ht
    simp only [List.nil_append, List.mem_singleton] at ht
    subst ht
    exact hs
  · rcases h1 with ⟨init, last, b, hs1, hb, e1⟩ | ⟨init, ws, q, b, hs1, hws, hq, hqb, e1⟩
    · left
      refine ⟨s :: init, last, b, ?_, hb, ?_⟩
      · intro t ht
        simp only [List.cons_append, List.mem_cons] at ht
        rcases ht with rfl | ht
        · exact hs
        · exact hs1 t ht
      · rw [e, e1]
        simp only [seg_run, List.append_assoc, List.cons_append]
    · right
      refine ⟨s :: init, ws, q, b, ?_, hws, hq, hqb, ?_⟩
      · intro t ht
        rcases List.mem_cons.1 ht with rfl | ht
        · exact hs
        · exact hs1 t ht
      · rw [e, e1]
        simp only [seg_run, List.append_assoc, List.cons_append]

/-- One pass of the loop outside the state `START` that goes on: the text is as it was
except perhaps for the byte just read, the state is not `START`, and what holds of the
rest of the value after the pass gives what holds of it before. -/
theorem sb_go_cases (s s1 : split_t) (i : Nat) (hs : s.state ≠ START)
    (h : split_body s i = split_step_t.go s1) :
    (s1.value = s.value ∨ s1.value = poke s.value i NUL) ∧ s1.state ≠ START ∧
    (∀ r, split_concl s1.state s1.quote r →
      split_concl s.state s.quote (s.value.getD i NUL :: r)) ∧
    (s.value.getD i NUL = NUL → split_concl s.state s.quote []) := by
  obtain ⟨V, n, S, qq, st, e⟩ := s
  cases S <;> simp only [split_body] at h
  all_goals try exact absurd rfl hs
  all_goals try exact split_step_t.noConfusion h
  all_goals simp only [split_concl]
  · -- ARRAY_START
    split at h
    · exact split_step_t.noConfusion h
    · rename_i h0
      split at h
      · rename_i hq
        cases h
        have hq2 : List.getD V i NUL = '"' ∨ List.getD V i NUL = '\'' := by simpa using hq
        refine ⟨Or.inl rfl, by simp, ?_, ?_⟩
        · intro r hr
          simp only [split_concl] at hr
          rcases hr with hr | ⟨inner, ws, r0, hi, hws, er, ha⟩
          · exact Or.inr ⟨[], [], _, r, by simp, by simp, hq2, hr, rfl⟩
          · have hp : passed_seg (List.getD V i NUL :: (inner ++ List.getD V i NUL :: ws)) :=
              ⟨[], by simp, Or.inr ⟨_, inner, ws, hq2, hi, hws, rfl⟩⟩
            have := coq_elem _ r0 hp ha
            rw [er]
            simpa only [List.cons_append, List.append_assoc] using this
        · intro hn
          rw [hn] at hq
          exact absurd hq (by decide)
      · rename_i hq
        split at h
        · rename_i hg
          cases h
          refine ⟨Or.inl rfl, by simp, ?_, ?_⟩
          · intro r hr
            simp only [split_concl] at hr
            obtain ⟨t, r0, ht, er, ha⟩ := hr
            have hp : passed_seg (List.getD V i NUL :: t) := by
              refine ⟨[], by simp, Or.inl ⟨_, ?_, rfl⟩⟩
              simp only [CFGCLI_SYM_ARRAY_SEP, CFGCLI_SYM_ARRAY_END, CFGCLI_SYM_COMMENT,
                Bool.or_eq_true, beq_iff_eq, not_or] at h0 hq
              simp only [plain_elem, Bool.and_eq_true, bne_iff_ne, ne_eq, List.all_eq_true]
              exact ⟨⟨⟨⟨⟨⟨hg, h0.1.1⟩, h0.1.2⟩, h0.2⟩, hq.1⟩, hq.2⟩, ht⟩
            have := coq_elem _ r0 hp ha
            rw [er]
            simpa only [List.cons_append, List.append_assoc] using this
          · intro hn
            rw [hn] at hg
            exact absurd hg (by decide)
        · split at h
          · exact split_step_t.noConfusion h
          · rename_i hsp
            cases h
            refine ⟨Or.inl rfl, by simp, fun r hr => coq_space _ r (by simpa using hsp) hr, ?_⟩
            intro hn
            rw [hn] at hsp
            exact absurd hsp (by decide)
  · -- ARRAY_VALUE
    split at h
    · rename_i hc
      cases h
      have hc2 : List.getD V i NUL = ',' := by simpa [CFGCLI_SYM_ARRAY_SEP] using hc
      refine ⟨Or.inr rfl, by simp, ?_, fun hn => by
        rw [hn] at hc
        exact absurd hc (by decide)⟩
      intro r hr
      simp only [split_concl] at hr
      exact ⟨[], _, by simp, rfl, Or.inr ⟨r, by rw [hc2], hr⟩⟩
    · rename_i hsep
      split at h
      · rename_i hc
        cases h
        refine ⟨Or.inl rfl, by simp, ?_, ?_⟩
        · intro r hr
          have : List.getD V i NUL = ']' := by simpa [CFGCLI_SYM_ARRAY_END] using hc
          rw [this]
          exact ⟨[], _, by simp, rfl, Or.inl ⟨r, rfl, hr⟩⟩
        · intro hn
          rw [hn] at hc
          exact absurd hc (by decide)
      · rename_i hend
        split at h
        · exact split_step_t.noConfusion h
        · rename_i hp
          cases h
          refine ⟨Or.inl rfl, by simp, ?_, ?_⟩
          · intro r hr
            simp only [split_concl] at hr
            obtain ⟨t, r0, ht, er, ha⟩ := hr
            refine ⟨List.getD V i NUL :: t, r0, ?_, by rw [er]; rfl, ha⟩
            intro x hx
            rcases List.mem_cons.1 hx with rfl | hx
            · simp only [CFGCLI_SYM_ARRAY_SEP, CFGCLI_SYM_ARRAY_END, CFGCLI_SYM_COMMENT,
                Bool.or_eq_true, beq_iff_eq, not_or, Bool.not_eq_true', Bool.not_eq_false,
                Bool.not_eq_eq_eq_not, Bool.not_true, Bool.not_false] at hsep hend hp
              simp only [bare_tail, Bool.and_eq_true, bne_iff_ne, ne_eq]
              exact ⟨⟨⟨by simpa using hp.2, hsep⟩, hend⟩, hp.1⟩
            · exact ht x hx
          · intro hn
            rw [hn] at hp
            exact absurd hp (by decide)
  · -- ARRAY_QUOTE
    split at h
    · rename_i hc
      cases h
      have hc2 : List.getD V i NUL = qq := by simpa using hc
      refine ⟨Or.inl rfl, by simp, ?_, fun _ => Or.inl (List.not_mem_nil _)⟩
      intro r hr
      simp only [split_concl] at hr
      obtain ⟨ws, r0, hws, er, ha⟩ := hr
      exact Or.inr ⟨[], ws, r0, by simp, hws, by rw [hc2, er]; rfl, ha⟩
    · rename_i hc
      cases h
      refine ⟨Or.inl rfl, by simp, ?_, fun _ => Or.inl (List.not_mem_nil _)⟩
      intro r hr
      rcases hr with hr | ⟨inner, ws, r0, hi, hws, er, ha⟩
      · left
        intro hm
        rcases List.mem_cons.1 hm with h1 | h1
        · exact hc (by simp [h1])
        · exact hr h1
      · right
        refine ⟨List.getD V i NUL :: inner, ws, r0, ?_, hws, by rw [er]; rfl, ha⟩
        intro hm
        rcases List.mem_cons.1 hm with h1 | h1
        · exact hc (by simp [h1])
        · exact hi h1
  · -- ARRAY_QUOTE_END
    split at h
    · rename_i hc
      cases h
      have hc2 : List.getD V i NUL = ',' := by simpa [CFGCLI_SYM_ARRAY_SEP] using hc
      refine ⟨Or.inr rfl, by simp, ?_, fun hn => by
        rw [hn] at hc
        exact absurd hc (by decide)⟩
      intro r hr
      simp only [split_concl] at hr
      exact ⟨[], _, by simp, rfl, Or.inr ⟨r, by rw [hc2], hr⟩⟩
    · split at h
      · rename_i hc
        cases h
        refine ⟨Or.inl rfl, by simp, ?_, ?_⟩
        · intro r hr
          have : List.getD V i NUL = ']' := by simpa [CFGCLI_SYM_ARRAY_END] using hc
          rw [this]
          exact ⟨[], _, by simp, rfl, Or.inl ⟨r, rfl, hr⟩⟩
        · intro hn
          rw [hn] at hc
          exact absurd hc (by decide)
      · split at h
        · exact split_step_t.noConfusion h
        · rename_i hp
          cases h
          refine ⟨Or.inl rfl, by simp, ?_, ?_⟩
          · intro r hr
            simp only [split_concl] at hr
            obtain ⟨ws, r0, hws, er, ha⟩ := hr
            refine ⟨List.getD V i NUL :: ws, r0, ?_, by rw [er]; rfl, ha⟩
            intro x hx
            rcases List.mem_cons.1 hx with rfl | hx
            · simpa using hp
            · exact hws x hx
          · intro hn
            rw [hn] at hp
            exact absurd hp (by decide)
  · -- ARRAY_END
    split at h
    · rename_i hc
      cases h
      refine ⟨Or.inr rfl, by simp, ?_, fun _ => tail_ok_nil⟩
      intro r _
      have : List.getD V i NUL = '#' := by simpa [CFGCLI_SYM_COMMENT] using hc
      rw [this]
      exact tail_ok_comment r
    · split at h
      · exact split_step_t.noConfusion h
      · rename_i hg
        cases h
        refine ⟨Or.inl rfl, by simp, ?_, fun _ => tail_ok_nil⟩
        intro r hr
        exact tail_ok_cons _ r (by simpa using hg) hr

/-! ## The loop of the splitter on any text after the opening bracket -/

/-- The loop outside the state `START`, when it runs over the rest of the value and the
terminating NUL without an early return. -/
theorem split_loop_concl (rest : List Char) :
    ∀ (s : split_t) (i : Nat) (sf : split_t), s.state ≠ START →
      (∀ j, s.value.getD (i + j) NUL = rest.getD j NUL) →
      parse_array_loop (rest.length + 1) s i = split_step_t.go sf →
      split_concl s.state s.quote rest := by
  induction rest with
  | nil =>
    intro s i sf hs hv h
    rw [List.length_nil, parse_array_loop] at h
    by_cases hd : s.state = ARRAY_DONE
    · rw [hd]
      trivial
    · simp only [hd, ↓reduceIte] at h
      cases hb : split_body s i with
      | stop code narr =>
        rw [hb] at h
        exact split_step_t.noConfusion h
      | go s1 =>
        have h0 := hv 0
        rw [Nat.add_zero] at h0
        exact (sb_go_cases s s1 i hs hb).2.2.2 h0
  | cons c r ih =>
    intro s i sf hs hv h
    rw [List.length_cons, parse_array_loop] at h
    by_cases hd : s.state = ARRAY_DONE
    · rw [hd]
      trivial
    · simp only [hd, ↓reduceIte] at h
      cases hb : split_body s i with
      | stop code narr =>
        rw [hb] at h
        exact split_step_t.noConfusion h
      | go s1 =>
        rw [hb] at h
        obtain ⟨g1, g2, g3, _⟩ := sb_go_cases s s1 i hs hb
        have hv1 : ∀ j, s1.value.getD (i + 1 + j) NUL = r.getD j NUL := by
          intro j
          have e := hv (j + 1)
          rw [List.getD_cons_succ] at e
          rw [← e]
          rcases g1 with g | g
          · rw [g]
            congr 1
            omega
          · rw [g, poke, getD_set_ne _ _ _ _ (by omega)]
            congr 1
            omega
        have hc := hv 0
        rw [Nat.add_zero, List.getD_cons_zero] at hc
        have := g3 r (ih s1 (i + 1) sf g2 hv1 h)
        rwa [hc] at this

/-- An early return of the loop outside the state `START` has the code for an invalid
value. -/
theorem sb_stop_code (s : split_t) (i : Nat) (code : Int) (narr : Option Nat)
    (hs : s.state ≠ START) (h : split_body s i = split_step_t.stop code narr) :
    code = CFGCLI_ERR_VALUE := by
  obtain ⟨V, n, S, qq, st, e⟩ := s
  cases S <;> simp only [split_body] at h
  all_goals try exact absurd rfl hs
  all_goals repeat' split at h
  all_goals first
    | exact split_step_t.noConfusion h
    | (cases h; rfl)

theorem split_loop_stop_code (k : Nat) :
    ∀ (s : split_t) (i : Nat) (code : Int) (narr : Option Nat), s.state ≠ START →
      parse_array_loop k s i = split_step_t.stop code narr → code = CFGCLI_ERR_VALUE := by
  induction k with
  | zero =>
    intro s i code narr _ h
    exact split_step_t.noConfusion h
  | succ k ih =>
    intro s i code narr hs h
    rw [parse_array_loop] at h
    by_cases hd : s.state = ARRAY_DONE
    · simp only [hd, ↓reduceIte] at h
      exact split_step_t.noConfusion h
    · simp only [hd, ↓reduceIte] at h
      cases hb : split_body s i with
      | stop c2 n2 =>
        rw [hb] at h
        cases h
        exact sb_stop_code s i _ _ hs hb
      | go s1 =>
        rw [hb] at h
        exact ih s1 (i + 1) code narr (sb_go_cases s s1 i hs hb).2.1 h

/-- The splitter on a value that opens with a bracket returns 0 or the code for an invalid
value, and when it returns 0 the text after the bracket holds a closing bracket followed
by nothing graphic before a comment, or a quote character that does not occur again. -/
theorem parse_array_bracket (body : List Char) (par : cfgcli_param_valid_t)
    (hv : par.value = some ('[' :: body)) (hl : par.vlen = ('[' :: body).length + 1) :
    ((cfgcli_parse_array par).1 = 0 ∨ (cfgcli_parse_array par).1 = CFGCLI_ERR_VALUE) ∧
    ((cfgcli_parse_array par).1 = 0 → closed_or_quoted body) := by
  have h1 : parse_array_loop (('[' :: body).length + 1)
      { value := '[' :: body, n := 0, state := START, quote := NUL, start := none,
        endp := none } 0 =
      parse_array_loop (body.length + 1)
      { value := '[' :: body, n := 0, state := ARRAY_START, quote := NUL, start := some 0,
        endp := none } 1 := by
    rw [List.length_cons, split_go _ _
      { value := '[' :: body, n := 0, state := ARRAY_START, quote := NUL, start := some 0,
        endp := none } 0 (by simp)
      (by
        unfold split_body
        simp [CFGCLI_SYM_ARRAY_START])]
  cases hr : parse_array_loop (body.length + 1)
      { value := '[' :: body, n := 0, state := ARRAY_START, quote := NUL, start := some 0,
        endp := none } 1 with
  | stop code narr =>
    have hc := split_loop_stop_code _ _ _ _ _ (by simp) hr
    have hres : (cfgcli_parse_array par).1 = CFGCLI_ERR_VALUE := by
      unfold cfgcli_parse_array
      simp only [hv, hl, Nat.add_one_ne_zero, ↓reduceIte, h1, hr, hc]
    refine ⟨Or.inr hres, ?_⟩
    intro h0
    rw [hres] at h0
    exact absurd h0 (by decide)
  | go sf =>
    have hres : (cfgcli_parse_array par).1 = 0 := by
      unfold cfgcli_parse_array
      simp only [hv, hl, Nat.add_one_ne_zero, ↓reduceIte, h1, hr]
    refine ⟨Or.inl hres, fun _ => ?_⟩
    have := split_loop_concl body
      { value := '[' :: body, n := 0, state := ARRAY_START, quote := NUL, start := some 0,
        endp := none } 1 sf (by simp)
      (by
        intro j
        rw [Nat.add_comm 1 j]
        rfl) hr
    exact this

/-- A text that ends inside a quoted element holds a quote character. -/
theorem ends_in_quote_quote (body : List Char) (h : ends_in_quote body) :
    '"' ∈ body ∨ '\'' ∈ body := by
  obtain ⟨init, ws, q, b, _, _, hq, _, e⟩ := h
  have hm : q ∈ body := by
    rw [e]
    simp
  rcases hq with rfl | rfl
  · exact Or.inl hm
  · exact Or.inr hm

/-- A text whose quoted element is closed and followed by other bytes, `"a" junk`, is neither
closed nor does it end inside a quoted element. -/
theorem closed_quote_junk :
    ¬ (closed_elems "\"a\" junk".toList ∨ ends_in_quote "\"a\" junk".toList) := by
  rintro (⟨init, last, b, _, _, e⟩ | ⟨init, ws, q, b, _, hws, hq, hqb, e⟩)
  · have : ']' ∈ "\"a\" junk".toList := by
      rw [e]
      simp
    revert this
    decide
  · cases init with
    | cons s r =>
      have : ',' ∈ "\"a\" junk".toList := by
        rw [e]
        simp [seg_run]
      revert this
      decide
    | nil =>
      cases ws with
      | cons c w =>
        have hc := hws c (List.mem_cons_self _ _)
        have e1 : c = '"' := by
          simp only [seg_run, List.nil_append, String.toList, List.cons_append] at e
          exact (List.cons.inj e).1.symm
        rw [e1] at hc
        revert hc
        decide
      | nil =>
        simp only [seg_run, List.nil_append, String.toList] at e
        obtain ⟨e1, e2⟩ := List.cons.inj e
        subst e1 e2
        revert hqb
        decide

/-- C24, counterexample: the value `[x, "abc` starts with the opening bracket and holds no
closing bracket, and the splitter accepts it: it returns 0 with the count 2. -/
theorem closing_bracket_absent :
    ex_open_quote.value = some "[x, \"abc".toList ∧
    ex_open_quote.vlen = "[x, \"abc".toList.length + 1 ∧
    ']' ∉ "[x, \"abc".toList ∧
    cfgcli_parse_array ex_open_quote =
      (0, { ex_open_quote with narr := 2, value := some "x\x00 \"abc".toList }) := by
  refine ⟨?_, ?_, ?_, ?_⟩ <;> decide

/-- C24, amended: the splitter returns 0 on a value that starts with the opening bracket
only if the text after it is closed (complete elements with commas between them, then the
closing bracket followed by no graphic character before a comment sign or the end), or
ends inside a quoted element (after complete elements, each followed by a comma, and white
space, a quote character opens an element and does not occur again); every such value
with no closing bracket that does not end inside a quoted element (in particular every one
without a quote character) is rejected with the code for an invalid value (-5), and so is
every value of well-formed elements whose closing bracket is followed, after bytes that
are not graphic, by a graphic character other than the comment sign. -/
theorem closing_bracket (body : List Char) (par : cfgcli_param_valid_t)
    (hv : par.value = some ('[' :: body)) (hl : par.vlen = ('[' :: body).length + 1) :
    ((cfgcli_parse_array par).1 = 0 → closed_elems body ∨ ends_in_quote body) ∧
    ((']' ∉ body ∧ ¬ ends_in_quote body) →
      (cfgcli_parse_array par).1 = CFGCLI_ERR_VALUE) ∧
    (∀ (init : List (List Char)) (last b1 : List Char) (c : Char) (b2 : List Char),
      (∀ s ∈ init ++ [last], ∃ e, elem_seg s e) → (∀ x ∈ b1, isgraph x = false) →
      isgraph c = true → c ≠ '#' →
      body = seg_run ',' init ++ (last ++ ']' :: (b1 ++ c :: b2)) →
      (cfgcli_parse_array par).1 = CFGCLI_ERR_VALUE) ∧
    CFGCLI_ERR_VALUE = -5 := by
  obtain ⟨g1, g2⟩ := parse_array_bracket body par hv hl
  refine ⟨g2, ?_, ?_, rfl⟩
  · rintro ⟨h1, h2⟩
    rcases g1 with g | g
    · rcases g2 g with ⟨init, last, b, _, _, e⟩ | hq
      · exact absurd (by rw [e]; simp) h1
      · exact absurd hq h2
    · exact g
  · intro init last b1 c b2 hs hb1 hg hc e
    subst e
    rw [parse_array_after_close init last hs b1 hb1 c hg hc b2 par hv hl]

/-- The value `[1, 2`, which has no closing bracket and no quote, is rejected; the value
`[x, "abc`, which is accepted, ends inside a quoted element. -/
theorem closing_bracket_witness :
    (cfgcli_parse_array { ex_open_quote with value := some ('[' :: "1, 2".toList), vlen := 6 }).1
      = CFGCLI_ERR_VALUE ∧
    (closed_elems "x, \"abc".toList ∨ ends_in_quote "x, \"abc".toList) :=
  ⟨(closing_bracket "1, 2".toList
      { ex_open_quote with value := some ('[' :: "1, 2".toList), vlen := 6 } rfl rfl).2.1
      ⟨by decide, fun h => (ends_in_quote_quote _ h).elim (by decide) (by decide)⟩,
    (closing_bracket "x, \"abc".toList ex_open_quote rfl rfl).1 (by decide)⟩

/-! ## The scanning loop of the lexer on any line: passes and pointers -/

/-- A pass of the scanning loop that runs `i--` is a pass in the state `ARRAY_NEWLINE`, and
it leaves the loop in the state `ARRAY_VALUE`. -/
theorem lex_back_state (s s1 : lex_t) (a : Nat) (h : lex_body s a = lex_step_t.go s1 true) :
    s.state = ARRAY_NEWLINE ∧ s1.state = ARRAY_VALUE := by
  obtain ⟨L, k, v, S, q, nl⟩ := s
  cases S <;> simp only [lex_body] at h
  all_goals repeat' split at h
  all_goals first
    | exact lex_step_t.noConfusion h
    | (simp only [lex_step_t.go.injEq] at h
       obtain ⟨h1, h2⟩ := h
       first
       | exact Bool.noConfusion h2
       | (subst h1
          exact ⟨rfl, rfl⟩))

/-- A pass in the state `ARRAY_VALUE` never runs `i--`. -/
theorem lex_value_no_back (s s1 : lex_t) (a : Nat) (hs : s.state = ARRAY_VALUE) :
    lex_body s a ≠ lex_step_t.go s1 true := by
  intro h
  have := (lex_back_state s s1 a h).1
  rw [hs] at this
  exact cfgcli_parse_state_t.noConfusion this

/-- The passes that the scanning loop still needs at index `i`: two for each byte left and
one for the exit, one less when the state is not `ARRAY_NEWLINE`. -/
theorem parse_line_loop_fuel (len p : Nat) :
    ∀ (fuel : Nat) (s : lex_t) (i : Nat),
      2 * (len - i) + (if s.state = ARRAY_NEWLINE then 1 else 0) ≤ fuel → 1 ≤ fuel →
      parse_line_loop fuel s p len i ≠ run_t.nofuel := by
  intro fuel
  induction fuel with
  | zero =>
    intro s i _ h1
    omega
  | succ fuel ih =>
    intro s i h _
    rw [parse_line_loop]
    by_cases hi : i < len
    · simp only [hi, ↓reduceIte]
      cases hb : lex_body s (p + i) with
      | crash =>
        simp only
        exact fun e => run_t.noConfusion e
      | stop r s1 =>
        simp only
        exact fun e => run_t.noConfusion e
      | go s1 back =>
        simp only
        cases back with
        | true =>
          obtain ⟨e1, e2⟩ := lex_back_state s s1 (p + i) hb
          simp only [↓reduceIte]
          apply ih
          · rw [e1] at h
            rw [e2]
            simp only [↓reduceIte, reduceCtorEq] at h ⊢
            omega
          · rw [e1] at h
            simp only [↓reduceIte] at h
            omega
        | false =>
          simp only [Bool.false_eq_true, ↓reduceIte]
          apply ih
          · have : (if s1.state = ARRAY_NEWLINE then 1 else 0) ≤ 1 := by
              split <;> omega
            omega
          · omega
    · simp only [hi, ↓reduceIte]
      unfold lex_final
      repeat' split
      all_goals exact fun e => run_t.noConfusion e

/-- The lexer never exhausts its budget of `2 * len + 1` passes. -/
theorem parse_line_fuel (line : List Char) (p len : Nat) (key value : Option Nat)
    (state : cfgcli_parse_state_t) :
    cfgcli_parse_line line p len key value state ≠ run_t.nofuel := by
  unfold cfgcli_parse_line
  split
  · exact fun e => run_t.noConfusion e
  · have := parse_line_loop_fuel len p (2 * len + 1)
      { line := line, key := key, value := value, state := state, quote := NUL,
        newline := none } 0 (by
          have : (if state = ARRAY_NEWLINE then 1 else 0) ≤ 1 := by
            split <;> omega
          simp only [Nat.sub_zero]
          omega) (by omega)
    cases hr : parse_line_loop (2 * len + 1)
      { line := line, key := key, value := value, state := state, quote := NUL,
        newline := none } p len 0 with
    | ret x =>
      obtain ⟨r, s⟩ := x
      exact fun e => run_t.noConfusion e
    | undef => exact fun e => run_t.noConfusion e
    | nofuel => exact absurd hr this

/-- The pointers that the loop dereferences are set: the key in the state `KEYWORD`, the
place of the backslash in the state `ARRAY_NEWLINE`. -/
theorem lex_ptr_step (s s1 : lex_t) (a : Nat) (b : Bool)
    (hk : s.state = KEYWORD → s.key ≠ none) (hn : s.state = ARRAY_NEWLINE → s.newline ≠ none)
    (h : lex_body s a = lex_step_t.go s1 b) :
    (s1.state = KEYWORD → s1.key ≠ none) ∧ (s1.state = ARRAY_NEWLINE → s1.newline ≠ none) := by
  obtain ⟨L, k, v, S, q, nl⟩ := s
  cases S <;> simp only [lex_body] at h
  all_goals repeat' split at h
  all_goals first
    | exact lex_step_t.noConfusion h
    | (simp only [lex_step_t.go.injEq] at h
       obtain ⟨h1, _⟩ := h
       subst h1
       refine ⟨?_, ?_⟩ <;> intro e <;>
         first
         | exact cfgcli_parse_state_t.noConfusion e
         | exact hk rfl
         | exact hn rfl
         | exact Option.noConfusion)

theorem lex_ptr_no_crash (s : lex_t) (a : Nat)
    (hk : s.state = KEYWORD → s.key ≠ none) (hn : s.state = ARRAY_NEWLINE → s.newline ≠ none) :
    lex_body s a ≠ lex_step_t.crash := by
  obtain ⟨L, k, v, S, q, nl⟩ := s
  cases S <;> simp only [lex_body]
  all_goals repeat' split
  all_goals first
    | exact fun e => lex_step_t.noConfusion e
    | exact fun _ => hk rfl rfl
    | exact fun _ => hn rfl rfl

/-- With the pointers set the scanning loop returns a status. -/
theorem parse_line_loop_ret (len p : Nat) :
    ∀ (fuel : Nat) (s : lex_t) (i : Nat),
      (s.state = KEYWORD → s.key ≠ none) → (s.state = ARRAY_NEWLINE → s.newline ≠ none) →
      2 * (len - i) + (if s.state = ARRAY_NEWLINE then 1 else 0) ≤ fuel → 1 ≤ fuel →
      ∃ r s1, parse_line_loop fuel s p len i = run_t.ret (r, s1) := by
  intro fuel
  induction fuel with
  | zero =>
    intro s i _ _ _ h1
    omega
  | succ fuel ih =>
    intro s i hk hn h _
    rw [parse_line_loop]
    by_cases hi : i < len
    · simp only [hi, ↓reduceIte]
      cases hb : lex_body s (p + i) with
      | crash => exact absurd hb (lex_ptr_no_crash s _ hk hn)
      | stop r s1 => exact ⟨r, s1, rfl⟩
      | go s1 back =>
        obtain ⟨hk1, hn1⟩ := lex_ptr_step s s1 _ back hk hn hb
        simp only
        cases back with
        | true =>
          obtain ⟨e1, e2⟩ := lex_back_state s s1 (p + i) hb
          simp only [↓reduceIte]
          apply ih _ _ hk1 hn1
          · rw [e1] at h
            rw [e2]
            simp only [↓reduceIte, reduceCtorEq] at h ⊢
            omega
          · rw [e1] at h
            simp only [↓reduceIte] at h
            omega
        | false =>
          simp only [Bool.false_eq_true, ↓reduceIte]
          apply ih _ _ hk1 hn1
          · have : (if s1.state = ARRAY_NEWLINE then 1 else 0) ≤ 1 := by
              split <;> omega
            omega
          · omega
    · simp only [hi, ↓reduceIte]
      obtain ⟨L, k, v, S, q, nl⟩ := s
      cases S <;> simp only [lex_final]
      any_goals exact ⟨_, _, rfl⟩
      cases nl with
      | none => exact absurd rfl (hn rfl)
      | some x => exact ⟨_, _, rfl⟩

/-- C40, counterexample: started in the state `ARRAY_NEWLINE`, where the pointer to the
backslash is still null, the lexer writes through that pointer: on the line `#` in the
loop, on the line of one blank in the check of the final status. -/
theorem lexer_newline_state_undef :
    cfgcli_parse_line "#".toList 0 1 none none ARRAY_NEWLINE = run_t.undef ∧
    cfgcli_parse_line " ".toList 0 1 none none ARRAY_NEWLINE = run_t.undef := by
  refine ⟨?_, ?_⟩ <;> decide

/-- C40, amended: for every buffer, line offset, length and initial state the lexer ends
within its budget of `2 * len + 1` passes of the scanning loop, so no byte is examined more
than twice; it returns a status whenever the initial state is not `ARRAY_NEWLINE` and, in
the state `KEYWORD`, the key pointer is set; and a pass that decrements the index is a pass
in the state `ARRAY_NEWLINE` that enters the state `ARRAY_VALUE`, whose pass on the same
byte does not decrement again. -/
theorem lexer_terminates (line : List Char) (p len : Nat) (key value : Option Nat)
    (state : cfgcli_parse_state_t) :
    cfgcli_parse_line line p len key value state ≠ run_t.nofuel ∧
    (state ≠ ARRAY_NEWLINE → (state = KEYWORD → key ≠ none) →
      ∃ r L k v, cfgcli_parse_line line p len key value state = run_t.ret (r, L, k, v)) ∧
    (∀ (s s1 : lex_t) (a : Nat), lex_body s a = lex_step_t.go s1 true →
      s.state = ARRAY_NEWLINE ∧ s1.state = ARRAY_VALUE ∧
      ∀ s2, lex_body s1 a ≠ lex_step_t.go s2 true) := by
  refine ⟨parse_line_fuel line p len key value state, ?_, ?_⟩
  · intro h1 h2
    unfold cfgcli_parse_line
    split
    · exact ⟨_, _, _, _, rfl⟩
    · obtain ⟨r, s1, hr⟩ := parse_line_loop_ret len p (2 * len + 1)
        { line := line, key := key, value := value, state := state, quote := NUL,
          newline := none } 0 h2 (fun e => absurd e h1) (by
            simp only [h1, ↓reduceIte, Nat.sub_zero]
            omega) (by omega)
      rw [hr]
      exact ⟨_, _, _, _, rfl⟩
  · intro s s1 a h
    obtain ⟨e1, e2⟩ := lex_back_state s s1 a h
    exact ⟨e1, e2, fun s2 => lex_value_no_back s1 s2 a e2⟩

/-- The lexer started in the state `ARRAY_START` on the line `\ 1]` returns a status; on
that line the byte `1` is examined twice. -/
theorem lexer_terminates_witness :
    ∃ r L k v, cfgcli_parse_line "[\\ 1]".toList 1 4 (some 0) (some 0) ARRAY_START =
      run_t.ret (r, L, k, v) :=
  (lexer_terminates "[\\ 1]".toList 1 4 (some 0) (some 0) ARRAY_START).2.1 (by decide)
    (by decide)

/-! ## What the lexer has recorded when it returns `DONE` -/

theorem bool_three (x y z : Bool) (h : ¬ ((!x && !y && !z) = true)) : (x || y || z) = true := by
  cases x <;> cases y <;> cases z <;> simp at h ⊢

theorem getD_poke_self (L : List Char) (a : Nat) : (poke L a NUL).getD a NUL = NUL := by
  unfold poke
  by_cases h : a < L.length
  · rw [List.getD_eq_getElem _ _ (by rw [List.length_set]; exact h)]
    simp
  · rw [List.getD_eq_default _ _ (by rw [List.length_set]; omega)]

theorem getD_poke_ne (L : List Char) (a m : Nat) (c : Char) (h : m ≠ a) :
    (poke L a c).getD m NUL = L.getD m NUL :=
  getD_set_ne L a m c (fun e => h e.symm)

theorem lex_key_mono {p : Nat} {L : List Char} {key : Option Nat} {e a b : Nat}
    (h : lex_key p L key e a) (hab : a ≤ b) : lex_key p L key e b := by
  obtain ⟨k, h1, h2, h3, h4, h5⟩ := h
  exact ⟨k, h1, h2, h3, Nat.lt_of_lt_of_le h4 hab, h5⟩

theorem lex_post_mono {p : Nat} {L : List Char} {key value : Option Nat} {a b : Nat}
    (h : lex_post p L key value a) (hab : a ≤ b) : lex_post p L key value b := by
  obtain ⟨e, v, h1, h2, h3, h4⟩ := h
  exact ⟨e, v, h1, h2, Nat.lt_of_lt_of_le h3 hab, h4⟩

/-- A byte stored at an index that is not before `a` leaves what is recorded before `a`. -/
theorem lex_post_poke {p : Nat} {L : List Char} {key value : Option Nat} {a : Nat}
    (h : lex_post p L key value a) (b : Nat) (hb : a ≤ b) (c : Char) :
    lex_post p (poke L b c) key value a := by
  obtain ⟨e, v, ⟨k, h1, h2, h3, h4, h5, h6, h7, h8⟩, hv, hva, hg, hc⟩ := h
  refine ⟨e, v, ⟨k, h1, h2, h3, h4, h5, ?_, ?_, ?_⟩, hv, hva, ?_, ?_⟩
  · rw [getD_poke_ne _ _ _ _ (by omega)]
    exact h6
  · intro m hm1 hm2
    rw [getD_poke_ne _ _ _ _ (by omega)]
    exact h7 m hm1 hm2
  · rw [getD_poke_ne _ _ _ _ (by omega)]
    exact h8
  · rw [getD_poke_ne _ _ _ _ (by omega)]
    exact hg
  · rw [getD_poke_ne _ _ _ _ (by omega)]
    exact hc

/-- The pass in the state `KEYWORD` that ends the keyword. -/
theorem lex_open_close {p : Nat} {L : List Char} {k a : Nat}
    (h : lex_open p L (some k) a) (hlen : ¬ ((a : Int) - (k : Int) ≥ (CFGCLI_MAX_NAME_LEN : Int))) :
    lex_key p (poke L a NUL) (some k) a (a + 1) := by
  obtain ⟨k1, e1, h2, h3, h5, h6⟩ := h
  cases e1
  refine ⟨k, rfl, h2, h3, Nat.lt_succ_self a, ?_, ?_, ?_, getD_poke_self L a⟩
  · omega
  · rw [getD_poke_ne _ _ _ _ (by omega)]
    exact h5
  · intro m hm1 hm2
    rw [getD_poke_ne _ _ _ _ (by omega)]
    exact h6 m hm1 hm2

/-- The pass in the state `VALUE_START` that records the value pointer. -/
theorem lex_key_value {p : Nat} {L : List Char} {key : Option Nat} {e a : Nat}
    (h : lex_key p L key e a) (hg : isgraph (L.getD a NUL) = true) (hc : L.getD a NUL ≠ '#') :
    lex_post p L key (some a) (a + 1) :=
  ⟨e, a, h, rfl, Nat.lt_succ_self a, hg, hc⟩

/-- One pass of the scanning loop that goes on keeps what is recorded. -/
theorem lex_inv_step (p : Nat) (s s1 : lex_t) (a : Nat) (b : Bool) (hp : p ≤ a)
    (hi : lex_inv p s a) (h : lex_body s a = lex_step_t.go s1 b) :
    lex_inv p s1 (if b then a else a + 1) := by
  obtain ⟨L, k, v, S, q, nl⟩ := s
  cases S <;> simp only [lex_body] at h <;> simp only [lex_inv] at hi
  · -- START
    split at h
    · rename_i hc
      cases h
      simp only [Bool.false_eq_true, ↓reduceIte, lex_inv]
      exact ⟨a, rfl, hp, Nat.lt_succ_self a, hc, fun m h1 h2 => by omega⟩
    · split at h
      · exact lex_step_t.noConfusion h
      · split at h
        · exact lex_step_t.noConfusion h
        · cases h
          trivial
  · -- KEYWORD
    split at h
    · cases k with
      | none => exact lex_step_t.noConfusion h
      | some k0 =>
        simp only at h
        split at h
        · exact lex_step_t.noConfusion h
        · rename_i hlen
          cases h
          have := lex_open_close hi hlen
          by_cases hq : (L.getD a NUL == CFGCLI_SYM_EQUAL) = true
          · simp only [hq, Bool.false_eq_true, ↓reduceIte, lex_inv]
            exact ⟨a, this⟩
          · simp only [hq, Bool.false_eq_true, ↓reduceIte, lex_inv]
            exact ⟨a, this⟩
    · rename_i hc
      split at h
      · exact lex_step_t.noConfusion h
      · rename_i hn
        cases h
        simp only [Bool.false_eq_true, ↓reduceIte, lex_inv]
        obtain ⟨k1, e1, h2, h3, h5, h6⟩ := hi
        refine ⟨k1, e1, h2, Nat.lt_succ_of_lt h3, h5, ?_⟩
        intro m hm1 hm2
        by_cases hm : m < a
        · exact h6 m hm1 hm
        · have : m = a := by omega
          subst this
          exact bool_three _ _ _ hn
  · -- EQUAL
    obtain ⟨e, he⟩ := hi
    split at h
    · cases h
      simp only [Bool.false_eq_true, ↓reduceIte, lex_inv]
      exact ⟨e, lex_key_mono he (Nat.le_succ a)⟩
    · split at h
      · exact lex_step_t.noConfusion h
      · cases h
        simp only [Bool.false_eq_true, ↓reduceIte, lex_inv]
        exact ⟨e, lex_key_mono he (Nat.le_succ a)⟩
  · -- VALUE_START
    obtain ⟨e, he⟩ := hi
    split at h
    · rename_i hc
      cases h
      simp only [Bool.false_eq_true, ↓reduceIte, lex_inv]
      refine lex_key_value he ?_ ?_
      · simp only [Bool.or_eq_true, beq_iff_eq] at hc
        rcases hc with hc | hc <;> rw [hc] <;> decide
      · simp only [Bool.or_eq_true, beq_iff_eq] at hc
        rcases hc with hc | hc <;> rw [hc] <;> decide
    · split at h
      · rename_i hc
        cases h
        have : L.getD a NUL = '[' := by simpa [CFGCLI_SYM_ARRAY_START] using hc
        simp only [Bool.false_eq_true, ↓reduceIte, lex_inv]
        refine lex_key_value he ?_ ?_ <;> rw [this] <;> decide
      · split at h
        · exact lex_step_t.noConfusion h
        · rename_i hc
          split at h
          · rename_i hg
            cases h
            simp only [Bool.false_eq_true, ↓reduceIte, lex_inv]
            refine lex_key_value he hg ?_
            simpa [CFGCLI_SYM_COMMENT] using hc
          · split at h
            · exact lex_step_t.noConfusion h
            · cases h
              simp only [Bool.false_eq_true, ↓reduceIte, lex_inv]
              exact ⟨e, lex_key_mono he (Nat.le_succ a)⟩
  all_goals repeat' split at h
  all_goals first
    | exact lex_step_t.noConfusion h
    | (cases h
       simp only [Bool.false_eq_true, ↓reduceIte, lex_inv]
       first
       | trivial
       | exact lex_post_mono hi (Nat.le_succ a)
       | exact hi)
    | (cases h
       trivial)

/-- A pass of the scanning loop that returns `DONE` has recorded keyword and value. -/
theorem lex_inv_stop (p : Nat) (s s1 : lex_t) (a : Nat)
    (hi : lex_inv p s a) (h : lex_body s a = lex_step_t.stop DONE s1) :
    lex_post p s1.line s1.key s1.value a := by
  obtain ⟨L, k, v, S, q, nl⟩ := s
  cases S <;> simp only [lex_body] at h <;> simp only [lex_inv] at hi
  all_goals repeat' split at h
  all_goals first
    | exact lex_step_t.noConfusion h
    | (simp only [lex_step_t.stop.injEq] at h
       obtain ⟨h1, h2⟩ := h
       first
       | exact cfgcli_parse_return_t.noConfusion h1
       | (subst h2
          exact lex_post_poke hi a (Nat.le_refl a) NUL))

/-- The check of the final status that returns `DONE` finds keyword and value recorded. -/
theorem lex_inv_final (p : Nat) (s s1 : lex_t) (a : Nat)
    (hi : lex_inv p s a) (h : lex_final s = run_t.ret (DONE, s1)) :
    lex_post p s1.line s1.key s1.value a := by
  obtain ⟨L, k, v, S, q, nl⟩ := s
  cases S <;> simp only [lex_final] at h <;> simp only [lex_inv] at hi
  all_goals first
    | (simp only [run_t.ret.injEq, Prod.mk.injEq] at h
       obtain ⟨h1, h2⟩ := h
       first
       | exact cfgcli_parse_return_t.noConfusion h1
       | (subst h2
          exact hi))
    | (split at h
       · exact run_t.noConfusion h
       · simp only [run_t.ret.injEq, Prod.mk.injEq] at h
         exact cfgcli_parse_return_t.noConfusion h.1)

/-- The scanning loop that returns `DONE` has recorded keyword and value in the line. -/
theorem parse_line_loop_done (p len : Nat) :
    ∀ (fuel : Nat) (s : lex_t) (i : Nat) (s1 : lex_t), lex_inv p s (p + i) → i ≤ len →
      parse_line_loop fuel s p len i = run_t.ret (DONE, s1) →
      lex_post p s1.line s1.key s1.value (p + len) := by
  intro fuel
  induction fuel with
  | zero =>
    intro s i s1 _ _ h
    exact run_t.noConfusion h
  | succ fuel ih =>
    intro s i s1 hi hl h
    rw [parse_line_loop] at h
    by_cases hlt : i < len
    · simp only [hlt, ↓reduceIte] at h
      cases hb : lex_body s (p + i) with
      | crash =>
        rw [hb] at h
        exact run_t.noConfusion h
      | stop r s2 =>
        rw [hb] at h
        simp only [run_t.ret.injEq, Prod.mk.injEq] at h
        obtain ⟨h1, h2⟩ := h
        subst h1 h2
        exact lex_post_mono (lex_inv_stop p s s2 _ hi hb) (by omega)
      | go s2 back =>
        rw [hb] at h
        have hs := lex_inv_step p s s2 (p + i) back (Nat.le_add_right p i) hi hb
        cases back with
        | true =>
          simp only [↓reduceIte] at h hs
          exact ih s2 i s1 hs hl h
        | false =>
          simp only [Bool.false_eq_true, ↓reduceIte] at h hs
          exact ih s2 (i + 1) s1 hs hlt h
    · simp only [hlt, ↓reduceIte] at h
      exact lex_post_mono (lex_inv_final p s s1 _ hi h) (by omega)

/-! ## The strings at the pointers that the lexer has recorded -/

theorem getD_lt_of_ne (L : List Char) (k : Nat) (h : L.getD k NUL ≠ NUL) : k < L.length := by
  by_contra hk
  exact h (List.getD_eq_default _ _ (by omega))

theorem cstr_at_cons (L : List Char) (k : Nat) (h : L.getD k NUL ≠ NUL) :
    cstr_at L k = L.getD k NUL :: cstr_at L (k + 1) := by
  have hk := getD_lt_of_ne L k h
  have hg : L.getD k NUL = L[k] := List.getD_eq_getElem _ _ hk
  rw [hg] at h ⊢
  unfold cstr_at
  rw [List.drop_eq_getElem_cons hk, List.takeWhile_cons]
  simp only [bne_iff_ne, ne_eq, h, not_false_eq_true, decide_True, ↓reduceIte]

theorem cstr_at_nil (L : List Char) (k : Nat) (h : L.getD k NUL = NUL) : cstr_at L k = [] := by
  unfold cstr_at
  by_cases hk : k < L.length
  · have hg : L.getD k NUL = L[k] := List.getD_eq_getElem _ _ hk
    rw [hg] at h
    rw [List.drop_eq_getElem_cons hk, List.takeWhile_cons]
    simp only [h, bne_self_eq_false, Bool.false_eq_true, ↓reduceIte]
  · rw [List.drop_eq_nil_of_le (by omega)]
    rfl

/-- The string at `k` of a buffer whose bytes from `k` to `k + n` are not NUL and whose
byte at `k + n` is NUL: its length, and its bytes. -/
theorem cstr_at_span (L : List Char) (P : Char → Prop) :
    ∀ (n k : Nat), (∀ m, k ≤ m → m < k + n → P (L.getD m NUL) ∧ L.getD m NUL ≠ NUL) →
      L.getD (k + n) NUL = NUL →
      (cstr_at L k).length = n ∧ ∀ c ∈ cstr_at L k, P c := by
  intro n
  induction n with
  | zero =>
    intro k _ h
    rw [cstr_at_nil L k h]
    exact ⟨rfl, fun c hc => absurd hc (List.not_mem_nil c)⟩
  | succ n ih =>
    intro k h1 h2
    obtain ⟨hp, hn⟩ := h1 k (Nat.le_refl k) (by omega)
    obtain ⟨i1, i2⟩ := ih (k + 1) (fun m hm1 hm2 => h1 m (by omega) (by omega))
      (by rw [show k + 1 + n = k + (n + 1) by omega]; exact h2)
    rw [cstr_at_cons L k hn]
    refine ⟨by rw [List.length_cons, i1], ?_⟩
    intro c hc
    rcases List.mem_cons.1 hc with e | e
    · rw [e]
      exact hp
    · exact i2 c e

/-- The keyword that the lexer has recorded follows the identifier grammar. -/
theorem name_grammar_of_key (p : Nat) (L : List Char) (k e a : Nat)
    (h : lex_key p L (some k) e a) :
    name_grammar (cstr_at L k) = true ∧ (cstr_at L k).length = e - k := by
  obtain ⟨k1, e1, _, h3, _, h5, h6, h7, h8⟩ := h
  cases e1
  have hk : L.getD k NUL ≠ NUL := name_head_ne_NUL h6
  obtain ⟨i1, i2⟩ := cstr_at_span L
    (fun c => (isalnum c || c == '_' || c == '-') = true) (e - k - 1) (k + 1)
    (fun m hm1 hm2 => ⟨h7 m (by omega) (by omega), name_char_ne_NUL (h7 m (by omega) (by omega))⟩)
    (by rw [show k + 1 + (e - k - 1) = e by omega]; exact h8)
  rw [cstr_at_cons L k hk]
  refine ⟨?_, by rw [List.length_cons, i1]; omega⟩
  simp only [name_grammar, Bool.and_eq_true, decide_eq_true_eq, List.all_eq_true,
    List.length_cons, i1]
  refine ⟨⟨h6, i2⟩, ?_⟩
  simp only [CFGCLI_MAX_NAME_LEN] at h5
  omega

/-- The lexer started in the state `START` that returns `DONE` has recorded keyword and
value in the line. -/
theorem parse_line_done (line : List Char) (p len : Nat) (key0 value0 : Option Nat)
    (L : List Char) (key value : Option Nat)
    (h : cfgcli_parse_line line p len key0 value0 START = run_t.ret (DONE, L, key, value)) :
    lex_post p L key value (p + len) := by
  unfold cfgcli_parse_line at h
  split at h
  · simp only [run_t.ret.injEq, Prod.mk.injEq] at h
    exact cfgcli_parse_return_t.noConfusion h.1
  · cases hr : parse_line_loop (2 * len + 1)
      { line := line, key := key0, value := value0, state := START, quote := NUL,
        newline := none } p len 0 with
    | undef =>
      rw [hr] at h
      exact run_t.noConfusion h
    | nofuel =>
      rw [hr] at h
      exact run_t.noConfusion h
    | ret x =>
      obtain ⟨r, s⟩ := x
      rw [hr] at h
      simp only [run_t.ret.injEq, Prod.mk.injEq] at h
      obtain ⟨h1, h2, h3, h4⟩ := h
      subst h1 h2 h3 h4
      exact parse_line_loop_done p len _ _ 0 s (by simp only [lex_inv]) (Nat.zero_le len) hr

/-- C37: when the lexer, started in the state `START` on the line of `len` bytes at offset
`p` of any buffer, returns `DONE`, the key pointer and the value pointer are set; the
keyword at the key pointer lies in the line, follows the identifier grammar (a letter, `_`
or `-` first; letters, digits, `_` or `-` after; at most 127 characters) and is terminated
by a NUL in place; the value pointer lies behind that NUL in the same line, on a graphic
byte other than `#`, which is the first byte of the value. -/
theorem done_postcondition (line : List Char) (p len : Nat) (key0 value0 : Option Nat)
    (L : List Char) (key value : Option Nat)
    (h : cfgcli_parse_line line p len key0 value0 START = run_t.ret (DONE, L, key, value)) :
    ∃ k v, key = some k ∧ value = some v ∧ p ≤ k ∧
      name_grammar (cstr_at L k) = true ∧ L.getD (k + (cstr_at L k).length) NUL = NUL ∧
      k + (cstr_at L k).length < v ∧ v < p + len ∧
      isgraph (L.getD v NUL) = true ∧ L.getD v NUL ≠ '#' ∧
      (cstr_at L v).head? = some (L.getD v NUL) := by
  obtain ⟨e, v, hk, hv, hva, hg, hc⟩ := parse_line_done line p len key0 value0 L key value h
  obtain ⟨k, h1, h2, h3, h4, h5, h6, h7, h8⟩ := id hk
  subst h1
  obtain ⟨g1, g2⟩ := name_grammar_of_key p L k e v hk
  have he : k + (cstr_at L k).length = e := by
    rw [g2]
    omega
  refine ⟨k, v, rfl, hv, h2, g1, ?_, ?_, hva, hg, hc, ?_⟩
  · rw [he]
    exact h8
  · rw [he]
    exact h4
  · rw [cstr_at_cons L v (isgraph_ne_NUL hg)]
    rfl

/-- The line `a=1`: the keyword `a` at index 0, terminated in place, and the value `1` at
index 2. -/
theorem done_postcondition_witness :
    ∃ k v, (some 0 : Option Nat) = some k ∧ (some 2 : Option Nat) = some v ∧ 0 ≤ k ∧
      name_grammar (cstr_at ['a', NUL, '1'] k) = true ∧
      ['a', NUL, '1'].getD (k + (cstr_at ['a', NUL, '1'] k).length) NUL = NUL ∧
      k + (cstr_at ['a', NUL, '1'] k).length < v ∧ v < 0 + 3 ∧
      isgraph (['a', NUL, '1'].getD v NUL) = true ∧ ['a', NUL, '1'].getD v NUL ≠ '#' ∧
      (cstr_at ['a', NUL, '1'] v).head? = some (['a', NUL, '1'].getD v NUL) :=
  done_postcondition "a=1".toList 0 3 none none ['a', NUL, '1'] (some 0) (some 2) (by decide)

/-! ## Names at registration and keywords in a file -/

/-- Registering one descriptor whose name does not follow the grammar fails with the code
for an invalid input. -/
theorem set_params_badname (cfg : cfgcli_t) (d : cfgcli_param_t) (herr : cfg.error.errno = 0)
    (hn : name_ok d.name = false) :
    ∃ c1, cfgcli_set_params cfg [d] = run_t.ret (CFGCLI_ERR_INPUT, c1) := by
  obtain ⟨c1, hc1⟩ := set_params_body_badname
    { cfg with params := cfg.params.take cfg.npar ++ List.replicate [d].length param_zero } 0 d hn
  have he : CFGCLI_IS_ERROR cfg = false := by simp [CFGCLI_IS_ERROR, CFGCLI_ERRNO, herr]
  refine ⟨c1, ?_⟩
  unfold cfgcli_set_params
  simp only [he, Bool.false_eq_true, ↓reduceIte, reduceCtorEq, set_params_loop]
  rw [hc1]
  have : (CFGCLI_ERR_INPUT = 0) = False := by
    simp [CFGCLI_ERR_INPUT]
  simp only [this, ↓reduceIte]

/-- The line `n = 1` for a name `n` of the grammar is lexed as done with the keyword `n`. -/
theorem entry_one_lexed (n : List Char) (hn : name_grammar n = true) :
    cfgcli_parse_line (entry_line n ['1']) 0 (entry_line n ['1']).length none none START =
      run_t.ret (DONE, n ++ NUL :: '=' :: ' ' :: ['1'], some 0, some (n.length + 3)) ∧
    cstr_at (n ++ NUL :: '=' :: ' ' :: ['1']) 0 = n := by
  have h := entry_lexed_plain n '1' [] hn (by decide) (by decide)
    (fun x hx => absurd hx (List.not_mem_nil x))
  simp only [entry_lexed, decide_eq_true_eq] at h
  exact ⟨h, cstr_at_zero n _ (name_grammar_no_NUL n hn)⟩

/-- C38: for a registry without error and a descriptor that is valid in every field but
possibly its name `n` and duplicates nothing registered, `cfgcli_set_params` registers the
descriptor (returns 0) if and only if the lexer, started in the state `START` on the line
`n = 1`, returns `DONE` with the key pointer on the string `n`. -/
theorem names_agree (cfg : cfgcli_t) (d : cfgcli_param_t) (n : List Char)
    (herr : cfg.error.errno = 0) (hreg : registry_ok cfg = true)
    (hd : param_desc_ok d = true) (hfresh : param_fresh cfg d = true)
    (hdn : d.name = some n) :
    (∃ cfg1, cfgcli_set_params cfg [d] = run_t.ret (0, cfg1)) ↔
    (∃ L k v, cfgcli_parse_line (entry_line n ['1']) 0 (entry_line n ['1']).length none none
        START = run_t.ret (DONE, L, some k, v) ∧ cstr_at L k = n) := by
  constructor
  · rintro ⟨cfg1, h⟩
    have hn : name_grammar n = true := by
      by_contra hc
      have hbad : name_ok d.name = false := by
        rw [hdn]
        simpa [name_ok] using hc
      obtain ⟨c1, h1⟩ := set_params_badname cfg d herr hbad
      rw [h1] at h
      simp only [run_t.ret.injEq, Prod.mk.injEq] at h
      exact absurd h.1 (by decide)
    obtain ⟨g1, g2⟩ := entry_one_lexed n hn
    exact ⟨_, 0, _, g1, g2⟩
  · rintro ⟨L, k, v, h, hk⟩
    obtain ⟨e, v1, hkey, _⟩ := parse_line_done _ 0 _ none none L (some k) v h
    have hn : name_grammar n = true := by
      rw [← hk]
      exact (name_grammar_of_key 0 L k e v1 hkey).1
    have hok : name_ok d.name = true := by
      rw [hdn]
      exact hn
    exact ⟨_, set_params_single cfg d herr hreg hok hd hfresh⟩

/-- The name `conf` of the example descriptor: it is registered on the empty registry, and
the line `conf = 1` is lexed as done with the keyword `conf`. -/
theorem names_agree_witness :
    (∃ cfg1, cfgcli_set_params cfgcli_init [ex_conf] = run_t.ret (0, cfg1)) ↔
    (∃ L k v, cfgcli_parse_line (entry_line "conf".toList ['1']) 0
        (entry_line "conf".toList ['1']).length none none START =
          run_t.ret (DONE, L, some k, v) ∧ cstr_at L k = "conf".toList) :=
  names_agree cfgcli_init ex_conf "conf".toList (by decide) (by decide) (by decide)
    (by decide) (by decide)

/-! ## The array rules of the lexer and of the splitter, pass by pass -/

theorem sym_cases {c : Char}
    (h : ¬ ((c == CFGCLI_SYM_ARRAY_SEP || c == CFGCLI_SYM_ARRAY_END || c == CFGCLI_SYM_COMMENT)
      = true)) : c ≠ ',' ∧ c ≠ ']' ∧ c ≠ '#' := by
  simp only [CFGCLI_SYM_ARRAY_SEP, CFGCLI_SYM_ARRAY_END, CFGCLI_SYM_COMMENT, Bool.or_eq_true,
    beq_iff_eq, not_or] at h
  exact ⟨h.1.1, h.1.2, h.2⟩

theorem quote_cases {c : Char} (h : ¬ ((c == '"' || c == '\'') = true)) :
    c ≠ '"' ∧ c ≠ '\'' := by
  simp only [Bool.or_eq_true, beq_iff_eq, not_or] at h
  exact h

theorem space_bare_tail {c : Char} (h : isspace c = true) (hp : isprint c = true) :
    bare_tail c = true := by
  simp only [bare_tail, Bool.and_eq_true, bne_iff_ne, ne_eq]
  exact ⟨⟨⟨hp, space_not_sym h ',' (by decide)⟩, space_not_sym h ']' (by decide)⟩,
    space_not_sym h '#' (by decide)⟩

/-- One pass of the lexer inside an array that goes on, and the pass of the splitter on
the same byte in the state that goes with the state of the lexer: the lexer enters the
state `CLEAN`, or it decrements the index and the splitter is in the state that goes with
the new state, or the splitter goes on as well, into the state that goes with the new
state of the lexer. -/
theorem sim_step (s s1 : lex_t) (t : split_t) (a j : Nat) (b : Bool)
    (hrel : lex_split_rel s t) (hc : t.value.getD j NUL = s.line.getD a NUL)
    (hws : s.state = ARRAY_NEWLINE → isspace (s.line.getD a NUL) = true →
      isprint (s.line.getD a NUL) = true)
    (h : lex_body s a = lex_step_t.go s1 b) :
    s1.state = CLEAN ∨
    (b = true ∧ s.state = ARRAY_NEWLINE ∧ s1.state = ARRAY_VALUE ∧ s1.line = s.line ∧
      s1.value = s.value ∧ lex_split_rel s1 t) ∨
    (b = false ∧ s1.line = s.line ∧ s1.value = s.value ∧
      (s1.state = ARRAY_NEWLINE →
        s.state = ARRAY_NEWLINE ∨ (s.state = ARRAY_START ∧ s.line.getD a NUL = '\\')) ∧
      ∃ t1, split_body t j = split_step_t.go t1 ∧ lex_split_rel s1 t1 ∧
        (t1.value = t.value ∨ t1.value = poke t.value j NUL)) := by
  obtain ⟨L, k, v, S, q, nl⟩ := s
  obtain ⟨V, n, T, tq, st, e⟩ := t
  simp only at hc
  cases S <;> simp only [lex_split_rel] at hrel <;> simp only [lex_body] at h
  · -- ARRAY_START
    subst hrel
    split at h
    · exact lex_step_t.noConfusion h
    · rename_i h1
      obtain ⟨n1, n2, n3⟩ := sym_cases h1
      split at h
      · rename_i h2
        cases h
        refine Or.inr (Or.inr ⟨rfl, rfl, rfl, fun e => cfgcli_parse_state_t.noConfusion e,
          _, sb_start_quote V n tq st e j ?_, ?_, Or.inl rfl⟩)
        · rw [hc]
          simpa using h2
        · exact ⟨rfl, hc⟩
      · rename_i h2
        obtain ⟨m1, m2⟩ := quote_cases h2
        split at h
        · rename_i h3
          cases h
          have hb : L.getD a NUL = '\\' := by simpa [CFGCLI_SYM_NEWLINE] using h3
          refine Or.inr (Or.inr ⟨rfl, rfl, rfl, fun _ => Or.inr ⟨rfl, hb⟩,
            _, sb_start_plain V n tq st e j ?_ ?_, rfl, Or.inl rfl⟩)
          · rw [hc, hb]
            decide
          · rw [hc]
            exact ⟨n1, n2, n3, m1, m2⟩
        · split at h
          · rename_i h4
            cases h
            refine Or.inr (Or.inr ⟨rfl, rfl, rfl, fun e => cfgcli_parse_state_t.noConfusion e,
              _, sb_start_plain V n tq st e j ?_ ?_, rfl, Or.inl rfl⟩)
            · rw [hc]
              exact h4
            · rw [hc]
              exact ⟨n1, n2, n3, m1, m2⟩
          · split at h
            · exact lex_step_t.noConfusion h
            · rename_i h5
              cases h
              refine Or.inr (Or.inr ⟨rfl, rfl, rfl,
                fun e => cfgcli_parse_state_t.noConfusion e,
                _, sb_start_space V n tq st e j ?_, rfl, Or.inl rfl⟩)
              rw [hc]
              simpa using h5
  · -- ARRAY_VALUE
    subst hrel
    split at h
    · rename_i h1
      cases h
      refine Or.inr (Or.inr ⟨rfl, rfl, rfl, fun e => cfgcli_parse_state_t.noConfusion e,
        _, sb_comma V n ARRAY_VALUE tq st e j (Or.inl rfl) ?_, rfl, Or.inr rfl⟩)
      rw [hc]
      simpa [CFGCLI_SYM_ARRAY_SEP] using h1
    · rename_i h1
      split at h
      · rename_i h2
        cases h
        refine Or.inr (Or.inr ⟨rfl, rfl, rfl, fun e => cfgcli_parse_state_t.noConfusion e,
          _, sb_close V n ARRAY_VALUE tq st e j (Or.inl rfl) ?_, rfl, Or.inl rfl⟩)
        rw [hc]
        simpa [CFGCLI_SYM_ARRAY_END] using h2
      · rename_i h2
        split at h
        · exact lex_step_t.noConfusion h
        · rename_i h3
          cases h
          refine Or.inr (Or.inr ⟨rfl, rfl, rfl, fun e => cfgcli_parse_state_t.noConfusion e,
            _, split_body_tail V n tq st e j ?_, rfl, Or.inl rfl⟩)
          rw [hc]
          simp only [CFGCLI_SYM_ARRAY_SEP, CFGCLI_SYM_ARRAY_END, CFGCLI_SYM_COMMENT,
            beq_iff_eq, Bool.or_eq_true, Bool.not_eq_true', not_or, Bool.not_eq_false] at h1 h2 h3
          simp only [bare_tail, Bool.and_eq_true, bne_iff_ne, ne_eq]
          exact ⟨⟨⟨h3.2, h1⟩, h2⟩, h3.1⟩
  · -- ARRAY_QUOTE
    obtain ⟨hT, hq⟩ := hrel
    subst hT hq
    split at h
    · rename_i h1
      cases h
      refine Or.inr (Or.inr ⟨rfl, rfl, rfl, fun e => cfgcli_parse_state_t.noConfusion e,
        _, sb_quote_close V n tq st e j ?_, rfl, Or.inl rfl⟩)
      rw [hc]
      simpa using h1
    · rename_i h1
      cases h
      refine Or.inr (Or.inr ⟨rfl, rfl, rfl, fun e => cfgcli_parse_state_t.noConfusion e,
        _, sb_quote_in V n tq st e j ?_, ⟨rfl, rfl⟩, Or.inl rfl⟩)
      rw [hc]
      simpa using h1
  · -- ARRAY_QUOTE_END
    subst hrel
    split at h
    · rename_i h1
      cases h
      refine Or.inr (Or.inr ⟨rfl, rfl, rfl, fun e => cfgcli_parse_state_t.noConfusion e,
        _, sb_comma V n ARRAY_QUOTE_END tq st e j (Or.inr rfl) ?_, rfl, Or.inr rfl⟩)
      rw [hc]
      simpa [CFGCLI_SYM_ARRAY_SEP] using h1
    · split at h
      · rename_i h2
        cases h
        refine Or.inr (Or.inr ⟨rfl, rfl, rfl, fun e => cfgcli_parse_state_t.noConfusion e,
          _, sb_close V n ARRAY_QUOTE_END tq st e j (Or.inr rfl) ?_, rfl, Or.inl rfl⟩)
        rw [hc]
        simpa [CFGCLI_SYM_ARRAY_END] using h2
      · split at h
        · exact lex_step_t.noConfusion h
        · rename_i h3
          cases h
          refine Or.inr (Or.inr ⟨rfl, rfl, rfl, fun e => cfgcli_parse_state_t.noConfusion e,
            _, sb_qend_space V n tq st e j ?_, rfl, Or.inl rfl⟩)
          rw [hc]
          simpa using h3
  · -- ARRAY_NEWLINE
    subst hrel
    split at h
    · cases nl with
      | none => exact lex_step_t.noConfusion h
      | some x =>
        cases h
        exact Or.inl rfl
    · split at h
      · cases h
        exact Or.inr (Or.inl ⟨rfl, rfl, rfl, rfl, rfl, rfl⟩)
      · rename_i h3
        cases h
        have hsp : isspace (L.getD a NUL) = true := by simpa using h3
        refine Or.inr (Or.inr ⟨rfl, rfl, rfl, fun _ => Or.inl rfl,
          _, split_body_tail V n tq st e j ?_, rfl, Or.inl rfl⟩)
        rw [hc]
        exact space_bare_tail hsp (hws rfl hsp)
  · -- ARRAY_END
    subst hrel
    split at h
    · exact lex_step_t.noConfusion h
    · split at h
      · exact lex_step_t.noConfusion h
      · rename_i h3
        cases h
        have hsp : isspace (L.getD a NUL) = true := by simpa using h3
        refine Or.inr (Or.inr ⟨rfl, rfl, rfl, fun e => cfgcli_parse_state_t.noConfusion e,
          _, sb_end_blank V n tq st e j ?_, rfl, Or.inl rfl⟩)
        rw [hc]
        exact (space_classes hsp).2.1

/-- A pass of the lexer inside an array that returns `DONE` is a pass in the state
`ARRAY_END` that puts a NUL on the byte it reads. -/
theorem sim_stop (s s1 : lex_t) (t : split_t) (a : Nat) (hrel : lex_split_rel s t)
    (h : lex_body s a = lex_step_t.stop DONE s1) :
    t.state = ARRAY_END ∧ s1.line = poke s.line a NUL ∧ s1.value = s.value := by
  obtain ⟨L, k, v, S, q, nl⟩ := s
  cases S <;> simp only [lex_split_rel] at hrel <;> simp only [lex_body] at h
  all_goals repeat' split at h
  all_goals first
    | exact lex_step_t.noConfusion h
    | (simp only [lex_step_t.stop.injEq] at h
       obtain ⟨h1, h2⟩ := h
       first
       | exact cfgcli_parse_return_t.noConfusion h1
       | (subst h2
          exact ⟨hrel, rfl, rfl⟩))

/-- The check of the final status inside an array that returns `DONE` finds the state
`ARRAY_END`. -/
theorem sim_final (s s1 : lex_t) (t : split_t) (hrel : lex_split_rel s t)
    (h : lex_final s = run_t.ret (DONE, s1)) : t.state = ARRAY_END ∧ s1 = s := by
  obtain ⟨L, k, v, S, q, nl⟩ := s
  cases S <;> simp only [lex_split_rel] at hrel <;> simp only [lex_final] at h
  all_goals first
    | (simp only [run_t.ret.injEq, Prod.mk.injEq] at h
       obtain ⟨h1, h2⟩ := h
       first
       | exact cfgcli_parse_return_t.noConfusion h1
       | (subst h2
          exact ⟨hrel, rfl⟩))
    | (split at h
       · exact run_t.noConfusion h
       · simp only [run_t.ret.injEq, Prod.mk.injEq] at h
         exact cfgcli_parse_return_t.noConfusion h.1)

/-- From the state `CLEAN` the scanning loop never returns `DONE`. -/
theorem clean_not_done (p len : Nat) :
    ∀ (fuel : Nat) (s : lex_t) (i : Nat) (sf : lex_t), s.state = CLEAN →
      parse_line_loop fuel s p len i ≠ run_t.ret (DONE, sf) := by
  intro fuel
  induction fuel with
  | zero =>
    intro s i sf _ h
    exact run_t.noConfusion h
  | succ fuel ih =>
    intro s i sf hs h
    obtain ⟨L, k, v, S, q, nl⟩ := s
    simp only at hs
    subst hs
    rw [parse_line_loop] at h
    split at h
    · simp only [lex_body, Bool.false_eq_true, ↓reduceIte] at h
      exact ih _ _ sf rfl h
    · simp only [lex_final, run_t.ret.injEq, Prod.mk.injEq] at h
      exact cfgcli_parse_return_t.noConfusion h.1

/-! ## The lexer before and inside the value -/

/-- One pass inside a value that goes on: the lexer enters the state `CLEAN`, or it keeps
the line and the value pointer and stays inside the value. -/
theorem value_step (s s1 : lex_t) (a : Nat) (b : Bool) (hs : lex_in_value s.state = true)
    (h : lex_body s a = lex_step_t.go s1 b) :
    s1.state = CLEAN ∨
    (s1.line = s.line ∧ s1.value = s.value ∧ lex_in_value s1.state = true) := by
  obtain ⟨L, k, v, S, q, nl⟩ := s
  cases S <;> simp only [lex_in_value, Bool.false_eq_true] at hs <;>
    simp only [lex_body] at h
  all_goals repeat' split at h
  all_goals first
    | exact lex_step_t.noConfusion h
    | (cases h
       first
       | exact Or.inl rfl
       | exact Or.inr ⟨rfl, rfl, rfl⟩)

/-- A pass inside a value that returns `DONE` puts a NUL on the byte it reads. -/
theorem value_stop (s s1 : lex_t) (a : Nat) (h : lex_body s a = lex_step_t.stop DONE s1) :
    s1.line = poke s.line a NUL ∧ s1.value = s.value := by
  obtain ⟨L, k, v, S, q, nl⟩ := s
  cases S <;> simp only [lex_body] at h
  all_goals repeat' split at h
  all_goals first
    | exact lex_step_t.noConfusion h
    | (simp only [lex_step_t.stop.injEq] at h
       obtain ⟨h1, h2⟩ := h
       first
       | exact cfgcli_parse_return_t.noConfusion h1
       | (subst h2
          exact ⟨rfl, rfl⟩))

theorem final_done (s s1 : lex_t) (h : lex_final s = run_t.ret (DONE, s1)) : s1 = s := by
  obtain ⟨L, k, v, S, q, nl⟩ := s
  cases S <;> simp only [lex_final] at h
  all_goals first
    | (simp only [run_t.ret.injEq, Prod.mk.injEq] at h
       obtain ⟨h1, h2⟩ := h
       first
       | exact cfgcli_parse_return_t.noConfusion h1
       | exact h2.symm)
    | (split at h
       · exact run_t.noConfusion h
       · simp only [run_t.ret.injEq, Prod.mk.injEq] at h
         exact cfgcli_parse_return_t.noConfusion h.1)

/-- The scanning loop inside a value that returns `DONE` keeps the value pointer and the
bytes before the index it starts from. -/
theorem value_frame (p len : Nat) :
    ∀ (fuel : Nat) (s : lex_t) (i : Nat) (sf : lex_t), lex_in_value s.state = true →
      parse_line_loop fuel s p len i = run_t.ret (DONE, sf) →
      sf.value = s.value ∧ ∀ m, m < p + i → sf.line.getD m NUL = s.line.getD m NUL := by
  intro fuel
  induction fuel with
  | zero =>
    intro s i sf _ h
    exact run_t.noConfusion h
  | succ fuel ih =>
    intro s i sf hs h
    rw [parse_line_loop] at h
    by_cases hlt : i < len
    · simp only [hlt, ↓reduceIte] at h
      cases hb : lex_body s (p + i) with
      | crash =>
        rw [hb] at h
        exact run_t.noConfusion h
      | stop r s2 =>
        rw [hb] at h
        simp only [run_t.ret.injEq, Prod.mk.injEq] at h
        obtain ⟨h1, h2⟩ := h
        subst h1 h2
        obtain ⟨e1, e2⟩ := value_stop s s2 _ hb
        refine ⟨e2, fun m hm => ?_⟩
        rw [e1, getD_poke_ne _ _ _ _ (by omega)]
      | go s2 back =>
        rw [hb] at h
        simp only at h
        rcases value_step s s2 _ back hs hb with hc | ⟨e1, e2, e3⟩
        · exact absurd h (clean_not_done p len _ _ _ sf hc)
        · obtain ⟨g1, g2⟩ := ih s2 _ sf e3 h
          refine ⟨g1.trans e2, fun m hm => ?_⟩
          rw [← e1]
          apply g2
          split <;> omega
    · simp only [hlt, ↓reduceIte] at h
      have := final_done s sf h
      subst this
      exact ⟨rfl, fun _ _ => rfl⟩

/-- One pass before the value that goes on: the lexer stays before the value and keeps
the bytes behind the index, or it is in the state `VALUE_START` and records the value
pointer, on the opening bracket when it enters the state `ARRAY_START`, on another byte
when it enters the state `QUOTE` or `VALUE`. -/
theorem before_step (s s1 : lex_t) (a : Nat) (b : Bool)
    (hs : lex_before_value s.state = true) (h : lex_body s a = lex_step_t.go s1 b) :
    b = false ∧
    ((lex_before_value s1.state = true ∧ ∀ m, a < m → s1.line.getD m NUL = s.line.getD m NUL) ∨
     (s1.value = some a ∧ s1.line = s.line ∧
       ((s1.state = ARRAY_START ∧ s.line.getD a NUL = '[') ∨
        ((s1.state = QUOTE ∨ s1.state = VALUE) ∧ s.line.getD a NUL ≠ '[')))) := by
  obtain ⟨L, k, v, S, q, nl⟩ := s
  cases S <;> simp only [lex_before_value, Bool.false_eq_true] at hs <;>
    simp only [lex_body] at h
  · -- START
    repeat' split at h
    all_goals first
      | exact lex_step_t.noConfusion h
      | (cases h
         exact ⟨rfl, Or.inl ⟨rfl, fun _ _ => rfl⟩⟩)
  · -- KEYWORD
    split at h
    · cases k with
      | none => exact lex_step_t.noConfusion h
      | some k0 =>
        simp only at h
        split at h
        · exact lex_step_t.noConfusion h
        · cases h
          refine ⟨rfl, Or.inl ⟨?_, fun m hm => getD_poke_ne _ _ _ _ (by omega)⟩⟩
          simp only
          split <;> rfl
    · split at h
      · exact lex_step_t.noConfusion h
      · cases h
        exact ⟨rfl, Or.inl ⟨rfl, fun _ _ => rfl⟩⟩
  · -- EQUAL
    repeat' split at h
    all_goals first
      | exact lex_step_t.noConfusion h
      | (cases h
         exact ⟨rfl, Or.inl ⟨rfl, fun _ _ => rfl⟩⟩)
  · -- VALUE_START
    split at h
    · rename_i h1
      cases h
      refine ⟨rfl, Or.inr ⟨rfl, rfl, Or.inr ⟨Or.inl rfl, ?_⟩⟩⟩
      simp only [Bool.or_eq_true, beq_iff_eq] at h1
      rcases h1 with e | e <;> rw [e] <;> decide
    · split at h
      · rename_i h2
        cases h
        refine ⟨rfl, Or.inr ⟨rfl, rfl, Or.inl ⟨rfl, ?_⟩⟩⟩
        simpa [CFGCLI_SYM_ARRAY_START] using h2
      · rename_i h2
        split at h
        · exact lex_step_t.noConfusion h
        · split at h
          · cases h
            refine ⟨rfl, Or.inr ⟨rfl, rfl, Or.inr ⟨Or.inr rfl, ?_⟩⟩⟩
            simpa [CFGCLI_SYM_ARRAY_START] using h2
          · split at h
            · exact lex_step_t.noConfusion h
            · cases h
              exact ⟨rfl, Or.inl ⟨rfl, fun _ _ => rfl⟩⟩

theorem before_no_stop (s s1 : lex_t) (a : Nat) (hs : lex_before_value s.state = true) :
    lex_body s a ≠ lex_step_t.stop DONE s1 := by
  intro h
  obtain ⟨L, k, v, S, q, nl⟩ := s
  cases S <;> simp only [lex_before_value, Bool.false_eq_true] at hs <;>
    simp only [lex_body] at h
  all_goals repeat' split at h
  all_goals first
    | exact lex_step_t.noConfusion h
    | (simp only [lex_step_t.stop.injEq] at h
       exact cfgcli_parse_return_t.noConfusion h.1)

theorem before_no_final (s s1 : lex_t) (hs : lex_before_value s.state = true) :
    lex_final s ≠ run_t.ret (DONE, s1) := by
  intro h
  obtain ⟨L, k, v, S, q, nl⟩ := s
  cases S <;> simp only [lex_before_value, Bool.false_eq_true] at hs <;>
    simp only [lex_final, run_t.ret.injEq, Prod.mk.injEq] at h
  all_goals exact cfgcli_parse_return_t.noConfusion h.1

/-- The scanning loop from a state before the value that returns `DONE` has passed the
state `VALUE_START` at an index where it recorded the value pointer; up to there it kept
the bytes behind the index of each pass. -/
theorem before_phase (p len : Nat) :
    ∀ (fuel : Nat) (s : lex_t) (i : Nat) (sf : lex_t), lex_before_value s.state = true →
      parse_line_loop fuel s p len i = run_t.ret (DONE, sf) →
      ∃ fuel1 s1 i0, i ≤ i0 ∧ i0 < len ∧ s1.value = some (p + i0) ∧
        (∀ m, p + i0 ≤ m → s1.line.getD m NUL = s.line.getD m NUL) ∧
        ((s1.state = ARRAY_START ∧ s1.line.getD (p + i0) NUL = '[') ∨
         ((s1.state = QUOTE ∨ s1.state = VALUE) ∧ s1.line.getD (p + i0) NUL ≠ '[')) ∧
        parse_line_loop fuel1 s1 p len (i0 + 1) = run_t.ret (DONE, sf) := by
  intro fuel
  induction fuel with
  | zero =>
    intro s i sf _ h
    exact run_t.noConfusion h
  | succ fuel ih =>
    intro s i sf hs h
    rw [parse_line_loop] at h
    by_cases hlt : i < len
    · simp only [hlt, ↓reduceIte] at h
      cases hb : lex_body s (p + i) with
      | crash =>
        rw [hb] at h
        exact run_t.noConfusion h
      | stop r s2 =>
        rw [hb] at h
        simp only [run_t.ret.injEq, Prod.mk.injEq] at h
        obtain ⟨h1, h2⟩ := h
        subst h1 h2
        exact absurd hb (before_no_stop s _ _ hs)
      | go s2 back =>
        rw [hb] at h
        obtain ⟨eb, hcase⟩ := before_step s s2 _ back hs hb
        subst eb
        simp only [Bool.false_eq_true, ↓reduceIte] at h
        rcases hcase with ⟨g1, g2⟩ | ⟨g1, g2, g3⟩
        · obtain ⟨f1, t1, i0, a1, a2, a3, a4, a5, a6⟩ := ih s2 (i + 1) sf g1 h
          refine ⟨f1, t1, i0, by omega, a2, a3, ?_, a5, a6⟩
          intro m hm
          rw [a4 m hm, g2 m (by omega)]
        · refine ⟨fuel, s2, i, Nat.le_refl i, hlt, g1, fun m _ => by rw [g2], ?_, h⟩
          rw [g2]
          exact g3
    · simp only [hlt, ↓reduceIte] at h
      exact absurd h (before_no_final s sf hs)

/-! ## The splitter on the value that the lexer has accepted -/

theorem rel_in_value (s : lex_t) (t : split_t) (h : lex_split_rel s t) :
    lex_in_value s.state = true ∧ t.state ≠ ARRAY_DONE := by
  obtain ⟨L, k, v, S, q, nl⟩ := s
  cases S <;> simp only [lex_split_rel] at h
  all_goals first
    | (refine ⟨rfl, ?_⟩
       rw [h]
       exact fun e => cfgcli_parse_state_t.noConfusion e)
    | (refine ⟨rfl, ?_⟩
       rw [h.1]
       exact fun e => cfgcli_parse_state_t.noConfusion e)

theorem backslash_ok_tail (c : Char) (r : List Char) (h : backslash_ok (c :: r)) :
    backslash_ok r := by
  intro a b e
  exact h (c :: a) b (by rw [e]; rfl)

theorem ws_run_ok_tail (c : Char) (r : List Char) (hc : isspace c = true)
    (h : ws_run_ok (c :: r)) : ws_run_ok r := by
  intro ws d b e hws hd
  refine h (c :: ws) d b (by rw [e]; rfl) ?_ hd
  intro x hx
  rcases List.mem_cons.1 hx with e1 | e1
  · rw [e1]
    exact hc
  · exact hws x e1

/-- The splitter in the state `ARRAY_END` on the terminating NUL: the loop ends. -/
theorem split_end_nul (t : split_t) (j : Nat) (hs : t.state = ARRAY_END)
    (hn : t.value.getD j NUL = NUL) : parse_array_loop 1 t j = split_step_t.go t := by
  obtain ⟨V, n, T, tq, st, e⟩ := t
  simp only at hs hn
  subst hs
  rw [split_go 0 _ _ j (by simp) (sb_end_blank V n tq st e j (by rw [hn]; decide))]
  rfl

/-- The scanning loop of the lexer inside an array that returns `DONE`, and the loop of
the splitter on the string that the lexer leaves at the index it starts from, in the state
that goes with the state of the lexer: the splitter runs to the end of that string. -/
theorem sim_array (p len : Nat) :
    ∀ (fuel : Nat) (s : lex_t) (i : Nat) (sf : lex_t) (t : split_t) (j : Nat),
      lex_split_rel s t → i ≤ len →
      (∀ m, i ≤ m → m < len → s.line.getD (p + m) NUL ≠ NUL) →
      s.line.getD (p + len) NUL = NUL →
      parse_line_loop fuel s p len i = run_t.ret (DONE, sf) →
      (∀ m, t.value.getD (j + m) NUL = (cstr_at sf.line (p + i)).getD m NUL) →
      backslash_ok (cstr_at sf.line (p + i)) →
      (s.state = ARRAY_NEWLINE → ws_run_ok (cstr_at sf.line (p + i))) →
      ∃ tf, parse_array_loop ((cstr_at sf.line (p + i)).length + 1) t j =
        split_step_t.go tf := by
  intro fuel
  induction fuel with
  | zero =>
    intro s i sf t j _ _ _ _ h
    exact run_t.noConfusion h
  | succ fuel ih =>
    intro s i sf t j hrel hi hnf hend h hch hgood hgn
    obtain ⟨hin, hnd⟩ := rel_in_value s t hrel
    rw [parse_line_loop] at h
    by_cases hlt : i < len
    · simp only [hlt, ↓reduceIte] at h
      cases hb : lex_body s (p + i) with
      | crash =>
        rw [hb] at h
        exact run_t.noConfusion h
      | stop r s2 =>
        rw [hb] at h
        simp only [run_t.ret.injEq, Prod.mk.injEq] at h
        obtain ⟨h1, h2⟩ := h
        subst h1 h2
        obtain ⟨e1, e2, _⟩ := sim_stop s s2 t _ hrel hb
        have hz : cstr_at s2.line (p + i) = [] := by
          rw [e2]
          exact cstr_at_nil _ _ (getD_poke_self _ _)
        rw [hz] at hch ⊢
        have h0 := hch 0
        rw [Nat.add_zero] at h0
        exact ⟨t, split_end_nul t j e1 h0⟩
      | go s2 back =>
        rw [hb] at h
        simp only at h
        have hws : s.state = ARRAY_NEWLINE → isspace (s.line.getD (p + i) NUL) = true →
            isprint (s.line.getD (p + i) NUL) = true := by
          intro hn hsp
          rcases value_step s s2 _ back hin hb with hc | ⟨e1, e2, e3⟩
          · exact absurd h (clean_not_done p len _ _ _ sf hc)
          · have hfr := (value_frame p len fuel s2 _ sf e3 h).2
            cases back with
            | true =>
              obtain ⟨q1, q2⟩ := lex_back_state s s2 _ hb
              obtain ⟨L, k, v, S, q, nl⟩ := s
              simp only at hn
              subst hn
              simp only [lex_body] at hb
              rw [hsp] at hb
              simp only [Bool.not_true, Bool.false_eq_true, ↓reduceIte] at hb
              split at hb
              · split at hb
                · exact lex_step_t.noConfusion hb
                · simp only [lex_step_t.go.injEq] at hb
                  exact Bool.noConfusion hb.2
              · simp only [lex_step_t.go.injEq] at hb
                exact Bool.noConfusion hb.2
            | false =>
              simp only [Bool.false_eq_true, ↓reduceIte] at hfr
              have hsame : sf.line.getD (p + i) NUL = s.line.getD (p + i) NUL := by
                rw [hfr (p + i) (by omega), e1]
              have hne := hnf i (Nat.le_refl i) hlt
              have hW := cstr_at_cons sf.line (p + i) (by rw [hsame]; exact hne)
              rw [hW, hsame] at hgn
              exact hgn hn [] _ _ rfl (fun x hx => absurd hx (List.not_mem_nil x)) hsp
        have hc0 : back = false →
            sf.line.getD (p + i) NUL = s.line.getD (p + i) NUL ∧ s2.line = s.line := by
          intro eb
          subst eb
          rcases value_step s s2 _ false hin hb with hc | ⟨e1, e2, e3⟩
          · exact absurd h (clean_not_done p len _ _ _ sf hc)
          · have hfr := (value_frame p len fuel s2 _ sf e3 h).2
            simp only [Bool.false_eq_true, ↓reduceIte] at hfr
            exact ⟨by rw [hfr (p + i) (by omega), e1], e1⟩
        cases back with
        | true =>
          simp only [↓reduceIte] at h
          obtain ⟨q1, q2⟩ := lex_back_state s s2 _ hb
          rcases value_step s s2 _ true hin hb with hcl | ⟨e1, e2, e3⟩
          · exact absurd h (clean_not_done p len _ _ _ sf hcl)
          · have hrel2 : lex_split_rel s2 t := by
              obtain ⟨L, k, v, S, q, nl⟩ := s
              obtain ⟨L2, k2, v2, S2, q2a, nl2⟩ := s2
              simp only at q1 q2
              subst q1 q2
              simp only [lex_split_rel] at hrel ⊢
              exact hrel
            exact ih s2 i sf t j hrel2 hi (by rw [e1]; exact hnf) (by rw [e1]; exact hend) h
              hch hgood (fun e => by rw [q2] at e; exact cfgcli_parse_state_t.noConfusion e)
        | false =>
          simp only [Bool.false_eq_true, ↓reduceIte] at h
          obtain ⟨hsame, hline⟩ := hc0 rfl
          have hne := hnf i (Nat.le_refl i) hlt
          have hW := cstr_at_cons sf.line (p + i) (by rw [hsame]; exact hne)
          rw [hsame] at hW
          have hcj : t.value.getD j NUL = s.line.getD (p + i) NUL := by
            have := hch 0
            rw [Nat.add_zero, hW, List.getD_cons_zero] at this
            exact this
          rcases sim_step s s2 t (p + i) j false hrel hcj hws hb with hcl | ⟨eb, _⟩ |
            ⟨_, e1, e2, e4, t1, hs1, hr1, hv1⟩
          · exact absurd h (clean_not_done p len _ _ _ sf hcl)
          · exact Bool.noConfusion eb
          · have hch1 : ∀ m, t1.value.getD (j + 1 + m) NUL =
                (cstr_at sf.line (p + (i + 1))).getD m NUL := by
              intro m
              have := hch (m + 1)
              rw [hW, List.getD_cons_succ] at this
              rw [show p + (i + 1) = p + i + 1 by omega, ← this]
              rcases hv1 with e | e
              · rw [e]
                congr 1
                omega
              · rw [e, getD_poke_ne _ _ _ _ (by omega)]
                congr 1
                omega
            rw [hW] at hgood hgn ⊢
            have hg1 : backslash_ok (cstr_at sf.line (p + (i + 1))) :=
              backslash_ok_tail _ _ hgood
            have hgn1 : s2.state = ARRAY_NEWLINE →
                ws_run_ok (cstr_at sf.line (p + (i + 1))) := by
              intro e
              rcases e4 e with e5 | ⟨e5, e6⟩
              · have hsp : isspace (s.line.getD (p + i) NUL) = true := by
                  by_contra hns
                  obtain ⟨L, k, v, S, q, nl⟩ := s
                  simp only at e5
                  subst e5
                  simp only [lex_body] at hb
                  split at hb
                  · split at hb
                    · exact lex_step_t.noConfusion hb
                    · cases hb
                      exact cfgcli_parse_state_t.noConfusion e
                  · have : (!isspace (L.getD (p + i) NUL)) = true := by
                      simpa using hns
                    rw [this] at hb
                    simp only [↓reduceIte, lex_step_t.go.injEq] at hb
                    exact Bool.noConfusion hb.2.symm
                exact ws_run_ok_tail _ _ hsp (hgn e5)
              · rw [e6] at hgood
                exact hgood [] _ rfl
            obtain ⟨tf, htf⟩ := ih s2 (i + 1) sf t1 (j + 1) hr1 hlt
              (fun m hm1 hm2 => by rw [e1]; exact hnf m (by omega) hm2)
              (by rw [e1]; exact hend) h hch1 hg1 hgn1
            refine ⟨tf, ?_⟩
            rw [List.length_cons, split_go _ t t1 j hnd hs1]
            rw [show p + (i + 1) = p + i + 1 by omega] at htf
            exact htf
    · simp only [hlt, ↓reduceIte] at h
      obtain ⟨e1, e2⟩ := sim_final s sf t hrel h
      have hil : i = len := by omega
      subst hil
      have hz : cstr_at sf.line (p + i) = [] := by
        rw [e2]
        exact cstr_at_nil _ _ hend
      rw [hz] at hch ⊢
      have h0 := hch 0
      rw [Nat.add_zero] at h0
      exact ⟨t, split_end_nul t j e1 h0⟩

/-- C36, counterexample: on the line `a=[\<TAB>1]` (a backslash and a tab at the start of
the element) the lexer, started in the state `START`, returns `DONE` with the value
`[\<TAB>1]`, and the splitter rejects that value with the code for an invalid value: for
the lexer the backslash and the tab are a line continuation that is not one, for the
splitter the tab is a byte of the element that is not printable. -/
theorem lexed_array_rejected :
    cfgcli_parse_line "a=[\\\t1]".toList 0 7 none none START =
      run_t.ret (DONE, 'a' :: NUL :: "[\\\t1]".toList, some 0, some 2) ∧
    cstr_at ('a' :: NUL :: "[\\\t1]".toList) 2 = "[\\\t1]".toList ∧
    (cfgcli_parse_array { ex_strings with value := some "[\\\t1]".toList, vlen := 6 }).1 =
      CFGCLI_ERR_VALUE := by
  refine ⟨?_, ?_, ?_⟩ <;> decide

/-- C36, amended: for a line of `len` bytes without NUL at offset `p` of a buffer, with a
NUL behind it, on which the lexer, started in the state `START`, returns `DONE` with the
value pointer on an opening bracket: when no backslash of the value (the string that the
lexer leaves at the value pointer) is followed by white space that holds a byte which is
not printable, the splitter applied to that value returns 0. -/
theorem lexed_array_splits (buf : List Char) (p len : Nat) (key0 value0 : Option Nat)
    (L : List Char) (key : Option Nat) (v : Nat) (par : cfgcli_param_valid_t)
    (hnul : ∀ m, m < len → buf.getD (p + m) NUL ≠ NUL) (hend : buf.getD (p + len) NUL = NUL)
    (h : cfgcli_parse_line buf p len key0 value0 START = run_t.ret (DONE, L, key, some v))
    (hb : L.getD v NUL = '[') (hok : backslash_ok (cstr_at L v))
    (hpv : par.value = some (cstr_at L v)) (hpl : par.vlen = (cstr_at L v).length + 1) :
    (cfgcli_parse_array par).1 = 0 := by
  unfold cfgcli_parse_line at h
  split at h
  · simp only [run_t.ret.injEq, Prod.mk.injEq] at h
    exact cfgcli_parse_return_t.noConfusion h.1
  · cases hr : parse_line_loop (2 * len + 1)
      { line := buf, key := key0, value := value0, state := START, quote := NUL,
        newline := none } p len 0 with
    | undef =>
      rw [hr] at h
      exact run_t.noConfusion h
    | nofuel =>
      rw [hr] at h
      exact run_t.noConfusion h
    | ret x =>
      obtain ⟨r, sf⟩ := x
      rw [hr] at h
      simp only [run_t.ret.injEq, Prod.mk.injEq] at h
      obtain ⟨h1, h2, h3, h4⟩ := h
      subst h1 h2 h3
      obtain ⟨f1, s1, i0, _, a2, a3, a4, a5, a6⟩ := before_phase p len _
        { line := buf, key := key0, value := value0, state := START, quote := NUL,
          newline := none } 0 sf rfl hr
      have hin : lex_in_value s1.state = true := by
        rcases a5 with ⟨e, _⟩ | ⟨e | e, _⟩ <;> rw [e] <;> rfl
      obtain ⟨g1, g2⟩ := value_frame p len f1 s1 (i0 + 1) sf hin a6
      have hv : v = p + i0 := by
        rw [g1, a3] at h4
        exact (Option.some.inj h4).symm
      subst hv
      have hsame : sf.line.getD (p + i0) NUL = s1.line.getD (p + i0) NUL :=
        g2 (p + i0) (by omega)
      rw [hsame] at hb
      rcases a5 with ⟨e1, _⟩ | ⟨_, e2⟩
      · have hW : cstr_at sf.line (p + i0) = '[' :: cstr_at sf.line (p + (i0 + 1)) := by
          rw [cstr_at_cons sf.line (p + i0) (by rw [hsame, hb]; decide), hsame, hb]
          rfl
        obtain ⟨tf, htf⟩ := sim_array p len f1 s1 (i0 + 1) sf
          { value := cstr_at sf.line (p + i0), n := 0, state := ARRAY_START, quote := NUL,
            start := some 0, endp := none } 1
          (by simp only [lex_split_rel, e1]) a2
          (fun m hm1 hm2 => by rw [a4 (p + m) (by omega)]; exact hnul m hm2)
          (by rw [a4 (p + len) (by omega)]; exact hend) a6
          (fun m => by
            simp only
            rw [hW, Nat.add_comm 1 m, List.getD_cons_succ])
          (by
            rw [hW] at hok
            exact backslash_ok_tail _ _ hok)
          (fun e => by rw [e1] at e; exact cfgcli_parse_state_t.noConfusion e)
        have hfirst : parse_array_loop ((cstr_at sf.line (p + i0)).length + 1)
            { value := cstr_at sf.line (p + i0), n := 0, state := START, quote := NUL,
              start := none, endp := none } 0 = split_step_t.go tf := by
          rw [split_go _ _
            { value := cstr_at sf.line (p + i0), n := 0, state := ARRAY_START, quote := NUL,
              start := some 0, endp := none } 0 (by simp)
            (by
              unfold split_body
              simp only [hW, List.getD_cons_zero]
              simp [CFGCLI_SYM_ARRAY_START])]
          have hl : (cstr_at sf.line (p + i0)).length =
              (cstr_at sf.line (p + (i0 + 1))).length + 1 := by
            rw [hW, List.length_cons]
          rw [hl]
          exact htf
        unfold cfgcli_parse_array
        simp only [hpv, hpl, Nat.add_one_ne_zero, ↓reduceIte, hfirst]
      · exact absurd hb e2

/-- The line `a=[1, 2]`: the splitter accepts the value that the lexer leaves. -/
theorem lexed_array_splits_witness :
    (cfgcli_parse_array
      { ex_strings with value := some (cstr_at ('a' :: NUL :: "[1, 2]".toList) 2),
                        vlen := (cstr_at ('a' :: NUL :: "[1, 2]".toList) 2).length + 1 }).1
      = 0 :=
  lexed_array_splits "a=[1, 2]".toList 0 8 none none ('a' :: NUL :: "[1, 2]".toList) (some 0) 2
    { ex_strings with value := some (cstr_at ('a' :: NUL :: "[1, 2]".toList) 2),
                      vlen := (cstr_at ('a' :: NUL :: "[1, 2]".toList) 2).length + 1 }
    (by decide) (by decide) (by decide) (by decide)
    (by
      intro a b e ws c d e2 _ hc
      have hm : '\\' ∈ cstr_at ('a' :: NUL :: "[1, 2]".toList) 2 := by
        rw [e]
        simp
      exact absurd hm (by decide))
    rfl rfl

/-- C32 (code bug): a parameter descriptor that is valid in every other field and has a null
help text makes `cfgcli_set_params` read through the null pointer (undefined behaviour),
whereas `cfgcli_set_funcs` registers a function with a null help text and returns 0. -/
theorem null_help_undefined (cfg : cfgcli_t) (d : cfgcli_param_t)
    (herr : cfg.error.errno = 0) (hn : name_ok d.name = true)
    (hdt : CFGCLI_DTYPE_INVALID d.dtype = false) (hvar : d.var ≠ 0)
    (hlopt : lopt_ok d.lopt = true) (hh : d.help = none) :
    cfgcli_set_params cfg [d] = run_t.undef ∧
    ∃ c, cfgcli_set_funcs cfgcli_init [ex_verbose] = run_t.ret (0, c) ∧ c.nfunc = 1 ∧
      (c.funcs.getD 0 func_zero).opt = 'v' ∧ (c.funcs.getD 0 func_zero).help = none := by
  constructor
  · have he : CFGCLI_IS_ERROR cfg = false := by simp [CFGCLI_IS_ERROR, CFGCLI_ERRNO, herr]
    have hb : ∀ c0, set_params_body c0 0 d = run_t.undef := by
      intro c0
      obtain ⟨opt, lopt, name, dtype, var, help⟩ := d
      simp only at hh hdt hvar hlopt hn
      subst hh
      cases name with
      | none => simp [name_ok] at hn
      | some s =>
        cases s with
        | nil => simp [name_ok, name_grammar] at hn
        | cons c cs =>
          simp only [name_ok] at hn
          simp [set_params_body, name_head_of_grammar c cs hn, name_scan_of_grammar c cs hn,
            hdt, hvar, verify_lopt_ok _ _ _ _ hlopt]
    unfold cfgcli_set_params
    simp only [he, Bool.false_eq_true, ↓reduceIte, reduceCtorEq, List.length_singleton,
      List.replicate_one, set_params_loop, hb]
  · exact ⟨ret_cfg (cfgcli_set_funcs cfgcli_init [ex_verbose]), by decide, by decide,
      by decide, by decide⟩

theorem null_help_undefined_witness :
    cfgcli_set_params cfgcli_init [ex_conf_no_help] = run_t.undef ∧
    ∃ c, cfgcli_set_funcs cfgcli_init [ex_verbose] = run_t.ret (0, c) ∧ c.nfunc = 1 ∧
      (c.funcs.getD 0 func_zero).opt = 'v' ∧ (c.funcs.getD 0 func_zero).help = none :=
  null_help_undefined cfgcli_init ex_conf_no_help rfl (by decide) (by decide) (by decide)
    (by decide) rfl

theorem lopt_scan_bad (s : List Char) (j : Nat)
    (h : (s.take (128 - j)).any (fun x => !isgraph x || x == '=') = true) :
    lopt_scan s j = lopt_scan_t.bad := by
  induction s generalizing j with
  | nil => simp at h
  | cons c cs ih =>
    simp only [lopt_scan, CFGCLI_MAX_LOPT_LEN, CFGCLI_CMD_ASSIGN]
    by_cases hc : (!isgraph c || c == '=') = true
    · rw [if_pos hc]
    · rw [if_neg hc]
      have hj : j < 128 := by
        by_contra hcon
        have : 128 - j = 0 := by omega
        rw [this] at h
        simp at h
      have e : 128 - j = (128 - (j + 1)) + 1 := by omega
      rw [e, List.take_succ_cons, List.any_cons] at h
      simp only [Bool.not_eq_true] at hc
      rw [hc, Bool.false_or] at h
      have hj2 : ¬ j + 1 ≥ 128 := by
        intro hcon
        have : 128 - (j + 1) = 0 := by omega
        rw [this] at h
        simp at h
      rw [if_neg hj2]
      exact ih (j + 1) h

theorem verify_lopt_bad (cfg : cfgcli_t) (lopt : Option (List Char)) (m : List Char)
    (key : Option (List Char)) (h : lopt_invalid_char lopt = true) :
    verify_lopt cfg lopt m key = (cfgcli_msg cfg m key, none, false) := by
  cases lopt with
  | none => simp [lopt_invalid_char] at h
  | some s =>
    cases s with
    | nil => simp [lopt_invalid_char] at h
    | cons c cs =>
      simp only [lopt_invalid_char] at h
      simp only [verify_lopt]
      rw [lopt_scan_bad (c :: cs) 0 h]

theorem lopt_ok_not_invalid (lopt : Option (List Char)) (h : lopt_ok lopt = true) :
    lopt_invalid_char lopt = false := by
  cases lopt with
  | none => rfl
  | some s =>
    cases s with
    | nil => rfl
    | cons c cs =>
      simp only [lopt_ok, lopt_grammar, Bool.and_eq_true, decide_eq_true_eq] at h
      simp only [lopt_invalid_char]
      rw [List.take_of_length_le (by omega)]
      cases hq : (c :: cs).any (fun x => !isgraph x || x == '=') with
      | false => rfl
      | true =>
        rw [List.any_eq_true] at hq
        obtain ⟨x, hx, hb⟩ := hq
        have := (List.all_eq_true.1 h.1.2) x hx
        simp only [Bool.and_eq_true, bne_iff_ne, ne_eq] at this
        simp [this.1, this.2] at hb

theorem put_param_add_msgs (cfg : cfgcli_t) (k : Nat) (a : cfgcli_param_valid_t)
    (ms : List (List Char)) :
    put_param (add_msgs cfg ms) k a = add_msgs (put_param cfg k a) ms := rfl

theorem add_msgs_empty (cfg : cfgcli_t) : add_msgs cfg [] = cfg := by
  simp [add_msgs]

theorem cfgcli_msg_cons (cfg : cfgcli_t) (x : Char) (xs : List Char) (c : Char)
    (cs : List Char) :
    cfgcli_msg cfg (x :: xs) (some (c :: cs)) =
      { cfg with error := { cfg.error with
          msg := cfg.error.msg ++ [(x :: xs) ++ [':', ' '] ++ (c :: cs)] } } := by
  simp [cfgcli_msg]

theorem set_params_body_warn (cfg : cfgcli_t) (i : Nat) (d : cfgcli_param_t)
    (hn : name_ok d.name = true) (hd : param_desc_ok (strip_opts d) = true) :
    set_params_body cfg i d =
      set_params_body (add_msgs cfg (option_warnings d)) i (strip_opts d) := by
  have hR := set_params_body_valid (add_msgs cfg (option_warnings d)) i (strip_opts d) hn hd
  obtain ⟨opt, lopt, name, dtype, var, help⟩ := d
  simp only [param_desc_ok, strip_opts, Bool.and_eq_true, Bool.not_eq_true', bne_iff_ne, ne_eq,
    Bool.or_eq_true, beq_iff_eq] at hd
  obtain ⟨⟨⟨⟨hdt, hvar⟩, hopt⟩, hlopt⟩, hhelp⟩ := hd
  cases name with
  | none => simp [name_ok] at hn
  | some s =>
    cases s with
    | nil => simp [name_ok, name_grammar] at hn
    | cons c cs =>
      cases help with
      | none => simp at hhelp
      | some h =>
        have hn0 := hn
        simp only [name_ok] at hn
        simp only [decide_eq_true_eq] at hhelp
        have hA : isalpha NUL = false := by decide
        cases ho : opt_invalid opt with
        | false =>
          cases hl : lopt_invalid_char lopt with
          | false =>
            simp only [option_warnings, ho, hl, Bool.false_eq_true, ↓reduceIte, List.append_nil,
              add_msgs_empty, strip_opts]
          | true =>
            rw [hR]
            clear hR
            have hopt2 : opt = NUL ∨ isalpha opt = true := by
              simp only [opt_invalid, Bool.and_eq_false_imp, bne_iff_ne, ne_eq,
                Bool.not_eq_false'] at ho
              by_cases e : opt = NUL
              · exact Or.inl e
              · exact Or.inr (ho e)
            rcases hopt2 with e | e
            · subst e
              simp [set_params_body, name_head_of_grammar c cs hn, name_scan_of_grammar c cs hn,
                hdt, hvar, verify_lopt_bad _ _ _ _ hl, help_scan, hhelp, put_param_put_param,
                take_set_self, param_entry, hA, cfgcli_msg_cons, lopt_of,
                option_warnings, ho, hl, strip_opts, add_msgs, put_param] <;> rfl
            · simp [set_params_body, name_head_of_grammar c cs hn, name_scan_of_grammar c cs hn,
                hdt, hvar, verify_lopt_bad _ _ _ _ hl, help_scan, hhelp, put_param_put_param,
                take_set_self, param_entry, e, cfgcli_msg_cons, lopt_of,
                option_warnings, ho, hl, strip_opts, add_msgs, put_param] <;> rfl
        | true =>
          rw [hR]
          clear hR
          have hnz : opt ≠ NUL ∧ isalpha opt = false := by
            simpa [opt_invalid] using ho
          cases hl : lopt_invalid_char lopt with
          | false =>
            simp only [hl, Bool.false_eq_true, ↓reduceIte] at hlopt
            cases hq : lopt_of lopt <;>
            simp [set_params_body, name_head_of_grammar c cs hn, name_scan_of_grammar c cs hn,
              hdt, hvar, verify_lopt_ok _ _ _ _ hlopt, help_scan, hhelp, put_param_put_param,
              take_set_self, param_entry, hnz.1, hnz.2, hA, cfgcli_msg_cons, hq,
              option_warnings, ho, hl, strip_opts, add_msgs, put_param] <;> rfl
          | true =>
            simp [set_params_body, name_head_of_grammar c cs hn, name_scan_of_grammar c cs hn,
              hdt, hvar, verify_lopt_bad _ _ _ _ hl, help_scan, hhelp, put_param_put_param,
              take_set_self, param_entry, hnz.1, hnz.2, hA, cfgcli_msg_cons, lopt_of,
              option_warnings, ho, hl, strip_opts, add_msgs, put_param] <;> rfl

theorem set_params_warn (cfg : cfgcli_t) (d : cfgcli_param_t) (herr : cfg.error.errno = 0)
    (hn : name_ok d.name = true) (hd : param_desc_ok (strip_opts d) = true) :
    cfgcli_set_params cfg [d] =
      cfgcli_set_params (add_msgs cfg (option_warnings d)) [strip_opts d] := by
  unfold cfgcli_set_params
  have he : CFGCLI_IS_ERROR (add_msgs cfg (option_warnings d)) = CFGCLI_IS_ERROR cfg := rfl
  have he2 : CFGCLI_IS_ERROR cfg = false := by simp [CFGCLI_IS_ERROR, CFGCLI_ERRNO, herr]
  rw [he, he2]
  simp only [Bool.false_eq_true, ↓reduceIte, reduceCtorEq, List.length_singleton,
    List.replicate_one, set_params_loop]
  rw [set_params_body_warn _ 0 d hn hd]
  rfl

theorem option_warnings_ne (d : cfgcli_param_t)
    (h : opt_invalid d.opt = true ∨ lopt_invalid_char d.lopt = true) :
    option_warnings d ≠ [] := by
  rcases h with h | h
  · simp [option_warnings, h]
  · cases ho : opt_invalid d.opt <;> simp [option_warnings, h, ho]

theorem strip_opts_entry (old : cfgcli_param_valid_t) (d : cfgcli_param_t)
    (ho : old.opt = NUL) :
    (opt_invalid d.opt = true → (param_entry old (strip_opts d)).opt = NUL) ∧
    (lopt_invalid_char d.lopt = true → (param_entry old (strip_opts d)).lopt = none) := by
  constructor
  · intro h
    have hA : isalpha NUL = false := by decide
    simp [param_entry, strip_opts, h, hA, ho]
  · intro h
    simp [param_entry, strip_opts, h, lopt_of]

/-- C31 (counterexample): the descriptor `conf` with the digit `1` as its short option, and
the descriptor `conf` with the long option `a=b`, are each registered by
`cfgcli_set_params` with return code 0 and the sticky error clear. -/
theorem bad_option_registered :
    (opt_invalid ex_conf_digit.opt = true ∧
      ∃ c, cfgcli_set_params cfgcli_init [ex_conf_digit] = run_t.ret (0, c) ∧
        c.error.errno = 0 ∧ c.npar = 1 ∧
        (c.params.getD 0 param_zero).name = some "conf".toList) ∧
    (lopt_invalid_char ex_conf_assign.lopt = true ∧
      ∃ c, cfgcli_set_params cfgcli_init [ex_conf_assign] = run_t.ret (0, c) ∧
        c.error.errno = 0 ∧ c.npar = 1 ∧
        (c.params.getD 0 param_zero).name = some "conf".toList) := by
  refine ⟨⟨by decide, ret_cfg (cfgcli_set_params cfgcli_init [ex_conf_digit]), ?_, ?_, ?_, ?_⟩,
    ⟨by decide, ret_cfg (cfgcli_set_params cfgcli_init [ex_conf_assign]), ?_, ?_, ?_, ?_⟩⟩ <;>
  decide

/-- C31 (amended): a short option that is set and is not a letter, and a long option with a
character that is not graphic or is `=` among its first 128 characters, are not fatal.
For a registry without error and a descriptor with such an option that is valid and
duplicates nothing once the invalid options are removed, `cfgcli_set_params` returns 0,
leaves the sticky error clear, records one warning for each invalid option and registers
the parameter without the invalid options. -/
theorem invalid_option_warns (cfg : cfgcli_t) (d : cfgcli_param_t)
    (herr : cfg.error.errno = 0) (hreg : registry_ok cfg = true)
    (hn : name_ok d.name = true)
    (hbad : opt_invalid d.opt = true ∨ lopt_invalid_char d.lopt = true)
    (hd : param_desc_ok (strip_opts d) = true)
    (hfresh : param_fresh cfg (strip_opts d) = true) :
    ∃ cfg1, cfgcli_set_params cfg [d] = run_t.ret (0, cfg1) ∧
      cfg1.error.errno = 0 ∧ cfg1.npar = cfg.npar + 1 ∧
      cfg1.params = cfg.params.take cfg.npar ++ [param_entry param_zero (strip_opts d)] ∧
      cfg1.error.msg = cfg.error.msg ++ option_warnings d ∧ option_warnings d ≠ [] ∧
      (opt_invalid d.opt = true →
        (param_entry param_zero (strip_opts d)).opt = NUL) ∧
      (lopt_invalid_char d.lopt = true →
        (param_entry param_zero (strip_opts d)).lopt = none) := by
  rw [set_params_warn cfg d herr hn hd]
  rw [set_params_single (add_msgs cfg (option_warnings d)) (strip_opts d) herr hreg hn hd hfresh]
  exact ⟨_, rfl, herr, rfl, rfl, rfl, option_warnings_ne d hbad,
    (strip_opts_entry param_zero d rfl).1, (strip_opts_entry param_zero d rfl).2⟩

theorem invalid_option_warns_witness :
    ∃ cfg1, cfgcli_set_params cfgcli_init [ex_conf_digit] = run_t.ret (0, cfg1) ∧
      cfg1.error.errno = 0 ∧ cfg1.npar = cfgcli_init.npar + 1 ∧
      cfg1.params = cfgcli_init.params.take cfgcli_init.npar ++
        [param_entry param_zero (strip_opts ex_conf_digit)] ∧
      cfg1.error.msg = cfgcli_init.error.msg ++ option_warnings ex_conf_digit ∧
      option_warnings ex_conf_digit ≠ [] ∧
      (opt_invalid ex_conf_digit.opt = true →
        (param_entry param_zero (strip_opts ex_conf_digit)).opt = NUL) ∧
      (lopt_invalid_char ex_conf_digit.lopt = true →
        (param_entry param_zero (strip_opts ex_conf_digit)).lopt = none) :=
  invalid_option_warns cfgcli_init ex_conf_digit rfl (by decide) (by decide)
    (Or.inl (by decide)) (by decide) (by decide)

@[simp] theorem verify_lopt_params (cfg : cfgcli_t) (lopt : Option (List Char)) (m : List Char)
    (key : Option (List Char)) : (verify_lopt cfg lopt m key).1.params = cfg.params := by
  rcases verify_lopt_fst cfg lopt m key with e | e <;> rw [e]
  exact cfgcli_msg_params _ _ _

@[simp] theorem verify_lopt_funcs (cfg : cfgcli_t) (lopt : Option (List Char)) (m : List Char)
    (key : Option (List Char)) : (verify_lopt cfg lopt m key).1.funcs = cfg.funcs := by
  rcases verify_lopt_fst cfg lopt m key with e | e <;> rw [e]
  exact cfgcli_msg_funcs _ _ _

@[simp] theorem verify_lopt_npar (cfg : cfgcli_t) (lopt : Option (List Char)) (m : List Char)
    (key : Option (List Char)) : (verify_lopt cfg lopt m key).1.npar = cfg.npar := by
  rcases verify_lopt_fst cfg lopt m key with e | e <;> rw [e]
  exact cfgcli_msg_npar _ _ _

@[simp] theorem verify_lopt_nfunc (cfg : cfgcli_t) (lopt : Option (List Char)) (m : List Char)
    (key : Option (List Char)) : (verify_lopt cfg lopt m key).1.nfunc = cfg.nfunc := by
  rcases verify_lopt_fst cfg lopt m key with e | e <;> rw [e]
  exact cfgcli_msg_nfunc _ _ _

theorem set_params_body_inv (cfg : cfgcli_t) (i : Nat) (d : cfgcli_param_t) (cfg1 : cfgcli_t)
    (h : set_params_body cfg i d = run_t.ret (0, cfg1)) :
    ∃ par n, cfg1.params = cfg.params.set (cfg.npar + i) par ∧ par.name = some n ∧
      (par.opt = d.opt ∨ par.opt = (cfg.params.getD (cfg.npar + i) param_zero).opt) ∧
      param_dup_params par n (cfg.params.take (cfg.npar + i)) = some none ∧
      param_dup_funcs par (cfg.funcs.take cfg.nfunc) = none := by
  unfold set_params_body at h
  simp only [] at h
  have hE : ¬ (CFGCLI_ERR_INPUT = (0 : Int)) := by decide
  have hX : ¬ (CFGCLI_ERR_EXIST = (0 : Int)) := by decide
  split at h
  · simp only [fail_with, run_t.ret.injEq, Prod.mk.injEq] at h
    exact absurd h.1 hE
  · simp only [fail_with, run_t.ret.injEq, Prod.mk.injEq] at h
    exact absurd h.1 hE
  · rename_i _ c cs hname
    split at h
    · simp only [fail_with, run_t.ret.injEq, Prod.mk.injEq] at h
      exact absurd h.1 hE
    · split at h
      · simp only [fail_with, run_t.ret.injEq, Prod.mk.injEq] at h
        exact absurd h.1 hE
      · rename_i _ j hj
        split at h
        · simp only [fail_with, run_t.ret.injEq, Prod.mk.injEq] at h
          exact absurd h.1 hE
        · split at h
          · simp only [fail_with, run_t.ret.injEq, Prod.mk.injEq] at h
            exact absurd h.1 hE
          · split at h
            · simp only [fail_with, run_t.ret.injEq, Prod.mk.injEq] at h
              exact absurd h.1 hE
            · rename_i _ cfgv lo heq
              have hv := congrArg Prod.fst heq
              simp only at hv
              split at h
              · cases h
              · split at h
                · simp only [fail_with, run_t.ret.injEq, Prod.mk.injEq] at h
                  exact absurd h.1 hE
                · split at h
                  · cases h
                  · simp only [fail_with, run_t.ret.injEq, Prod.mk.injEq] at h
                    exact absurd h.1 hX
                  · split at h
                    · simp only [fail_with, run_t.ret.injEq, Prod.mk.injEq] at h
                      exact absurd h.1 hX
                    · rename_i _ hp _ hf
                      simp only [run_t.ret.injEq, Prod.mk.injEq, true_and] at h
                      have hvp : cfgv.params = cfg.params.set (cfg.npar + i)
                          (if isalpha d.opt = true then
                            { (cfg.params.getD (cfg.npar + i) param_zero) with
                              dtype := d.dtype, src := CFGCLI_SRC_NULL, opt := d.opt,
                              nlen := j + 1, name := some (c :: cs), lopt := none,
                              value := none, var := d.var, help := none }
                           else
                            { (cfg.params.getD (cfg.npar + i) param_zero) with
                              dtype := d.dtype, src := CFGCLI_SRC_NULL,
                              nlen := j + 1, name := some (c :: cs), lopt := none,
                              value := none, var := d.var, help := none }) := by
                        rw [← hv, verify_lopt_params]
                        split <;> simp [put_param, List.set_set]
                      have hvf : cfgv.funcs = cfg.funcs := by
                        rw [← hv, verify_lopt_funcs]
                        split <;> simp
                      have hvn : cfgv.nfunc = cfg.nfunc := by
                        rw [← hv, verify_lopt_nfunc]
                        split <;> simp
                      simp only [put_param_params, put_param_funcs, put_param_nfunc,
                        take_set_self, hvp, hvf, hvn, List.set_set] at hp hf
                      refine ⟨?par, c :: cs, ?a, ?b, ?c, ?d, ?e⟩
                      case d => exact hp
                      case e => exact hf
                      case a =>
                        rw [← h]
                        simp only [put_param_params, hvp, List.set_set]
                      case b =>
                        cases lo <;> by_cases hα : isalpha d.opt = true <;> simp [hα]
                      case c =>
                        cases lo <;> by_cases hα : isalpha d.opt = true <;> simp [hα]

theorem set_funcs_body_inv (cfg : cfgcli_t) (i : Nat) (d : cfgcli_func_t) (cfg1 : cfgcli_t)
    (h : set_funcs_body cfg i d = run_t.ret (0, cfg1)) :
    ∃ fn, cfg1.funcs = cfg.funcs.set (cfg.nfunc + i) fn ∧
      (fn.opt = d.opt ∨ fn.opt = (cfg.funcs.getD (cfg.nfunc + i) func_zero).opt) ∧
      func_dup_funcs fn (Nat.toDigits 10 i) (cfg.funcs.take (cfg.nfunc + i)) = none ∧
      func_dup_params fn (cfg.params.take cfg.npar) = none := by
  unfold set_funcs_body at h
  simp only [] at h
  have hE : ¬ (CFGCLI_ERR_INPUT = (0 : Int)) := by decide
  have hX : ¬ (CFGCLI_ERR_EXIST = (0 : Int)) := by decide
  split at h
  · simp only [fail_with, run_t.ret.injEq, Prod.mk.injEq] at h
    exact absurd h.1 hE
  · rename_i _ cfgv lo heq
    have hv := congrArg Prod.fst heq
    simp only at hv
    have hvf : cfgv.funcs = cfg.funcs.set (cfg.nfunc + i)
        (if isalpha d.opt = true then
          { (cfg.funcs.getD (cfg.nfunc + i) func_zero) with
            lopt := none, func := 0, args := 0, help := none, opt := d.opt }
         else
          { (cfg.funcs.getD (cfg.nfunc + i) func_zero) with
            lopt := none, func := 0, args := 0, help := none }) := by
      rw [← hv, verify_lopt_funcs]
      split <;> simp [put_func]
    have hvp : cfgv.params = cfg.params := by
      rw [← hv, verify_lopt_params]
      split <;> simp
    have hvn : cfgv.npar = cfg.npar := by
      rw [← hv, verify_lopt_npar]
      split <;> simp
    clear hv heq
    repeat' split at h
    all_goals first
      | (simp only [fail_with, run_t.ret.injEq, Prod.mk.injEq] at h
         first
           | exact absurd h.1 hE
           | exact absurd h.1 hX)
      | skip
    all_goals
      simp only [run_t.ret.injEq, Prod.mk.injEq, true_and] at h
      have hp := ‹func_dup_funcs _ _ _ = none›
      have hf := ‹func_dup_params _ _ = none›
      simp only [put_func_funcs, put_func_params, put_func_npar, take_set_self, hvf, hvp, hvn,
        List.set_set] at hp hf
      refine ⟨_, ?_, ?_, hp, hf⟩
      · rw [← h]
        simp only [put_func_funcs, hvf, List.set_set]
        first
          | rfl
          | simp [*]
      · simp [*]

theorem dup_params_facts (par : cfgcli_param_valid_t) (n : List Char)
    (vs : List cfgcli_param_valid_t) (h : param_dup_params par n vs = some none) :
    ∀ v ∈ vs, v.name ≠ some n ∧ (par.opt ≠ NUL → v.opt ≠ par.opt) ∧
      (∀ l, par.lopt = some l → v.lopt ≠ some l) := by
  induction vs with
  | nil => intro v hv; cases hv
  | cons w ws ih =>
    unfold param_dup_params at h
    split at h
    · cases h
    · rename_i vname hname
      split at h
      · cases h
      · rename_i hs
        split at h
        · cases h
        · rename_i ho
          have hw : w.name ≠ some n ∧ (par.opt ≠ NUL → w.opt ≠ par.opt) := by
            constructor
            · intro e
              rw [hname] at e
              cases e
              exact hs (strncmp0_self _ _)
            · intro hne e
              apply ho
              simp [hne, e]
          split at h
          · rename_i pl vl hpl hvl
            split at h
            · cases h
            · rename_i hl
              intro v hv
              rcases List.mem_cons.1 hv with e | e
              · subst e
                refine ⟨hw.1, hw.2, ?_⟩
                intro l hl2 e2
                rw [hpl] at hl2
                rw [hvl] at e2
                cases hl2
                cases e2
                exact hl (strncmp0_self _ _)
              · exact ih h v e
          · rename_i hno
            intro v hv
            rcases List.mem_cons.1 hv with e | e
            · subst e
              refine ⟨hw.1, hw.2, ?_⟩
              intro l hl2 e2
              exact hno l l hl2 e2
            · exact ih h v e

theorem dup_funcs_facts (par : cfgcli_param_valid_t) (fs : List cfgcli_func_valid_t)
    (h : param_dup_funcs par fs = none) :
    ∀ f ∈ fs, (par.opt ≠ NUL → f.opt ≠ par.opt) ∧
      (∀ l, par.lopt = some l → f.lopt ≠ some l) := by
  induction fs with
  | nil => intro v hv; cases hv
  | cons w ws ih =>
    unfold param_dup_funcs at h
    split at h
    · cases h
    · rename_i ho
      have hw : par.opt ≠ NUL → w.opt ≠ par.opt := by
        intro hne e
        apply ho
        simp [hne, e]
      split at h
      · rename_i pl vl hpl hvl
        split at h
        · cases h
        · rename_i hl
          intro v hv
          rcases List.mem_cons.1 hv with e | e
          · subst e
            refine ⟨hw, ?_⟩
            intro l hl2 e2
            rw [hpl] at hl2
            rw [hvl] at e2
            cases hl2
            cases e2
            exact hl (strncmp0_self _ _)
          · exact ih h v e
      · rename_i hno
        intro v hv
        rcases List.mem_cons.1 hv with e | e
        · subst e
          refine ⟨hw, ?_⟩
          intro l hl2 e2
          exact hno l l hl2 e2
        · exact ih h v e

theorem fdup_funcs_facts (fn : cfgcli_func_valid_t) (idx : List Char)
    (fs : List cfgcli_func_valid_t) (h : func_dup_funcs fn idx fs = none) :
    ∀ f ∈ fs, (fn.opt ≠ NUL → f.opt ≠ fn.opt) ∧
      (∀ l, fn.lopt = some l → f.lopt ≠ some l) := by
  induction fs with
  | nil => intro v hv; cases hv
  | cons w ws ih =>
    unfold func_dup_funcs at h
    split at h
    · cases h
    · split at h
      · cases h
      · rename_i ho
        have hw : fn.opt ≠ NUL → w.opt ≠ fn.opt := by
          intro hne e
          apply ho
          simp [hne, e]
        split at h
        · rename_i pl vl hpl hvl
          split at h
          · cases h
          · rename_i hl
            intro v hv
            rcases List.mem_cons.1 hv with e | e
            · subst e
              refine ⟨hw, ?_⟩
              intro l hl2 e2
              rw [hpl] at hl2
              rw [hvl] at e2
              cases hl2
              cases e2
              exact hl (strncmp0_self _ _)
            · exact ih h v e
        · rename_i hno
          intro v hv
          rcases List.mem_cons.1 hv with e | e
          · subst e
            refine ⟨hw, ?_⟩
            intro l hl2 e2
            exact hno l l hl2 e2
          · exact ih h v e

theorem fdup_params_facts (fn : cfgcli_func_valid_t) (ps : List cfgcli_param_valid_t)
    (h : func_dup_params fn ps = none) :
    ∀ v ∈ ps, (fn.opt ≠ NUL → v.opt ≠ fn.opt) ∧
      (∀ l, fn.lopt = some l → v.lopt ≠ some l) := by
  induction ps with
  | nil => intro v hv; cases hv
  | cons w ws ih =>
    unfold func_dup_params at h
    split at h
    · cases h
    · rename_i ho
      have hw : fn.opt ≠ NUL → w.opt ≠ fn.opt := by
        intro hne e
        apply ho
        simp [hne, e]
      split at h
      · rename_i pl vl hpl hvl
        split at h
        · cases h
        · rename_i hl
          intro v hv
          rcases List.mem_cons.1 hv with e | e
          · subst e
            refine ⟨hw, ?_⟩
            intro l hl2 e2
            rw [hpl] at hl2
            rw [hvl] at e2
            cases hl2
            cases e2
            exact hl (strncmp0_self _ _)
          · exact ih h v e
      · rename_i hno
        intro v hv
        rcases List.mem_cons.1 hv with e | e
        · subst e
          refine ⟨hw, ?_⟩
          intro l hl2 e2
          exact hno l l hl2 e2
        · exact ih h v e

theorem entries_add_param (ps : List cfgcli_param_valid_t) (fs : List cfgcli_func_valid_t)
    (par : cfgcli_param_valid_t) (hU : entries_unique ps fs)
    (hp : ∀ v ∈ ps, v.name ≠ par.name ∧ (par.opt ≠ NUL → v.opt ≠ par.opt) ∧
      (∀ l, par.lopt = some l → v.lopt ≠ some l))
    (hf : ∀ f ∈ fs, (par.opt ≠ NUL → f.opt ≠ par.opt) ∧
      (∀ l, par.lopt = some l → f.lopt ≠ some l)) :
    entries_unique (ps ++ [par]) fs := by
  obtain ⟨h1, h2, h3⟩ := hU
  refine ⟨?_, ?_, ?_⟩
  · simp only [reg_names, List.map_append, List.map_cons, List.map_nil]
    rw [List.nodup_append]
    refine ⟨h1, List.nodup_singleton _, ?_⟩
    intro x hx hy
    rw [List.mem_singleton] at hy
    subst hy
    simp only [reg_names, List.mem_map] at hx
    obtain ⟨v, hv, e⟩ := hx
    exact (hp v hv).1 e
  · simp only [reg_opts, List.map_append, List.map_cons, List.map_nil, List.append_assoc,
      List.filter_append, List.singleton_append] at h2 ⊢
    by_cases hn : par.opt = NUL
    · simpa [List.filter_cons, hn] using h2
    · have e : List.filter (fun c => c != NUL) (par.opt :: List.map (fun f => f.opt) fs)
          = par.opt :: List.filter (fun c => c != NUL) (List.map (fun f => f.opt) fs) := by
        simp [List.filter_cons, hn]
      rw [e, List.nodup_middle, List.nodup_cons]
      refine ⟨?_, h2⟩
      intro hm
      rcases List.mem_append.1 hm with hm | hm
      · obtain ⟨hm1, -⟩ := List.mem_filter.1 hm
        obtain ⟨v, hv, e⟩ := List.mem_map.1 hm1
        exact (hp v hv).2.1 hn e
      · obtain ⟨hm1, -⟩ := List.mem_filter.1 hm
        obtain ⟨f, hf1, e⟩ := List.mem_map.1 hm1
        exact (hf f hf1).1 hn e
  · simp only [reg_lopts, List.filterMap_append] at h3 ⊢
    cases hl : par.lopt with
    | none => simpa [List.filterMap_cons, hl] using h3
    | some l =>
      have e : List.filterMap (fun v => v.lopt) [par] = [l] := by
        simp [List.filterMap_cons, hl]
      rw [e, List.append_assoc, List.singleton_append, List.nodup_middle, List.nodup_cons]
      refine ⟨?_, h3⟩
      intro hm
      rcases List.mem_append.1 hm with hm | hm
      · obtain ⟨v, hv, e⟩ := List.mem_filterMap.1 hm
        exact (hp v hv).2.2 l hl e
      · obtain ⟨f, hf1, e⟩ := List.mem_filterMap.1 hm
        exact (hf f hf1).2 l hl e

theorem entries_add_func (ps : List cfgcli_param_valid_t) (fs : List cfgcli_func_valid_t)
    (fn : cfgcli_func_valid_t) (hU : entries_unique ps fs)
    (hp : ∀ v ∈ ps, (fn.opt ≠ NUL → v.opt ≠ fn.opt) ∧
      (∀ l, fn.lopt = some l → v.lopt ≠ some l))
    (hf : ∀ f ∈ fs, (fn.opt ≠ NUL → f.opt ≠ fn.opt) ∧
      (∀ l, fn.lopt = some l → f.lopt ≠ some l)) :
    entries_unique ps (fs ++ [fn]) := by
  obtain ⟨h1, h2, h3⟩ := hU
  refine ⟨h1, ?_, ?_⟩
  · simp only [reg_opts, List.map_append, List.map_cons, List.map_nil,
      List.filter_append] at h2 ⊢
    rw [← List.append_assoc]
    by_cases hn : fn.opt = NUL
    · simpa [List.filter_cons, hn] using h2
    · have e : List.filter (fun c => c != NUL) [fn.opt] = [fn.opt] := by
        simp [List.filter_cons, hn]
      rw [e, List.nodup_append]
      refine ⟨h2, List.nodup_singleton _, ?_⟩
      intro x hm hy
      rw [List.mem_singleton] at hy
      subst hy
      rcases List.mem_append.1 hm with hm | hm
      · obtain ⟨hm1, -⟩ := List.mem_filter.1 hm
        obtain ⟨v, hv, e⟩ := List.mem_map.1 hm1
        exact (hp v hv).1 hn e
      · obtain ⟨hm1, -⟩ := List.mem_filter.1 hm
        obtain ⟨f, hf1, e⟩ := List.mem_map.1 hm1
        exact (hf f hf1).1 hn e
  · simp only [reg_lopts, List.filterMap_append] at h3 ⊢
    rw [← List.append_assoc]
    cases hl : fn.lopt with
    | none => simpa [List.filterMap_cons, hl] using h3
    | some l =>
      have e : List.filterMap (fun v => v.lopt) [fn] = [l] := by
        simp [List.filterMap_cons, hl]
      rw [e, List.nodup_append]
      refine ⟨h3, List.nodup_singleton _, ?_⟩
      intro x hm hy
      rw [List.mem_singleton] at hy
      subst hy
      rcases List.mem_append.1 hm with hm | hm
      · obtain ⟨v, hv, e⟩ := List.mem_filterMap.1 hm
        exact (hp v hv).2 x hl e
      · obtain ⟨f, hf1, e⟩ := List.mem_filterMap.1 hm
        exact (hf f hf1).2 x hl e

theorem take_succ_set {α : Type} (l : List α) (k : Nat) (a : α) (h : k < l.length) :
    (l.set k a).take (k + 1) = l.take k ++ [a] := by
  induction l generalizing k with
  | nil => simp at h
  | cons x xs ih =>
    cases k with
    | zero => simp
    | succ k =>
      simp only [List.length_cons] at h
      simp [ih k (by omega)]

theorem set_params_loop_unique (ds : List cfgcli_param_t) (cfg : cfgcli_t) (i : Nat)
    (cfg1 : cfgcli_t) (h : set_params_loop cfg i ds = run_t.ret (0, cfg1))
    (hlen : cfg.npar + i + ds.length ≤ cfg.params.length)
    (hU : entries_unique (cfg.params.take (cfg.npar + i)) (cfg.funcs.take cfg.nfunc)) :
    entries_unique (cfg1.params.take (cfg.npar + i + ds.length))
      (cfg1.funcs.take cfg1.nfunc) := by
  induction ds generalizing cfg i with
  | nil =>
    simp only [set_params_loop, run_t.ret.injEq, Prod.mk.injEq, true_and] at h
    subst h
    simpa using hU
  | cons d ds ih =>
    unfold set_params_loop at h
    simp only [List.length_cons] at hlen
    split at h
    · rename_i c2 cfg2 heq
      split at h
      · rename_i hc
        subst hc
        obtain ⟨a1, a2, a3, a4, a5, a6⟩ := set_params_body_frame cfg i d 0 cfg2 heq
        obtain ⟨par, n, e1, e2, -, e4, e5⟩ := set_params_body_inv cfg i d cfg2 heq
        have hU2 : entries_unique (cfg2.params.take (cfg2.npar + (i + 1)))
            (cfg2.funcs.take cfg2.nfunc) := by
          rw [a1, a2, a3, e1, ← Nat.add_assoc, take_succ_set _ _ _ (by omega)]
          apply entries_add_param _ _ _ hU
          · intro v hv
            obtain ⟨x, y, z⟩ := dup_params_facts _ _ _ e4 v hv
            exact ⟨by rw [e2]; exact x, y, z⟩
          · exact dup_funcs_facts _ _ e5
        have := ih cfg2 (i + 1) h (by rw [a1, a6]; omega) hU2
        rw [a1] at this
        have e : cfg.npar + i + (ds.length + 1) = cfg.npar + (i + 1) + ds.length := by omega
        simp only [List.length_cons]
        rw [e]
        exact this
      · rename_i hc
        simp only [run_t.ret.injEq, Prod.mk.injEq] at h
        exact absurd h.1 hc
    · cases h
    · cases h

theorem set_funcs_loop_unique (ds : List cfgcli_func_t) (cfg : cfgcli_t) (i : Nat)
    (cfg1 : cfgcli_t) (h : set_funcs_loop cfg i ds = run_t.ret (0, cfg1))
    (hlen : cfg.nfunc + i + ds.length ≤ cfg.funcs.length)
    (hU : entries_unique (cfg.params.take cfg.npar) (cfg.funcs.take (cfg.nfunc + i))) :
    entries_unique (cfg1.params.take cfg1.npar)
      (cfg1.funcs.take (cfg.nfunc + i + ds.length)) := by
  induction ds generalizing cfg i with
  | nil =>
    simp only [set_funcs_loop, run_t.ret.injEq, Prod.mk.injEq, true_and] at h
    subst h
    simpa using hU
  | cons d ds ih =>
    unfold set_funcs_loop at h
    simp only [List.length_cons] at hlen
    split at h
    · rename_i c2 cfg2 heq
      split at h
      · rename_i hc
        subst hc
        obtain ⟨a1, a2, a3, a4, a5, a6⟩ := set_funcs_body_frame cfg i d 0 cfg2 heq
        obtain ⟨fn, e1, -, e4, e5⟩ := set_funcs_body_inv cfg i d cfg2 heq
        have hU2 : entries_unique (cfg2.params.take cfg2.npar)
            (cfg2.funcs.take (cfg2.nfunc + (i + 1))) := by
          rw [a1, a2, a3, e1, ← Nat.add_assoc, take_succ_set _ _ _ (by omega)]
          apply entries_add_func _ _ _ hU
          · exact fdup_params_facts _ _ e5
          · exact fdup_funcs_facts _ _ _ e4
        have := ih cfg2 (i + 1) h (by rw [a2, a6]; omega) hU2
        rw [a2] at this
        have e : cfg.nfunc + i + (ds.length + 1) = cfg.nfunc + (i + 1) + ds.length := by omega
        simp only [List.length_cons]
        rw [e]
        exact this
      · rename_i hc
        simp only [run_t.ret.injEq, Prod.mk.injEq] at h
        exact absurd h.1 hc
    · cases h
    · cases h

theorem set_params_unique (cfg : cfgcli_t) (ds : List cfgcli_param_t) (code : Int)
    (cfg1 : cfgcli_t) (h : cfgcli_set_params cfg ds = run_t.ret (code, cfg1))
    (hnp : cfg.npar ≤ cfg.params.length) (hnf : cfg.nfunc ≤ cfg.funcs.length)
    (hU : registry_unique cfg) :
    cfg1.npar ≤ cfg1.params.length ∧ cfg1.nfunc ≤ cfg1.funcs.length ∧
      registry_unique cfg1 := by
  unfold cfgcli_set_params at h
  split at h
  · simp only [run_t.ret.injEq, Prod.mk.injEq] at h
    rw [← h.2]
    exact ⟨hnp, hnf, hU⟩
  · split at h
    · simp only [fail_with, run_t.ret.injEq, Prod.mk.injEq] at h
      rw [← h.2]
      refine ⟨by simpa using hnp, by simpa using hnf, ?_⟩
      simpa [registry_unique] using hU
    · simp only [] at h
      have hl : (cfg.params.take cfg.npar).length = cfg.npar := by
        simp [List.length_take, Nat.min_eq_left hnp]
      split at h
      · rename_i c2 cfg2 heq
        obtain ⟨a1, a2, a3, a4, a5, a6⟩ := set_params_loop_frame ds _ 0 c2 cfg2 heq
        simp only [List.length_append, List.length_replicate, hl] at a1 a2 a3 a4 a5 a6
        rw [take_take_append _ _ _ hnp] at a5
        split at h
        · rename_i hc
          subst hc
          simp only [run_t.ret.injEq, Prod.mk.injEq, true_and] at h
          have hu := set_params_loop_unique ds _ 0 cfg2 heq
            (by simp only [List.length_append, List.length_replicate, hl]; omega)
            (by
              simp only [Nat.add_zero]
              rw [take_take_append _ _ _ hnp]
              exact hU)
          simp only [Nat.add_zero] at hu
          rw [← h.2]
          refine ⟨?_, ?_, ?_⟩
          · simp only [a1, a6]
            omega
          · simp only [a2, a3]
            exact hnf
          · simp only [registry_unique, a1]
            exact hu
        · simp only [run_t.ret.injEq, Prod.mk.injEq] at h
          rw [← h.2]
          refine ⟨?_, ?_, ?_⟩
          · rw [a1, a6]
            omega
          · rw [a2, a3]
            exact hnf
          · simp only [registry_unique, a1, a2, a3, a5]
            exact hU
      · cases h
      · cases h

theorem set_funcs_unique (cfg : cfgcli_t) (ds : List cfgcli_func_t) (code : Int)
    (cfg1 : cfgcli_t) (h : cfgcli_set_funcs cfg ds = run_t.ret (code, cfg1))
    (hnp : cfg.npar ≤ cfg.params.length) (hnf : cfg.nfunc ≤ cfg.funcs.length)
    (hU : registry_unique cfg) :
    cfg1.npar ≤ cfg1.params.length ∧ cfg1.nfunc ≤ cfg1.funcs.length ∧
      registry_unique cfg1 := by
  unfold cfgcli_set_funcs at h
  split at h
  · simp only [run_t.ret.injEq, Prod.mk.injEq] at h
    rw [← h.2]
    exact ⟨hnp, hnf, hU⟩
  · split at h
    · simp only [fail_with, run_t.ret.injEq, Prod.mk.injEq] at h
      rw [← h.2]
      refine ⟨by simpa using hnp, by simpa using hnf, ?_⟩
      simpa [registry_unique] using hU
    · simp only [] at h
      have hl : (cfg.funcs.take cfg.nfunc).length = cfg.nfunc := by
        simp [List.length_take, Nat.min_eq_left hnf]
      split at h
      · rename_i c2 cfg2 heq
        obtain ⟨a1, a2, a3, a4, a5, a6⟩ := set_funcs_loop_frame ds _ 0 c2 cfg2 heq
        simp only [List.length_append, List.length_replicate, hl] at a1 a2 a3 a4 a5 a6
        rw [take_take_append _ _ _ hnf] at a5
        split at h
        · rename_i hc
          subst hc
          simp only [run_t.ret.injEq, Prod.mk.injEq, true_and] at h
          have hu := set_funcs_loop_unique ds _ 0 cfg2 heq
            (by simp only [List.length_append, List.length_replicate, hl]; omega)
            (by
              simp only [Nat.add_zero]
              rw [take_take_append _ _ _ hnf]
              exact hU)
          simp only [Nat.add_zero] at hu
          rw [← h.2]
          refine ⟨?_, ?_, ?_⟩
          · simp only [a1, a3]
            exact hnp
          · simp only [a2, a6]
            omega
          · simp only [registry_unique, a2]
            exact hu
        · simp only [run_t.ret.injEq, Prod.mk.injEq] at h
          rw [← h.2]
          refine ⟨?_, ?_, ?_⟩
          · rw [a1, a3]
            exact hnp
          · rw [a2, a6]
            omega
          · simp only [registry_unique, a1, a2, a3, a5]
            exact hU
      · cases h
      · cases h

theorem reg_calls_unique (calls : List reg_call_t) (cfg cfg1 : cfgcli_t)
    (h : reg_calls cfg calls = run_t.ret cfg1)
    (hnp : cfg.npar ≤ cfg.params.length) (hnf : cfg.nfunc ≤ cfg.funcs.length)
    (hU : registry_unique cfg) :
    cfg1.npar ≤ cfg1.params.length ∧ cfg1.nfunc ≤ cfg1.funcs.length ∧
      registry_unique cfg1 := by
  induction calls generalizing cfg with
  | nil =>
    simp only [reg_calls, run_t.ret.injEq] at h
    subst h
    exact ⟨hnp, hnf, hU⟩
  | cons c rest ih =>
    cases c with
    | params ds =>
      simp only [reg_calls] at h
      split at h
      · rename_i code c2 heq
        obtain ⟨b1, b2, b3⟩ := set_params_unique cfg ds code c2 heq hnp hnf hU
        exact ih c2 h b1 b2 b3
      · cases h
      · cases h
    | funcs fs =>
      simp only [reg_calls] at h
      split at h
      · rename_i code c2 heq
        obtain ⟨b1, b2, b3⟩ := set_funcs_unique cfg fs code c2 heq hnp hnf hU
        exact ih c2 h b1 b2 b3
      · cases h
      · cases h

/-- C34: after every sequence of `cfgcli_set_params` and `cfgcli_set_funcs` calls on a fresh
registry, whatever each call returns, the registered entries satisfy the uniqueness
invariant: the parameter names are pairwise distinct, the short options that are set are
pairwise distinct across parameters and functions together, and the long options that are
present are pairwise distinct across parameters and functions together. -/
theorem registry_uniqueness (calls : List reg_call_t) (cfg : cfgcli_t)
    (h : reg_calls cfgcli_init calls = run_t.ret cfg) :
    (reg_names (cfg.params.take cfg.npar)).Nodup ∧
    (reg_opts (cfg.params.take cfg.npar) (cfg.funcs.take cfg.nfunc)).Nodup ∧
    (reg_lopts (cfg.params.take cfg.npar) (cfg.funcs.take cfg.nfunc)).Nodup :=
  (reg_calls_unique calls cfgcli_init cfg h (Nat.le_refl _) (Nat.le_refl _)
    ⟨List.nodup_nil, List.nodup_nil, List.nodup_nil⟩).2.2

theorem registry_uniqueness_witness :
    reg_calls cfgcli_init [reg_call_t.params [ex_conf, ex_ints], reg_call_t.funcs [ex_help],
      reg_call_t.params [ex_conf_again]] = run_t.ret ex_cfg_dup ∧
    (reg_names (ex_cfg_dup.params.take ex_cfg_dup.npar)).Nodup ∧
    (reg_opts (ex_cfg_dup.params.take ex_cfg_dup.npar)
      (ex_cfg_dup.funcs.take ex_cfg_dup.nfunc)).Nodup ∧
    (reg_lopts (ex_cfg_dup.params.take ex_cfg_dup.npar)
      (ex_cfg_dup.funcs.take ex_cfg_dup.nfunc)).Nodup :=
  ⟨by decide, registry_uniqueness [reg_call_t.params [ex_conf, ex_ints],
    reg_call_t.funcs [ex_help], reg_call_t.params [ex_conf_again]] ex_cfg_dup (by decide)⟩

theorem pwarn_loop_take (msg : Option (List Char)) (n : Nat) (l : List (List Char))
    (h : n ≤ l.length) :
    pwarn_loop msg n l = ((l.take n).map (diag_line msg), l.drop n) := by
  induction n generalizing l with
  | zero => simp [pwarn_loop]
  | succ n ih =>
    cases l with
    | nil => simp at h
    | cons e rest =>
      simp only [List.length_cons] at h
      simp [pwarn_loop, ih rest (by omega)]

theorem perror_skip_last (ws : List (List Char)) (e : List Char) :
    perror_skip ws.length (ws ++ [e]) = some e := by
  induction ws with
  | nil => rfl
  | cons w ws ih => simpa [perror_skip] using ih

theorem pwarn_clear (cfg : cfgcli_t) (msg : Option (List Char)) (h : cfg.error.errno = 0) :
    cfgcli_pwarn cfg msg =
      (cfg.error.msg.map (diag_line msg), { cfg with error := { cfg.error with msg := [] } }) := by
  have he : CFGCLI_IS_ERROR cfg = false := by simp [CFGCLI_IS_ERROR, CFGCLI_ERRNO, h]
  unfold cfgcli_pwarn
  simp only [he, Bool.false_eq_true, ↓reduceIte]
  cases hm : cfg.error.msg with
  | nil =>
    simp only [List.length_nil, Nat.cast_zero, le_refl, ↓reduceIte, List.map_nil]
    congr 1
    cases hc : cfg with
    | mk np nf ps fs er cl =>
      rw [hc] at hm
      simp only at hm
      cases er
      simp only at hm
      subst hm
      rfl
  | cons e rest =>
    have hp : ¬ (((e :: rest).length : Int) ≤ 0) := by
      simp only [List.length_cons]
      omega
    rw [if_neg hp]
    simp only [Int.toNat_ofNat, pwarn_loop_take msg (e :: rest).length (e :: rest) (Nat.le_refl _),
      List.take_length, List.drop_length]

theorem pwarn_error (cfg : cfgcli_t) (msg : Option (List Char)) (ws : List (List Char))
    (e : List Char) (h : cfg.error.errno ≠ 0) (hm : cfg.error.msg = ws ++ [e]) :
    cfgcli_pwarn cfg msg =
      (ws.map (diag_line msg), { cfg with error := { cfg.error with msg := [e] } }) := by
  have he : CFGCLI_IS_ERROR cfg = true := by simp [CFGCLI_IS_ERROR, CFGCLI_ERRNO, h]
  unfold cfgcli_pwarn
  simp only [he, ↓reduceIte, hm, List.length_append, List.length_singleton, Nat.cast_add,
    Nat.cast_one, add_sub_cancel_right]
  cases ws with
  | nil =>
    simp only [List.length_nil, Nat.cast_zero, le_refl, ↓reduceIte, List.map_nil, List.nil_append]
    congr 1
    cases hc : cfg with
    | mk np nf ps fs er cl =>
      rw [hc] at hm
      simp only at hm
      cases er
      simp only [List.nil_append] at hm
      subst hm
      rfl
  | cons w ws =>
    have hp : ¬ (((w :: ws).length : Int) ≤ 0) := by
      simp only [List.length_cons]
      omega
    rw [if_neg hp]
    simp only [Int.toNat_ofNat]
    rw [pwarn_loop_take msg (w :: ws).length ((w :: ws) ++ [e]) (by simp)]
    simp

theorem perror_single (cfg : cfgcli_t) (m2 : Option (List Char)) (e : List Char)
    (h : cfg.error.errno ≠ 0) (hm : cfg.error.msg = [e]) :
    cfgcli_perror cfg m2 = [diag_line m2 e] := by
  have he : CFGCLI_IS_ERROR cfg = true := by simp [CFGCLI_IS_ERROR, CFGCLI_ERRNO, h]
  simp [cfgcli_perror, he, hm, perror_skip]

theorem perror_clear (cfg : cfgcli_t) (m2 : Option (List Char)) (h : cfg.error.errno = 0) :
    cfgcli_perror cfg m2 = [] := by
  have he : CFGCLI_IS_ERROR cfg = false := by simp [CFGCLI_IS_ERROR, CFGCLI_ERRNO, h]
  simp [cfgcli_perror, he]

/-- C33 (counterexample): in the diagnostics state with the sticky error code set and no
entry recorded, `cfgcli_pwarn` writes nothing and leaves the buffer empty, and
`cfgcli_perror` then writes nothing although the sticky error code is set. -/
theorem error_without_entry :
    ex_no_entry.error.errno ≠ 0 ∧
    cfgcli_pwarn ex_no_entry none = ([], ex_no_entry) ∧
    (cfgcli_pwarn ex_no_entry none).2.error.msg = [] ∧
    cfgcli_perror (cfgcli_pwarn ex_no_entry none).2 none = [] := by
  refine ⟨?_, ?_, ?_, ?_⟩ <;> decide

/-- C33 (amended): for every diagnostics state in which a set sticky error code comes with at
least one recorded entry, `cfgcli_pwarn` keeps the sticky code and the rest of the registry.
With the code clear it writes every recorded entry in insertion order and leaves the buffer
empty.  With the code set it writes every entry but the last in insertion order and leaves
exactly the last entry, which `cfgcli_perror` then writes.  After the drain `cfgcli_perror`
writes a line if and only if the sticky code is set; it returns only its output, so it
removes nothing. -/
theorem drain_diagnostics (cfg : cfgcli_t) (msg : Option (List Char))
    (hrec : cfg.error.errno ≠ 0 → cfg.error.msg ≠ []) :
    (cfgcli_pwarn cfg msg).2 =
      { cfg with error := { cfg.error with msg := (cfgcli_pwarn cfg msg).2.error.msg } } ∧
    (cfg.error.errno = 0 →
      (cfgcli_pwarn cfg msg).1 = cfg.error.msg.map (diag_line msg) ∧
      (cfgcli_pwarn cfg msg).2.error.msg = []) ∧
    (cfg.error.errno ≠ 0 → ∃ ws e, cfg.error.msg = ws ++ [e] ∧
      (cfgcli_pwarn cfg msg).1 = ws.map (diag_line msg) ∧
      (cfgcli_pwarn cfg msg).2.error.msg = [e] ∧
      ∀ m2, cfgcli_perror (cfgcli_pwarn cfg msg).2 m2 = [diag_line m2 e]) ∧
    (∀ m2, cfgcli_perror (cfgcli_pwarn cfg msg).2 m2 ≠ [] ↔ cfg.error.errno ≠ 0) := by
  by_cases h : cfg.error.errno = 0
  · rw [pwarn_clear cfg msg h]
    refine ⟨rfl, fun _ => ⟨rfl, rfl⟩, fun hne => absurd h hne, ?_⟩
    intro m2
    have := perror_clear { cfg with error := { cfg.error with msg := [] } } m2 h
    simp only [this]
    simp [h]
  · obtain ⟨ws, e, hm⟩ : ∃ ws e, cfg.error.msg = ws ++ [e] := by
      have hne := hrec h
      exact ⟨cfg.error.msg.dropLast, cfg.error.msg.getLast hne,
        (List.dropLast_append_getLast hne).symm⟩
    rw [pwarn_error cfg msg ws e h hm]
    refine ⟨rfl, fun h0 => absurd h0 h, fun _ => ⟨ws, e, hm, rfl, rfl, ?_⟩, ?_⟩
    · intro m2
      exact perror_single _ m2 e h rfl
    · intro m2
      have := perror_single { cfg with error := { cfg.error with msg := [e] } } m2 e h rfl
      simp only [this]
      simp [h]

theorem drain_diagnostics_witness :
    (cfgcli_pwarn ex_warned_failed none).2 =
      { ex_warned_failed with error := { ex_warned_failed.error with
          msg := (cfgcli_pwarn ex_warned_failed none).2.error.msg } } ∧
    (ex_warned_failed.error.errno = 0 →
      (cfgcli_pwarn ex_warned_failed none).1 =
        ex_warned_failed.error.msg.map (diag_line none) ∧
      (cfgcli_pwarn ex_warned_failed none).2.error.msg = []) ∧
    (ex_warned_failed.error.errno ≠ 0 → ∃ ws e, ex_warned_failed.error.msg = ws ++ [e] ∧
      (cfgcli_pwarn ex_warned_failed none).1 = ws.map (diag_line none) ∧
      (cfgcli_pwarn ex_warned_failed none).2.error.msg = [e] ∧
      ∀ m2, cfgcli_perror (cfgcli_pwarn ex_warned_failed none).2 m2 = [diag_line m2 e]) ∧
    (∀ m2, cfgcli_perror (cfgcli_pwarn ex_warned_failed none).2 m2 ≠ [] ↔
      ex_warned_failed.error.errno ≠ 0) :=
  drain_diagnostics ex_warned_failed none (fun _ => by decide)

theorem src_step_congr (s prior : Int) (a b c : cfgcli_t) (h : c.params = b.params)
    (h1 : src_step s prior a b) : src_step s prior a c := by
  intro j
  have := h1 j
  simp only [param_src, h] at this ⊢
  exact this

/-- The loop over the lines of a buffer that holds one entry and its line terminator: the
entry is lexed as done and handed to the case `CFGCLI_PARSE_DONE`. -/
theorem file_lines_one (libc : libc_t) (cfg cfg1 : cfgcli_t) (name v Z : List Char)
    (prior : Int) (C nr : Nat) (fuel : Nat) (hlex : entry_lexed name v = true)
    (hnl : '\n' ∉ entry_line name v)
    (hfd : file_done libc prior
      { cfg := cfg, chunk := (name ++ NUL :: '=' :: ' ' :: v) ++ NUL :: Z, clen := C,
        nline := 1, nrest := nr, nproc := 0, key := some 0, value := some (name.length + 3),
        state := START, file := [] } =
      run_t.ret (0,
        { cfg := cfg1, chunk := (name ++ NUL :: '=' :: ' ' :: v) ++ NUL :: Z, clen := C,
          nline := 1, nrest := nr, nproc := 0, key := none, value := none,
          state := START, file := [] })) :
    file_lines libc prior ((entry_line name v).length + 1) (fuel + 2)
      { cfg := cfg, chunk := entry_line name v ++ '\n' :: Z, clen := C, nline := 0,
        nrest := nr, nproc := 0, key := none, value := none, state := START, file := [] } 0 =
    run_t.ret (0,
      { cfg := cfg1, chunk := (name ++ NUL :: '=' :: ' ' :: v) ++ NUL :: Z, clen := C,
        nline := 1, nrest := nr, nproc := 0, key := none, value := none, state := START,
        file := [] }, (entry_line name v).length + 1) := by
  have hlx := entry_lexed_unpack name v hlex
  have hfr := parse_line_frame (entry_line name v) (NUL :: Z) 0
    (entry_line name v).length none none START (by omega) _ _ _ _ hlx
  have f1 := find_newline [] (entry_line name v) Z ((entry_line name v).length + 1)
    hnl (by omega)
  simp only [List.nil_append, List.length_nil, List.drop_zero] at f1
  have p1 : poke (entry_line name v ++ '\n' :: Z) (entry_line name v).length NUL =
      entry_line name v ++ NUL :: Z := by
    have := set_append_add (entry_line name v) ('\n' :: Z) 0 NUL
    rw [Nat.add_zero] at this
    rw [poke, this]
    rfl
  rw [file_lines]
  simp only [List.drop_zero, Nat.sub_zero, f1, Nat.zero_add, p1, hfr.1, hfd, ne_eq,
    not_true_eq_false, ↓reduceIte]
  rw [file_lines]
  simp only [Nat.sub_self, List.take_zero, first_index]

/-- The reference reader on a content that is one entry line without a line feed, for a
designated parameter whose stored priority is lower, when `cfgcli_get` returns 0 for the
value: the entry that `cfgcli_get` leaves is stored with the source `prior`. -/
theorem ref_read_entry (libc : libc_t) (cfg : cfgcli_t) (j : Nat)
    (name lopt v : List Char) (prior : Int) (p1 : cfgcli_param_valid_t)
    (hd : designates cfg j name lopt = true)
    (hlex : entry_lexed name v = true) (hnul : NUL ∉ v) (hnl : '\n' ∉ v)
    (h : CFGCLI_SRC_VAL (cfg.params.getD j param_zero).src < prior)
    (hg : cfgcli_get libc cfg
      { cfg.params.getD j param_zero with value := some v, vlen := v.length + 1 } prior =
      (0, cfg, p1)) :
    ref_read_file libc cfg (entry_line name v) prior =
      run_t.ret (0, { cfg with params := cfg.params.set j { p1 with src := prior } }) := by
  obtain ⟨h1, h2, h3, h4, h5, h6, h7, h8, h9, h10⟩ := designates_unpack cfg j name lopt hd
  have t1 := chunk_key name v [] h4
  have t2 := chunk_value name v [] hnul
  have hnl2 := entry_no_newline name v h4 hnl
  have hlast : (entry_line name v).getLast? ≠ some '\n' := by
    intro e
    exact hnl2 (List.mem_of_getLast?_eq_some e)
  have hfd : file_done libc prior
      { cfg := cfg, chunk := (name ++ NUL :: '=' :: ' ' :: v) ++ NUL :: [],
        clen := (entry_line name v ++ ['\n']).length,
        nline := 1, nrest := 0, nproc := 0, key := some 0, value := some (name.length + 3),
        state := START, file := [] } =
      run_t.ret (0,
        { cfg := { cfg with params := cfg.params.set j { p1 with src := prior } },
          chunk := (name ++ NUL :: '=' :: ' ' :: v) ++ NUL :: [],
          clen := (entry_line name v ++ ['\n']).length,
          nline := 1, nrest := 0, nproc := 0, key := none, value := none,
          state := START, file := [] }) := by
    unfold file_done
    simp only [t1, t2, h6, h, ↓reduceIte, hg, ne_eq, not_true_eq_false]
  have hl := file_lines_one libc cfg _ name v [] prior (entry_line name v ++ ['\n']).length 0
    ((entry_line name v).length) hlex hnl2 hfd
  unfold ref_read_file
  simp only [hlast, ↓reduceIte, List.length_append, List.length_singleton] at hl ⊢
  rw [hl]

/-- The reference reader on the example line of 1024 bytes stores its value in the entry
of `conf` with the source 1. -/
theorem ref_read_full_chunk :
    ref_read_file ex_libc ex_cfg ex_line_1024 1 =
    run_t.ret (0,
      { ex_cfg with
        params := ex_cfg.params.set 0
                    { ex_cfg.params.getD 0 param_zero with
                      narr := (ex_cfg.params.getD 0 param_zero).narr,
                      value := some (List.replicate 1017 'x'), vlen := 1018,
                      slot := slot_t.scalar (scalar_t.str (List.replicate 1017 'x')),
                      src := 1 } }) := by
  have hx : ∀ y ∈ 'x' :: List.replicate 1016 'x', y = 'x' := by
    intro y hy
    rcases List.mem_cons.1 hy with e | e
    · exact e
    · exact List.eq_of_mem_replicate e
  have hg := get_str_plain ex_libc ex_cfg (ex_cfg.params.getD 0 param_zero) 'x'
    (List.replicate 1016 'x') 1 (by decide) (by decide) (by decide)
    (fun y hy => by rw [hx y hy]; decide) (by decide)
  have hl : ('x' :: List.replicate 1016 'x').length + 1 = 1018 := by
    simp only [List.length_cons, List.length_replicate]
  rw [hl] at hg
  have hr := ref_read_entry ex_libc ex_cfg 0 "conf".toList "conf".toList
    ('x' :: List.replicate 1016 'x') 1 _ (by decide)
    (by rw [← ex_value_cons]; exact ex_line_1024_lexed)
    (fun hm => absurd (hx _ hm) (by decide)) (fun hm => absurd (hx _ hm) (by decide))
    (by decide) (by rw [hl]; exact hg)
  rw [← ex_value_cons] at hr
  exact hr

/-- C35, failing input: a file made of the single entry line `conf = xxx...x` of exactly
1024 bytes, the size of the first chunk, with no line feed behind it.  `cfgcli_read_file`
returns 0 and leaves the registry as it was, so `conf` is not set; the reference reader,
which holds the content in memory and appends the missing line feed, returns 0 and sets
`conf` to the 1017 letters with the source 1. -/
theorem chunk_boundary_entry_lost :
    ex_line_1024.length = 1024 ∧
    cfgcli_read_file ex_libc ex_cfg (some "a.conf".toList) (some ex_line_1024) 1 =
      run_t.ret (0, ex_cfg) ∧
    cfgcli_is_set ex_cfg 100 = false ∧
    (∃ c, ref_read_file ex_libc ex_cfg ex_line_1024 1 = run_t.ret (0, c) ∧
      cfgcli_is_set c 100 = true ∧
      (c.params.getD 0 param_zero).slot =
        slot_t.scalar (scalar_t.str (List.replicate 1017 'x')) ∧
      (c.params.getD 0 param_zero).src = 1) := by
  have hd : designates ex_cfg 0 "conf".toList "conf".toList = true := by decide
  have ha := after_set ex_cfg 0 "conf".toList "conf".toList
    (ex_cfg.params.getD 0 param_zero).narr 1018 (some (List.replicate 1017 'x'))
    (slot_t.scalar (scalar_t.str (List.replicate 1017 'x'))) 1 hd
  have hs := is_set_of_designates _ 0 _ _ ha.1 (by rw [ha.2]; decide)
  rw [ha.2] at hs
  refine ⟨ex_line_1024_length, ?_, by decide, _, ref_read_full_chunk, hs, ?_, ?_⟩
  · exact read_file_full_bare ex_libc ex_cfg _ _ 1 (by decide) (by decide) (by decide)
      (by decide) (by decide) ex_line_1024_length
      (entry_no_newline _ _ (by decide)
        (fun hm => absurd (List.eq_of_mem_replicate hm) (by decide)))
  · exact congrArg cfgcli_param_valid_t.slot ha.2
  · exact congrArg cfgcli_param_valid_t.src ha.2

end Cfgcli
